import Mathlib

/-! # Blackbit: board, rules and FEN, embedded from the C++ sources

Shallow embedding of `src/blackbit` (color.hpp, pieces.hpp, place.hpp, move.hpp,
castle_flags.hpp, bitboard.hpp/.cpp, board.hpp/.cpp, rules.cpp).

Conventions.
* `int8_t`, `int32_t`, `uint32_t`, `uint64_t` values are `Int`/`Nat` with the
  wrap written out (`toInt8`, `toInt32`, `% 2^32`, `% 2^64`).
* Arrays indexed by `Place`, `Color`, `PieceType` are functions; the tables that
  `init_bitboard` fills at start-up are functions computing the entry.
* `StaticVector<T, cap>` is a `List T`; `push_back` appends at the end.
* A source `assert` (or an index outside an array, or a `push_back` on a full
  vector) makes the embedded operation return `none`.
* The Zobrist tables of `generated_board_hashes.hpp` are not part of the
  sources; they are the parameter `ZobristTables`.
-/

namespace Blackbit

/-! ## color.hpp, pieces.hpp -/

/-- The enum `Color` (`Black = 0`, `White = 1`, `None = 2`). -/
inductive Color where
  | Black
  | White
  | None
  deriving DecidableEq, Repr

/-- The function `oponent`: `Color(int(p) ^ 1)`.  On `None` the C++ value `Color(3)` is outside
the enumeration; every use in the embedded code is on `Black` or `White`. -/
def oponent : Color → Color
  | Color.Black => Color.White
  | Color.White => Color.Black
  | Color.None => Color.None

/-- The enum `PieceType`. -/
inductive PieceType where
  | CLEAR
  | PAWN
  | KNIGHT
  | BISHOP
  | ROOK
  | QUEEN
  | KING
  deriving DecidableEq, Repr

/-- The numeric value of a `PieceType`. -/
def PieceType.toNat : PieceType → Nat
  | PieceType.CLEAR => 0
  | PieceType.PAWN => 1
  | PieceType.KNIGHT => 2
  | PieceType.BISHOP => 3
  | PieceType.ROOK => 4
  | PieceType.QUEEN => 5
  | PieceType.KING => 6

/-- The array `AllPieces`. -/
def AllPieces : List PieceType :=
  [PieceType.PAWN, PieceType.KNIGHT, PieceType.BISHOP, PieceType.ROOK, PieceType.QUEEN,
   PieceType.KING]

/-- The function `piece_to_letter`. -/
def piece_to_letter : PieceType → Char
  | PieceType.PAWN => 'P'
  | PieceType.KNIGHT => 'N'
  | PieceType.BISHOP => 'B'
  | PieceType.ROOK => 'R'
  | PieceType.QUEEN => 'Q'
  | PieceType.KING => 'K'
  | PieceType.CLEAR => ' '

/-- The C function `tolower` on ASCII. -/
def tolower (c : Char) : Char :=
  if 'A' ≤ c ∧ c ≤ 'Z' then Char.ofNat (c.toNat + 32) else c

/-- The C function `isupper` on ASCII. -/
def isupper (c : Char) : Bool := decide ('A' ≤ c ∧ c ≤ 'Z')

/-- The C function `islower` on ASCII. -/
def islower (c : Char) : Bool := decide ('a' ≤ c ∧ c ≤ 'z')

/-- The C function `isdigit`. -/
def isdigit (c : Char) : Bool := decide ('0' ≤ c ∧ c ≤ '9')

/-- The function `letter_to_piece`. -/
def letter_to_piece (c : Char) : PieceType :=
  let l := tolower c
  if l = 'r' then PieceType.ROOK
  else if l = 'n' then PieceType.KNIGHT
  else if l = 'b' then PieceType.BISHOP
  else if l = 'q' then PieceType.QUEEN
  else if l = 'k' then PieceType.KING
  else if l = 'p' then PieceType.PAWN
  else PieceType.CLEAR

/-! ## Machine integers -/

/-- Narrowing to `int8_t`. -/
def toInt8 (x : Int) : Int := (x + 128) % 256 - 128

/-- Narrowing to `int32_t`. -/
def toInt32 (x : Int) : Int := (x + 2147483648) % 4294967296 - 2147483648

/-- All 64 bits set. -/
def mask64 : Nat := 2 ^ 64 - 1

/-! ## place.hpp -/

/-- A `Place` is its `int8_t` field `_place`; the embedding writes the type as `Int`. -/
abbrev Place := Int

/-- The method `Place::line`: `_place >> 3`. -/
def Place.line (p : Int) : Int := p / 8

/-- The method `Place::col`: `_place & 7`. -/
def Place.col (p : Int) : Int := p % 8

/-- The method `Place::of_line_of_col`: `Int(col | (lin << 3))` on `int8_t` arguments. -/
def Place.of_line_of_col (lin col : Int) : Int :=
  toInt8 (Int.lor (toInt8 col) (toInt8 lin * 8))

/-- The method `Place::down`. -/
def Place.down (p : Int) : Int := toInt8 (p - 8)

/-- The method `Place::up`. -/
def Place.up (p : Int) : Int := toInt8 (p + 8)

/-- The method `Place::right`. -/
def Place.right (p : Int) : Int := toInt8 (p + 1)

/-- The method `Place::left`. -/
def Place.left (p : Int) : Int := toInt8 (p - 1)

/-- The method `Place::mirror`. -/
def Place.mirror (p : Int) : Int := Place.of_line_of_col (7 - Place.line p) (Place.col p)

/-- The method `Place::of_int`. -/
def Place.of_int (p : Int) : Int := toInt8 p

/-- The method `Place::is_valid`. -/
def Place.is_valid (p : Int) : Bool := decide (0 ≤ p ∧ p < 64)

/-- The method `Place::invalid`. -/
def Place.invalid : Int := Place.of_int 64

/-- The method `Place::to_string`, as a list of characters. -/
def Place.to_string (p : Int) : List Char :=
  [Char.ofNat (('a'.toNat : Int) + Place.col p).toNat,
   Char.ofNat (('1'.toNat : Int) + Place.line p).toNat]

/-- The method `Place::of_string`; `none` is the `bee::Error`. -/
def Place.of_string (str : List Char) : Option Int :=
  match str with
  | [a, b] =>
    let col : Int := (a.toNat : Int) - ('a'.toNat : Int)
    let line : Int := (b.toNat : Int) - ('1'.toNat : Int)
    if col < 0 ∨ col > 7 ∨ line < 0 ∨ line > 7 then none
    else some (Place.of_line_of_col line col)
  | _ => none

/-! ## move.hpp -/

/-- The struct `Move`. -/
structure Move where
  o : Int
  d : Int
  _promotion : PieceType
  deriving DecidableEq, Repr

/-- The method `Move::promotion`. -/
def Move.promotion (m : Move) : PieceType := m._promotion

/-- The method `Move::set_promotion`. -/
def Move.set_promotion (m : Move) (p : PieceType) : Move := { m with _promotion := p }

/-- The method `Move::ol`. -/
def Move.ol (m : Move) : Int := Place.line m.o

/-- The method `Move::oc`. -/
def Move.oc (m : Move) : Int := Place.col m.o

/-- The method `Move::dl`. -/
def Move.dl (m : Move) : Int := Place.line m.d

/-- The method `Move::dc`. -/
def Move.dc (m : Move) : Int := Place.col m.d

/-- The method `Move::is_valid`. -/
def Move.is_valid (m : Move) : Bool := Place.is_valid m.o && Place.is_valid m.d && decide (m.o ≠ m.d)

/-- The operator `Move::operator==`: origin and destination agree. -/
def Move.same (m n : Move) : Bool := decide (m.o = n.o) && decide (m.d = n.d)

/-! ## castle_flags.hpp -/

/-- The struct `CastleFlags` is its `uint8_t` field `_flags`. -/
abbrev CastleFlags := Nat

namespace CastleFlags

/-- The constant `WhiteKing`. -/
def WhiteKing : Nat := 1
/-- The constant `WhiteQueen`. -/
def WhiteQueen : Nat := 2
/-- The constant `BlackKing`. -/
def BlackKing : Nat := 4
/-- The constant `BlackQueen`. -/
def BlackQueen : Nat := 8
/-- The constant `WhiteMask`. -/
def WhiteMask : Nat := WhiteKing ||| WhiteQueen
/-- The constant `BlackMask`. -/
def BlackMask : Nat := BlackKing ||| BlackQueen
/-- The constant `KingMask`. -/
def KingMask : Nat := WhiteKing ||| BlackKing
/-- The constant `QueenMask`. -/
def QueenMask : Nat := WhiteQueen ||| BlackQueen

/-- The function `CastleFlags::mask`; on `Color::None` the source asserts, the value here is 0. -/
def mask : Color → Nat
  | Color.White => WhiteMask
  | Color.Black => BlackMask
  | Color.None => 0

/-- The complement `~x` of a `uint8_t` operand, as it acts under `&=` on a `uint8_t`. -/
def not8 (x : Nat) : Nat := 255 ^^^ x

/-- The method `CastleFlags::none`. -/
def none : CastleFlags := 0
/-- The method `CastleFlags::all`. -/
def all : CastleFlags := WhiteMask ||| BlackMask
/-- The method `CastleFlags::clear`. -/
def clear (f : CastleFlags) (c : Color) : CastleFlags := f &&& not8 (mask c)
/-- The method `CastleFlags::clear_king`. -/
def clear_king (f : CastleFlags) (c : Color) : CastleFlags := f &&& not8 (mask c &&& KingMask)
/-- The method `CastleFlags::clear_queen`. -/
def clear_queen (f : CastleFlags) (c : Color) : CastleFlags := f &&& not8 (mask c &&& QueenMask)
/-- The method `CastleFlags::set_king`. -/
def set_king (f : CastleFlags) (c : Color) : CastleFlags := f ||| (mask c &&& KingMask)
/-- The method `CastleFlags::set_queen`. -/
def set_queen (f : CastleFlags) (c : Color) : CastleFlags := f ||| (mask c &&& QueenMask)
/-- The method `CastleFlags::can_castle`. -/
def can_castle (f : CastleFlags) (c : Color) : Bool := decide ((mask c &&& f) > 0)
/-- The method `CastleFlags::can_castle_king_side`. -/
def can_castle_king_side (f : CastleFlags) (c : Color) : Bool :=
  decide ((mask c &&& KingMask &&& f) > 0)
/-- The method `CastleFlags::can_castle_queen_side`. -/
def can_castle_queen_side (f : CastleFlags) (c : Color) : Bool :=
  decide ((mask c &&& QueenMask &&& f) > 0)
/-- The method `CastleFlags::is_clear`. -/
def is_clear (f : CastleFlags) : Bool := decide (f = 0)

end CastleFlags

/-! ## bitboard.hpp: the 64-bit word (a `Nat` below `2^64`) -/

namespace BitBoard

/-- The word `1ull << place.to_int()`. -/
def bit (p : Int) : Nat := (1 <<< p.toNat) % 2 ^ 64

/-- The method `BitBoard::set`. -/
def set (b : Nat) (p : Int) : Nat := b ||| bit p

/-- The method `BitBoard::invert`. -/
def invert (b : Nat) (p : Int) : Nat := b ^^^ bit p

/-- The method `BitBoard::is_set`. -/
def is_set (b : Nat) (p : Int) : Bool := decide (b &&& bit p ≠ 0)

/-- The method `BitBoard::is_not_set`. -/
def is_not_set (b : Nat) (p : Int) : Bool := !is_set b p

/-- The method `BitBoard::empty`. -/
def empty (b : Nat) : Bool := decide (b = 0)

/-- The method `BitBoard::not_empty`. -/
def not_empty (b : Nat) : Bool := decide (b ≠ 0)

/-- The operator `~` on a 64-bit word. -/
def compl (b : Nat) : Nat := mask64 ^^^ b

/-- The operator `<<` on a 64-bit word. -/
def shl (b : Nat) (n : Int) : Nat := (b <<< n.toNat) % 2 ^ 64

/-- The field `m_lower`: the low 32 bits of the word. -/
def m_lower (b : Nat) : Nat := b % 2 ^ 32

/-- The field `m_upper`: the high 32 bits of the word. -/
def m_upper (b : Nat) : Nat := (b / 2 ^ 32) % 2 ^ 32

/-- The constant `col_mask`. -/
def col_mask : Nat := 0x01010101

/-- The constant `col_rotate_code`. -/
def col_rotate_code : Nat := 0x10204080

/-- The constant `diag_rotate_code`. -/
def diag_rotate_code : Nat := 0x01010101

/-- The table `diag1_mask`. -/
def diag1_mask : List (Nat × Nat) :=
  [(0x00000001, 0x00000000), (0x00000102, 0x00000000), (0x00010204, 0x00000000),
   (0x01020408, 0x00000000), (0x02040810, 0x00000001), (0x04081020, 0x00000102),
   (0x08102040, 0x00010204), (0x10204080, 0x01020408), (0x20408000, 0x02040810),
   (0x40800000, 0x04081020), (0x80000000, 0x08102040), (0x00000000, 0x10204080),
   (0x00000000, 0x20408000), (0x00000000, 0x40800000), (0x00000000, 0x80000000)]

/-- The table `diag2_mask`. -/
def diag2_mask : List (Nat × Nat) :=
  [(0x00000080, 0x00000000), (0x00008040, 0x00000000), (0x00804020, 0x00000000),
   (0x80402010, 0x00000000), (0x40201008, 0x00000080), (0x20100804, 0x00008040),
   (0x10080402, 0x00804020), (0x08040201, 0x80402010), (0x04020100, 0x40201008),
   (0x02010000, 0x20100804), (0x01000000, 0x10080402), (0x00000000, 0x08040201),
   (0x00000000, 0x04020100), (0x00000000, 0x02010000), (0x00000000, 0x01000000)]

/-- The table `diag1_number`. -/
def diag1_number : List Nat :=
  [0, 1, 2, 3, 4, 5, 6, 7, 1, 2, 3, 4, 5, 6, 7, 8, 2, 3, 4, 5, 6, 7,
   8, 9, 3, 4, 5, 6, 7, 8, 9, 10, 4, 5, 6, 7, 8, 9, 10, 11, 5, 6, 7, 8,
   9, 10, 11, 12, 6, 7, 8, 9, 10, 11, 12, 13, 7, 8, 9, 10, 11, 12, 13, 14]

/-- The table `diag2_number`. -/
def diag2_number : List Nat :=
  [7, 6, 5, 4, 3, 2, 1, 0, 8, 7, 6, 5, 4, 3, 2, 1,
   9, 8, 7, 6, 5, 4, 3, 2, 10, 9, 8, 7, 6, 5, 4, 3,
   11, 10, 9, 8, 7, 6, 5, 4, 12, 11, 10, 9, 8, 7, 6, 5,
   13, 12, 11, 10, 9, 8, 7, 6, 14, 13, 12, 11, 10, 9, 8, 7]

/-- The method `BitBoard::get_line`. -/
def get_line (b : Nat) (line : Int) : Nat := (b >>> (line * 8).toNat) &&& 0xff

/-- The method `BitBoard::get_col` (32-bit multiplications wrap). -/
def get_col (b : Nat) (col : Int) : Nat :=
  (((((m_lower b >>> col.toNat) &&& col_mask) * col_rotate_code) % 2 ^ 32) >>> 28) |||
  (((((m_upper b >>> col.toNat) &&& col_mask) * col_rotate_code) % 2 ^ 32) >>> 24)

/-- The method `BitBoard::get_diag1`. -/
def get_diag1 (b : Nat) (d : Nat) : Nat :=
  ((((m_lower b &&& (diag1_mask.getD d (0, 0)).1) * diag_rotate_code) % 2 ^ 32) >>> 24) |||
  ((((m_upper b &&& (diag1_mask.getD d (0, 0)).2) * diag_rotate_code) % 2 ^ 32) >>> 24)

/-- The method `BitBoard::get_diag2`. -/
def get_diag2 (b : Nat) (d : Nat) : Nat :=
  ((((m_lower b &&& (diag2_mask.getD d (0, 0)).1) * diag_rotate_code) % 2 ^ 32) >>> 24) |||
  ((((m_upper b &&& (diag2_mask.getD d (0, 0)).2) * diag_rotate_code) % 2 ^ 32) >>> 24)

/-- Trailing zeros of a 16-bit value, by halving. -/
def ctz_go : Nat → Nat → Nat
  | 0, _ => 0
  | fuel + 1, n => if n % 2 = 1 then 0 else 1 + ctz_go fuel (n / 2)

/-- The table `ctz_table`: entry `i` is `__builtin_ctz(i)` (the entry 0 is never read on a
non-empty board). -/
def ctz_table (i : Nat) : Nat := ctz_go 16 i

/-- The method `BitBoard::get_one_place_int`. -/
def get_one_place_int (b : Nat) : Int :=
  if m_lower b ≠ 0 then
    if m_lower b &&& 0xffff ≠ 0 then (ctz_table (m_lower b &&& 0xffff) : Int)
    else (ctz_table (m_lower b >>> 16) : Int) + 16
  else
    if m_upper b &&& 0xffff ≠ 0 then (ctz_table (m_upper b &&& 0xffff) : Int) + 32
    else (ctz_table (m_upper b >>> 16) : Int) + 48

/-- The method `BitBoard::get_one_place`. -/
def get_one_place (b : Nat) : Int := Place.of_int (get_one_place_int b)

/-- The method `BitBoard::pop_place`: the place and the board after `invert`. -/
def pop_place (b : Nat) : Int × Nat := (get_one_place b, invert b (get_one_place b))

/-! ### bitboard.cpp: the tables of `init_bitboard` -/

/-- The function `is_valid_place`. -/
def is_valid_place (lin col : Int) : Bool := decide (lin ≥ 0 ∧ lin < 8 ∧ col ≥ 0 ∧ col < 8)

/-- The table `pawn_moves`: filled for the places 8..55. -/
def pawn_moves (c : Color) (place : Int) : Nat :=
  if 8 ≤ place ∧ place < 64 - 8 then
    match c with
    | Color.Black => set 0 (Place.down place)
    | Color.White => set 0 (Place.up place)
    | Color.None => 0
  else 0

/-- The table `pawn_captures`. -/
def pawn_captures (c : Color) (place : Int) : Nat :=
  if 8 ≤ place ∧ place < 64 - 8 then
    let l : Nat :=
      if Place.col place > 0 then
        match c with
        | Color.Black => set 0 (Place.left (Place.down place))
        | Color.White => set 0 (Place.left (Place.up place))
        | Color.None => 0
      else 0
    if Place.col place < 7 then
      match c with
      | Color.Black => set l (Place.right (Place.down place))
      | Color.White => set l (Place.right (Place.up place))
      | Color.None => 0
    else l
  else 0

/-- The table `pawn_promotion`. -/
def pawn_promotion (c : Color) (place : Int) : Nat :=
  if 8 ≤ place ∧ place < 64 - 8 then
    match c with
    | Color.Black => if Place.line place = 1 then set 0 (Place.down place) else 0
    | Color.White => if Place.line place = 6 then set 0 (Place.up place) else 0
    | Color.None => 0
  else 0

/-- The table `pawn_moves2`. -/
def pawn_moves2 (c : Color) (place : Int) : Nat :=
  if 8 ≤ place ∧ place < 64 - 8 then
    match c with
    | Color.White => if Place.line place = 1 then set 0 (Place.up (Place.up place)) else 0
    | Color.Black => if Place.line place = 6 then set 0 (Place.down (Place.down place)) else 0
    | Color.None => 0
  else 0

/-- The arrays `ndl`, `ndc` of knight steps. -/
def knight_steps : List (Int × Int) :=
  [(2, 1), (1, 2), (-1, 2), (-2, 1), (-2, -1), (-1, -2), (1, -2), (2, -1)]

/-- The arrays `kdl`, `kdc` of king steps. -/
def king_steps : List (Int × Int) :=
  [(1, 1), (1, 0), (1, -1), (0, -1), (-1, -1), (-1, 0), (-1, 1), (0, 1)]

/-- The loop that fills one entry of a step table. -/
def step_table (steps : List (Int × Int)) (p : Int) : Nat :=
  steps.foldl
    (fun bb s =>
      if is_valid_place (Place.line p + s.1) (Place.col p + s.2) then
        set bb (Place.of_line_of_col (Place.line p + s.1) (Place.col p + s.2))
      else bb)
    0

/-- The table `knight_moves`. -/
def knight_moves (p : Int) : Nat := step_table knight_steps p

/-- The table `king_moves`. -/
def king_moves (p : Int) : Nat := step_table king_steps p

/-- The unpacked mask `tmp[c] = (m >> c) & 1`. -/
def tmp (m : Nat) (c : Int) : Nat := (m >>> c.toNat) &&& 1

/-- One direction of the rook loop: `for (c = ...; c < 8 and c >= 0 and tmp[c] == 0; c += d)`
followed by `if (c < 8 and c >= 0)`; the pair is `(bb1, bb2)`. -/
def rook_scan (m : Nat) (d : Int) : Nat → Int → Nat × Nat → Nat × Nat
  | 0, _, acc => acc
  | fuel + 1, c, acc =>
    if c < 8 ∧ c ≥ 0 then
      let acc1 := (set acc.1 (Place.of_line_of_col 0 c), set acc.2 (Place.of_line_of_col c 0))
      if tmp m c = 0 then rook_scan m d fuel (c + d) acc1 else acc1
    else acc

/-- The pair `(rook_lin_moves[i][m], rook_col_moves[i][m])`. -/
def rook_tables (i : Int) (m : Nat) : Nat × Nat :=
  rook_scan m (-1) 8 (i + -1) (rook_scan m 1 8 (i + 1) (0, 0))

/-- The table `rook_lin_moves`. -/
def rook_lin_moves (i : Int) (m : Nat) : Nat := (rook_tables i m).1

/-- The table `rook_col_moves`. -/
def rook_col_moves (i : Int) (m : Nat) : Nat := (rook_tables i m).2

/-- One direction of a bishop loop:
`for (...; is_valid_place(l, c) and tmp[c] == 0; c += dc, l += dl)` followed by
`if (is_valid_place(l, c))`. -/
def diag_scan (m : Nat) (dl dc : Int) : Nat → Int → Int → Nat → Nat
  | 0, _, _, bb => bb
  | fuel + 1, l, c, bb =>
    if is_valid_place l c then
      if tmp m c = 0 then diag_scan m dl dc fuel (l + dl) (c + dc) (set bb (Place.of_line_of_col l c))
      else set bb (Place.of_line_of_col l c)
    else bb

/-- The table `bishop_diag1_moves` (steps `bdl1`, `bdc1`). -/
def bishop_diag1_moves (p : Int) (m : Nat) : Nat :=
  diag_scan m (-1) 1 8 (Place.line p + -1) (Place.col p + 1)
    (diag_scan m 1 (-1) 8 (Place.line p + 1) (Place.col p + -1) 0)

/-- The table `bishop_diag2_moves` (steps `bdl2`, `bdc2`). -/
def bishop_diag2_moves (p : Int) (m : Nat) : Nat :=
  diag_scan m (-1) (-1) 8 (Place.line p + -1) (Place.col p + -1)
    (diag_scan m 1 1 8 (Place.line p + 1) (Place.col p + 1) 0)

/-! ### bitboard.hpp: the move generators -/

/-- The method `BitBoard::get_pawn_noncapture_moves`. -/
def get_pawn_noncapture_moves (color : Color) (place : Int) (blockers : Nat) : Nat :=
  let resp := pawn_moves color place &&& compl blockers
  if not_empty resp then resp ||| (pawn_moves2 color place &&& compl blockers) else resp

/-- The method `BitBoard::get_pawn_capture_moves`. -/
def get_pawn_capture_moves (color : Color) (place : Int) (blockers : Nat) : Nat :=
  pawn_captures color place &&& blockers

/-- The method `BitBoard::get_pawn_capture_promotion_moves`. -/
def get_pawn_capture_promotion_moves (color : Color) (place : Int) (blockers : Nat) : Nat :=
  (pawn_captures color place &&& blockers) ||| (pawn_promotion color place &&& compl blockers)

/-- The method `BitBoard::get_pawn_moves`. -/
def get_pawn_moves (color : Color) (place : Int) (blockers : Nat) : Nat :=
  get_pawn_noncapture_moves color place blockers ||| get_pawn_capture_moves color place blockers

/-- The method `BitBoard::get_knight_moves`. -/
def get_knight_moves (place : Int) : Nat := knight_moves place

/-- The method `BitBoard::get_bishop_moves`. -/
def get_bishop_moves (place : Int) (blockers : Nat) : Nat :=
  let diag1 := diag1_number.getD place.toNat 0
  let diag2 := diag2_number.getD place.toNat 0
  let diag1_code := get_diag1 blockers diag1
  let diag2_code := get_diag2 blockers diag2
  bishop_diag1_moves place diag1_code ||| bishop_diag2_moves place diag2_code

/-- The method `BitBoard::get_rook_moves`. -/
def get_rook_moves (place : Int) (blockers : Nat) : Nat :=
  let lin := Place.line place
  let col := Place.col place
  let lin_code := get_line blockers lin
  let col_code := get_col blockers col
  shl (rook_lin_moves col lin_code) (lin * 8) ||| shl (rook_col_moves lin col_code) col

/-- The method `BitBoard::get_queen_moves`. -/
def get_queen_moves (place : Int) (blockers : Nat) : Nat :=
  get_rook_moves place blockers ||| get_bishop_moves place blockers

/-- The method `BitBoard::get_king_moves`. -/
def get_king_moves (place : Int) : Nat := king_moves place

end BitBoard

/-! ## score.hpp (the part the board uses) -/

/-- A `Score` is its `int32_t` field `_score_milli`. -/
abbrev Score := Int

/-- The operator `Score::operator+`. -/
def Score.add (a b : Score) : Score := toInt32 (a + b)

/-- The operator `Score::operator-`. -/
def Score.sub (a b : Score) : Score := toInt32 (a - b)

/-! ## board.hpp -/

/-- The struct `Pos`. -/
structure Pos where
  id : Nat
  type : PieceType
  owner : Color
  deriving DecidableEq, Repr

/-- The constructor `Pos()`. -/
def Pos.new : Pos := { id := 0, type := PieceType.CLEAR, owner := Color.None }

/-- The method `Pos::is_empty`. -/
def Pos.is_empty (p : Pos) : Bool := decide (p.type = PieceType.CLEAR)

/-- The struct `MoveInfo`. -/
structure MoveInfo where
  castle_flags : CastleFlags
  passan : Bool
  capturou : Bool
  promoveu : Bool
  castled : Bool
  passan_place : Int
  last_irreversible_move : Nat
  p : Pos
  deriving DecidableEq, Repr

/-- The constructor `MoveInfo()`; the field `last_irreversible_move` has no initial value in the
source and is written by `move` before it is read. -/
def MoveInfo.new : MoveInfo :=
  { castle_flags := CastleFlags.none, passan := false, capturou := false, promoveu := false,
    castled := false, passan_place := Place.invalid, last_irreversible_move := 0, p := Pos.new }

/-- The constants of `generated_board_hashes.hpp` (written by `gen_hashes_main.cpp`):
`hash_code[place][type][owner]`, `passant_hash[place]`, `castle_hash[flags]`, `hash_code_turn`. -/
structure ZobristTables where
  hash_code : Int → PieceType → Color → Nat
  passant_hash : Int → Nat
  castle_hash : Nat → Nat
  hash_code_turn : Nat

/-- The method `CastleFlags::hash`. -/
def CastleFlags.hash (Z : ZobristTables) (f : CastleFlags) : Nat := Z.castle_hash f

/-- The capacity of `PieceVector`. -/
def PieceVector.cap : Nat := 10

/-- The capacity of `Board::history`. -/
def History.cap : Nat := 1024

/-- The struct `Board`. -/
structure Board where
  bb_blockers : Color → Nat
  bbPeca : Color → PieceType → Nat
  turn : Color
  passan_place : Int
  history : List Nat
  castle_flags : CastleFlags
  _score : Color → Score
  _base_ply : Int
  _last_irreversible_move : Nat
  _pieces_table : Color → PieceType → List Int
  _squares : Int → Pos
  _hash_key : Nat

/-! ## board.cpp -/

/-- The table `material_table`, in milli-pawns. -/
def material_table : PieceType → Score
  | PieceType.CLEAR => 0
  | PieceType.PAWN => 1000
  | PieceType.KNIGHT => 3000
  | PieceType.BISHOP => 3000
  | PieceType.ROOK => 5000
  | PieceType.QUEEN => 9000
  | PieceType.KING => 0

/-- The table `piece_location_score`, in milli-pawns: entry `p(x)` is `int32_t(x * 1000)`. -/
def piece_location_table : List (List Int) :=
  [
   -- Clear
   [
    0, 0, 0, 0, 0, 0, 0, 0, 0, 0, 0, 0, 0, 0, 0, 0,
    0, 0, 0, 0, 0, 0, 0, 0, 0, 0, 0, 0, 0, 0, 0, 0,
    0, 0, 0, 0, 0, 0, 0, 0, 0, 0, 0, 0, 0, 0, 0, 0,
    0, 0, 0, 0, 0, 0, 0, 0, 0, 0, 0, 0, 0, 0, 0, 0],
   -- Pawn
   [
    0, 0, 0, 0, 0, 0, 0, 0, -183, -165, -158, -149, -144, -2, 31, -85,
    -199, -155, -95, -119, -58, -22, 34, -60, -276, -215, -138, -28, -76, -90, -138, -159,
    -156, -125, -97, -122, -33, -58, -71, -56, 388, 377, 408, 244, 343, 469, 522, 352,
    1766, 1691, 1670, 1695, 1585, 1389, 1283, 1310, 0, 0, 0, 0, 0, 0, 0, 0],
   -- Knight
   [
    -47, -313, -51, -41, -18, 41, -307, -51, -96, -70, -80, -86, -78, 27, -10, -34,
    -145, -48, -68, 38, 109, 31, 54, -51, -115, -2, 61, 73, 155, 122, 103, -64,
    -7, 56, 94, 316, 194, 318, 156, 103, -33, 2, 151, 210, 269, 318, 126, 29,
    -129, -92, 110, 73, 140, 177, -24, -6, -153, -4, 18, 14, 16, -25, -5, -71],
   -- Bishop
   [
    74, 130, 32, 63, 79, 0, 59, 80, 135, 147, 110, 51, 100, 150, 267, 81,
    33, 210, 187, 124, 126, 214, 170, 114, -5, 63, 101, 205, 173, 41, 59, 30,
    17, -58, 108, 199, 173, 138, -53, 37, 43, 95, 95, 73, 146, 274, 207, 222,
    -13, -1, -15, 7, -9, 136, 46, 59, 24, 17, 22, -16, 0, 5, 29, 15],
   -- Rook
   [
    -118, -31, -43, 24, 49, 61, 36, -170, -86, -53, -49, -43, -35, 0, 15, -77,
    -67, -75, -85, -96, -80, -35, 15, -50, -60, -71, -85, -89, -82, -64, -31, -50,
    -29, -45, -55, -96, -68, -8, 5, -13, -8, 22, 0, -12, 7, 47, 74, 23,
    64, 121, 140, 154, 156, 164, 203, 159, 124, 125, 138, 122, 141, 130, 102, 122],
   -- Queen
   [
    -22, -101, -102, -114, -40, -33, -72, -43, -56, -39, -35, -39, -26, -21, -65, -36,
    -105, -64, -37, -16, -54, -42, -29, -22, -178, -107, -38, -30, 98, -30, 32, -29,
    -61, -124, -27, 4, 220, 190, 135, 115, -33, 62, 64, 52, 301, 455, 479, 414,
    -7, -97, 155, 195, 219, 469, 236, 416, 163, 269, 303, 337, 372, 299, 225, 287],
   -- King
   [
    -110, 6, -59, -268, -169, -304, -147, -221, 32, 10, -10, -92, -117, -102, -22, -14,
    -22, 19, -12, -60, -72, -54, -18, -96, -105, 22, -23, -37, -80, -47, -31, -175,
    -86, 11, 27, 26, 28, 12, -8, -142, 56, 180, 183, 183, 182, 180, 183, 32,
    43, 193, 193, 146, 164, 183, 161, 60, -13, 39, 22, 18, 18, 26, 46, 13],
   -- Padding
   [
    0, 0, 0, 0, 0, 0, 0, 0, 0, 0, 0, 0, 0, 0, 0, 0,
    0, 0, 0, 0, 0, 0, 0, 0, 0, 0, 0, 0, 0, 0, 0, 0,
    0, 0, 0, 0, 0, 0, 0, 0, 0, 0, 0, 0, 0, 0, 0, 0,
    0, 0, 0, 0, 0, 0, 0, 0, 0, 0, 0, 0, 0, 0, 0, 0]
  ]

/-- The function `get_piece_location_score`. -/
def get_piece_location_score (piece_type : PieceType) (place : Int) : Score :=
  (piece_location_table.getD piece_type.toNat []).getD place.toNat 0

/-- The function `piece_value`. -/
def piece_value (place : Int) (color : Color) (type : PieceType) : Score :=
  let place := if color = Color.Black then Place.mirror place else place
  Score.add (material_table type) (get_piece_location_score type place)

namespace Board

/-- Writes one piece list of `_pieces_table`. -/
def setList (tbl : Color → PieceType → List Int) (c : Color) (t : PieceType)
    (l : List Int) : Color → PieceType → List Int :=
  Function.update tbl c (Function.update (tbl c) t l)

/-- Inverts one bit of `bbPeca[c][t]`. -/
def invertPeca (bb : Color → PieceType → Nat) (c : Color) (t : PieceType) (p : Int) :
    Color → PieceType → Nat :=
  Function.update bb c (Function.update (bb c) t (BitBoard.invert (bb c t) p))

/-- Inverts one bit of `bb_blockers[c]`. -/
def invertBlockers (bb : Color → Nat) (c : Color) (p : Int) : Color → Nat :=
  Function.update bb c (BitBoard.invert (bb c) p)

/-- The method `Board::clear`: the state it leaves. -/
def clear : Board :=
  { bb_blockers := fun _ => 0
    bbPeca := fun _ _ => 0
    turn := Color.White
    passan_place := Place.invalid
    history := []
    castle_flags := CastleFlags.none
    _score := fun _ => 0
    _base_ply := 0
    _last_irreversible_move := 0
    _pieces_table := fun _ _ => []
    _squares := fun _ => Pos.new
    _hash_key := 0 }

/-- The method `Board::is_history_full`. -/
def is_history_full (b : Board) : Bool := decide (b.history.length ≥ History.cap)

/-- The method `Board::ply`. -/
def ply (b : Board) : Int := b._base_ply + b.history.length

/-- The method `Board::get_blockers`. -/
def get_blockers (b : Board) : Nat := b.bb_blockers Color.White ||| b.bb_blockers Color.Black

/-- The method `Board::pieces`. -/
def pieces (b : Board) (color : Color) (type : PieceType) : List Int :=
  b._pieces_table color type

/-- The method `Board::hash_key`. -/
def hash_key (b : Board) : Nat := b._hash_key

/-- The method `Board::moves_since_last_catpure_or_pawn_move`. -/
def moves_since_last_catpure_or_pawn_move (b : Board) : Int :=
  (b.history.length : Int) - (b._last_irreversible_move : Int)

/-- The method `Board::repeated`: scans `history` from `_last_irreversible_move` to the end. -/
def repeated (b : Board) : Bool :=
  (b.history.drop b._last_irreversible_move).any (fun k => decide (k = b._hash_key))

/-- The method `Board::erase_piece2`.  `none`: an index outside `_squares`, `_pieces_table` or
the piece list. -/
def erase_piece2 (b : Board) (place : Int) : Option Board :=
  let p := b._squares place
  let list := b._pieces_table p.owner p.type
  if Place.is_valid place ∧ p.owner ≠ Color.None ∧ p.id < list.length then
    let last := list.length - 1
    if p.id ≠ last then
      let moved := list.getD last 0
      if Place.is_valid moved then
        some { b with
          _pieces_table := setList b._pieces_table p.owner p.type ((list.set p.id moved).dropLast)
          _squares := Function.update b._squares moved { b._squares moved with id := p.id } }
      else none
    else
      some { b with _pieces_table := setList b._pieces_table p.owner p.type list.dropLast }
  else none

/-- The method `Board::erase_piece`.  `none`: the `assert`, or an index outside an array. -/
def erase_piece (Z : ZobristTables) (b : Board) (place : Int) : Option Board :=
  if Place.is_valid place ∧ (b._squares place).type ≠ PieceType.CLEAR
      ∧ (b._squares place).owner ≠ Color.None then
    let owner := (b._squares place).owner
    let type := (b._squares place).type
    let b1 : Board := { b with
      _score := Function.update b._score owner
        (Score.sub (b._score owner) (piece_value place owner type))
      _hash_key := b._hash_key ^^^ Z.hash_code place type owner }
    (erase_piece2 b1 place).map fun b2 =>
      { b2 with
        _squares := Function.update b2._squares place
          { b2._squares place with type := PieceType.CLEAR, owner := Color.None }
        bb_blockers := invertBlockers b2.bb_blockers owner place
        bbPeca := invertPeca b2.bbPeca owner type place }
  else none

/-- The method `Board::insert_piece2`.  `none`: an index outside an array, or a full list. -/
def insert_piece2 (b : Board) (place : Int) (type : PieceType) (owner : Color) : Option Board :=
  let list := b._pieces_table owner type
  if Place.is_valid place ∧ owner ≠ Color.None ∧ list.length < PieceVector.cap then
    some { b with
      _pieces_table := setList b._pieces_table owner type (list ++ [place])
      _squares := Function.update b._squares place { b._squares place with id := list.length } }
  else none

/-- The method `Board::insert_piece`. -/
def insert_piece (Z : ZobristTables) (b : Board) (place : Int) (type : PieceType)
    (owner : Color) : Option Board :=
  if Place.is_valid place ∧ owner ≠ Color.None then
    let b1 : Board := { b with
      _score := Function.update b._score owner
        (Score.add (b._score owner) (piece_value place owner type))
      _hash_key := b._hash_key ^^^ Z.hash_code place type owner }
    (insert_piece2 b1 place type owner).map fun b2 =>
      { b2 with
        _squares := Function.update b2._squares place
          { b2._squares place with type := type, owner := owner }
        bb_blockers := invertBlockers b2.bb_blockers owner place
        bbPeca := invertPeca b2.bbPeca owner type place }
  else none

/-- The method `Board::move_piece`.  `none`: one of the two `assert`s, or an index outside an
array or the piece list. -/
def move_piece (Z : ZobristTables) (b : Board) (m : Move) : Option Board :=
  let owner := (b._squares m.o).owner
  let type := (b._squares m.o).type
  let id := (b._squares m.o).id
  if Place.is_valid m.o ∧ Place.is_valid m.d ∧ owner ≠ Color.None ∧ type ≠ PieceType.CLEAR
      ∧ id < (b._pieces_table owner type).length then
    let sq1 := Function.update b._squares m.d (b._squares m.o)
    some { b with
      _score := Function.update b._score owner
        (Score.add (b._score owner)
          (Score.sub (piece_value m.d owner type) (piece_value m.o owner type)))
      _hash_key := (b._hash_key ^^^ Z.hash_code m.o type owner) ^^^ Z.hash_code m.d type owner
      _pieces_table :=
        setList b._pieces_table owner type ((b._pieces_table owner type).set id m.d)
      _squares := Function.update sq1 m.o
        { sq1 m.o with type := PieceType.CLEAR, owner := Color.None }
      bb_blockers := invertBlockers (invertBlockers b.bb_blockers owner m.o) owner m.d
      bbPeca := invertPeca (invertPeca b.bbPeca owner type m.o) owner type m.d }
  else none

/-- The method `Board::set_piece_type`. -/
def set_piece_type (Z : ZobristTables) (b : Board) (place : Int) (type : PieceType) :
    Option Board :=
  let owner := (b._squares place).owner
  let prev_type := (b._squares place).type
  if Place.is_valid place ∧ owner ≠ Color.None then
    let b1 : Board := { b with
      _score := Function.update b._score owner
        (Score.add (b._score owner)
          (Score.sub (piece_value place owner type) (piece_value place owner prev_type)))
      _hash_key := (b._hash_key ^^^ Z.hash_code place type owner)
        ^^^ Z.hash_code place prev_type owner }
    (erase_piece2 b1 place).bind fun b2 =>
    (insert_piece2 b2 place type owner).map fun b3 =>
      { b3 with
        bbPeca := invertPeca (invertPeca b3.bbPeca owner prev_type place) owner type place
        _squares := Function.update b3._squares place { b3._squares place with type := type } }
  else none

/-- Board.cpp 643-672, first part of `Board::move`: the `assert`s on the move, the push on
`history`, the capture, and `_last_irreversible_move`.  `none`: an `assert`, or a full history. -/
def move_capture (Z : ZobristTables) (b0 : Board) (m : Move) : Option (Board × MoveInfo) :=
  if Move.is_valid m ∧ b0.history.length < History.cap then
    let b : Board := { b0 with history := b0.history ++ [b0._hash_key] }
    let type := (b._squares m.o).type
    if type ≠ PieceType.CLEAR ∧ (b._squares m.o).owner = b.turn then
      let r : Option (Board × MoveInfo) :=
        if (b._squares m.d).type ≠ PieceType.CLEAR then
          (erase_piece Z b m.d).map fun b1 =>
            (b1, { MoveInfo.new with p := b._squares m.d, capturou := true })
        else some (b, { MoveInfo.new with capturou := false })
      r.map fun s =>
        let mi : MoveInfo := { s.2 with last_irreversible_move := s.1._last_irreversible_move }
        if mi.capturou = true ∨ type = PieceType.PAWN then
          ({ s.1 with _last_irreversible_move := s.1.history.length }, mi)
        else (s.1, mi)
    else none
  else none

/-- Board.cpp 674-693, `Board::move`: en passant.  `none`: the `assert(false)` of the branch
that finds no pawn to take. -/
def move_en_passan (Z : ZobristTables) (s : Board × MoveInfo) (m : Move) (type : PieceType) :
    Option (Board × MoveInfo) :=
  if type = PieceType.PAWN ∧ s.2.capturou = false ∧ Move.dc m ≠ Move.oc m then
    let p := Place.of_line_of_col (Move.ol m) (Move.dc m)
    if Place.is_valid p ∧ (s.1._squares p).type = PieceType.PAWN then
      (erase_piece Z s.1 p).map fun b1 => (b1, { s.2 with p := s.1._squares p, passan := true })
    else none
  else some (s.1, { s.2 with passan := false })

/-- Board.cpp 698-705, `Board::move`: promotion.  `none`: the `assert(false)` on a piece that is
not a pawn. -/
def move_promote (Z : ZobristTables) (b : Board) (m : Move) (type : PieceType) : Option Board :=
  if Move.promotion m ≠ PieceType.CLEAR then
    if type ≠ PieceType.PAWN then none else set_piece_type Z b m.d (Move.promotion m)
  else some b

/-- Board.cpp 707-717, `Board::move`: the en-passant square.  Both places are valid here, so the
C++ division `(o + d) / 2` is the floor. -/
def move_mark_passan (Z : ZobristTables) (s : Board × MoveInfo) (m : Move) (type : PieceType) :
    Board × MoveInfo :=
  let b1 : Board :=
    if Place.is_valid s.1.passan_place then
      { s.1 with _hash_key := s.1._hash_key ^^^ Z.passant_hash s.1.passan_place }
    else s.1
  let mi : MoveInfo := { s.2 with passan_place := b1.passan_place }
  if type = PieceType.PAWN ∧ (m.d - m.o = 16 ∨ m.d - m.o = -16) then
    let pp := Place.of_int ((m.o + m.d) / 2)
    ({ b1 with passan_place := pp, _hash_key := b1._hash_key ^^^ Z.passant_hash pp }, mi)
  else ({ b1 with passan_place := Place.invalid }, mi)

/-- Board.cpp 721-743, `Board::move`: the rook of a castle, and the castling rights of the side
that moves. -/
def move_castle (Z : ZobristTables) (s : Board × MoveInfo) (m : Move) (type : PieceType) :
    Option (Board × MoveInfo) :=
  let b := s.1
  let mi : MoveInfo := { s.2 with castle_flags := b.castle_flags, castled := false }
  if type = PieceType.KING then
    let r : Option (Board × Bool) :=
      if Place.col m.d - Place.col m.o = 2 then
        (move_piece Z b ⟨Place.right m.d, Place.left m.d, PieceType.CLEAR⟩).map
          fun b1 => (b1, true)
      else if Place.col m.d - Place.col m.o = -2 then
        (move_piece Z b ⟨Place.left (Place.left m.d), Place.right m.d, PieceType.CLEAR⟩).map
          fun b1 => (b1, true)
      else some (b, false)
    r.map fun x =>
      if x.2 = true ∨ CastleFlags.can_castle x.1.castle_flags x.1.turn = true then
        ({ x.1 with castle_flags := CastleFlags.clear x.1.castle_flags x.1.turn },
          { mi with castled := x.2 })
      else (x.1, { mi with castled := x.2 })
  else if type = PieceType.ROOK ∧ CastleFlags.can_castle b.castle_flags b.turn = true then
    if Place.col m.o = 0 then
      some ({ b with castle_flags := CastleFlags.clear_queen b.castle_flags b.turn }, mi)
    else if Place.col m.o = 7 then
      some ({ b with castle_flags := CastleFlags.clear_king b.castle_flags b.turn }, mi)
    else some (b, mi)
  else some (b, mi)

/-- Board.cpp 744-752, `Board::move`: the castling rights of the side whose rook is taken, and
the key of the castling rights. -/
def move_rook_taken (Z : ZobristTables) (x : Board × MoveInfo) (m : Move)
    (taking_type : PieceType) (op : Color) : Board × MoveInfo :=
  let b2 : Board :=
    if taking_type = PieceType.ROOK ∧ (Place.line m.d = 0 ∨ Place.line m.d = 7) then
      if Place.col m.d = 0 then
        { x.1 with castle_flags := CastleFlags.clear_queen x.1.castle_flags op }
      else if Place.col m.d = 7 then
        { x.1 with castle_flags := CastleFlags.clear_king x.1.castle_flags op }
      else x.1
    else x.1
  ({ b2 with _hash_key := b2._hash_key ^^^
      (CastleFlags.hash Z b2.castle_flags ^^^ CastleFlags.hash Z x.2.castle_flags) }, x.2)

/-- Board.cpp 754-766, `Board::move`: the last `assert` and the change of turn. -/
def move_finish (Z : ZobristTables) (s : Board × MoveInfo) (m : Move) (type : PieceType)
    (op : Color) : Option (Board × MoveInfo) :=
  if (s.1._squares m.d).type ≠ type ∧ Move.promotion m ≠ (s.1._squares m.d).type then none
  else some ({ s.1 with turn := op, _hash_key := s.1._hash_key ^^^ Z.hash_code_turn }, s.2)

/-- The method `Board::move`.  The `ASSERT(checkBoard())` lines of the debug build are not
embedded. -/
def move (Z : ZobristTables) (b : Board) (m : Move) : Option (Board × MoveInfo) :=
  let type := (b._squares m.o).type
  let taking_type := (b._squares m.d).type
  let op := oponent b.turn
  (move_capture Z b m).bind fun s1 =>
  (move_en_passan Z s1 m type).bind fun s2 =>
  (move_piece Z s2.1 m).bind fun b3 =>
  (move_promote Z b3 m type).bind fun b4 =>
  (move_castle Z (move_mark_passan Z (b4, s2.2) m type) m type).bind fun s6 =>
  move_finish Z (move_rook_taken Z s6 m taking_type op) m type op

/-- Board.cpp 777-789, `Board::undo`: the turn, the rook of a castle, the castling rights. -/
def undo_castle (Z : ZobristTables) (b0 : Board) (m : Move) (mi : MoveInfo) : Option Board :=
  let b : Board := { b0 with _hash_key := b0._hash_key ^^^ Z.hash_code_turn,
                             turn := oponent b0.turn }
  let r : Option Board :=
    if mi.castled = true then
      if m.d - m.o = 2 then
        move_piece Z b ⟨Place.left m.d, Place.right m.d, PieceType.CLEAR⟩
      else if Place.col m.d - Place.col m.o = -2 then
        move_piece Z b ⟨Place.right m.d, Place.left (Place.left m.d), PieceType.CLEAR⟩
      else some b
    else some b
  r.map fun b1 =>
    if b1.castle_flags ≠ mi.castle_flags then
      { b1 with
        _hash_key := b1._hash_key ^^^
          (CastleFlags.hash Z b1.castle_flags ^^^ CastleFlags.hash Z mi.castle_flags)
        castle_flags := mi.castle_flags }
    else b1

/-- Board.cpp 791-804, `Board::undo`: promotion, en passant, the en-passant square. -/
def undo_passan (Z : ZobristTables) (b : Board) (m : Move) (mi : MoveInfo) : Option Board :=
  let r1 : Option Board :=
    if Move.promotion m ≠ PieceType.CLEAR then set_piece_type Z b m.d PieceType.PAWN else some b
  let r2 : Option Board := r1.bind fun b1 =>
    if mi.passan = true then
      insert_piece Z b1 (Place.of_line_of_col (Move.ol m) (Move.dc m)) mi.p.type mi.p.owner
    else some b1
  r2.map fun b2 =>
    let b3 : Board :=
      if Place.is_valid b2.passan_place then
        { b2 with _hash_key := b2._hash_key ^^^ Z.passant_hash b2.passan_place }
      else b2
    let b4 : Board := { b3 with passan_place := mi.passan_place }
    if Place.is_valid b4.passan_place then
      { b4 with _hash_key := b4._hash_key ^^^ Z.passant_hash b4.passan_place }
    else b4

/-- Board.cpp 806-813, `Board::undo`: the piece goes back, the captured piece returns, the
history entry is popped.  `none`: `pop_back` on an empty history. -/
def undo_piece (Z : ZobristTables) (b : Board) (m : Move) (mi : MoveInfo) : Option Board :=
  (move_piece Z b ⟨m.d, m.o, PieceType.CLEAR⟩).bind fun b1 =>
  let r : Option Board :=
    if mi.capturou = true then insert_piece Z b1 m.d mi.p.type mi.p.owner else some b1
  r.bind fun b2 =>
    if b2.history = [] then none
    else some { b2 with history := b2.history.dropLast,
                        _last_irreversible_move := mi.last_irreversible_move }

/-- The method `Board::undo`. -/
def undo (Z : ZobristTables) (b : Board) (m : Move) (mi : MoveInfo) : Option Board :=
  (undo_castle Z b m mi).bind fun b1 =>
  (undo_passan Z b1 m mi).bind fun b2 =>
  undo_piece Z b2 m mi

/-- The method `Board::check_hash_key`: the key of the occupied squares, recomputed. -/
def squares_key (Z : ZobristTables) (sq : Int → Pos) : Nat :=
  (List.range 64).foldl
    (fun (hashk : Nat) (p : Nat) =>
      if (sq (Place.of_int (p : Int))).owner ≠ Color.None then
        hashk ^^^ Z.hash_code (Place.of_int (p : Int)) (sq (Place.of_int (p : Int))).type
          (sq (Place.of_int (p : Int))).owner
      else hashk)
    0

end Board

/-! ## eval_scratch.hpp, player_pair.hpp -/

/-- The struct `EvalScratch`: its field `attacks_bb`, a `PlayerPair<BitBoard>`. -/
structure EvalScratch where
  white : Nat
  black : Nat

/-- The method `PlayerPair::get`; on `Color::None` the source asserts, the value here is 0. -/
def EvalScratch.get (s : EvalScratch) : Color → Nat
  | Color.White => s.white
  | Color.Black => s.black
  | Color.None => 0

/-! ## rules.cpp

`MoveVector` is a `List Move`; its capacity of 256 is not embedded. -/

/-- The interface the template `PieceRules<T>` asks of `T`. -/
structure PieceImpl where
  adjust_blockers : Board → Nat → Nat
  set_promos : Nat → List Move → List Move
  moves_bb : Color → Int → Nat → Nat → Nat → CastleFlags → Nat
  attacks_bb : Color → Int → Nat → Nat
  additional_move_validation : Move → Bool
  type : PieceType

/-- The method `PawnImpl::set_promos`: the moves from index `first` on that end on line 0 or 7
get the promotion `QUEEN`. -/
def PawnImpl.set_promos (first : Nat) (list : List Move) : List Move :=
  list.take first ++ (list.drop first).map fun m =>
    if Move.dl m = 0 ∨ Move.dl m = 7 then Move.set_promotion m PieceType.QUEEN else m

/-- The struct `PawnImpl`. -/
def PawnImpl : PieceImpl :=
  { adjust_blockers := fun board bb =>
      if Place.is_valid board.passan_place then BitBoard.set bb board.passan_place else bb
    set_promos := PawnImpl.set_promos
    moves_bb := fun color place blockers _ _ _ => BitBoard.get_pawn_moves color place blockers
    attacks_bb := fun color place blockers =>
      BitBoard.get_pawn_capture_promotion_moves color place blockers
    additional_move_validation := fun m =>
      let promo := Move.promotion m
      let dl := Move.dl m
      if promo ≠ PieceType.CLEAR then
        if promo = PieceType.PAWN ∨ promo = PieceType.KING then false
        else if dl ≠ 0 ∧ dl ≠ 7 then false
        else true
      else if dl = 0 ∨ dl = 7 then false
      else true
    type := PieceType.PAWN }

/-- The struct `KnightImpl`. -/
def KnightImpl : PieceImpl :=
  { adjust_blockers := fun _ bb => bb
    set_promos := fun _ list => list
    moves_bb := fun _ place _ _ _ _ => BitBoard.get_knight_moves place
    attacks_bb := fun _ place _ => BitBoard.get_knight_moves place
    additional_move_validation := fun m => decide (Move.promotion m = PieceType.CLEAR)
    type := PieceType.KNIGHT }

/-- The struct `BishopImpl`. -/
def BishopImpl : PieceImpl :=
  { adjust_blockers := fun _ bb => bb
    set_promos := fun _ list => list
    moves_bb := fun _ place blockers _ _ _ => BitBoard.get_bishop_moves place blockers
    attacks_bb := fun _ place blockers => BitBoard.get_bishop_moves place blockers
    additional_move_validation := fun m => decide (Move.promotion m = PieceType.CLEAR)
    type := PieceType.BISHOP }

/-- The struct `RookImpl`. -/
def RookImpl : PieceImpl :=
  { adjust_blockers := fun _ bb => bb
    set_promos := fun _ list => list
    moves_bb := fun _ place blockers _ _ _ => BitBoard.get_rook_moves place blockers
    attacks_bb := fun _ place blockers => BitBoard.get_rook_moves place blockers
    additional_move_validation := fun m => decide (Move.promotion m = PieceType.CLEAR)
    type := PieceType.ROOK }

/-- The struct `QueenImpl`. -/
def QueenImpl : PieceImpl :=
  { adjust_blockers := fun _ bb => bb
    set_promos := fun _ list => list
    moves_bb := fun _ place blockers _ _ _ => BitBoard.get_queen_moves place blockers
    attacks_bb := fun _ place blockers => BitBoard.get_queen_moves place blockers
    additional_move_validation := fun m => decide (Move.promotion m = PieceType.CLEAR)
    type := PieceType.QUEEN }

/-- The method `KingImpl::maybe_add_castle`; the result is the new value of `moves`. -/
def KingImpl.maybe_add_castle (color : Color) (place : Int) (line : Int)
    (castle_flags : CastleFlags) (blockers attacked rooks moves : Nat) : Nat :=
  if BitBoard.is_set attacked place then moves
  else if Place.line place = line then
    let moves1 :=
      if CastleFlags.can_castle_king_side castle_flags color
          && BitBoard.is_set rooks (Place.of_line_of_col line 7)
          && BitBoard.is_not_set blockers (Place.of_line_of_col line 5)
          && BitBoard.is_not_set blockers (Place.of_line_of_col line 6)
          && BitBoard.is_not_set attacked (Place.of_line_of_col line 5)
          && BitBoard.is_not_set attacked (Place.of_line_of_col line 6) then
        BitBoard.set moves (Place.of_line_of_col line 6)
      else moves
    if CastleFlags.can_castle_queen_side castle_flags color
        && BitBoard.is_set rooks (Place.of_line_of_col line 0)
        && BitBoard.is_not_set blockers (Place.of_line_of_col line 1)
        && BitBoard.is_not_set blockers (Place.of_line_of_col line 2)
        && BitBoard.is_not_set blockers (Place.of_line_of_col line 3)
        && BitBoard.is_not_set attacked (Place.of_line_of_col line 2)
        && BitBoard.is_not_set attacked (Place.of_line_of_col line 3) then
      BitBoard.set moves1 (Place.of_line_of_col line 2)
    else moves1
  else moves

/-- The method `KingImpl::moves_bb`; on `Color::None` the source asserts. -/
def KingImpl.moves_bb (color : Color) (place : Int) (blockers attacked rooks : Nat)
    (castle_flags : CastleFlags) : Nat :=
  let moves := BitBoard.get_king_moves place
  if CastleFlags.can_castle castle_flags color then
    match color with
    | Color.White =>
      KingImpl.maybe_add_castle Color.White place 0 castle_flags blockers attacked rooks moves
    | Color.Black =>
      KingImpl.maybe_add_castle Color.Black place 7 castle_flags blockers attacked rooks moves
    | Color.None => moves
  else moves

/-- The struct `KingImpl`. -/
def KingImpl : PieceImpl :=
  { adjust_blockers := fun _ bb => bb
    set_promos := fun _ list => list
    moves_bb := KingImpl.moves_bb
    attacks_bb := fun _ place _ => BitBoard.get_king_moves place
    additional_move_validation := fun m => decide (Move.promotion m = PieceType.CLEAR)
    type := PieceType.KING }

namespace PieceRules

/-- The method `PieceRules::get_blockers`. -/
def get_blockers (impl : PieceImpl) (board : Board) : Nat :=
  impl.adjust_blockers board (Board.get_blockers board)

/-- The method `PieceRules::moves_bb`. -/
def moves_bb (impl : PieceImpl) (board : Board) (color : Color) (place : Int)
    (attacked rooks : Nat) : Nat :=
  impl.moves_bb color place (get_blockers impl board) attacked rooks board.castle_flags
    &&& BitBoard.compl (board.bb_blockers color)

/-- The method `PieceRules::attacks_bb`. -/
def attacks_bb (impl : PieceImpl) (board : Board) (color : Color) (place : Int) : Nat :=
  impl.attacks_bb color place (get_blockers impl board) &&& BitBoard.compl (board.bb_blockers color)

/-- One run of the loop of `PieceRules::pop_moves`; 64 runs empty a 64-bit board. -/
def pop_moves_go (o : Int) : Nat → Nat → List Move → List Move
  | 0, _, list => list
  | fuel + 1, b, list =>
    if BitBoard.empty b then list
    else pop_moves_go o fuel (BitBoard.pop_place b).2
      (list ++ [⟨o, (BitBoard.pop_place b).1, PieceType.CLEAR⟩])

/-- The method `PieceRules::pop_moves`. -/
def pop_moves (o : Int) (b : Nat) (list : List Move) : List Move := pop_moves_go o 64 b list

/-- The method `PieceRules::list_moves`. -/
def list_moves (impl : PieceImpl) (board : Board) (color : Color) (place : Int)
    (attacked rooks : Nat) (list : List Move) : List Move :=
  impl.set_promos list.length (pop_moves place (moves_bb impl board color place attacked rooks) list)

/-- The method `PieceRules::pieces`. -/
def pieces (impl : PieceImpl) (board : Board) (color : Color) : List Int :=
  Board.pieces board color impl.type

/-- The method `PieceRules::is_valid_move`. -/
def is_valid_move (impl : PieceImpl) (board : Board) (m : Move) (attacked rooks : Nat) : Bool :=
  impl.additional_move_validation m &&
    BitBoard.is_set (moves_bb impl board (board._squares m.o).owner m.o attacked rooks) m.d

/-- The method `PieceRules::list_all_moves`. -/
def list_all_moves (impl : PieceImpl) (board : Board) (color : Color) (attacked rooks : Nat)
    (list : List Move) : List Move :=
  (pieces impl board color).foldl
    (fun l place => list_moves impl board color place attacked rooks l) list

/-- The method `PieceRules::all_attacks_bb`. -/
def all_attacks_bb (impl : PieceImpl) (board : Board) (color : Color) : Nat :=
  (pieces impl board color).foldl (fun out place => out ||| attacks_bb impl board color place) 0

end PieceRules

namespace Rules

/-- The method `CombinedRules::attacks_bb`, which is `Rules::attacks_bb`. -/
def attacks_bb (board : Board) (color : Color) : Nat :=
  (((((0 ||| PieceRules.all_attacks_bb PawnImpl board color)
    ||| PieceRules.all_attacks_bb KnightImpl board color)
    ||| PieceRules.all_attacks_bb BishopImpl board color)
    ||| PieceRules.all_attacks_bb RookImpl board color)
    ||| PieceRules.all_attacks_bb QueenImpl board color)
    ||| PieceRules.all_attacks_bb KingImpl board color

/-- The method `Rules::make_scratch`. -/
def make_scratch (b : Board) : EvalScratch :=
  { white := attacks_bb b Color.White, black := attacks_bb b Color.Black }

/-- The method `CombinedRules::list_moves`, which is `Rules::list_moves`; the result is the new
value of `moves`. -/
def list_moves (board : Board) (scratch : EvalScratch) (moves : List Move) : List Move :=
  let color := board.turn
  let attacked := scratch.get (oponent color)
  let rooks := board.bbPeca color PieceType.ROOK
  PieceRules.list_all_moves KingImpl board color attacked rooks
    (PieceRules.list_all_moves QueenImpl board color attacked rooks
      (PieceRules.list_all_moves RookImpl board color attacked rooks
        (PieceRules.list_all_moves BishopImpl board color attacked rooks
          (PieceRules.list_all_moves KnightImpl board color attacked rooks
            (PieceRules.list_all_moves PawnImpl board color attacked rooks moves)))))

/-- The method `CombinedRules::is_king_under_attack`, which is `Rules::is_king_under_attack`. -/
def is_king_under_attack (board : Board) (scratch : EvalScratch) (color : Color) : Bool :=
  !BitBoard.empty (board.bbPeca color PieceType.KING &&& scratch.get (oponent color))

/-- The lambda `is_valid_by_general_rule` of `CombinedRules::is_valid_move`. -/
def is_valid_by_general_rule (board : Board) (m : Move) : Bool :=
  let color := board.turn
  let attacked := attacks_bb board (oponent color)
  let rooks := board.bbPeca color PieceType.ROOK
  match (board._squares m.o).type with
  | PieceType.PAWN => PieceRules.is_valid_move PawnImpl board m attacked rooks
  | PieceType.KNIGHT => PieceRules.is_valid_move KnightImpl board m attacked rooks
  | PieceType.BISHOP => PieceRules.is_valid_move BishopImpl board m attacked rooks
  | PieceType.ROOK => PieceRules.is_valid_move RookImpl board m attacked rooks
  | PieceType.QUEEN => PieceRules.is_valid_move QueenImpl board m attacked rooks
  | PieceType.KING => PieceRules.is_valid_move QueenImpl board m attacked rooks
  | PieceType.CLEAR => false

/-- The method `CombinedRules::is_valid_move`, which is `Rules::is_legal_move`.  `none`: the
call `copy.move(m)` stops on an `assert`. -/
def is_legal_move (Z : ZobristTables) (board : Board) (_scratch : EvalScratch) (m : Move) :
    Option Bool :=
  let color := board.turn
  if !is_valid_by_general_rule board m then some false
  else
    (Board.move Z board m).map fun r =>
      if is_king_under_attack r.1 (make_scratch r.1) color then false else true

/-- The method `Rules::is_check`. -/
def is_check (board : Board) (scratch : EvalScratch) : Bool :=
  is_king_under_attack board scratch board.turn

/-- The enum `PiecesLeft`. -/
inductive PiecesLeft where
  | KingOnly
  | KingOneKnight
  | KingOneBishop
  | Other
  deriving DecidableEq, Repr

/-- The lambda `pieces_left` of `is_draw_by_insuficient_material`. -/
def pieces_left (board : Board) (color : Color) : PiecesLeft :=
  let p := board._pieces_table color
  if (p PieceType.QUEEN).length > 0 ∨ (p PieceType.ROOK).length > 0
      ∨ (p PieceType.PAWN).length > 0 ∨ (p PieceType.KING).length ≠ 1 then PiecesLeft.Other
  else if (p PieceType.KNIGHT).length = 0 ∧ (p PieceType.BISHOP).length = 0 then
    PiecesLeft.KingOnly
  else if (p PieceType.KNIGHT).length = 1 ∧ (p PieceType.BISHOP).length = 0 then
    PiecesLeft.KingOneKnight
  else if (p PieceType.KNIGHT).length = 0 ∧ (p PieceType.BISHOP).length = 1 then
    PiecesLeft.KingOneBishop
  else PiecesLeft.Other

/-- The function `is_draw_by_insuficient_material`. -/
def is_draw_by_insuficient_material (board : Board) : Bool :=
  let white_left := pieces_left board Color.White
  if white_left = PiecesLeft.Other then false
  else
    let black_left := pieces_left board Color.Black
    if black_left = PiecesLeft.Other then false
    else if white_left = PiecesLeft.KingOnly ∨ black_left = PiecesLeft.KingOnly then true
    else false

/-- The method `Rules::is_draw_without_stalemate`. -/
def is_draw_without_stalemate (board : Board) : Bool :=
  if Board.repeated board = true ∨ Board.moves_since_last_catpure_or_pawn_move board ≥ 100 then
    true
  else is_draw_by_insuficient_material board

end Rules

/-! ## board.cpp: FEN -/

/-- The `bee::Error` returns of `Board::set_fen`, in source order. -/
inductive FenError where
  | too_few_parts
  | turn_not_one_letter
  | castle_character
  | passant_place
  deriving DecidableEq, Repr

/-- The loop of `bee::split_space` (the library is outside the sources): the maximal runs of
characters other than the space; `cur` is the run being read, reversed. -/
def split_space_go : List Char → List Char → List (List Char)
  | [], cur => if cur = [] then [] else [cur.reverse]
  | c :: cs, cur =>
    if c = ' ' then
      if cur = [] then split_space_go cs [] else cur.reverse :: split_space_go cs []
    else split_space_go cs (c :: cur)

/-- The function `bee::split_space`. -/
def split_space (s : List Char) : List (List Char) := split_space_go s []

/-- The function `std::stoi` on a field without blanks: an optional sign, then the longest run
of digits; `none` is the exception (no digit, or a value outside `int`). -/
def stoi (s : List Char) : Option Int :=
  let neg : Bool := match s with
    | '-' :: _ => true
    | _ => false
  let rest : List Char := match s with
    | '-' :: r => r
    | '+' :: r => r
    | r => r
  let digits := rest.takeWhile isdigit
  if digits = [] then none
  else
    let v : Int := digits.foldl (fun a c => a * 10 + ((c.toNat : Int) - 48)) 0
    let w : Int := if neg then -v else v
    if -2147483648 ≤ w ∧ w ≤ 2147483647 then some w else none

/-- The text `bee::format` prints for an `int`. -/
def format_int (n : Int) : List Char :=
  if n < 0 then '-' :: Nat.toDigits 10 (-n).toNat else Nat.toDigits 10 n.toNat

namespace Board

/-- Board.cpp 200-213, `Board::set_fen`: the loop over the placement field; the state is the
board, `linha` and `coluna`.  `none`: `insert_piece` leaves an array. -/
def set_fen_placement (Z : ZobristTables) : List Char → Board × Int × Int →
    Option (Board × Int × Int)
  | [], s => some s
  | c :: cs, (b, linha, coluna) =>
    if c = '/' then set_fen_placement Z cs (b, linha - 1, 0)
    else if isdigit c then
      set_fen_placement Z cs (b, linha, coluna + ((c.toNat : Int) - ('0'.toNat : Int)))
    else
      let owner := if isupper c then Color.White else Color.Black
      let type := letter_to_piece (tolower c)
      (insert_piece Z b (Place.of_line_of_col linha coluna) type owner).bind fun b1 =>
        set_fen_placement Z cs (b1, linha, coluna + 1)

/-- Board.cpp 226-240, `Board::set_fen`: the loop over the castling field; `none` is the
`bee::Error`. -/
def set_fen_castle : List Char → CastleFlags → Option CastleFlags
  | [], f => some f
  | c :: cs, f =>
    let color := if isupper c then Color.White else Color.Black
    let c1 := tolower c
    if c1 = 'q' then set_fen_castle cs (CastleFlags.set_queen f color)
    else if c1 = 'k' then set_fen_castle cs (CastleFlags.set_king f color)
    else none

/-- The method `Board::set_fen`, as the board it leaves in `*this`.  Outer `none`: the run stops
(an index outside an array, a full piece list, the exception of `std::stoi`);
`Except.error`: the `bee::Error` returned. -/
def set_fen (Z : ZobristTables) (fen : List Char) : Option (Except FenError Board) :=
  match split_space fen with
  | [] => some (Except.error FenError.too_few_parts)
  | [_] => some (Except.error FenError.too_few_parts)
  | placement :: turn_part :: rest =>
    (set_fen_placement Z placement (Board.clear, 7, 0)).bind fun s =>
    match turn_part with
    | [t] =>
      let turn := if tolower t = 'w' then Color.White else Color.Black
      let b1 : Board := { s.1 with
        turn := turn
        _hash_key := if turn = Color.Black then s.1._hash_key ^^^ Z.hash_code_turn
                     else s.1._hash_key }
      match rest with
      | [] => some (Except.ok b1)
      | castle_part :: rest2 =>
        match (if castle_part = ['-'] then some b1.castle_flags
               else set_fen_castle castle_part b1.castle_flags) with
        | Option.none => some (Except.error FenError.castle_character)
        | Option.some f =>
          let b2 : Board := { b1 with
            castle_flags := f, _hash_key := b1._hash_key ^^^ CastleFlags.hash Z f }
          match rest2 with
          | [] => some (Except.ok b2)
          | passant_part :: rest3 =>
            match (if passant_part = ['-'] then some b2.passan_place
                   else Place.of_string passant_part) with
            | Option.none => some (Except.error FenError.passant_place)
            | Option.some pp =>
              let b3 : Board := { b2 with passan_place := pp }
              match rest3 with
              | [] => some (Except.ok b3)
              | [_] => some (Except.ok b3)
              | _ :: full :: _ =>
                (stoi full).map fun full_move =>
                  Except.ok { b3 with
                    _base_ply := toInt32 (toInt32 (toInt32 (full_move - 1) * 2)
                      + (if turn = Color.Black then 1 else 0)) }
    | _ => some (Except.error FenError.turn_not_one_letter)

/-- The method `Board::initial_fen`. -/
def initial_fen : List Char := "rnbqkbnr/pppppppp/8/8/8/8/PPPPPPPP/RNBQKBNR w KQkq -".toList

/-- The method `Board::set_initial`: the board it leaves (it drops the result of `set_fen`). -/
def set_initial (Z : ZobristTables) : Option Board :=
  match set_fen Z initial_fen with
  | some (Except.ok b) => some b
  | _ => Option.none

/-- The lambda `cell_letter` of `Board::to_fen`. -/
def cell_letter (p : Pos) : Char :=
  if p.owner = Color.Black then tolower (piece_to_letter p.type) else piece_to_letter p.type

/-- The lambda `flush` of `Board::to_fen`; the state is `(output, empties)`. -/
def fen_flush (s : List Char × Nat) : List Char × Nat :=
  if s.2 > 0 then (s.1 ++ [Char.ofNat ('0'.toNat + s.2)], 0) else s

/-- The lambda `add_char` of `Board::to_fen`. -/
def fen_add_char (s : List Char × Nat) (c : Char) : List Char × Nat :=
  ((fen_flush s).1 ++ [c], (fen_flush s).2)

/-- Board.cpp 294-309, `Board::to_fen`: the placement field. -/
def to_fen_placement (b : Board) : List Char :=
  ((List.range 8).foldl
    (fun (s : List Char × Nat) (l : Nat) =>
      let s1 := (List.range 8).foldl
        (fun (s : List Char × Nat) (c : Nat) =>
          let cell := b._squares (Place.of_line_of_col (7 - (l : Int)) (c : Int))
          if cell.type = PieceType.CLEAR then (s.1, s.2 + 1) else fen_add_char s (cell_letter cell))
        s
      if l < 7 then fen_add_char s1 '/' else fen_flush s1)
    ([], 0)).1

/-- The method `Board::to_fen`.  The C++ division `ply() / 2` rounds toward zero. -/
def to_fen (b : Board) : List Char :=
  to_fen_placement b
  ++ [' ', if b.turn = Color.White then 'w' else 'b']
  ++ [' ']
  ++ (if CastleFlags.is_clear b.castle_flags then ['-']
      else
        (if CastleFlags.can_castle_king_side b.castle_flags Color.White then ['K'] else [])
        ++ (if CastleFlags.can_castle_queen_side b.castle_flags Color.White then ['Q'] else [])
        ++ (if CastleFlags.can_castle_king_side b.castle_flags Color.Black then ['k'] else [])
        ++ (if CastleFlags.can_castle_queen_side b.castle_flags Color.Black then ['q'] else []))
  ++ [' ']
  ++ (if Place.is_valid b.passan_place then Place.to_string b.passan_place else ['-'])
  ++ [' ', '0']
  ++ (' ' :: format_int (Int.tdiv (ply b) 2 + 1))

end Board

/-! ## The position a board stands for, and the invariants of `Board`

The definitions below are not in the sources: they state what the sources maintain. -/

/-- What a board says about the game, without the piece ids, the order of the piece lists, the
bitboards, the key and the material: the piece on every square (outside 0..63: none), the length
of every piece list, and the scalar fields. -/
structure Position where
  pl : Int → PieceType × Color
  len : Color → PieceType → Nat
  turn : Color
  passan_place : Int
  history : List Nat
  castle_flags : CastleFlags
  _base_ply : Int
  _last_irreversible_move : Nat

/-- The position of a board. -/
def Board.position (b : Board) : Position :=
  { pl := fun p =>
      if 0 ≤ p ∧ p < 64 then ((b._squares p).type, (b._squares p).owner)
      else (PieceType.CLEAR, Color.None)
    len := fun c t => (b._pieces_table c t).length
    turn := b.turn
    passan_place := b.passan_place
    history := b.history
    castle_flags := b.castle_flags
    _base_ply := b._base_ply
    _last_irreversible_move := b._last_irreversible_move }

namespace Position

/-- Adds `k` to one entry of the table of list lengths, then subtracts `j`. -/
def bump (len : Color → PieceType → Nat) (c : Color) (t : PieceType) (k j : Nat) :
    Color → PieceType → Nat :=
  Function.update len c (Function.update (len c) t (len c t + k - j))

/-- What `Board::erase_piece` does to the position. -/
def erase (a : Position) (p : Int) : Position :=
  { a with
    pl := Function.update a.pl p (PieceType.CLEAR, Color.None)
    len := bump a.len (a.pl p).2 (a.pl p).1 0 1 }

/-- What `Board::insert_piece` does to the position. -/
def insert (a : Position) (p : Int) (t : PieceType) (c : Color) : Position :=
  { a with
    pl := Function.update a.pl p (t, c)
    len := bump a.len c t 1 0 }

/-- What `Board::move_piece` does to the position. -/
def move_piece (a : Position) (o d : Int) : Position :=
  { a with
    pl := Function.update (Function.update a.pl d (a.pl o)) o (PieceType.CLEAR, Color.None) }

/-- What `Board::set_piece_type` does to the position. -/
def set_type (a : Position) (p : Int) (t : PieceType) : Position :=
  { a with
    pl := Function.update a.pl p (t, (a.pl p).2)
    len := bump (bump a.len (a.pl p).2 (a.pl p).1 0 1) (a.pl p).2 t 1 0 }

end Position

/-- The square array and the piece lists point at each other: the list entry at the id of an
occupied square is that square, and every entry of the list of `(c, t)` is a square on the board
that holds `(i, t, c)` with `i` its index. -/
def ListsOk (tbl : Color → PieceType → List Int) (sq : Int → Pos) : Prop :=
  (∀ q : Int, 0 ≤ q → q < 64 → (sq q).type ≠ PieceType.CLEAR →
    (tbl (sq q).owner (sq q).type)[(sq q).id]? = some q) ∧
  (∀ (c : Color) (t : PieceType) (i : Nat) (q : Int), c ≠ Color.None →
    (tbl c t)[i]? = some q → 0 ≤ q ∧ q < 64 ∧ sq q = ⟨i, t, c⟩)

/-- Every bitboard has exactly the bits of its squares. -/
def BitsOk (bbB : Color → Nat) (bbP : Color → PieceType → Nat) (sq : Int → Pos) : Prop :=
  (∀ (c : Color) (t : PieceType) (i : Nat), c ≠ Color.None →
    (bbP c t).testBit i
      = decide (i < 64 ∧ (sq (i : Int)).type = t ∧ (sq (i : Int)).owner = c)) ∧
  (∀ (c : Color) (i : Nat), c ≠ Color.None →
    (bbB c).testBit i = decide (i < 64 ∧ (sq (i : Int)).owner = c))

/-- The structural invariant of `Board` (what `Board::checkBoard` looks at): a square is empty
exactly when it has no owner; the square array and the piece lists point at each other; every
bitboard has exactly the bits of its squares. -/
structure Consistent (b : Board) : Prop where
  sq_none : ∀ p : Int, 0 ≤ p → p < 64 →
    ((b._squares p).type = PieceType.CLEAR ↔ (b._squares p).owner = Color.None)
  lists : ListsOk b._pieces_table b._squares
  bits : BitsOk b.bb_blockers b.bbPeca b._squares

/-- The key of the occupied squares of a position (`Board::check_hash_key` on the position). -/
def pieces_key (Z : ZobristTables) (pl : Int → PieceType × Color) : Nat :=
  (List.range 64).foldl
    (fun (k : Nat) (i : Nat) => k ^^^ (if (pl (i : Int)).2 ≠ Color.None
      then Z.hash_code (i : Int) (pl (i : Int)).1 (pl (i : Int)).2 else 0))
    0

/-- The Zobrist key of a position, from scratch: the occupied squares, `hash_code_turn` when
Black is to move, the castling rights, and the en-passant square when one is set. -/
def zobrist (Z : ZobristTables) (a : Position) : Nat :=
  ((pieces_key Z a.pl ^^^ (if a.turn = Color.Black then Z.hash_code_turn else 0))
    ^^^ Z.castle_hash a.castle_flags)
    ^^^ (if Place.is_valid a.passan_place then Z.passant_hash a.passan_place else 0)

/-- The material of one colour in a position, from scratch, before the wrap to `int32_t`. -/
def material_sum (pl : Int → PieceType × Color) (c : Color) : Int :=
  ((List.range 64).map
    (fun (i : Nat) => if (pl (i : Int)).2 = c then piece_value (i : Int) c (pl (i : Int)).1 else 0)).sum

/-- The key of one square holding `x`. -/
def key_at (Z : ZobristTables) (p : Int) (x : PieceType × Color) : Nat :=
  if x.2 ≠ Color.None then Z.hash_code p x.1 x.2 else 0

/-- The material one square holding `x` gives the colour `c`. -/
def value_at (c : Color) (p : Int) (x : PieceType × Color) : Int :=
  if x.2 = c then piece_value p c x.1 else 0

/-- The key of the board is the key of its occupied squares, up to the part `k` of the scalar
fields. -/
def KeyInv (Z : ZobristTables) (b : Board) (k : Nat) : Prop :=
  b._hash_key = pieces_key Z b.position.pl ^^^ k

/-- The material score of each colour is the material of its pieces, wrapped to `int32_t`. -/
def ScoreInv (b : Board) : Prop :=
  ∀ c : Color, c ≠ Color.None → b._score c = toInt32 (material_sum b.position.pl c)

/-- No piece list is longer than a `PieceVector` can hold. -/
def CapOk (b : Board) : Prop :=
  ∀ (c : Color) (t : PieceType), (b._pieces_table c t).length ≤ PieceVector.cap

/-- Drops the id of the captured piece, which the position does not know. -/
def MoveInfo.forget_id (mi : MoveInfo) : MoveInfo := { mi with p := { mi.p with id := 0 } }

namespace Position

/-- What the first part of `Board::move` (`Board.move_capture`) does to the position; `key` is
the key pushed on the history. -/
def move_capture (a : Position) (m : Move) (key : Nat) : Position × MoveInfo :=
  let a1 : Position := { a with history := a.history ++ [key] }
  let s : Position × MoveInfo :=
    if (a.pl m.d).1 ≠ PieceType.CLEAR then
      (a1.erase m.d,
        { MoveInfo.new with p := ⟨0, (a.pl m.d).1, (a.pl m.d).2⟩, capturou := true })
    else (a1, { MoveInfo.new with capturou := false })
  let mi : MoveInfo := { s.2 with last_irreversible_move := s.1._last_irreversible_move }
  if mi.capturou = true ∨ (a.pl m.o).1 = PieceType.PAWN then
    ({ s.1 with _last_irreversible_move := s.1.history.length }, mi)
  else (s.1, mi)

/-- What `Board.move_en_passan` does to the position. -/
def move_en_passan (s : Position × MoveInfo) (m : Move) (type : PieceType) :
    Position × MoveInfo :=
  if type = PieceType.PAWN ∧ s.2.capturou = false ∧ Move.dc m ≠ Move.oc m then
    (s.1.erase (Place.of_line_of_col (Move.ol m) (Move.dc m)),
      { s.2 with
        p := ⟨0, (s.1.pl (Place.of_line_of_col (Move.ol m) (Move.dc m))).1,
          (s.1.pl (Place.of_line_of_col (Move.ol m) (Move.dc m))).2⟩
        passan := true })
  else (s.1, { s.2 with passan := false })

/-- What `Board.move_promote` does to the position. -/
def move_promote (a : Position) (m : Move) : Position :=
  if Move.promotion m ≠ PieceType.CLEAR then a.set_type m.d (Move.promotion m) else a

/-- What `Board.move_mark_passan` does to the position. -/
def move_mark_passan (s : Position × MoveInfo) (m : Move) (type : PieceType) :
    Position × MoveInfo :=
  let mi : MoveInfo := { s.2 with passan_place := s.1.passan_place }
  if type = PieceType.PAWN ∧ (m.d - m.o = 16 ∨ m.d - m.o = -16) then
    ({ s.1 with passan_place := Place.of_int ((m.o + m.d) / 2) }, mi)
  else ({ s.1 with passan_place := Place.invalid }, mi)

/-- What `Board.move_castle` does to the position. -/
def move_castle (s : Position × MoveInfo) (m : Move) (type : PieceType) :
    Position × MoveInfo :=
  let a := s.1
  let mi : MoveInfo := { s.2 with castle_flags := a.castle_flags, castled := false }
  if type = PieceType.KING then
    let r : Position × Bool :=
      if Place.col m.d - Place.col m.o = 2 then
        (a.move_piece (Place.right m.d) (Place.left m.d), true)
      else if Place.col m.d - Place.col m.o = -2 then
        (a.move_piece (Place.left (Place.left m.d)) (Place.right m.d), true)
      else (a, false)
    if r.2 = true ∨ CastleFlags.can_castle r.1.castle_flags r.1.turn = true then
      ({ r.1 with castle_flags := CastleFlags.clear r.1.castle_flags r.1.turn },
        { mi with castled := r.2 })
    else (r.1, { mi with castled := r.2 })
  else if type = PieceType.ROOK ∧ CastleFlags.can_castle a.castle_flags a.turn = true then
    if Place.col m.o = 0 then
      ({ a with castle_flags := CastleFlags.clear_queen a.castle_flags a.turn }, mi)
    else if Place.col m.o = 7 then
      ({ a with castle_flags := CastleFlags.clear_king a.castle_flags a.turn }, mi)
    else (a, mi)
  else (a, mi)

/-- What `Board.move_rook_taken` does to the position. -/
def move_rook_taken (x : Position × MoveInfo) (m : Move) (taking_type : PieceType)
    (op : Color) : Position × MoveInfo :=
  let a2 : Position :=
    if taking_type = PieceType.ROOK ∧ (Place.line m.d = 0 ∨ Place.line m.d = 7) then
      if Place.col m.d = 0 then
        { x.1 with castle_flags := CastleFlags.clear_queen x.1.castle_flags op }
      else if Place.col m.d = 7 then
        { x.1 with castle_flags := CastleFlags.clear_king x.1.castle_flags op }
      else x.1
    else x.1
  (a2, x.2)

/-- What `Board::move` does to the position, and the `MoveInfo` it returns (without the id of
the captured piece). -/
def move (a : Position) (m : Move) (key : Nat) : Position × MoveInfo :=
  let type := (a.pl m.o).1
  let taking_type := (a.pl m.d).1
  let op := oponent a.turn
  let s2 := move_en_passan (move_capture a m key) m type
  let a4 := move_promote (s2.1.move_piece m.o m.d) m
  let s6 := move_rook_taken (move_castle (move_mark_passan (a4, s2.2) m type) m type) m
    taking_type op
  ({ s6.1 with turn := op }, s6.2)

/-- What `Board::undo` does to the position. -/
def undo (a0 : Position) (m : Move) (mi : MoveInfo) : Position :=
  let a : Position := { a0 with turn := oponent a0.turn }
  let a1 : Position :=
    if mi.castled = true then
      if m.d - m.o = 2 then a.move_piece (Place.left m.d) (Place.right m.d)
      else if Place.col m.d - Place.col m.o = -2 then
        a.move_piece (Place.right m.d) (Place.left (Place.left m.d))
      else a
    else a
  let a2 : Position := { a1 with castle_flags := mi.castle_flags }
  let a3 : Position :=
    if Move.promotion m ≠ PieceType.CLEAR then a2.set_type m.d PieceType.PAWN else a2
  let a4 : Position :=
    if mi.passan = true then
      a3.insert (Place.of_line_of_col (Move.ol m) (Move.dc m)) mi.p.type mi.p.owner
    else a3
  let a5 : Position := { a4 with passan_place := mi.passan_place }
  let a6 : Position := a5.move_piece m.d m.o
  let a7 : Position := if mi.capturou = true then a6.insert m.d mi.p.type mi.p.owner else a6
  { a7 with history := a7.history.dropLast,
            _last_irreversible_move := mi.last_irreversible_move }

/-- A position as the boards of the sources have them: a square is empty exactly when it has no
owner, nothing stands outside the board, and no piece list is longer than a `PieceVector`. -/
structure Ok (a : Position) : Prop where
  none_iff : ∀ p : Int, (a.pl p).1 = PieceType.CLEAR ↔ (a.pl p).2 = Color.None
  outside : ∀ p : Int, ¬ (0 ≤ p ∧ p < 64) → a.pl p = (PieceType.CLEAR, Color.None)
  cap : ∀ (c : Color) (t : PieceType), a.len c t ≤ PieceVector.cap

/-- What the moves of `Rules::list_moves` have in the position `a` of a consistent board. -/
structure Listed (a : Position) (m : Move) : Prop where
  o_valid : 0 ≤ m.o ∧ m.o < 64
  d_valid : 0 ≤ m.d ∧ m.d < 64
  o_ne_d : m.o ≠ m.d
  own : (a.pl m.o).1 ≠ PieceType.CLEAR ∧ (a.pl m.o).2 = a.turn
  dest : (a.pl m.d).2 ≠ a.turn
  promo : Move.promotion m ≠ PieceType.CLEAR →
    (a.pl m.o).1 = PieceType.PAWN ∧ Move.promotion m ≠ PieceType.PAWN
  king_side : (a.pl m.o).1 = PieceType.KING → Place.col m.d - Place.col m.o = 2 →
    m.d = m.o + 2 ∧ Place.col m.o = 4 ∧ (a.pl (m.d + 1)).1 ≠ PieceType.CLEAR ∧
    (a.pl (m.d - 1)).1 = PieceType.CLEAR ∧ (a.pl m.d).1 = PieceType.CLEAR
  queen_side : (a.pl m.o).1 = PieceType.KING → Place.col m.d - Place.col m.o = -2 →
    m.d = m.o - 2 ∧ Place.col m.o = 4 ∧ (a.pl (m.d - 2)).1 ≠ PieceType.CLEAR ∧
    (a.pl (m.d + 1)).1 = PieceType.CLEAR ∧ (a.pl m.d).1 = PieceType.CLEAR

/-- What `Board::move` checks with an `assert` or a bound on the move `m` in the position `a`:
room in `history`, a pawn to take when a pawn steps aside onto an empty square, and room in the
piece list of a promotion. -/
structure Runs (a : Position) (m : Move) : Prop where
  room : a.history.length < History.cap
  passan : (a.pl m.o).1 = PieceType.PAWN → (a.pl m.d).1 = PieceType.CLEAR →
    Move.dc m ≠ Move.oc m →
      (a.pl (Place.of_line_of_col (Move.ol m) (Move.dc m))).1 = PieceType.PAWN
  cap : Move.promotion m ≠ PieceType.CLEAR →
    a.len a.turn (Move.promotion m) < PieceVector.cap

/-- What `Board::move` needs of the move `m` in the position `a`: what `Listed` and `Runs` say,
and a side to move. -/
structure MoveOk (a : Position) (m : Move) : Prop where
  o_valid : 0 ≤ m.o ∧ m.o < 64
  d_valid : 0 ≤ m.d ∧ m.d < 64
  o_ne_d : m.o ≠ m.d
  turn_ok : a.turn ≠ Color.None
  own : (a.pl m.o).1 ≠ PieceType.CLEAR ∧ (a.pl m.o).2 = a.turn
  dest : (a.pl m.d).2 ≠ a.turn
  passan : (a.pl m.o).1 = PieceType.PAWN → (a.pl m.d).1 = PieceType.CLEAR →
    Move.dc m ≠ Move.oc m →
      (a.pl (Place.of_line_of_col (Move.ol m) (Move.dc m))).1 = PieceType.PAWN
  promo : Move.promotion m ≠ PieceType.CLEAR →
    (a.pl m.o).1 = PieceType.PAWN ∧ Move.promotion m ≠ PieceType.PAWN ∧
    a.len a.turn (Move.promotion m) < PieceVector.cap
  king_side : (a.pl m.o).1 = PieceType.KING → Place.col m.d - Place.col m.o = 2 →
    m.d = m.o + 2 ∧ Place.col m.o = 4 ∧ (a.pl (m.d + 1)).1 ≠ PieceType.CLEAR ∧
    (a.pl (m.d - 1)).1 = PieceType.CLEAR ∧ (a.pl m.d).1 = PieceType.CLEAR
  queen_side : (a.pl m.o).1 = PieceType.KING → Place.col m.d - Place.col m.o = -2 →
    m.d = m.o - 2 ∧ Place.col m.o = 4 ∧ (a.pl (m.d - 2)).1 ≠ PieceType.CLEAR ∧
    (a.pl (m.d + 1)).1 = PieceType.CLEAR ∧ (a.pl m.d).1 = PieceType.CLEAR
  room : a.history.length < History.cap

end Position

/-- The part of the Zobrist key that comes from the scalar fields. -/
def scalar_key (Z : ZobristTables) (a : Position) : Nat :=
  ((if a.turn = Color.Black then Z.hash_code_turn else 0) ^^^ Z.castle_hash a.castle_flags)
    ^^^ (if Place.is_valid a.passan_place then Z.passant_hash a.passan_place else 0)

/-- The key of the board is the Zobrist key of its position, recomputed from scratch. -/
def HashInv (Z : ZobristTables) (b : Board) : Prop := b._hash_key = zobrist Z b.position

/-- The key is right for the position once the castling rights are read as `f` (the state of
`Board::move` between the change of the rights and the change of the key). -/
def HashInvF (Z : ZobristTables) (b : Board) (f : CastleFlags) : Prop :=
  b._hash_key = zobrist Z { b.position with castle_flags := f }

/-! ## Definitions of the proofs: phases of a move on a position, shapes of the listed moves,
reachable boards, and the boards of the worked examples -/

/-- The position after the first three parts of `Board::move`. -/
def Position.steps3 (a : Position) (m : Move) (k : Nat) : Position :=
  (Position.move_en_passan (a.move_capture m k) m (a.pl m.o).1).1.move_piece m.o m.d

/-- The position and the `MoveInfo` before the last part of `Board::move`. -/
def Position.steps6 (a : Position) (m : Move) (k : Nat) : Position × MoveInfo :=
  Position.move_rook_taken
    (Position.move_castle
      (Position.move_mark_passan
        ((a.steps3 m k).move_promote m,
          (Position.move_en_passan (a.move_capture m k) m (a.pl m.o).1).2) m (a.pl m.o).1)
      m (a.pl m.o).1) m (a.pl m.d).1 (oponent a.turn)

/-- An empty square of a position. -/
def Position.none_sq : PieceType × Color := (PieceType.CLEAR, Color.None)

/-- What `Board::move` does to the squares of a position, as a function of the squares alone. -/
def Position.pl_move (pl : Int → PieceType × Color) (m : Move) : Int → PieceType × Color :=
  let pl2 : Int → PieceType × Color :=
    if (pl m.o).1 = PieceType.PAWN ∧ (pl m.d).1 = PieceType.CLEAR ∧ Move.dc m ≠ Move.oc m then
      Function.update pl (Place.of_line_of_col (Move.ol m) (Move.dc m)) Position.none_sq
    else pl
  let pl3 := Function.update (Function.update pl2 m.d (pl m.o)) m.o Position.none_sq
  let pl4 : Int → PieceType × Color :=
    if Move.promotion m ≠ PieceType.CLEAR then
      Function.update pl3 m.d (Move.promotion m, (pl m.o).2)
    else pl3
  if (pl m.o).1 = PieceType.KING ∧ Place.col m.d - Place.col m.o = 2 then
    Function.update (Function.update pl4 (m.d - 1) (pl4 (m.d + 1))) (m.d + 1) Position.none_sq
  else if (pl m.o).1 = PieceType.KING ∧ Place.col m.d - Place.col m.o = -2 then
    Function.update (Function.update pl4 (m.d + 1) (pl4 (m.d - 2))) (m.d - 2) Position.none_sq
  else pl4

/-- What `Board::undo` does to the squares of a position, as a function of the squares. -/
def Position.pl_undo (pl : Int → PieceType × Color) (m : Move) (mi : MoveInfo) :
    Int → PieceType × Color :=
  let q1 : Int → PieceType × Color :=
    if mi.castled = true then
      if m.d - m.o = 2 then
        Function.update (Function.update pl (m.d + 1) (pl (m.d - 1))) (m.d - 1) Position.none_sq
      else if Place.col m.d - Place.col m.o = -2 then
        Function.update (Function.update pl (m.d - 2) (pl (m.d + 1))) (m.d + 1) Position.none_sq
      else pl
    else pl
  let q3 : Int → PieceType × Color :=
    if Move.promotion m ≠ PieceType.CLEAR then
      Function.update q1 m.d (PieceType.PAWN, (q1 m.d).2)
    else q1
  let q4 : Int → PieceType × Color :=
    if mi.passan = true then
      Function.update q3 (Place.of_line_of_col (Move.ol m) (Move.dc m)) (mi.p.type, mi.p.owner)
    else q3
  let q6 := Function.update (Function.update q4 m.o (q4 m.d)) m.d Position.none_sq
  if mi.capturou = true then Function.update q6 m.d (mi.p.type, mi.p.owner) else q6

/-- What `Board.undo_castle` does to the position. -/
def Position.undo_castle (a0 : Position) (m : Move) (mi : MoveInfo) : Position :=
  let a : Position := { a0 with turn := oponent a0.turn }
  let a1 : Position :=
    if mi.castled = true then
      if m.d - m.o = 2 then a.move_piece (Place.left m.d) (Place.right m.d)
      else if Place.col m.d - Place.col m.o = -2 then
        a.move_piece (Place.right m.d) (Place.left (Place.left m.d))
      else a
    else a
  { a1 with castle_flags := mi.castle_flags }

/-- What `Board.undo_passan` does to the position. -/
def Position.undo_passan (a2 : Position) (m : Move) (mi : MoveInfo) : Position :=
  let a3 : Position :=
    if Move.promotion m ≠ PieceType.CLEAR then a2.set_type m.d PieceType.PAWN else a2
  let a4 : Position :=
    if mi.passan = true then
      a3.insert (Place.of_line_of_col (Move.ol m) (Move.dc m)) mi.p.type mi.p.owner
    else a3
  { a4 with passan_place := mi.passan_place }

/-- What `Board.undo_piece` does to the position. -/
def Position.undo_piece (a5 : Position) (m : Move) (mi : MoveInfo) : Position :=
  let a6 : Position := a5.move_piece m.d m.o
  let a7 : Position := if mi.capturou = true then a6.insert m.d mi.p.type mi.p.owner else a6
  { a7 with history := a7.history.dropLast,
            _last_irreversible_move := mi.last_irreversible_move }

/-- The en-passant key is taken out, the square is set back, its key is put in. -/
def Board.undo_ep_key (Z : ZobristTables) (b2 : Board) (pp : Int) : Board :=
  let b3 : Board :=
    if Place.is_valid b2.passan_place then
      { b2 with _hash_key := b2._hash_key ^^^ Z.passant_hash b2.passan_place }
    else b2
  let b4 : Board := { b3 with passan_place := pp }
  if Place.is_valid b4.passan_place then
    { b4 with _hash_key := b4._hash_key ^^^ Z.passant_hash b4.passan_place }
  else b4

/-- The squares of a position after the capture, the en-passant capture and the step of the
piece itself. -/
def Position.pl_step (pl : Int → PieceType × Color) (m : Move) : Int → PieceType × Color :=
  Function.update (Function.update
    (if (pl m.o).1 = PieceType.PAWN ∧ (pl m.d).1 = PieceType.CLEAR ∧ Move.dc m ≠ Move.oc m then
      Function.update pl (Place.of_line_of_col (Move.ol m) (Move.dc m)) Position.none_sq
    else pl) m.d (pl m.o)) m.o Position.none_sq

/-- The squares of a position after the promotion, before the rook of a castle moves. -/
def Position.pl_promo (pl : Int → PieceType × Color) (m : Move) : Int → PieceType × Color :=
  if Move.promotion m ≠ PieceType.CLEAR then
    Function.update (Position.pl_step pl m) m.d (Move.promotion m, (pl m.o).2)
  else Position.pl_step pl m

/-- The lengths of the piece lists after `Board::move`, as a function of the position. -/
def Position.len_move (a : Position) (m : Move) : Color → PieceType → Nat :=
  let l1 : Color → PieceType → Nat :=
    if (a.pl m.d).1 ≠ PieceType.CLEAR then Position.bump a.len (a.pl m.d).2 (a.pl m.d).1 0 1
    else a.len
  let l2 : Color → PieceType → Nat :=
    if (a.pl m.o).1 = PieceType.PAWN ∧ (a.pl m.d).1 = PieceType.CLEAR ∧
        Move.dc m ≠ Move.oc m then
      Position.bump l1 (a.pl (Place.of_line_of_col (Move.ol m) (Move.dc m))).2
        (a.pl (Place.of_line_of_col (Move.ol m) (Move.dc m))).1 0 1
    else l1
  if Move.promotion m ≠ PieceType.CLEAR then
    Position.bump (Position.bump l2 (a.pl m.o).2 (a.pl m.o).1 0 1) (a.pl m.o).2
      (Move.promotion m) 1 0
  else l2

/-- The lengths of the piece lists after the capture and the en-passant capture. -/
def Position.len_step (a : Position) (m : Move) : Color → PieceType → Nat :=
  if (a.pl m.o).1 = PieceType.PAWN ∧ (a.pl m.d).1 = PieceType.CLEAR ∧
      Move.dc m ≠ Move.oc m then
    Position.bump
      (if (a.pl m.d).1 ≠ PieceType.CLEAR then
        Position.bump a.len (a.pl m.d).2 (a.pl m.d).1 0 1 else a.len)
      (a.pl (Place.of_line_of_col (Move.ol m) (Move.dc m))).2
      (a.pl (Place.of_line_of_col (Move.ol m) (Move.dc m))).1 0 1
  else if (a.pl m.d).1 ≠ PieceType.CLEAR then
    Position.bump a.len (a.pl m.d).2 (a.pl m.d).1 0 1
  else a.len

/-- What one call of `PieceRules::list_moves` adds to the list for the piece on `place`. -/
def PieceRules.Added (impl : PieceImpl) (board : Board) (color : Color) (attacked rooks : Nat)
    (place : Int) (m : Move) : Prop :=
  m.o = place ∧ (0 ≤ m.d ∧ m.d < 64) ∧
    (PieceRules.moves_bb impl board color place attacked rooks).testBit m.d.toNat = true ∧
    (m._promotion = PieceType.CLEAR ∨
      (impl.type = PieceType.PAWN ∧ m._promotion = PieceType.QUEEN))

/-- The two shapes of `set_promos`: the one of `PawnImpl`, and the empty one of the others. -/
def PieceImpl.PromoShape (impl : PieceImpl) : Prop :=
  (impl.set_promos = PawnImpl.set_promos ∧ impl.type = PieceType.PAWN) ∨
    impl.set_promos = fun _ l => l

/-- The six piece rules of `CombinedRules`. -/
def Rules.Impl (impl : PieceImpl) : Prop :=
  impl = PawnImpl ∨ impl = KnightImpl ∨ impl = BishopImpl ∨ impl = RookImpl ∨
    impl = QueenImpl ∨ impl = KingImpl

/-- A placement field that FEN allows, read as `Board::set_fen` reads it from the line `linha`
and the column `coluna`: every character that is neither `/` nor a digit is one of the letters
of `letter_to_piece`, and stands for a square on the board. -/
def Board.fen_placement_ok : List Char → Int → Int → Bool
  | [], _, _ => true
  | c :: cs, linha, coluna =>
    if c = '/' then Board.fen_placement_ok cs (linha - 1) 0
    else if isdigit c then
      Board.fen_placement_ok cs linha (coluna + ((c.toNat : Int) - ('0'.toNat : Int)))
    else
      decide (letter_to_piece (tolower c) ≠ PieceType.CLEAR) &&
        decide (0 ≤ linha ∧ linha < 8 ∧ 0 ≤ coluna ∧ coluna < 8) &&
        Board.fen_placement_ok cs linha (coluna + 1)

/-- The fields that the placement loop of `Board::set_fen` does not touch. -/
def Board.Fresh (b : Board) : Prop :=
  b.turn = Color.White ∧ b.castle_flags = CastleFlags.none ∧
    b.passan_place = Place.invalid ∧ b.history = [] ∧ b._base_ply = 0 ∧
    b._last_irreversible_move = 0

/-- The invariant of the placement loop of `Board::set_fen` at the line `l` and column `c`:
the board is consistent, its key and material are those of its squares, and the squares still
to come are empty. -/
structure PlaceInv (Z : ZobristTables) (b : Board) (l c : Int) : Prop where
  cons : Consistent b
  cap : CapOk b
  score : ScoreInv b
  key : KeyInv Z b 0
  ahead : ∀ q : Int, 0 ≤ q → q < 64 → (q / 8 < l ∨ (q / 8 = l ∧ c ≤ q % 8)) →
    (b._squares q).type = PieceType.CLEAR
  fresh : b.Fresh

/-- The FEN strings that `Board::set_fen` reads into a consistent board: at least two fields,
and a placement field that FEN allows. -/
def Board.fen_ok (fen : List Char) : Bool :=
  match split_space fen with
  | placement :: _ :: _ => Board.fen_placement_ok placement 7 0
  | _ => false

/-- A legal move of the board: `Rules::list_moves` gives it and `Rules::is_legal_move` accepts
it (the way the search makes its moves). -/
def Rules.Legal (Z : ZobristTables) (b : Board) (m : Move) : Prop :=
  m ∈ Rules.list_moves b (Rules.make_scratch b) [] ∧
    Rules.is_legal_move Z b (Rules.make_scratch b) m = some true

/-- A pseudo-legal move of the board: `Rules::list_moves` gives it. -/
def Rules.Pseudo (b : Board) (m : Move) : Prop :=
  m ∈ Rules.list_moves b (Rules.make_scratch b) []

/-- The boards that calls of `move` and matching calls of `undo` reach from a board of `Init`:
`Reach Z Init Ok b st` says that `b` is reached, with `st` the moves made and not yet undone,
latest first, each with the `MoveInfo` that `move` returned.  A move is made when `Ok` allows
it and `Board::move` returns; an `undo` takes back the latest move with its `MoveInfo`. -/
inductive Reach (Z : ZobristTables) (Init : Board → Prop) (Ok : Board → Move → Prop) :
    Board → List (Move × MoveInfo) → Prop where
  | init {b : Board} : Init b → Reach Z Init Ok b []
  | move {b b' : Board} {st : List (Move × MoveInfo)} {m : Move} {mi : MoveInfo} :
      Reach Z Init Ok b st → Ok b m → Board.move Z b m = some (b', mi) →
      Reach Z Init Ok b' ((m, mi) :: st)
  | undo {b b' : Board} {st : List (Move × MoveInfo)} {m : Move} {mi : MoveInfo} :
      Reach Z Init Ok b' ((m, mi) :: st) → Board.undo Z b' m mi = some b →
      Reach Z Init Ok b st

/-- The moves not yet undone fit the position: the latest was made on a consistent board whose
position `move` turned into this one, and so on down the stack. -/
def StackOk : Position → List (Move × MoveInfo) → Prop
  | _, [] => True
  | a, (m, mi) :: st =>
    ∃ (b0 : Board) (k : Nat), Consistent b0 ∧ CapOk b0 ∧ b0.turn ≠ Color.None ∧
      b0.position.MoveOk m ∧ a = (b0.position.move m k).1 ∧
      mi.forget_id = (b0.position.move m k).2 ∧ StackOk b0.position st

/-- The Zobrist key of a board, recomputed from scratch: the loop of `Board::check_hash_key` over
the occupied squares, `hash_code_turn` when Black is to move, `castle_hash` of the castling
rights, and `passant_hash` of the en-passant square when one is set. -/
def Board.key_from_scratch (Z : ZobristTables) (b : Board) : Nat :=
  ((Board.squares_key Z b._squares ^^^ (if b.turn = Color.Black then Z.hash_code_turn else 0))
    ^^^ Z.castle_hash b.castle_flags)
    ^^^ (if Place.is_valid b.passan_place then Z.passant_hash b.passan_place else 0)

/-- The state of the placement loop of `to_fen` on the board `b`, read back by the placement
loop of `set_fen`: the output `s.1` printed so far is read, from the cleared board, into a board
`bk` at the line `l` and a column `col`; with the `s.2` empty squares not printed yet the column
is `cl`; `bk` has the pieces of `b` on the squares before `(l, cl)` and nothing on the others;
and the output has no blank. -/
def ScanInv (Z : ZobristTables) (b : Board) (s : List Char × Nat) (l cl : Int) : Prop :=
  ∃ (bk : Board) (col : Int),
    Board.set_fen_placement Z s.1 (Board.clear, 7, 0) = some (bk, l, col) ∧
    0 ≤ col ∧ col + (s.2 : Int) = cl ∧ PlaceInv Z bk l col ∧
    (∀ q : Int, 0 ≤ q → q < 64 → (l < q / 8 ∨ (q / 8 = l ∧ q % 8 < cl)) →
      (bk._squares q).type = (b._squares q).type ∧
      (bk._squares q).owner = (b._squares q).owner) ∧
    (∀ c ∈ s.1, c ≠ ' ')

/-- The castling field of `to_fen` for the rights `f`. -/
def Board.fen_castle_field (f : CastleFlags) : List Char :=
  if CastleFlags.is_clear f then ['-']
  else
    (if CastleFlags.can_castle_king_side f Color.White then ['K'] else [])
    ++ (if CastleFlags.can_castle_queen_side f Color.White then ['Q'] else [])
    ++ (if CastleFlags.can_castle_king_side f Color.Black then ['k'] else [])
    ++ (if CastleFlags.can_castle_queen_side f Color.Black then ['q'] else [])

/-- The en-passant field of `to_fen` for the place `p`. -/
def Board.fen_passant_field (p : Int) : List Char :=
  if Place.is_valid p then Place.to_string p else ['-']

/-- Sample Zobrist tables for the worked examples (the generated tables are not in the
sources). -/
def Z0 : ZobristTables :=
  { hash_code := fun p t c =>
      (2654435761 * (p.toNat * 16 + t.toNat * 2 + (if c = Color.White then 1 else 0) + 1)) % 2^64
    passant_hash := fun p => (40503 * (p.toNat + 7)) % 2^64
    castle_hash := fun f => if f = 0 then 0 else (998244353 * f) % 2^64
    hash_code_turn := 1234567891011 }

/-- The board of `set_initial` (the cleared board if it stopped). -/
def Board.start (Z : ZobristTables) : Board := (Board.set_initial Z).getD Board.clear

/-- The board and the `MoveInfo` of `b.move(m)` (the board itself if it stopped). -/
def Board.after (Z : ZobristTables) (b : Board) (m : Move) : Board × MoveInfo :=
  (Board.move Z b m).getD (b, MoveInfo.new)

/-- The board of `undo(m, mi)` on the result `r` of a move (that board itself if it stopped). -/
def Board.back (Z : ZobristTables) (r : Board × MoveInfo) (m : Move) : Board :=
  (Board.undo Z r.1 m r.2).getD r.1

/-- The board that `set_fen` reads from a string (the cleared board if it fails). -/
def Board.of_fen (Z : ZobristTables) (fen : String) : Board :=
  match Board.set_fen Z fen.toList with
  | some (Except.ok b) => b
  | _ => Board.clear

/-- The boards that `set_initial` builds. -/
def Board.IsInitial (Z : ZobristTables) (b : Board) : Prop := Board.set_initial Z = some b

/-- The boards that `set_fen` builds from a FEN string that `fen_ok` accepts. -/
def Board.FromFen (Z : ZobristTables) (b : Board) : Prop :=
  ∃ fen : List Char, Board.fen_ok fen = true ∧ Board.set_fen Z fen = some (Except.ok b)

/-- The agreement of the bitboards, the square array and the piece lists of a board: (i) for
both colours `bb_blockers[c]` is the union of `bbPeca[c][t]` over all piece types `t`; (ii) every
occupied square `s` holding `(type, owner, id)` has `pieces(owner, type)[id] = s`, and the
entries of every piece list are distinct squares that hold a piece of that owner and type. -/
def Board.Agrees (b : Board) : Prop :=
  (∀ c : Color, c ≠ Color.None →
    b.bb_blockers c =
      b.bbPeca c PieceType.CLEAR ||| b.bbPeca c PieceType.PAWN |||
      b.bbPeca c PieceType.KNIGHT ||| b.bbPeca c PieceType.BISHOP |||
      b.bbPeca c PieceType.ROOK ||| b.bbPeca c PieceType.QUEEN |||
      b.bbPeca c PieceType.KING) ∧
  (∀ s : Int, 0 ≤ s → s < 64 → (b._squares s).type ≠ PieceType.CLEAR →
    (Board.pieces b (b._squares s).owner (b._squares s).type)[(b._squares s).id]? = some s) ∧
  (∀ (c : Color) (t : PieceType), c ≠ Color.None →
    (Board.pieces b c t).Nodup ∧
    ∀ q ∈ Board.pieces b c t,
      0 ≤ q ∧ q < 64 ∧ (b._squares q).type = t ∧ (b._squares q).owner = c)

/-- The board of `TEST(castle_movement)`. -/
def Board.castle_test (Z : ZobristTables) : Board :=
  Board.of_fen Z "rnbqkbnr/pppppppp/8/8/8/8/PPPPPPPP/R3K2R w K"

/-- What `set_fen` returned, when it returned a board. -/
def Board.set_fen_ok (Z : ZobristTables) (fen : String) : Bool :=
  match Board.set_fen Z fen.toList with
  | some (Except.ok _) => true
  | _ => false

/-- The board `b2` is the board `b` up to the ids of the pieces and the order of the entries of
the piece lists: the same type and owner on every square, the same entries in every piece list,
the same bitboards, side to move, castling rights, en-passant square, key, history, index of the
last irreversible move, base ply and material scores. -/
def Board.SameUpToIds (b2 b : Board) : Prop :=
  (∀ p : Int, 0 ≤ p → p < 64 →
    (b2._squares p).type = (b._squares p).type ∧ (b2._squares p).owner = (b._squares p).owner) ∧
  (∀ (c : Color) (t : PieceType), c ≠ Color.None →
    (Board.pieces b2 c t).Perm (Board.pieces b c t)) ∧
  (∀ c : Color, c ≠ Color.None → b2.bb_blockers c = b.bb_blockers c) ∧
  (∀ (c : Color) (t : PieceType), c ≠ Color.None → b2.bbPeca c t = b.bbPeca c t) ∧
  b2.turn = b.turn ∧ b2.castle_flags = b.castle_flags ∧ b2.passan_place = b.passan_place ∧
  b2._hash_key = b._hash_key ∧ b2.history = b.history ∧
  b2._last_irreversible_move = b._last_irreversible_move ∧ b2._base_ply = b._base_ply ∧
  (∀ c : Color, c ≠ Color.None → b2._score c = b._score c)

/-- The board after 1. e4 d5 from the initial position. -/
def Board.after_e4_d5 (Z : ZobristTables) : Board :=
  (Board.after Z (Board.after Z (Board.start Z) ⟨12, 28, PieceType.CLEAR⟩).1
    ⟨51, 35, PieceType.CLEAR⟩).1

/-- The board of two bare kings, White to move: `4k3/8/8/8/8/8/8/4K3 w - -`. -/
def Board.bare_kings (Z : ZobristTables) : Board := Board.of_fen Z "4k3/8/8/8/8/8/8/4K3 w - -"

/-- The board `4k3/8/8/8/8/8/4p3/4K2R w K -`: White may still castle king side, and a black
pawn stands on e2. -/
def Board.pawn_on_e2 (Z : ZobristTables) : Board :=
  Board.of_fen Z "4k3/8/8/8/8/8/4p3/4K2R w K -"

/-- The board after 1. Nf3 Nf6 2. Ng1 Ng8 from the initial position. -/
def Board.knights_back (Z : ZobristTables) : Board :=
  (Board.after Z (Board.after Z (Board.after Z (Board.after Z (Board.start Z)
    ⟨6, 21, PieceType.CLEAR⟩).1 ⟨62, 45, PieceType.CLEAR⟩).1
    ⟨21, 6, PieceType.CLEAR⟩).1 ⟨45, 62, PieceType.CLEAR⟩).1

/-- The board of a middle game with an en-passant square, from a FEN of six fields. -/
def Board.middle_game (Z : ZobristTables) : Board :=
  Board.of_fen Z "r3k2r/pppq1ppp/2npbn2/2b1p3/2B1P3/2NPBN2/PPPQ1PPP/R3K2R w Kq e6 3 9"

/-- The initial position read from a FEN whose move number is `-1`, Black to move. -/
def Board.minus_one (Z : ZobristTables) : Board :=
  Board.of_fen Z "rnbqkbnr/pppppppp/8/8/8/8/PPPPPPPP/RNBQKBNR b KQkq - 0 -1"

/-- Plays the moves in a row from the board `b`, each one checked by `list_moves` and
`is_legal_move` before `move` makes it; `none` when a move is not legal. -/
def Board.play_legal (Z : ZobristTables) : Board → List Move → Option Board
  | b, [] => some b
  | b, m :: ms =>
    if m ∈ Rules.list_moves b (Rules.make_scratch b) [] ∧
        Rules.is_legal_move Z b (Rules.make_scratch b) m = some true then
      (Board.move Z b m).bind fun r => Board.play_legal Z r.1 ms
    else none

/-- The game 1. a4 Nf6 2. Ra3 Ng8 3. Rh3 Nf6 4. Rg3 Ng8 5. Nf3 Nf6 6. e3 Ng8 7. Be2 Nf6. -/
def Board.rook_tour : List Move :=
  [⟨8, 24, PieceType.CLEAR⟩, ⟨62, 45, PieceType.CLEAR⟩, ⟨0, 16, PieceType.CLEAR⟩,
   ⟨45, 62, PieceType.CLEAR⟩, ⟨16, 23, PieceType.CLEAR⟩, ⟨62, 45, PieceType.CLEAR⟩,
   ⟨23, 22, PieceType.CLEAR⟩, ⟨45, 62, PieceType.CLEAR⟩, ⟨6, 21, PieceType.CLEAR⟩,
   ⟨62, 45, PieceType.CLEAR⟩, ⟨12, 20, PieceType.CLEAR⟩, ⟨45, 62, PieceType.CLEAR⟩,
   ⟨5, 12, PieceType.CLEAR⟩, ⟨62, 45, PieceType.CLEAR⟩]

/-- The board after the game `rook_tour` from the initial position. -/
def Board.after_rook_tour (Z : ZobristTables) : Board :=
  (Board.play_legal Z (Board.start Z) Board.rook_tour).getD Board.clear

/-- The constant `Score::pawn_value`. -/
def Score.pawn_value : Int := 1000

/-- The constant `Score::max_score`, `1 << 30`. -/
def Score.max_score : Int := 1073741824

/-- The constant `Score::min_score`. -/
def Score.min_score : Int := -Score.max_score

/-- The constant `Score::mate_score_per_move`, `1 << 20`. -/
def Score.mate_score_per_move : Int := 1048576

/-- The constant `Score::max_mate_moves`, `1 << 10`. -/
def Score.max_mate_moves : Int := 1024

/-- The values an `int32_t` holds. -/
def Score.I32 (x : Int) : Prop := -2147483648 ≤ x ∧ x ≤ 2147483647

/-- The method `Score::of_milli_pawns`. -/
def Score.of_milli_pawns (milli_pawns : Int) : Int := milli_pawns

/-- The method `Score::to_milli_pawns`. -/
def Score.to_milli_pawns (s : Int) : Int := s

/-- The method `Score::of_moves_to_mate`; `none` is the `assert`. -/
def Score.of_moves_to_mate (moves : Int)  : Option Int :=
  if moves < Score.max_mate_moves then
    some (toInt32 (Score.mate_score_per_move * toInt32 (Score.max_mate_moves - moves)))
  else none

/-- The method `Score::abs`; `std::abs` of the least `int32_t` wraps. -/
def Score.abs (s : Int) : Int := toInt32 (if s < 0 then -s else s)

/-- The method `Score::is_mate`. -/
def Score.is_mate (s : Int) : Bool :=
  decide (s ≤ -Score.mate_score_per_move ∨ s ≥ Score.mate_score_per_move)

/-- The method `Score::moves_to_mate`; `none` is the `assert`. -/
def Score.moves_to_mate (s : Int) : Option Int :=
  if Score.is_mate s then some (toInt32 (Score.max_mate_moves - Int.tdiv (Score.abs s) Score.mate_score_per_move))
  else none

/-- The method `Score::zero`. -/
def Score.zero : Int := 0

/-- The method `Score::one_pawn`. -/
def Score.one_pawn : Int := Score.pawn_value

/-- The method `Score::max`. -/
def Score.max : Int := Score.max_score

/-- The method `Score::min`. -/
def Score.min : Int := Score.min_score

/-- The method `Score::neg` (the unary minus). -/
def Score.neg (s : Int) : Int := toInt32 (-s)

/-- The method `Score::is_positive`. -/
def Score.is_positive (s : Int) : Bool := decide (s > 0)

/-- The method `Score::is_negative`. -/
def Score.is_negative (s : Int) : Bool := decide (s < 0)

/-- The method `Score::inc_mate_moves`. -/
def Score.inc_mate_moves (s : Int) (moves : Int) : Int :=
  if Score.is_mate s then
    let d := Score.of_milli_pawns (toInt32 (Score.mate_score_per_move * moves))
    if Score.is_positive s then Score.sub s d else Score.add s d
  else s

/-- The method `Score::dec_mate_moves`. -/
def Score.dec_mate_moves (s : Int) (moves : Int) : Int :=
  if Score.is_mate s then
    let d := Score.of_milli_pawns (toInt32 (Score.mate_score_per_move * moves))
    if Score.is_positive s then Score.add s d else Score.sub s d
  else s

/-- The function `pow_int` of score.cpp, on `uint64_t`; `fuel` bounds the depth of the
recursion (`exp + 1` is enough). -/
def Score.pow_int (base : Int) : Nat → Nat → Nat
  | 0, _ => 1
  | fuel + 1, exp =>
    if exp = 0 then 1
    else if exp = 1 then (base % 2 ^ 64).toNat
    else if exp % 2 = 1 then
      (Score.pow_int base fuel (exp - 1) * (base % 2 ^ 64).toNat) % 2 ^ 64
    else (Score.pow_int base fuel (exp / 2) * Score.pow_int base fuel (exp / 2)) % 2 ^ 64

/-- The lambda `format` of `format_ratio`, for a `numerand` that is not negative (the values are
far below the `int64_t` bound). -/
def Score.format_ratio_abs (numerand denominator : Int) (num_decimals : Nat) : List Char :=
  let rem := Int.tmod numerand denominator
  let q := Int.tdiv numerand denominator
  let output := format_int q
  if num_decimals > 0 then
    let rem_q : Int :=
      Int.tdiv (rem * (Score.pow_int 10 (num_decimals + 1) num_decimals : Int)) denominator
    let digits : List Int :=
      (List.range num_decimals).map fun i => Int.tmod (Int.tdiv rem_q (10 ^ i)) 10
    output ++ ['.'] ++ digits.reverse.map fun d => Char.ofNat (d.toNat + '0'.toNat)
  else output

/-- The function `format_ratio` of score.cpp. -/
def Score.format_ratio (numerand denominator : Int) (num_decimals : Nat) : List Char :=
  if numerand ≥ 0 then '+' :: Score.format_ratio_abs numerand denominator num_decimals
  else '-' :: Score.format_ratio_abs (-numerand) denominator num_decimals

/-- The payload of the pair that `Score::to_yasf_value` serialises: what `yasf::ser<int>` or
`yasf::ser<string>` was given (the library is outside the sources; `yasf::des<int>` gives back
the `int` of `yasf::ser<int>` and fails on a string that is not a number). -/
inductive YasfValue where
  | int (n : Int)
  | text (s : List Char)
  deriving DecidableEq, Repr

/-- The `bee::Error` returns of `Score::of_yasf_value`. -/
inductive ScoreError where
  | not_an_int
  | not_a_double
  | unexpected_type
  deriving DecidableEq, Repr

/-- The method `Score::to_yasf_value`, as the pair it serialises; `none` is the `assert` of
`moves_to_mate`. -/
def Score.to_yasf_value (s : Int) : Option (List Char × YasfValue) :=
  if Score.is_mate s then
    (Score.moves_to_mate s).map fun m =>
      ("Mate".toList, YasfValue.int (if Score.is_negative s then toInt32 (-m) else m))
  else
    some ("Pawns".toList,
      YasfValue.text (Score.format_ratio (Score.to_milli_pawns s) Score.pawn_value 3))

/-- The method `Score::of_yasf_value`, on the pair it deserialises.  `of_pawns_text` stands for
`des<double>` followed by `Score::of_pawns`, which work on `double`.  `none` is the `assert` of
`of_moves_to_mate`. -/
def Score.of_yasf_value (of_pawns_text : YasfValue → Option Int)
    (p : List Char × YasfValue) : Option (Except ScoreError Int) :=
  if p.1 = "Mate".toList then
    match p.2 with
    | YasfValue.int moves =>
      (Score.of_moves_to_mate (toInt32 (if moves < 0 then -moves else moves))).map fun ret =>
        Except.ok (if moves < 0 then Score.neg ret else ret)
    | YasfValue.text _ => some (Except.error ScoreError.not_an_int)
  else if p.1 = "Pawns".toList then
    match of_pawns_text p.2 with
    | some v => some (Except.ok v)
    | none => some (Except.error ScoreError.not_a_double)
  else some (Except.error ScoreError.unexpected_type)

/-- The `bee::Error` returns of `Move::of_string`. -/
inductive MoveError where
  | invalid_promotion
  | bad_length
  | invalid_file
  | invalid_row
  deriving DecidableEq, Repr

deriving instance DecidableEq for Except

/-- The function `file_letter_to_idx` of move.cpp. -/
def file_letter_to_idx (c : Char) : Except MoveError Int :=
  if c ≥ 'a' ∧ c ≤ 'h' then Except.ok ((c.toNat : Int) - ('a'.toNat : Int))
  else Except.error MoveError.invalid_file

/-- The function `row_number_to_idx` of move.cpp. -/
def row_number_to_idx (c : Char) : Except MoveError Int :=
  if c ≥ '1' ∧ c ≤ '8' then Except.ok ((c.toNat : Int) - ('1'.toNat : Int))
  else Except.error MoveError.invalid_row

/-- The function `piece_from_promo_letter` of move.cpp. -/
def piece_from_promo_letter (c : Char) : Except MoveError PieceType :=
  if c = 'n' then Except.ok PieceType.KNIGHT
  else if c = 'b' then Except.ok PieceType.BISHOP
  else if c = 'r' then Except.ok PieceType.ROOK
  else if c = 'q' then Except.ok PieceType.QUEEN
  else Except.error MoveError.invalid_promotion

/-- The character that `output += (x + 'a')` appends for an `int8_t` `x`. -/
def char_plus (x : Int) (base : Char) : Char :=
  Char.ofNat ((x + (base.toNat : Int)) % 256).toNat

/-- The method `Move::to_string`; `none` is the `assert` on a promotion to a pawn. -/
def Move.to_string (m : Move) : Option (List Char) :=
  let output : List Char :=
    [char_plus (Move.oc m) 'a', char_plus (Move.ol m) '1',
     char_plus (Move.dc m) 'a', char_plus (Move.dl m) '1']
  match m._promotion with
  | PieceType.CLEAR => some output
  | PieceType.PAWN => none
  | PieceType.KNIGHT => some (output ++ ['n'])
  | PieceType.BISHOP => some (output ++ ['b'])
  | PieceType.ROOK => some (output ++ ['r'])
  | PieceType.QUEEN => some (output ++ ['q'])
  | PieceType.KING => some (output ++ ['k'])

/-- The constructor `Move(ol, oc, dl, dc, promotion)`. -/
def Move.of_lines_cols (ol oc dl dc : Int) (promotion : PieceType) : Move :=
  ⟨Place.of_line_of_col ol oc, Place.of_line_of_col dl dc, promotion⟩

/-- The part of `Move::of_string` after the length test. -/
def Move.of_string_squares (s0 s1 s2 s3 : Char) (promoted : PieceType) :
    Except MoveError Move :=
  match file_letter_to_idx s0 with
  | Except.error e => Except.error e
  | Except.ok from_file_idx =>
    match row_number_to_idx s1 with
    | Except.error e => Except.error e
    | Except.ok from_row_idx =>
      match file_letter_to_idx s2 with
      | Except.error e => Except.error e
      | Except.ok to_file_idx =>
        match row_number_to_idx s3 with
        | Except.error e => Except.error e
        | Except.ok to_row_idx =>
          Except.ok (Move.of_lines_cols from_row_idx from_file_idx to_row_idx to_file_idx
            promoted)

/-- The method `Move::of_string`. -/
def Move.of_string (move_str : List Char) : Except MoveError Move :=
  match move_str with
  | [s0, s1, s2, s3, s4] =>
    match piece_from_promo_letter (tolower s4) with
    | Except.error e => Except.error e
    | Except.ok promoted => Move.of_string_squares s0 s1 s2 s3 promoted
  | [s0, s1, s2, s3] => Move.of_string_squares s0 s1 s2 s3 PieceType.CLEAR
  | _ => Except.error MoveError.bad_length

/-- The method `Board::parse_xboard_move_string`. -/
def Board.parse_xboard_move_string (b : Board) (move_str : List Char) :
    Except MoveError Move :=
  if move_str = "o-o-o".toList ∨ move_str = "O-O-O".toList ∨ move_str = "0-0-0".toList then
    if b.turn = Color.White then Move.of_string "e1c1".toList
    else Move.of_string "e8c8".toList
  else if move_str = "o-o".toList ∨ move_str = "O-O".toList ∨ move_str = "0-0".toList then
    if b.turn = Color.White then Move.of_string "e1g1".toList
    else Move.of_string "e8g8".toList
  else Move.of_string move_str

/-- The capacity of `MoveVector`. -/
def MoveVector.cap : Nat := 256

/-- The enum `GameResult`. -/
inductive GameResult where
  | WhiteWon
  | BlackWon
  | Draw
  | NotFinished
  deriving DecidableEq, Repr

/-- The loop of `has_legal_moves` over the listed moves; `none`: a call of `is_legal_move`
stops. -/
def Rules.has_legal_moves_go (Z : ZobristTables) (board : Board) (scratch : EvalScratch) :
    List Move → Option Bool
  | [] => some false
  | m :: ms =>
    (Rules.is_legal_move Z board scratch m).bind fun r =>
      if r then some true else Rules.has_legal_moves_go Z board scratch ms

/-- The function `has_legal_moves` of rules.cpp; `none`: the moves do not fit the
`MoveVector`, or a call of `is_legal_move` stops. -/
def Rules.has_legal_moves (Z : ZobristTables) (board : Board) (scratch : EvalScratch) :
    Option Bool :=
  let moves := Rules.list_moves board scratch []
  if moves.length ≤ MoveVector.cap then Rules.has_legal_moves_go Z board scratch moves
  else none

/-- The method `Rules::is_mate`. -/
def Rules.is_mate (Z : ZobristTables) (board : Board) (scratch : EvalScratch) : Option Bool :=
  if !Rules.is_check board scratch then some false
  else (Rules.has_legal_moves Z board scratch).map fun r => !r

/-- The method `Rules::result`. -/
def Rules.result (Z : ZobristTables) (board : Board) (scratch : EvalScratch) :
    Option GameResult :=
  let check := Rules.is_check board scratch
  (Rules.has_legal_moves Z board scratch).map fun legal_moves =>
    if check && !legal_moves then
      if board.turn = Color.White then GameResult.BlackWon else GameResult.WhiteWon
    else if !legal_moves then GameResult.Draw
    else if Rules.is_draw_without_stalemate board then GameResult.Draw
    else GameResult.NotFinished

/-- The board after 1. f3 e5 2. g4 Qh4, where White is mated. -/
def Board.fools_mate (Z : ZobristTables) : Board :=
  Board.of_fen Z "rnb1kbnr/pppp1ppp/8/4p3/6Pq/5P2/PPPPP2P/RNBQKBNR w KQkq - 1 3"

/-- The byte `x` copied to one bit per row: bit `c` of `x` becomes bit `8 * c`. -/
def BitBoard.spread (x : Nat) : Nat :=
  (List.range 8).foldl (fun a c => if x.testBit c then a ||| 2 ^ (8 * c) else a) 0

/-- The method `CombinedRules::list_piece_moves`; `none` is the `assert(false)` of the case
`CLEAR`. -/
def Rules.list_piece_moves (b : Board) (scratch : EvalScratch) (list : List Move)
    (type : PieceType) : Option (List Move) :=
  let color := b.turn
  let attacked := scratch.get (oponent color)
  let rooks := b.bbPeca color PieceType.ROOK
  match type with
  | PieceType.PAWN => some (PieceRules.list_all_moves PawnImpl b color attacked rooks list)
  | PieceType.KNIGHT => some (PieceRules.list_all_moves KnightImpl b color attacked rooks list)
  | PieceType.BISHOP => some (PieceRules.list_all_moves BishopImpl b color attacked rooks list)
  | PieceType.ROOK => some (PieceRules.list_all_moves RookImpl b color attacked rooks list)
  | PieceType.QUEEN => some (PieceRules.list_all_moves QueenImpl b color attacked rooks list)
  | PieceType.KING => some (PieceRules.list_all_moves KingImpl b color attacked rooks list)
  | PieceType.CLEAR => none

/-- The loop of `Rules::pretty_move` over `b.pieces(color, piece)`; the triple is
`(has_other_piece, has_other_piece_same_rank, has_other_piece_same_file)`, and `none` is a call
of `is_legal_move` that stops. -/
def Rules.pretty_move_others (Z : ZobristTables) (b : Board) (scratch : EvalScratch) (m : Move) :
    List Int → Bool × Bool × Bool → Option (Bool × Bool × Bool)
  | [], acc => some acc
  | p :: ps, acc =>
    if p = m.o then Rules.pretty_move_others Z b scratch m ps acc
    else
      match Rules.is_legal_move Z b scratch ⟨p, m.d, Move.promotion m⟩ with
      | none => none
      | some false => Rules.pretty_move_others Z b scratch m ps acc
      | some true =>
        Rules.pretty_move_others Z b scratch m ps
          (true,
           if Place.line m.o = Place.line p then true else acc.2.1,
           if Place.col m.o = Place.col p then true else acc.2.2)

/-- The local `include_orig_file` of `Rules::pretty_move`. -/
def Rules.include_orig_file (piece : PieceType) (captured : Bool) (f : Bool × Bool × Bool) :
    Bool :=
  (decide (piece = PieceType.PAWN) && captured) || (f.1 && (!f.2.2 || (f.2.2 && f.2.1)))

/-- The local `include_orig_rank` of `Rules::pretty_move`. -/
def Rules.include_orig_rank (f : Bool × Bool × Bool) : Bool := f.2.2

/-- The text of `Rules::pretty_move` before the suffix for the result of the move. -/
def Rules.pretty_move_body (b : Board) (m : Move) (f : Bool × Bool × Bool) : List Char :=
  let piece := (b._squares m.o).type
  let captured := decide ((b._squares m.d).type ≠ PieceType.CLEAR)
  (if piece ≠ PieceType.PAWN then [piece_to_letter piece] else [])
    ++ (if Rules.include_orig_file piece captured f then [char_plus (Move.oc m) 'a'] else [])
    ++ (if Rules.include_orig_rank f then [char_plus (Move.ol m) '1'] else [])
    ++ (if captured then ['x'] else [])
    ++ [char_plus (Move.dc m) 'a', char_plus (Move.dl m) '1']
    ++ (if Move.promotion m ≠ PieceType.CLEAR then ['=', piece_to_letter (Move.promotion m)]
        else [])

/-- The method `Rules::pretty_move`; `none` is a call of `is_legal_move`, `move` or `result`
that stops. -/
def Rules.pretty_move (Z : ZobristTables) (b : Board) (m : Move) : Option (List Char) :=
  let piece := (b._squares m.o).type
  let color := (b._squares m.o).owner
  if piece = PieceType.KING ∧ Place.col m.o = 4 ∧ Place.col m.d = 6 then some ['O', '-', 'O']
  else if piece = PieceType.KING ∧ Place.col m.o = 4 ∧ Place.col m.d = 2 then
    some ['O', '-', 'O', '-', 'O']
  else
    match Rules.pretty_move_others Z b (Rules.make_scratch b) m (Board.pieces b color piece)
        (false, false, false) with
    | none => none
    | some f =>
      let output := Rules.pretty_move_body b m f
      match Board.move Z b m with
      | none => none
      | some r =>
        let scratch := Rules.make_scratch r.1
        match Rules.result Z r.1 scratch with
        | none => none
        | some GameResult.BlackWon => some (output ++ ['#'])
        | some GameResult.WhiteWon => some (output ++ ['#'])
        | some GameResult.Draw => some (output ++ ['='])
        | some GameResult.NotFinished =>
          some (if Rules.is_check r.1 scratch then output ++ ['+'] else output)

/-- The errors that `Rules::parse_pretty_move` returns, in the order of the source. -/
inductive PrettyError where
  | InvalidPromotionPiece
  | UnexpectedEndOfMove
  | ExpectedEqualsBeforePromotion
  | TooShort
  | ExtraStuff
  | InvalidTarget
  | CaptureMismatch
  | Ambiguous
  | NoMatchingMove
  deriving DecidableEq, Repr

/-- The first loop of `Rules::parse_pretty_move`, on the text read from its back: the marks
`!`, `?`, `+` and `#` at the end are dropped. -/
def Rules.parse_strip : List Char → List Char
  | [] => []
  | c :: cs =>
    if c = '!' ∨ c = '?' ∨ c = '+' ∨ c = '#' then Rules.parse_strip cs else c :: cs

/-- The test `!empty() && p(peek())` of `Rules::parse_pretty_move`, on the text read from its
back. -/
def Rules.peek_is (p : Char → Bool) : List Char → Bool
  | [] => false
  | c :: _ => p c

/-- The last loop of `Rules::parse_pretty_move` over the listed moves.  The outer `none` is a
call of `is_legal_move` that stops or the `assert` on the owner of the origin. -/
def Rules.parse_candidates (Z : ZobristTables) (b : Board) (scratch : EvalScratch)
    (type : PieceType) (from_line from_col : Option Int) (target : Int) (is_capture : Bool) :
    List Move → Option Move → Option (Except PrettyError (Option Move))
  | [], candidate => some (Except.ok candidate)
  | m :: ms, candidate =>
    match Rules.is_legal_move Z b scratch m with
    | none => none
    | some false =>
      Rules.parse_candidates Z b scratch type from_line from_col target is_capture ms candidate
    | some true =>
      if from_line.isSome ∧ from_line ≠ some (Place.line m.o) then
        Rules.parse_candidates Z b scratch type from_line from_col target is_capture ms candidate
      else if from_col.isSome ∧ from_col ≠ some (Place.col m.o) then
        Rules.parse_candidates Z b scratch type from_line from_col target is_capture ms candidate
      else if (b._squares m.o).type ≠ type then
        Rules.parse_candidates Z b scratch type from_line from_col target is_capture ms candidate
      else if (b._squares m.o).owner ≠ b.turn then none
      else if target ≠ m.d then
        Rules.parse_candidates Z b scratch type from_line from_col target is_capture ms candidate
      else if type ≠ PieceType.PAWN ∧
          ((is_capture = true ∧ (b._squares m.d).type = PieceType.CLEAR) ∨
           (is_capture = false ∧ (b._squares m.d).type ≠ PieceType.CLEAR)) then
        some (Except.error PrettyError.CaptureMismatch)
      else if candidate.isSome then some (Except.error PrettyError.Ambiguous)
      else Rules.parse_candidates Z b scratch type from_line from_col target is_capture ms (some m)

/-- The part of `Rules::parse_pretty_move` from `if (move_str.size() >= 2)` on; `s` is the
text that is left, read from its back. -/
def Rules.parse_pretty_move_squares (Z : ZobristTables) (b : Board) (promotion : PieceType)
    (s : List Char) : Option (Except PrettyError Move) :=
  match s with
  | l :: c :: s2 =>
    let target := Place.of_line_of_col ((l.toNat : Int) - ('1'.toNat : Int))
      ((c.toNat : Int) - ('a'.toNat : Int))
    let is_capture := Rules.peek_is (fun d => decide (d = 'x')) s2
    let s3 := if is_capture then s2.tail else s2
    let has_line := Rules.peek_is isdigit s3
    let from_line : Option Int :=
      if has_line then s3.head?.map fun d => (d.toNat : Int) - ('1'.toNat : Int) else none
    let s4 := if has_line then s3.tail else s3
    let has_col := Rules.peek_is islower s4
    let from_col : Option Int :=
      if has_col then s4.head?.map fun d => (d.toNat : Int) - ('a'.toNat : Int) else none
    let s5 := if has_col then s4.tail else s4
    let has_type := Rules.peek_is isupper s5
    let type : PieceType :=
      if has_type then (s5.head?.map letter_to_piece).getD PieceType.PAWN else PieceType.PAWN
    let s6 := if has_type then s5.tail else s5
    if s6 ≠ [] then some (Except.error PrettyError.ExtraStuff)
    else if !Place.is_valid target then some (Except.error PrettyError.InvalidTarget)
    else
      let scratch := Rules.make_scratch b
      match Rules.list_piece_moves b scratch [] type with
      | none => none
      | some moves =>
        match Rules.parse_candidates Z b scratch type from_line from_col target is_capture moves
            none with
        | none => none
        | some (Except.error e) => some (Except.error e)
        | some (Except.ok none) => some (Except.error PrettyError.NoMatchingMove)
        | some (Except.ok (some candidate)) =>
          some (Except.ok (Move.set_promotion candidate promotion))
  | _ => some (Except.error PrettyError.TooShort)

/-- The method `Rules::parse_pretty_move`; the text is read from its back.  The outer `none` is
an `assert` that stops (`peek` on an empty text, a piece letter that names no piece, a call of
`is_legal_move` that stops). -/
def Rules.parse_pretty_move (Z : ZobristTables) (b : Board) (m_in : List Char) :
    Option (Except PrettyError Move) :=
  let s := Rules.parse_strip m_in.reverse
  if s = ['O', '-', 'O'] ∧ b.turn = Color.White then
    some (Except.ok ⟨Place.of_line_of_col 0 4, Place.of_line_of_col 0 6, PieceType.CLEAR⟩)
  else if s = ['O', '-', 'O'] ∧ b.turn = Color.Black then
    some (Except.ok ⟨Place.of_line_of_col 7 4, Place.of_line_of_col 7 6, PieceType.CLEAR⟩)
  else if s = ['O', '-', 'O', '-', 'O'] ∧ b.turn = Color.White then
    some (Except.ok ⟨Place.of_line_of_col 0 4, Place.of_line_of_col 0 2, PieceType.CLEAR⟩)
  else if s = ['O', '-', 'O', '-', 'O'] ∧ b.turn = Color.Black then
    some (Except.ok ⟨Place.of_line_of_col 7 4, Place.of_line_of_col 7 2, PieceType.CLEAR⟩)
  else
    match s with
    | [] => none
    | c :: rest =>
      if isupper c then
        if letter_to_piece c = PieceType.CLEAR then
          some (Except.error PrettyError.InvalidPromotionPiece)
        else
          match rest with
          | [] => some (Except.error PrettyError.UnexpectedEndOfMove)
          | e :: rest2 =>
            if e ≠ '=' then some (Except.error PrettyError.ExpectedEqualsBeforePromotion)
            else Rules.parse_pretty_move_squares Z b (letter_to_piece c) rest2
      else Rules.parse_pretty_move_squares Z b PieceType.CLEAR s

/-- The board `4k3/8/8/8/8/8/4p3/4K3 w - - 0 1`: White to move may take the last pawn. -/
def Board.lone_pawn (Z : ZobristTables) : Board :=
  Board.of_fen Z "4k3/8/8/8/8/8/4p3/4K3 w - - 0 1"

/-- The board `k7/pppppppp/8/8/R7/8/7K/R7 w` of `TEST(pretty_move)`: the rooks on a1 and a4 may
both go to a3. -/
def Board.two_rooks (Z : ZobristTables) : Board :=
  Board.of_fen Z "k7/pppppppp/8/8/R7/8/7K/R7 w"

/-- The promotion that `PieceRules::list_moves` leaves on a move of a piece of type `t`: the
queen for a pawn that ends on line 0 or 7, none otherwise. -/
def PieceRules.listed_promotion (t : PieceType) (m : Move) : PieceType :=
  if t = PieceType.PAWN ∧ (Move.dl m = 0 ∨ Move.dl m = 7) then PieceType.QUEEN
  else PieceType.CLEAR

/-- The board of `set_initial` whose `history` already holds 1024 keys. -/
def Board.full_history (Z : ZobristTables) : Board :=
  { Board.start Z with history := List.replicate 1024 0 }

/-- The board `4k3/8/8/8/8/8/4p3/K7 w - -`: a black pawn on e2 with d1, e1 and f1 empty. -/
def Board.pawn_before_promotion (Z : ZobristTables) : Board :=
  Board.of_fen Z "4k3/8/8/8/8/8/4p3/K7 w - -"

/-- The struct `TranspositionTable::hash_slot`. -/
structure hash_slot where
  hash_key : Nat
  lower_bound : Int
  upper_bound : Int
  depth : Int
  move : Move
  deriving DecidableEq, Repr

/-- The constant `TranspositionTable::BUCKET_SIZE`. -/
def BUCKET_SIZE : Nat := 4

/-- The struct `TranspositionTable::hash_bucket`: its array `slot[BUCKET_SIZE]`, as a function
of the index. -/
abbrev hash_bucket := Nat → hash_slot

/-- The struct `TranspositionTable`: `mask`, `hash_size` and the two arrays of buckets of
`hash_table`, one for each side to move. -/
structure TranspositionTable where
  mask : Nat
  hash_size : Nat
  hash_table : Color → Nat → hash_bucket

/-- The call `std::swap(bucket->slot[i], bucket->slot[j])`. -/
def TranspositionTable.swap (a : hash_bucket) (i j : Nat) : hash_bucket :=
  fun k => if k = i then a j else if k = j then a i else a k

/-- The method `get_board_hash`. -/
def TranspositionTable.get_board_hash (t : TranspositionTable) (board : Board) : Nat :=
  Board.hash_key board ^^^ t.mask

/-- The index of the bucket of `get_bucket` in `hash_table[board.turn]`. -/
def TranspositionTable.bucket_index (t : TranspositionTable) (board : Board) : Nat :=
  TranspositionTable.get_board_hash t board % t.hash_size

/-- The method `get_bucket`. -/
def TranspositionTable.get_bucket (t : TranspositionTable) (board : Board) : hash_bucket :=
  t.hash_table board.turn (TranspositionTable.bucket_index t board)

/-- The assignment `*get_bucket(board) = a`. -/
def TranspositionTable.set_bucket (t : TranspositionTable) (board : Board) (a : hash_bucket) :
    TranspositionTable :=
  { t with hash_table := fun c i =>
      if c = board.turn ∧ i = TranspositionTable.bucket_index t board then a
      else t.hash_table c i }

/-- The inner loop of `find_key`: `for (int j = i; j > 0; --j) swap(slot[j - 1], slot[j])`. -/
def TranspositionTable.find_key_swaps (a : hash_bucket) : Nat → hash_bucket
  | 0 => a
  | j + 1 => TranspositionTable.find_key_swaps (TranspositionTable.swap a j (j + 1)) j

/-- The outer loop of `find_key` from the index `i` on, with `n` indices left: the bucket after
the swaps when a slot holds `key`, `none` when the loop ends without one. -/
def TranspositionTable.find_key_go (key : Nat) (a : hash_bucket) :
    Nat → Nat → Option hash_bucket
  | 0, _ => none
  | n + 1, i =>
    if (a i).hash_key = key then some (TranspositionTable.find_key_swaps a i)
    else TranspositionTable.find_key_go key a n (i + 1)

/-- The method `find_key` on a bucket: the bucket after the swaps, whose slot 0 is the slot
the source returns a pointer to; `none` is the null pointer. -/
def TranspositionTable.find_key (key : Nat) (a : hash_bucket) : Option hash_bucket :=
  TranspositionTable.find_key_go key a BUCKET_SIZE 0

/-- The method `find`: the slot that the returned pointer names (`none` for the null pointer),
and the table, whose bucket `find_key` may have reordered. -/
def TranspositionTable.find (t : TranspositionTable) (board : Board) :
    Option hash_slot × TranspositionTable :=
  match TranspositionTable.find_key (TranspositionTable.get_board_hash t board)
      (TranspositionTable.get_bucket t board) with
  | none => (none, t)
  | some a => (some (a 0), TranspositionTable.set_bucket t board a)

/-- The loop `for (int i = BUCKET_SIZE - 1; i > 0; --i) slot[i] = slot[i - 1]` of
`_hash_insert`, from the index `i` down. -/
def TranspositionTable.shift_right (a : hash_bucket) : Nat → hash_bucket
  | 0 => a
  | i + 1 => TranspositionTable.shift_right (fun k => if k = i + 1 then a i else a k) i

/-- The method `_hash_insert`, which is `insert`. -/
def TranspositionTable.insert (t : TranspositionTable) (board : Board) (depth : Int)
    (lower_bound upper_bound : Int) (move : Move) : TranspositionTable :=
  let key := TranspositionTable.get_board_hash t board
  match TranspositionTable.find_key key (TranspositionTable.get_bucket t board) with
  | none =>
    let a := TranspositionTable.shift_right (TranspositionTable.get_bucket t board)
      (BUCKET_SIZE - 1)
    TranspositionTable.set_bucket t board
      (fun k => if k = 0 then ⟨key, lower_bound, upper_bound, depth, move⟩ else a k)
  | some a =>
    if (a 0).depth > depth then TranspositionTable.set_bucket t board a
    else
      let lower_bound :=
        if (a 0).depth = depth then max lower_bound (a 0).lower_bound else lower_bound
      let upper_bound :=
        if (a 0).depth = depth then min upper_bound (a 0).upper_bound else upper_bound
      TranspositionTable.set_bucket t board
        (fun k => if k = 0 then ⟨key, lower_bound, upper_bound, depth, move⟩ else a k)

/-- The method `clear`: `mask++` on a `uint64_t`. -/
def TranspositionTable.clear (t : TranspositionTable) : TranspositionTable :=
  { t with mask := (t.mask + 1) % 2 ^ 64 }

/-- The bucket `a` with its slot `i` moved to slot 0 and the slots before it moved one place
up: what the swaps of `find_key` leave. -/
def TranspositionTable.to_front (a : hash_bucket) (i : Nat) : hash_bucket :=
  fun k => if k = 0 then a i else if k ≤ i then a (k - 1) else a k

/-- The bucket `a` after the write of `x` to its slot 0. -/
def TranspositionTable.write0 (x : hash_slot) (a : hash_bucket) : hash_bucket :=
  fun k => if k = 0 then x else a k

/-- The bucket that `_hash_insert` leaves in place of the bucket `a`. -/
def TranspositionTable.inserted (key : Nat) (depth lower_bound upper_bound : Int) (move : Move)
    (a : hash_bucket) : hash_bucket :=
  match TranspositionTable.find_key key a with
  | none =>
    TranspositionTable.write0 ⟨key, lower_bound, upper_bound, depth, move⟩
      (TranspositionTable.shift_right a (BUCKET_SIZE - 1))
  | some a1 =>
    if (a1 0).depth > depth then a1
    else
      TranspositionTable.write0
        ⟨key, if (a1 0).depth = depth then max lower_bound (a1 0).lower_bound else lower_bound,
          if (a1 0).depth = depth then min upper_bound (a1 0).upper_bound else upper_bound,
          depth, move⟩ a1

/-- A call on the table: `insert(board, depth, lower_bound, upper_bound, move)` or
`find(board)`. -/
inductive TTOp where
  | insert (board : Board) (depth : Int) (lower_bound upper_bound : Int) (move : Move)
  | find (board : Board)

/-- The table after one call. -/
def TranspositionTable.step (t : TranspositionTable) : TTOp → TranspositionTable
  | TTOp.insert board depth lower_bound upper_bound move =>
    TranspositionTable.insert t board depth lower_bound upper_bound move
  | TTOp.find board => (TranspositionTable.find t board).2

/-- The table after a sequence of calls, in order. -/
def TranspositionTable.run (t : TranspositionTable) (ops : List TTOp) : TranspositionTable :=
  ops.foldl TranspositionTable.step t

/-- The slot that `find_key` returns a pointer to: the first slot of the bucket that holds the
key. -/
def TranspositionTable.first_slot (key : Nat) (a : hash_bucket) : Option hash_slot :=
  (TranspositionTable.find_key key a).map fun r => r 0

/-- The loop of `is_prime` from `i` on: `for (i = 3; i * i <= N; i += 2)`. -/
def TranspositionTable.is_prime_go (N : Nat) : Nat → Nat → Bool
  | 0, _ => true
  | fuel + 1, i =>
    if i * i ≤ N then
      if N % i = 0 then false else TranspositionTable.is_prime_go N fuel (i + 2)
    else true

/-- The function `is_prime` of transposition_table.cpp. -/
def TranspositionTable.is_prime (N : Nat) : Bool :=
  if N = 2 then true
  else if N % 2 = 0 then false
  else TranspositionTable.is_prime_go N N 3

/-- The loop of `next_prime`: `while (not is_prime(N)) ++N`; `none` when the fuel ends. -/
def TranspositionTable.next_prime_go : Nat → Nat → Option Nat
  | 0, _ => none
  | fuel + 1, N =>
    if TranspositionTable.is_prime N then some N
    else TranspositionTable.next_prime_go fuel (N + 1)

/-- The function `next_prime`. -/
def TranspositionTable.next_prime (N : Nat) : Option Nat :=
  TranspositionTable.next_prime_go (N + 2) N

/-- A slot of the memory that `calloc` returns. -/
def hash_slot.zero : hash_slot := ⟨0, 0, 0, 0, ⟨0, 0, PieceType.CLEAR⟩⟩

/-- The method `set_size`; `bucket_bytes` is `sizeof(hash_bucket)`. -/
def TranspositionTable.set_size (t : TranspositionTable) (size bucket_bytes : Nat) :
    Option TranspositionTable :=
  (TranspositionTable.next_prime (size / bucket_bytes / 2)).map fun n =>
    TranspositionTable.clear
      { t with hash_size := n, hash_table := fun _ _ _ => hash_slot.zero }

/-- The constructor `TranspositionTable(size)`. -/
def TranspositionTable.create (size bucket_bytes : Nat) : Option TranspositionTable :=
  TranspositionTable.set_size
    { mask := 0, hash_size := 0, hash_table := fun _ _ _ => hash_slot.zero } size bucket_bytes

/-- The table of `TranspositionTable(0)`: one bucket for each side to move. -/
def TranspositionTable.smallest : TranspositionTable :=
  { mask := 1, hash_size := 1, hash_table := fun _ _ _ => hash_slot.zero }

/-- The board after the two moves `m1`, `m2` from the initial position. -/
def Board.after2 (Z : ZobristTables) (m1 m2 : Move) : Board :=
  (Board.after Z (Board.after Z (Board.start Z) m1).1 m2).1

/-- Zobrist tables under which a lone white king has the key 5 on a1 and 6 on b1. -/
def Z1 : ZobristTables :=
  { hash_code := fun p _ _ => p.toNat + 5
    passant_hash := fun p => p.toNat + 100
    castle_hash := fun f => 1000 * f
    hash_code_turn := 3000 }

/-- The table `MoveScore::cap_table`, in milli-pawns (`p(x)` is `Score::of_pawns(x)`). -/
def MoveScore.cap_table : PieceType → Int
  | PieceType.CLEAR => 0
  | PieceType.PAWN => 1000
  | PieceType.KNIGHT => 3000
  | PieceType.BISHOP => 2000
  | PieceType.ROOK => 5000
  | PieceType.QUEEN => 9000
  | PieceType.KING => 2000

/-- The struct `MoveScore`. -/
structure MoveScore where
  m : Move
  score : Int
  deriving DecidableEq, Repr

/-- The method `MoveScore::setScore`: the new value of `score`.  The operators of `Score` work
on `int32_t`, and `/` rounds toward zero. -/
def MoveScore.setScore (board : Board) (m : Move) (move_history_score : Int) : Int :=
  Score.add (MoveScore.cap_table (board._squares m.d).type)
    (toInt32 (Int.tdiv (toInt32 (move_history_score * 213)) 128))

/-- The operator `MoveScore::operator<`. -/
def MoveScore.lt (a b : MoveScore) : Bool := decide (a.score > b.score)

/-- The constant `MoveHistory::high_pri_score`, `Score::of_pawns(10000)`. -/
def MoveHistory.high_pri_score : Int := 10000000

/-- The constant `MoveHistory::memory_cap`. -/
def MoveHistory.memory_cap : Int := 512

/-- The function `std::stable_sort` with the comparison `lt`: the elements in an order in which
no element is `lt` an earlier one, those that are equivalent in the order of the input.  That
order is unique; this is the insertion sort that gives it. -/
def stable_sort {α : Type} (lt : α → α → Bool) (l : List α) : List α :=
  List.insertionSort (fun a b => lt b a = false) l

/-- The score that the first loop of `MoveHistory::sort_moves` gives the move `m`;
`table` is `_table[board.ply()]`. -/
def MoveHistory.move_score (table : Int → Int → Int) (board : Board) (high_pri_move : Move)
    (m : Move) : Int :=
  if Move.same m high_pri_move then
    Score.add (MoveScore.setScore board m (table m.o m.d)) MoveHistory.high_pri_score
  else MoveScore.setScore board m (table m.o m.d)

/-- The method `MoveHistory::sort_moves`: the new value of `moves`; `_table` is the table of
the object.  `none`: for some move of the list, an index is outside `_table` (a ply outside
`0..1023`) or outside a `BoardArray` (a square outside the board). -/
def MoveHistory.sort_moves (_table : Int → Int → Int → Int) (board : Board) (moves : List Move)
    (high_pri_move : Move) : Option (List Move) :=
  if ∀ m ∈ moves, 0 ≤ Board.ply board ∧ Board.ply board < 1024 ∧
      Place.is_valid m.o = true ∧ Place.is_valid m.d = true then
    let ms : List MoveScore := moves.map fun m =>
      ⟨m, MoveHistory.move_score (_table (Board.ply board)) board high_pri_move m⟩
    some ((stable_sort MoveScore.lt ms).map fun x => x.m)
  else none

/-- The method `MoveHistory::add`: the new value of `_table`; `none` as in `sort_moves`. -/
def MoveHistory.add (_table : Int → Int → Int → Int) (board : Board) (move : Move) :
    Option (Int → Int → Int → Int) :=
  if 0 ≤ Board.ply board ∧ Board.ply board < 1024 ∧ Place.is_valid move.o = true ∧
      Place.is_valid move.d = true then
    let table := _table (Board.ply board)
    let table1 : Int → Int → Int := fun o d =>
      if o = move.o ∧ d = move.d then Score.add (table o d) 1 else table o d
    let table2 : Int → Int → Int :=
      if table1 move.o move.d ≥ MoveHistory.memory_cap then
        fun o d => toInt32 (Int.tdiv (table1 o d) 2)
      else table1
    some fun p => if p = Board.ply board then table2 else _table p
  else none

/-- A history table with one non-zero entry: `e4e5` was counted three times at every ply. -/
def MoveHistory.sample_table : Int → Int → Int → Int :=
  fun _ o d => if o = 28 ∧ d = 36 then 3 else 0

/-- Four moves of White after `1. e4 d5`: `a3`, `exd5`, `Nf3`, `e5`. -/
def MoveHistory.sample_moves : List Move :=
  [⟨8, 16, PieceType.CLEAR⟩, ⟨28, 35, PieceType.CLEAR⟩, ⟨6, 21, PieceType.CLEAR⟩,
   ⟨28, 36, PieceType.CLEAR⟩]

/-- The type `PartialScore` of `mpv_search.cpp`: a variant of `AtMost` and `Exactly`. -/
inductive PartialScore where
  | AtMost (value : Int)
  | Exactly (value : Int)
  deriving DecidableEq, Repr

/-- The function `PartialScore::at_most`. -/
def PartialScore.at_most (score : Int) : PartialScore := PartialScore.AtMost score

/-- The function `PartialScore::exactly`. -/
def PartialScore.exactly (score : Int) : PartialScore := PartialScore.Exactly score

/-- The method `PartialScore::exact_score`; the `assert(false)` of `AtMost` is `none`. -/
def PartialScore.exact_score : PartialScore → Option Int
  | PartialScore.AtMost _ => none
  | PartialScore.Exactly v => some v

/-- The method `PartialScore::is_exact`. -/
def PartialScore.is_exact : PartialScore → Bool
  | PartialScore.AtMost _ => false
  | PartialScore.Exactly _ => true

/-- The struct `SearchResultInfo`; `think_time` is the span in nanoseconds. -/
structure SearchResultInfo where
  best_move : Move
  eval : Int
  pv : List Move
  depth : Int
  think_time : Int
  nodes : Nat
  deriving DecidableEq, Repr

/-- The function `SearchResultInfo::create`. -/
def SearchResultInfo.create (m : Move) (pv : List Move) (eval : Int) (nodes : Nat) (depth : Int)
    (ellapsed : Int) : SearchResultInfo :=
  { best_move := m, eval := eval, pv := pv, depth := depth, think_time := ellapsed,
    nodes := nodes }

/-- The method `SearchResultInfo::clone`. -/
def SearchResultInfo.clone (r : SearchResultInfo) : SearchResultInfo :=
  { best_move := r.best_move, eval := r.eval, pv := r.pv, depth := r.depth,
    think_time := r.think_time, nodes := r.nodes }

/-- The method `SearchResultInfo::flip`: `if (color == Color::Black) eval = -eval`. -/
def SearchResultInfo.flip (r : SearchResultInfo) (color : Color) : SearchResultInfo :=
  if color = Color.Black then { r with eval := Score.neg r.eval } else r

/-- The struct `SearchResultOneDepth`. -/
structure SearchResultOneDepth where
  _score : Int
  _move : Option Move
  _pv : List Move
  _nodes : Nat
  deriving DecidableEq, Repr

/-- The struct `MoveSearchState`; a null `last_result` is `none`. -/
structure MoveSearchState where
  m : Move
  taken : Bool
  next_depth : Int
  last_result : Option SearchResultInfo
  last_score : PartialScore
  deriving DecidableEq, Repr

/-- The constructor `MoveSearchState(Move m)`. -/
def MoveSearchState.create (m : Move) : MoveSearchState :=
  { m := m, taken := false, next_depth := 1, last_result := none,
    last_score := PartialScore.at_most Score.max }

/-- The operator `Move::operator<`: by origin, then by destination. -/
def Move.lt (a b : Move) : Bool :=
  if a.o ≠ b.o then decide (a.o < b.o) else decide (a.d < b.d)

/-- The lambda `is_better_than` of `MpvContext::sort_moves`. -/
def MpvContext.is_better_than (m1 m2 : MoveSearchState) : Bool :=
  if (!m1.last_score.is_exact) && (!m2.last_score.is_exact) then false
  else if !m1.last_score.is_exact then false
  else if !m2.last_score.is_exact then true
  else
    match m1.last_score.exact_score, m2.last_score.exact_score with
    | some s1, some s2 =>
      if s1 ≠ s2 then decide (s1 > s2)
      else
        match m1.last_result, m2.last_result with
        | none, none => false
        | none, some _ => false
        | some _, none => true
        | some r1, some r2 =>
          if r1.depth ≠ r2.depth then decide (r1.depth > r2.depth) else Move.lt m1.m m2.m
    | _, _ => false

/-- The contract of `std::sort(first, last, comp)`: the range is rearranged (a permutation) so
that no element is `comp`-before an element that precedes it. -/
def SortContract {α : Type} (comp : α → α → Bool) (input output : List α) : Prop :=
  output.Perm input ∧ output.Pairwise (fun a b => comp b a = false)

/-- The fields of `MpvContext` that `sort_moves` and `update_result` read or write. -/
structure MpvContext where
  _max_pvs : Int
  _player : Color
  _legal_moves : List MoveSearchState
  _node_count : Nat
  _latest_search_result : List SearchResultInfo

/-- The method `MpvContext::sort_moves`, over an implementation `sort` of `std::sort`. -/
def MpvContext.sort_moves
    (sort : (MoveSearchState → MoveSearchState → Bool) → List MoveSearchState →
      List MoveSearchState)
    (sorted_moves : List MoveSearchState) : List MoveSearchState :=
  sort MpvContext.is_better_than sorted_moves

/-- The loop of `update_result` that fills `results` from the sorted moves. -/
def MpvContext.collect (_max_pvs : Int) (_player : Color) :
    List MoveSearchState → List SearchResultInfo → List SearchResultInfo
  | [], results => results
  | m :: rest, results =>
    match m.last_result with
    | none => MpvContext.collect _max_pvs _player rest results
    | some r =>
      if !m.last_score.is_exact then MpvContext.collect _max_pvs _player rest results
      else
        let results1 := results ++ [(SearchResultInfo.clone r).flip _player]
        if (results1.length : Int) ≥ _max_pvs then results1
        else MpvContext.collect _max_pvs _player rest results1

/-- The method `MpvContext::update_result`; `move_state` is the element of `_legal_moves` at
index `i`.  The result is the new context and the list passed to `_on_update`. -/
def MpvContext.update_result
    (sort : (MoveSearchState → MoveSearchState → Bool) → List MoveSearchState →
      List MoveSearchState)
    (ctx : MpvContext) (m : Move) (i : Nat) (result : SearchResultOneDepth) (ellapsed : Int)
    (depth : Int) (lower_bound : Int) : Option (MpvContext × List SearchResultInfo) :=
  match ctx._legal_moves[i]? with
  | none => none
  | some move_state =>
    let score := result._score
    let result_info :=
      SearchResultInfo.create m result._pv score ctx._node_count depth ellapsed
    let move_state1 : MoveSearchState :=
      { move_state with
        last_result := some result_info
        last_score :=
          if score ≤ lower_bound then PartialScore.at_most lower_bound
          else PartialScore.exactly score }
    let legal_moves := ctx._legal_moves.set i move_state1
    let sorted_moves := MpvContext.sort_moves sort legal_moves
    let results := MpvContext.collect ctx._max_pvs ctx._player sorted_moves []
    let latest :=
      if results.isEmpty then ctx._latest_search_result
      else results.map SearchResultInfo.clone
    some ({ ctx with _legal_moves := legal_moves, _latest_search_result := latest }, results)

/-- The state of the driver when `search_multi_pv` has filled `_legal_moves`. -/
def MpvContext.create (max_pvs : Int) (player : Color) (moves : List Move) : MpvContext :=
  { _max_pvs := max_pvs, _player := player, _legal_moves := moves.map MoveSearchState.create,
    _node_count := 0, _latest_search_result := [] }

/-- The invariant of the driver's states: a result stored for a move names that move, its
evaluation is a 32-bit value, and an exact score has a stored result with that evaluation. -/
def MpvContext.Inv (ctx : MpvContext) : Prop :=
  ∀ s ∈ ctx._legal_moves,
    (∀ r, s.last_result = some r → r.best_move = s.m ∧ Score.I32 r.eval) ∧
    (∀ v, s.last_score = PartialScore.Exactly v →
      ∃ r, s.last_result = some r ∧ r.eval = v)

/-- The entry that the loop of `update_result` emits for a move, if any. -/
def MpvContext.entry (_player : Color) (s : MoveSearchState) : Option SearchResultInfo :=
  match s.last_result with
  | none => none
  | some r => if s.last_score.is_exact then some ((SearchResultInfo.clone r).flip _player) else none

/-- The evaluation of an emitted entry from the point of view of the root side to move. -/
def MpvContext.pov (_player : Color) (e : SearchResultInfo) : Int :=
  if _player = Color.Black then Score.neg e.eval else e.eval

/-- The order of two entries of the emitted list: greater score for the root side first, then
greater depth, then not after in the order of `Move::operator<`. -/
def MpvContext.best_first (_player : Color) (a b : SearchResultInfo) : Prop :=
  MpvContext.pov _player a > MpvContext.pov _player b ∨
  (MpvContext.pov _player a = MpvContext.pov _player b ∧
    (a.depth > b.depth ∨ (a.depth = b.depth ∧ Move.lt b.best_move a.best_move = false)))

/-- A state of the driver for Black with two principal variations: `e7e5` has the exact score 30
at depth 2, `d7d5` has no result yet, `g8f6` has the exact score 30 at depth 3. -/
def MpvContext.sample : MpvContext :=
  { _max_pvs := 2, _player := Color.Black,
    _legal_moves :=
      [ { m := ⟨52, 36, PieceType.CLEAR⟩, taken := false, next_depth := 3,
          last_result := some ⟨⟨52, 36, PieceType.CLEAR⟩, 30, [⟨52, 36, PieceType.CLEAR⟩], 2, 10, 40⟩,
          last_score := PartialScore.Exactly 30 },
        MoveSearchState.create ⟨51, 35, PieceType.CLEAR⟩,
        { m := ⟨62, 45, PieceType.CLEAR⟩, taken := false, next_depth := 4,
          last_result := some ⟨⟨62, 45, PieceType.CLEAR⟩, 30, [⟨62, 45, PieceType.CLEAR⟩], 3, 20, 90⟩,
          last_score := PartialScore.Exactly 30 } ],
    _node_count := 120,
    _latest_search_result := [] }

/-- The constant `threshold_per_depth`, in milli-pawns. -/
def threshold_per_depth : Int := 1100

/-- The method `Score::next`. -/
def Score.next (s : Int) : Int := toInt32 (s + 1)

/-- The method `Score::flip_for_color`. -/
def Score.flip_for_color (s : Int) (c : Color) : Int :=
  if c = Color.Black then Score.neg s else s

/-- The operator `Score::operator*(int)`. -/
def Score.mul_int (s : Int) (m : Int) : Int := toInt32 (s * m)

/-- The struct `SearchResult` of engine_core.cpp; a null `_pv` is the empty list. -/
structure SearchResult where
  _score : Int
  _pv : List Move
  deriving DecidableEq, Repr

/-- The constructor `SearchResult()`. -/
def SearchResult.new : SearchResult := { _score := Score.min, _pv := [] }

/-- The constructor `SearchResult(Score score, std::unique_ptr<PV>&& pv)`. -/
def SearchResult.of_score_pv (score : Int) (pv : List Move) : SearchResult :=
  { _score := score, _pv := pv }

/-- The function `SearchResult::of_single_move`. -/
def SearchResult.of_single_move (move : Move) (score : Int) : SearchResult :=
  { _score := score, _pv := [move] }

/-- The method `SearchResult::set_score`. -/
def SearchResult.set_score (_r : SearchResult) (score : Int) : SearchResult :=
  { _score := score, _pv := [] }

/-- The method `SearchResult::flip`. -/
def SearchResult.flip (r : SearchResult) : SearchResult :=
  { r with _score := Score.neg r._score }

/-- The method `SearchResult::backout_move`. -/
def SearchResult.backout_move (r : SearchResult) : SearchResult :=
  { r with _score := Score.inc_mate_moves r._score 1 }

/-- The method `SearchResult::is_min`. -/
def SearchResult.is_min (r : SearchResult) : Bool :=
  decide (r._score = Score.min) && r._pv.isEmpty

/-- The method `SearchResult::score`. -/
def SearchResult.score (r : SearchResult) : Int := r._score

/-- The method `SearchResult::min_score`. -/
def SearchResult.min_score (r : SearchResult) : Int := r._score

/-- The method `SearchResult::max_score`. -/
def SearchResult.max_score (r : SearchResult) : Int := r._score

/-- The method `SearchResult::best_pv`. -/
def SearchResult.best_pv (r : SearchResult) : List Move := r._pv

/-- The method `SearchResult::update_max`. -/
def SearchResult.update_max (r : SearchResult) (m : Move) (cand : SearchResult) : SearchResult :=
  if cand.score > r.score then { _score := cand.score, _pv := m :: cand._pv } else r

/-- The function `pv_to_vector`. -/
def pv_to_vector (pv : List Move) : List Move := pv

/-- The function `front_opt`. -/
def front_opt {α : Type} (v : List α) : Option α := v.head?

/-- The fields of `SearchContext` that the search changes. -/
structure SearchContext where
  _board : Board
  _node_count : Nat
  _hash_table : TranspositionTable
  _move_history : Int → Int → Int → Int
  _interruptible : Bool

/-- The fields of `SearchContext` that the search reads only: the hash codes of the build, the
book `_pcp` (its `lookup`, or `none` for a null pointer), the flag `_should_stop` (no request
arrives or leaves during the search), the evaluation `Evaluator::eval_for_current_player` with
the experiment and the parameters of the context, and `_allow_partial`. -/
structure SearchEnv where
  Z : ZobristTables
  _pcp : Option (List Char → Except Unit (Option SearchResultInfo))
  _should_stop : Bool
  eval_board : Board → EvalScratch → Int
  _allow_partial : Bool

/-- An access outside an object, or a stop on an `assert`, during the search. -/
inductive SearchFault where
  | move_lists_index
  | move_vector_full
  | move_history_index
  | board_move
  | board_undo
  | score_assert
  | recursion
  deriving DecidableEq, Repr

/-- The ways `search_rec_inner` ends without a result: a fault, or the exception
`SearchInterruptRequested` with the state at the `throw`. -/
inductive SearchStop where
  | fault (f : SearchFault)
  | interrupt (ctx : SearchContext)

/-- The value of an `Option`, or the fault `f`. -/
def SearchFault.lift {α : Type} (f : SearchFault) : Option α → Except SearchStop α
  | some a => Except.ok a
  | none => Except.error (SearchStop.fault f)

/-- The method `SearchContext::search_rec_outer`, over the instance `inner` of
`search_rec_inner` that it calls. -/
def SearchContext.search_rec_outer
    (inner : SearchContext → EvalScratch → Int → Int → Int → Int → SearchResult →
      Except SearchStop (SearchResult × SearchContext))
    (ctx : SearchContext) (scratch : EvalScratch) (depth ply input_alpha input_beta : Int) :
    Except SearchStop (SearchResult × SearchContext) :=
  match inner ctx scratch (depth - 1) (ply + 1)
      (Score.neg (Score.dec_mate_moves input_beta 1))
      (Score.neg (Score.dec_mate_moves input_alpha 1)) SearchResult.new with
  | Except.ok (ret, ctx1) => Except.ok (ret.flip.backout_move, ctx1)
  | Except.error e => Except.error e

/-- The lambda `depth_to_shorten` of `inner_search`. -/
def SearchContext.depth_to_shorten (first slot_null : Bool) (depth : Int) (capturou : Bool) :
    Int :=
  if first || slot_null || decide (depth < 4) || capturou then 0 else 2

/-- The lambda `inner_search` of `search_rec_inner`, over the function `outer` that
`search_rec_outer` is at this node. -/
def SearchContext.inner_search
    (outer : SearchContext → EvalScratch → Int → Int → Int → Int →
      Except SearchStop (SearchResult × SearchContext))
    (ctx : SearchContext) (scratch : EvalScratch) (depth ply input_alpha input_beta : Int)
    (is_pv first slot_null capturou : Bool) (result : SearchResult) :
    Except SearchStop (SearchResult × SearchContext) :=
  let new_alpha := max result.min_score input_alpha
  let depth_shortened := SearchContext.depth_to_shorten first slot_null depth capturou
  let step1 : Except SearchStop (SearchResult × SearchContext × Bool) :=
    if !first && !is_pv && decide (depth > 1) then
      match outer ctx scratch (depth - depth_shortened) ply new_alpha (Score.next new_alpha) with
      | Except.ok (r, c) => Except.ok (r, c, true)
      | Except.error e => Except.error e
    else Except.ok (SearchResult.new, ctx, false)
  match step1 with
  | Except.error e => Except.error e
  | Except.ok (child1, ctx1, did_pv_search) =>
    let step2 : Except SearchStop (SearchResult × SearchContext) :=
      if !did_pv_search || decide (child1.score > new_alpha) then
        outer ctx1 scratch (depth - depth_shortened) ply new_alpha input_beta
      else Except.ok (child1, ctx1)
    match step2 with
    | Except.error e => Except.error e
    | Except.ok (child2, ctx2) =>
      if decide (depth_shortened > 0) && decide (child2.score > new_alpha) then
        outer ctx2 scratch depth ply new_alpha input_beta
      else Except.ok (child2, ctx2)

/-- The variables of the loop over the moves in `search_rec_inner`. -/
structure SearchLoop where
  ctx : SearchContext
  result : SearchResult
  has_valid_move : Bool
  first : Bool

/-- The way the loop over the moves ends: at its end or at a `break`, or with the `return` of
the `catch` block. -/
inductive SearchLoopEnd where
  | done (s : SearchLoop)
  | returned (result : SearchResult) (ctx : SearchContext)

/-- The loop `for (const auto& m : list)` of `search_rec_inner`.  The `ASSERT(m.is_valid())` of
the debug build is not embedded. -/
def SearchContext.search_loop (env : SearchEnv)
    (outer : SearchContext → EvalScratch → Int → Int → Int → Int →
      Except SearchStop (SearchResult × SearchContext))
    (is_root is_pv slot_null : Bool) (depth ply input_alpha input_beta : Int) :
    List Move → SearchLoop → Except SearchStop SearchLoopEnd
  | [], s => Except.ok (SearchLoopEnd.done s)
  | m :: rest, s =>
    match Board.move env.Z s.ctx._board m with
    | none => Except.error (SearchStop.fault SearchFault.board_move)
    | some (board1, mi) =>
      let ctx1 : SearchContext := { s.ctx with _board := board1 }
      let scratch := Rules.make_scratch board1
      let step : Except SearchStop SearchLoopEnd :=
        if !Rules.is_king_under_attack board1 scratch (oponent board1.turn) then
          match SearchContext.inner_search outer ctx1 scratch depth ply input_alpha input_beta
              is_pv s.first slot_null mi.capturou s.result with
          | Except.ok (child, ctx2) =>
            Except.ok (SearchLoopEnd.done
              { ctx := ctx2, result := s.result.update_max m child, has_valid_move := true,
                first := false })
          | Except.error (SearchStop.interrupt ctxi) =>
            match Board.undo env.Z ctxi._board m mi with
            | none => Except.error (SearchStop.fault SearchFault.board_undo)
            | some b =>
              if is_root && (!s.result.is_min && !slot_null &&
                  decide (s.result.max_score > input_alpha) && env._allow_partial) then
                Except.ok (SearchLoopEnd.returned s.result { ctxi with _board := b })
              else Except.error (SearchStop.interrupt { ctxi with _board := b })
          | Except.error e => Except.error e
        else Except.ok (SearchLoopEnd.done { s with ctx := ctx1 })
      match step with
      | Except.error e => Except.error e
      | Except.ok (SearchLoopEnd.returned r c) => Except.ok (SearchLoopEnd.returned r c)
      | Except.ok (SearchLoopEnd.done s2) =>
        match Board.undo env.Z s2.ctx._board m mi with
        | none => Except.error (SearchStop.fault SearchFault.board_undo)
        | some b =>
          let s3 : SearchLoop := { s2 with ctx := { s2.ctx with _board := b } }
          if s3.result.min_score ≥ input_beta then Except.ok (SearchLoopEnd.done s3)
          else SearchContext.search_loop env outer is_root is_pv slot_null depth ply
            input_alpha input_beta rest s3

/-- The method `PieceRules::takes_bb`. -/
def PieceRules.takes_bb (impl : PieceImpl) (board : Board) (color : Color) (place : Int) : Nat :=
  PieceRules.attacks_bb impl board color place &&& board.bb_blockers (oponent color)

/-- The method `PieceRules::list_takes`. -/
def PieceRules.list_takes (impl : PieceImpl) (board : Board) (color : Color) (place : Int)
    (list : List Move) : List Move :=
  impl.set_promos list.length
    (PieceRules.pop_moves place (PieceRules.takes_bb impl board color place) list)

/-- The method `PieceRules::list_all_takes`. -/
def PieceRules.list_all_takes (impl : PieceImpl) (board : Board) (color : Color)
    (list : List Move) : List Move :=
  (PieceRules.pieces impl board color).foldl
    (fun l place => PieceRules.list_takes impl board color place l) list

/-- The method `CombinedRules::list_takes`, which is `Rules::list_takes`; the result is the new
value of `moves`. -/
def Rules.list_takes (board : Board) (moves : List Move) : List Move :=
  let color := board.turn
  PieceRules.list_all_takes KingImpl board color
    (PieceRules.list_all_takes QueenImpl board color
      (PieceRules.list_all_takes RookImpl board color
        (PieceRules.list_all_takes BishopImpl board color
          (PieceRules.list_all_takes KnightImpl board color
            (PieceRules.list_all_takes PawnImpl board color moves)))))

/-- The function `Move::invalid`: `Move(0, 0, 0, 0, PieceType::CLEAR)`. -/
def Move.invalid : Move := { o := 0, d := 0, _promotion := PieceType.CLEAR }

/-- The pruning of `search_rec_inner` on a slot of the hash table (not at the root, not in a
principal variation): the result to return, if any. -/
def SearchContext.slot_prune (slot : hash_slot) (depth input_alpha input_beta : Int) :
    Option SearchResult :=
  let r1 : Option SearchResult :=
    if slot.depth ≥ depth then
      if slot.lower_bound ≥ input_beta then
        some (SearchResult.of_single_move slot.move slot.lower_bound)
      else if slot.upper_bound ≤ input_alpha then
        some (SearchResult.of_single_move slot.move slot.upper_bound)
      else none
    else none
  match r1 with
  | some r => some r
  | none =>
    if slot.depth < depth then
      let d := depth - slot.depth
      if Score.sub slot.lower_bound (Score.mul_int threshold_per_depth d) ≥ input_beta then
        some (SearchResult.of_single_move slot.move input_beta)
      else none
    else none

/-- The end of `search_rec_inner`: the result is stored in the hash table and the move
history. -/
def SearchContext.store (ctx : SearchContext) (result : SearchResult) (is_quiescent : Bool)
    (depth input_alpha input_beta : Int) : Except SearchStop SearchContext :=
  match result.best_pv with
  | [] => Except.ok ctx
  | m :: _ =>
    match Score.of_moves_to_mate 1 with
    | none => Except.error (SearchStop.fault SearchFault.score_assert)
    | some mate1 =>
      let score := result.max_score
      let ctx1 : SearchContext :=
        if !is_quiescent then
          if score ≤ input_alpha then
            { ctx with _hash_table :=
                (TranspositionTable.insert ctx._hash_table ctx._board depth (Score.neg mate1)
                  score m) }
          else if score ≥ input_beta then
            { ctx with _hash_table :=
                (TranspositionTable.insert ctx._hash_table ctx._board depth score mate1 m) }
          else
            { ctx with _hash_table :=
                (TranspositionTable.insert ctx._hash_table ctx._board depth score score m) }
        else ctx
      if Move.is_valid m then
        match MoveHistory.add ctx1._move_history ctx1._board m with
        | none => Except.error (SearchStop.fault SearchFault.move_history_index)
        | some t => Except.ok { ctx1 with _move_history := t }
      else Except.ok ctx1

/-- The method `SearchContext::search_rec_inner<SearchResult, is_root>`.  The first argument
bounds the depth of the recursion: a call at `ply > 512` does not recurse, so 514 is enough
from the root. -/
def SearchContext.search_rec_inner (env : SearchEnv) :
    Nat → Bool → SearchContext → EvalScratch → Int → Int → Int → Int → SearchResult →
      Except SearchStop (SearchResult × SearchContext)
  | 0, _, _, _, _, _, _, _, _ => Except.error (SearchStop.fault SearchFault.recursion)
  | fuel + 1, is_root, ctx0, pre_move_scratch, depth, ply, input_alpha, input_beta, result0 =>
    let is_pv : Bool := decide (input_alpha = Score.next input_beta)
    let is_quiescent : Bool := decide (depth ≤ 0)
    let ctx1 : SearchContext := { ctx0 with _node_count := (ctx0._node_count + 1) % 2 ^ 64 }
    if env._should_stop && ctx1._interruptible then Except.error (SearchStop.interrupt ctx1)
    else if !is_root && (decide (ply > 512) || Rules.is_draw_without_stalemate ctx1._board) then
      Except.ok (result0.set_score Score.zero, ctx1)
    else
      let book : Option SearchResultInfo :=
        if !is_root then
          match env._pcp with
          | none => none
          | some lookup =>
            if ply ≤ 3 then
              match lookup (Board.to_fen ctx1._board) with
              | Except.ok (some entry) => some entry
              | _ => none
            else none
        else none
      match book with
      | some entry =>
        Except.ok (SearchResult.of_score_pv (Score.flip_for_color entry.eval ctx1._board.turn)
          entry.pv, ctx1)
      | none =>
        match Score.of_moves_to_mate 1, Score.of_moves_to_mate 0 with
        | some best_possible, some mate0 =>
          let worst_possible := Score.neg mate0
          if !is_pv && decide (best_possible ≤ input_alpha) then
            Except.ok (result0.set_score input_alpha, ctx1)
          else if !is_pv && decide (worst_possible ≥ input_beta) then
            Except.ok (result0.set_score input_beta, ctx1)
          else
            let found : Option hash_slot × TranspositionTable :=
              if !is_quiescent then TranspositionTable.find ctx1._hash_table ctx1._board
              else (none, ctx1._hash_table)
            let slot := found.1
            let ctx2 : SearchContext := { ctx1 with _hash_table := found.2 }
            let pruned : Option SearchResult :=
              match slot with
              | some s =>
                if !is_root && !is_pv then SearchContext.slot_prune s depth input_alpha input_beta
                else none
              | none => none
            match pruned with
            | some r => Except.ok (r, ctx2)
            | none =>
              let high_pri_move : Move :=
                match slot with
                | some s => if Move.is_valid s.move then s.move else Move.invalid
                | none => Move.invalid
              if ¬ (0 ≤ ply ∧ ply < 128) then
                Except.error (SearchStop.fault SearchFault.move_lists_index)
              else
                let result1 : SearchResult :=
                  if is_quiescent then
                    result0.set_score (env.eval_board ctx2._board pre_move_scratch)
                  else result0
                if is_quiescent && decide (result1.min_score ≥ input_beta) then
                  Except.ok (result1, ctx2)
                else
                  let list : List Move :=
                    if is_quiescent then Rules.list_takes ctx2._board []
                    else Rules.list_moves ctx2._board pre_move_scratch []
                  if list.length > MoveVector.cap then
                    Except.error (SearchStop.fault SearchFault.move_vector_full)
                  else
                    match MoveHistory.sort_moves ctx2._move_history ctx2._board list
                        high_pri_move with
                    | none => Except.error (SearchStop.fault SearchFault.move_history_index)
                    | some sorted =>
                      match SearchContext.search_loop env
                          (SearchContext.search_rec_outer
                            (SearchContext.search_rec_inner env fuel false))
                          is_root is_pv slot.isNone depth ply input_alpha input_beta sorted
                          { ctx := ctx2, result := result1, has_valid_move := false,
                            first := true } with
                      | Except.error e => Except.error e
                      | Except.ok (SearchLoopEnd.returned r c) => Except.ok (r, c)
                      | Except.ok (SearchLoopEnd.done s) =>
                        let result2 : SearchResult :=
                          if !is_quiescent && !s.has_valid_move then
                            if Rules.is_king_under_attack s.ctx._board pre_move_scratch
                                s.ctx._board.turn then
                              s.result.set_score (Score.neg mate0)
                            else s.result.set_score Score.zero
                          else s.result
                        match SearchContext.store s.ctx result2 is_quiescent depth input_alpha
                            input_beta with
                        | Except.error e => Except.error e
                        | Except.ok ctx3 => Except.ok (result2, ctx3)
        | _, _ => Except.error (SearchStop.fault SearchFault.score_assert)

/-- The method `SearchContext::search_one_depth`.  The outer `Except` is a fault of the search;
inside, `Except.error` is the `bee::Error` and `none` is `nullopt`. -/
def SearchContext.search_one_depth (env : SearchEnv) (ctx : SearchContext)
    (depth lower_bound upper_bound : Int) :
    Except SearchFault (Except Unit (Option SearchResultOneDepth) × SearchContext) :=
  if depth ≤ 0 then Except.ok (Except.error (), ctx)
  else
    let ctx1 : SearchContext := { ctx with _node_count := 0, _interruptible := decide (depth > 1) }
    match SearchContext.search_rec_inner env 514 true ctx1 (Rules.make_scratch ctx1._board)
        depth 0 lower_bound upper_bound SearchResult.new with
    | Except.error (SearchStop.fault f) => Except.error f
    | Except.error (SearchStop.interrupt c) => Except.ok (Except.ok none, c)
    | Except.ok (result, ctx2) =>
      let pv := pv_to_vector result.best_pv
      let m := front_opt pv
      Except.ok (Except.ok (some (SearchResultOneDepth.mk result.score m pv ctx2._node_count)),
        ctx2)

/-- The context of a search on the board `b` with the hash table `TranspositionTable(0)` and
an empty move history. -/
def SearchContext.fresh (b : Board) : SearchContext :=
  { _board := b, _node_count := 0, _hash_table := TranspositionTable.smallest,
    _move_history := fun _ _ _ => 0, _interruptible := false }

/-- An environment of the search: the sample hash codes, no book, no stop request, and an
evaluation that is 0 everywhere. -/
def SearchEnv.sample : SearchEnv :=
  { Z := Z0, _pcp := none, _should_stop := false, eval_board := fun _ _ => 0,
    _allow_partial := false }

/-- The position `4k3/8/8/8/8/8/4P3/4K3 w - - 0 513`: White to move at move 513. -/
def Board.move_513 (Z : ZobristTables) : Board :=
  Board.of_fen Z "4k3/8/8/8/8/8/4P3/4K3 w - - 0 513"

/-- The table `BitBoard::pop_count_table` as `init_tables` fills it:
`table[0] = 0`, `table[i] = table[i & (i - 1)] + 1` in `uint8_t`. -/
def BitBoard.pop_count_go : Nat → Nat → Nat
  | 0, _ => 0
  | fuel + 1, i => if i = 0 then 0 else (BitBoard.pop_count_go fuel (i &&& (i - 1)) + 1) % 256

/-- The entry `pop_count_table[i]`, for `i < 2^16`. -/
def BitBoard.pop_count_table (i : Nat) : Nat := BitBoard.pop_count_go 16 i

/-- The function `BitBoard::pop_count32`, on a `uint32_t`. -/
def BitBoard.pop_count32 (n : Nat) : Nat :=
  BitBoard.pop_count_table (n &&& 0xffff) + BitBoard.pop_count_table (n >>> 16)

/-- The function `BitBoard::pop_count64`: the two halves go through `pop_count32`. -/
def BitBoard.pop_count64 (n : Nat) : Nat :=
  BitBoard.pop_count32 (n % 2 ^ 32) + BitBoard.pop_count32 ((n >>> 32) % 2 ^ 32)

/-- The method `BitBoard::pop_count`, as the `int` it returns. -/
def BitBoard.pop_count (b : Nat) : Int := (BitBoard.pop_count64 b : Int)

/-- The operator `Score::operator*(const Score&)`: the product in `int64_t`, divided by
`pawn_value` with the truncation of C++, stored in an `int32_t`. -/
def Score.mul (a m : Score) : Score := toInt32 (Int.tdiv (a * m) 1000)

namespace E

/-- The constant `C::knight_attack_multiplier`, `p(1.0)` in milli-pawns. -/
def knight_attack_multiplier : Score := 1000

/-- The constant `C::bishop_attack_multiplier`, `p(1.0)` in milli-pawns. -/
def bishop_attack_multiplier : Score := 1000

/-- The constant `C::rook_attack_multiplier`, `p(1.0)` in milli-pawns. -/
def rook_attack_multiplier : Score := 1000

/-- The constant `C::queen_attack_multiplier`, `p(1.0)` in milli-pawns. -/
def queen_attack_multiplier : Score := 1000

/-- The constant `C::attack_multiplier`, `p(0.309)` in milli-pawns. -/
def attack_multiplier : Score := 309

/-- The function `E::count_attacks`: the squares of `bb` that hold no pawn of the other side. -/
def count_attacks (board : Board) (color : Color) (bb : Nat) : Int :=
  BitBoard.pop_count (bb &&& BitBoard.compl (board.bbPeca (oponent color) PieceType.PAWN))

/-- The function `E::knight_attacks_bb`. -/
def knight_attacks_bb (board : Board) (color : Color) (place : Int) : Nat :=
  BitBoard.get_knight_moves place &&& board.bb_blockers (oponent color)

/-- The function `E::count_knight_attacks`. -/
def count_knight_attacks (board : Board) (color : Color) (place : Int) : Int :=
  count_attacks board color (knight_attacks_bb board color place)

/-- The function `E::bishop_attacks_bb`. -/
def bishop_attacks_bb (board : Board) (color : Color) (place : Int) : Nat :=
  BitBoard.get_bishop_moves place (Board.get_blockers board) &&& board.bb_blockers (oponent color)

/-- The function `E::count_bishop_attacks`. -/
def count_bishop_attacks (board : Board) (color : Color) (place : Int) : Int :=
  count_attacks board color (bishop_attacks_bb board color place)

/-- The function `E::rook_attacks_bb`. -/
def rook_attacks_bb (board : Board) (color : Color) (place : Int) : Nat :=
  BitBoard.get_rook_moves place (Board.get_blockers board) &&& board.bb_blockers (oponent color)

/-- The function `E::count_rook_attacks`. -/
def count_rook_attacks (board : Board) (color : Color) (place : Int) : Int :=
  count_attacks board color (rook_attacks_bb board color place)

/-- The function `E::queen_moves_bb`. -/
def queen_moves_bb (board : Board) (place : Int) : Nat :=
  BitBoard.get_queen_moves place (Board.get_blockers board)

/-- The function `E::queen_attacks_bb`. -/
def queen_attacks_bb (board : Board) (color : Color) (place : Int) : Nat :=
  queen_moves_bb board place &&& board.bb_blockers (oponent color)

/-- The function `E::count_queen_attacks`. -/
def count_queen_attacks (board : Board) (color : Color) (place : Int) : Int :=
  count_attacks board color (queen_attacks_bb board color place)

/-- The function `E::eval_attacks`.  The loops over the knights, the bishops and the rooks add
to their `int` counter with `+=`; the loop over the queens assigns to it with `=`. -/
def eval_attacks (board : Board) (c : Color) : Score :=
  let attack_points : Score := 0
  let knight_attacks : Int :=
    (Board.pieces board c PieceType.KNIGHT).foldl
      (fun acc p => toInt32 (acc + count_knight_attacks board c p)) 0
  let attack_points := Score.add attack_points (Score.mul_int knight_attack_multiplier knight_attacks)
  let bishop_attacks : Int :=
    (Board.pieces board c PieceType.BISHOP).foldl
      (fun acc p => toInt32 (acc + count_bishop_attacks board c p)) 0
  let attack_points := Score.add attack_points (Score.mul_int bishop_attack_multiplier bishop_attacks)
  let rook_attacks : Int :=
    (Board.pieces board c PieceType.ROOK).foldl
      (fun acc p => toInt32 (acc + count_rook_attacks board c p)) 0
  let attack_points := Score.add attack_points (Score.mul_int rook_attack_multiplier rook_attacks)
  let queen_attacks : Int :=
    (Board.pieces board c PieceType.QUEEN).foldl
      (fun _ p => count_queen_attacks board c p) 0
  let attack_points := Score.add attack_points (Score.mul_int queen_attack_multiplier queen_attacks)
  Score.mul attack_points attack_multiplier

/-- The attack feature as the specification words it: `attack_multiplier` times the number of
enemy pieces other than pawns that the knights, bishops, rooks and queens of `c` attack, every
piece of the four lists counted. -/
def attack_feature_spec (board : Board) (c : Color) : Int :=
  Int.tdiv
    ((((Board.pieces board c PieceType.KNIGHT).map (count_knight_attacks board c)).sum
      + ((Board.pieces board c PieceType.BISHOP).map (count_bishop_attacks board c)).sum
      + ((Board.pieces board c PieceType.ROOK).map (count_rook_attacks board c)).sum
      + ((Board.pieces board c PieceType.QUEEN).map (count_queen_attacks board c)).sum)
     * 1000 * attack_multiplier) 1000

end E

/-- A board with two white queens, on a1 and h1, and a black knight on a3 that the queen on a1
attacks. -/
def Board.two_queens_a3 : Board := Board.of_fen Z0 "4k3/8/8/8/8/n7/8/Q3K2Q w - -"

/-- The same board with the knight on h3, where the queen on h1 attacks it. -/
def Board.two_queens_h3 : Board := Board.of_fen Z0 "4k3/8/8/8/8/7n/8/Q3K2Q w - -"

/-- A board where White has the king on e1, rooks on a1, h1, a3 and h3, and both castling
rights. -/
def Board.four_rooks : Board := Board.of_fen Z0 "4k3/8/8/8/8/R6R/8/R3K2R w KQ - 0 1"

/-- The initial placement, read from a FEN string that says move 513. -/
def Board.late_start : Board :=
  Board.of_fen Z0 "rnbqkbnr/pppppppp/8/8/8/8/PPPPPPPP/RNBQKBNR w KQkq - 0 513"

/-- The initial placement, read from a FEN string that says move 0. -/
def Board.move_zero : Board :=
  Board.of_fen Z0 "rnbqkbnr/pppppppp/8/8/8/8/PPPPPPPP/RNBQKBNR w KQkq - 0 0"

/-- The constant `search_window` of engine.cpp, in milli-pawns. -/
def search_window : Score := 554

/-- The bounds that the lambda `do_search` of `pv_search` hands to its first `search_once`;
`prev` is `result->eval`, or `none` when `result` is null (the first depth). -/
def pv_search.bounds (prev : Option Score) : Score × Score :=
  match prev with
  | none => (Score.min, Score.max)
  | some eval =>
    if Score.is_mate eval then (Score.dec_mate_moves eval 2, Score.inc_mate_moves eval 2)
    else (Score.sub eval search_window, Score.add eval search_window)

/-- The lambda `do_search` of `pv_search`, over the lambda `search_once` and the score of a
`SearchResultOneDepth`; `Except.error` is the `bee::Error` and `none` is `nullopt`. -/
def pv_search.do_search {ε ρ : Type} (search_once : Score → Score → Except ε (Option ρ))
    (score : ρ → Score) (prev : Option Score) : Except ε (Option ρ) :=
  let lower_bound := (pv_search.bounds prev).1
  let upper_bound := (pv_search.bounds prev).2
  match search_once lower_bound upper_bound with
  | Except.error e => Except.error e
  | Except.ok none => Except.ok none
  | Except.ok (some r) =>
    if score r > lower_bound ∧ score r < upper_bound then Except.ok (some r)
    else search_once Score.min Score.max

/-- The table `_table` of a `MoveHistory` whose cells hold the value of `ScoreDefaultZero()`. -/
def MoveHistory.zero_table : Int → Int → Int → Int := fun _ _ _ => 0

/-- The indices of a call `add(board, move)` are inside `_table` and its `BoardArray`s. -/
def MoveHistory.InRange (board : Board) (move : Move) : Prop :=
  0 ≤ Board.ply board ∧ Board.ply board < 1024 ∧ Place.is_valid move.o = true ∧
    Place.is_valid move.d = true

/-- A sequence of calls `add(board, move)`, first call first; `none` as in `add`. -/
def MoveHistory.add_all : (Int → Int → Int → Int) → List (Board × Move) →
    Option (Int → Int → Int → Int)
  | _table, [] => some _table
  | _table, c :: cs =>
    match MoveHistory.add _table c.1 c.2 with
    | none => none
    | some t => MoveHistory.add_all t cs

/-- For every colour, the pieces of one type other than the pawn and the pawns together are no
more than ten: the pawns left bound the promotions still possible. -/
def Position.PromoRoom (a : Position) : Prop :=
  ∀ (c : Color) (t : PieceType), c ≠ Color.None → t ≠ PieceType.PAWN →
    a.len c t + a.len c PieceType.PAWN ≤ 10

/-- The moves not yet undone were made on boards with `PromoRoom` (and what `StackOk` says). -/
def StackRoom : Position → List (Move × MoveInfo) → Prop
  | _, [] => True
  | a, (m, mi) :: st =>
    ∃ (b0 : Board) (k : Nat), Consistent b0 ∧ CapOk b0 ∧ b0.turn ≠ Color.None ∧
      b0.position.MoveOk m ∧ a = (b0.position.move m k).1 ∧
      mi.forget_id = (b0.position.move m k).2 ∧ b0.position.PromoRoom ∧
      StackRoom b0.position st

/-- The number of squares of the board that hold a piece of the colour `c` and the type `t`. -/
def Board.count (b : Board) (c : Color) (t : PieceType) : Nat :=
  ((List.range 64).filter (fun i : Nat =>
    decide ((b._squares (i : Int)).type = t ∧ (b._squares (i : Int)).owner = c))).length

/-- A legal move of the board, or a legal promotion with a knight, a bishop or a rook in place
of the queen that `list_moves` gives. -/
def Rules.LegalAnyPiece (Z : ZobristTables) (b : Board) (m : Move) : Prop :=
  ∃ m0 : Move, Rules.Legal Z b m0 ∧ m0.o = m.o ∧ m0.d = m.d ∧
    (Move.promotion m = Move.promotion m0 ∨
      (Move.promotion m0 = PieceType.QUEEN ∧
        (Move.promotion m = PieceType.KNIGHT ∨ Move.promotion m = PieceType.BISHOP ∨
          Move.promotion m = PieceType.ROOK)))

/-! ## Theorems -/

theorem invertPeca_apply (bb : Color → PieceType → Nat) (c : Color) (t : PieceType)
    (p : Int) (c' : Color) (t' : PieceType) :
    Board.invertPeca bb c t p c' t'
      = if c' = c ∧ t' = t then BitBoard.invert (bb c t) p else bb c' t' := by
  unfold Board.invertPeca
  by_cases hc : c' = c
  · subst hc
    by_cases ht : t' = t
    · subst ht; simp
    · simp [ht, Function.update_noteq ht]
  · simp [hc, Function.update_noteq hc]

theorem invertBlockers_apply (bb : Color → Nat) (c : Color) (p : Int) (c' : Color) :
    Board.invertBlockers bb c p c' = if c' = c then BitBoard.invert (bb c) p else bb c' := by
  unfold Board.invertBlockers
  by_cases hc : c' = c
  · subst hc; simp
  · simp [hc, Function.update_noteq hc]

theorem bit_eq {p : Int} (h0 : 0 ≤ p) (h : p < 64) : BitBoard.bit p = 2 ^ p.toNat := by
  unfold BitBoard.bit
  rw [Nat.one_shiftLeft]
  apply Nat.mod_eq_of_lt
  apply Nat.pow_lt_pow_right (by norm_num)
  omega

theorem testBit_invert {b : Nat} {p : Int} (h0 : 0 ≤ p) (h : p < 64) (i : Nat) :
    (BitBoard.invert b p).testBit i = xor (b.testBit i) (decide (p = (i : Int))) := by
  unfold BitBoard.invert
  rw [bit_eq h0 h, Nat.testBit_xor, Nat.testBit_two_pow]
  congr 1
  by_cases hp : p = (i : Int)
  · subst hp; simp
  · have : p.toNat ≠ i := by omega
    simp [hp, this]

/-- Inverting the bit of `p` in the boards of `(c, t)` follows a square array that changes at
`p` only, from holding `(t, c)` to holding nothing or back. -/
theorem bits_toggle {bbB : Color → Nat} {bbP : Color → PieceType → Nat} {sq r : Int → Pos}
    (hb : BitsOk bbB bbP sq) {p : Int} (h0 : 0 ≤ p) (h64 : p < 64) {t : PieceType} {c : Color}
    (hoff : ∀ q, q ≠ p → (r q).type = (sq q).type ∧ (r q).owner = (sq q).owner)
    (hp : ((sq p).type = t ∧ (sq p).owner = c ∧ (r p).owner = Color.None) ∨
          ((r p).type = t ∧ (r p).owner = c ∧ (sq p).owner = Color.None)) :
    BitsOk (Board.invertBlockers bbB c p) (Board.invertPeca bbP c t p) r := by
  constructor
  · intro c' t' i hc'
    rw [invertPeca_apply]
    by_cases hpi : p = (i : Int)
    · subst hpi
      have hi : i < 64 := by omega
      split
      · rename_i h
        obtain ⟨rfl, rfl⟩ := h
        rw [testBit_invert h0 h64, hb.1 _ _ _ hc']
        rcases hp with ⟨h1, h2, h3⟩ | ⟨h1, h2, h3⟩
        · simp [hi, h1, h2, h3, hc'.symm]
        · simp [hi, h1, h2, h3, hc'.symm]
      · rename_i h
        rw [hb.1 _ _ _ hc']
        rcases hp with ⟨h1, h2, h3⟩ | ⟨h1, h2, h3⟩
        · simp only [h1, h2, h3, hi, true_and]
          have : ¬ (t = t' ∧ c = c') := fun hh => h ⟨hh.2.symm, hh.1.symm⟩
          simp [this, hc'.symm]
        · simp only [h1, h2, h3, hi, true_and]
          have : ¬ (t = t' ∧ c = c') := fun hh => h ⟨hh.2.symm, hh.1.symm⟩
          simp [this, hc'.symm]
    · have hq := hoff (i : Int) (Ne.symm hpi)
      split
      · rw [testBit_invert h0 h64]
        rename_i h
        obtain ⟨rfl, rfl⟩ := h
        rw [hb.1 _ _ _ hc', hq.1, hq.2]
        simp [hpi]
      · rw [hb.1 _ _ _ hc', hq.1, hq.2]
  · intro c' i hc'
    rw [invertBlockers_apply]
    by_cases hpi : p = (i : Int)
    · subst hpi
      have hi : i < 64 := by omega
      split
      · rename_i h
        subst h
        rw [testBit_invert h0 h64, hb.2 _ _ hc']
        rcases hp with ⟨h1, h2, h3⟩ | ⟨h1, h2, h3⟩
        · simp [hi, h2, h3, hc'.symm]
        · simp [hi, h2, h3, hc'.symm]
      · rename_i h
        rw [hb.2 _ _ hc']
        rcases hp with ⟨h1, h2, h3⟩ | ⟨h1, h2, h3⟩
        · simp [hi, h2, h3, hc'.symm, Ne.symm h]
        · simp [hi, h2, h3, hc'.symm, Ne.symm h]
    · have hq := hoff (i : Int) (Ne.symm hpi)
      split
      · rw [testBit_invert h0 h64]
        rename_i h
        subst h
        rw [hb.2 _ _ hc', hq.2]
        simp [hpi]
      · rw [hb.2 _ _ hc', hq.2]

theorem setList_apply (tbl : Color → PieceType → List Int) (c : Color) (t : PieceType)
    (l : List Int) (c' : Color) (t' : PieceType) :
    Board.setList tbl c t l c' t' = if c' = c ∧ t' = t then l else tbl c' t' := by
  unfold Board.setList
  by_cases hc : c' = c
  · subst hc
    by_cases ht : t' = t
    · subst ht; simp
    · simp [ht, Function.update_noteq ht]
  · simp [hc, Function.update_noteq hc]

theorem lists_insert {tbl : Color → PieceType → List Int} {sq : Int → Pos}
    (hl : ListsOk tbl sq) {p : Int} (h0 : 0 ≤ p) (h64 : p < 64)
    (hp : (sq p).type = PieceType.CLEAR) {t : PieceType} {c : Color} (ht : t ≠ PieceType.CLEAR)
    (hcn : c ≠ Color.None) (hnot : ∀ (c' : Color) (t' : PieceType) (i : Nat), c' ≠ Color.None → (tbl c' t')[i]? ≠ some p) :
    ListsOk (Board.setList tbl c t (tbl c t ++ [p]))
      (Function.update sq p ⟨(tbl c t).length, t, c⟩) := by
  constructor
  · intro q hq0 hq64 hqt
    by_cases hqp : q = p
    · subst hqp
      simp only [Function.update_same, setList_apply, and_self, if_true]
      exact List.getElem?_concat_length _ _
    · simp only [Function.update_noteq hqp] at hqt ⊢
      have hq := hl.1 q hq0 hq64 hqt
      simp only [setList_apply]
      split
      · rename_i h
        rw [h.1, h.2] at hq
        obtain ⟨hlt, _⟩ := List.getElem?_eq_some.1 hq
        rw [List.getElem?_append_left hlt]
        exact hq
      · exact hq
  · intro c' t' i q hcn' hq
    simp only [setList_apply] at hq
    split at hq
    · rename_i h
      obtain ⟨rfl, rfl⟩ := h
      by_cases hi : i < (tbl c' t').length
      · rw [List.getElem?_append_left hi] at hq
        obtain ⟨h1, h2, h3⟩ := hl.2 _ _ i q hcn' hq
        have hqp : q ≠ p := fun h => hnot _ _ i hcn' (h ▸ hq)
        exact ⟨h1, h2, by simp only [Function.update_noteq hqp]; exact h3⟩
      · have hi2 : i = (tbl c' t').length := by
          have := (List.getElem?_eq_some.1 hq).1
          simp at this
          omega
        subst hi2
        rw [List.getElem?_concat_length] at hq
        have hqp : p = q := Option.some.inj hq
        subst hqp
        exact ⟨h0, h64, by simp⟩
    · obtain ⟨h1, h2, h3⟩ := hl.2 _ _ i q hcn' hq
      have hqp : q ≠ p := fun h => hnot _ _ i hcn' (h ▸ hq)
      exact ⟨h1, h2, by simp only [Function.update_noteq hqp]; exact h3⟩

theorem lists_move {tbl : Color → PieceType → List Int} {sq : Int → Pos}
    (hl : ListsOk tbl sq) {o d : Int} (ho0 : 0 ≤ o) (ho64 : o < 64) (hd0 : 0 ≤ d)
    (hd64 : d < 64) (hod : o ≠ d) (hot : (sq o).type ≠ PieceType.CLEAR)
    (hoc : (sq o).owner ≠ Color.None) (hdt : (sq d).type = PieceType.CLEAR)
    (hnot : ∀ (c' : Color) (t' : PieceType) (i : Nat), c' ≠ Color.None → (tbl c' t')[i]? ≠ some d) (x : Pos)
    (hx : x.type = PieceType.CLEAR) :
    ListsOk (Board.setList tbl (sq o).owner (sq o).type
        ((tbl (sq o).owner (sq o).type).set (sq o).id d))
      (Function.update (Function.update sq d (sq o)) o x) := by
  have hso := hl.1 o ho0 ho64 hot
  obtain ⟨hid, _⟩ := List.getElem?_eq_some.1 hso
  constructor
  · intro q hq0 hq64 hqt
    by_cases hqo : q = o
    · subst hqo
      simp only [Function.update_same] at hqt
      exact absurd hx hqt
    · simp only [Function.update_noteq hqo] at hqt ⊢
      by_cases hqd : q = d
      · subst hqd
        simp only [Function.update_same, setList_apply, and_self, if_true]
        rw [List.getElem?_set]
        simp [hid]
      · simp only [Function.update_noteq hqd] at hqt ⊢
        have hq := hl.1 q hq0 hq64 hqt
        simp only [setList_apply]
        split
        · rename_i h
          rw [h.1, h.2] at hq
          have hne : (sq o).id ≠ (sq q).id := by
            intro hcontra
            rw [← hcontra, hso] at hq
            exact hqo (Option.some.inj hq).symm
          rw [List.getElem?_set_ne hne]
          exact hq
        · exact hq
  · intro c' t' i q hcn' hq
    simp only [setList_apply] at hq
    split at hq
    · rename_i h
      obtain ⟨rfl, rfl⟩ := h
      by_cases hi : (sq o).id = i
      · subst hi
        rw [List.getElem?_set] at hq
        simp only [if_true, hid] at hq
        have hqd : d = q := Option.some.inj hq
        subst hqd
        refine ⟨hd0, hd64, ?_⟩
        simp only [Function.update_noteq (Ne.symm hod), Function.update_same]
      · rw [List.getElem?_set_ne hi] at hq
        obtain ⟨h1, h2, h3⟩ := hl.2 _ _ i q hcn' hq
        have hqo : q ≠ o := by
          intro h
          rw [h] at h3
          rw [h3] at hi
          exact hi rfl
        have hqd : q ≠ d := fun h => hnot _ _ i hcn' (h ▸ hq)
        refine ⟨h1, h2, ?_⟩
        simp only [Function.update_noteq hqo, Function.update_noteq hqd]
        exact h3
    · rename_i hct
      obtain ⟨h1, h2, h3⟩ := hl.2 _ _ i q hcn' hq
      have hqo : q ≠ o := by
        intro h
        rw [h] at h3
        apply hct
        rw [h3]
        exact ⟨rfl, rfl⟩
      have hqd : q ≠ d := fun h => hnot _ _ i hcn' (h ▸ hq)
      refine ⟨h1, h2, ?_⟩
      simp only [Function.update_noteq hqo, Function.update_noteq hqd]
      exact h3

theorem lists_erase_last {tbl : Color → PieceType → List Int} {sq : Int → Pos}
    (hl : ListsOk tbl sq) {p : Int} (h0 : 0 ≤ p) (h64 : p < 64)
    (ht : (sq p).type ≠ PieceType.CLEAR)
    (hlast : (sq p).id = (tbl (sq p).owner (sq p).type).length - 1) (x : Pos)
    (hx : x.type = PieceType.CLEAR) :
    ListsOk (Board.setList tbl (sq p).owner (sq p).type (tbl (sq p).owner (sq p).type).dropLast)
      (Function.update sq p x) := by
  have hsl := hl.1 p h0 h64 ht
  rcases hsp : sq p with ⟨pid, pt, pc⟩
  rw [hsp] at hsl ht hlast
  simp only at hsl ht hlast
  obtain ⟨hid, _⟩ := List.getElem?_eq_some.1 hsl
  constructor
  · intro q hq0 hq64 hqt
    by_cases hqp : q = p
    · subst hqp
      simp only [Function.update_same] at hqt
      exact absurd hx hqt
    · simp only [Function.update_noteq hqp] at hqt ⊢
      have hq := hl.1 q hq0 hq64 hqt
      simp only [setList_apply]
      split
      · rename_i hct
        rw [hct.1, hct.2] at hq
        rw [List.getElem?_dropLast]
        have hne : (sq q).id ≠ pid := by
          intro hcontra
          rw [hcontra, hsl] at hq
          exact hqp (Option.some.inj hq).symm
        obtain ⟨hlt, _⟩ := List.getElem?_eq_some.1 hq
        rw [if_pos (by omega)]
        exact hq
      · exact hq
  · intro c t i q hcn hq
    simp only [setList_apply] at hq
    have key : (tbl c t)[i]? = some q ∧ (c = pc ∧ t = pt → i < (tbl pc pt).length - 1) := by
      split at hq
      · rename_i hct
        obtain ⟨rfl, rfl⟩ := hct
        rw [List.getElem?_dropLast] at hq
        split at hq
        · rename_i hlt
          exact ⟨hq, fun _ => by simpa using hlt⟩
        · exact absurd hq (by simp)
      · rename_i hct
        exact ⟨hq, fun h => absurd h hct⟩
    obtain ⟨h1, h2, h3⟩ := hl.2 c t i q hcn key.1
    have hqp : q ≠ p := by
      intro h
      rw [h, hsp] at h3
      simp only [Pos.mk.injEq] at h3
      have := key.2 ⟨h3.2.2.symm, h3.2.1.symm⟩
      omega
    refine ⟨h1, h2, ?_⟩
    simp only [Function.update_noteq hqp]
    exact h3

theorem lists_erase_swap {tbl : Color → PieceType → List Int} {sq : Int → Pos}
    (hl : ListsOk tbl sq) {p : Int} (h0 : 0 ≤ p) (h64 : p < 64)
    (ht : (sq p).type ≠ PieceType.CLEAR) (hown : (sq p).owner ≠ Color.None)
    (hlast : (sq p).id ≠ (tbl (sq p).owner (sq p).type).length - 1) (x : Pos)
    (hx : x.type = PieceType.CLEAR) :
    ∃ r : Int, (tbl (sq p).owner (sq p).type).getD
        ((tbl (sq p).owner (sq p).type).length - 1) 0 = r ∧ 0 ≤ r ∧ r < 64 ∧ r ≠ p ∧
      (sq r).type = (sq p).type ∧ (sq r).owner = (sq p).owner ∧
      ListsOk (Board.setList tbl (sq p).owner (sq p).type
          (((tbl (sq p).owner (sq p).type).set (sq p).id r).dropLast))
        (Function.update (Function.update sq r { sq r with id := (sq p).id }) p x) := by
  have hsl := hl.1 p h0 h64 ht
  rcases hsp : sq p with ⟨pid, pt, pc⟩
  rw [hsp] at hsl ht hlast hown
  simp only at hsl ht hlast hown ⊢
  obtain ⟨hid, _⟩ := List.getElem?_eq_some.1 hsl
  have hlastlt : (tbl pc pt).length - 1 < (tbl pc pt).length := by omega
  obtain ⟨r, hr⟩ : ∃ r, (tbl pc pt)[(tbl pc pt).length - 1]? = some r :=
    ⟨_, List.getElem?_eq_getElem hlastlt⟩
  obtain ⟨hr0, hr64, hrs⟩ := hl.2 pc pt _ r hown hr
  have hrp : r ≠ p := by
    intro h
    rw [h, hsp] at hrs
    simp only [Pos.mk.injEq] at hrs
    exact hlast hrs.1
  have hgetD : (tbl pc pt).getD ((tbl pc pt).length - 1) 0 = r := by
    rw [List.getD_eq_getElem?_getD, hr]; rfl
  refine ⟨r, hgetD, hr0, hr64, hrp, by rw [hrs], by rw [hrs], ?_⟩
  constructor
  · intro q hq0 hq64 hqt
    by_cases hqp : q = p
    · subst hqp
      simp only [Function.update_same] at hqt
      exact absurd hx hqt
    · simp only [Function.update_noteq hqp] at hqt ⊢
      by_cases hqr : q = r
      · subst hqr
        simp only [Function.update_same] at hqt ⊢
        rw [hrs]
        simp only [setList_apply, and_self, if_true]
        rw [List.getElem?_dropLast, if_pos (by simp; omega)]
        rw [List.getElem?_set]
        simp [hid]
      · simp only [Function.update_noteq hqr] at hqt ⊢
        have hq := hl.1 q hq0 hq64 hqt
        simp only [setList_apply]
        split
        · rename_i hct
          rw [hct.1, hct.2] at hq
          obtain ⟨hlt, hge⟩ := List.getElem?_eq_some.1 hq
          have hne1 : (sq q).id ≠ pid := by
            intro hcontra
            rw [hcontra, hsl] at hq
            exact hqp (Option.some.inj hq).symm
          have hne2 : (sq q).id ≠ (tbl pc pt).length - 1 := by
            intro hcontra
            rw [hcontra, hr] at hq
            exact hqr (Option.some.inj hq).symm
          rw [List.getElem?_dropLast, if_pos (by simp; omega)]
          rw [List.getElem?_set_ne (Ne.symm hne1)]
          exact hq
        · exact hq
  · intro c t i q hcn hq
    simp only [setList_apply] at hq
    split at hq
    · rename_i hct
      obtain ⟨rfl, rfl⟩ := hct
      rw [List.getElem?_dropLast] at hq
      split at hq
      · rename_i hlt
        simp only [List.length_set] at hlt
        by_cases hi : pid = i
        · subst hi
          rw [List.getElem?_set] at hq
          simp only [if_true, hid] at hq
          have hqr : r = q := Option.some.inj hq
          subst hqr
          refine ⟨hr0, hr64, ?_⟩
          simp [hrs, Function.update_noteq hrp]
        · rw [List.getElem?_set_ne hi] at hq
          obtain ⟨h1, h2, h3⟩ := hl.2 _ _ i q hcn hq
          have hqr : q ≠ r := by
            intro h
            rw [h, hrs] at h3
            simp only [Pos.mk.injEq] at h3
            omega
          have hqp : q ≠ p := by
            intro h
            rw [h, hsp] at h3
            simp only [Pos.mk.injEq] at h3
            exact hi h3.1
          refine ⟨h1, h2, ?_⟩
          simp only [Function.update_noteq hqr, Function.update_noteq hqp]
          exact h3
      · exact absurd hq (by simp)
    · rename_i hct
      obtain ⟨h1, h2, h3⟩ := hl.2 c t i q hcn hq
      have hqr : q ≠ r := by
        intro h
        rw [h, hrs] at h3
        simp only [Pos.mk.injEq] at h3
        exact hct ⟨h3.2.2.symm, h3.2.1.symm⟩
      have hqp : q ≠ p := by
        intro h
        rw [h, hsp] at h3
        simp only [Pos.mk.injEq] at h3
        exact hct ⟨h3.2.2.symm, h3.2.1.symm⟩
      refine ⟨h1, h2, ?_⟩
      simp only [Function.update_noteq hqr, Function.update_noteq hqp]
      exact h3

theorem xor_fold_succ (f : Nat → Nat) (n : Nat) :
    (List.range (n + 1)).foldl (fun a i => a ^^^ f i) 0
      = (List.range n).foldl (fun a i => a ^^^ f i) 0 ^^^ f n := by
  rw [List.range_succ, List.foldl_append]
  rfl

theorem xor_fold_congr (f g : Nat → Nat) (n : Nat) (h : ∀ i, i < n → f i = g i) :
    (List.range n).foldl (fun a i => a ^^^ f i) 0
      = (List.range n).foldl (fun a i => a ^^^ g i) 0 := by
  induction n with
  | zero => rfl
  | succ n ih =>
    rw [xor_fold_succ, xor_fold_succ, ih (fun i hi => h i (by omega)), h n (by omega)]

theorem xor_fold_update (f g : Nat → Nat) (n k : Nat) (hk : k < n)
    (h : ∀ i, i ≠ k → f i = g i) :
    (List.range n).foldl (fun a i => a ^^^ f i) 0
      = ((List.range n).foldl (fun a i => a ^^^ g i) 0 ^^^ g k) ^^^ f k := by
  induction n with
  | zero => omega
  | succ n ih =>
    rw [xor_fold_succ, xor_fold_succ]
    by_cases hkn : k = n
    · subst hkn
      rw [xor_fold_congr f g k (fun i hi => h i (by omega))]
      rw [Nat.xor_assoc _ (g k) (g k), Nat.xor_self, Nat.xor_zero]
    · rw [ih (by omega), h n (fun hh => hkn hh.symm)]
      ac_rfl

theorem pieces_key_update (Z : ZobristTables) (pl : Int → PieceType × Color) {p : Int}
    (h0 : 0 ≤ p) (h64 : p < 64) (v : PieceType × Color) :
    pieces_key Z (Function.update pl p v)
      = (pieces_key Z pl ^^^ key_at Z p (pl p)) ^^^ key_at Z p v := by
  unfold pieces_key
  have hp : ((p.toNat : Nat) : Int) = p := Int.toNat_of_nonneg h0
  rw [xor_fold_update
    (fun i => if (Function.update pl p v (i : Int)).2 ≠ Color.None
      then Z.hash_code (i : Int) (Function.update pl p v (i : Int)).1
        (Function.update pl p v (i : Int)).2 else 0)
    (fun i => if (pl (i : Int)).2 ≠ Color.None
      then Z.hash_code (i : Int) (pl (i : Int)).1 (pl (i : Int)).2 else 0)
    64 p.toNat (by omega)]
  · have hu : Function.update pl p v ((p.toNat : Nat) : Int) = v := by
      rw [hp, Function.update_same]
    simp only [hu, hp, key_at]
  · intro i hi
    have : (i : Int) ≠ p := by omega
    simp only [Function.update_noteq this]

theorem sum_fold_update (f g : Nat → Int) (n k : Nat) (hk : k < n)
    (h : ∀ i, i ≠ k → f i = g i) :
    ((List.range n).map f).sum = ((List.range n).map g).sum - g k + f k := by
  induction n with
  | zero => omega
  | succ n ih =>
    rw [List.sum_range_succ, List.sum_range_succ]
    by_cases hkn : k = n
    · subst hkn
      have : ((List.range k).map f) = ((List.range k).map g) := by
        apply List.map_congr_left
        intro i hi
        exact h i (by have := List.mem_range.1 hi; omega)
      rw [this]
      omega
    · rw [ih (by omega), h n (fun hh => hkn hh.symm)]
      omega

theorem material_sum_update (pl : Int → PieceType × Color) (c : Color) {p : Int}
    (h0 : 0 ≤ p) (h64 : p < 64) (v : PieceType × Color) :
    material_sum (Function.update pl p v) c
      = material_sum pl c - value_at c p (pl p) + value_at c p v := by
  unfold material_sum
  have hp : ((p.toNat : Nat) : Int) = p := Int.toNat_of_nonneg h0
  rw [sum_fold_update
    (fun i => if (Function.update pl p v (i : Int)).2 = c
      then piece_value (i : Int) c (Function.update pl p v (i : Int)).1 else 0)
    (fun i => if (pl (i : Int)).2 = c then piece_value (i : Int) c (pl (i : Int)).1 else 0)
    64 p.toNat (by omega)]
  · have hu : Function.update pl p v ((p.toNat : Nat) : Int) = v := by
      rw [hp, Function.update_same]
    simp only [hu, hp, value_at]
  · intro i hi
    have : (i : Int) ≠ p := by omega
    simp only [Function.update_noteq this]

theorem position_pl_valid (b : Board) {p : Int} (h0 : 0 ≤ p) (h64 : p < 64) :
    b.position.pl p = ((b._squares p).type, (b._squares p).owner) := by
  simp [Board.position, h0, h64]

theorem Position.ext_fields {a a' : Position} (h1 : a.pl = a'.pl) (h2 : a.len = a'.len)
    (h3 : a.turn = a'.turn) (h4 : a.passan_place = a'.passan_place)
    (h5 : a.history = a'.history) (h6 : a.castle_flags = a'.castle_flags)
    (h7 : a._base_ply = a'._base_ply)
    (h8 : a._last_irreversible_move = a'._last_irreversible_move) : a = a' := by
  cases a; cases a'; simp_all

theorem toInt32_sub_value (s m v : Int) (h : s = toInt32 m) :
    toInt32 (s - v) = toInt32 (m - v) := by
  subst h; unfold toInt32; omega

theorem toInt32_add_value (s m v : Int) (h : s = toInt32 m) :
    toInt32 (s + v) = toInt32 (m + v) := by
  subst h; unfold toInt32; omega

/-- The board `erase_piece2` leaves at an occupied square of a consistent board, whatever the
other fields are, and what holds of it. -/
theorem erase_piece2_ok {b : Board} (hc : Consistent b) {p : Int}
    (h0 : 0 ≤ p) (h64 : p < 64) (ht : (b._squares p).type ≠ PieceType.CLEAR) :
    ∃ tbl' sq', (∀ b1 : Board, b1._squares = b._squares → b1._pieces_table = b._pieces_table →
        Board.erase_piece2 b1 p = some { b1 with _pieces_table := tbl', _squares := sq' }) ∧
      (∀ x : Pos, x.type = PieceType.CLEAR → ListsOk tbl' (Function.update sq' p x)) ∧
      (∀ q, (sq' q).type = (b._squares q).type ∧ (sq' q).owner = (b._squares q).owner) ∧
      (∀ c t, (tbl' c t).length = Position.bump b.position.len (b._squares p).owner
        (b._squares p).type 0 1 c t) := by
  have hown : (b._squares p).owner ≠ Color.None := fun h => ht ((hc.sq_none p h0 h64).2 h)
  have hvalid : Place.is_valid p = true := by simp [Place.is_valid, h0, h64]
  have hsl := hc.lists.1 p h0 h64 ht
  obtain ⟨hid, _⟩ := List.getElem?_eq_some.1 hsl
  by_cases hlast : (b._squares p).id
      = (b._pieces_table (b._squares p).owner (b._squares p).type).length - 1
  · refine ⟨Board.setList b._pieces_table (b._squares p).owner (b._squares p).type
        (b._pieces_table (b._squares p).owner (b._squares p).type).dropLast,
      b._squares, ?_, fun x hx => lists_erase_last hc.lists h0 h64 ht hlast x hx,
      fun q => ⟨rfl, rfl⟩, ?_⟩
    · intro b1 h1 h2
      unfold Board.erase_piece2
      simp only [h1, h2, hvalid, hown, hid, ne_eq, not_false_eq_true, and_self, if_true]
      rw [if_neg (by simpa using hlast)]
    · intro c t
      simp only [setList_apply, Position.bump, Board.position]
      by_cases hcc : c = (b._squares p).owner
      · subst hcc
        by_cases htt : t = (b._squares p).type
        · subst htt; simp
        · simp [htt, Function.update_noteq htt]
      · simp [hcc, Function.update_noteq hcc]
  · obtain ⟨r, hr, hr0, hr64, hrp, hrt, hrc, hl⟩ :=
      lists_erase_swap hc.lists h0 h64 ht hown hlast
        { b._squares p with type := PieceType.CLEAR, owner := Color.None } rfl
    have hrvalid : Place.is_valid r = true := by simp [Place.is_valid, hr0, hr64]
    refine ⟨Board.setList b._pieces_table (b._squares p).owner (b._squares p).type
        ((b._pieces_table (b._squares p).owner (b._squares p).type).set
          (b._squares p).id r).dropLast,
      Function.update b._squares r { b._squares r with id := (b._squares p).id },
      ?_, ?_, ?_, ?_⟩
    · intro b1 h1 h2
      unfold Board.erase_piece2
      simp only [h1, h2, hvalid, hown, hid, ne_eq, not_false_eq_true, and_self, if_true]
      rw [if_pos (by simpa using hlast), hr, if_pos hrvalid]
    · intro x hx
      obtain ⟨r', hr', _, _, _, _, _, hl'⟩ :=
        lists_erase_swap hc.lists h0 h64 ht hown hlast x hx
      rw [hr] at hr'
      subst hr'
      exact hl'
    · intro q
      by_cases hq : q = r
      · subst hq; simp
      · simp [Function.update_noteq hq]
    · intro c t
      simp only [setList_apply, Position.bump, Board.position]
      by_cases hcc : c = (b._squares p).owner
      · subst hcc
        by_cases htt : t = (b._squares p).type
        · subst htt; simp
        · simp [htt, Function.update_noteq htt]
      · simp [hcc, Function.update_noteq hcc]

theorem erase_piece_ok (Z : ZobristTables) {b : Board} (hc : Consistent b) {p : Int}
    (h0 : 0 ≤ p) (h64 : p < 64) (ht : (b._squares p).type ≠ PieceType.CLEAR) :
    ∃ b', Board.erase_piece Z b p = some b' ∧ Consistent b' ∧
      b'.position = b.position.erase p ∧
      (∀ k, KeyInv Z b k → KeyInv Z b' k) ∧ (ScoreInv b → ScoreInv b') := by
  have hown : (b._squares p).owner ≠ Color.None := fun h => ht ((hc.sq_none p h0 h64).2 h)
  have hvalid : Place.is_valid p = true := by simp [Place.is_valid, h0, h64]
  have hsl := hc.lists.1 p h0 h64 ht
  obtain ⟨hid, _⟩ := List.getElem?_eq_some.1 hsl
  obtain ⟨tbl', sq', he2, hl', hoff, hlen⟩ := erase_piece2_ok hc h0 h64 ht
  have key : ∀ b' : Board,
      b'._squares = Function.update sq' p
        { sq' p with type := PieceType.CLEAR, owner := Color.None } →
      b'._pieces_table = tbl' →
      b'.bb_blockers = Board.invertBlockers b.bb_blockers (b._squares p).owner p →
      b'.bbPeca = Board.invertPeca b.bbPeca (b._squares p).owner (b._squares p).type p →
      b'._hash_key = b._hash_key ^^^ Z.hash_code p (b._squares p).type (b._squares p).owner →
      b'._score = Function.update b._score (b._squares p).owner
        (Score.sub (b._score (b._squares p).owner)
          (piece_value p (b._squares p).owner (b._squares p).type)) →
      b'.turn = b.turn → b'.passan_place = b.passan_place → b'.history = b.history →
      b'.castle_flags = b.castle_flags → b'._base_ply = b._base_ply →
      b'._last_irreversible_move = b._last_irreversible_move →
      Consistent b' ∧ b'.position = b.position.erase p ∧
        (∀ k, KeyInv Z b k → KeyInv Z b' k) ∧ (ScoreInv b → ScoreInv b') := by
    intro b' hsq htbl hbb hbp hkey hscore h1 h2 h3 h4 h5 h6
    have hpl : b'.position.pl = Function.update b.position.pl p (PieceType.CLEAR, Color.None) := by
      funext q
      simp only [Board.position, hsq]
      by_cases hq : q = p
      · subst hq; simp [h0, h64]
      · simp only [Function.update_noteq hq, (hoff q).1, (hoff q).2]
    refine ⟨?_, ?_, ?_, ?_⟩
    · constructor
      · intro q hq0 hq64
        rw [hsq]
        by_cases hq : q = p
        · subst hq; simp
        · simp only [Function.update_noteq hq, (hoff q).1, (hoff q).2]
          exact hc.sq_none q hq0 hq64
      · rw [hsq, htbl]; exact hl' _ rfl
      · rw [hsq, hbb, hbp]
        apply bits_toggle hc.bits h0 h64
        · intro q hq
          simp only [Function.update_noteq hq]
          exact hoff q
        · left
          simp
    · have hlen' : b'.position.len = (b.position.erase p).len := by
        funext c t
        simp only [Board.position, htbl]
        rw [hlen c t]
        simp [Board.position, Position.erase, h0, h64]
      exact Position.ext_fields hpl hlen' h1 h2 h3 h4 h5 h6
    · intro k hk
      unfold KeyInv at hk ⊢
      rw [hpl, pieces_key_update Z _ h0 h64, hkey, hk, position_pl_valid b h0 h64]
      simp only [key_at, hown, ne_eq, not_false_eq_true, if_true, not_true_eq_false, if_false,
        Nat.xor_zero]
      ac_rfl
    · intro hs c' hc'
      rw [hpl, material_sum_update _ _ h0 h64, hscore, position_pl_valid b h0 h64]
      simp only [value_at, hc'.symm, if_false]
      by_cases hcc : c' = (b._squares p).owner
      · subst hcc
        simp only [Function.update_same, if_true, Score.sub]
        rw [toInt32_sub_value _ _ _ (hs _ hc')]
        congr 1
        omega
      · rw [Function.update_noteq hcc, if_neg (Ne.symm hcc), hs c' hc']
        congr 1
        omega
  unfold Board.erase_piece
  simp only [hvalid, ht, hown, ne_eq, not_false_eq_true, and_self, if_true]
  rw [he2 { b with
      _score := Function.update b._score (b._squares p).owner
        (Score.sub (b._score (b._squares p).owner)
          (piece_value p (b._squares p).owner (b._squares p).type))
      _hash_key := b._hash_key ^^^ Z.hash_code p (b._squares p).type (b._squares p).owner }
    rfl rfl]
  simp only [Option.map_some']
  exact ⟨_, rfl, key _ rfl rfl rfl rfl rfl rfl rfl rfl rfl rfl rfl rfl⟩

theorem not_in_lists_of_empty {b : Board} (hc : Consistent b) {p : Int} (h0 : 0 ≤ p)
    (h64 : p < 64) (hp : (b._squares p).type = PieceType.CLEAR) :
    ∀ (c' : Color) (t' : PieceType) (i : Nat), c' ≠ Color.None →
      (b._pieces_table c' t')[i]? ≠ some p := by
  intro c' t' i hc' h
  obtain ⟨_, _, h3⟩ := hc.lists.2 c' t' i p hc' h
  have := (hc.sq_none p h0 h64).1 hp
  rw [h3] at this
  exact hc' this

theorem insert_piece_ok (Z : ZobristTables) {b : Board} (hc : Consistent b) {p : Int}
    (h0 : 0 ≤ p) (h64 : p < 64) (hp : (b._squares p).type = PieceType.CLEAR)
    {t : PieceType} {c : Color} (ht : t ≠ PieceType.CLEAR) (hcn : c ≠ Color.None)
    (hcap : (b._pieces_table c t).length < PieceVector.cap) :
    ∃ b', Board.insert_piece Z b p t c = some b' ∧ Consistent b' ∧
      b'.position = b.position.insert p t c ∧
      (∀ k, KeyInv Z b k → KeyInv Z b' k) ∧ (ScoreInv b → ScoreInv b') := by
  have hvalid : Place.is_valid p = true := by simp [Place.is_valid, h0, h64]
  have hpo : (b._squares p).owner = Color.None := (hc.sq_none p h0 h64).1 hp
  have key : ∀ b' : Board,
      b'._squares = Function.update b._squares p ⟨(b._pieces_table c t).length, t, c⟩ →
      b'._pieces_table = Board.setList b._pieces_table c t (b._pieces_table c t ++ [p]) →
      b'.bb_blockers = Board.invertBlockers b.bb_blockers c p →
      b'.bbPeca = Board.invertPeca b.bbPeca c t p →
      b'._hash_key = b._hash_key ^^^ Z.hash_code p t c →
      b'._score = Function.update b._score c (Score.add (b._score c) (piece_value p c t)) →
      b'.turn = b.turn → b'.passan_place = b.passan_place → b'.history = b.history →
      b'.castle_flags = b.castle_flags → b'._base_ply = b._base_ply →
      b'._last_irreversible_move = b._last_irreversible_move →
      Consistent b' ∧ b'.position = b.position.insert p t c ∧
        (∀ k, KeyInv Z b k → KeyInv Z b' k) ∧ (ScoreInv b → ScoreInv b') := by
    intro b' hsq htbl hbb hbp hkey hscore h1 h2 h3 h4 h5 h6
    have hpl : b'.position.pl = Function.update b.position.pl p (t, c) := by
      funext q
      simp only [Board.position, hsq]
      by_cases hq : q = p
      · subst hq; simp [h0, h64]
      · simp only [Function.update_noteq hq]
    refine ⟨?_, ?_, ?_, ?_⟩
    · constructor
      · intro q hq0 hq64
        rw [hsq]
        by_cases hq : q = p
        · subst hq; simp [ht, hcn]
        · simp only [Function.update_noteq hq]
          exact hc.sq_none q hq0 hq64
      · rw [hsq, htbl]
        exact lists_insert hc.lists h0 h64 hp ht hcn (not_in_lists_of_empty hc h0 h64 hp)
      · rw [hsq, hbb, hbp]
        apply bits_toggle hc.bits h0 h64
        · intro q hq
          rw [Function.update_noteq hq]
          exact ⟨rfl, rfl⟩
        · right
          simp [hpo]
    · have hlen' : b'.position.len = (b.position.insert p t c).len := by
        funext c' t'
        simp only [Board.position, htbl, Position.insert, Position.bump, setList_apply]
        by_cases hcc : c' = c
        · subst hcc
          by_cases htt : t' = t
          · subst htt; simp
          · simp [htt, Function.update_noteq htt]
        · simp [hcc, Function.update_noteq hcc]
      exact Position.ext_fields hpl hlen' h1 h2 h3 h4 h5 h6
    · intro k hk
      unfold KeyInv at hk ⊢
      rw [hpl, pieces_key_update Z _ h0 h64, hkey, hk, position_pl_valid b h0 h64]
      simp only [key_at, hcn, hpo, ne_eq, not_false_eq_true, if_true, not_true_eq_false,
        if_false, Nat.xor_zero]
      ac_rfl
    · intro hs c' hc'
      rw [hpl, material_sum_update _ _ h0 h64, hscore, position_pl_valid b h0 h64]
      simp only [value_at, hpo, hc'.symm, if_false]
      by_cases hcc : c' = c
      · subst hcc
        simp only [Function.update_same, if_true, Score.add]
        rw [toInt32_add_value _ _ _ (hs _ hc')]
        congr 1
        omega
      · rw [Function.update_noteq hcc, if_neg (Ne.symm hcc), hs c' hc']
        congr 1
        omega
  unfold Board.insert_piece Board.insert_piece2
  simp only [hvalid, hcn, hcap, ne_eq, not_false_eq_true, and_self, if_true, Option.map_some']
  refine ⟨_, rfl, key _ ?_ rfl rfl rfl rfl rfl rfl rfl rfl rfl rfl rfl⟩
  simp

theorem toInt32_add_sub (s m a b : Int) (h : s = toInt32 m) :
    toInt32 (s + toInt32 (a - b)) = toInt32 (m + a - b) := by
  subst h; unfold toInt32; omega

theorem move_piece_ok (Z : ZobristTables) {b : Board} (hc : Consistent b) {o d : Int}
    (ho0 : 0 ≤ o) (ho64 : o < 64) (hd0 : 0 ≤ d) (hd64 : d < 64) (hod : o ≠ d)
    (hot : (b._squares o).type ≠ PieceType.CLEAR) (hdt : (b._squares d).type = PieceType.CLEAR)
    (pr : PieceType) :
    ∃ b', Board.move_piece Z b ⟨o, d, pr⟩ = some b' ∧ Consistent b' ∧
      b'.position = b.position.move_piece o d ∧
      (∀ k, KeyInv Z b k → KeyInv Z b' k) ∧ (ScoreInv b → ScoreInv b') := by
  have hov : Place.is_valid o = true := by simp [Place.is_valid, ho0, ho64]
  have hdv : Place.is_valid d = true := by simp [Place.is_valid, hd0, hd64]
  have hoc : (b._squares o).owner ≠ Color.None := fun h => hot ((hc.sq_none o ho0 ho64).2 h)
  have hdo : (b._squares d).owner = Color.None := (hc.sq_none d hd0 hd64).1 hdt
  have hsl := hc.lists.1 o ho0 ho64 hot
  obtain ⟨hid, _⟩ := List.getElem?_eq_some.1 hsl
  have key : ∀ b' : Board,
      b'._squares = Function.update (Function.update b._squares d (b._squares o)) o
        { b._squares o with type := PieceType.CLEAR, owner := Color.None } →
      b'._pieces_table = Board.setList b._pieces_table (b._squares o).owner (b._squares o).type
        ((b._pieces_table (b._squares o).owner (b._squares o).type).set (b._squares o).id d) →
      b'.bb_blockers = Board.invertBlockers
        (Board.invertBlockers b.bb_blockers (b._squares o).owner o) (b._squares o).owner d →
      b'.bbPeca = Board.invertPeca
        (Board.invertPeca b.bbPeca (b._squares o).owner (b._squares o).type o)
        (b._squares o).owner (b._squares o).type d →
      b'._hash_key = (b._hash_key ^^^ Z.hash_code o (b._squares o).type (b._squares o).owner)
        ^^^ Z.hash_code d (b._squares o).type (b._squares o).owner →
      b'._score = Function.update b._score (b._squares o).owner
        (Score.add (b._score (b._squares o).owner)
          (Score.sub (piece_value d (b._squares o).owner (b._squares o).type)
            (piece_value o (b._squares o).owner (b._squares o).type))) →
      b'.turn = b.turn → b'.passan_place = b.passan_place → b'.history = b.history →
      b'.castle_flags = b.castle_flags → b'._base_ply = b._base_ply →
      b'._last_irreversible_move = b._last_irreversible_move →
      Consistent b' ∧ b'.position = b.position.move_piece o d ∧
        (∀ k, KeyInv Z b k → KeyInv Z b' k) ∧ (ScoreInv b → ScoreInv b') := by
    intro b' hsq htbl hbb hbp hkey hscore h1 h2 h3 h4 h5 h6
    have hpl : b'.position.pl = Function.update (Function.update b.position.pl d (b.position.pl o))
        o (PieceType.CLEAR, Color.None) := by
      funext q
      simp only [Board.position, hsq]
      by_cases hq : q = o
      · subst hq; simp [ho0, ho64]
      · simp only [Function.update_noteq hq]
        by_cases hq2 : q = d
        · subst hq2; simp [hd0, hd64, ho0, ho64]
        · simp only [Function.update_noteq hq2]
    refine ⟨?_, ?_, ?_, ?_⟩
    · constructor
      · intro q hq0 hq64
        rw [hsq]
        by_cases hq : q = o
        · subst hq; simp
        · simp only [Function.update_noteq hq]
          by_cases hq2 : q = d
          · subst hq2
            simp only [Function.update_same]
            exact hc.sq_none o ho0 ho64
          · simp only [Function.update_noteq hq2]
            exact hc.sq_none q hq0 hq64
      · rw [hsq, htbl]
        exact lists_move hc.lists ho0 ho64 hd0 hd64 hod hot hoc hdt
          (not_in_lists_of_empty hc hd0 hd64 hdt) _ rfl
      · rw [hsq, hbb, hbp]
        have step1 := bits_toggle (r := Function.update b._squares o
            { b._squares o with type := PieceType.CLEAR, owner := Color.None })
          (t := (b._squares o).type) (c := (b._squares o).owner) hc.bits ho0 ho64
          (by intro q hq; rw [Function.update_noteq hq]; exact ⟨rfl, rfl⟩)
          (by left; simp)
        apply bits_toggle step1 hd0 hd64
        · intro q hq
          by_cases hqo : q = o
          · subst hqo
            simp only [Function.update_same, and_self]
          · simp only [Function.update_noteq hqo, Function.update_noteq hq, and_self]
        · right
          simp [Function.update_noteq (Ne.symm hod), Function.update_noteq hod, hdo]
    · exact Position.ext_fields hpl
        (by funext c' t'
            simp only [Board.position, htbl, Position.move_piece, setList_apply]
            split
            · rename_i h; obtain ⟨rfl, rfl⟩ := h; simp
            · rfl)
        h1 h2 h3 h4 h5 h6
    · intro k hk
      unfold KeyInv at hk ⊢
      rw [hpl, pieces_key_update Z _ ho0 ho64, pieces_key_update Z _ hd0 hd64, hkey, hk,
        position_pl_valid b ho0 ho64, position_pl_valid b hd0 hd64]
      simp only [key_at, hoc, hdo, Function.update_noteq hod, position_pl_valid b ho0 ho64,
        ne_eq, not_false_eq_true, if_true, not_true_eq_false, if_false, Nat.xor_zero]
      ac_rfl
    · intro hs c' hc'
      rw [hpl, material_sum_update _ _ ho0 ho64, material_sum_update _ _ hd0 hd64, hscore,
        position_pl_valid b ho0 ho64, position_pl_valid b hd0 hd64]
      simp only [value_at, hdo, hc'.symm, if_false, Function.update_noteq hod,
        position_pl_valid b ho0 ho64]
      by_cases hcc : c' = (b._squares o).owner
      · subst hcc
        simp only [Function.update_same, if_true, Score.add, Score.sub]
        rw [toInt32_add_sub _ _ _ _ (hs _ hc')]
        congr 1
        omega
      · rw [Function.update_noteq hcc, hs c' hc']
        simp only [if_neg (Ne.symm hcc)]
        congr 1
        omega
  unfold Board.move_piece
  simp only [hov, hdv, hoc, hot, hid, ne_eq, not_false_eq_true, and_self, if_true]
  exact ⟨_, rfl, key _ (by simp [Function.update_noteq hod]) rfl rfl rfl rfl rfl rfl rfl rfl
    rfl rfl rfl⟩

theorem invertBlockers_twice (bb : Color → Nat) (c : Color) (p : Int) :
    Board.invertBlockers (Board.invertBlockers bb c p) c p = bb := by
  funext c'
  simp only [invertBlockers_apply]
  split
  · rename_i h
    subst h
    simp only [if_true, BitBoard.invert, Nat.xor_assoc, Nat.xor_self, Nat.xor_zero]
  · rfl

theorem bump_apply (len : Color → PieceType → Nat) (c : Color) (t : PieceType) (k j : Nat)
    (c' : Color) (t' : PieceType) :
    Position.bump len c t k j c' t' = if c' = c ∧ t' = t then len c t + k - j else len c' t' := by
  unfold Position.bump
  by_cases hc : c' = c
  · subst hc
    by_cases ht : t' = t
    · subst ht; simp
    · simp [ht, Function.update_noteq ht]
  · simp [hc, Function.update_noteq hc]

theorem set_piece_type_ok (Z : ZobristTables) {b : Board} (hc : Consistent b) {p : Int}
    (h0 : 0 ≤ p) (h64 : p < 64) (hpt : (b._squares p).type ≠ PieceType.CLEAR)
    {t : PieceType} (ht : t ≠ PieceType.CLEAR) (hne : t ≠ (b._squares p).type)
    (hcap : (b._pieces_table (b._squares p).owner t).length < PieceVector.cap) :
    ∃ b', Board.set_piece_type Z b p t = some b' ∧ Consistent b' ∧
      b'.position = b.position.set_type p t ∧
      (∀ k, KeyInv Z b k → KeyInv Z b' k) ∧ (ScoreInv b → ScoreInv b') := by
  have hown : (b._squares p).owner ≠ Color.None := fun h => hpt ((hc.sq_none p h0 h64).2 h)
  have hvalid : Place.is_valid p = true := by simp [Place.is_valid, h0, h64]
  obtain ⟨tbl', sq', he2, hl', hoff, hlen⟩ := erase_piece2_ok hc h0 h64 hpt
  have hlen_t : (tbl' (b._squares p).owner t).length
      = (b._pieces_table (b._squares p).owner t).length := by
    rw [hlen]
    simp [Position.bump, Function.update_noteq hne, Board.position]
  have key : ∀ b' : Board,
      b'._squares = Function.update sq' p
        ⟨(b._pieces_table (b._squares p).owner t).length, t, (b._squares p).owner⟩ →
      b'._pieces_table = Board.setList tbl' (b._squares p).owner t
        (tbl' (b._squares p).owner t ++ [p]) →
      b'.bb_blockers = b.bb_blockers →
      b'.bbPeca = Board.invertPeca
        (Board.invertPeca b.bbPeca (b._squares p).owner (b._squares p).type p)
        (b._squares p).owner t p →
      b'._hash_key = (b._hash_key ^^^ Z.hash_code p t (b._squares p).owner)
        ^^^ Z.hash_code p (b._squares p).type (b._squares p).owner →
      b'._score = Function.update b._score (b._squares p).owner
        (Score.add (b._score (b._squares p).owner)
          (Score.sub (piece_value p (b._squares p).owner t)
            (piece_value p (b._squares p).owner (b._squares p).type))) →
      b'.turn = b.turn → b'.passan_place = b.passan_place → b'.history = b.history →
      b'.castle_flags = b.castle_flags → b'._base_ply = b._base_ply →
      b'._last_irreversible_move = b._last_irreversible_move →
      Consistent b' ∧ b'.position = b.position.set_type p t ∧
        (∀ k, KeyInv Z b k → KeyInv Z b' k) ∧ (ScoreInv b → ScoreInv b') := by
    intro b' hsq htbl hbb hbp hkey hscore h1 h2 h3 h4 h5 h6
    have hpl : b'.position.pl
        = Function.update b.position.pl p (t, (b.position.pl p).2) := by
      funext q
      simp only [Board.position, hsq]
      by_cases hq : q = p
      · subst hq; simp [h0, h64]
      · simp only [Function.update_noteq hq, (hoff q).1, (hoff q).2]
    refine ⟨?_, ?_, ?_, ?_⟩
    · constructor
      · intro q hq0 hq64
        rw [hsq]
        by_cases hq : q = p
        · subst hq; simp [ht, hown]
        · simp only [Function.update_noteq hq, (hoff q).1, (hoff q).2]
          exact hc.sq_none q hq0 hq64
      · rw [hsq, htbl]
        have hl0 := hl' ⟨0, PieceType.CLEAR, Color.None⟩ rfl
        have hnot : ∀ (c' : Color) (t' : PieceType) (i : Nat), c' ≠ Color.None →
            (tbl' c' t')[i]? ≠ some p := by
          intro c' t' i hc' h
          obtain ⟨_, _, h3⟩ := hl0.2 c' t' i p hc' h
          simp only [Function.update_same, Pos.mk.injEq] at h3
          exact hc' h3.2.2.symm
        have := lists_insert hl0 h0 h64 (by simp) ht hown hnot
        rw [Function.update_idem] at this
        rw [← hlen_t]
        exact this
      · rw [hsq, hbb, hbp]
        have step1 := bits_toggle (r := Function.update b._squares p
            ⟨0, PieceType.CLEAR, Color.None⟩)
          (t := (b._squares p).type) (c := (b._squares p).owner) hc.bits h0 h64
          (by intro q hq; rw [Function.update_noteq hq]; exact ⟨rfl, rfl⟩)
          (by left; simp)
        have step2 := bits_toggle (r := Function.update sq' p
            ⟨(b._pieces_table (b._squares p).owner t).length, t, (b._squares p).owner⟩)
          (t := t) (c := (b._squares p).owner) step1 h0 h64
          (by intro q hq
              simp only [Function.update_noteq hq, (hoff q).1, (hoff q).2, and_self])
          (by right; simp)
        rw [invertBlockers_twice] at step2
        exact step2
    · exact Position.ext_fields hpl
        (by funext c' t'
            show (b'._pieces_table c' t').length = _
            rw [htbl, setList_apply]
            simp only [Position.set_type, position_pl_valid b h0 h64]
            rw [bump_apply]
            split
            · rw [List.length_append, hlen]; rfl
            · rw [hlen])
        h1 h2 h3 h4 h5 h6
    · intro k hk
      unfold KeyInv at hk ⊢
      rw [hpl, pieces_key_update Z _ h0 h64, hkey, hk, position_pl_valid b h0 h64]
      simp only [key_at, hown, ne_eq, not_false_eq_true, if_true]
      ac_rfl
    · intro hs c' hc'
      rw [hpl, material_sum_update _ _ h0 h64, hscore, position_pl_valid b h0 h64]
      simp only [value_at]
      by_cases hcc : c' = (b._squares p).owner
      · subst hcc
        simp only [Function.update_same, if_true, Score.add, Score.sub]
        rw [toInt32_add_sub _ _ _ _ (hs _ hc')]
        congr 1
        omega
      · rw [Function.update_noteq hcc, hs c' hc']
        simp only [if_neg (Ne.symm hcc)]
        congr 1
        omega
  unfold Board.set_piece_type
  simp only [hvalid, hown, ne_eq, not_false_eq_true, and_self, if_true]
  rw [he2 { b with
      _score := Function.update b._score (b._squares p).owner
        (Score.add (b._score (b._squares p).owner)
          (Score.sub (piece_value p (b._squares p).owner t)
            (piece_value p (b._squares p).owner (b._squares p).type)))
      _hash_key := (b._hash_key ^^^ Z.hash_code p t (b._squares p).owner)
        ^^^ Z.hash_code p (b._squares p).type (b._squares p).owner }
    rfl rfl]
  simp only [Option.some_bind, Board.insert_piece2, hvalid, hown, hlen_t, hcap, ne_eq,
    not_false_eq_true, and_self, if_true, Option.map_some']
  refine ⟨_, rfl, key _ ?_ rfl rfl rfl rfl rfl rfl rfl rfl rfl rfl rfl⟩
  simp [hlen_t, (hoff p).2]

theorem hashInv_iff (Z : ZobristTables) (b : Board) :
    HashInv Z b ↔ KeyInv Z b (scalar_key Z b.position) := by
  unfold HashInv KeyInv zobrist scalar_key
  constructor
  · intro h; rw [h]; ac_rfl
  · intro h; rw [h]; ac_rfl

theorem position_ok {b : Board} (hc : Consistent b) (hcap : CapOk b) : b.position.Ok := by
  constructor
  · intro p
    by_cases hp : 0 ≤ p ∧ p < 64
    · simp only [Board.position, hp, and_self, if_true]
      exact hc.sq_none p hp.1 hp.2
    · simp [Board.position, hp]
  · intro p hp
    simp [Board.position, hp]
  · intro c t
    exact hcap c t

theorem capOk_of_position {b : Board} (h : b.position.Ok) : CapOk b := fun c t => h.cap c t

theorem sq_type_of_pl {b : Board} {p : Int} (h0 : 0 ≤ p) (h64 : p < 64) :
    (b._squares p).type = (b.position.pl p).1 := by
  rw [position_pl_valid b h0 h64]

theorem sq_owner_of_pl {b : Board} {p : Int} (h0 : 0 ≤ p) (h64 : p < 64) :
    (b._squares p).owner = (b.position.pl p).2 := by
  rw [position_pl_valid b h0 h64]

theorem consistent_congr {b b' : Board} (hc : Consistent b) (h1 : b'._squares = b._squares)
    (h2 : b'._pieces_table = b._pieces_table) (h3 : b'.bb_blockers = b.bb_blockers)
    (h4 : b'.bbPeca = b.bbPeca) : Consistent b' := by
  constructor
  · rw [h1]; exact hc.sq_none
  · rw [h1, h2]; exact hc.lists
  · rw [h1, h3, h4]; exact hc.bits

theorem position_pl_congr {b b' : Board} (h1 : b'._squares = b._squares) :
    b'.position.pl = b.position.pl := by
  funext p
  simp only [Board.position, h1]

theorem scoreInv_congr {b b' : Board} (hs : ScoreInv b) (h1 : b'._squares = b._squares)
    (h2 : b'._score = b._score) : ScoreInv b' := by
  intro c hc
  rw [h2, position_pl_congr h1]
  exact hs c hc

theorem scalar_key_congr (Z : ZobristTables) {a a' : Position} (h1 : a'.turn = a.turn)
    (h2 : a'.castle_flags = a.castle_flags) (h3 : a'.passan_place = a.passan_place) :
    scalar_key Z a' = scalar_key Z a := by
  unfold scalar_key
  rw [h1, h2, h3]

theorem hashInv_congr (Z : ZobristTables) {b b' : Board} (hs : HashInv Z b)
    (h1 : b'._squares = b._squares) (h2 : b'._hash_key = b._hash_key)
    (h3 : b'.turn = b.turn) (h4 : b'.castle_flags = b.castle_flags)
    (h5 : b'.passan_place = b.passan_place) : HashInv Z b' := by
  unfold HashInv zobrist at hs ⊢
  rw [h2, position_pl_congr h1, hs]
  simp only [Board.position, h3, h4, h5]

/-- A primitive keeps `HashInv` when it keeps the key of the squares in step and leaves the
scalar fields alone. -/
theorem hashInv_of_keyInv (Z : ZobristTables) {b b' : Board}
    (hk : ∀ k, KeyInv Z b k → KeyInv Z b' k) (h3 : b'.position.turn = b.position.turn)
    (h4 : b'.position.castle_flags = b.position.castle_flags)
    (h5 : b'.position.passan_place = b.position.passan_place) (hs : HashInv Z b) :
    HashInv Z b' := by
  rw [hashInv_iff] at hs ⊢
  rw [scalar_key_congr Z h3 h4 h5]
  exact hk _ hs

theorem scalars_of_pos {b1 : Board} {a : Position} (h : b1.position = a) :
    b1.turn = a.turn ∧ b1.castle_flags = a.castle_flags ∧ b1.passan_place = a.passan_place ∧
    b1.history = a.history ∧ b1._base_ply = a._base_ply ∧
    b1._last_irreversible_move = a._last_irreversible_move := by
  subst h
  exact ⟨rfl, rfl, rfl, rfl, rfl, rfl⟩

theorem move_capture_ok (Z : ZobristTables) {b : Board} (hc : Consistent b) {m : Move}
    (hm : b.position.MoveOk m) :
    ∃ b1 mi1, Board.move_capture Z b m = some (b1, mi1) ∧ Consistent b1 ∧
      b1.position = (b.position.move_capture m b._hash_key).1 ∧
      mi1.forget_id = (b.position.move_capture m b._hash_key).2 ∧
      (HashInv Z b → HashInv Z b1) ∧ (ScoreInv b → ScoreInv b1) := by
  obtain ⟨ho0, ho64⟩ := hm.o_valid
  obtain ⟨hd0, hd64⟩ := hm.d_valid
  have hmv : Move.is_valid m = true := by
    simp [Move.is_valid, Place.is_valid, ho0, ho64, hd0, hd64, hm.o_ne_d]
  have hroom : b.history.length < History.cap := hm.room
  have hot : (b._squares m.o).type ≠ PieceType.CLEAR := by
    rw [sq_type_of_pl ho0 ho64]; exact hm.own.1
  have hoo : (b._squares m.o).owner = b.turn := by
    rw [sq_owner_of_pl ho0 ho64]; exact hm.own.2
  unfold Board.move_capture
  simp only [hmv, hroom, hot, hoo, ne_eq, not_false_eq_true, and_self, if_true]
  by_cases hdt : (b._squares m.d).type = PieceType.CLEAR
  · -- no capture
    have hdt' : (b.position.pl m.d).1 = PieceType.CLEAR := by
      rw [← sq_type_of_pl hd0 hd64]; exact hdt
    simp only [hdt, not_true_eq_false, if_false, Option.map_some', Bool.false_eq_true,
      false_or]
    by_cases hp : (b._squares m.o).type = PieceType.PAWN
    · have hp' : (b.position.pl m.o).1 = PieceType.PAWN := by
        rw [← sq_type_of_pl ho0 ho64]; exact hp
      rw [if_pos hp]
      refine ⟨_, _, rfl, consistent_congr hc rfl rfl rfl rfl, ?_, ?_,
        fun h => hashInv_congr Z h rfl rfl rfl rfl rfl, fun h => scoreInv_congr h rfl rfl⟩
      · simp only [Position.move_capture, hdt', hp', ne_eq, not_true_eq_false, if_false,
          or_true, or_false, if_true, Bool.false_eq_true, not_false_eq_true]
        rfl
      · simp only [Position.move_capture, hdt', hp', ne_eq, not_true_eq_false, if_false,
          or_true, or_false, if_true, Bool.false_eq_true, not_false_eq_true]
        rfl
    · have hp' : (b.position.pl m.o).1 ≠ PieceType.PAWN := by
        rw [← sq_type_of_pl ho0 ho64]; exact hp
      rw [if_neg hp]
      refine ⟨_, _, rfl, consistent_congr hc rfl rfl rfl rfl, ?_, ?_,
        fun h => hashInv_congr Z h rfl rfl rfl rfl rfl, fun h => scoreInv_congr h rfl rfl⟩
      · simp only [Position.move_capture, hdt', hp', ne_eq, not_true_eq_false, if_false,
          or_true, or_false, if_true, Bool.false_eq_true, not_false_eq_true]
        rfl
      · simp only [Position.move_capture, hdt', hp', ne_eq, not_true_eq_false, if_false,
          or_true, or_false, if_true, Bool.false_eq_true, not_false_eq_true]
        rfl
  · -- capture
    have hdt' : (b.position.pl m.d).1 ≠ PieceType.CLEAR := by
      rw [← sq_type_of_pl hd0 hd64]; exact hdt
    have hc1 : Consistent { b with history := b.history ++ [b._hash_key] } :=
      consistent_congr hc rfl rfl rfl rfl
    obtain ⟨b1, he, hcb1, hpos, hkey, hscore⟩ := erase_piece_ok Z hc1 hd0 hd64 hdt
    simp only [hdt, not_false_eq_true, if_true, he, Option.map_some', true_or]
    have hh : b1.history = b.history ++ [b._hash_key] := congrArg Position.history hpos
    refine ⟨_, _, rfl, consistent_congr hcb1 rfl rfl rfl rfl, ?_, ?_, ?_, ?_⟩
    · simp only [Position.move_capture, hdt', ne_eq, not_false_eq_true, if_true, true_or]
      apply Position.ext_fields
      · have h := congrArg Position.pl hpos
        exact h
      · have h := congrArg Position.len hpos
        exact h
      · have h := congrArg Position.turn hpos
        exact h
      · have h := congrArg Position.passan_place hpos
        exact h
      · have h := congrArg Position.history hpos
        exact h
      · have h := congrArg Position.castle_flags hpos
        exact h
      · have h := congrArg Position._base_ply hpos
        exact h
      · show b1.history.length = _
        rw [hh]
        rfl
    · have h6 : b1._last_irreversible_move = b._last_irreversible_move :=
        congrArg Position._last_irreversible_move hpos
      simp only [Position.move_capture, hdt', ne_eq, not_false_eq_true, if_true, true_or]
      simp [MoveInfo.forget_id, MoveInfo.new, Pos.new, h6, position_pl_valid b hd0 hd64,
        Position.erase, Board.position, hd0, hd64]
    · intro h
      have h1 : HashInv Z { b with history := b.history ++ [b._hash_key] } :=
        hashInv_congr Z h rfl rfl rfl rfl rfl
      obtain ⟨e1, e2, e3, _, _, _⟩ := scalars_of_pos hpos
      have h2 := hashInv_of_keyInv Z hkey e1 e2 e3 h1
      exact hashInv_congr Z h2 rfl rfl rfl rfl rfl
    · intro h
      have h1 : ScoreInv { b with history := b.history ++ [b._hash_key] } :=
        scoreInv_congr h rfl rfl
      exact scoreInv_congr (hscore h1) rfl rfl

theorem valid_of_pl {b : Board} {p : Int} (h : (b.position.pl p).1 ≠ PieceType.CLEAR) :
    0 ≤ p ∧ p < 64 := by
  by_contra hp
  apply h
  simp [Board.position, hp]

theorem forget_id_passan (mi : MoveInfo) (p : Pos) (x : Bool) :
    MoveInfo.forget_id { mi with p := p, passan := x }
      = { MoveInfo.forget_id mi with p := { p with id := 0 }, passan := x } := rfl

theorem move_en_passan_ok (Z : ZobristTables) {b1 : Board} (hc : Consistent b1) {m : Move}
    (mi1 : MoveInfo) (type : PieceType)
    (hq : type = PieceType.PAWN → mi1.capturou = false → Move.dc m ≠ Move.oc m →
      (b1.position.pl (Place.of_line_of_col (Move.ol m) (Move.dc m))).1 = PieceType.PAWN) :
    ∃ b2 mi2, Board.move_en_passan Z (b1, mi1) m type = some (b2, mi2) ∧ Consistent b2 ∧
      b2.position = (Position.move_en_passan (b1.position, mi1.forget_id) m type).1 ∧
      mi2.forget_id = (Position.move_en_passan (b1.position, mi1.forget_id) m type).2 ∧
      (HashInv Z b1 → HashInv Z b2) ∧ (ScoreInv b1 → ScoreInv b2) := by
  unfold Board.move_en_passan Position.move_en_passan
  have hcap : (MoveInfo.forget_id mi1).capturou = mi1.capturou := rfl
  simp only [hcap]
  by_cases hcond : type = PieceType.PAWN ∧ mi1.capturou = false ∧ Move.dc m ≠ Move.oc m
  · have hqt := hq hcond.1 hcond.2.1 hcond.2.2
    have hqne : (b1.position.pl (Place.of_line_of_col (Move.ol m) (Move.dc m))).1
        ≠ PieceType.CLEAR := by rw [hqt]; decide
    obtain ⟨hq0, hq64⟩ := valid_of_pl hqne
    have hqv : Place.is_valid (Place.of_line_of_col (Move.ol m) (Move.dc m)) = true := by
      simp [Place.is_valid, hq0, hq64]
    have hqt2 : (b1._squares (Place.of_line_of_col (Move.ol m) (Move.dc m))).type
        = PieceType.PAWN := by rw [sq_type_of_pl hq0 hq64]; exact hqt
    have hqne2 : (b1._squares (Place.of_line_of_col (Move.ol m) (Move.dc m))).type
        ≠ PieceType.CLEAR := by rw [hqt2]; decide
    obtain ⟨b2, he, hcb2, hpos, hkey, hscore⟩ := erase_piece_ok Z hc hq0 hq64 hqne2
    obtain ⟨e1, e2, e3, _, _, _⟩ := scalars_of_pos hpos
    rw [if_pos hcond, if_pos hcond, if_pos ⟨hqv, hqt2⟩, he]
    refine ⟨_, _, rfl, hcb2, hpos, ?_, hashInv_of_keyInv Z hkey e1 e2 e3, hscore⟩
    simp [MoveInfo.forget_id, position_pl_valid b1 hq0 hq64]
  · rw [if_neg hcond, if_neg hcond]
    exact ⟨_, _, rfl, hc, rfl, rfl, id, id⟩

theorem move_promote_ok (Z : ZobristTables) {b3 : Board} (hc : Consistent b3) {m : Move}
    (type : PieceType) (hd : 0 ≤ m.d ∧ m.d < 64)
    (hp : Move.promotion m ≠ PieceType.CLEAR →
      type = PieceType.PAWN ∧ (b3.position.pl m.d).1 ≠ PieceType.CLEAR ∧
      Move.promotion m ≠ (b3.position.pl m.d).1 ∧
      b3.position.len (b3.position.pl m.d).2 (Move.promotion m) < PieceVector.cap) :
    ∃ b4, Board.move_promote Z b3 m type = some b4 ∧ Consistent b4 ∧
      b4.position = Position.move_promote b3.position m ∧
      (HashInv Z b3 → HashInv Z b4) ∧ (ScoreInv b3 → ScoreInv b4) := by
  unfold Board.move_promote Position.move_promote
  by_cases hpr : Move.promotion m = PieceType.CLEAR
  · simp only [hpr, ne_eq, not_true_eq_false, if_false]
    exact ⟨_, rfl, hc, rfl, id, id⟩
  · obtain ⟨h1, h2, h3, h4⟩ := hp hpr
    rw [position_pl_valid b3 hd.1 hd.2] at h2 h3 h4
    obtain ⟨b4, he, hcb4, hpos, hkey, hscore⟩ :=
      set_piece_type_ok Z hc hd.1 hd.2 h2 hpr h3 h4
    obtain ⟨e1, e2, e3, _, _, _⟩ := scalars_of_pos hpos
    simp only [hpr, ne_eq, not_false_eq_true, if_true, h1, not_true_eq_false, if_false, he]
    exact ⟨_, rfl, hcb4, hpos, hashInv_of_keyInv Z hkey e1 e2 e3, hscore⟩

theorem xor_xor_cancel_right' (a b : Nat) : (a ^^^ b) ^^^ b = a := by
  rw [Nat.xor_assoc, Nat.xor_self, Nat.xor_zero]

theorem invalid_not_valid : Place.is_valid Place.invalid = false := by decide

theorem mid_valid {o d : Int} (ho : 0 ≤ o ∧ o < 64) (hd : 0 ≤ d ∧ d < 64) :
    Place.is_valid (Place.of_int ((o + d) / 2)) = true := by
  have h1 : 0 ≤ (o + d) / 2 := by omega
  have h2 : (o + d) / 2 < 64 := by omega
  simp only [Place.of_int, toInt8, Place.is_valid]
  exact decide_eq_true ⟨by omega, by omega⟩

theorem move_mark_passan_ok (Z : ZobristTables) {b4 : Board} (hc : Consistent b4) (m : Move)
    (ho : 0 ≤ m.o ∧ m.o < 64) (hd : 0 ≤ m.d ∧ m.d < 64)
    (mi : MoveInfo) (type : PieceType) :
    Consistent (Board.move_mark_passan Z (b4, mi) m type).1 ∧
      (Board.move_mark_passan Z (b4, mi) m type).1.position
        = (Position.move_mark_passan (b4.position, mi.forget_id) m type).1 ∧
      (Board.move_mark_passan Z (b4, mi) m type).2.forget_id
        = (Position.move_mark_passan (b4.position, mi.forget_id) m type).2 ∧
      (HashInv Z b4 → HashInv Z (Board.move_mark_passan Z (b4, mi) m type).1) ∧
      (ScoreInv b4 → ScoreInv (Board.move_mark_passan Z (b4, mi) m type).1) := by
  unfold Board.move_mark_passan Position.move_mark_passan
  have hmid := mid_valid ho hd
  by_cases hv : Place.is_valid b4.passan_place = true <;>
  by_cases hcond : type = PieceType.PAWN ∧ (m.d - m.o = 16 ∨ m.d - m.o = -16)
  all_goals
    first
      | rw [if_pos hcond, if_pos hcond]
      | rw [if_neg hcond, if_neg hcond]
    simp only [hv, if_true, if_false, Bool.false_eq_true, not_false_eq_true]
    refine ⟨consistent_congr hc rfl rfl rfl rfl, rfl, rfl, ?_, fun h => scoreInv_congr h rfl rfl⟩
    intro h
    unfold HashInv zobrist at h ⊢
    simp only [Board.position] at h ⊢
    simp only [h, hv, hmid, invalid_not_valid, if_true, if_false, Bool.false_eq_true,
      xor_xor_cancel_right', Nat.xor_zero]

theorem hashInvF_self (Z : ZobristTables) (b : Board) :
    HashInvF Z b b.castle_flags ↔ HashInv Z b := Iff.rfl

theorem hashInvF_flags (Z : ZobristTables) {b : Board} {f : CastleFlags} (g : CastleFlags)
    (h : HashInvF Z b f) : HashInvF Z { b with castle_flags := g } f := h

theorem hashInvF_close (Z : ZobristTables) {b : Board} {f : CastleFlags}
    (h : HashInvF Z b f) :
    HashInv Z { b with _hash_key := b._hash_key ^^^
      (CastleFlags.hash Z b.castle_flags ^^^ CastleFlags.hash Z f) } := by
  unfold HashInvF zobrist at h
  unfold HashInv zobrist
  simp only [Board.position, CastleFlags.hash] at h ⊢
  rw [h]
  generalize pieces_key Z _ = a
  generalize (if b.turn = Color.Black then Z.hash_code_turn else 0) = t
  generalize (if Place.is_valid b.passan_place = true then Z.passant_hash b.passan_place
    else 0) = e
  have : Z.castle_hash f ^^^ Z.castle_hash f = 0 := Nat.xor_self _
  calc a ^^^ t ^^^ Z.castle_hash f ^^^ e ^^^ (Z.castle_hash b.castle_flags ^^^ Z.castle_hash f)
      = a ^^^ t ^^^ Z.castle_hash b.castle_flags ^^^ e
          ^^^ (Z.castle_hash f ^^^ Z.castle_hash f) := by ac_rfl
    _ = a ^^^ t ^^^ Z.castle_hash b.castle_flags ^^^ e := by rw [this, Nat.xor_zero]

theorem hashInvF_of_keyInv (Z : ZobristTables) {b b' : Board} {f : CastleFlags}
    (hk : ∀ k, KeyInv Z b k → KeyInv Z b' k) (h3 : b'.position.turn = b.position.turn)
    (h5 : b'.position.passan_place = b.position.passan_place) (hs : HashInvF Z b f) :
    HashInvF Z b' f := by
  have e : ∀ (c : Board), HashInvF Z c f
      ↔ KeyInv Z c (scalar_key Z { c.position with castle_flags := f }) := by
    intro c
    unfold HashInvF KeyInv zobrist scalar_key
    constructor
    · intro h; rw [h]; simp only []; ac_rfl
    · intro h; rw [h]; simp only []; ac_rfl
  rw [e] at hs ⊢
  have : scalar_key Z { b'.position with castle_flags := f }
      = scalar_key Z { b.position with castle_flags := f } :=
    scalar_key_congr Z h3 rfl h5
  rw [this]
  exact hk _ hs

theorem pos_ext_of {b1 : Board} {a a' : Position} (hpos : b1.position = a)
    (h : a = a') : b1.position = a' := hpos.trans h

theorem move_castle_ok (Z : ZobristTables) {b : Board} (hc : Consistent b) (m : Move)
    (mi : MoveInfo) (type : PieceType)
    (hk : type = PieceType.KING → Place.col m.d - Place.col m.o = 2 →
      (0 ≤ Place.right m.d ∧ Place.right m.d < 64) ∧ (0 ≤ Place.left m.d ∧ Place.left m.d < 64) ∧
      Place.right m.d ≠ Place.left m.d ∧
      (b.position.pl (Place.right m.d)).1 ≠ PieceType.CLEAR ∧
      (b.position.pl (Place.left m.d)).1 = PieceType.CLEAR)
    (hq : type = PieceType.KING → Place.col m.d - Place.col m.o = -2 →
      (0 ≤ Place.left (Place.left m.d) ∧ Place.left (Place.left m.d) < 64) ∧
      (0 ≤ Place.right m.d ∧ Place.right m.d < 64) ∧
      Place.left (Place.left m.d) ≠ Place.right m.d ∧
      (b.position.pl (Place.left (Place.left m.d))).1 ≠ PieceType.CLEAR ∧
      (b.position.pl (Place.right m.d)).1 = PieceType.CLEAR) :
    ∃ b6 mi6, Board.move_castle Z (b, mi) m type = some (b6, mi6) ∧ Consistent b6 ∧
      b6.position = (Position.move_castle (b.position, mi.forget_id) m type).1 ∧
      mi6.forget_id = (Position.move_castle (b.position, mi.forget_id) m type).2 ∧
      mi6.castle_flags = b.castle_flags ∧
      (HashInv Z b → HashInvF Z b6 b.castle_flags) ∧ (ScoreInv b → ScoreInv b6) := by
  unfold Board.move_castle Position.move_castle
  have ecf : b.position.castle_flags = b.castle_flags := rfl
  have etn : b.position.turn = b.turn := rfl
  by_cases hking : type = PieceType.KING
  · simp only [hking, if_true]
    -- the rook of a castle
    have rook : ∀ (ro rd : Int), (0 ≤ ro ∧ ro < 64) → (0 ≤ rd ∧ rd < 64) → ro ≠ rd →
        (b.position.pl ro).1 ≠ PieceType.CLEAR → (b.position.pl rd).1 = PieceType.CLEAR →
        ∃ b1, Board.move_piece Z b ⟨ro, rd, PieceType.CLEAR⟩ = some b1 ∧ Consistent b1 ∧
          b1.position = b.position.move_piece ro rd ∧
          (HashInv Z b → HashInvF Z b1 b.castle_flags) ∧ (ScoreInv b → ScoreInv b1) := by
      intro ro rd hr hl hne hocc hemp
      rw [← sq_type_of_pl hr.1 hr.2] at hocc
      rw [← sq_type_of_pl hl.1 hl.2] at hemp
      obtain ⟨b1, he, hcb1, hpos, hkey, hscore⟩ :=
        move_piece_ok Z hc hr.1 hr.2 hl.1 hl.2 hne hocc hemp PieceType.CLEAR
      obtain ⟨e1, e2, e3, _, _, _⟩ := scalars_of_pos hpos
      exact ⟨b1, he, hcb1, hpos,
        fun h => hashInvF_of_keyInv Z hkey e1 e3 ((hashInvF_self Z b).2 h), hscore⟩
    by_cases h2 : Place.col m.d - Place.col m.o = 2
    · obtain ⟨hr, hl, hne, hocc, hemp⟩ := hk hking h2
      obtain ⟨b1, he, hcb1, hpos, hkey, hscore⟩ := rook _ _ hr hl hne hocc hemp
      obtain ⟨e1, e2, e3, _, _, _⟩ := scalars_of_pos hpos
      simp only [h2, if_true, he, Option.map_some', true_or]
      refine ⟨_, _, rfl, consistent_congr hcb1 rfl rfl rfl rfl, ?_, rfl, rfl,
        fun h => hashInvF_flags Z _ (hkey h), fun h => scoreInv_congr (hscore h) rfl rfl⟩
      show Board.position { b1 with castle_flags := _ } = _
      have : (Board.position { b1 with
          castle_flags := CastleFlags.clear b1.castle_flags b1.turn })
          = { b1.position with
              castle_flags := CastleFlags.clear b1.position.castle_flags b1.position.turn } :=
        rfl
      rw [this, hpos]
    · by_cases h3 : Place.col m.d - Place.col m.o = -2
      · obtain ⟨hr, hl, hne, hocc, hemp⟩ := hq hking h3
        obtain ⟨b1, he, hcb1, hpos, hkey, hscore⟩ := rook _ _ hr hl hne hocc hemp
        obtain ⟨e1, e2, e3, _, _, _⟩ := scalars_of_pos hpos
        simp only [if_neg h2, if_pos h3, he, Option.map_some', true_or, if_true]
        refine ⟨_, _, rfl, consistent_congr hcb1 rfl rfl rfl rfl, ?_, rfl, rfl,
          fun h => hashInvF_flags Z _ (hkey h), fun h => scoreInv_congr (hscore h) rfl rfl⟩
        show Board.position { b1 with castle_flags := _ } = _
        have : (Board.position { b1 with
            castle_flags := CastleFlags.clear b1.castle_flags b1.turn })
            = { b1.position with
                castle_flags := CastleFlags.clear b1.position.castle_flags b1.position.turn } :=
          rfl
        rw [this, hpos]
      · simp only [if_neg h2, if_neg h3, Option.map_some', Bool.false_eq_true, false_or, ecf,
          etn]
        by_cases hcan : CastleFlags.can_castle b.castle_flags b.turn = true
        · rw [if_pos hcan, if_pos hcan]
          exact ⟨_, _, rfl, consistent_congr hc rfl rfl rfl rfl, rfl, rfl, rfl,
            fun h => hashInvF_flags Z _ ((hashInvF_self Z b).2 h),
            fun h => scoreInv_congr h rfl rfl⟩
        · rw [if_neg hcan, if_neg hcan]
          exact ⟨_, _, rfl, hc, rfl, rfl, rfl, fun h => (hashInvF_self Z b).2 h, id⟩
  · simp only [hking, if_false, ecf, etn]
    by_cases hrook : type = PieceType.ROOK ∧ CastleFlags.can_castle b.castle_flags b.turn = true
    · rw [if_pos hrook, if_pos hrook]
      by_cases h0 : Place.col m.o = 0
      · rw [if_pos h0, if_pos h0]
        exact ⟨_, _, rfl, consistent_congr hc rfl rfl rfl rfl, rfl, rfl, rfl,
          fun h => hashInvF_flags Z _ ((hashInvF_self Z b).2 h),
          fun h => scoreInv_congr h rfl rfl⟩
      · rw [if_neg h0, if_neg h0]
        by_cases h7 : Place.col m.o = 7
        · rw [if_pos h7, if_pos h7]
          exact ⟨_, _, rfl, consistent_congr hc rfl rfl rfl rfl, rfl, rfl, rfl,
            fun h => hashInvF_flags Z _ ((hashInvF_self Z b).2 h),
            fun h => scoreInv_congr h rfl rfl⟩
        · rw [if_neg h7, if_neg h7]
          exact ⟨_, _, rfl, hc, rfl, rfl, rfl, fun h => (hashInvF_self Z b).2 h, id⟩
    · rw [if_neg hrook, if_neg hrook]
      exact ⟨_, _, rfl, hc, rfl, rfl, rfl, fun h => (hashInvF_self Z b).2 h, id⟩

theorem move_rook_taken_ok (Z : ZobristTables) {b : Board} (hc : Consistent b) (m : Move)
    (mi : MoveInfo) (taking_type : PieceType) (op : Color) :
    Consistent (Board.move_rook_taken Z (b, mi) m taking_type op).1 ∧
      (Board.move_rook_taken Z (b, mi) m taking_type op).1.position
        = (Position.move_rook_taken (b.position, mi.forget_id) m taking_type op).1 ∧
      (Board.move_rook_taken Z (b, mi) m taking_type op).2.forget_id
        = (Position.move_rook_taken (b.position, mi.forget_id) m taking_type op).2 ∧
      (HashInvF Z b mi.castle_flags →
        HashInv Z (Board.move_rook_taken Z (b, mi) m taking_type op).1) ∧
      (ScoreInv b → ScoreInv (Board.move_rook_taken Z (b, mi) m taking_type op).1) := by
  have gen : ∀ g : CastleFlags,
      Consistent ({ ({ b with castle_flags := g } : Board) with
          _hash_key := b._hash_key ^^^ (CastleFlags.hash Z g ^^^ CastleFlags.hash Z
            mi.castle_flags) } : Board) ∧
        (HashInvF Z b mi.castle_flags →
          HashInv Z ({ ({ b with castle_flags := g } : Board) with
            _hash_key := b._hash_key ^^^ (CastleFlags.hash Z g ^^^ CastleFlags.hash Z
              mi.castle_flags) } : Board)) ∧
        (ScoreInv b → ScoreInv ({ ({ b with castle_flags := g } : Board) with
          _hash_key := b._hash_key ^^^ (CastleFlags.hash Z g ^^^ CastleFlags.hash Z
            mi.castle_flags) } : Board)) := by
    intro g
    exact ⟨consistent_congr hc rfl rfl rfl rfl,
      fun h => hashInvF_close Z (hashInvF_flags Z g h), fun h => scoreInv_congr h rfl rfl⟩
  have gen0 := gen b.castle_flags
  unfold Board.move_rook_taken Position.move_rook_taken
  by_cases h1 : taking_type = PieceType.ROOK ∧ (Place.line m.d = 0 ∨ Place.line m.d = 7)
  · by_cases h0 : Place.col m.d = 0
    · simp only [if_pos h1, if_pos h0]
      exact ⟨(gen (CastleFlags.clear_queen b.castle_flags op)).1, by trivial, by trivial, (gen (CastleFlags.clear_queen b.castle_flags op)).2.1, (gen (CastleFlags.clear_queen b.castle_flags op)).2.2⟩
    · by_cases h7 : Place.col m.d = 7
      · simp only [if_pos h1, if_neg h0, if_pos h7]
        exact ⟨(gen (CastleFlags.clear_king b.castle_flags op)).1, by trivial, by trivial, (gen (CastleFlags.clear_king b.castle_flags op)).2.1, (gen (CastleFlags.clear_king b.castle_flags op)).2.2⟩
      · simp only [if_pos h1, if_neg h0, if_neg h7]
        exact ⟨gen0.1, by trivial, by trivial, gen0.2.1, gen0.2.2⟩
  · simp only [if_neg h1]
    exact ⟨gen0.1, by trivial, by trivial, gen0.2.1, gen0.2.2⟩

theorem oponent_ne_none {c : Color} (h : c ≠ Color.None) : oponent c ≠ Color.None := by
  cases c <;> simp_all [oponent]

theorem turn_key_flip (Z : ZobristTables) {c : Color} (h : c ≠ Color.None) :
    (if oponent c = Color.Black then Z.hash_code_turn else 0)
      = (if c = Color.Black then Z.hash_code_turn else 0) ^^^ Z.hash_code_turn := by
  cases c <;> simp_all [oponent]

theorem move_finish_ok (Z : ZobristTables) {b : Board} (hc : Consistent b) (m : Move)
    (mi : MoveInfo) (type : PieceType) (ht : b.turn ≠ Color.None)
    (hd : 0 ≤ m.d ∧ m.d < 64)
    (hok : (b.position.pl m.d).1 = type ∨ Move.promotion m = (b.position.pl m.d).1) :
    ∃ b7, Board.move_finish Z (b, mi) m type (oponent b.turn) = some (b7, mi) ∧ Consistent b7 ∧
      b7.position = { b.position with turn := oponent b.turn } ∧
      (HashInv Z b → HashInv Z b7) ∧ (ScoreInv b → ScoreInv b7) := by
  unfold Board.move_finish
  rw [position_pl_valid b hd.1 hd.2] at hok
  have hcond : ¬ ((b._squares m.d).type ≠ type ∧ Move.promotion m ≠ (b._squares m.d).type) := by
    intro h
    rcases hok with h1 | h1
    · exact h.1 h1
    · exact h.2 h1
  simp only [if_neg hcond]
  refine ⟨_, rfl, consistent_congr hc rfl rfl rfl rfl, rfl, ?_, fun h => scoreInv_congr h rfl rfl⟩
  intro h
  unfold HashInv zobrist at h ⊢
  simp only [Board.position] at h ⊢
  rw [h, turn_key_flip Z ht]
  ac_rfl

theorem toInt8_eq {x : Int} (h1 : -128 ≤ x) (h2 : x < 128) : toInt8 x = x := by
  unfold toInt8; omega

theorem olc_eq_aux : ∀ l : Fin 8, ∀ c : Fin 8,
    Place.of_line_of_col (l.val : Int) (c.val : Int) = (l.val : Int) * 8 + (c.val : Int) := by
  decide

theorem of_line_of_col_eq {l c : Int} (hl0 : 0 ≤ l) (hl : l < 8) (hc0 : 0 ≤ c) (hc : c < 8) :
    Place.of_line_of_col l c = l * 8 + c := by
  have h := olc_eq_aux ⟨l.toNat, by omega⟩ ⟨c.toNat, by omega⟩
  simp only [] at h
  rwa [Int.toNat_of_nonneg hl0, Int.toNat_of_nonneg hc0] at h

theorem is_set_eq {b : Nat} {p : Int} (h0 : 0 ≤ p) (h : p < 64) :
    BitBoard.is_set b p = b.testBit p.toNat := by
  unfold BitBoard.is_set
  rw [bit_eq h0 h]
  rw [Nat.and_two_pow]
  cases hb : b.testBit p.toNat <;> simp [hb]

theorem testBit_compl {b : Nat} (i : Nat) (hi : i < 64) :
    (BitBoard.compl b).testBit i = !(b.testBit i) := by
  unfold BitBoard.compl mask64
  rw [Nat.testBit_xor, Nat.testBit_two_pow_sub_one]
  simp [hi]

theorem Position.move_capture_facts (a : Position) (m : Move) (k : Nat) :
    (a.move_capture m k).1.pl
        = (if (a.pl m.d).1 ≠ PieceType.CLEAR
            then Function.update a.pl m.d (PieceType.CLEAR, Color.None) else a.pl) ∧
      (a.move_capture m k).1.len
        = (if (a.pl m.d).1 ≠ PieceType.CLEAR
            then Position.bump a.len (a.pl m.d).2 (a.pl m.d).1 0 1 else a.len) ∧
      (a.move_capture m k).1.turn = a.turn ∧
      (a.move_capture m k).1.castle_flags = a.castle_flags ∧
      (a.move_capture m k).1.passan_place = a.passan_place ∧
      (a.move_capture m k).1.history = a.history ++ [k] ∧
      (a.move_capture m k).1._base_ply = a._base_ply ∧
      (a.move_capture m k).2.capturou = decide ((a.pl m.d).1 ≠ PieceType.CLEAR) ∧
      (a.move_capture m k).2.last_irreversible_move = a._last_irreversible_move ∧
      ((a.move_capture m k).2.capturou = true →
        (a.move_capture m k).2.p = ⟨0, (a.pl m.d).1, (a.pl m.d).2⟩) := by
  unfold Position.move_capture
  by_cases h : (a.pl m.d).1 ≠ PieceType.CLEAR
  · by_cases h2 : (a.pl m.o).1 = PieceType.PAWN <;>
      simp [h, h2, Position.erase, MoveInfo.new]
  · by_cases h2 : (a.pl m.o).1 = PieceType.PAWN <;>
      simp [h, h2, Position.erase, MoveInfo.new]

theorem Position.move_en_passan_facts (s : Position × MoveInfo) (m : Move) (type : PieceType) :
    (Position.move_en_passan s m type).1.pl
        = (if type = PieceType.PAWN ∧ s.2.capturou = false ∧ Move.dc m ≠ Move.oc m
            then Function.update s.1.pl (Place.of_line_of_col (Move.ol m) (Move.dc m))
              (PieceType.CLEAR, Color.None) else s.1.pl) ∧
      (Position.move_en_passan s m type).1.len
        = (if type = PieceType.PAWN ∧ s.2.capturou = false ∧ Move.dc m ≠ Move.oc m
            then Position.bump s.1.len
              (s.1.pl (Place.of_line_of_col (Move.ol m) (Move.dc m))).2
              (s.1.pl (Place.of_line_of_col (Move.ol m) (Move.dc m))).1 0 1 else s.1.len) ∧
      (Position.move_en_passan s m type).1.turn = s.1.turn ∧
      (Position.move_en_passan s m type).1.castle_flags = s.1.castle_flags ∧
      (Position.move_en_passan s m type).1.passan_place = s.1.passan_place ∧
      (Position.move_en_passan s m type).1.history = s.1.history ∧
      (Position.move_en_passan s m type).2.capturou = s.2.capturou := by
  unfold Position.move_en_passan
  by_cases h : type = PieceType.PAWN ∧ s.2.capturou = false ∧ Move.dc m ≠ Move.oc m
  · simp only [if_pos h, Position.erase]
    simp
  · simp only [if_neg h]
    simp

theorem place_right_eq {d : Int} (h : 0 ≤ d ∧ d < 64) : Place.right d = d + 1 := by
  unfold Place.right; exact toInt8_eq (by omega) (by omega)

theorem place_left_eq {d : Int} (h : 0 ≤ d ∧ d < 65) : Place.left d = d - 1 := by
  unfold Place.left; exact toInt8_eq (by omega) (by omega)

theorem ep_place_eq {o : Int} (d : Int) (ho : 0 ≤ o ∧ o < 64) :
    Place.of_line_of_col (Place.line o) (Place.col d) = o / 8 * 8 + d % 8 := by
  unfold Place.line Place.col
  exact of_line_of_col_eq (by omega) (by omega) (by omega) (by omega)

/-- The first three parts of `Board::move`: capture, en passant, the piece itself. -/
theorem move_steps3 (Z : ZobristTables) {b : Board} (hc : Consistent b) {m : Move}
    (hm : b.position.MoveOk m) :
    ∃ b1 mi1 b2 mi2 b3, Board.move_capture Z b m = some (b1, mi1) ∧
      Board.move_en_passan Z (b1, mi1) m (b._squares m.o).type = some (b2, mi2) ∧
      Board.move_piece Z b2 m = some b3 ∧ Consistent b3 ∧
      b3.position = ((Position.move_en_passan (b.position.move_capture m b._hash_key) m
        (b.position.pl m.o).1).1.move_piece m.o m.d) ∧
      mi2.forget_id = (Position.move_en_passan (b.position.move_capture m b._hash_key) m
        (b.position.pl m.o).1).2 ∧
      (HashInv Z b → HashInv Z b3) ∧ (ScoreInv b → ScoreInv b3) := by
  have ho := hm.o_valid
  have hd := hm.d_valid
  have hty : (b._squares m.o).type = (b.position.pl m.o).1 := sq_type_of_pl ho.1 ho.2
  obtain ⟨b1, mi1, e1, c1, p1, f1, hh1, hs1⟩ := move_capture_ok Z hc hm
  obtain ⟨g1, g2, g3, g4, g5, g6, g7, g8, g9, g10⟩ :=
    Position.move_capture_facts b.position m b._hash_key
  have hcap1 : mi1.capturou = (b.position.move_capture m b._hash_key).2.capturou := by
    rw [← f1]; rfl
  have hq : (b.position.pl m.o).1 = PieceType.PAWN → mi1.capturou = false →
      Move.dc m ≠ Move.oc m →
      (b1.position.pl (Place.of_line_of_col (Move.ol m) (Move.dc m))).1 = PieceType.PAWN := by
    intro h1 h2 h3
    rw [hcap1, g8] at h2
    have h4 : (b.position.pl m.d).1 = PieceType.CLEAR := by simpa using h2
    rw [p1, g1, if_neg (by simpa using h4)]
    exact hm.passan h1 h4 h3
  obtain ⟨b2, mi2, e2, c2, p2, f2, hh2, hs2⟩ :=
    move_en_passan_ok Z c1 (m := m) mi1 (b.position.pl m.o).1 hq
  obtain ⟨k1, k2, k3, k4, k5, k6, k7⟩ :=
    Position.move_en_passan_facts (b1.position, mi1.forget_id) m (b.position.pl m.o).1
  -- the squares of the move after the first two parts
  have hep : Move.dc m ≠ Move.oc m → Place.of_line_of_col (Move.ol m) (Move.dc m) ≠ m.o := by
    intro h3 h4
    unfold Move.ol Move.dc at h4
    rw [ep_place_eq m.d ho] at h4
    unfold Move.dc Move.oc Place.col at h3
    omega
  have ho2 : b2.position.pl m.o = b.position.pl m.o := by
    rw [p2, k1]
    have h1o : b1.position.pl m.o = b.position.pl m.o := by
      rw [p1, g1]
      split_ifs
      · exact Function.update_noteq hm.o_ne_d _ _
      · rfl
    split_ifs with h
    · rw [Function.update_noteq (hep h.2.2).symm]; exact h1o
    · exact h1o
  have hd2 : (b2.position.pl m.d).1 = PieceType.CLEAR := by
    rw [p2, k1]
    have h1d : (b1.position.pl m.d).1 = PieceType.CLEAR := by
      rw [p1, g1]
      split_ifs with h
      · rw [Function.update_same]
      · simpa using h
    split_ifs with h
    · by_cases hx : m.d = Place.of_line_of_col (Move.ol m) (Move.dc m)
      · rw [← hx, Function.update_same]
      · rw [Function.update_noteq hx]; exact h1d
    · exact h1d
  have ho2' : (b2._squares m.o).type ≠ PieceType.CLEAR := by
    rw [sq_type_of_pl ho.1 ho.2, ho2]; exact hm.own.1
  have hd2' : (b2._squares m.d).type = PieceType.CLEAR := by
    rw [sq_type_of_pl hd.1 hd.2]; exact hd2
  obtain ⟨b3, e3, c3, p3, kf3, hs3⟩ :=
    move_piece_ok Z c2 ho.1 ho.2 hd.1 hd.2 hm.o_ne_d ho2' hd2' m._promotion
  refine ⟨b1, mi1, b2, mi2, b3, e1, ?_, e3, c3, ?_, ?_, ?_, fun h => hs3 (hs2 (hs1 h))⟩
  · rw [hty]; exact e2
  · rw [p3, p2, p1, f1]
  · rw [f2, p1, f1]
  · intro h
    exact hashInv_of_keyInv Z kf3 (by rw [p3]; rfl) (by rw [p3]; rfl) (by rw [p3]; rfl)
      (hh2 (hh1 h))

theorem bump_le (len : Color → PieceType → Nat) (c : Color) (t : PieceType)
    (c' : Color) (t' : PieceType) : Position.bump len c t 0 1 c' t' ≤ len c' t' := by
  rw [bump_apply]
  split_ifs with h
  · obtain ⟨rfl, rfl⟩ := h; omega
  · exact Nat.le_refl _

theorem Position.move_mark_passan_facts (s : Position × MoveInfo) (m : Move)
    (type : PieceType) :
    (Position.move_mark_passan s m type).1.pl = s.1.pl ∧
      (Position.move_mark_passan s m type).1.len = s.1.len ∧
      (Position.move_mark_passan s m type).1.turn = s.1.turn ∧
      (Position.move_mark_passan s m type).1.castle_flags = s.1.castle_flags ∧
      (Position.move_mark_passan s m type).1.history = s.1.history := by
  unfold Position.move_mark_passan
  split_ifs <;> simp

theorem Position.move_castle_pl_d (s : Position × MoveInfo) (m : Move) (type : PieceType)
    (hd : 0 ≤ m.d ∧ m.d < 64) :
    (Position.move_castle s m type).1.pl m.d = s.1.pl m.d := by
  have hr : Place.right m.d = m.d + 1 := place_right_eq hd
  have hl : Place.left m.d = m.d - 1 := place_left_eq ⟨hd.1, by omega⟩
  have hll : Place.left (m.d - 1) = m.d - 2 := by
    unfold Place.left; rw [toInt8_eq (by omega) (by omega)]; omega
  unfold Position.move_castle
  simp only [hr, hl, hll, Position.move_piece]
  split_ifs <;> simp <;>
    (repeat rw [Function.update_noteq (by omega)])

theorem Position.move_rook_taken_pl (x : Position × MoveInfo) (m : Move) (t : PieceType)
    (op : Color) :
    (Position.move_rook_taken x m t op).1.pl = x.1.pl ∧
      (Position.move_rook_taken x m t op).1.turn = x.1.turn := by
  unfold Position.move_rook_taken
  split_ifs <;> simp

theorem Position.steps3_facts (a : Position) (m : Move) (k : Nat) (ho : 0 ≤ m.o ∧ m.o < 64)
    (hod : m.o ≠ m.d) :
    (a.steps3 m k).pl m.d = a.pl m.o ∧
      (∀ c t, (a.steps3 m k).len c t ≤ a.len c t) ∧
      ((a.pl m.o).1 ≠ PieceType.PAWN → ∀ q, q ≠ m.o → q ≠ m.d → (a.steps3 m k).pl q = a.pl q) ∧
      (a.steps3 m k).turn = a.turn ∧
      (a.steps3 m k).castle_flags = a.castle_flags ∧
      (a.steps3 m k).history = a.history ++ [k] := by
  obtain ⟨g1, g2, g3, g4, g5, g6, g7, g8, g9, g10⟩ := Position.move_capture_facts a m k
  obtain ⟨k1, k2, k3, k4, k5, k6, k7⟩ :=
    Position.move_en_passan_facts (a.move_capture m k) m (a.pl m.o).1
  have hep : Move.dc m ≠ Move.oc m → Place.of_line_of_col (Move.ol m) (Move.dc m) ≠ m.o := by
    intro h3 h4
    unfold Move.ol Move.dc at h4
    rw [ep_place_eq m.d ho] at h4
    unfold Move.dc Move.oc Place.col at h3
    omega
  have h1o : (a.move_capture m k).1.pl m.o = a.pl m.o := by
    rw [g1]
    split_ifs
    · exact Function.update_noteq hod _ _
    · rfl
  have h2o : (Position.move_en_passan (a.move_capture m k) m (a.pl m.o).1).1.pl m.o
      = a.pl m.o := by
    rw [k1]
    split_ifs with h
    · rw [Function.update_noteq (hep h.2.2).symm]; exact h1o
    · exact h1o
  refine ⟨?_, ?_, ?_, ?_, ?_, ?_⟩
  · unfold Position.steps3 Position.move_piece
    simp only []
    rw [Function.update_noteq (Ne.symm hod), Function.update_same]
    exact h2o
  · intro c t
    unfold Position.steps3 Position.move_piece
    simp only []
    rw [k2]
    have h1 : (a.move_capture m k).1.len c t ≤ a.len c t := by
      rw [g2]; split_ifs
      · exact bump_le _ _ _ _ _
      · exact Nat.le_refl _
    split_ifs
    · exact Nat.le_trans (bump_le _ _ _ _ _) h1
    · exact h1
  · intro hp q hqo hqd
    unfold Position.steps3 Position.move_piece
    simp only []
    rw [Function.update_noteq hqo, Function.update_noteq hqd, k1,
      if_neg (fun h => hp h.1), g1]
    split_ifs
    · exact Function.update_noteq hqd _ _
    · rfl
  · unfold Position.steps3 Position.move_piece
    simp only []
    rw [k3, g3]
  · unfold Position.steps3 Position.move_piece
    simp only []
    rw [k4, g4]
  · unfold Position.steps3 Position.move_piece
    simp only []
    rw [k6, g6]

theorem Position.move_castle_facts (s : Position × MoveInfo) (m : Move) (type : PieceType) :
    (Position.move_castle s m type).1.turn = s.1.turn ∧
      (Position.move_castle s m type).1.len = s.1.len ∧
      (Position.move_castle s m type).1.passan_place = s.1.passan_place ∧
      (Position.move_castle s m type).1.history = s.1.history ∧
      (Position.move_castle s m type).2.castle_flags = s.1.castle_flags := by
  unfold Position.move_castle Position.move_piece
  simp only []
  split_ifs <;> simp

theorem Position.move_eq (a : Position) (m : Move) (k : Nat) :
    a.move m k = ({ (a.steps6 m k).1 with turn := oponent a.turn }, (a.steps6 m k).2) := rfl

theorem steps3_eq (a : Position) (m : Move) (k : Nat) :
    (Position.move_en_passan (a.move_capture m k) m (a.pl m.o).1).1.move_piece m.o m.d
      = a.steps3 m k := rfl

/-- The method `Board::move` on a consistent board, for a move that is `MoveOk`: it returns, the
board it leaves is consistent, and it does to the position what `Position.move` says. -/
theorem move_ok (Z : ZobristTables) {b : Board} (hc : Consistent b) {m : Move}
    (hm : b.position.MoveOk m) :
    ∃ b' mi, Board.move Z b m = some (b', mi) ∧ Consistent b' ∧
      b'.position = (b.position.move m b._hash_key).1 ∧
      mi.forget_id = (b.position.move m b._hash_key).2 ∧
      (HashInv Z b → HashInv Z b') ∧ (ScoreInv b → ScoreInv b') := by
  have ho := hm.o_valid
  have hd := hm.d_valid
  have hty : (b._squares m.o).type = (b.position.pl m.o).1 := sq_type_of_pl ho.1 ho.2
  have htd : (b._squares m.d).type = (b.position.pl m.d).1 := sq_type_of_pl hd.1 hd.2
  obtain ⟨b1, mi1, b2, mi2, b3, e1, e2, e3, c3, p3, f2, hh3, hs3⟩ := move_steps3 Z hc hm
  rw [steps3_eq] at p3
  obtain ⟨s1, s2, s3, s4, s5, s6⟩ :=
    Position.steps3_facts b.position m b._hash_key ho hm.o_ne_d
  -- promotion
  have hp : Move.promotion m ≠ PieceType.CLEAR →
      (b.position.pl m.o).1 = PieceType.PAWN ∧ (b3.position.pl m.d).1 ≠ PieceType.CLEAR ∧
      Move.promotion m ≠ (b3.position.pl m.d).1 ∧
      b3.position.len (b3.position.pl m.d).2 (Move.promotion m) < PieceVector.cap := by
    intro h
    obtain ⟨q1, q2, q6⟩ := hm.promo h
    rw [p3, s1]
    refine ⟨q1, hm.own.1, ?_, ?_⟩
    · rw [q1]; exact q2
    · rw [hm.own.2]; exact Nat.lt_of_le_of_lt (s2 _ _) q6
  obtain ⟨b4, e4, c4, p4, hh4, hs4⟩ := move_promote_ok Z c3 (m := m) (b.position.pl m.o).1 hd hp
  have h4pl : ∀ q, q ≠ m.d → b4.position.pl q = (b.position.steps3 m b._hash_key).pl q := by
    intro q hq
    rw [p4, p3]
    unfold Position.move_promote
    split_ifs
    · unfold Position.set_type
      simp only []
      exact Function.update_noteq hq _ _
    · rfl
  have h4d : (b4.position.pl m.d).1 = (b.position.pl m.o).1 ∨
      Move.promotion m = (b4.position.pl m.d).1 := by
    rw [p4, p3]
    unfold Position.move_promote
    split_ifs
    · right
      unfold Position.set_type
      simp only []
      rw [Function.update_same]
    · left
      rw [s1]
  have h4t : b4.position.turn = b.position.turn := by
    rw [p4, p3]
    unfold Position.move_promote
    split_ifs
    · exact s4
    · exact s4
  -- the en-passant square
  obtain ⟨c5, p5, f5, hh5, hs5⟩ :=
    move_mark_passan_ok Z c4 m ho hd mi2 (b.position.pl m.o).1
  obtain ⟨r1, r2, r3, r4, r5⟩ :=
    Position.move_mark_passan_facts (b4.position, mi2.forget_id) m (b.position.pl m.o).1
  -- castling
  have hking : (b.position.pl m.o).1 = PieceType.KING → ∀ q, q ≠ m.o → q ≠ m.d →
      (Board.move_mark_passan Z (b4, mi2) m (b.position.pl m.o).1).1.position.pl q
        = b.position.pl q := by
    intro hk q hqo hqd
    rw [p5, r1, h4pl q hqd]
    exact s3 (by rw [hk]; decide) q hqo hqd
  have hk : (b.position.pl m.o).1 = PieceType.KING → Place.col m.d - Place.col m.o = 2 →
      (0 ≤ Place.right m.d ∧ Place.right m.d < 64) ∧
      (0 ≤ Place.left m.d ∧ Place.left m.d < 64) ∧
      Place.right m.d ≠ Place.left m.d ∧
      ((Board.move_mark_passan Z (b4, mi2) m (b.position.pl m.o).1).1.position.pl
        (Place.right m.d)).1 ≠ PieceType.CLEAR ∧
      ((Board.move_mark_passan Z (b4, mi2) m (b.position.pl m.o).1).1.position.pl
        (Place.left m.d)).1 = PieceType.CLEAR := by
    intro h1 h2
    obtain ⟨q1, q2, q3, q4, q5⟩ := hm.king_side h1 h2
    have hv := valid_of_pl q3
    rw [place_right_eq hd, place_left_eq ⟨hd.1, by omega⟩]
    refine ⟨hv, by omega, by omega, ?_, ?_⟩
    · rw [hking h1 _ (by omega) (by omega)]; exact q3
    · rw [hking h1 _ (by omega) (by omega)]; exact q4
  have hq : (b.position.pl m.o).1 = PieceType.KING → Place.col m.d - Place.col m.o = -2 →
      (0 ≤ Place.left (Place.left m.d) ∧ Place.left (Place.left m.d) < 64) ∧
      (0 ≤ Place.right m.d ∧ Place.right m.d < 64) ∧
      Place.left (Place.left m.d) ≠ Place.right m.d ∧
      ((Board.move_mark_passan Z (b4, mi2) m (b.position.pl m.o).1).1.position.pl
        (Place.left (Place.left m.d))).1 ≠ PieceType.CLEAR ∧
      ((Board.move_mark_passan Z (b4, mi2) m (b.position.pl m.o).1).1.position.pl
        (Place.right m.d)).1 = PieceType.CLEAR := by
    intro h1 h2
    obtain ⟨q1, q2, q3, q4, q5⟩ := hm.queen_side h1 h2
    have hv := valid_of_pl q3
    have hll : Place.left (Place.left m.d) = m.d - 2 := by
      rw [place_left_eq ⟨hd.1, by omega⟩]
      unfold Place.left; rw [toInt8_eq (by omega) (by omega)]; omega
    rw [place_right_eq hd, hll]
    refine ⟨hv, by omega, by omega, ?_, ?_⟩
    · rw [hking h1 _ (by omega) (by omega)]; exact q3
    · rw [hking h1 _ (by omega) (by omega)]; exact q4
  obtain ⟨b6, mi6, e6, c6, p6, f6, fl6, hh6, hs6⟩ :=
    move_castle_ok Z c5 m (Board.move_mark_passan Z (b4, mi2) m (b.position.pl m.o).1).2
      (b.position.pl m.o).1 hk hq
  obtain ⟨c7, p7, f7, hh7, hs7⟩ :=
    move_rook_taken_ok Z c6 m mi6 (b.position.pl m.d).1 (oponent b.turn)
  obtain ⟨t1, t2⟩ := Position.move_rook_taken_pl (b6.position, mi6.forget_id) m
    (b.position.pl m.d).1 (oponent b.turn)
  have h6t : b6.position.turn = b.position.turn := by
    rw [p6]
    rw [(Position.move_castle_facts _ m _).1, p5, r3, h4t]
  have h7t : (Board.move_rook_taken Z (b6, mi6) m (b.position.pl m.d).1 (oponent b.turn)).1.turn
      = b.turn := by
    have h := congrArg Position.turn p7
    rw [t2] at h
    exact h.trans h6t
  have h7d : ((Board.move_rook_taken Z (b6, mi6) m (b.position.pl m.d).1
        (oponent b.turn)).1.position.pl m.d).1 = (b.position.pl m.o).1 ∨
      Move.promotion m = ((Board.move_rook_taken Z (b6, mi6) m (b.position.pl m.d).1
        (oponent b.turn)).1.position.pl m.d).1 := by
    rw [p7, t1, p6, Position.move_castle_pl_d _ _ _ hd, p5, r1]
    exact h4d
  obtain ⟨b8, e8, c8, p8, hh8, hs8⟩ :=
    move_finish_ok Z c7 m (Board.move_rook_taken Z (b6, mi6) m (b.position.pl m.d).1
      (oponent b.turn)).2 (b.position.pl m.o).1 (by rw [h7t]; exact hm.turn_ok) hd h7d
  rw [h7t] at e8
  rw [hty] at e2
  have E5 : ((Board.move_mark_passan Z (b4, mi2) m (b.position.pl m.o).1).1.position,
      (Board.move_mark_passan Z (b4, mi2) m (b.position.pl m.o).1).2.forget_id)
      = Position.move_mark_passan ((b.position.steps3 m b._hash_key).move_promote m,
          (Position.move_en_passan (b.position.move_capture m b._hash_key) m
            (b.position.pl m.o).1).2) m (b.position.pl m.o).1 := by
    rw [← p3, ← p4, ← f2]; exact Prod.ext p5 f5
  have E6 : (b6.position, mi6.forget_id)
      = Position.move_castle (Position.move_mark_passan
          ((b.position.steps3 m b._hash_key).move_promote m,
          (Position.move_en_passan (b.position.move_capture m b._hash_key) m
            (b.position.pl m.o).1).2) m (b.position.pl m.o).1) m (b.position.pl m.o).1 := by
    rw [← E5]; exact Prod.ext p6 f6
  have E7 : ((Board.move_rook_taken Z (b6, mi6) m (b.position.pl m.d).1
        (oponent b.turn)).1.position,
      (Board.move_rook_taken Z (b6, mi6) m (b.position.pl m.d).1 (oponent b.turn)).2.forget_id)
      = b.position.steps6 m b._hash_key := by
    unfold Position.steps6
    rw [← E6]; exact Prod.ext p7 f7
  refine ⟨b8, (Board.move_rook_taken Z (b6, mi6) m (b.position.pl m.d).1 (oponent b.turn)).2,
    ?_, c8, ?_, ?_, ?_, ?_⟩
  · unfold Board.move
    simp only [e1, Option.some_bind, hty, htd, e2, e3, e4, e6]
    exact e8
  · rw [p8, Position.move_eq, ← E7, h7t]
    rfl
  · rw [Position.move_eq, ← E7]
  · intro h
    have h6 := hh6 (hh5 (hh4 (hh3 h)))
    rw [← fl6] at h6
    exact hh8 (hh7 h6)
  · intro h
    exact hs8 (hs7 (hs6 (hs5 (hs4 (hs3 h)))))

theorem Position.move_castle_info (s : Position × MoveInfo) (m : Move) (t : PieceType) :
    (Position.move_castle s m t).2.castle_flags = s.1.castle_flags ∧
      (Position.move_castle s m t).2.castled = decide (t = PieceType.KING ∧
        (Place.col m.d - Place.col m.o = 2 ∨ Place.col m.d - Place.col m.o = -2)) ∧
      (Position.move_castle s m t).2.passan = s.2.passan ∧
      (Position.move_castle s m t).2.capturou = s.2.capturou ∧
      (Position.move_castle s m t).2.passan_place = s.2.passan_place ∧
      (Position.move_castle s m t).2.last_irreversible_move = s.2.last_irreversible_move ∧
      (Position.move_castle s m t).2.p = s.2.p := by
  unfold Position.move_castle
  simp only []
  split_ifs <;> simp_all

theorem Position.move_mark_passan_info (s : Position × MoveInfo) (m : Move) (t : PieceType) :
    (Position.move_mark_passan s m t).2.passan_place = s.1.passan_place ∧
      (Position.move_mark_passan s m t).2.passan = s.2.passan ∧
      (Position.move_mark_passan s m t).2.capturou = s.2.capturou ∧
      (Position.move_mark_passan s m t).2.last_irreversible_move
        = s.2.last_irreversible_move ∧
      (Position.move_mark_passan s m t).2.p = s.2.p := by
  unfold Position.move_mark_passan
  simp only []
  split_ifs <;> simp

theorem Position.move_en_passan_info (s : Position × MoveInfo) (m : Move) (t : PieceType) :
    (Position.move_en_passan s m t).2.passan
        = decide (t = PieceType.PAWN ∧ s.2.capturou = false ∧ Move.dc m ≠ Move.oc m) ∧
      (Position.move_en_passan s m t).2.last_irreversible_move
        = s.2.last_irreversible_move ∧
      (¬ (t = PieceType.PAWN ∧ s.2.capturou = false ∧ Move.dc m ≠ Move.oc m) →
        (Position.move_en_passan s m t).2.p = s.2.p) ∧
      ((t = PieceType.PAWN ∧ s.2.capturou = false ∧ Move.dc m ≠ Move.oc m) →
        (Position.move_en_passan s m t).2.p
          = ⟨0, (s.1.pl (Place.of_line_of_col (Move.ol m) (Move.dc m))).1,
              (s.1.pl (Place.of_line_of_col (Move.ol m) (Move.dc m))).2⟩) := by
  unfold Position.move_en_passan
  by_cases h : t = PieceType.PAWN ∧ s.2.capturou = false ∧ Move.dc m ≠ Move.oc m
  · simp only [if_pos h]
    simp [h]
  · simp only [if_neg h]
    simp [h]

theorem Position.move_promote_facts (x : Position) (m : Move) :
    (x.move_promote m).castle_flags = x.castle_flags ∧
      (x.move_promote m).passan_place = x.passan_place ∧
      (x.move_promote m).turn = x.turn ∧
      (x.move_promote m).history = x.history ∧
      (x.move_promote m)._base_ply = x._base_ply ∧
      (x.move_promote m)._last_irreversible_move = x._last_irreversible_move := by
  unfold Position.move_promote Position.set_type
  split_ifs <;> simp

theorem Position.steps3_scalars (a : Position) (m : Move) (k : Nat) :
    (a.steps3 m k).passan_place = a.passan_place ∧
      (a.steps3 m k).castle_flags = a.castle_flags ∧
      (a.steps3 m k)._base_ply = a._base_ply := by
  obtain ⟨g1, g2, g3, g4, g5, g6, g7, g8, g9, g10⟩ := Position.move_capture_facts a m k
  obtain ⟨k1, k2, k3, k4, k5, k6, k7⟩ :=
    Position.move_en_passan_facts (a.move_capture m k) m (a.pl m.o).1
  have hb : (Position.move_en_passan (a.move_capture m k) m (a.pl m.o).1).1._base_ply
      = (a.move_capture m k).1._base_ply := by
    unfold Position.move_en_passan Position.erase
    split_ifs <;> rfl
  refine ⟨?_, ?_, ?_⟩
  · unfold Position.steps3 Position.move_piece; simp only []; rw [k5, g5]
  · unfold Position.steps3 Position.move_piece; simp only []; rw [k4, g4]
  · unfold Position.steps3 Position.move_piece; simp only []; rw [hb, g7]

theorem Position.move_info (a : Position) (m : Move) (k : Nat) :
    (a.move m k).2.castle_flags = a.castle_flags ∧
      (a.move m k).2.passan_place = a.passan_place ∧
      (a.move m k).2.last_irreversible_move = a._last_irreversible_move ∧
      (a.move m k).2.capturou = decide ((a.pl m.d).1 ≠ PieceType.CLEAR) ∧
      (a.move m k).2.passan = decide ((a.pl m.o).1 = PieceType.PAWN ∧
        (a.pl m.d).1 = PieceType.CLEAR ∧ Move.dc m ≠ Move.oc m) ∧
      (a.move m k).2.castled = decide ((a.pl m.o).1 = PieceType.KING ∧
        (Place.col m.d - Place.col m.o = 2 ∨ Place.col m.d - Place.col m.o = -2)) ∧
      ((a.pl m.d).1 ≠ PieceType.CLEAR → (a.move m k).2.p = ⟨0, (a.pl m.d).1, (a.pl m.d).2⟩) ∧
      ((a.pl m.o).1 = PieceType.PAWN ∧ (a.pl m.d).1 = PieceType.CLEAR ∧
        Move.dc m ≠ Move.oc m → (a.move m k).2.p
          = ⟨0, (a.pl (Place.of_line_of_col (Move.ol m) (Move.dc m))).1,
              (a.pl (Place.of_line_of_col (Move.ol m) (Move.dc m))).2⟩) := by
  obtain ⟨g1, g2, g3, g4, g5, g6, g7, g8, g9, g10⟩ := Position.move_capture_facts a m k
  obtain ⟨c1, c2, c3, c4, c5, c6, c7⟩ := Position.move_castle_info
    (Position.move_mark_passan ((a.steps3 m k).move_promote m,
      (Position.move_en_passan (a.move_capture m k) m (a.pl m.o).1).2) m (a.pl m.o).1)
    m (a.pl m.o).1
  obtain ⟨r1, r2, r3, r4, r5⟩ := Position.move_mark_passan_info
    ((a.steps3 m k).move_promote m,
      (Position.move_en_passan (a.move_capture m k) m (a.pl m.o).1).2) m (a.pl m.o).1
  obtain ⟨v1, v2, v3, v4, v5⟩ := Position.move_mark_passan_facts
    ((a.steps3 m k).move_promote m,
      (Position.move_en_passan (a.move_capture m k) m (a.pl m.o).1).2) m (a.pl m.o).1
  obtain ⟨n1, n2, n3, n4⟩ :=
    Position.move_en_passan_info (a.move_capture m k) m (a.pl m.o).1
  obtain ⟨k1, k2, k3, k4, k5, k6, k7⟩ :=
    Position.move_en_passan_facts (a.move_capture m k) m (a.pl m.o).1
  obtain ⟨w1, w2, w3, w4, w5, w6⟩ := Position.move_promote_facts (a.steps3 m k) m
  obtain ⟨z1, z2, z3⟩ := Position.steps3_scalars a m k
  have hfin : (a.move m k).2
      = (Position.move_castle (Position.move_mark_passan ((a.steps3 m k).move_promote m,
          (Position.move_en_passan (a.move_capture m k) m (a.pl m.o).1).2) m (a.pl m.o).1)
          m (a.pl m.o).1).2 := rfl
  have hcond : ((a.pl m.o).1 = PieceType.PAWN ∧ (a.move_capture m k).2.capturou = false ∧
      Move.dc m ≠ Move.oc m) ↔ ((a.pl m.o).1 = PieceType.PAWN ∧
        (a.pl m.d).1 = PieceType.CLEAR ∧ Move.dc m ≠ Move.oc m) := by
    rw [g8]; simp
  rw [hfin]
  refine ⟨?_, ?_, ?_, ?_, ?_, ?_, ?_, ?_⟩
  · rw [c1, v4]; exact w1.trans z2
  · rw [c5, r1]; exact w2.trans z1
  · rw [c6, r4, n2, g9]
  · rw [c4, r3, k7, g8]
  · rw [c3, r2, n1]; exact decide_eq_decide.mpr hcond
  · exact c2
  · intro h
    rw [c7, r5, n3 (fun hh => h (hcond.mp hh).2.1)]
    exact g10 (by rw [g8]; simpa using h)
  · intro h
    rw [c7, r5, n4 (hcond.mpr h), g1, if_neg (by simpa using h.2.1)]

theorem Position.steps3_pl (a : Position) (m : Move) (k : Nat) (ho : 0 ≤ m.o ∧ m.o < 64)
    (hod : m.o ≠ m.d) :
    (a.steps3 m k).pl = Function.update (Function.update
      (if (a.pl m.o).1 = PieceType.PAWN ∧ (a.pl m.d).1 = PieceType.CLEAR ∧
          Move.dc m ≠ Move.oc m then
        Function.update a.pl (Place.of_line_of_col (Move.ol m) (Move.dc m)) Position.none_sq
      else a.pl) m.d (a.pl m.o)) m.o Position.none_sq := by
  obtain ⟨g1, g2, g3, g4, g5, g6, g7, g8, g9, g10⟩ := Position.move_capture_facts a m k
  obtain ⟨k1, k2, k3, k4, k5, k6, k7⟩ :=
    Position.move_en_passan_facts (a.move_capture m k) m (a.pl m.o).1
  have hep : Move.dc m ≠ Move.oc m → Place.of_line_of_col (Move.ol m) (Move.dc m) ≠ m.o := by
    intro h3 h4
    unfold Move.ol Move.dc at h4
    rw [ep_place_eq m.d ho] at h4
    unfold Move.dc Move.oc Place.col at h3
    omega
  unfold Position.steps3 Position.move_piece
  simp only []
  rw [k1, g8]
  by_cases hcap : (a.pl m.d).1 = PieceType.CLEAR
  · have h1 : (a.move_capture m k).1.pl = a.pl := by rw [g1]; simp [hcap]
    rw [h1]
    by_cases hc : (a.pl m.o).1 = PieceType.PAWN ∧ Move.dc m ≠ Move.oc m
    · rw [if_pos (by simpa [hcap] using hc), if_pos ⟨hc.1, hcap, hc.2⟩,
        Function.update_noteq (hep hc.2).symm]
      rfl
    · rw [if_neg (by simpa [hcap] using hc), if_neg (fun h => hc ⟨h.1, h.2.2⟩)]
      rfl
  · have h1 : (a.move_capture m k).1.pl
        = Function.update a.pl m.d (PieceType.CLEAR, Color.None) := by
      rw [g1]; simp [hcap]
    rw [h1, if_neg (by simp [hcap]), if_neg (fun h => hcap h.2.1), Function.update_idem,
      Function.update_noteq hod]
    rfl

theorem Position.move_castle_pl (s : Position × MoveInfo) (m : Move) (t : PieceType)
    (hd : 0 ≤ m.d ∧ m.d < 64) :
    (Position.move_castle s m t).1.pl =
      if t = PieceType.KING ∧ Place.col m.d - Place.col m.o = 2 then
        Function.update (Function.update s.1.pl (m.d - 1) (s.1.pl (m.d + 1))) (m.d + 1)
          Position.none_sq
      else if t = PieceType.KING ∧ Place.col m.d - Place.col m.o = -2 then
        Function.update (Function.update s.1.pl (m.d + 1) (s.1.pl (m.d - 2))) (m.d - 2)
          Position.none_sq
      else s.1.pl := by
  have hr : Place.right m.d = m.d + 1 := place_right_eq hd
  have hl : Place.left m.d = m.d - 1 := place_left_eq ⟨hd.1, by omega⟩
  have hll : Place.left (m.d - 1) = m.d - 2 := by
    unfold Place.left; rw [toInt8_eq (by omega) (by omega)]; omega
  unfold Position.move_castle
  simp only [hr, hl, hll, Position.move_piece, Position.none_sq]
  split_ifs <;> simp_all

theorem Position.move_pl (a : Position) (m : Move) (k : Nat) (ho : 0 ≤ m.o ∧ m.o < 64)
    (hd : 0 ≤ m.d ∧ m.d < 64) (hod : m.o ≠ m.d) :
    (a.move m k).1.pl = Position.pl_move a.pl m := by
  have h3 := Position.steps3_pl a m k ho hod
  have h4 : ((a.steps3 m k).move_promote m).pl
      = if Move.promotion m ≠ PieceType.CLEAR then
          Function.update (a.steps3 m k).pl m.d (Move.promotion m, (a.pl m.o).2)
        else (a.steps3 m k).pl := by
    unfold Position.move_promote Position.set_type
    split_ifs
    · simp only []
      rw [(Position.steps3_facts a m k ho hod).1]
    · rfl
  have hfin : (a.move m k).1.pl = (a.steps6 m k).1.pl := rfl
  rw [hfin]
  unfold Position.steps6
  rw [(Position.move_rook_taken_pl _ _ _ _).1, Position.move_castle_pl _ _ _ hd,
    (Position.move_mark_passan_facts _ _ _).1]
  simp only []
  rw [h4, h3]
  rfl

theorem Position.undo_pl (a0 : Position) (m : Move) (mi : MoveInfo)
    (hd : 0 ≤ m.d ∧ m.d < 64) :
    (Position.undo a0 m mi).pl = Position.pl_undo a0.pl m mi := by
  have hr : Place.right m.d = m.d + 1 := place_right_eq hd
  have hl : Place.left m.d = m.d - 1 := place_left_eq ⟨hd.1, by omega⟩
  have hll : Place.left (m.d - 1) = m.d - 2 := by
    unfold Place.left; rw [toInt8_eq (by omega) (by omega)]; omega
  unfold Position.undo Position.pl_undo
  by_cases h1 : mi.castled = true <;> by_cases h2 : m.d - m.o = 2 <;>
    by_cases h3 : Place.col m.d - Place.col m.o = -2 <;>
    by_cases h4 : Move.promotion m = PieceType.CLEAR <;>
    by_cases h5 : mi.passan = true <;> by_cases h6 : mi.capturou = true <;>
    simp only [h1, h2, h3, h4, h5, h6, if_true, if_false, hr, hl, hll, Position.move_piece,
      Position.none_sq, Position.set_type, Position.insert, ne_eq, not_true_eq_false,
      not_false_eq_true, Bool.false_eq_true, reduceIte]

theorem Position.undo_scalars (a0 : Position) (m : Move) (mi : MoveInfo) :
    (Position.undo a0 m mi).turn = oponent a0.turn ∧
      (Position.undo a0 m mi).castle_flags = mi.castle_flags ∧
      (Position.undo a0 m mi).passan_place = mi.passan_place ∧
      (Position.undo a0 m mi).history = a0.history.dropLast ∧
      (Position.undo a0 m mi)._last_irreversible_move = mi.last_irreversible_move ∧
      (Position.undo a0 m mi)._base_ply = a0._base_ply := by
  unfold Position.undo
  simp only [Position.move_piece, Position.set_type, Position.insert]
  split_ifs <;> simp

theorem Position.Ok.sq_none {a : Position} (hok : a.Ok) {p : Int}
    (h : (a.pl p).1 = PieceType.CLEAR) : a.pl p = Position.none_sq := by
  have h2 := (hok.none_iff p).mp h
  exact Prod.ext h h2

theorem update_same_val {α : Type} {f : Int → α} {i : Int} {v : α} (h : f i = v) :
    Function.update f i v = f := by
  rw [← h]; exact Function.update_eq_self i f

/-- A piece moved from `i` to `j` and back: what stood on `j` is lost, `z` stands there. -/
theorem update_move_back {α : Type} (f : Int → α) (i j : Int) (e z : α) (hij : i ≠ j) :
    Function.update (Function.update
      (Function.update (Function.update f j (f i)) i e) i
        ((Function.update (Function.update f j (f i)) i e) j)) j z
      = Function.update f j z := by
  funext q
  simp only [Function.update_apply]
  by_cases h1 : q = j
  · simp [h1]
  · by_cases h2 : q = i
    · subst h2
      simp [h1, Ne.symm hij, hij]
    · simp [h1, h2]

/-- A piece taken from `p` before two other squares change, and put back after. -/
theorem update_put_back {α : Type} (f : Int → α) (o d p : Int) (e y x : α) (hpo : p ≠ o)
    (hpd : p ≠ d) (hx : f p = x) :
    Function.update (Function.update (Function.update (Function.update f p e) d y) o e) p x
      = Function.update (Function.update f d y) o e := by
  funext q
  simp only [Function.update_apply]
  by_cases h1 : q = p
  · subst h1
    simp [hpo, hpd, hx]
  · simp [h1]

theorem Position.pl_undo_move (a : Position) (hok : a.Ok) (m : Move) (hm : a.MoveOk m)
    (k : Nat) : Position.pl_undo (Position.pl_move a.pl m) m (a.move m k).2 = a.pl := by
  obtain ⟨i1, i2, i3, i4, i5, i6, i7, i8⟩ := Position.move_info a m k
  have ho := hm.o_valid
  have hd := hm.d_valid
  have hod := hm.o_ne_d
  by_cases hK : (a.pl m.o).1 = PieceType.KING ∧
      (Place.col m.d - Place.col m.o = 2 ∨ Place.col m.d - Place.col m.o = -2)
  · -- castling
    have hpr : ¬ Move.promotion m ≠ PieceType.CLEAR := by
      intro h
      have := (hm.promo h).1
      rw [hK.1] at this
      exact absurd this (by decide)
    have hnp : (a.pl m.o).1 ≠ PieceType.PAWN := by rw [hK.1]; decide
    have hnep : ¬ ((a.pl m.o).1 = PieceType.PAWN ∧ (a.pl m.d).1 = PieceType.CLEAR ∧
        Move.dc m ≠ Move.oc m) := fun h => hnp h.1
    have hcastled : (a.move m k).2.castled = true := by rw [i6]; simpa using hK
    have hpassan : ¬ (a.move m k).2.passan = true := by rw [i5]; simp [hnp]
    rcases hK.2 with h2 | h2
    · obtain ⟨q1, q2, q3, q4, q5⟩ := hm.king_side hK.1 h2
      have e1 := hok.sq_none q4
      have e2 := hok.sq_none q5
      have hcap : ¬ (a.move m k).2.capturou = true := by rw [i4]; simp [q5]
      have hdo : m.d - m.o = 2 := by omega
      unfold Position.pl_undo Position.pl_move
      simp only [if_pos hcastled, if_neg hpassan, if_neg hcap, if_pos hdo, if_neg hpr,
        if_neg hnep, if_pos (And.intro hK.1 h2)]
      have hsw := update_move_back
        (Function.update (Function.update a.pl m.d (a.pl m.o)) m.o Position.none_sq)
        (m.d + 1) (m.d - 1) Position.none_sq Position.none_sq (by omega)
      rw [hsw]
      have hF : (Function.update (Function.update a.pl m.d (a.pl m.o)) m.o Position.none_sq)
          (m.d - 1) = Position.none_sq := by
        rw [Function.update_noteq (by omega), Function.update_noteq (by omega)]; exact e1
      rw [update_same_val hF, update_move_back a.pl m.o m.d _ _ hod]
      exact update_same_val e2
    · obtain ⟨q1, q2, q3, q4, q5⟩ := hm.queen_side hK.1 h2
      have e1 := hok.sq_none q4
      have e2 := hok.sq_none q5
      have hcap : ¬ (a.move m k).2.capturou = true := by rw [i4]; simp [q5]
      have hdo : ¬ m.d - m.o = 2 := by omega
      have h2' : ¬ ((a.pl m.o).1 = PieceType.KING ∧ Place.col m.d - Place.col m.o = 2) := by
        intro h; omega
      unfold Position.pl_undo Position.pl_move
      simp only [if_pos hcastled, if_neg hpassan, if_neg hcap, if_neg hdo, if_neg hpr,
        if_neg hnep, if_neg h2', if_pos (And.intro hK.1 h2), if_pos h2]
      rw [update_move_back
        (Function.update (Function.update a.pl m.d (a.pl m.o)) m.o Position.none_sq)
        (m.d - 2) (m.d + 1) Position.none_sq Position.none_sq (by omega)]
      have hF : (Function.update (Function.update a.pl m.d (a.pl m.o)) m.o Position.none_sq)
          (m.d + 1) = Position.none_sq := by
        rw [Function.update_noteq (by omega), Function.update_noteq (by omega)]; exact e1
      rw [update_same_val hF, update_move_back a.pl m.o m.d _ _ hod]
      exact update_same_val e2
  · have hcastled : ¬ (a.move m k).2.castled = true := by rw [i6]; simpa using hK
    have hK1 : ¬ ((a.pl m.o).1 = PieceType.KING ∧ Place.col m.d - Place.col m.o = 2) :=
      fun h => hK ⟨h.1, Or.inl h.2⟩
    have hK2 : ¬ ((a.pl m.o).1 = PieceType.KING ∧ Place.col m.d - Place.col m.o = -2) :=
      fun h => hK ⟨h.1, Or.inr h.2⟩
    unfold Position.pl_undo Position.pl_move
    simp only [if_neg hcastled, if_neg hK1, if_neg hK2]
    -- the promotion is taken back
    have h3 : (if Move.promotion m ≠ PieceType.CLEAR then
          Function.update
            (if Move.promotion m ≠ PieceType.CLEAR then
              Function.update (Function.update (Function.update
                (if (a.pl m.o).1 = PieceType.PAWN ∧ (a.pl m.d).1 = PieceType.CLEAR ∧
                    Move.dc m ≠ Move.oc m then
                  Function.update a.pl (Place.of_line_of_col (Move.ol m) (Move.dc m))
                    Position.none_sq
                else a.pl) m.d (a.pl m.o)) m.o Position.none_sq) m.d
                (Move.promotion m, (a.pl m.o).2)
            else Function.update (Function.update
                (if (a.pl m.o).1 = PieceType.PAWN ∧ (a.pl m.d).1 = PieceType.CLEAR ∧
                    Move.dc m ≠ Move.oc m then
                  Function.update a.pl (Place.of_line_of_col (Move.ol m) (Move.dc m))
                    Position.none_sq
                else a.pl) m.d (a.pl m.o)) m.o Position.none_sq) m.d
            (PieceType.PAWN, ((if Move.promotion m ≠ PieceType.CLEAR then
              Function.update (Function.update (Function.update
                (if (a.pl m.o).1 = PieceType.PAWN ∧ (a.pl m.d).1 = PieceType.CLEAR ∧
                    Move.dc m ≠ Move.oc m then
                  Function.update a.pl (Place.of_line_of_col (Move.ol m) (Move.dc m))
                    Position.none_sq
                else a.pl) m.d (a.pl m.o)) m.o Position.none_sq) m.d
                (Move.promotion m, (a.pl m.o).2)
            else Function.update (Function.update
                (if (a.pl m.o).1 = PieceType.PAWN ∧ (a.pl m.d).1 = PieceType.CLEAR ∧
                    Move.dc m ≠ Move.oc m then
                  Function.update a.pl (Place.of_line_of_col (Move.ol m) (Move.dc m))
                    Position.none_sq
                else a.pl) m.d (a.pl m.o)) m.o Position.none_sq) m.d).2)
        else
          (if Move.promotion m ≠ PieceType.CLEAR then
              Function.update (Function.update (Function.update
                (if (a.pl m.o).1 = PieceType.PAWN ∧ (a.pl m.d).1 = PieceType.CLEAR ∧
                    Move.dc m ≠ Move.oc m then
                  Function.update a.pl (Place.of_line_of_col (Move.ol m) (Move.dc m))
                    Position.none_sq
                else a.pl) m.d (a.pl m.o)) m.o Position.none_sq) m.d
                (Move.promotion m, (a.pl m.o).2)
            else Function.update (Function.update
                (if (a.pl m.o).1 = PieceType.PAWN ∧ (a.pl m.d).1 = PieceType.CLEAR ∧
                    Move.dc m ≠ Move.oc m then
                  Function.update a.pl (Place.of_line_of_col (Move.ol m) (Move.dc m))
                    Position.none_sq
                else a.pl) m.d (a.pl m.o)) m.o Position.none_sq))
        = Function.update (Function.update
                (if (a.pl m.o).1 = PieceType.PAWN ∧ (a.pl m.d).1 = PieceType.CLEAR ∧
                    Move.dc m ≠ Move.oc m then
                  Function.update a.pl (Place.of_line_of_col (Move.ol m) (Move.dc m))
                    Position.none_sq
                else a.pl) m.d (a.pl m.o)) m.o Position.none_sq := by
      by_cases hPm : Move.promotion m ≠ PieceType.CLEAR
      · simp only [if_pos hPm]
        rw [Function.update_idem, Function.update_same]
        apply update_same_val
        rw [Function.update_noteq (Ne.symm hod), Function.update_same]
        exact Prod.ext (hm.promo hPm).1 rfl
      · simp only [if_neg hPm]
    rw [h3]
    have hep : Move.dc m ≠ Move.oc m → Place.of_line_of_col (Move.ol m) (Move.dc m) ≠ m.o := by
      intro h3 h4
      unfold Move.ol Move.dc at h4
      rw [ep_place_eq m.d ho] at h4
      unfold Move.dc Move.oc Place.col at h3
      omega
    by_cases hE : (a.pl m.o).1 = PieceType.PAWN ∧ (a.pl m.d).1 = PieceType.CLEAR ∧
        Move.dc m ≠ Move.oc m
    · have hpassan : (a.move m k).2.passan = true := by rw [i5]; simpa using hE
      have hcap : ¬ (a.move m k).2.capturou = true := by rw [i4]; simp [hE.2.1]
      have hepd : Place.of_line_of_col (Move.ol m) (Move.dc m) ≠ m.d := by
        intro h
        have := hm.passan hE.1 hE.2.1 hE.2.2
        rw [h, hE.2.1] at this
        exact absurd this (by decide)
      simp only [if_pos hE, if_pos hpassan, if_neg hcap, i8 hE]
      rw [update_put_back a.pl m.o m.d _ _ _ _ (hep hE.2.2) hepd rfl,
        update_move_back a.pl m.o m.d _ _ hod]
      exact update_same_val (hok.sq_none hE.2.1)
    · have hpassan : ¬ (a.move m k).2.passan = true := by rw [i5]; simpa using hE
      simp only [if_neg hE, if_neg hpassan]
      by_cases hC : (a.pl m.d).1 = PieceType.CLEAR
      · have hcap : ¬ (a.move m k).2.capturou = true := by rw [i4]; simp [hC]
        simp only [if_neg hcap]
        rw [update_move_back a.pl m.o m.d _ _ hod]
        exact update_same_val (hok.sq_none hC)
      · have hcap : (a.move m k).2.capturou = true := by rw [i4]; simpa using hC
        simp only [if_pos hcap, i7 hC]
        rw [Function.update_idem, update_move_back a.pl m.o m.d _ _ hod]
        exact update_same_val rfl

theorem Position.undo_eq (a0 : Position) (m : Move) (mi : MoveInfo) :
    Position.undo a0 m mi
      = Position.undo_piece (Position.undo_passan (Position.undo_castle a0 m mi) m mi) m mi :=
  rfl

theorem Position.undo_castle_forget (a0 : Position) (m : Move) (mi : MoveInfo) :
    Position.undo_castle a0 m mi.forget_id = Position.undo_castle a0 m mi := rfl

theorem Position.undo_passan_forget (a0 : Position) (m : Move) (mi : MoveInfo) :
    Position.undo_passan a0 m mi.forget_id = Position.undo_passan a0 m mi := rfl

theorem Position.undo_piece_forget (a0 : Position) (m : Move) (mi : MoveInfo) :
    Position.undo_piece a0 m mi.forget_id = Position.undo_piece a0 m mi := rfl

theorem undo_flags_ok (Z : ZobristTables) {b1 : Board} (hc : Consistent b1) (f : CastleFlags) :
    Consistent (if b1.castle_flags ≠ f then
        { b1 with
          _hash_key := b1._hash_key ^^^ (CastleFlags.hash Z b1.castle_flags ^^^ CastleFlags.hash Z f)
          castle_flags := f }
      else b1) ∧
    (if b1.castle_flags ≠ f then
        { b1 with
          _hash_key := b1._hash_key ^^^ (CastleFlags.hash Z b1.castle_flags ^^^ CastleFlags.hash Z f)
          castle_flags := f }
      else b1).position = { b1.position with castle_flags := f } ∧
    (HashInv Z b1 → HashInv Z (if b1.castle_flags ≠ f then
        { b1 with
          _hash_key := b1._hash_key ^^^ (CastleFlags.hash Z b1.castle_flags ^^^ CastleFlags.hash Z f)
          castle_flags := f }
      else b1)) ∧
    (ScoreInv b1 → ScoreInv (if b1.castle_flags ≠ f then
        { b1 with
          _hash_key := b1._hash_key ^^^ (CastleFlags.hash Z b1.castle_flags ^^^ CastleFlags.hash Z f)
          castle_flags := f }
      else b1)) := by
  by_cases h : b1.castle_flags ≠ f
  · simp only [if_pos h]
    refine ⟨consistent_congr hc rfl rfl rfl rfl, rfl, ?_, fun hs => scoreInv_congr hs rfl rfl⟩
    intro hh
    have h1 : HashInvF Z { b1 with castle_flags := f } b1.castle_flags :=
      hashInvF_flags Z f ((hashInvF_self Z b1).2 hh)
    have h2 := hashInvF_close Z h1
    have e : b1._hash_key ^^^ (CastleFlags.hash Z b1.castle_flags ^^^ CastleFlags.hash Z f)
        = b1._hash_key ^^^ (CastleFlags.hash Z f ^^^ CastleFlags.hash Z b1.castle_flags) := by
      rw [Nat.xor_comm (CastleFlags.hash Z b1.castle_flags)]
    rw [e]
    exact h2
  · simp only [if_neg h]
    have hf : b1.castle_flags = f := not_not.mp h
    refine ⟨hc, ?_, id, id⟩
    subst hf
    rfl

theorem undo_turn_ok (Z : ZobristTables) {b0 : Board} (hc : Consistent b0)
    (ht : b0.turn ≠ Color.None) :
    Consistent { b0 with
        _hash_key := b0._hash_key ^^^ Z.hash_code_turn
        turn := oponent b0.turn } ∧
      (HashInv Z b0 → HashInv Z { b0 with
        _hash_key := b0._hash_key ^^^ Z.hash_code_turn
        turn := oponent b0.turn }) ∧
      (ScoreInv b0 → ScoreInv { b0 with
        _hash_key := b0._hash_key ^^^ Z.hash_code_turn
        turn := oponent b0.turn }) := by
  refine ⟨consistent_congr hc rfl rfl rfl rfl, ?_, fun h => scoreInv_congr h rfl rfl⟩
  intro h
  unfold HashInv zobrist at h ⊢
  simp only [Board.position] at h ⊢
  rw [h, turn_key_flip Z ht]
  ac_rfl

theorem undo_castle_ok (Z : ZobristTables) {b0 : Board} (hc : Consistent b0)
    (ht : b0.turn ≠ Color.None) (m : Move) (mi : MoveInfo)
    (h2 : mi.castled = true → m.d - m.o = 2 →
      (0 ≤ Place.left m.d ∧ Place.left m.d < 64) ∧
      (0 ≤ Place.right m.d ∧ Place.right m.d < 64) ∧ Place.left m.d ≠ Place.right m.d ∧
      (b0.position.pl (Place.left m.d)).1 ≠ PieceType.CLEAR ∧
      (b0.position.pl (Place.right m.d)).1 = PieceType.CLEAR)
    (h3 : mi.castled = true → ¬ m.d - m.o = 2 → Place.col m.d - Place.col m.o = -2 →
      (0 ≤ Place.right m.d ∧ Place.right m.d < 64) ∧
      (0 ≤ Place.left (Place.left m.d) ∧ Place.left (Place.left m.d) < 64) ∧
      Place.right m.d ≠ Place.left (Place.left m.d) ∧
      (b0.position.pl (Place.right m.d)).1 ≠ PieceType.CLEAR ∧
      (b0.position.pl (Place.left (Place.left m.d))).1 = PieceType.CLEAR) :
    ∃ b1, Board.undo_castle Z b0 m mi = some b1 ∧ Consistent b1 ∧
      b1.position = Position.undo_castle b0.position m mi ∧
      (HashInv Z b0 → HashInv Z b1) ∧ (ScoreInv b0 → ScoreInv b1) := by
  obtain ⟨ct, ht1, hs1⟩ := undo_turn_ok Z hc ht
  -- the rook of a castle goes back
  have rook : ∀ (ro rd : Int), (0 ≤ ro ∧ ro < 64) → (0 ≤ rd ∧ rd < 64) → ro ≠ rd →
      (b0.position.pl ro).1 ≠ PieceType.CLEAR → (b0.position.pl rd).1 = PieceType.CLEAR →
      ∃ b1, Board.move_piece Z { b0 with
            _hash_key := b0._hash_key ^^^ Z.hash_code_turn
            turn := oponent b0.turn } ⟨ro, rd, PieceType.CLEAR⟩ = some b1 ∧ Consistent b1 ∧
        b1.position = ({ b0.position with turn := oponent b0.turn } : Position).move_piece ro rd ∧
        (HashInv Z b0 → HashInv Z b1) ∧ (ScoreInv b0 → ScoreInv b1) := by
    intro ro rd hr hl hne hocc hemp
    rw [← sq_type_of_pl hr.1 hr.2] at hocc
    rw [← sq_type_of_pl hl.1 hl.2] at hemp
    obtain ⟨b1, he, hcb1, hpos, hkey, hscore⟩ :=
      move_piece_ok Z ct hr.1 hr.2 hl.1 hl.2 hne hocc hemp PieceType.CLEAR
    obtain ⟨e1, e2, e3, _, _, _⟩ := scalars_of_pos hpos
    exact ⟨b1, he, hcb1, hpos,
      fun h => hashInv_of_keyInv Z hkey e1 e2 e3 (ht1 h), fun h => hscore (hs1 h)⟩
  have fin : ∀ (b1 : Board) (a1 : Position), Consistent b1 → b1.position = a1 →
      (HashInv Z b0 → HashInv Z b1) → (ScoreInv b0 → ScoreInv b1) →
      ∃ b2, (some b1).map (fun b1 =>
          if b1.castle_flags ≠ mi.castle_flags then
            { b1 with
              _hash_key := b1._hash_key ^^^
                (CastleFlags.hash Z b1.castle_flags ^^^ CastleFlags.hash Z mi.castle_flags)
              castle_flags := mi.castle_flags }
          else b1) = some b2 ∧ Consistent b2 ∧
        b2.position = { a1 with castle_flags := mi.castle_flags } ∧
        (HashInv Z b0 → HashInv Z b2) ∧ (ScoreInv b0 → ScoreInv b2) := by
    intro b1 a1 hc1 hp1 hh hs
    obtain ⟨x1, x2, x3, x4⟩ := undo_flags_ok Z hc1 mi.castle_flags
    refine ⟨_, rfl, x1, ?_, fun h => x3 (hh h), fun h => x4 (hs h)⟩
    rw [x2, hp1]
  unfold Board.undo_castle Position.undo_castle
  simp only []
  by_cases hca : mi.castled = true
  · by_cases hd2 : m.d - m.o = 2
    · obtain ⟨v1, v2, v3, v4, v5⟩ := h2 hca hd2
      obtain ⟨b1, he, hcb1, hpos, hh, hs⟩ := rook _ _ v1 v2 v3 v4 v5
      simp only [if_pos hca, if_pos hd2, he]
      exact fin b1 _ hcb1 hpos hh hs
    · by_cases hq : Place.col m.d - Place.col m.o = -2
      · obtain ⟨v1, v2, v3, v4, v5⟩ := h3 hca hd2 hq
        obtain ⟨b1, he, hcb1, hpos, hh, hs⟩ := rook _ _ v1 v2 v3 v4 v5
        simp only [if_pos hca, if_neg hd2, if_pos hq, he]
        exact fin b1 _ hcb1 hpos hh hs
      · simp only [if_pos hca, if_neg hd2, if_neg hq]
        exact fin _ _ ct rfl ht1 hs1
  · simp only [if_neg hca]
    exact fin _ _ ct rfl ht1 hs1

theorem undo_ep_key_ok (Z : ZobristTables) {b2 : Board} (hc : Consistent b2) (pp : Int) :
    Consistent (Board.undo_ep_key Z b2 pp) ∧
      (Board.undo_ep_key Z b2 pp).position = { b2.position with passan_place := pp } ∧
      (HashInv Z b2 → HashInv Z (Board.undo_ep_key Z b2 pp)) ∧
      (ScoreInv b2 → ScoreInv (Board.undo_ep_key Z b2 pp)) := by
  unfold Board.undo_ep_key
  by_cases hv : Place.is_valid b2.passan_place = true <;>
  by_cases hw : Place.is_valid pp = true
  all_goals
    simp only [hv, hw, if_true, if_false, Bool.false_eq_true, not_false_eq_true]
    refine ⟨consistent_congr hc rfl rfl rfl rfl, rfl, ?_, fun h => scoreInv_congr h rfl rfl⟩
    intro h
    unfold HashInv zobrist at h ⊢
    simp only [Board.position] at h ⊢
    simp only [h, hv, hw, if_true, if_false, Bool.false_eq_true,
      xor_xor_cancel_right', Nat.xor_zero]

theorem undo_passan_eq (Z : ZobristTables) (b : Board) (m : Move) (mi : MoveInfo) :
    Board.undo_passan Z b m mi
      = (((if Move.promotion m ≠ PieceType.CLEAR then
            Board.set_piece_type Z b m.d PieceType.PAWN else some b).bind fun b1 =>
          if mi.passan = true then
            Board.insert_piece Z b1 (Place.of_line_of_col (Move.ol m) (Move.dc m))
              mi.p.type mi.p.owner
          else some b1).map fun b2 => Board.undo_ep_key Z b2 mi.passan_place) := rfl

theorem undo_passan_ok (Z : ZobristTables) {b : Board} (hc : Consistent b) (m : Move)
    (mi : MoveInfo) (hd : 0 ≤ m.d ∧ m.d < 64)
    (hp : Move.promotion m ≠ PieceType.CLEAR →
      (b.position.pl m.d).1 ≠ PieceType.CLEAR ∧ PieceType.PAWN ≠ (b.position.pl m.d).1 ∧
      b.position.len (b.position.pl m.d).2 PieceType.PAWN < PieceVector.cap)
    (he : mi.passan = true →
      (0 ≤ Place.of_line_of_col (Move.ol m) (Move.dc m) ∧
        Place.of_line_of_col (Move.ol m) (Move.dc m) < 64) ∧
      ((if Move.promotion m ≠ PieceType.CLEAR then b.position.set_type m.d PieceType.PAWN
        else b.position).pl (Place.of_line_of_col (Move.ol m) (Move.dc m))).1
          = PieceType.CLEAR ∧
      mi.p.type ≠ PieceType.CLEAR ∧ mi.p.owner ≠ Color.None ∧
      (if Move.promotion m ≠ PieceType.CLEAR then b.position.set_type m.d PieceType.PAWN
        else b.position).len mi.p.owner mi.p.type < PieceVector.cap) :
    ∃ b5, Board.undo_passan Z b m mi = some b5 ∧ Consistent b5 ∧
      b5.position = Position.undo_passan b.position m mi ∧
      (HashInv Z b → HashInv Z b5) ∧ (ScoreInv b → ScoreInv b5) := by
  rw [undo_passan_eq]
  -- the promotion is taken back
  have s1 : ∃ b1, (if Move.promotion m ≠ PieceType.CLEAR then
        Board.set_piece_type Z b m.d PieceType.PAWN else some b) = some b1 ∧ Consistent b1 ∧
      b1.position = (if Move.promotion m ≠ PieceType.CLEAR then
        b.position.set_type m.d PieceType.PAWN else b.position) ∧
      (HashInv Z b → HashInv Z b1) ∧ (ScoreInv b → ScoreInv b1) := by
    by_cases h : Move.promotion m ≠ PieceType.CLEAR
    · obtain ⟨p1, p2, p3⟩ := hp h
      rw [position_pl_valid b hd.1 hd.2] at p1 p2 p3
      obtain ⟨b1, e1, c1, q1, k1, x1⟩ :=
        set_piece_type_ok Z hc hd.1 hd.2 p1 (by decide) p2 p3
      obtain ⟨t1, t2, t3, _, _, _⟩ := scalars_of_pos q1
      rw [if_pos h, if_pos h]
      exact ⟨b1, e1, c1, q1, fun hh => hashInv_of_keyInv Z k1 t1 t2 t3 hh, x1⟩
    · rw [if_neg h, if_neg h]
      exact ⟨b, rfl, hc, rfl, id, id⟩
  obtain ⟨b1, e1, c1, q1, hh1, hs1⟩ := s1
  -- the pawn taken en passant comes back
  have s2 : ∃ b2, (if mi.passan = true then
        Board.insert_piece Z b1 (Place.of_line_of_col (Move.ol m) (Move.dc m))
          mi.p.type mi.p.owner else some b1) = some b2 ∧ Consistent b2 ∧
      b2.position = (if mi.passan = true then
        b1.position.insert (Place.of_line_of_col (Move.ol m) (Move.dc m)) mi.p.type mi.p.owner
        else b1.position) ∧
      (HashInv Z b → HashInv Z b2) ∧ (ScoreInv b → ScoreInv b2) := by
    by_cases h : mi.passan = true
    · obtain ⟨v1, v2, v3, v4, v5⟩ := he h
      rw [← q1] at v2 v5
      rw [position_pl_valid b1 v1.1 v1.2] at v2
      obtain ⟨b2, e2, c2, q2, k2, x2⟩ := insert_piece_ok Z c1 v1.1 v1.2 v2 v3 v4 v5
      obtain ⟨t1, t2, t3, _, _, _⟩ := scalars_of_pos q2
      rw [if_pos h, if_pos h]
      exact ⟨b2, e2, c2, q2, fun hh => hashInv_of_keyInv Z k2 t1 t2 t3 (hh1 hh),
        fun hh => x2 (hs1 hh)⟩
    · rw [if_neg h, if_neg h]
      exact ⟨b1, rfl, c1, rfl, hh1, hs1⟩
  obtain ⟨b2, e2, c2, q2, hh2, hs2⟩ := s2
  obtain ⟨x1, x2, x3, x4⟩ := undo_ep_key_ok Z c2 mi.passan_place
  refine ⟨_, ?_, x1, ?_, fun h => x3 (hh2 h), fun h => x4 (hs2 h)⟩
  · rw [e1, Option.some_bind, e2, Option.map_some']
  · rw [x2, q2, q1]
    rfl

theorem undo_piece_ok (Z : ZobristTables) {b : Board} (hc : Consistent b) (m : Move)
    (mi : MoveInfo) (ho : 0 ≤ m.o ∧ m.o < 64) (hd : 0 ≤ m.d ∧ m.d < 64) (hod : m.o ≠ m.d)
    (h1 : (b.position.pl m.d).1 ≠ PieceType.CLEAR)
    (h2 : (b.position.pl m.o).1 = PieceType.CLEAR)
    (h3 : mi.capturou = true → mi.p.type ≠ PieceType.CLEAR ∧ mi.p.owner ≠ Color.None ∧
      b.position.len mi.p.owner mi.p.type < PieceVector.cap)
    (h4 : b.history ≠ []) :
    ∃ b3, Board.undo_piece Z b m mi = some b3 ∧ Consistent b3 ∧
      b3.position = Position.undo_piece b.position m mi ∧
      (HashInv Z b → HashInv Z b3) ∧ (ScoreInv b → ScoreInv b3) := by
  rw [position_pl_valid b hd.1 hd.2] at h1
  rw [position_pl_valid b ho.1 ho.2] at h2
  obtain ⟨b1, e1, c1, q1, k1, x1⟩ :=
    move_piece_ok Z hc hd.1 hd.2 ho.1 ho.2 (Ne.symm hod) h1 h2 PieceType.CLEAR
  obtain ⟨t1, t2, t3, t4, _, _⟩ := scalars_of_pos q1
  have hh1 : HashInv Z b → HashInv Z b1 := fun hh => hashInv_of_keyInv Z k1 t1 t2 t3 hh
  have s2 : ∃ b2, (if mi.capturou = true then
        Board.insert_piece Z b1 m.d mi.p.type mi.p.owner else some b1) = some b2 ∧
      Consistent b2 ∧
      b2.position = (if mi.capturou = true then
        b1.position.insert m.d mi.p.type mi.p.owner else b1.position) ∧
      (HashInv Z b → HashInv Z b2) ∧ (ScoreInv b → ScoreInv b2) := by
    by_cases h : mi.capturou = true
    · obtain ⟨v3, v4, v5⟩ := h3 h
      have hemp : (b1._squares m.d).type = PieceType.CLEAR := by
        rw [sq_type_of_pl hd.1 hd.2, q1]
        unfold Position.move_piece
        simp only []
        rw [Function.update_same]
      have hcap : b1.position.len mi.p.owner mi.p.type < PieceVector.cap := by
        have : b1.position.len = b.position.len := by rw [q1]; rfl
        rw [this]; exact v5
      obtain ⟨b2, e2, c2, q2, k2, x2⟩ := insert_piece_ok Z c1 hd.1 hd.2 hemp v3 v4 hcap
      obtain ⟨u1, u2, u3, _, _, _⟩ := scalars_of_pos q2
      rw [if_pos h, if_pos h]
      exact ⟨b2, e2, c2, q2, fun hh => hashInv_of_keyInv Z k2 u1 u2 u3 (hh1 hh),
        fun hh => x2 (x1 hh)⟩
    · rw [if_neg h, if_neg h]
      exact ⟨b1, rfl, c1, rfl, hh1, x1⟩
  obtain ⟨b2, e2, c2, q2, hh2, hs2⟩ := s2
  have hhist : b2.history ≠ [] := by
    have e : b2.history = b.history := by
      have h5 := congrArg Position.history q2
      have h6 : (if mi.capturou = true then
          b1.position.insert m.d mi.p.type mi.p.owner else b1.position).history
          = b1.position.history := by
        split_ifs <;> rfl
      have h7 : b2.history = b1.position.history := h5.trans h6
      rw [h7, q1]; rfl
    rw [e]; exact h4
  refine ⟨{ b2 with
      history := b2.history.dropLast
      _last_irreversible_move := mi.last_irreversible_move }, ?_,
    consistent_congr c2 rfl rfl rfl rfl, ?_, ?_, fun h => scoreInv_congr (hs2 h) rfl rfl⟩
  · unfold Board.undo_piece
    rw [e1, Option.some_bind]
    simp only []
    rw [e2, Option.some_bind, if_neg hhist]
  · have : (Board.position { b2 with
          history := b2.history.dropLast
          _last_irreversible_move := mi.last_irreversible_move })
        = { b2.position with
            history := b2.position.history.dropLast
            _last_irreversible_move := mi.last_irreversible_move } := rfl
    rw [this, q2, q1]
    rfl
  · intro h
    exact hashInv_congr Z (hh2 h) rfl rfl rfl rfl rfl

theorem Position.pl_move_eq (pl : Int → PieceType × Color) (m : Move) :
    Position.pl_move pl m =
      if (pl m.o).1 = PieceType.KING ∧ Place.col m.d - Place.col m.o = 2 then
        Function.update (Function.update (Position.pl_promo pl m) (m.d - 1)
          (Position.pl_promo pl m (m.d + 1))) (m.d + 1) Position.none_sq
      else if (pl m.o).1 = PieceType.KING ∧ Place.col m.d - Place.col m.o = -2 then
        Function.update (Function.update (Position.pl_promo pl m) (m.d + 1)
          (Position.pl_promo pl m (m.d - 2))) (m.d - 2) Position.none_sq
      else Position.pl_promo pl m := rfl

theorem Position.undo_castle_pl (a0 : Position) (m : Move) (mi : MoveInfo)
    (hd : 0 ≤ m.d ∧ m.d < 64) :
    (Position.undo_castle a0 m mi).pl =
      (if mi.castled = true then
        if m.d - m.o = 2 then
          Function.update (Function.update a0.pl (m.d + 1) (a0.pl (m.d - 1))) (m.d - 1)
            Position.none_sq
        else if Place.col m.d - Place.col m.o = -2 then
          Function.update (Function.update a0.pl (m.d - 2) (a0.pl (m.d + 1))) (m.d + 1)
            Position.none_sq
        else a0.pl
      else a0.pl) ∧
    (Position.undo_castle a0 m mi).len = a0.len ∧
    (Position.undo_castle a0 m mi).history = a0.history ∧
    (Position.undo_castle a0 m mi).turn = oponent a0.turn := by
  have hr : Place.right m.d = m.d + 1 := place_right_eq hd
  have hl : Place.left m.d = m.d - 1 := place_left_eq ⟨hd.1, by omega⟩
  have hll : Place.left (m.d - 1) = m.d - 2 := by
    unfold Place.left; rw [toInt8_eq (by omega) (by omega)]; omega
  unfold Position.undo_castle
  simp only [hr, hl, hll, Position.move_piece, Position.none_sq]
  split_ifs <;> simp

theorem Position.pl_promo_castle (a : Position) (m : Move) (hm : a.MoveOk m)
    (hK : (a.pl m.o).1 = PieceType.KING) :
    Position.pl_promo a.pl m
      = Function.update (Function.update a.pl m.d (a.pl m.o)) m.o Position.none_sq := by
  have hpr : ¬ Move.promotion m ≠ PieceType.CLEAR := by
    intro h
    have := (hm.promo h).1
    rw [hK] at this
    exact absurd this (by decide)
  have hnep : ¬ ((a.pl m.o).1 = PieceType.PAWN ∧ (a.pl m.d).1 = PieceType.CLEAR ∧
      Move.dc m ≠ Move.oc m) := fun h => by rw [hK] at h; exact absurd h.1 (by decide)
  unfold Position.pl_promo Position.pl_step
  rw [if_neg hpr, if_neg hnep]

/-- The first part of `Board::undo` after `Board::move`: the rook of a castle is where
`Board.undo_castle` looks for it, and goes back. -/
theorem Position.castle_stage (a : Position) (hok : a.Ok) (m : Move) (hm : a.MoveOk m)
    (k : Nat) :
    ((a.move m k).2.castled = true → m.d - m.o = 2 →
      (0 ≤ Place.left m.d ∧ Place.left m.d < 64) ∧
      (0 ≤ Place.right m.d ∧ Place.right m.d < 64) ∧ Place.left m.d ≠ Place.right m.d ∧
      ((a.move m k).1.pl (Place.left m.d)).1 ≠ PieceType.CLEAR ∧
      ((a.move m k).1.pl (Place.right m.d)).1 = PieceType.CLEAR) ∧
    ((a.move m k).2.castled = true → ¬ m.d - m.o = 2 →
      Place.col m.d - Place.col m.o = -2 →
      (0 ≤ Place.right m.d ∧ Place.right m.d < 64) ∧
      (0 ≤ Place.left (Place.left m.d) ∧ Place.left (Place.left m.d) < 64) ∧
      Place.right m.d ≠ Place.left (Place.left m.d) ∧
      ((a.move m k).1.pl (Place.right m.d)).1 ≠ PieceType.CLEAR ∧
      ((a.move m k).1.pl (Place.left (Place.left m.d))).1 = PieceType.CLEAR) ∧
    (Position.undo_castle (a.move m k).1 m (a.move m k).2).pl = Position.pl_promo a.pl m := by
  obtain ⟨i1, i2, i3, i4, i5, i6, i7, i8⟩ := Position.move_info a m k
  have ho := hm.o_valid
  have hd := hm.d_valid
  have hod := hm.o_ne_d
  have hF := Position.move_pl a m k ho hd hod
  have hr : Place.right m.d = m.d + 1 := place_right_eq hd
  have hl : Place.left m.d = m.d - 1 := place_left_eq ⟨hd.1, by omega⟩
  have hll : Place.left (m.d - 1) = m.d - 2 := by
    unfold Place.left; rw [toInt8_eq (by omega) (by omega)]; omega
  have hU := (Position.undo_castle_pl (a.move m k).1 m (a.move m k).2 hd).1
  rw [hU, hF, Position.pl_move_eq, hr, hl, hll]
  have hvalid : ∀ p, (a.pl p).1 ≠ PieceType.CLEAR → 0 ≤ p ∧ p < 64 := by
    intro p hp
    by_contra h
    exact hp (by rw [hok.outside p h])
  by_cases hK : (a.pl m.o).1 = PieceType.KING ∧
      (Place.col m.d - Place.col m.o = 2 ∨ Place.col m.d - Place.col m.o = -2)
  · have hcastled : (a.move m k).2.castled = true := by rw [i6]; simpa using hK
    have hpc := Position.pl_promo_castle a m hm hK.1
    have hcol : Place.col m.d = m.d % 8 ∧ Place.col m.o = m.o % 8 := ⟨rfl, rfl⟩
    rcases hK.2 with h2 | h2
    · obtain ⟨q1, q2, q3, q4, q5⟩ := hm.king_side hK.1 h2
      have e1 := hok.sq_none q4
      have hv := hvalid _ q3
      have hdo : m.d - m.o = 2 := by omega
      have hX1 : Position.pl_promo a.pl m (m.d + 1) = a.pl (m.d + 1) := by
        rw [hpc, Function.update_noteq (by omega), Function.update_noteq (by omega)]
      have hX2 : Position.pl_promo a.pl m (m.d - 1) = Position.none_sq := by
        rw [hpc, Function.update_noteq (by omega), Function.update_noteq (by omega)]
        exact e1
      simp only [if_pos (And.intro hK.1 h2), if_pos hcastled, if_pos hdo]
      refine ⟨fun _ _ => ⟨by omega, hv, by omega, ?_, ?_⟩, fun _ h => absurd hdo h, ?_⟩
      · rw [Function.update_noteq (by omega), Function.update_same, hX1]; exact q3
      · rw [Function.update_same]; rfl
      · rw [update_move_back (Position.pl_promo a.pl m) (m.d + 1) (m.d - 1) _ _ (by omega)]
        exact update_same_val hX2
    · obtain ⟨q1, q2, q3, q4, q5⟩ := hm.queen_side hK.1 h2
      have e1 := hok.sq_none q4
      have hv := hvalid _ q3
      have hdo : ¬ m.d - m.o = 2 := by omega
      have h2' : ¬ ((a.pl m.o).1 = PieceType.KING ∧ Place.col m.d - Place.col m.o = 2) := by
        intro h; omega
      have hX1 : Position.pl_promo a.pl m (m.d - 2) = a.pl (m.d - 2) := by
        rw [hpc, Function.update_noteq (by omega), Function.update_noteq (by omega)]
      have hX2 : Position.pl_promo a.pl m (m.d + 1) = Position.none_sq := by
        rw [hpc, Function.update_noteq (by omega), Function.update_noteq (by omega)]
        exact e1
      simp only [if_neg h2', if_pos (And.intro hK.1 h2), if_pos hcastled, if_neg hdo, if_pos h2]
      refine ⟨fun _ h => absurd h hdo, fun _ _ _ => ⟨by omega, hv, by omega, ?_, ?_⟩, ?_⟩
      · rw [Function.update_noteq (by omega), Function.update_same, hX1]; exact q3
      · rw [Function.update_same]; rfl
      · rw [update_move_back (Position.pl_promo a.pl m) (m.d - 2) (m.d + 1) _ _ (by omega)]
        exact update_same_val hX2
  · have hcastled : ¬ (a.move m k).2.castled = true := by rw [i6]; simpa using hK
    have hK1 : ¬ ((a.pl m.o).1 = PieceType.KING ∧ Place.col m.d - Place.col m.o = 2) :=
      fun h => hK ⟨h.1, Or.inl h.2⟩
    have hK2 : ¬ ((a.pl m.o).1 = PieceType.KING ∧ Place.col m.d - Place.col m.o = -2) :=
      fun h => hK ⟨h.1, Or.inr h.2⟩
    simp only [if_neg hcastled, if_neg hK1, if_neg hK2]
    exact ⟨fun h => absurd h hcastled, fun h => absurd h hcastled, trivial⟩

theorem Position.move_len (a : Position) (m : Move) (k : Nat) (ho : 0 ≤ m.o ∧ m.o < 64)
    (hod : m.o ≠ m.d) : (a.move m k).1.len = a.len_move m := by
  obtain ⟨g1, g2, g3, g4, g5, g6, g7, g8, g9, g10⟩ := Position.move_capture_facts a m k
  obtain ⟨k1, k2, k3, k4, k5, k6, k7⟩ :=
    Position.move_en_passan_facts (a.move_capture m k) m (a.pl m.o).1
  have h3 : (a.steps3 m k).len
      = (if (a.pl m.o).1 = PieceType.PAWN ∧ (a.pl m.d).1 = PieceType.CLEAR ∧
            Move.dc m ≠ Move.oc m then
          Position.bump (if (a.pl m.d).1 ≠ PieceType.CLEAR then
              Position.bump a.len (a.pl m.d).2 (a.pl m.d).1 0 1 else a.len)
            (a.pl (Place.of_line_of_col (Move.ol m) (Move.dc m))).2
            (a.pl (Place.of_line_of_col (Move.ol m) (Move.dc m))).1 0 1
        else (if (a.pl m.d).1 ≠ PieceType.CLEAR then
              Position.bump a.len (a.pl m.d).2 (a.pl m.d).1 0 1 else a.len)) := by
    unfold Position.steps3 Position.move_piece
    simp only []
    rw [k2]
    by_cases hcap : (a.pl m.d).1 = PieceType.CLEAR
    · have e8 : (a.move_capture m k).2.capturou = false := by rw [g8]; simpa using hcap
      have e1 : (a.move_capture m k).1.pl = a.pl := by rw [g1]; simp [hcap]
      have e2 : (a.move_capture m k).1.len = a.len := by rw [g2]; simp [hcap]
      have hn : ¬ (a.pl m.d).1 ≠ PieceType.CLEAR := not_not.mpr hcap
      rw [e8, e1, e2, if_neg hn]
      by_cases hc : (a.pl m.o).1 = PieceType.PAWN ∧ Move.dc m ≠ Move.oc m
      · rw [if_pos ⟨hc.1, rfl, hc.2⟩, if_pos ⟨hc.1, hcap, hc.2⟩]
      · rw [if_neg (fun h => hc ⟨h.1, h.2.2⟩), if_neg (fun h => hc ⟨h.1, h.2.2⟩)]
    · have e8 : (a.move_capture m k).2.capturou = true := by rw [g8]; simpa using hcap
      rw [e8, g2, if_neg (fun h => absurd h.2.1 (by decide)), if_pos hcap,
        if_neg (fun h => hcap h.2.1)]
  have h4 : ((a.steps3 m k).move_promote m).len
      = if Move.promotion m ≠ PieceType.CLEAR then
          Position.bump (Position.bump (a.steps3 m k).len (a.pl m.o).2 (a.pl m.o).1 0 1)
            (a.pl m.o).2 (Move.promotion m) 1 0
        else (a.steps3 m k).len := by
    unfold Position.move_promote Position.set_type
    split_ifs
    · simp only []
      rw [(Position.steps3_facts a m k ho hod).1]
    · rfl
  have hrt : ∀ (x : Position × MoveInfo) (t : PieceType) (op : Color),
      (Position.move_rook_taken x m t op).1.len = x.1.len := by
    intro x t op
    unfold Position.move_rook_taken
    split_ifs <;> rfl
  have hfin : (a.move m k).1.len = (a.steps6 m k).1.len := rfl
  rw [hfin]
  unfold Position.steps6
  rw [hrt, (Position.move_castle_facts _ _ _).2.1, (Position.move_mark_passan_facts _ _ _).2.1]
  simp only []
  rw [h4, h3]
  rfl

theorem Position.len_move_eq (a : Position) (m : Move) :
    a.len_move m = if Move.promotion m ≠ PieceType.CLEAR then
        Position.bump (Position.bump (a.len_step m) (a.pl m.o).2 (a.pl m.o).1 0 1) (a.pl m.o).2
          (Move.promotion m) 1 0
      else a.len_step m := rfl

theorem Position.len_step_le (a : Position) (m : Move) (c : Color) (t : PieceType) :
    a.len_step m c t ≤ a.len c t := by
  unfold Position.len_step
  split_ifs <;>
    first
      | exact Nat.le_refl _
      | exact bump_le _ _ _ _ _
      | exact Nat.le_trans (bump_le _ _ _ _ _) (bump_le _ _ _ _ _)

theorem Position.len_step_capture (a : Position) (m : Move)
    (h : (a.pl m.d).1 ≠ PieceType.CLEAR) (hcap : a.len (a.pl m.d).2 (a.pl m.d).1 ≤ 10) :
    a.len_step m (a.pl m.d).2 (a.pl m.d).1 < 10 := by
  unfold Position.len_step
  rw [if_neg (fun hh => h hh.2.1), if_pos h, bump_apply, if_pos ⟨rfl, rfl⟩]
  omega

theorem Position.len_step_passan (a : Position) (m : Move)
    (h : (a.pl m.o).1 = PieceType.PAWN ∧ (a.pl m.d).1 = PieceType.CLEAR ∧
      Move.dc m ≠ Move.oc m)
    (hcap : a.len (a.pl (Place.of_line_of_col (Move.ol m) (Move.dc m))).2
      (a.pl (Place.of_line_of_col (Move.ol m) (Move.dc m))).1 ≤ 10) :
    a.len_step m (a.pl (Place.of_line_of_col (Move.ol m) (Move.dc m))).2
      (a.pl (Place.of_line_of_col (Move.ol m) (Move.dc m))).1 < 10 := by
  unfold Position.len_step
  rw [if_pos h, if_neg (not_not.mpr h.2.1), bump_apply, if_pos ⟨rfl, rfl⟩]
  omega

theorem Position.pl_promo_d (a : Position) (m : Move) (hod : m.o ≠ m.d) :
    Position.pl_promo a.pl m m.d
      = if Move.promotion m ≠ PieceType.CLEAR then (Move.promotion m, (a.pl m.o).2)
        else a.pl m.o := by
  unfold Position.pl_promo Position.pl_step
  split_ifs
  · rw [Function.update_same]
  · rw [Function.update_same]
  · rw [Function.update_noteq (Ne.symm hod), Function.update_same]
  · rw [Function.update_noteq (Ne.symm hod), Function.update_same]

theorem Position.undo_passan_facts (a2 : Position) (m : Move) (mi : MoveInfo) :
    (Position.undo_passan a2 m mi).pl
        = (if mi.passan = true then
            Function.update
              (if Move.promotion m ≠ PieceType.CLEAR then
                Function.update a2.pl m.d (PieceType.PAWN, (a2.pl m.d).2) else a2.pl)
              (Place.of_line_of_col (Move.ol m) (Move.dc m)) (mi.p.type, mi.p.owner)
          else (if Move.promotion m ≠ PieceType.CLEAR then
                Function.update a2.pl m.d (PieceType.PAWN, (a2.pl m.d).2) else a2.pl)) ∧
      (Position.undo_passan a2 m mi).len
        = (if mi.passan = true then
            Position.bump
              (if Move.promotion m ≠ PieceType.CLEAR then
                Position.bump (Position.bump a2.len (a2.pl m.d).2 (a2.pl m.d).1 0 1)
                  (a2.pl m.d).2 PieceType.PAWN 1 0 else a2.len)
              mi.p.owner mi.p.type 1 0
          else (if Move.promotion m ≠ PieceType.CLEAR then
                Position.bump (Position.bump a2.len (a2.pl m.d).2 (a2.pl m.d).1 0 1)
                  (a2.pl m.d).2 PieceType.PAWN 1 0 else a2.len)) ∧
      (Position.undo_passan a2 m mi).history = a2.history ∧
      (Position.undo_passan a2 m mi).turn = a2.turn := by
  unfold Position.undo_passan Position.set_type Position.insert
  simp only []
  split_ifs <;> simp

theorem bump_promo_back (L : Color → PieceType → Nat) (c0 : Color) (p : PieceType)
    (hp : p ≠ PieceType.PAWN) (c : Color) (t : PieceType) (h : L c t < 10) :
    Position.bump (Position.bump (Position.bump (Position.bump L c0 PieceType.PAWN 0 1)
      c0 p 1 0) c0 p 0 1) c0 PieceType.PAWN 1 0 c t < 10 := by
  by_cases h1 : c = c0 ∧ t = PieceType.PAWN
  · obtain ⟨rfl, rfl⟩ := h1
    simp only [bump_apply, hp, hp.symm, and_false, and_self, if_true, if_false, true_and]
    omega
  · by_cases h2 : c = c0 ∧ t = p
    · obtain ⟨rfl, rfl⟩ := h2
      simp only [bump_apply, hp, hp.symm, and_false, and_self, if_true, if_false, true_and]
      omega
    · simp only [bump_apply, h1, h2, if_false]
      exact h

/-- The second part of `Board::undo` after `Board::move`: what `Board.undo_passan` needs holds,
and it leaves the squares as they were before the move, but for the piece that moved. -/
theorem Position.passan_stage (a : Position) (hok : a.Ok) (m : Move) (hm : a.MoveOk m)
    (k : Nat) (U1 : Position) (hUpl : U1.pl = Position.pl_promo a.pl m)
    (hUlen : U1.len = a.len_move m) :
    (Move.promotion m ≠ PieceType.CLEAR →
      (U1.pl m.d).1 ≠ PieceType.CLEAR ∧ PieceType.PAWN ≠ (U1.pl m.d).1 ∧
      U1.len (U1.pl m.d).2 PieceType.PAWN < PieceVector.cap) ∧
    ((a.move m k).2.passan = true →
      (0 ≤ Place.of_line_of_col (Move.ol m) (Move.dc m) ∧
        Place.of_line_of_col (Move.ol m) (Move.dc m) < 64) ∧
      ((if Move.promotion m ≠ PieceType.CLEAR then U1.set_type m.d PieceType.PAWN
        else U1).pl (Place.of_line_of_col (Move.ol m) (Move.dc m))).1 = PieceType.CLEAR ∧
      (a.move m k).2.p.type ≠ PieceType.CLEAR ∧ (a.move m k).2.p.owner ≠ Color.None ∧
      (if Move.promotion m ≠ PieceType.CLEAR then U1.set_type m.d PieceType.PAWN
        else U1).len (a.move m k).2.p.owner (a.move m k).2.p.type < PieceVector.cap) ∧
    (Position.undo_passan U1 m (a.move m k).2).pl
      = Function.update (Function.update a.pl m.d (a.pl m.o)) m.o Position.none_sq ∧
    ((a.move m k).2.capturou = true →
      (a.move m k).2.p.type ≠ PieceType.CLEAR ∧ (a.move m k).2.p.owner ≠ Color.None ∧
      (Position.undo_passan U1 m (a.move m k).2).len (a.move m k).2.p.owner
        (a.move m k).2.p.type < PieceVector.cap) := by
  obtain ⟨i1, i2, i3, i4, i5, i6, i7, i8⟩ := Position.move_info a m k
  obtain ⟨u1, u2, u3, u4⟩ := Position.undo_passan_facts U1 m (a.move m k).2
  have ho := hm.o_valid
  have hd := hm.d_valid
  have hod := hm.o_ne_d
  have hcap10 : PieceVector.cap = 10 := rfl
  have hvalid : ∀ p, (a.pl p).1 ≠ PieceType.CLEAR → 0 ≤ p ∧ p < 64 := by
    intro p hp
    by_contra h
    exact hp (by rw [hok.outside p h])
  have hep : Move.dc m ≠ Move.oc m → Place.of_line_of_col (Move.ol m) (Move.dc m) ≠ m.o := by
    intro h3 h4
    unfold Move.ol Move.dc at h4
    rw [ep_place_eq m.d ho] at h4
    unfold Move.dc Move.oc Place.col at h3
    omega
  have hUd := Position.pl_promo_d a m hod
  rw [← hUpl] at hUd
  have hle := Position.len_step_le a m
  have hlm := Position.len_move_eq a m
  -- the squares once the promotion is taken back
  have h3 : (if Move.promotion m ≠ PieceType.CLEAR then
        Function.update U1.pl m.d (PieceType.PAWN, (U1.pl m.d).2) else U1.pl)
      = Position.pl_step a.pl m := by
    by_cases hPm : Move.promotion m ≠ PieceType.CLEAR
    · rw [if_pos hPm, hUd, if_pos hPm, hUpl]
      unfold Position.pl_promo
      rw [if_pos hPm, Function.update_idem]
      apply update_same_val
      unfold Position.pl_step
      rw [Function.update_noteq (Ne.symm hod), Function.update_same]
      exact Prod.ext (hm.promo hPm).1 rfl
    · rw [if_neg hPm, hUpl]
      unfold Position.pl_promo
      rw [if_neg hPm]
  -- the lengths once the promotion is taken back
  have h3l : ∀ (c : Color) (t : PieceType), a.len_step m c t < 10 →
      (if Move.promotion m ≠ PieceType.CLEAR then
        Position.bump (Position.bump U1.len (U1.pl m.d).2 (U1.pl m.d).1 0 1)
          (U1.pl m.d).2 PieceType.PAWN 1 0 else U1.len) c t < 10 := by
    intro c t hlt
    by_cases hPm : Move.promotion m ≠ PieceType.CLEAR
    · obtain ⟨q1, q2, q6⟩ := hm.promo hPm
      rw [if_pos hPm, hUd, if_pos hPm, hUlen, hlm, if_pos hPm, q1]
      exact bump_promo_back _ _ _ q2 c t hlt
    · rw [if_neg hPm, hUlen, hlm, if_neg hPm]
      exact hlt
  refine ⟨?_, ?_, ?_, ?_⟩
  · intro hPm
    obtain ⟨q1, q2, q6⟩ := hm.promo hPm
    rw [hUd, if_pos hPm]
    refine ⟨hPm, Ne.symm q2, ?_⟩
    rw [hUlen, hlm, if_pos hPm, q1, bump_apply, if_neg (fun h => q2 h.2.symm), bump_apply,
      if_pos ⟨rfl, rfl⟩, hcap10]
    have := hle (a.pl m.o).2 PieceType.PAWN
    have := hok.cap (a.pl m.o).2 PieceType.PAWN
    omega
  · intro hpassan
    have hE : (a.pl m.o).1 = PieceType.PAWN ∧ (a.pl m.d).1 = PieceType.CLEAR ∧
        Move.dc m ≠ Move.oc m := by rw [i5] at hpassan; simpa using hpassan
    have hpw := hm.passan hE.1 hE.2.1 hE.2.2
    have hv := hvalid _ (by rw [hpw]; decide)
    have hepd : Place.of_line_of_col (Move.ol m) (Move.dc m) ≠ m.d := by
      intro h
      rw [h, hE.2.1] at hpw
      exact absurd hpw (by decide)
    have hset : ∀ x : Position, (if Move.promotion m ≠ PieceType.CLEAR then
          x.set_type m.d PieceType.PAWN else x).pl
        = (if Move.promotion m ≠ PieceType.CLEAR then
            Function.update x.pl m.d (PieceType.PAWN, (x.pl m.d).2) else x.pl) ∧
        (if Move.promotion m ≠ PieceType.CLEAR then
          x.set_type m.d PieceType.PAWN else x).len
        = (if Move.promotion m ≠ PieceType.CLEAR then
            Position.bump (Position.bump x.len (x.pl m.d).2 (x.pl m.d).1 0 1)
              (x.pl m.d).2 PieceType.PAWN 1 0 else x.len) := by
      intro x
      unfold Position.set_type
      split_ifs <;> exact ⟨rfl, rfl⟩
    rw [(hset U1).1, (hset U1).2, h3, i8 hE]
    refine ⟨hv, ?_, ?_, ?_, ?_⟩
    · unfold Position.pl_step
      rw [if_pos hE, Function.update_noteq (hep hE.2.2), Function.update_noteq hepd,
        Function.update_same]
      rfl
    · show (a.pl _).1 ≠ PieceType.CLEAR
      rw [hpw]; decide
    · show (a.pl _).2 ≠ Color.None
      intro h
      have := (hok.none_iff _).mpr h
      rw [hpw] at this
      exact absurd this (by decide)
    · rw [hcap10]
      exact h3l _ _ (Position.len_step_passan a m hE (hok.cap _ _))
  · rw [u1, h3]
    by_cases hE : (a.pl m.o).1 = PieceType.PAWN ∧ (a.pl m.d).1 = PieceType.CLEAR ∧
        Move.dc m ≠ Move.oc m
    · have hpassan : (a.move m k).2.passan = true := by rw [i5]; simpa using hE
      have hpw := hm.passan hE.1 hE.2.1 hE.2.2
      have hepd : Place.of_line_of_col (Move.ol m) (Move.dc m) ≠ m.d := by
        intro h
        rw [h, hE.2.1] at hpw
        exact absurd hpw (by decide)
      rw [if_pos hpassan, i8 hE]
      unfold Position.pl_step
      rw [if_pos hE]
      exact update_put_back a.pl m.o m.d _ _ _ _ (hep hE.2.2) hepd rfl
    · have hpassan : ¬ (a.move m k).2.passan = true := by rw [i5]; simpa using hE
      rw [if_neg hpassan]
      unfold Position.pl_step
      rw [if_neg hE]
  · intro hcapt
    have hC : (a.pl m.d).1 ≠ PieceType.CLEAR := by rw [i4] at hcapt; simpa using hcapt
    have hpassan : ¬ (a.move m k).2.passan = true := by
      rw [i5]; simp only [decide_eq_true_eq]; exact fun h => hC h.2.1
    rw [u2, if_neg hpassan, i7 hC, hcap10]
    refine ⟨hC, ?_, ?_⟩
    · show (a.pl _).2 ≠ Color.None
      intro h
      exact hC ((hok.none_iff _).mpr h)
    · exact h3l _ _ (Position.len_step_capture a m hC (hok.cap _ _))

/-- The method `Board::undo` after `Board::move`, on the board that `move` left: it returns, the
board it leaves is consistent, and it does to the position what `Position.undo` says. -/
theorem undo_ok (Z : ZobristTables) {b' : Board} (hc' : Consistent b') (a : Position)
    (hok : a.Ok) (m : Move) (hm : a.MoveOk m) (k : Nat) (mi : MoveInfo)
    (hpos : b'.position = (a.move m k).1) (hmi : mi.forget_id = (a.move m k).2) :
    ∃ b'', Board.undo Z b' m mi = some b'' ∧ Consistent b'' ∧
      b''.position = Position.undo (a.move m k).1 m (a.move m k).2 ∧
      (HashInv Z b' → HashInv Z b'') ∧ (ScoreInv b' → ScoreInv b'') := by
  have ho := hm.o_valid
  have hd := hm.d_valid
  have hod := hm.o_ne_d
  have hcs : (a.move m k).2.castled = mi.castled := by rw [← hmi]; rfl
  have hps : (a.move m k).2.passan = mi.passan := by rw [← hmi]; rfl
  have hcp : (a.move m k).2.capturou = mi.capturou := by rw [← hmi]; rfl
  have hpt : (a.move m k).2.p.type = mi.p.type := by rw [← hmi]; rfl
  have hpo : (a.move m k).2.p.owner = mi.p.owner := by rw [← hmi]; rfl
  have hturn : b'.turn ≠ Color.None := by
    have h1 : b'.turn = (a.move m k).1.turn := congrArg Position.turn hpos
    have h2 : (a.move m k).1.turn = oponent a.turn := rfl
    rw [h1, h2]
    exact oponent_ne_none hm.turn_ok
  -- the rook of a castle
  obtain ⟨cs1, cs2, cs3⟩ := Position.castle_stage a hok m hm k
  rw [hcs, ← hpos] at cs1 cs2
  obtain ⟨b1, e1, c1, p1, hh1, hs1⟩ := undo_castle_ok Z hc' hturn m mi cs1 cs2
  have p1' : b1.position = Position.undo_castle (a.move m k).1 m (a.move m k).2 := by
    rw [p1, hpos, ← hmi, Position.undo_castle_forget]
  -- promotion and en passant
  have hUlen : (Position.undo_castle (a.move m k).1 m (a.move m k).2).len = a.len_move m := by
    rw [(Position.undo_castle_pl _ m _ hd).2.1, Position.move_len a m k ho hod]
  obtain ⟨ps1, ps2, ps3, ps4⟩ := Position.passan_stage a hok m hm k _ cs3 hUlen
  rw [← p1'] at ps1 ps2 ps3 ps4
  rw [hps, hpt, hpo] at ps2
  rw [hcp, hpt, hpo] at ps4
  obtain ⟨b5, e5, c5, p5, hh5, hs5⟩ := undo_passan_ok Z c1 m mi hd ps1 ps2
  have p5' : b5.position = Position.undo_passan b1.position m (a.move m k).2 := by
    rw [p5, ← hmi, Position.undo_passan_forget]
  rw [← p5'] at ps3 ps4
  -- the piece itself
  have g1 : (b5.position.pl m.d).1 ≠ PieceType.CLEAR := by
    rw [ps3, Function.update_noteq (Ne.symm hod), Function.update_same]
    exact hm.own.1
  have g2 : (b5.position.pl m.o).1 = PieceType.CLEAR := by
    rw [ps3, Function.update_same]; rfl
  have g4 : b5.history ≠ [] := by
    have h1 : b5.history = (Position.undo_passan b1.position m (a.move m k).2).history :=
      congrArg Position.history p5'
    rw [h1, (Position.undo_passan_facts _ _ _).2.2.1, p1',
      (Position.undo_castle_pl _ m _ hd).2.2.1]
    have h2 : (a.move m k).1.history = (a.steps6 m k).1.history := rfl
    have hrt : ∀ (x : Position × MoveInfo) (t : PieceType) (op : Color),
        (Position.move_rook_taken x m t op).1.history = x.1.history := by
      intro x t op
      unfold Position.move_rook_taken
      split_ifs <;> rfl
    rw [h2]
    unfold Position.steps6
    rw [hrt, (Position.move_castle_facts _ _ _).2.2.2.1,
      (Position.move_mark_passan_facts _ _ _).2.2.2.2]
    simp only []
    rw [(Position.move_promote_facts _ _).2.2.2.1,
      (Position.steps3_facts a m k ho hod).2.2.2.2.2]
    simp
  obtain ⟨b7, e7, c7, p7, hh7, hs7⟩ := undo_piece_ok Z c5 m mi ho hd hod g1 g2 ps4 g4
  refine ⟨b7, ?_, c7, ?_, fun h => hh7 (hh5 (hh1 h)), fun h => hs7 (hs5 (hs1 h))⟩
  · unfold Board.undo
    rw [e1, Option.some_bind, e5, Option.some_bind, e7]
  · rw [p7, p5, p1, hpos, Position.undo_eq, ← hmi]
    rfl

theorem Position.move_scalars (a : Position) (m : Move) (k : Nat) (ho : 0 ≤ m.o ∧ m.o < 64)
    (hod : m.o ≠ m.d) :
    (a.move m k).1.turn = oponent a.turn ∧ (a.move m k).1.history = a.history ++ [k] ∧
      (a.move m k).1._base_ply = a._base_ply := by
  have h2 : (a.move m k).1.history = (a.steps6 m k).1.history := rfl
  have h3 : (a.move m k).1._base_ply = (a.steps6 m k).1._base_ply := rfl
  have hrt : ∀ (x : Position × MoveInfo) (t : PieceType) (op : Color),
      (Position.move_rook_taken x m t op).1.history = x.1.history ∧
      (Position.move_rook_taken x m t op).1._base_ply = x.1._base_ply := by
    intro x t op
    unfold Position.move_rook_taken
    split_ifs <;> exact ⟨rfl, rfl⟩
  have hca : ∀ (s : Position × MoveInfo) (t : PieceType),
      (Position.move_castle s m t).1._base_ply = s.1._base_ply := by
    intro s t
    unfold Position.move_castle Position.move_piece
    simp only []
    split_ifs <;> rfl
  have hmp : ∀ (s : Position × MoveInfo) (t : PieceType),
      (Position.move_mark_passan s m t).1._base_ply = s.1._base_ply := by
    intro s t
    unfold Position.move_mark_passan
    simp only []
    split_ifs <;> rfl
  refine ⟨rfl, ?_, ?_⟩
  · rw [h2]
    unfold Position.steps6
    rw [(hrt _ _ _).1, (Position.move_castle_facts _ _ _).2.2.2.1,
      (Position.move_mark_passan_facts _ _ _).2.2.2.2]
    simp only []
    rw [(Position.move_promote_facts _ _).2.2.2.1,
      (Position.steps3_facts a m k ho hod).2.2.2.2.2]
  · rw [h3]
    unfold Position.steps6
    rw [(hrt _ _ _).2, hca, hmp]
    simp only []
    rw [(Position.move_promote_facts _ _).2.2.2.2.1, (Position.steps3_scalars a m k).2.2]

theorem oponent_oponent {c : Color} : oponent (oponent c) = c := by
  cases c <;> rfl

/-- After `move` and `undo` the position has its squares and its scalar fields back. -/
theorem Position.undo_move_fields (a : Position) (hok : a.Ok) (m : Move) (hm : a.MoveOk m)
    (k : Nat) :
    (Position.undo (a.move m k).1 m (a.move m k).2).pl = a.pl ∧
      (Position.undo (a.move m k).1 m (a.move m k).2).turn = a.turn ∧
      (Position.undo (a.move m k).1 m (a.move m k).2).castle_flags = a.castle_flags ∧
      (Position.undo (a.move m k).1 m (a.move m k).2).passan_place = a.passan_place ∧
      (Position.undo (a.move m k).1 m (a.move m k).2).history = a.history ∧
      (Position.undo (a.move m k).1 m (a.move m k).2)._base_ply = a._base_ply ∧
      (Position.undo (a.move m k).1 m (a.move m k).2)._last_irreversible_move
        = a._last_irreversible_move := by
  obtain ⟨i1, i2, i3, i4, i5, i6, i7, i8⟩ := Position.move_info a m k
  obtain ⟨u1, u2, u3, u4, u5, u6⟩ := Position.undo_scalars (a.move m k).1 m (a.move m k).2
  obtain ⟨s1, s2, s3⟩ := Position.move_scalars a m k hm.o_valid hm.o_ne_d
  refine ⟨?_, ?_, ?_, ?_, ?_, ?_, ?_⟩
  · rw [Position.undo_pl _ _ _ hm.d_valid, Position.move_pl a m k hm.o_valid hm.d_valid
      hm.o_ne_d]
    exact Position.pl_undo_move a hok m hm k
  · rw [u1, s1, oponent_oponent]
  · rw [u2, i1]
  · rw [u3, i2]
  · rw [u4, s2, List.dropLast_concat]
  · rw [u6, s3]
  · rw [u5, i3]

theorem lists_nodup {b : Board} (hc : Consistent b) {c : Color} (hcn : c ≠ Color.None)
    (t : PieceType) : (b._pieces_table c t).Nodup := by
  rw [List.nodup_iff_getElem?_ne_getElem?]
  intro i j hij hj h
  have hi : i < (b._pieces_table c t).length := Nat.lt_trans hij hj
  have e1 : (b._pieces_table c t)[i]? = some ((b._pieces_table c t)[i]) :=
    List.getElem?_eq_getElem hi
  have e2 : (b._pieces_table c t)[j]? = some ((b._pieces_table c t)[i]) := by
    rw [← h]; exact e1
  have f1 := (hc.lists.2 c t i _ hcn e1).2.2
  have f2 := (hc.lists.2 c t j _ hcn e2).2.2
  have : i = j := by
    have := f1.symm.trans f2
    exact congrArg Pos.id this
  omega

theorem lists_mem {b : Board} (hc : Consistent b) {c : Color} (hcn : c ≠ Color.None)
    (t : PieceType) (q : Int) :
    q ∈ b._pieces_table c t ↔
      (0 ≤ q ∧ q < 64) ∧ t ≠ PieceType.CLEAR ∧ b.position.pl q = (t, c) := by
  constructor
  · intro h
    obtain ⟨i, hi⟩ := List.getElem?_of_mem h
    obtain ⟨h0, h64, hsq⟩ := hc.lists.2 c t i q hcn hi
    refine ⟨⟨h0, h64⟩, ?_, ?_⟩
    · intro ht
      have h1 : (b._squares q).type = PieceType.CLEAR := by rw [hsq]; exact ht
      have h2 := (hc.sq_none q h0 h64).mp h1
      rw [hsq] at h2
      exact hcn h2
    · rw [position_pl_valid b h0 h64, hsq]
  · rintro ⟨⟨h0, h64⟩, ht, hpl⟩
    rw [position_pl_valid b h0 h64] at hpl
    have h1 : (b._squares q).type = t := congrArg Prod.fst hpl
    have h2 : (b._squares q).owner = c := congrArg Prod.snd hpl
    have := hc.lists.1 q h0 h64 (by rw [h1]; exact ht)
    rw [h1, h2] at this
    exact List.getElem?_mem this

/-- Two consistent boards with the same pieces on the same squares have the same entries in
every piece list, in some order. -/
theorem lists_perm {b b2 : Board} (hc : Consistent b) (hc2 : Consistent b2)
    (hpl : b2.position.pl = b.position.pl) {c : Color} (hcn : c ≠ Color.None) (t : PieceType) :
    (b2._pieces_table c t).Perm (b._pieces_table c t) := by
  rw [List.perm_ext_iff_of_nodup (lists_nodup hc2 hcn t) (lists_nodup hc hcn t)]
  intro q
  rw [lists_mem hc2 hcn, lists_mem hc hcn, hpl]

theorem bump_other {L : Color → PieceType → Nat} {c c' : Color} (h : c ≠ c')
    (t : PieceType) (k j : Nat) (t' : PieceType) :
    Position.bump L c t k j c' t' = L c' t' := by
  rw [bump_apply, if_neg (fun hh => h hh.1.symm)]

theorem Position.Ok.owner_ne {a : Position} (hok : a.Ok) {p : Int}
    (h : (a.pl p).1 ≠ PieceType.CLEAR) : (a.pl p).2 ≠ Color.None :=
  fun hh => h ((hok.none_iff p).mpr hh)

theorem Position.len_move_none (a : Position) (hok : a.Ok) (m : Move) (hm : a.MoveOk m)
    (t : PieceType) : a.len_move m Color.None t = a.len Color.None t := by
  have hc0 : (a.pl m.o).2 ≠ Color.None := hok.owner_ne hm.own.1
  have hstep : a.len_step m Color.None t = a.len Color.None t := by
    unfold Position.len_step
    by_cases hE : (a.pl m.o).1 = PieceType.PAWN ∧ (a.pl m.d).1 = PieceType.CLEAR ∧
        Move.dc m ≠ Move.oc m
    · have hpw := hm.passan hE.1 hE.2.1 hE.2.2
      rw [if_pos hE, if_neg (not_not.mpr hE.2.1),
        bump_other (hok.owner_ne (by rw [hpw]; decide))]
    · rw [if_neg hE]
      by_cases hC : (a.pl m.d).1 ≠ PieceType.CLEAR
      · rw [if_pos hC, bump_other (hok.owner_ne hC)]
      · rw [if_neg hC]
  rw [Position.len_move_eq]
  split_ifs
  · rw [bump_other hc0, bump_other hc0, hstep]
  · exact hstep

theorem Position.undo_piece_len (a5 : Position) (m : Move) (mi : MoveInfo) :
    (Position.undo_piece a5 m mi).len
      = if mi.capturou = true then Position.bump a5.len mi.p.owner mi.p.type 1 0
        else a5.len := by
  unfold Position.undo_piece Position.move_piece Position.insert
  simp only []
  split_ifs <;> rfl

/-- After `move` and `undo` the entry of `Color::None` in the table of list lengths, which no
piece list of the sources has, is what it was. -/
theorem Position.undo_move_len_none (a : Position) (hok : a.Ok) (m : Move)
    (hm : a.MoveOk m) (k : Nat) (t : PieceType) :
    (Position.undo (a.move m k).1 m (a.move m k).2).len Color.None t
      = a.len Color.None t := by
  obtain ⟨i1, i2, i3, i4, i5, i6, i7, i8⟩ := Position.move_info a m k
  have ho := hm.o_valid
  have hd := hm.d_valid
  have hod := hm.o_ne_d
  have hc0 : (a.pl m.o).2 ≠ Color.None := hok.owner_ne hm.own.1
  obtain ⟨cs1, cs2, cs3⟩ := Position.castle_stage a hok m hm k
  have hUlen : (Position.undo_castle (a.move m k).1 m (a.move m k).2).len = a.len_move m := by
    rw [(Position.undo_castle_pl _ m _ hd).2.1, Position.move_len a m k ho hod]
  have hUd := Position.pl_promo_d a m hod
  rw [← cs3] at hUd
  have hUo : ((Position.undo_castle (a.move m k).1 m (a.move m k).2).pl m.d).2
      = (a.pl m.o).2 := by
    rw [hUd]; split_ifs <;> rfl
  rw [Position.undo_eq, Position.undo_piece_len, (Position.undo_passan_facts _ _ _).2.1]
  have h3 : (if Move.promotion m ≠ PieceType.CLEAR then
        Position.bump (Position.bump
          (Position.undo_castle (a.move m k).1 m (a.move m k).2).len
          ((Position.undo_castle (a.move m k).1 m (a.move m k).2).pl m.d).2
          ((Position.undo_castle (a.move m k).1 m (a.move m k).2).pl m.d).1 0 1)
          ((Position.undo_castle (a.move m k).1 m (a.move m k).2).pl m.d).2
          PieceType.PAWN 1 0
      else (Position.undo_castle (a.move m k).1 m (a.move m k).2).len) Color.None t
      = a.len Color.None t := by
    split_ifs
    · rw [hUo, bump_other hc0, bump_other hc0, hUlen, Position.len_move_none a hok m hm]
    · rw [hUlen, Position.len_move_none a hok m hm]
  by_cases hE : (a.pl m.o).1 = PieceType.PAWN ∧ (a.pl m.d).1 = PieceType.CLEAR ∧
      Move.dc m ≠ Move.oc m
  · have hpassan : (a.move m k).2.passan = true := by rw [i5]; simpa using hE
    have hcap : ¬ (a.move m k).2.capturou = true := by rw [i4]; simp [hE.2.1]
    have hpw := hm.passan hE.1 hE.2.1 hE.2.2
    have hown : (a.move m k).2.p.owner ≠ Color.None := by
      rw [i8 hE]
      exact hok.owner_ne (by rw [hpw]; decide)
    rw [if_neg hcap, if_pos hpassan, bump_other hown]
    exact h3
  · have hpassan : ¬ (a.move m k).2.passan = true := by rw [i5]; simpa using hE
    rw [if_neg hpassan]
    by_cases hC : (a.pl m.d).1 ≠ PieceType.CLEAR
    · have hcap : (a.move m k).2.capturou = true := by rw [i4]; simpa using hC
      have hown : (a.move m k).2.p.owner ≠ Color.None := by
        rw [i7 hC]
        exact hok.owner_ne hC
      rw [if_pos hcap, bump_other hown]
      exact h3
    · have hcap : ¬ (a.move m k).2.capturou = true := by rw [i4]; simpa using hC
      rw [if_neg hcap]
      exact h3

theorem Position.len_move_le (a : Position) (hok : a.Ok) (m : Move) (hm : a.MoveOk m)
    (c : Color) (t : PieceType) : a.len_move m c t ≤ PieceVector.cap := by
  have hle := Position.len_step_le a m
  rw [Position.len_move_eq]
  by_cases hPm : Move.promotion m ≠ PieceType.CLEAR
  · obtain ⟨q1, q2, q6⟩ := hm.promo hPm
    rw [if_pos hPm, q1, hm.own.2]
    by_cases h1 : c = a.turn ∧ t = Move.promotion m
    · obtain ⟨rfl, rfl⟩ := h1
      rw [bump_apply, if_pos ⟨rfl, rfl⟩, bump_apply, if_neg (fun h => q2 h.2)]
      have := hle a.turn (Move.promotion m)
      omega
    · rw [bump_apply, if_neg h1]
      exact Nat.le_trans (bump_le _ _ _ _ _) (Nat.le_trans (hle c t) (hok.cap c t))
  · rw [if_neg hPm]
    exact Nat.le_trans (hle c t) (hok.cap c t)

/-- The methods `Board::move` and `Board::undo` on a consistent board, for a move that is
`MoveOk`: both return, both leave a consistent board, and the board after the `undo` stands for
the position before the `move`. -/
theorem move_undo_ok (Z : ZobristTables) {b : Board} (hc : Consistent b) (hcap : CapOk b)
    {m : Move} (hm : b.position.MoveOk m) :
    ∃ b' mi b'', Board.move Z b m = some (b', mi) ∧ Board.undo Z b' m mi = some b'' ∧
      (Consistent b' ∧ CapOk b' ∧ b'.position = (b.position.move m b._hash_key).1 ∧
        mi.forget_id = (b.position.move m b._hash_key).2 ∧
        (HashInv Z b → HashInv Z b') ∧ (ScoreInv b → ScoreInv b')) ∧
      (Consistent b'' ∧ CapOk b'' ∧ b''.position = b.position ∧
        (HashInv Z b → HashInv Z b'') ∧ (ScoreInv b → ScoreInv b'')) := by
  have hok := position_ok hc hcap
  obtain ⟨b', mi, e1, c1, p1, f1, hh1, hs1⟩ := move_ok Z hc hm
  obtain ⟨b'', e2, c2, p2, hh2, hs2⟩ := undo_ok Z c1 b.position hok m hm b._hash_key mi p1 f1
  obtain ⟨r1, r2, r3, r4, r5, r6, r7⟩ := Position.undo_move_fields b.position hok m hm b._hash_key
  have hcap1 : CapOk b' := by
    intro c t
    have h1 : (b'._pieces_table c t).length = (b.position.move m b._hash_key).1.len c t :=
      congrFun (congrFun (congrArg Position.len p1) c) t
    rw [h1, Position.move_len _ m _ hm.o_valid hm.o_ne_d]
    exact Position.len_move_le _ hok m hm c t
  have hpl : b''.position.pl = b.position.pl := by rw [p2]; exact r1
  have hlen : b''.position.len = b.position.len := by
    funext c t
    by_cases hcn : c = Color.None
    · subst hcn
      rw [p2]
      exact Position.undo_move_len_none b.position hok m hm b._hash_key t
    · exact (lists_perm hc c2 hpl hcn t).length_eq
  have hpos : b''.position = b.position := by
    apply Position.ext_fields hpl hlen
    · rw [p2]; exact r2
    · rw [p2]; exact r4
    · rw [p2]; exact r5
    · rw [p2]; exact r3
    · rw [p2]; exact r6
    · rw [p2]; exact r7
  have hcap2 : CapOk b'' := by
    intro c t
    have h1 : (b''._pieces_table c t).length = b.position.len c t :=
      congrFun (congrFun (congrArg Position.len hpos) c) t
    rw [h1]
    exact hcap c t
  exact ⟨b', mi, b'', e1, e2, ⟨c1, hcap1, p1, f1, hh1, hs1⟩,
    ⟨c2, hcap2, hpos, fun h => hh2 (hh1 h), fun h => hs2 (hs1 h)⟩⟩

theorem Position.MoveOk.of {a : Position} {m : Move} (hl : a.Listed m) (hr : a.Runs m)
    (ht : a.turn ≠ Color.None) : a.MoveOk m :=
  { o_valid := hl.o_valid
    d_valid := hl.d_valid
    o_ne_d := hl.o_ne_d
    turn_ok := ht
    own := hl.own
    dest := hl.dest
    passan := hr.passan
    promo := fun h => ⟨(hl.promo h).1, (hl.promo h).2, hr.cap h⟩
    king_side := hl.king_side
    queen_side := hl.queen_side
    room := hr.room }

theorem Position.MoveOk.listed {a : Position} {m : Move} (hm : a.MoveOk m) : a.Listed m :=
  { o_valid := hm.o_valid
    d_valid := hm.d_valid
    o_ne_d := hm.o_ne_d
    own := hm.own
    dest := hm.dest
    promo := fun h => ⟨(hm.promo h).1, (hm.promo h).2.1⟩
    king_side := hm.king_side
    queen_side := hm.queen_side }

theorem Position.MoveOk.runs {a : Position} {m : Move} (hm : a.MoveOk m) : a.Runs m :=
  { room := hm.room
    passan := hm.passan
    cap := fun h => (hm.promo h).2.2 }

/-- A full history stops `Board::move`. -/
theorem move_none_of_full (Z : ZobristTables) (b : Board) (m : Move)
    (h : ¬ b.history.length < History.cap) : Board.move Z b m = none := by
  unfold Board.move Board.move_capture
  simp [h]

/-- A pawn that steps aside onto an empty square with no pawn beside it stops `Board::move` (the
`assert(false)` of the en-passant branch). -/
theorem move_none_of_no_pawn (Z : ZobristTables) (b : Board) (m : Move)
    (ho : 0 ≤ m.o ∧ m.o < 64) (hd : 0 ≤ m.d ∧ m.d < 64)
    (h1 : (b.position.pl m.o).1 = PieceType.PAWN)
    (h2 : (b.position.pl m.d).1 = PieceType.CLEAR) (h3 : Move.dc m ≠ Move.oc m)
    (h4 : (b.position.pl (Place.of_line_of_col (Move.ol m) (Move.dc m))).1
      ≠ PieceType.PAWN) : Board.move Z b m = none := by
  have e1 : (b._squares m.o).type = PieceType.PAWN := by
    rw [sq_type_of_pl ho.1 ho.2]; exact h1
  have e2 : (b._squares m.d).type = PieceType.CLEAR := by
    rw [sq_type_of_pl hd.1 hd.2]; exact h2
  have hv : 0 ≤ Place.of_line_of_col (Move.ol m) (Move.dc m) ∧
      Place.of_line_of_col (Move.ol m) (Move.dc m) < 64 := by
    unfold Move.ol Move.dc
    rw [ep_place_eq m.d ho]
    omega
  have e4 : (b._squares (Place.of_line_of_col (Move.ol m) (Move.dc m))).type
      ≠ PieceType.PAWN := by
    rw [sq_type_of_pl hv.1 hv.2]; exact h4
  unfold Board.move Board.move_capture
  by_cases hg : Move.is_valid m = true ∧ b.history.length < History.cap
  · rw [if_pos hg]
    simp only [e1, e2]
    by_cases hw : PieceType.PAWN ≠ PieceType.CLEAR ∧ (b._squares m.o).owner = b.turn
    · rw [if_pos hw]
      simp only [ne_eq, not_true_eq_false, if_false, Option.map_some', Option.some_bind,
        Bool.false_eq_true, false_or, if_true]
      unfold Board.move_en_passan
      simp [MoveInfo.new, h3, e4]
    · rw [if_neg hw]; rfl
  · rw [if_neg hg]; rfl

/-- A full piece list stops `Board::set_piece_type`. -/
theorem set_piece_type_none (Z : ZobristTables) {b : Board} (hc : Consistent b) {p : Int}
    (h0 : 0 ≤ p) (h64 : p < 64) (hpt : (b._squares p).type ≠ PieceType.CLEAR)
    {t : PieceType} (hne : t ≠ (b._squares p).type)
    (hfull : ¬ (b._pieces_table (b._squares p).owner t).length < PieceVector.cap) :
    Board.set_piece_type Z b p t = none := by
  obtain ⟨tbl', sq', he2, hl2, hsq2, hlen2⟩ := erase_piece2_ok hc h0 h64 hpt
  have hown : (b._squares p).owner ≠ Color.None :=
    fun h => hpt ((hc.sq_none p h0 h64).mpr h)
  have hv : Place.is_valid p = true := by simp [Place.is_valid, h0, h64]
  have hlen : (tbl' (b._squares p).owner t).length
      = (b._pieces_table (b._squares p).owner t).length := by
    rw [hlen2, bump_apply, if_neg (fun h => hne h.2)]
    rfl
  unfold Board.set_piece_type
  simp only [hv, hown, ne_eq, not_false_eq_true, and_self, if_true]
  rw [he2 { b with
      _score := Function.update b._score (b._squares p).owner
        (Score.add (b._score (b._squares p).owner)
          (Score.sub (piece_value p (b._squares p).owner t)
            (piece_value p (b._squares p).owner (b._squares p).type)))
      _hash_key := (b._hash_key ^^^ Z.hash_code p t (b._squares p).owner)
        ^^^ Z.hash_code p (b._squares p).type (b._squares p).owner }
    rfl rfl]
  simp only [Option.some_bind, Board.insert_piece2, hv, hown, hlen, hfull, ne_eq,
    not_false_eq_true, and_self, if_true, and_false, if_false, Option.map_none']

theorem Position.steps3_len (a : Position) (m : Move) (k : Nat) :
    (a.steps3 m k).len = a.len_step m := by
  obtain ⟨g1, g2, g3, g4, g5, g6, g7, g8, g9, g10⟩ := Position.move_capture_facts a m k
  obtain ⟨k1, k2, k3, k4, k5, k6, k7⟩ :=
    Position.move_en_passan_facts (a.move_capture m k) m (a.pl m.o).1
  unfold Position.steps3 Position.move_piece Position.len_step
  simp only []
  rw [k2]
  by_cases hcap : (a.pl m.d).1 = PieceType.CLEAR
  · have e8 : (a.move_capture m k).2.capturou = false := by rw [g8]; simpa using hcap
    have e1 : (a.move_capture m k).1.pl = a.pl := by rw [g1]; simp [hcap]
    have e2 : (a.move_capture m k).1.len = a.len := by rw [g2]; simp [hcap]
    have hn : ¬ (a.pl m.d).1 ≠ PieceType.CLEAR := not_not.mpr hcap
    rw [e8, e1, e2, if_neg hn]
    by_cases hc : (a.pl m.o).1 = PieceType.PAWN ∧ Move.dc m ≠ Move.oc m
    · rw [if_pos ⟨hc.1, rfl, hc.2⟩, if_pos ⟨hc.1, hcap, hc.2⟩]
    · rw [if_neg (fun h => hc ⟨h.1, h.2.2⟩), if_neg (fun h => hc ⟨h.1, h.2.2⟩)]
  · have e8 : (a.move_capture m k).2.capturou = true := by rw [g8]; simpa using hcap
    rw [e8, g2, if_neg (fun h => absurd h.2.1 (by decide)), if_pos hcap,
      if_neg (fun h => hcap h.2.1)]

theorem Position.len_step_keep (a : Position) (m : Move) (hdest : (a.pl m.d).2 ≠ a.turn)
    (hpassan : (a.pl m.o).1 = PieceType.PAWN → (a.pl m.d).1 = PieceType.CLEAR →
      Move.dc m ≠ Move.oc m →
      (a.pl (Place.of_line_of_col (Move.ol m) (Move.dc m))).1 = PieceType.PAWN)
    (t : PieceType) (ht : t ≠ PieceType.PAWN) : a.len_step m a.turn t = a.len a.turn t := by
  unfold Position.len_step
  by_cases hE : (a.pl m.o).1 = PieceType.PAWN ∧ (a.pl m.d).1 = PieceType.CLEAR ∧
      Move.dc m ≠ Move.oc m
  · have hpw := hpassan hE.1 hE.2.1 hE.2.2
    rw [if_pos hE, if_neg (not_not.mpr hE.2.1), bump_apply,
      if_neg (fun h => ht (h.2.trans hpw))]
  · rw [if_neg hE]
    by_cases hC : (a.pl m.d).1 ≠ PieceType.CLEAR
    · rw [if_pos hC, bump_apply, if_neg (fun h => hdest h.1.symm)]
    · rw [if_neg hC]

/-- A promotion into a full piece list stops `Board::move`. -/
theorem move_none_of_full_list (Z : ZobristTables) {b : Board} (hc : Consistent b) {m : Move}
    (hl : b.position.Listed m) (ht : b.turn ≠ Color.None)
    (hroom : b.history.length < History.cap)
    (hpassan : (b.position.pl m.o).1 = PieceType.PAWN →
      (b.position.pl m.d).1 = PieceType.CLEAR → Move.dc m ≠ Move.oc m →
      (b.position.pl (Place.of_line_of_col (Move.ol m) (Move.dc m))).1 = PieceType.PAWN)
    (hPm : Move.promotion m ≠ PieceType.CLEAR)
    (hfull : ¬ b.position.len b.position.turn (Move.promotion m) < PieceVector.cap) :
    Board.move Z b m = none := by
  have ho := hl.o_valid
  have hd := hl.d_valid
  have hl0 : b.position.Listed ⟨m.o, m.d, PieceType.CLEAR⟩ :=
    { o_valid := hl.o_valid
      d_valid := hl.d_valid
      o_ne_d := hl.o_ne_d
      own := hl.own
      dest := hl.dest
      promo := fun h => absurd rfl h
      king_side := hl.king_side
      queen_side := hl.queen_side }
  have hr0 : b.position.Runs ⟨m.o, m.d, PieceType.CLEAR⟩ :=
    { room := hroom
      passan := hpassan
      cap := fun h => absurd rfl h }
  have hm0 := Position.MoveOk.of hl0 hr0 ht
  obtain ⟨b1, mi1, b2, mi2, b3, e1, e2, e3, c3, p3, f2, hh3, hs3⟩ := move_steps3 Z hc hm0
  have e1' : Board.move_capture Z b m = some (b1, mi1) := e1
  have e2' : Board.move_en_passan Z (b1, mi1) m (b._squares m.o).type = some (b2, mi2) := e2
  have e3' : Board.move_piece Z b2 m = some b3 := e3
  have hty : (b._squares m.o).type = PieceType.PAWN := by
    rw [sq_type_of_pl ho.1 ho.2]; exact (hl.promo hPm).1
  obtain ⟨s1, s2, s3, s4, s5, s6⟩ :=
    Position.steps3_facts b.position ⟨m.o, m.d, PieceType.CLEAR⟩ b._hash_key ho hl.o_ne_d
  have hsq : b3.position.pl m.d = b.position.pl m.o := by
    rw [p3, steps3_eq]; exact s1
  have htd : (b3._squares m.d).type = PieceType.PAWN := by
    rw [sq_type_of_pl hd.1 hd.2, hsq]; exact (hl.promo hPm).1
  have hod : (b3._squares m.d).owner = b.turn := by
    rw [sq_owner_of_pl hd.1 hd.2, hsq]; exact hl.own.2
  have hlen : (b3._pieces_table b.turn (Move.promotion m)).length
      = b.position.len b.position.turn (Move.promotion m) := by
    have h1 : (b3._pieces_table b.turn (Move.promotion m)).length
        = b3.position.len b.turn (Move.promotion m) := rfl
    rw [h1, p3, steps3_eq, Position.steps3_len]
    exact Position.len_step_keep b.position ⟨m.o, m.d, PieceType.CLEAR⟩ hl.dest hpassan _
      (hl.promo hPm).2
  have hnone : Board.set_piece_type Z b3 m.d (Move.promotion m) = none := by
    apply set_piece_type_none Z c3 hd.1 hd.2
    · rw [htd]; decide
    · rw [htd]; exact (hl.promo hPm).2
    · rw [hod, hlen]; exact hfull
  unfold Board.move
  simp only [e1', Option.some_bind, e2', e3']
  unfold Board.move_promote
  rw [if_pos hPm, hty, if_neg (by decide), hnone]
  rfl

/-- When `Board::move` returns on a listed move, its checks held. -/
theorem runs_of_move (Z : ZobristTables) {b : Board} (hc : Consistent b) {m : Move}
    (hl : b.position.Listed m) (ht : b.turn ≠ Color.None) {r : Board × MoveInfo}
    (h : Board.move Z b m = some r) : b.position.Runs m := by
  have hroom : b.history.length < History.cap := by
    by_contra hn
    rw [move_none_of_full Z b m hn] at h
    exact absurd h (by simp)
  have hpassan : (b.position.pl m.o).1 = PieceType.PAWN →
      (b.position.pl m.d).1 = PieceType.CLEAR → Move.dc m ≠ Move.oc m →
      (b.position.pl (Place.of_line_of_col (Move.ol m) (Move.dc m))).1 = PieceType.PAWN := by
    intro h1 h2 h3
    by_contra h4
    rw [move_none_of_no_pawn Z b m hl.o_valid hl.d_valid h1 h2 h3 h4] at h
    exact absurd h (by simp)
  refine ⟨hroom, hpassan, ?_⟩
  intro hPm
  by_contra hfull
  rw [move_none_of_full_list Z hc hl ht hroom hpassan hPm hfull] at h
  exact absurd h (by simp)

/-- The step of the invariants: on a consistent board with a side to move, a listed move on
which `Board::move` returns leaves a consistent board, and `Board::undo` takes it back. -/
theorem move_step (Z : ZobristTables) {b : Board} (hc : Consistent b) (hcap : CapOk b)
    (ht : b.turn ≠ Color.None) {m : Move} (hl : b.position.Listed m) {b' : Board}
    {mi : MoveInfo} (h : Board.move Z b m = some (b', mi)) :
    b.position.MoveOk m ∧
      (Consistent b' ∧ CapOk b' ∧ b'.turn ≠ Color.None ∧
        b'.position = (b.position.move m b._hash_key).1 ∧
        mi.forget_id = (b.position.move m b._hash_key).2 ∧
        (HashInv Z b → HashInv Z b') ∧ (ScoreInv b → ScoreInv b')) ∧
      ∃ b'', Board.undo Z b' m mi = some b'' ∧ Consistent b'' ∧ CapOk b'' ∧
        b''.position = b.position ∧
        (HashInv Z b → HashInv Z b'') ∧ (ScoreInv b → ScoreInv b'') := by
  have hm := Position.MoveOk.of hl (runs_of_move Z hc hl ht h) ht
  obtain ⟨b1, mi1, b2, e1, e2, ⟨c1, k1, p1, f1, hh1, hs1⟩, ⟨c2, k2, p2, hh2, hs2⟩⟩ :=
    move_undo_ok Z hc hcap hm
  rw [h] at e1
  obtain ⟨rfl, rfl⟩ := Prod.mk.inj (Option.some.inj e1)
  have hturn : b'.turn ≠ Color.None := by
    have h1 : b'.turn = (b.position.move m b._hash_key).1.turn := congrArg Position.turn p1
    rw [h1]
    exact oponent_ne_none ht
  exact ⟨hm, ⟨c1, k1, hturn, p1, f1, hh1, hs1⟩, b2, e2, c2, k2, p2, hh2, hs2⟩

theorem ctz_go_spec : ∀ (fuel n : Nat), 0 < n → n < 2 ^ fuel →
    n.testBit (BitBoard.ctz_go fuel n) = true ∧ BitBoard.ctz_go fuel n < fuel := by
  intro fuel
  induction fuel with
  | zero => intro n h0 h1; simp at h1; omega
  | succ f ih =>
    intro n h0 h1
    unfold BitBoard.ctz_go
    by_cases hodd : n % 2 = 1
    · rw [if_pos hodd]
      exact ⟨by simp [hodd], by omega⟩
    · rw [if_neg hodd]
      have h2 : 0 < n / 2 := by omega
      have h3 : n / 2 < 2 ^ f := by
        rw [Nat.pow_succ] at h1; omega
      obtain ⟨i1, i2⟩ := ih (n / 2) h2 h3
      refine ⟨?_, by omega⟩
      rw [Nat.add_comm, Nat.testBit_succ]
      exact i1

theorem ctz_table_spec {x : Nat} (h0 : 0 < x) (h1 : x < 2 ^ 16) :
    x.testBit (BitBoard.ctz_table x) = true ∧ BitBoard.ctz_table x < 16 :=
  ctz_go_spec 16 x h0 h1

/-- The method `BitBoard::get_one_place_int` on a board that is not empty gives the place of a
bit that is set. -/
theorem get_one_place_int_spec {b : Nat} (h0 : b ≠ 0) (h64 : b < 2 ^ 64) :
    ∃ i : Nat, BitBoard.get_one_place_int b = (i : Int) ∧ i < 64 ∧ b.testBit i = true := by
  unfold BitBoard.get_one_place_int BitBoard.m_lower BitBoard.m_upper
  have e1 : ∀ x : Nat, x &&& 0xffff = x % 2 ^ 16 := by
    intro x
    have := Nat.and_pow_two_sub_one_eq_mod x 16
    simpa using this
  simp only [e1, Nat.shiftRight_eq_div_pow]
  by_cases hl : b % 2 ^ 32 ≠ 0
  · rw [if_pos hl]
    by_cases hl2 : b % 2 ^ 32 % 2 ^ 16 ≠ 0
    · rw [if_pos hl2]
      obtain ⟨t1, t2⟩ := ctz_table_spec (x := b % 2 ^ 32 % 2 ^ 16) (by omega) (by omega)
      refine ⟨_, rfl, by omega, ?_⟩
      rw [Nat.testBit_mod_two_pow, Nat.testBit_mod_two_pow] at t1
      simp only [Bool.and_eq_true, decide_eq_true_eq] at t1
      exact t1.2.2
    · rw [if_neg hl2]
      obtain ⟨t1, t2⟩ := ctz_table_spec (x := b % 2 ^ 32 / 2 ^ 16) (by omega) (by omega)
      refine ⟨BitBoard.ctz_table (b % 2 ^ 32 / 2 ^ 16) + 16, by push_cast; rfl, by omega, ?_⟩
      generalize BitBoard.ctz_table (b % 2 ^ 32 / 2 ^ 16) = k at t1 t2 ⊢
      rw [← Nat.shiftRight_eq_div_pow, Nat.testBit_shiftRight, Nat.testBit_mod_two_pow] at t1
      simp only [Bool.and_eq_true, decide_eq_true_eq] at t1
      rw [Nat.add_comm]
      exact t1.2
  · rw [if_neg hl]
    by_cases hu2 : b / 2 ^ 32 % 2 ^ 32 % 2 ^ 16 ≠ 0
    · rw [if_pos hu2]
      obtain ⟨t1, t2⟩ := ctz_table_spec (x := b / 2 ^ 32 % 2 ^ 32 % 2 ^ 16) (by omega)
        (by omega)
      refine ⟨BitBoard.ctz_table (b / 2 ^ 32 % 2 ^ 32 % 2 ^ 16) + 32, by push_cast; rfl,
        by omega, ?_⟩
      generalize BitBoard.ctz_table (b / 2 ^ 32 % 2 ^ 32 % 2 ^ 16) = k at t1 t2 ⊢
      rw [Nat.testBit_mod_two_pow, Nat.testBit_mod_two_pow, ← Nat.shiftRight_eq_div_pow,
        Nat.testBit_shiftRight] at t1
      simp only [Bool.and_eq_true, decide_eq_true_eq] at t1
      rw [Nat.add_comm]
      exact t1.2.2
    · rw [if_neg hu2]
      obtain ⟨t1, t2⟩ := ctz_table_spec (x := b / 2 ^ 32 % 2 ^ 32 / 2 ^ 16) (by omega)
        (by omega)
      refine ⟨BitBoard.ctz_table (b / 2 ^ 32 % 2 ^ 32 / 2 ^ 16) + 48, by push_cast; rfl,
        by omega, ?_⟩
      generalize BitBoard.ctz_table (b / 2 ^ 32 % 2 ^ 32 / 2 ^ 16) = k at t1 t2 ⊢
      rw [← Nat.shiftRight_eq_div_pow (b / 2 ^ 32 % 2 ^ 32), Nat.testBit_shiftRight,
        Nat.testBit_mod_two_pow, ← Nat.shiftRight_eq_div_pow, Nat.testBit_shiftRight] at t1
      simp only [Bool.and_eq_true, decide_eq_true_eq] at t1
      have : 32 + (16 + k) = k + 48 := by omega
      rw [← this]
      exact t1.2

theorem invert_lt {b : Nat} {p : Int} (hb : b < 2 ^ 64) : BitBoard.invert b p < 2 ^ 64 := by
  unfold BitBoard.invert BitBoard.bit
  exact Nat.xor_lt_two_pow hb (Nat.mod_lt _ (by norm_num))

theorem pop_moves_go_mem (o : Int) (m : Move) : ∀ (fuel b : Nat) (list : List Move),
    b < 2 ^ 64 → m ∈ PieceRules.pop_moves_go o fuel b list →
    m ∈ list ∨ (m.o = o ∧ m._promotion = PieceType.CLEAR ∧ (0 ≤ m.d ∧ m.d < 64) ∧
      b.testBit m.d.toNat = true) := by
  intro fuel
  induction fuel with
  | zero => intro b list _ h; exact Or.inl h
  | succ f ih =>
    intro b list hb h
    unfold PieceRules.pop_moves_go at h
    by_cases he : BitBoard.empty b = true
    · rw [if_pos he] at h; exact Or.inl h
    · rw [if_neg he] at h
      have hne : b ≠ 0 := by
        intro h0; apply he; unfold BitBoard.empty; simp [h0]
      obtain ⟨i, hi1, hi2, hi3⟩ := get_one_place_int_spec hne hb
      have hp : (BitBoard.pop_place b).1 = (i : Int) := by
        unfold BitBoard.pop_place BitBoard.get_one_place Place.of_int
        simp only []
        rw [hi1]
        exact toInt8_eq (by omega) (by omega)
      have hq : (BitBoard.pop_place b).2 = BitBoard.invert b (i : Int) := by
        have : (BitBoard.pop_place b).2 = BitBoard.invert b (BitBoard.pop_place b).1 := rfl
        rw [this, hp]
      rcases ih _ _ (by rw [hq]; exact invert_lt hb) h with h1 | ⟨h1, h2, h3, h4⟩
      · rcases List.mem_append.mp h1 with h5 | h5
        · exact Or.inl h5
        · right
          have hm : m = ⟨o, (BitBoard.pop_place b).1, PieceType.CLEAR⟩ := by simpa using h5
          rw [hm, hp]
          refine ⟨rfl, rfl, ⟨Int.natCast_nonneg i, by simp only []; omega⟩, ?_⟩
          simpa using hi3
      · right
        refine ⟨h1, h2, h3, ?_⟩
        rw [hq, testBit_invert (by omega) (by omega)] at h4
        cases hb2 : b.testBit m.d.toNat
        · rw [hb2] at h4
          simp only [Int.toNat_ofNat, Bool.false_xor, decide_eq_true_eq] at h4
          have h5 : i = m.d.toNat := by omega
          rw [h5] at hi3
          rw [hi3] at hb2
          exact absurd hb2 (by simp)
        · rfl

theorem pop_moves_mem {o : Int} {m : Move} {b : Nat} {list : List Move} (hb : b < 2 ^ 64)
    (h : m ∈ PieceRules.pop_moves o b list) :
    m ∈ list ∨ (m.o = o ∧ m._promotion = PieceType.CLEAR ∧ (0 ≤ m.d ∧ m.d < 64) ∧
      b.testBit m.d.toNat = true) :=
  pop_moves_go_mem o m 64 b list hb h

theorem pop_moves_go_append (o : Int) : ∀ (fuel b : Nat) (list : List Move),
    PieceRules.pop_moves_go o fuel b list = list ++ PieceRules.pop_moves_go o fuel b [] := by
  intro fuel
  induction fuel with
  | zero => intro b list; simp [PieceRules.pop_moves_go]
  | succ f ih =>
    intro b list
    unfold PieceRules.pop_moves_go
    by_cases he : BitBoard.empty b = true
    · simp [he]
    · rw [if_neg he, if_neg he, ih _ (list ++ _), ih _ ([] ++ _)]
      simp

theorem blockers_lt {b : Board} (hc : Consistent b) {c : Color} (hcn : c ≠ Color.None) :
    b.bb_blockers c < 2 ^ 64 := by
  apply Nat.lt_pow_two_of_testBit
  intro i hi
  rw [hc.bits.2 c i hcn]
  simp only [decide_eq_false_iff_not, not_and]
  intro h; omega

theorem moves_bb_lt (impl : PieceImpl) {b : Board} (hc : Consistent b) {c : Color}
    (hcn : c ≠ Color.None) (place : Int) (attacked rooks : Nat) :
    PieceRules.moves_bb impl b c place attacked rooks < 2 ^ 64 := by
  unfold PieceRules.moves_bb BitBoard.compl mask64
  apply Nat.and_lt_two_pow
  exact Nat.xor_lt_two_pow (by norm_num) (blockers_lt hc hcn)

theorem list_moves_mem (impl : PieceImpl) (hs : impl.PromoShape) {b : Board}
    (hc : Consistent b) {c : Color} (hcn : c ≠ Color.None) (place : Int)
    (attacked rooks : Nat) (list : List Move) (m : Move)
    (h : m ∈ PieceRules.list_moves impl b c place attacked rooks list) :
    m ∈ list ∨ PieceRules.Added impl b c attacked rooks place m := by
  unfold PieceRules.list_moves PieceRules.pop_moves at h
  rw [pop_moves_go_append] at h
  have hnew : ∀ m0, m0 ∈ PieceRules.pop_moves_go place 64
      (PieceRules.moves_bb impl b c place attacked rooks) [] →
      m0.o = place ∧ m0._promotion = PieceType.CLEAR ∧ (0 ≤ m0.d ∧ m0.d < 64) ∧
      (PieceRules.moves_bb impl b c place attacked rooks).testBit m0.d.toNat = true := by
    intro m0 h0
    rcases pop_moves_go_mem place m0 64 _ [] (moves_bb_lt impl hc hcn place attacked rooks) h0
      with h1 | h1
    · exact absurd h1 (List.not_mem_nil _)
    · exact h1
  rcases hs with ⟨hs1, hs2⟩ | hs1
  · rw [hs1] at h
    unfold PawnImpl.set_promos at h
    rw [List.take_left, List.drop_left] at h
    rcases List.mem_append.mp h with h1 | h1
    · exact Or.inl h1
    · right
      obtain ⟨m0, hm0, rfl⟩ := List.mem_map.mp h1
      obtain ⟨n1, n2, n3, n4⟩ := hnew m0 hm0
      by_cases hpr : Move.dl m0 = 0 ∨ Move.dl m0 = 7
      · rw [if_pos hpr]
        exact ⟨n1, n3, n4, Or.inr ⟨hs2, rfl⟩⟩
      · rw [if_neg hpr]
        exact ⟨n1, n3, n4, Or.inl n2⟩
  · rw [hs1] at h
    rcases List.mem_append.mp h with h1 | h1
    · exact Or.inl h1
    · right
      obtain ⟨n1, n2, n3, n4⟩ := hnew m h1
      exact ⟨n1, n3, n4, Or.inl n2⟩

theorem list_all_moves_mem (impl : PieceImpl) (hs : impl.PromoShape) {b : Board}
    (hc : Consistent b) {c : Color} (hcn : c ≠ Color.None) (attacked rooks : Nat)
    (list : List Move) (m : Move)
    (h : m ∈ PieceRules.list_all_moves impl b c attacked rooks list) :
    m ∈ list ∨ ∃ place, place ∈ PieceRules.pieces impl b c ∧
      PieceRules.Added impl b c attacked rooks place m := by
  unfold PieceRules.list_all_moves at h
  generalize PieceRules.pieces impl b c = ps at h ⊢
  induction ps generalizing list with
  | nil => exact Or.inl h
  | cons p ps ih =>
    rw [List.foldl_cons] at h
    rcases ih _ h with h1 | ⟨q, hq, hadd⟩
    · rcases list_moves_mem impl hs hc hcn p attacked rooks list m h1 with h2 | h2
      · exact Or.inl h2
      · exact Or.inr ⟨p, List.mem_cons_self _ _, h2⟩
    · exact Or.inr ⟨q, List.mem_cons_of_mem _ hq, hadd⟩

theorem Rules.Impl.shape {impl : PieceImpl} (h : Rules.Impl impl) : impl.PromoShape := by
  rcases h with h | h | h | h | h | h <;> subst h
  · exact Or.inl ⟨rfl, rfl⟩
  all_goals exact Or.inr rfl

theorem Rules.Impl.type_ne {impl : PieceImpl} (h : Rules.Impl impl) :
    impl.type ≠ PieceType.CLEAR := by
  rcases h with h | h | h | h | h | h <;> subst h <;> decide

theorem Rules.Impl.king {impl : PieceImpl} (h : Rules.Impl impl)
    (hk : impl.type = PieceType.KING) : impl = KingImpl := by
  rcases h with h | h | h | h | h | h <;> subst h <;>
    first | rfl | exact absurd hk (by decide)

/-- Every move of `Rules::list_moves` was added for a piece of the side to move by one of the
six piece rules. -/
theorem rules_list_moves_mem {b : Board} (hc : Consistent b) (ht : b.turn ≠ Color.None)
    (s : EvalScratch) (m : Move) (h : m ∈ Rules.list_moves b s []) :
    ∃ impl, Rules.Impl impl ∧ ∃ place, place ∈ PieceRules.pieces impl b b.turn ∧
      PieceRules.Added impl b b.turn (s.get (oponent b.turn))
        (b.bbPeca b.turn PieceType.ROOK) place m := by
  unfold Rules.list_moves at h
  simp only [] at h
  rcases list_all_moves_mem KingImpl (Or.inr rfl) hc ht _ _ _ m h with h | h
  · rcases list_all_moves_mem QueenImpl (Or.inr rfl) hc ht _ _ _ m h with h | h
    · rcases list_all_moves_mem RookImpl (Or.inr rfl) hc ht _ _ _ m h with h | h
      · rcases list_all_moves_mem BishopImpl (Or.inr rfl) hc ht _ _ _ m h with h | h
        · rcases list_all_moves_mem KnightImpl (Or.inr rfl) hc ht _ _ _ m h with h | h
          · rcases list_all_moves_mem PawnImpl (Or.inl ⟨rfl, rfl⟩) hc ht _ _ _ m h with h | h
            · exact absurd h (List.not_mem_nil _)
            · exact ⟨PawnImpl, Or.inl rfl, h⟩
          · exact ⟨KnightImpl, Or.inr (Or.inl rfl), h⟩
        · exact ⟨BishopImpl, Or.inr (Or.inr (Or.inl rfl)), h⟩
      · exact ⟨RookImpl, Or.inr (Or.inr (Or.inr (Or.inl rfl))), h⟩
    · exact ⟨QueenImpl, Or.inr (Or.inr (Or.inr (Or.inr (Or.inl rfl)))), h⟩
  · exact ⟨KingImpl, Or.inr (Or.inr (Or.inr (Or.inr (Or.inr rfl)))), h⟩

set_option maxRecDepth 100000 in
/-- A step of the table `king_moves` changes the column by one at most. -/
theorem king_table_cols : ∀ p : Fin 64, ∀ d : Fin 64,
    (BitBoard.get_king_moves (p.val : Int)).testBit d.val = true →
    ((d.val : Int) % 8 - (p.val : Int) % 8 ≤ 1 ∧
      -1 ≤ (d.val : Int) % 8 - (p.val : Int) % 8) := by
  decide!

theorem king_moves_cols {o d : Int} (ho : 0 ≤ o ∧ o < 64) (hd : 0 ≤ d ∧ d < 64)
    (h : (BitBoard.get_king_moves o).testBit d.toNat = true) :
    Place.col d - Place.col o ≤ 1 ∧ -1 ≤ Place.col d - Place.col o := by
  have := king_table_cols ⟨o.toNat, by omega⟩ ⟨d.toNat, by omega⟩
  simp only [Int.toNat_of_nonneg ho.1, Int.toNat_of_nonneg hd.1] at this
  exact this h

theorem testBit_set {b : Nat} {p : Int} (h0 : 0 ≤ p) (h : p < 64) (i : Nat) :
    (BitBoard.set b p).testBit i = (b.testBit i || decide (p.toNat = i)) := by
  unfold BitBoard.set
  rw [bit_eq h0 h, Nat.testBit_or, Nat.testBit_two_pow]

/-- The bits that `KingImpl::maybe_add_castle` adds, on the line 0 or 7. -/
theorem maybe_add_castle_bit (color : Color) (place : Int) (line : Int)
    (hline : line = 0 ∨ line = 7) (flags : CastleFlags) (blockers attacked rooks moves : Nat)
    (i : Nat)
    (h : (KingImpl.maybe_add_castle color place line flags blockers attacked rooks
      moves).testBit i = true) :
    moves.testBit i = true ∨
      (Place.line place = line ∧ (i : Int) = line * 8 + 6 ∧
        BitBoard.is_set rooks (line * 8 + 7) = true ∧
        BitBoard.is_set blockers (line * 8 + 5) = false ∧
        BitBoard.is_set blockers (line * 8 + 6) = false) ∨
      (Place.line place = line ∧ (i : Int) = line * 8 + 2 ∧
        BitBoard.is_set rooks (line * 8) = true ∧
        BitBoard.is_set blockers (line * 8 + 1) = false ∧
        BitBoard.is_set blockers (line * 8 + 2) = false ∧
        BitBoard.is_set blockers (line * 8 + 3) = false) := by
  have e : ∀ c : Int, 0 ≤ c → c < 8 → Place.of_line_of_col line c = line * 8 + c := by
    intro c h0 h8
    exact of_line_of_col_eq (by omega) (by omega) h0 h8
  unfold KingImpl.maybe_add_castle at h
  simp only [e 7 (by norm_num) (by norm_num), e 5 (by norm_num) (by norm_num),
    e 6 (by norm_num) (by norm_num), e 0 (by norm_num) (by norm_num),
    e 1 (by norm_num) (by norm_num), e 2 (by norm_num) (by norm_num),
    e 3 (by norm_num) (by norm_num), BitBoard.is_not_set, add_zero] at h
  by_cases h1 : BitBoard.is_set attacked place = true
  · rw [if_pos h1] at h; exact Or.inl h
  · rw [if_neg h1] at h
    by_cases h2 : Place.line place = line
    · rw [if_pos h2] at h
      split_ifs at h with c1 c2 c2
      · rw [testBit_set (by omega) (by omega), testBit_set (by omega) (by omega)] at h
        simp only [Bool.or_eq_true, decide_eq_true_eq] at h
        simp only [Bool.and_eq_true, Bool.not_eq_true'] at c1 c2
        rcases h with (h | h) | h
        · exact Or.inl h
        · exact Or.inr (Or.inl ⟨h2, by omega, c2.1.1.1.1.2, c2.1.1.1.2, c2.1.1.2⟩)
        · exact Or.inr (Or.inr ⟨h2, by omega, c1.1.1.1.1.1.2, c1.1.1.1.1.2, c1.1.1.1.2,
            c1.1.1.2⟩)
      · rw [testBit_set (by omega) (by omega)] at h
        simp only [Bool.or_eq_true, decide_eq_true_eq] at h
        simp only [Bool.and_eq_true, Bool.not_eq_true'] at c1
        rcases h with h | h
        · exact Or.inl h
        · exact Or.inr (Or.inr ⟨h2, by omega, c1.1.1.1.1.1.2, c1.1.1.1.1.2, c1.1.1.1.2,
            c1.1.1.2⟩)
      · rw [testBit_set (by omega) (by omega)] at h
        simp only [Bool.or_eq_true, decide_eq_true_eq] at h
        simp only [Bool.and_eq_true, Bool.not_eq_true'] at c2
        rcases h with h | h
        · exact Or.inl h
        · exact Or.inr (Or.inl ⟨h2, by omega, c2.1.1.1.1.2, c2.1.1.1.2, c2.1.1.2⟩)
      · exact Or.inl h
    · rw [if_neg h2] at h; exact Or.inl h

theorem rook_of_bit {b : Board} (hc : Consistent b) {c : Color} (hcn : c ≠ Color.None)
    {p : Int} (hp : 0 ≤ p ∧ p < 64)
    (h : BitBoard.is_set (b.bbPeca c PieceType.ROOK) p = true) :
    (b.position.pl p).1 = PieceType.ROOK := by
  rw [is_set_eq hp.1 hp.2, hc.bits.1 c PieceType.ROOK p.toNat hcn] at h
  simp only [decide_eq_true_eq, Int.toNat_of_nonneg hp.1] at h
  rw [position_pl_valid b hp.1 hp.2]
  exact h.2.1

theorem clear_of_bit {b : Board} (hc : Consistent b) {p : Int} (hp : 0 ≤ p ∧ p < 64)
    (h : BitBoard.is_set (Board.get_blockers b) p = false) :
    (b.position.pl p).1 = PieceType.CLEAR := by
  unfold Board.get_blockers at h
  rw [is_set_eq hp.1 hp.2, Nat.testBit_or, hc.bits.2 Color.White p.toNat (by decide),
    hc.bits.2 Color.Black p.toNat (by decide)] at h
  simp only [Bool.or_eq_false_iff, decide_eq_false_iff_not, not_and,
    Int.toNat_of_nonneg hp.1] at h
  have h1 := h.1 (by omega)
  have h2 := h.2 (by omega)
  rw [position_pl_valid b hp.1 hp.2]
  apply (hc.sq_none p hp.1 hp.2).mpr
  cases ho : (b._squares p).owner
  · exact absurd ho h2
  · exact absurd ho h1
  · rfl

theorem other_of_bit {b : Board} (hc : Consistent b) {c : Color} (hcn : c ≠ Color.None)
    {p : Int} (hp : 0 ≤ p ∧ p < 64) {x : Nat}
    (h : (x &&& BitBoard.compl (b.bb_blockers c)).testBit p.toNat = true) :
    x.testBit p.toNat = true ∧ (b.position.pl p).2 ≠ c := by
  rw [Nat.testBit_and, testBit_compl _ (by omega), hc.bits.2 c p.toNat hcn] at h
  simp only [Bool.and_eq_true, Bool.not_eq_true', decide_eq_false_iff_not, not_and,
    Int.toNat_of_nonneg hp.1] at h
  refine ⟨h.1, ?_⟩
  rw [position_pl_valid b hp.1 hp.2]
  exact h.2 (by omega)

/-- The bits of `KingImpl::moves_bb`: a step of the table, or one of the two castle squares. -/
theorem king_moves_bb_bit (color : Color) (place : Int) (blockers attacked rooks : Nat)
    (flags : CastleFlags) (i : Nat)
    (h : (KingImpl.moves_bb color place blockers attacked rooks flags).testBit i = true) :
    (BitBoard.get_king_moves place).testBit i = true ∨
      ∃ line : Int, (line = 0 ∨ line = 7) ∧
        ((Place.line place = line ∧ (i : Int) = line * 8 + 6 ∧
          BitBoard.is_set rooks (line * 8 + 7) = true ∧
          BitBoard.is_set blockers (line * 8 + 5) = false ∧
          BitBoard.is_set blockers (line * 8 + 6) = false) ∨
        (Place.line place = line ∧ (i : Int) = line * 8 + 2 ∧
          BitBoard.is_set rooks (line * 8) = true ∧
          BitBoard.is_set blockers (line * 8 + 1) = false ∧
          BitBoard.is_set blockers (line * 8 + 2) = false ∧
          BitBoard.is_set blockers (line * 8 + 3) = false)) := by
  unfold KingImpl.moves_bb at h
  simp only [] at h
  by_cases hcc : CastleFlags.can_castle flags color = true
  · rw [if_pos hcc] at h
    cases color with
    | White =>
      simp only [] at h
      rcases maybe_add_castle_bit _ _ 0 (Or.inl rfl) _ _ _ _ _ _ h with h1 | h1
      · exact Or.inl h1
      · exact Or.inr ⟨0, Or.inl rfl, h1⟩
    | Black =>
      simp only [] at h
      rcases maybe_add_castle_bit _ _ 7 (Or.inr rfl) _ _ _ _ _ _ h with h1 | h1
      · exact Or.inl h1
      · exact Or.inr ⟨7, Or.inr rfl, h1⟩
    | None => exact Or.inl h
  · rw [if_neg hcc] at h
    exact Or.inl h

/-- A king of `Rules::list_moves` that changes its column by two castles: it stands on the
column 4, its rook stands in the corner, and the squares it passes are empty. -/
theorem king_castle_squares {b : Board} (hc : Consistent b) (ht : b.turn ≠ Color.None)
    {o d : Int} (ho : 0 ≤ o ∧ o < 64) (hd : 0 ≤ d ∧ d < 64)
    (hking : (b.position.pl o).1 = PieceType.KING) (attacked : Nat)
    (h : (PieceRules.moves_bb KingImpl b b.turn o attacked
      (b.bbPeca b.turn PieceType.ROOK)).testBit d.toNat = true) :
    (Place.col d - Place.col o = 2 →
      d = o + 2 ∧ Place.col o = 4 ∧ (b.position.pl (d + 1)).1 ≠ PieceType.CLEAR ∧
      (b.position.pl (d - 1)).1 = PieceType.CLEAR ∧
      (b.position.pl d).1 = PieceType.CLEAR) ∧
    (Place.col d - Place.col o = -2 →
      d = o - 2 ∧ Place.col o = 4 ∧ (b.position.pl (d - 2)).1 ≠ PieceType.CLEAR ∧
      (b.position.pl (d + 1)).1 = PieceType.CLEAR ∧
      (b.position.pl d).1 = PieceType.CLEAR) := by
  unfold PieceRules.moves_bb at h
  have hx := (other_of_bit hc ht hd h).1
  have hgb : PieceRules.get_blockers KingImpl b = Board.get_blockers b := rfl
  rw [hgb] at hx
  have hdi : ((d.toNat : Nat) : Int) = d := Int.toNat_of_nonneg hd.1
  have hcol : ∀ p : Int, Place.col p = p % 8 := fun _ => rfl
  have hlin : ∀ p : Int, Place.line p = p / 8 := fun _ => rfl
  rcases king_moves_bb_bit _ _ _ _ _ _ _ hx with h1 | ⟨line, hl, h1 | h1⟩
  · have := king_moves_cols ho hd h1
    constructor <;> intro h2 <;> omega
  · obtain ⟨q1, q2, q3, q4, q5⟩ := h1
    rw [hdi] at q2
    rw [hlin] at q1
    have r3 := rook_of_bit hc ht (p := line * 8 + 7) (by omega) q3
    have r4 := clear_of_bit hc (p := line * 8 + 5) (by omega) q4
    have r5 := clear_of_bit hc (p := line * 8 + 6) (by omega) q5
    constructor
    · intro h2
      rw [hcol, hcol] at h2
      have e1 : d + 1 = line * 8 + 7 := by omega
      have e2 : d - 1 = line * 8 + 5 := by omega
      refine ⟨by omega, by rw [hcol]; omega, ?_, ?_, ?_⟩
      · rw [e1, r3]; decide
      · rw [e2]; exact r4
      · rw [q2]; exact r5
    · intro h2
      rw [hcol, hcol] at h2
      omega
  · obtain ⟨q1, q2, q3, q4, q5, q6⟩ := h1
    rw [hdi] at q2
    rw [hlin] at q1
    have r3 := rook_of_bit hc ht (p := line * 8) (by omega) q3
    have r4 := clear_of_bit hc (p := line * 8 + 1) (by omega) q4
    have r5 := clear_of_bit hc (p := line * 8 + 2) (by omega) q5
    have r6 := clear_of_bit hc (p := line * 8 + 3) (by omega) q6
    constructor
    · intro h2
      rw [hcol, hcol] at h2
      have e0 : o = line * 8 := by omega
      rw [e0, r3] at hking
      exact absurd hking (by decide)
    · intro h2
      rw [hcol, hcol] at h2
      have e1 : d - 2 = line * 8 := by omega
      have e2 : d + 1 = line * 8 + 3 := by omega
      refine ⟨by omega, by rw [hcol]; omega, ?_, ?_, ?_⟩
      · rw [e1, r3]; decide
      · rw [e2]; exact r6
      · rw [q2]; exact r5

/-- The moves of `Rules::list_moves` on a consistent board with a side to move: a piece of that
side steps onto a square that is not its own; only a pawn promotes, into a queen; a king that
changes its column by two castles with its rook over empty squares. -/
theorem listed_of_list_moves {b : Board} (hc : Consistent b) (ht : b.turn ≠ Color.None)
    (s : EvalScratch) {m : Move} (h : m ∈ Rules.list_moves b s []) : b.position.Listed m := by
  obtain ⟨impl, himpl, place, hplace, ⟨a1, a2, a3, a4⟩⟩ := rules_list_moves_mem hc ht s m h
  have hmem : place ∈ b._pieces_table b.turn impl.type := hplace
  obtain ⟨pv, ptn, ppl⟩ := (lists_mem hc ht impl.type place).mp hmem
  rw [← a1] at pv ppl
  have hx := other_of_bit hc ht a2 (by unfold PieceRules.moves_bb at a3; exact a3)
  have hturn : b.position.turn = b.turn := rfl
  have hown2 : (b.position.pl m.o).2 = b.turn := by rw [ppl]
  have hty : (b.position.pl m.o).1 = impl.type := by rw [ppl]
  have hking : (b.position.pl m.o).1 = PieceType.KING →
      (PieceRules.moves_bb KingImpl b b.turn m.o (s.get (oponent b.turn))
        (b.bbPeca b.turn PieceType.ROOK)).testBit m.d.toNat = true := by
    intro hk
    rw [hty] at hk
    rw [← himpl.king hk, a1]
    exact a3
  refine
    { o_valid := pv
      d_valid := a2
      o_ne_d := ?_
      own := ⟨by rw [hty]; exact ptn, hown2⟩
      dest := hx.2
      promo := ?_
      king_side := fun hk => (king_castle_squares hc ht pv a2 hk _ (hking hk)).1
      queen_side := fun hk => (king_castle_squares hc ht pv a2 hk _ (hking hk)).2 }
  · intro hod
    apply hx.2
    rw [← hod]
    exact hown2
  · intro hp
    rcases a4 with a4 | ⟨a4, a5⟩
    · exact absurd a4 hp
    · refine ⟨by rw [hty]; exact a4, ?_⟩
      show m._promotion ≠ PieceType.PAWN
      rw [a5]; decide

theorem consistent_clear : Consistent Board.clear := by
  refine ⟨?_, ⟨?_, ?_⟩, ⟨?_, ?_⟩⟩
  · intro p _ _
    exact ⟨fun _ => rfl, fun _ => rfl⟩
  · intro q _ _ h
    exact absurd rfl h
  · intro c t i q _ h
    simp [Board.clear] at h
  · intro c t i hc
    simp only [Board.clear, Nat.zero_testBit, Pos.new]
    symm
    simp only [decide_eq_false_iff_not, not_and]
    intro _ _ h
    exact hc h.symm
  · intro c i hc
    simp only [Board.clear, Nat.zero_testBit, Pos.new]
    symm
    simp only [decide_eq_false_iff_not, not_and]
    intro _ h
    exact hc h.symm

theorem pieces_key_clear (Z : ZobristTables) : pieces_key Z Board.clear.position.pl = 0 := by
  unfold pieces_key
  have h := xor_fold_congr
    (fun i => if (Board.clear.position.pl (i : Int)).2 ≠ Color.None
      then Z.hash_code (i : Int) (Board.clear.position.pl (i : Int)).1
        (Board.clear.position.pl (i : Int)).2 else 0) (fun _ => 0) 64
    (by
      intro i hi
      have : (Board.clear.position.pl (i : Int)).2 = Color.None := by
        simp only [Board.position, Board.clear, Pos.new]
        split_ifs <;> rfl
      simp [this])
  rw [h]
  decide

theorem keyInv_clear (Z : ZobristTables) : KeyInv Z Board.clear 0 := by
  unfold KeyInv
  rw [pieces_key_clear]
  rfl

theorem scoreInv_clear : ScoreInv Board.clear := by
  intro c hc
  unfold material_sum
  have h : ∀ i : Nat, (if (Board.clear.position.pl (i : Int)).2 = c
      then piece_value (i : Int) c (Board.clear.position.pl (i : Int)).1 else 0) = 0 := by
    intro i
    have : (Board.clear.position.pl (i : Int)).2 = Color.None := by
      simp only [Board.position, Board.clear, Pos.new]
      split_ifs <;> rfl
    rw [this, if_neg (Ne.symm hc)]
  simp only [h]
  simp [Board.clear, toInt32]

theorem insert_piece_none_of_full (Z : ZobristTables) (b : Board) (p : Int) (t : PieceType)
    (c : Color) (h : ¬ (b._pieces_table c t).length < PieceVector.cap) :
    Board.insert_piece Z b p t c = none := by
  unfold Board.insert_piece Board.insert_piece2
  simp only []
  split_ifs <;> simp_all

theorem placeInv_clear (Z : ZobristTables) : PlaceInv Z Board.clear 7 0 :=
  { cons := consistent_clear
    cap := fun _ _ => by simp [Board.clear]
    score := scoreInv_clear
    key := keyInv_clear Z
    ahead := fun _ _ _ _ => rfl
    fresh := ⟨rfl, rfl, rfl, rfl, rfl, rfl⟩ }

theorem placeInv_insert (Z : ZobristTables) {b : Board} {l c : Int}
    (hi : PlaceInv Z b l c) (hl : 0 ≤ l ∧ l < 8) (hcol : 0 ≤ c ∧ c < 8) {t : PieceType}
    (ht : t ≠ PieceType.CLEAR) {o : Color} (ho : o ≠ Color.None) {b1 : Board}
    (h : Board.insert_piece Z b (Place.of_line_of_col l c) t o = some b1) :
    PlaceInv Z b1 l (c + 1) := by
  have hp : Place.of_line_of_col l c = l * 8 + c := of_line_of_col_eq hl.1 hl.2 hcol.1 hcol.2
  rw [hp] at h
  have hv : 0 ≤ l * 8 + c ∧ l * 8 + c < 64 := by omega
  have hemp : (b._squares (l * 8 + c)).type = PieceType.CLEAR :=
    hi.ahead _ hv.1 hv.2 (Or.inr ⟨by omega, by omega⟩)
  have hcap : (b._pieces_table o t).length < PieceVector.cap := by
    by_contra hn
    rw [insert_piece_none_of_full Z b _ t o hn] at h
    exact absurd h (by simp)
  obtain ⟨b', e, c', p', k', s'⟩ := insert_piece_ok Z hi.cons hv.1 hv.2 hemp ht ho hcap
  rw [h] at e
  obtain rfl := Option.some.inj e
  obtain ⟨t1, t2, t3, t4, t5, t6⟩ := scalars_of_pos p'
  obtain ⟨f1, f2, f3, f4, f5, f6⟩ := hi.fresh
  refine
    { cons := c'
      cap := ?_
      score := s' hi.score
      key := k' 0 hi.key
      ahead := ?_
      fresh := ⟨t1.trans f1, t2.trans f2, t3.trans f3, t4.trans f4, t5.trans f5,
        t6.trans f6⟩ }
  · intro cx tx
    have h1 : (b1._pieces_table cx tx).length
        = (b.position.insert (l * 8 + c) t o).len cx tx :=
      congrFun (congrFun (congrArg Position.len p') cx) tx
    rw [h1]
    unfold Position.insert
    simp only []
    rw [bump_apply]
    split_ifs with h2
    · have : b.position.len o t = (b._pieces_table o t).length := rfl
      omega
    · exact hi.cap cx tx
  · intro q hq0 hq64 hq
    have hne : q ≠ l * 8 + c := by
      intro he
      rcases hq with hq | hq <;> omega
    rw [sq_type_of_pl hq0 hq64, p']
    unfold Position.insert
    simp only []
    rw [Function.update_noteq hne, ← sq_type_of_pl hq0 hq64]
    exact hi.ahead q hq0 hq64 (by rcases hq with hq | hq <;> [exact Or.inl hq; exact Or.inr ⟨hq.1, by omega⟩])

theorem isupper_owner (c : Char) :
    (if isupper c = true then Color.White else Color.Black) ≠ Color.None := by
  split_ifs <;> decide

theorem PlaceInv.weaken {Z : ZobristTables} {b : Board} {l c l' c' : Int}
    (hi : PlaceInv Z b l c)
    (h : ∀ q : Int, 0 ≤ q → q < 64 → (q / 8 < l' ∨ (q / 8 = l' ∧ c' ≤ q % 8)) →
      (q / 8 < l ∨ (q / 8 = l ∧ c ≤ q % 8))) : PlaceInv Z b l' c' :=
  { cons := hi.cons
    cap := hi.cap
    score := hi.score
    key := hi.key
    ahead := fun q h0 h64 hq => hi.ahead q h0 h64 (h q h0 h64 hq)
    fresh := hi.fresh }

/-- The placement loop of `Board::set_fen` on a placement field that FEN allows: the board it
leaves is consistent, with the key and the material of its squares. -/
theorem placement_inv (Z : ZobristTables) : ∀ (cs : List Char) (b : Board) (l c : Int)
    (s : Board × Int × Int), Board.fen_placement_ok cs l c = true → PlaceInv Z b l c →
    0 ≤ c → Board.set_fen_placement Z cs (b, l, c) = some s →
    Consistent s.1 ∧ CapOk s.1 ∧ ScoreInv s.1 ∧ KeyInv Z s.1 0 ∧ s.1.Fresh := by
  intro cs
  induction cs with
  | nil =>
    intro b l c s _ hi _ h
    unfold Board.set_fen_placement at h
    obtain rfl := Option.some.inj h
    exact ⟨hi.cons, hi.cap, hi.score, hi.key, hi.fresh⟩
  | cons ch cs ih =>
    intro b l c s hok hi hc0 h
    unfold Board.set_fen_placement at h
    unfold Board.fen_placement_ok at hok
    by_cases h1 : ch = '/'
    · rw [if_pos h1] at h hok
      refine ih b (l - 1) 0 s hok (hi.weaken ?_) (le_refl 0) h
      intro q h0 h64 hq
      left
      rcases hq with hq | hq <;> omega
    · rw [if_neg h1] at h hok
      by_cases h2 : isdigit ch = true
      · rw [if_pos h2] at h hok
        have hdig : (0 : Int) ≤ (ch.toNat : Int) - ('0'.toNat : Int) := by
          unfold isdigit at h2
          simp only [decide_eq_true_eq] at h2
          have := h2.1
          rw [Char.le_def] at this
          have h3 : '0'.toNat ≤ ch.toNat := this
          omega
        refine ih b l _ s hok (hi.weaken ?_) (by omega) h
        intro q h0 h64 hq
        rcases hq with hq | hq
        · exact Or.inl hq
        · exact Or.inr ⟨hq.1, by omega⟩
      · rw [if_neg h2] at h hok
        simp only [Bool.and_eq_true, decide_eq_true_eq] at hok
        obtain ⟨⟨hlet, hl0, hl8, hc0', hc8⟩, hrest⟩ := hok
        simp only [] at h
        cases hins : Board.insert_piece Z b (Place.of_line_of_col l c)
            (letter_to_piece (tolower ch))
            (if isupper ch = true then Color.White else Color.Black) with
        | none => rw [hins] at h; exact absurd h (by simp)
        | some b1 =>
          rw [hins, Option.some_bind] at h
          exact ih b1 l (c + 1) s hrest
            (placeInv_insert Z hi ⟨hl0, hl8⟩ ⟨hc0', hc8⟩ hlet (isupper_owner ch) hins)
            (by omega) h

/-- The board that `Board::set_fen` leaves has the squares, piece lists, bitboards and material
of the board after the placement loop, an empty history, and White or Black to move. -/
theorem set_fen_fields (Z : ZobristTables) (fen : List Char) (b : Board)
    (h : Board.set_fen Z fen = some (Except.ok b)) :
    ∃ placement turn_part rest s, split_space fen = placement :: turn_part :: rest ∧
      Board.set_fen_placement Z placement (Board.clear, 7, 0) = some s ∧
      b._squares = s.1._squares ∧ b._pieces_table = s.1._pieces_table ∧
      b.bb_blockers = s.1.bb_blockers ∧ b.bbPeca = s.1.bbPeca ∧ b._score = s.1._score ∧
      b.history = s.1.history ∧
      b._last_irreversible_move = s.1._last_irreversible_move ∧
      b.turn ≠ Color.None := by
  unfold Board.set_fen at h
  split at h
  · simp at h
  · simp at h
  · rename_i placement turn_part rest hsp
    cases hpl : Board.set_fen_placement Z placement (Board.clear, 7, 0) with
    | none => rw [hpl] at h; simp at h
    | some s =>
      rw [hpl, Option.some_bind] at h
      refine ⟨placement, turn_part, rest, s, hsp, hpl, ?_⟩
      have hturn : ∀ t : Char,
          (if tolower t = 'w' then Color.White else Color.Black) ≠ Color.None := by
        intro t; split_ifs <;> decide
      split at h
      · rename_i t
        simp only [] at h
        split at h
        · obtain rfl := Except.ok.inj (Option.some.inj h)
          exact ⟨rfl, rfl, rfl, rfl, rfl, rfl, rfl, hturn t⟩
        · split at h
          · simp at h
          · split at h
            · obtain rfl := Except.ok.inj (Option.some.inj h)
              exact ⟨rfl, rfl, rfl, rfl, rfl, rfl, rfl, hturn t⟩
            · split at h
              · simp at h
              · split at h
                · obtain rfl := Except.ok.inj (Option.some.inj h)
                  exact ⟨rfl, rfl, rfl, rfl, rfl, rfl, rfl, hturn t⟩
                · obtain rfl := Except.ok.inj (Option.some.inj h)
                  exact ⟨rfl, rfl, rfl, rfl, rfl, rfl, rfl, hturn t⟩
                · simp only [Option.map_eq_some'] at h
                  obtain ⟨v, _, hv⟩ := h
                  obtain rfl := Except.ok.inj hv
                  exact ⟨rfl, rfl, rfl, rfl, rfl, rfl, rfl, hturn t⟩
      · simp at h

set_option maxRecDepth 100000 in
theorem split_initial_fen : split_space Board.initial_fen
    = ["rnbqkbnr/pppppppp/8/8/8/8/PPPPPPPP/RNBQKBNR".toList, ['w'], "KQkq".toList, ['-']] := by
  decide

/-- The scalar fields and the key that `Board::set_fen` leaves on a FEN of four fields. -/
theorem set_fen_four (Z : ZobristTables) (fen : List Char) (b : Board)
    (placement castle_part passant_part : List Char) (t : Char)
    (hsp : split_space fen = [placement, [t], castle_part, passant_part])
    (h : Board.set_fen Z fen = some (Except.ok b)) :
    ∃ s f pp, Board.set_fen_placement Z placement (Board.clear, 7, 0) = some s ∧
      (if castle_part = ['-'] then some s.1.castle_flags
        else Board.set_fen_castle castle_part s.1.castle_flags) = some f ∧
      (if passant_part = ['-'] then some s.1.passan_place
        else Place.of_string passant_part) = some pp ∧
      b._squares = s.1._squares ∧
      b.turn = (if tolower t = 'w' then Color.White else Color.Black) ∧
      b._hash_key = (if (if tolower t = 'w' then Color.White else Color.Black) = Color.Black
          then s.1._hash_key ^^^ Z.hash_code_turn else s.1._hash_key)
        ^^^ CastleFlags.hash Z f ∧
      b.castle_flags = f ∧ b.passan_place = pp := by
  unfold Board.set_fen at h
  rw [hsp] at h
  simp only [] at h
  cases hpl : Board.set_fen_placement Z placement (Board.clear, 7, 0) with
  | none => rw [hpl] at h; simp at h
  | some s =>
    rw [hpl, Option.some_bind] at h
    split at h
    · simp at h
    · rename_i f hf
      split at h
      · simp at h
      · rename_i pp hpp
        obtain rfl := Except.ok.inj (Option.some.inj h)
        exact ⟨s, f, pp, rfl, hf, hpp, rfl, rfl, rfl, rfl, rfl⟩

/-- The board that `Board::set_fen` leaves on a FEN that `fen_ok` accepts is consistent, has
the material of its squares, an empty history, and White or Black to move. -/
theorem set_fen_inv (Z : ZobristTables) (fen : List Char) (b : Board)
    (h : Board.set_fen Z fen = some (Except.ok b)) (hok : Board.fen_ok fen = true) :
    Consistent b ∧ CapOk b ∧ b.turn ≠ Color.None ∧ ScoreInv b ∧ b.history = [] := by
  obtain ⟨placement, turn_part, rest, s, hsp, hpl, e1, e2, e3, e4, e5, e6, e7, e8⟩ :=
    set_fen_fields Z fen b h
  unfold Board.fen_ok at hok
  rw [hsp] at hok
  simp only [] at hok
  obtain ⟨i1, i2, i3, i4, i5⟩ :=
    placement_inv Z placement Board.clear 7 0 s hok (placeInv_clear Z) (le_refl 0) hpl
  refine ⟨consistent_congr i1 e1 e2 e3 e4, ?_, e8, scoreInv_congr i3 e1 e5, ?_⟩
  · intro c t
    rw [e2]
    exact i2 c t
  · rw [e6]
    exact i5.2.2.2.1

theorem set_initial_some (Z : ZobristTables) : ∃ b, Board.set_initial Z = some b :=
  Option.isSome_iff_exists.mp (by rfl)

theorem set_initial_fen (Z : ZobristTables) {b : Board} (h : Board.set_initial Z = some b) :
    Board.set_fen Z Board.initial_fen = some (Except.ok b) := by
  unfold Board.set_initial at h
  split at h
  · rename_i b' hb
    rw [hb, Option.some.inj h]
  · simp at h

set_option maxRecDepth 100000 in
theorem initial_fen_ok : Board.fen_ok Board.initial_fen = true := by decide

/-- The board of `Board::set_initial`: consistent, with the material and the Zobrist key of its
squares and scalar fields, an empty history, and White to move. -/
theorem set_initial_inv (Z : ZobristTables) {b : Board} (h : Board.set_initial Z = some b) :
    Consistent b ∧ CapOk b ∧ b.turn ≠ Color.None ∧ ScoreInv b ∧ b.history = [] ∧
      HashInv Z b := by
  have hf := set_initial_fen Z h
  obtain ⟨c1, c2, c3, c4, c5⟩ := set_fen_inv Z _ b hf initial_fen_ok
  refine ⟨c1, c2, c3, c4, c5, ?_⟩
  obtain ⟨s, f, pp, hpl, hf1, hp1, e1, e2, e3, e4, e5⟩ :=
    set_fen_four Z _ b _ _ _ _ split_initial_fen hf
  obtain ⟨i1, i2, i3, i4, i5⟩ := placement_inv Z _ Board.clear 7 0 s (by decide)
    (placeInv_clear Z) (le_refl 0) hpl
  obtain ⟨f1, f2, f3, f4, f5, f6⟩ := i5
  have hpp : pp = Place.invalid := by
    rw [if_pos rfl] at hp1
    rw [← Option.some.inj hp1, f3]
  have ht : b.turn = Color.White := by rw [e2]; decide
  unfold HashInv zobrist
  unfold KeyInv at i4
  have hpl2 : b.position.pl = s.1.position.pl := position_pl_congr e1
  have hw : tolower 'w' = 'w' := by decide
  rw [hpl2, e3, i4, if_pos hw]
  simp only [Board.position, ht, e4, e5, hpp, invalid_not_valid, CastleFlags.hash]
  simp

/-- The board after `undo` stands for the position of the board before the `move`. -/
theorem undo_position (Z : ZobristTables) {b0 b' b'' : Board} (hc0 : Consistent b0)
    (hcap0 : CapOk b0) {m : Move} (hm : b0.position.MoveOk m) (k : Nat) {mi : MoveInfo}
    (hc' : Consistent b') (hpos : b'.position = (b0.position.move m k).1)
    (hmi : mi.forget_id = (b0.position.move m k).2)
    (hu : Board.undo Z b' m mi = some b'') :
    Consistent b'' ∧ CapOk b'' ∧ b''.position = b0.position ∧
      (HashInv Z b' → HashInv Z b'') ∧ (ScoreInv b' → ScoreInv b'') := by
  have hok := position_ok hc0 hcap0
  obtain ⟨bx, e2, c2, p2, hh2, hs2⟩ := undo_ok Z hc' b0.position hok m hm k mi hpos hmi
  rw [hu] at e2
  obtain rfl := Option.some.inj e2
  obtain ⟨r1, r2, r3, r4, r5, r6, r7⟩ := Position.undo_move_fields b0.position hok m hm k
  have hpl : b''.position.pl = b0.position.pl := by rw [p2]; exact r1
  have hlen : b''.position.len = b0.position.len := by
    funext c t
    by_cases hcn : c = Color.None
    · subst hcn
      rw [p2]
      exact Position.undo_move_len_none b0.position hok m hm k t
    · exact (lists_perm hc0 c2 hpl hcn t).length_eq
  have hp : b''.position = b0.position := by
    apply Position.ext_fields hpl hlen
    · rw [p2]; exact r2
    · rw [p2]; exact r4
    · rw [p2]; exact r5
    · rw [p2]; exact r3
    · rw [p2]; exact r6
    · rw [p2]; exact r7
  refine ⟨c2, ?_, hp, hh2, hs2⟩
  intro c t
  have h1 : (b''._pieces_table c t).length = b0.position.len c t :=
    congrFun (congrFun (congrArg Position.len hp) c) t
  rw [h1]
  exact hcap0 c t

/-- The structural invariants hold on every board reached by moves that `list_moves` gives and
by matching undos. -/
theorem reach_inv (Z : ZobristTables) {Init : Board → Prop} {Ok : Board → Move → Prop}
    (hInit : ∀ b, Init b → Consistent b ∧ CapOk b ∧ b.turn ≠ Color.None)
    (hOk : ∀ b m, Ok b m → ∃ s, m ∈ Rules.list_moves b s [])
    {b : Board} {st : List (Move × MoveInfo)} (h : Reach Z Init Ok b st) :
    Consistent b ∧ CapOk b ∧ b.turn ≠ Color.None ∧ StackOk b.position st := by
  induction h with
  | init hi =>
    obtain ⟨h1, h2, h3⟩ := hInit _ hi
    exact ⟨h1, h2, h3, trivial⟩
  | move hr hok hmv ih =>
    rename_i b0 b1 st0 m mi
    obtain ⟨c0, cap0, t0, s0⟩ := ih
    obtain ⟨s, hs⟩ := hOk _ _ hok
    have hl := listed_of_list_moves c0 t0 s hs
    obtain ⟨hm, ⟨c1, cap1, t1, p1, i1, _, _⟩, _⟩ := move_step Z c0 cap0 t0 hl hmv
    exact ⟨c1, cap1, t1, b0, b0._hash_key, c0, cap0, t0, hm, p1, i1, s0⟩
  | undo hr hu ih =>
    rename_i b0 b1 st0 m mi
    obtain ⟨c1, cap1, t1, bx, k, cx, capx, tx, hm, px, ix, sx⟩ := ih
    obtain ⟨c0, cap0, p0, _, _⟩ := undo_position Z cx capx hm k c1 px ix hu
    refine ⟨c0, cap0, ?_, ?_⟩
    · have : b0.turn = bx.turn := congrArg Position.turn p0
      rw [this]; exact tx
    · rw [p0]; exact sx

/-- The Zobrist key and the material scores stay right on every board reached by moves that
`list_moves` gives and by matching undos, when they are right on the first board. -/
theorem reach_hash (Z : ZobristTables) {Init : Board → Prop} {Ok : Board → Move → Prop}
    (hInit : ∀ b, Init b → Consistent b ∧ CapOk b ∧ b.turn ≠ Color.None)
    (hOk : ∀ b m, Ok b m → ∃ s, m ∈ Rules.list_moves b s [])
    (P : Board → Prop)
    (hP : P = HashInv Z ∨ P = ScoreInv)
    (hInitP : ∀ b, Init b → P b)
    {b : Board} {st : List (Move × MoveInfo)} (h : Reach Z Init Ok b st) : P b := by
  induction h with
  | init hi => exact hInitP _ hi
  | move hr hok hmv ih =>
    rename_i b0 b1 st0 m mi
    obtain ⟨c0, cap0, t0, s0⟩ := reach_inv Z hInit hOk hr
    obtain ⟨s, hs⟩ := hOk _ _ hok
    have hl := listed_of_list_moves c0 t0 s hs
    obtain ⟨hm, ⟨c1, cap1, t1, p1, i1, hh, hsc⟩, _⟩ := move_step Z c0 cap0 t0 hl hmv
    rcases hP with rfl | rfl
    · exact hh ih
    · exact hsc ih
  | undo hr hu ih =>
    rename_i b0 b1 st0 m mi
    obtain ⟨c1, cap1, t1, bx, k, cx, capx, tx, hm, px, ix, sx⟩ := reach_inv Z hInit hOk hr
    obtain ⟨c0, cap0, p0, hh, hsc⟩ := undo_position Z cx capx hm k c1 px ix hu
    rcases hP with rfl | rfl
    · exact hh ih
    · exact hsc ih

theorem squares_key_eq (Z : ZobristTables) (b : Board) :
    Board.squares_key Z b._squares = pieces_key Z b.position.pl := by
  unfold Board.squares_key pieces_key
  apply List.foldl_ext
  intro k i hi
  have h64 : i < 64 := List.mem_range.mp hi
  have e : Place.of_int (i : Int) = (i : Int) := by
    unfold Place.of_int
    exact toInt8_eq (by omega) (by omega)
  rw [e, position_pl_valid b (Int.natCast_nonneg i) (by omega)]
  by_cases h : (b._squares (i : Int)).owner = Color.None
  · simp [h]
  · simp [h]

theorem key_from_scratch_eq (Z : ZobristTables) (b : Board) :
    Board.key_from_scratch Z b = zobrist Z b.position := by
  unfold Board.key_from_scratch zobrist
  rw [squares_key_eq]
  rfl

/-- Two consistent boards with the same position have the same bitboards. -/
theorem same_position_bits {b b2 : Board} (hc : Consistent b) (hc2 : Consistent b2)
    (hp : b2.position = b.position) :
    (∀ (c : Color), c ≠ Color.None → b2.bb_blockers c = b.bb_blockers c) ∧
    (∀ (c : Color) (t : PieceType), c ≠ Color.None → b2.bbPeca c t = b.bbPeca c t) := by
  have hsq : ∀ p : Int, 0 ≤ p → p < 64 →
      (b2._squares p).type = (b._squares p).type ∧ (b2._squares p).owner = (b._squares p).owner := by
    intro p h0 h64
    have h1 := position_pl_valid b2 h0 h64
    have h2 := position_pl_valid b h0 h64
    rw [hp, h2] at h1
    exact ⟨(congrArg Prod.fst h1).symm, (congrArg Prod.snd h1).symm⟩
  constructor
  · intro c hcn
    apply Nat.eq_of_testBit_eq
    intro i
    rw [hc2.bits.2 c i hcn, hc.bits.2 c i hcn]
    by_cases h : i < 64
    · rw [(hsq (i : Int) (Int.natCast_nonneg i) (by omega)).2]
    · simp [h]
  · intro c t hcn
    apply Nat.eq_of_testBit_eq
    intro i
    rw [hc2.bits.1 c t i hcn, hc.bits.1 c t i hcn]
    by_cases h : i < 64
    · rw [(hsq (i : Int) (Int.natCast_nonneg i) (by omega)).1,
        (hsq (i : Int) (Int.natCast_nonneg i) (by omega)).2]
    · simp [h]

/-- Two boards with the same position have the same piece on every square and the same scalar
fields. -/
theorem same_position_fields {b b2 : Board} (hp : b2.position = b.position) :
    (∀ p : Int, 0 ≤ p → p < 64 →
      (b2._squares p).type = (b._squares p).type ∧ (b2._squares p).owner = (b._squares p).owner) ∧
    b2.turn = b.turn ∧ b2.castle_flags = b.castle_flags ∧ b2.passan_place = b.passan_place ∧
    b2.history = b.history ∧ b2._last_irreversible_move = b._last_irreversible_move ∧
    b2._base_ply = b._base_ply := by
  refine ⟨?_, congrArg Position.turn hp, congrArg Position.castle_flags hp,
    congrArg Position.passan_place hp, congrArg Position.history hp,
    congrArg Position._last_irreversible_move hp, congrArg Position._base_ply hp⟩
  intro p h0 h64
  have h1 := position_pl_valid b2 h0 h64
  have h2 := position_pl_valid b h0 h64
  rw [hp, h2] at h1
  exact ⟨(congrArg Prod.fst h1).symm, (congrArg Prod.snd h1).symm⟩

theorem same_position_key (Z : ZobristTables) {b b2 : Board} (hp : b2.position = b.position)
    (h : HashInv Z b) (h2 : HashInv Z b2) : b2._hash_key = b._hash_key := by
  unfold HashInv at h h2
  rw [h, h2, hp]

theorem same_position_score {b b2 : Board} (hp : b2.position = b.position)
    (h : ScoreInv b) (h2 : ScoreInv b2) (c : Color) (hcn : c ≠ Color.None) :
    b2._score c = b._score c := by
  rw [h c hcn, h2 c hcn, hp]

/-- A move that `is_legal_move` accepts is a move that `Board::move` made. -/
theorem legal_move_some {Z : ZobristTables} {b : Board} {s : EvalScratch} {m : Move}
    (h : Rules.is_legal_move Z b s m = some true) : ∃ r, Board.move Z b m = some r := by
  unfold Rules.is_legal_move at h
  simp only [] at h
  split at h
  · simp at h
  · cases hm : Board.move Z b m with
    | none => rw [hm] at h; simp at h
    | some r => exact ⟨r, rfl⟩

/-- The FEN string reads the type and the owner of the 64 squares and the scalar fields only. -/
theorem to_fen_congr {b b2 : Board}
    (hsq : ∀ p : Int, 0 ≤ p → p < 64 →
      (b2._squares p).type = (b._squares p).type ∧ (b2._squares p).owner = (b._squares p).owner)
    (ht : b2.turn = b.turn) (hf : b2.castle_flags = b.castle_flags)
    (hp : b2.passan_place = b.passan_place) (hh : b2.history = b.history)
    (hb : b2._base_ply = b._base_ply) : Board.to_fen b2 = Board.to_fen b := by
  have hpl : Board.to_fen_placement b2 = Board.to_fen_placement b := by
    unfold Board.to_fen_placement
    congr 1
    apply List.foldl_ext
    intro s l hl
    have hl8 : l < 8 := List.mem_range.mp hl
    have hin : (List.range 8).foldl
        (fun (s : List Char × Nat) (c : Nat) =>
          let cell := b2._squares (Place.of_line_of_col (7 - (l : Int)) (c : Int))
          if cell.type = PieceType.CLEAR then (s.1, s.2 + 1)
          else Board.fen_add_char s (Board.cell_letter cell)) s
        = (List.range 8).foldl
        (fun (s : List Char × Nat) (c : Nat) =>
          let cell := b._squares (Place.of_line_of_col (7 - (l : Int)) (c : Int))
          if cell.type = PieceType.CLEAR then (s.1, s.2 + 1)
          else Board.fen_add_char s (Board.cell_letter cell)) s := by
      apply List.foldl_ext
      intro s2 c hc
      have hc8 : c < 8 := List.mem_range.mp hc
      have e := of_line_of_col_eq (l := 7 - (l : Int)) (c := (c : Int)) (by omega) (by omega)
        (by omega) (by omega)
      obtain ⟨h1, h2⟩ := hsq (Place.of_line_of_col (7 - (l : Int)) (c : Int))
        (by rw [e]; omega) (by rw [e]; omega)
      simp only [Board.cell_letter, h1, h2]
    simp only [] at hin ⊢
    rw [hin]
  unfold Board.to_fen Board.ply
  rw [hpl, ht, hf, hp, hh, hb]

/-- On a consistent board the bitboard of the blockers of a colour is the union of the bitboards
of its piece types. -/
theorem blockers_union {b : Board} (hc : Consistent b) {c : Color} (hcn : c ≠ Color.None) :
    b.bb_blockers c =
      b.bbPeca c PieceType.CLEAR ||| b.bbPeca c PieceType.PAWN ||| b.bbPeca c PieceType.KNIGHT |||
      b.bbPeca c PieceType.BISHOP ||| b.bbPeca c PieceType.ROOK ||| b.bbPeca c PieceType.QUEEN |||
      b.bbPeca c PieceType.KING := by
  apply Nat.eq_of_testBit_eq
  intro i
  simp only [Nat.testBit_or]
  rw [hc.bits.2 c i hcn, hc.bits.1 c _ i hcn, hc.bits.1 c _ i hcn, hc.bits.1 c _ i hcn,
    hc.bits.1 c _ i hcn, hc.bits.1 c _ i hcn, hc.bits.1 c _ i hcn, hc.bits.1 c _ i hcn]
  by_cases h64 : i < 64
  · by_cases ho : (b._squares (i : Int)).owner = c
    · cases ht : (b._squares (i : Int)).type <;> simp [h64, ho]
    · simp [h64, ho]
  · simp [h64]

/-- A move that returns is a step of `Reach`, to the board and the `MoveInfo` it returns. -/
theorem reach_step {Z : ZobristTables} {Init : Board → Prop} {Ok : Board → Move → Prop}
    {b : Board} {st : List (Move × MoveInfo)} (hr : Reach Z Init Ok b st) {m : Move}
    (hok : Ok b m) (d : Board × MoveInfo) (hs : (Board.move Z b m).isSome = true) :
    Reach Z Init Ok ((Board.move Z b m).getD d).1 ((m, ((Board.move Z b m).getD d).2) :: st) := by
  obtain ⟨r, hr2⟩ := Option.isSome_iff_exists.mp hs
  rw [hr2]
  exact Reach.move hr hok hr2

/-- The letter that `to_fen` prints for a piece is read back by `set_fen` as that piece. -/
theorem cell_letter_spec {t : PieceType} {o : Color} (ht : t ≠ PieceType.CLEAR)
    (ho : o ≠ Color.None) :
    Board.cell_letter ⟨0, t, o⟩ ≠ '/' ∧ isdigit (Board.cell_letter ⟨0, t, o⟩) = false ∧
    Board.cell_letter ⟨0, t, o⟩ ≠ ' ' ∧
    letter_to_piece (tolower (Board.cell_letter ⟨0, t, o⟩)) = t ∧
    (if isupper (Board.cell_letter ⟨0, t, o⟩) = true then Color.White else Color.Black) = o := by
  cases t <;> cases o <;> first | exact absurd rfl ht | exact absurd rfl ho | decide

theorem cell_letter_id (p : Pos) :
    Board.cell_letter p = Board.cell_letter ⟨0, p.type, p.owner⟩ := rfl

/-- The digit that `to_fen` prints for `n` empty squares is read back by `set_fen` as `n`. -/
theorem digit_char_spec {n : Nat} (h1 : 1 ≤ n) (h8 : n ≤ 8) :
    Char.ofNat ('0'.toNat + n) ≠ '/' ∧ isdigit (Char.ofNat ('0'.toNat + n)) = true ∧
    Char.ofNat ('0'.toNat + n) ≠ ' ' ∧
    (((Char.ofNat ('0'.toNat + n)).toNat : Int) - ('0'.toNat : Int)) = (n : Int) := by
  interval_cases n <;> decide

theorem set_fen_placement_cons (Z : ZobristTables) (c : Char) (cs : List Char) (b : Board)
    (l k : Int) :
    Board.set_fen_placement Z (c :: cs) (b, l, k) =
      if c = '/' then Board.set_fen_placement Z cs (b, l - 1, 0)
      else if isdigit c then
        Board.set_fen_placement Z cs (b, l, k + ((c.toNat : Int) - ('0'.toNat : Int)))
      else
        (Board.insert_piece Z b (Place.of_line_of_col l k) (letter_to_piece (tolower c))
          (if isupper c then Color.White else Color.Black)).bind fun b1 =>
            Board.set_fen_placement Z cs (b1, l, k + 1) := by
  rw [Board.set_fen_placement]

/-- The placement loop of `set_fen` on two strings in a row. -/
theorem set_fen_placement_append (Z : ZobristTables) : ∀ (xs ys : List Char)
    (s : Board × Int × Int),
    Board.set_fen_placement Z (xs ++ ys) s
      = (Board.set_fen_placement Z xs s).bind (Board.set_fen_placement Z ys) := by
  intro xs
  induction xs with
  | nil => intro ys s; rfl
  | cons c cs ih =>
    intro ys s
    obtain ⟨b, l, k⟩ := s
    rw [List.cons_append, set_fen_placement_cons, set_fen_placement_cons]
    by_cases h1 : c = '/'
    · rw [if_pos h1, if_pos h1]
      exact ih ys _
    · rw [if_neg h1, if_neg h1]
      by_cases h2 : isdigit c = true
      · rw [if_pos h2, if_pos h2]
        exact ih ys _
      · rw [if_neg h2, if_neg h2]
        cases hins : Board.insert_piece Z b (Place.of_line_of_col l k)
            (letter_to_piece (tolower c)) (if isupper c = true then Color.White else Color.Black) with
        | none => rfl
        | some b1 =>
          simp only [Option.some_bind]
          exact ih ys _

theorem set_fen_placement_digit (Z : ZobristTables) {n : Nat} (h1 : 1 ≤ n) (h8 : n ≤ 8)
    (b : Board) (l k : Int) :
    Board.set_fen_placement Z [Char.ofNat ('0'.toNat + n)] (b, l, k) = some (b, l, k + n) := by
  obtain ⟨d1, d2, _, d4⟩ := digit_char_spec h1 h8
  rw [set_fen_placement_cons, if_neg d1, if_pos d2, d4]
  rfl

theorem set_fen_placement_slash (Z : ZobristTables) (b : Board) (l k : Int) :
    Board.set_fen_placement Z ['/'] (b, l, k) = some (b, l - 1, 0) := by
  rw [set_fen_placement_cons, if_pos rfl]
  rfl

theorem set_fen_placement_letter (Z : ZobristTables) {t : PieceType} {o : Color}
    (ht : t ≠ PieceType.CLEAR) (ho : o ≠ Color.None) (b : Board) (l k : Int) :
    Board.set_fen_placement Z [Board.cell_letter ⟨0, t, o⟩] (b, l, k)
      = (Board.insert_piece Z b (Place.of_line_of_col l k) t o).bind
          fun b1 => some (b1, l, k + 1) := by
  obtain ⟨d1, d2, _, d4, d5⟩ := cell_letter_spec ht ho
  rw [set_fen_placement_cons, if_neg d1, if_neg (by rw [d2]; decide), d4, d5]
  rfl

/-- A board whose pieces all stand where another board has them, and that lacks one of its
pieces, has a shorter list of that piece. -/
theorem list_shorter {b bk : Board} (hc : Consistent b) (hk : Consistent bk)
    (hsub : ∀ q : Int, 0 ≤ q → q < 64 → (bk._squares q).type ≠ PieceType.CLEAR →
      (bk._squares q).type = (b._squares q).type ∧ (bk._squares q).owner = (b._squares q).owner)
    {q0 : Int} (h0 : 0 ≤ q0) (h64 : q0 < 64) (hemp : (bk._squares q0).type = PieceType.CLEAR)
    {t : PieceType} {o : Color} (ht : t ≠ PieceType.CLEAR) (ho : o ≠ Color.None)
    (hb : (b._squares q0).type = t ∧ (b._squares q0).owner = o) :
    (bk._pieces_table o t).length < (b._pieces_table o t).length := by
  have hnd : (q0 :: bk._pieces_table o t).Nodup := by
    rw [List.nodup_cons]
    refine ⟨?_, lists_nodup hk ho t⟩
    intro hin
    obtain ⟨_, _, hpl⟩ := (lists_mem hk ho t q0).mp hin
    rw [position_pl_valid bk h0 h64] at hpl
    exact ht ((congrArg Prod.fst hpl).symm.trans hemp)
  have hss : (q0 :: bk._pieces_table o t) ⊆ b._pieces_table o t := by
    intro q hq
    rcases List.mem_cons.mp hq with rfl | hq
    · rw [lists_mem hc ho t q, position_pl_valid b h0 h64, hb.1, hb.2]
      exact ⟨⟨h0, h64⟩, ht, rfl⟩
    · obtain ⟨⟨g0, g64⟩, _, hpl⟩ := (lists_mem hk ho t q).mp hq
      rw [position_pl_valid bk g0 g64] at hpl
      have e1 : (bk._squares q).type = t := congrArg Prod.fst hpl
      have e2 : (bk._squares q).owner = o := congrArg Prod.snd hpl
      obtain ⟨f1, f2⟩ := hsub q g0 g64 (by rw [e1]; exact ht)
      rw [lists_mem hc ho t q, position_pl_valid b g0 g64, ← f1, ← f2, e1, e2]
      exact ⟨⟨g0, g64⟩, ht, rfl⟩
  have := (List.subperm_of_subset hnd hss).length_le
  simp only [List.length_cons] at this
  omega

theorem scan_start (Z : ZobristTables) (b : Board) : ScanInv Z b ([], 0) 7 0 := by
  refine ⟨Board.clear, 0, rfl, le_refl _, rfl, placeInv_clear Z, ?_, ?_⟩
  · intro q h0 h64 hq
    omega
  · intro c hc
    exact absurd hc (List.not_mem_nil c)

theorem scan_flush (Z : ZobristTables) {b : Board} {s : List Char × Nat} {l cl : Int}
    (h : ScanInv Z b s l cl) (hcl : cl ≤ 8) :
    ScanInv Z b (Board.fen_flush s) l cl ∧ (Board.fen_flush s).2 = 0 := by
  obtain ⟨bk, col, hp, hc0, hcc, hi, hag, hns⟩ := h
  unfold Board.fen_flush
  by_cases h0 : s.2 > 0
  · rw [if_pos h0]
    refine ⟨⟨bk, cl, ?_, by omega, by simp, ?_, hag, ?_⟩, rfl⟩
    · simp only []
      rw [set_fen_placement_append, hp, Option.some_bind,
        set_fen_placement_digit Z (by omega) (by omega), hcc]
    · exact hi.weaken (fun q _ _ hq => by omega)
    · intro c hc
      simp only [List.mem_append, List.mem_singleton] at hc
      rcases hc with hc | rfl
      · exact hns c hc
      · exact (digit_char_spec (n := s.2) (by omega) (by omega)).2.2.1
  · rw [if_neg h0]
    exact ⟨⟨bk, col, hp, hc0, hcc, hi, hag, hns⟩, by omega⟩

theorem scan_empty (Z : ZobristTables) {b : Board} (hc : Consistent b)
    {s : List Char × Nat} {l cl : Int} (_hl : 0 ≤ l ∧ l < 8) (hcl : 0 ≤ cl ∧ cl < 8)
    (h : ScanInv Z b s l cl) (he : (b._squares (l * 8 + cl)).type = PieceType.CLEAR) :
    ScanInv Z b (s.1, s.2 + 1) l (cl + 1) := by
  obtain ⟨bk, col, hp, hc0, hcc, hi, hag, hns⟩ := h
  refine ⟨bk, col, hp, hc0, by push_cast; omega, hi, ?_, hns⟩
  intro q h0 h64 hq
  by_cases hq0 : q = l * 8 + cl
  · subst hq0
    have e1 : (bk._squares (l * 8 + cl)).type = PieceType.CLEAR :=
      hi.ahead _ h0 h64 (Or.inr ⟨by omega, by omega⟩)
    rw [e1, he, (hi.cons.sq_none _ h0 h64).mp e1, (hc.sq_none _ h0 h64).mp he]
    exact ⟨rfl, rfl⟩
  · exact hag q h0 h64 (by omega)

theorem scan_piece (Z : ZobristTables) {b : Board} (hc : Consistent b) (hcap : CapOk b)
    {s : List Char × Nat} {l cl : Int} (hl : 0 ≤ l ∧ l < 8) (hcl : 0 ≤ cl ∧ cl < 8)
    (h : ScanInv Z b s l cl) (hs : s.2 = 0)
    (he : (b._squares (l * 8 + cl)).type ≠ PieceType.CLEAR) :
    ScanInv Z b (s.1 ++ [Board.cell_letter (b._squares (l * 8 + cl))], 0) l (cl + 1) := by
  obtain ⟨bk, col, hp, hc0, hcc, hi, hag, hns⟩ := h
  have hcol : col = cl := by rw [hs] at hcc; simpa using hcc
  subst hcol
  have hv : 0 ≤ l * 8 + col ∧ l * 8 + col < 64 := by omega
  have ho : (b._squares (l * 8 + col)).owner ≠ Color.None :=
    fun hn => he ((hc.sq_none _ hv.1 hv.2).mpr hn)
  have hemp : (bk._squares (l * 8 + col)).type = PieceType.CLEAR :=
    hi.ahead _ hv.1 hv.2 (Or.inr ⟨by omega, by omega⟩)
  have hsub : ∀ q : Int, 0 ≤ q → q < 64 → (bk._squares q).type ≠ PieceType.CLEAR →
      (bk._squares q).type = (b._squares q).type ∧
      (bk._squares q).owner = (b._squares q).owner := by
    intro q h0 h64 hne
    apply hag q h0 h64
    by_contra hn
    exact hne (hi.ahead q h0 h64 (by omega))
  have hlen := list_shorter hc hi.cons hsub hv.1 hv.2 hemp he ho ⟨rfl, rfl⟩
  have hcap2 : (bk._pieces_table (b._squares (l * 8 + col)).owner
      (b._squares (l * 8 + col)).type).length < PieceVector.cap :=
    lt_of_lt_of_le hlen (hcap _ _)
  obtain ⟨b1, e1, c1, p1, _, _⟩ := insert_piece_ok Z hi.cons hv.1 hv.2 hemp he ho hcap2
  have hplace : Place.of_line_of_col l col = l * 8 + col :=
    of_line_of_col_eq hl.1 hl.2 hcl.1 hcl.2
  have hi1 : PlaceInv Z b1 l (col + 1) :=
    placeInv_insert Z hi hl hcl he ho (by rw [hplace]; exact e1)
  refine ⟨b1, col + 1, ?_, by omega, by simp, hi1, ?_, ?_⟩
  · simp only []
    rw [set_fen_placement_append, hp, Option.some_bind, cell_letter_id,
      set_fen_placement_letter Z he ho, hplace, e1]
    rfl
  · intro q h0 h64 hq
    rw [sq_type_of_pl h0 h64, sq_owner_of_pl h0 h64, p1]
    unfold Position.insert
    simp only []
    by_cases hq0 : q = l * 8 + col
    · subst hq0
      rw [Function.update_same]
      exact ⟨rfl, rfl⟩
    · rw [Function.update_noteq hq0, ← sq_type_of_pl h0 h64, ← sq_owner_of_pl h0 h64]
      exact hag q h0 h64 (by omega)
  · intro c hcm
    simp only [List.mem_append, List.mem_singleton] at hcm
    rcases hcm with hcm | rfl
    · exact hns c hcm
    · rw [cell_letter_id]
      exact (cell_letter_spec he ho).2.2.1

theorem scan_cell (Z : ZobristTables) {b : Board} (hc : Consistent b) (hcap : CapOk b)
    {r : Int} (hr : 0 ≤ r ∧ r < 8) {k : Nat} (hk : k < 8) {s : List Char × Nat}
    (h1 : ScanInv Z b s r k) :
    ScanInv Z b
      (if (b._squares (Place.of_line_of_col r (k : Int))).type = PieceType.CLEAR
        then (s.1, s.2 + 1)
        else Board.fen_add_char s
          (Board.cell_letter (b._squares (Place.of_line_of_col r (k : Int))))) r
      ((k + 1 : Nat) : Int) := by
  have hplace : Place.of_line_of_col r (k : Int) = r * 8 + (k : Int) :=
    of_line_of_col_eq hr.1 hr.2 (by omega) (by omega)
  rw [hplace]
  have e : ((k + 1 : Nat) : Int) = (k : Int) + 1 := by push_cast; rfl
  rw [e]
  by_cases he : (b._squares (r * 8 + (k : Int))).type = PieceType.CLEAR
  · rw [if_pos he]
    exact scan_empty Z hc hr (by omega) h1 he
  · rw [if_neg he]
    obtain ⟨h2, h3⟩ := scan_flush Z h1 (by omega)
    have h4 := scan_piece Z hc hcap hr (by omega) h2 h3 he
    unfold Board.fen_add_char
    rw [h3]
    exact h4

/-- The loop of `to_fen` over the columns of one line. -/
theorem scan_line (Z : ZobristTables) {b : Board} (hc : Consistent b) (hcap : CapOk b)
    {r : Int} (hr : 0 ≤ r ∧ r < 8) : ∀ (k : Nat), k ≤ 8 → ∀ (s : List Char × Nat),
    ScanInv Z b s r 0 →
    ScanInv Z b ((List.range k).foldl
      (fun (s : List Char × Nat) (c : Nat) =>
        let cell := b._squares (Place.of_line_of_col r (c : Int))
        if cell.type = PieceType.CLEAR then (s.1, s.2 + 1)
        else Board.fen_add_char s (Board.cell_letter cell)) s) r k := by
  intro k
  induction k with
  | zero => intro _ s h; exact h
  | succ k ih =>
    intro hk s h
    have h1 := ih (by omega) s h
    rw [List.range_succ, List.foldl_append, List.foldl_cons, List.foldl_nil]
    exact scan_cell Z hc hcap hr (by omega) h1

theorem scan_line_end (Z : ZobristTables) {b : Board} {s : List Char × Nat} {r : Int}
    (h : ScanInv Z b s r 8) : ScanInv Z b (Board.fen_add_char s '/') (r - 1) 0 := by
  obtain ⟨⟨bk, col, hp, hc0, hcc, hi, hag, hns⟩, h3⟩ := scan_flush Z h (le_refl _)
  unfold Board.fen_add_char
  rw [h3] at hcc ⊢
  refine ⟨bk, 0, ?_, le_refl _, by simp, ?_, ?_, ?_⟩
  · simp only []
    rw [set_fen_placement_append, hp, Option.some_bind, set_fen_placement_slash]
  · exact hi.weaken (fun q _ _ hq => by omega)
  · intro q h0 h64 hq
    exact hag q h0 h64 (by omega)
  · intro c hcm
    simp only [List.mem_append, List.mem_singleton] at hcm
    rcases hcm with hcm | rfl
    · exact hns c hcm
    · decide

/-- The loop of `to_fen` over the first `k` lines. -/
theorem scan_lines (Z : ZobristTables) {b : Board} (hc : Consistent b) (hcap : CapOk b) :
    ∀ (k : Nat), k ≤ 7 →
    ScanInv Z b ((List.range k).foldl
      (fun (s : List Char × Nat) (l : Nat) =>
        let s1 := (List.range 8).foldl
          (fun (s : List Char × Nat) (c : Nat) =>
            let cell := b._squares (Place.of_line_of_col (7 - (l : Int)) (c : Int))
            if cell.type = PieceType.CLEAR then (s.1, s.2 + 1)
            else Board.fen_add_char s (Board.cell_letter cell))
          s
        if l < 7 then Board.fen_add_char s1 '/' else Board.fen_flush s1)
      ([], 0)) (7 - (k : Int)) 0 := by
  intro k
  induction k with
  | zero => intro _; exact scan_start Z b
  | succ k ih =>
    intro hk
    have h1 := ih (by omega)
    rw [List.range_succ (n := k), List.foldl_append, List.foldl_cons, List.foldl_nil]
    have h2 := scan_line Z hc hcap (r := 7 - (k : Int)) (by omega) 8 (le_refl _) _ h1
    have h3 := scan_line_end Z h2
    simp only [] at h3 ⊢
    rw [if_pos (by omega : k < 7)]
    have e : (7 : Int) - ((k + 1 : Nat) : Int) = 7 - (k : Int) - 1 := by push_cast; omega
    rw [e]
    exact h3

/-- The placement field that `to_fen` prints is read back by the placement loop of `set_fen`
into a board with the same pieces on every square. -/
theorem placement_roundtrip (Z : ZobristTables) {b : Board} (hc : Consistent b)
    (hcap : CapOk b) :
    ∃ bk : Board,
      Board.set_fen_placement Z (Board.to_fen_placement b) (Board.clear, 7, 0)
        = some (bk, 0, 8) ∧
      PlaceInv Z bk 0 8 ∧
      (∀ q : Int, 0 ≤ q → q < 64 →
        (bk._squares q).type = (b._squares q).type ∧
        (bk._squares q).owner = (b._squares q).owner) ∧
      (∀ c ∈ Board.to_fen_placement b, c ≠ ' ') := by
  have h1 := scan_lines Z hc hcap 7 (le_refl _)
  have h2 := scan_line Z hc hcap (r := 0) (by omega) 8 (le_refl _) _
    (by simpa using h1)
  obtain ⟨⟨bk, col, hp, hc0, hcc, hi, hag, hns⟩, h3⟩ := scan_flush Z h2 (le_refl _)
  have hcol : col = 8 := by rw [h3] at hcc; simpa using hcc
  subst hcol
  have e : Board.to_fen_placement b = (Board.fen_flush ((List.range 8).foldl
      (fun (s : List Char × Nat) (c : Nat) =>
        let cell := b._squares (Place.of_line_of_col 0 (c : Int))
        if cell.type = PieceType.CLEAR then (s.1, s.2 + 1)
        else Board.fen_add_char s (Board.cell_letter cell))
      ((List.range 7).foldl
        (fun (s : List Char × Nat) (l : Nat) =>
          let s1 := (List.range 8).foldl
            (fun (s : List Char × Nat) (c : Nat) =>
              let cell := b._squares (Place.of_line_of_col (7 - (l : Int)) (c : Int))
              if cell.type = PieceType.CLEAR then (s.1, s.2 + 1)
              else Board.fen_add_char s (Board.cell_letter cell))
            s
          if l < 7 then Board.fen_add_char s1 '/' else Board.fen_flush s1)
        ([], 0)))).1 := by
    rfl
  rw [e]
  exact ⟨bk, hp, hi, fun q h0 h64 => hag q h0 h64 (by omega), hns⟩

theorem split_space_go_field : ∀ (xs cur rest : List Char), (∀ c ∈ xs, c ≠ ' ') →
    cur.reverse ++ xs ≠ [] →
    split_space_go (xs ++ ' ' :: rest) cur = (cur.reverse ++ xs) :: split_space_go rest [] := by
  intro xs
  induction xs with
  | nil =>
    intro cur rest _ hne
    have hc : cur ≠ [] := by
      intro h; subst h; exact hne rfl
    simp only [List.nil_append, List.append_nil]
    rw [split_space_go, if_pos rfl, if_neg hc]
  | cons x xs ih =>
    intro cur rest hns _
    have hx : x ≠ ' ' := hns x (List.mem_cons_self _ _)
    rw [List.cons_append, split_space_go, if_neg hx,
      ih (x :: cur) rest (fun c hc => hns c (List.mem_cons_of_mem _ hc)) (by simp)]
    simp

theorem split_space_go_last : ∀ (xs cur : List Char), (∀ c ∈ xs, c ≠ ' ') →
    cur.reverse ++ xs ≠ [] → split_space_go xs cur = [cur.reverse ++ xs] := by
  intro xs
  induction xs with
  | nil =>
    intro cur _ hne
    have hc : cur ≠ [] := by
      intro h; subst h; exact hne rfl
    rw [split_space_go, if_neg hc, List.append_nil]
  | cons x xs ih =>
    intro cur hns _
    have hx : x ≠ ' ' := hns x (List.mem_cons_self _ _)
    rw [split_space_go, if_neg hx,
      ih (x :: cur) (fun c hc => hns c (List.mem_cons_of_mem _ hc)) (by simp)]
    simp

/-- The function `split_space` on six fields without blanks, one blank between them. -/
theorem split_space_six {p t c e h f : List Char}
    (hp : ∀ x ∈ p, x ≠ ' ') (ht : ∀ x ∈ t, x ≠ ' ') (hc : ∀ x ∈ c, x ≠ ' ')
    (he : ∀ x ∈ e, x ≠ ' ') (hh : ∀ x ∈ h, x ≠ ' ') (hf : ∀ x ∈ f, x ≠ ' ')
    (np : p ≠ []) (nt : t ≠ []) (nc : c ≠ []) (ne : e ≠ []) (nh : h ≠ []) (nf : f ≠ []) :
    split_space (p ++ ' ' :: (t ++ ' ' :: (c ++ ' ' :: (e ++ ' ' :: (h ++ ' ' :: f)))))
      = [p, t, c, e, h, f] := by
  unfold split_space
  rw [split_space_go_field p [] _ hp (by simpa using np),
    split_space_go_field t [] _ ht (by simpa using nt),
    split_space_go_field c [] _ hc (by simpa using nc),
    split_space_go_field e [] _ he (by simpa using ne),
    split_space_go_field h [] _ hh (by simpa using nh),
    split_space_go_last f [] hf (by simpa using nf)]
  simp

theorem digitChar_spec {k : Nat} (hk : k < 10) :
    isdigit (Nat.digitChar k) = true ∧ (((Nat.digitChar k).toNat : Int) - 48) = (k : Int) := by
  interval_cases k <;> decide

/-- The digits that `Nat.toDigits 10` puts before `ds`: a run of digits, not empty, whose value
read from the left is `n`. -/
theorem toDigitsCore_spec : ∀ (fuel n : Nat) (ds : List Char), n < fuel →
    ∃ L : List Char, Nat.toDigitsCore 10 fuel n ds = L ++ ds ∧ L ≠ [] ∧
      (∀ c ∈ L, isdigit c = true) ∧
      ∀ a : Int, L.foldl (fun (a : Int) (c : Char) => a * 10 + ((c.toNat : Int) - 48)) a
        = a * 10 ^ L.length + (n : Int) := by
  intro fuel
  induction fuel with
  | zero => intro n ds h; exact absurd h (Nat.not_lt_zero n)
  | succ fuel ih =>
    intro n ds hn
    obtain ⟨d1, d2⟩ := digitChar_spec (Nat.mod_lt n (by decide : 10 > 0))
    rw [Nat.toDigitsCore]
    by_cases h0 : n / 10 = 0
    · rw [if_pos h0]
      refine ⟨[Nat.digitChar (n % 10)], rfl, by simp, ?_, ?_⟩
      · intro c hc
        rw [List.mem_singleton.mp hc]
        exact d1
      · intro a
        simp only [List.foldl_cons, List.foldl_nil, List.length_singleton, pow_one, d2]
        have : n % 10 = n := by omega
        rw [this]
    · rw [if_neg h0]
      obtain ⟨L, e, hne, hd, hv⟩ := ih (n / 10) (Nat.digitChar (n % 10) :: ds) (by omega)
      refine ⟨L ++ [Nat.digitChar (n % 10)], by rw [e]; simp, by simp, ?_, ?_⟩
      · intro c hc
        rcases List.mem_append.mp hc with hc | hc
        · exact hd c hc
        · rw [List.mem_singleton.mp hc]
          exact d1
      · intro a
        rw [List.foldl_append, hv a]
        simp only [List.foldl_cons, List.foldl_nil, d2, List.length_append,
          List.length_singleton, pow_succ]
        have : ((n : Int)) = ((n / 10 : Nat) : Int) * 10 + ((n % 10 : Nat) : Int) := by
          omega
        rw [this]
        push_cast
        ring

theorem stoi_digits (x : Char) (xs : List Char) (hd : ∀ c ∈ x :: xs, isdigit c = true) :
    stoi (x :: xs) =
      if -2147483648 ≤ (x :: xs).foldl (fun (a : Int) (c : Char) => a * 10 + ((c.toNat : Int) - 48)) 0 ∧
         (x :: xs).foldl (fun (a : Int) (c : Char) => a * 10 + ((c.toNat : Int) - 48)) 0 ≤ 2147483647
      then some ((x :: xs).foldl (fun (a : Int) (c : Char) => a * 10 + ((c.toNat : Int) - 48)) 0)
      else none := by
  have hx : isdigit x = true := hd x (List.mem_cons_self _ _)
  have hm : x ≠ '-' := by
    intro h; rw [h] at hx; exact absurd hx (by decide)
  have hp : x ≠ '+' := by
    intro h; rw [h] at hx; exact absurd hx (by decide)
  have htw : (x :: xs).takeWhile isdigit = x :: xs := by
    rw [List.takeWhile_eq_self_iff]
    exact hd
  have e1 : ∀ (s : List Char), (∀ r, s ≠ '-' :: r) → (match s with
        | '-' :: _ => true
        | _ => false) = false := by
    intro s h
    split
    · rename_i r
      exact absurd rfl (h r)
    · rfl
  have e2 : ∀ (s : List Char), (∀ r, s ≠ '-' :: r) → (∀ r, s ≠ '+' :: r) → (match s with
        | '-' :: r => r
        | '+' :: r => r
        | r => r) = s := by
    intro s h h2
    split
    · rename_i r
      exact absurd rfl (h r)
    · rename_i r
      exact absurd rfl (h2 r)
    · rfl
  have g1 : ∀ r, x :: xs ≠ '-' :: r := fun r h => hm (List.cons.inj h).1
  have g2 : ∀ r, x :: xs ≠ '+' :: r := fun r h => hp (List.cons.inj h).1
  unfold stoi
  simp only [e1 _ g1, e2 _ g1 g2, htw]
  simp

/-- The function `std::stoi` reads back what `bee::format` prints for an `int` that is not
negative. -/
theorem stoi_format_int {n : Int} (h0 : 0 ≤ n) (h1 : n ≤ 2147483647) :
    stoi (format_int n) = some n ∧ format_int n ≠ [] ∧ ∀ c ∈ format_int n, c ≠ ' ' := by
  obtain ⟨L, e, hne, hd, hv⟩ := toDigitsCore_spec (n.toNat + 1) n.toNat [] (Nat.lt_succ_self _)
  have hf : format_int n = L := by
    unfold format_int
    rw [if_neg (by omega)]
    unfold Nat.toDigits
    rw [e, List.append_nil]
  rw [hf]
  refine ⟨?_, hne, ?_⟩
  · obtain ⟨x, xs, rfl⟩ := List.exists_cons_of_ne_nil hne
    have hval := hv 0
    simp only [zero_mul, zero_add] at hval
    rw [stoi_digits x xs hd, hval, if_pos (by omega)]
    congr 1
    omega
  · intro c hc h
    have := hd c hc
    rw [h] at this
    exact absurd this (by decide)

theorem castle_field_aux : ∀ f : Fin 16,
    Board.fen_castle_field f.val ≠ [] ∧ (∀ c ∈ Board.fen_castle_field f.val, c ≠ ' ') ∧
    (if Board.fen_castle_field f.val = ['-'] then some CastleFlags.none
      else Board.set_fen_castle (Board.fen_castle_field f.val) CastleFlags.none) = some f.val := by
  decide

/-- The castling field that `to_fen` prints is read back by `set_fen` as the same rights. -/
theorem castle_field_spec {f : CastleFlags} (h : f < 16) :
    Board.fen_castle_field f ≠ [] ∧ (∀ c ∈ Board.fen_castle_field f, c ≠ ' ') ∧
    (if Board.fen_castle_field f = ['-'] then some CastleFlags.none
      else Board.set_fen_castle (Board.fen_castle_field f) CastleFlags.none) = some f :=
  castle_field_aux ⟨f, h⟩

set_option maxRecDepth 100000 in
theorem passant_field_aux : ∀ p : Fin 64,
    Board.fen_passant_field (p.val : Int) ≠ [] ∧
    (∀ c ∈ Board.fen_passant_field (p.val : Int), c ≠ ' ') ∧
    (if Board.fen_passant_field (p.val : Int) = ['-'] then some Place.invalid
      else Place.of_string (Board.fen_passant_field (p.val : Int))) = some (p.val : Int) := by
  decide!

/-- The en-passant field that `to_fen` prints is read back by `set_fen` as the same place. -/
theorem passant_field_spec {p : Int} (h : Place.is_valid p = true ∨ p = Place.invalid) :
    Board.fen_passant_field p ≠ [] ∧ (∀ c ∈ Board.fen_passant_field p, c ≠ ' ') ∧
    (if Board.fen_passant_field p = ['-'] then some Place.invalid
      else Place.of_string (Board.fen_passant_field p)) = some p := by
  rcases h with h | h
  · have hv : 0 ≤ p ∧ p < 64 := by simpa [Place.is_valid] using h
    have := passant_field_aux ⟨p.toNat, by omega⟩
    simp only [] at this
    rwa [Int.toNat_of_nonneg hv.1] at this
  · subst h
    decide

/-- The method `Board::set_fen` on a string of six fields that it reads through. -/
theorem set_fen_six (Z : ZobristTables) {fen p c e h f : List Char} {t : Char}
    (hsp : split_space fen = [p, [t], c, e, h, f]) {s : Board × Int × Int}
    (hpl : Board.set_fen_placement Z p (Board.clear, 7, 0) = some s) {fl : CastleFlags}
    (hf : (if c = ['-'] then some s.1.castle_flags
      else Board.set_fen_castle c s.1.castle_flags) = some fl) {pp : Int}
    (hpp : (if e = ['-'] then some s.1.passan_place else Place.of_string e) = some pp)
    {n : Int} (hn : stoi f = some n) :
    ∃ b' : Board, Board.set_fen Z fen = some (Except.ok b') ∧
      b'._squares = s.1._squares ∧
      b'.turn = (if tolower t = 'w' then Color.White else Color.Black) ∧
      b'.castle_flags = fl ∧ b'.passan_place = pp ∧ b'.history = s.1.history ∧
      b'._base_ply = toInt32 (toInt32 (toInt32 (n - 1) * 2)
        + (if (if tolower t = 'w' then Color.White else Color.Black) = Color.Black
            then 1 else 0)) := by
  unfold Board.set_fen
  rw [hsp]
  simp only [hpl, Option.some_bind]
  split
  · rename_i heq
    exact absurd (hf.symm.trans heq) (by simp)
  · rename_i f1 heq
    obtain rfl : fl = f1 := Option.some.inj (hf.symm.trans heq)
    split
    · rename_i heq2
      exact absurd (hpp.symm.trans heq2) (by simp)
    · rename_i p1 heq2
      obtain rfl : pp = p1 := Option.some.inj (hpp.symm.trans heq2)
      rw [hn, Option.map_some']
      exact ⟨_, rfl, rfl, rfl, rfl, rfl, rfl, rfl⟩

/-- The placement field of `to_fen` reads the type and the owner of the 64 squares only. -/
theorem to_fen_placement_congr {b b2 : Board}
    (hsq : ∀ p : Int, 0 ≤ p → p < 64 →
      (b2._squares p).type = (b._squares p).type ∧ (b2._squares p).owner = (b._squares p).owner) :
    Board.to_fen_placement b2 = Board.to_fen_placement b := by
  unfold Board.to_fen_placement
  congr 1
  apply List.foldl_ext
  intro s l hl
  have hl8 : l < 8 := List.mem_range.mp hl
  have hin : (List.range 8).foldl
      (fun (s : List Char × Nat) (c : Nat) =>
        let cell := b2._squares (Place.of_line_of_col (7 - (l : Int)) (c : Int))
        if cell.type = PieceType.CLEAR then (s.1, s.2 + 1)
        else Board.fen_add_char s (Board.cell_letter cell)) s
      = (List.range 8).foldl
      (fun (s : List Char × Nat) (c : Nat) =>
        let cell := b._squares (Place.of_line_of_col (7 - (l : Int)) (c : Int))
        if cell.type = PieceType.CLEAR then (s.1, s.2 + 1)
        else Board.fen_add_char s (Board.cell_letter cell)) s := by
    apply List.foldl_ext
    intro s2 c hc
    have hc8 : c < 8 := List.mem_range.mp hc
    have e := of_line_of_col_eq (l := 7 - (l : Int)) (c := (c : Int)) (by omega) (by omega)
      (by omega) (by omega)
    obtain ⟨h1, h2⟩ := hsq (Place.of_line_of_col (7 - (l : Int)) (c : Int))
      (by rw [e]; omega) (by rw [e]; omega)
    simp only [Board.cell_letter, h1, h2]
  simp only [] at hin ⊢
  rw [hin]

/-- The string of `to_fen`, field by field. -/
theorem to_fen_fields (b : Board) :
    Board.to_fen b = Board.to_fen_placement b ++ ' ' ::
      ([if b.turn = Color.White then 'w' else 'b'] ++ ' ' ::
        (Board.fen_castle_field b.castle_flags ++ ' ' ::
          (Board.fen_passant_field b.passan_place ++ ' ' ::
            (['0'] ++ ' ' :: format_int (Int.tdiv (Board.ply b) 2 + 1))))) := by
  unfold Board.to_fen Board.fen_castle_field Board.fen_passant_field
  simp only [List.append_assoc, List.cons_append, List.nil_append, List.singleton_append]

theorem start_initial (Z : ZobristTables) : Board.IsInitial Z (Board.start Z) := by
  obtain ⟨b, h⟩ := set_initial_some Z
  unfold Board.IsInitial Board.start
  rw [h]
  rfl

theorem initial_inv (Z : ZobristTables) (b : Board) (h : Board.IsInitial Z b) :
    Consistent b ∧ CapOk b ∧ b.turn ≠ Color.None := by
  obtain ⟨h1, h2, h3, _⟩ := set_initial_inv Z h
  exact ⟨h1, h2, h3⟩

theorem fromFen_inv (Z : ZobristTables) (b : Board) (h : Board.FromFen Z b) :
    Consistent b ∧ CapOk b ∧ b.turn ≠ Color.None := by
  obtain ⟨fen, hok, hb⟩ := h
  obtain ⟨h1, h2, h3, _⟩ := set_fen_inv Z fen b hb hok
  exact ⟨h1, h2, h3⟩

theorem legal_listed (Z : ZobristTables) (b : Board) (m : Move) (h : Rules.Legal Z b m) :
    ∃ s, m ∈ Rules.list_moves b s [] := ⟨_, h.1⟩

theorem after_eq {Z : ZobristTables} {b : Board} {m : Move}
    (hs : (Board.move Z b m).isSome = true) :
    Board.move Z b m = some ((Board.after Z b m).1, (Board.after Z b m).2) := by
  obtain ⟨r, hr⟩ := Option.isSome_iff_exists.mp hs
  unfold Board.after
  rw [hr]
  rfl

theorem back_eq {Z : ZobristTables} {r : Board × MoveInfo} {m : Move}
    (hs : (Board.undo Z r.1 m r.2).isSome = true) :
    Board.undo Z r.1 m r.2 = some (Board.back Z r m) := by
  obtain ⟨x, hx⟩ := Option.isSome_iff_exists.mp hs
  unfold Board.back
  rw [hx]
  rfl

/-- A move that returns is a step of `Reach` to `Board.after`. -/
theorem reach_after {Z : ZobristTables} {Init : Board → Prop} {Ok : Board → Move → Prop}
    {b : Board} {st : List (Move × MoveInfo)} (hr : Reach Z Init Ok b st) {m : Move}
    (hok : Ok b m) (hs : (Board.move Z b m).isSome = true) :
    Reach Z Init Ok (Board.after Z b m).1 ((m, (Board.after Z b m).2) :: st) :=
  Reach.move hr hok (after_eq hs)

/-- C5: on every board reached from `set_initial()` by legal moves (moves that `list_moves`
gives and `is_legal_move` accepts), with matching `undo` calls interleaved, `hash_key()` is the
Zobrist key recomputed from scratch: the XOR of `hash_code[square][type][owner]` over the
occupied squares, of `hash_code_turn` exactly when Black is to move, of `castle_hash` of the
castling rights, and of `passant_hash` of the en-passant square exactly when one is set. -/
theorem C5_hash_key_is_recomputed_key (Z : ZobristTables) (b : Board)
    (st : List (Move × MoveInfo))
    (h : Reach Z (Board.IsInitial Z) (Rules.Legal Z) b st) :
    Board.hash_key b = Board.key_from_scratch Z b := by
  have hh : HashInv Z b :=
    reach_hash Z (initial_inv Z) (legal_listed Z) (HashInv Z) (Or.inl rfl)
      (fun x hx => (set_initial_inv Z hx).2.2.2.2.2) h
  rw [key_from_scratch_eq]
  exact hh

set_option maxRecDepth 100000 in
/-- C5 at the board after 1. e4 e5: it is reached by legal moves, and its key is the key
recomputed from scratch. -/
theorem C5_hash_key_is_recomputed_key_witness :
    Reach Z0 (Board.IsInitial Z0) (Rules.Legal Z0)
      (Board.after Z0 (Board.after Z0 (Board.start Z0) ⟨12, 28, PieceType.CLEAR⟩).1
        ⟨52, 36, PieceType.CLEAR⟩).1
      [(⟨52, 36, PieceType.CLEAR⟩,
        (Board.after Z0 (Board.after Z0 (Board.start Z0) ⟨12, 28, PieceType.CLEAR⟩).1
          ⟨52, 36, PieceType.CLEAR⟩).2),
       (⟨12, 28, PieceType.CLEAR⟩,
        (Board.after Z0 (Board.start Z0) ⟨12, 28, PieceType.CLEAR⟩).2)] ∧
    Board.hash_key (Board.after Z0 (Board.after Z0 (Board.start Z0) ⟨12, 28, PieceType.CLEAR⟩).1
        ⟨52, 36, PieceType.CLEAR⟩).1 =
      Board.key_from_scratch Z0
        (Board.after Z0 (Board.after Z0 (Board.start Z0) ⟨12, 28, PieceType.CLEAR⟩).1
          ⟨52, 36, PieceType.CLEAR⟩).1 :=
  have h1 := reach_after (Reach.init (start_initial Z0))
    (show Rules.Legal Z0 (Board.start Z0) ⟨12, 28, PieceType.CLEAR⟩ from
      ⟨by decide!, by decide!⟩) (by decide!)
  have h2 := reach_after h1
    (show Rules.Legal Z0 (Board.after Z0 (Board.start Z0) ⟨12, 28, PieceType.CLEAR⟩).1
      ⟨52, 36, PieceType.CLEAR⟩ from ⟨by decide!, by decide!⟩) (by decide!)
  ⟨h2, C5_hash_key_is_recomputed_key Z0 _ _ h2⟩

theorem of_fen_eq {Z : ZobristTables} {fen : String} {b : Board}
    (h : Board.set_fen Z fen.toList = some (Except.ok b)) : Board.of_fen Z fen = b := by
  unfold Board.of_fen
  rw [h]

theorem of_fen_spec {Z : ZobristTables} {fen : String} (h : Board.set_fen_ok Z fen = true) :
    Board.set_fen Z fen.toList = some (Except.ok (Board.of_fen Z fen)) := by
  unfold Board.set_fen_ok at h
  unfold Board.of_fen
  split at h
  · rename_i b hb
    rw [hb]
  · exact absurd h (by decide)

theorem castle_test_fromFen : Board.FromFen Z0 (Board.castle_test Z0) :=
  ⟨"rnbqkbnr/pppppppp/8/8/8/8/PPPPPPPP/R3K2R w K".toList, by decide!, of_fen_spec (by decide!)⟩

/-- C7: on a board with the Board invariants (consistent squares, lists and bitboards, no list
over its capacity, a side to move, the key recomputed from scratch) and a pseudo-legal move `m`
(a move that `list_moves` gives: quiet move, capture, castling, en-passant or promotion):
`move(m)` returns whenever the history has room, the pawn of an en-passant capture is there and
the piece list of a promotion has room (`Runs`); and when `mi = move(m)` has returned,
`undo(m, mi)` returns a board whose `hash_key()` and `to_fen()` are those before the move, with
the castling rights of before the move. -/
theorem C7_move_undo_restores_key_and_fen (Z : ZobristTables) (b : Board)
    (hc : Consistent b) (hcap : CapOk b) (ht : b.turn ≠ Color.None) (hh : HashInv Z b)
    (m : Move) (hm : Rules.Pseudo b m) :
    (b.position.Runs m → ∃ r, Board.move Z b m = some r) ∧
    (∀ (b' : Board) (mi : MoveInfo), Board.move Z b m = some (b', mi) →
      ∃ b'', Board.undo Z b' m mi = some b'' ∧
        Board.hash_key b'' = Board.hash_key b ∧ Board.to_fen b'' = Board.to_fen b ∧
        b''.castle_flags = b.castle_flags) := by
  have hl := listed_of_list_moves hc ht _ hm
  constructor
  · intro hr
    obtain ⟨b', mi, e, _⟩ := move_ok Z hc (Position.MoveOk.of hl hr ht)
    exact ⟨_, e⟩
  · intro b' mi hmv
    obtain ⟨_, _, b'', e2, c2, _, p2, hh2, _⟩ := move_step Z hc hcap ht hl hmv
    obtain ⟨f1, f2, f3, f4, f5, _, f7⟩ := same_position_fields p2
    exact ⟨b'', e2, same_position_key Z p2 hh (hh2 hh), to_fen_congr f1 f2 f3 f4 f5 f7, f3⟩

theorem castle_test_inv : Consistent (Board.castle_test Z0) ∧ CapOk (Board.castle_test Z0) ∧
    (Board.castle_test Z0).turn ≠ Color.None := fromFen_inv Z0 _ castle_test_fromFen

set_option maxRecDepth 100000 in
/-- C7 at the board of `TEST(castle_movement)` and the move O-O: the move is given by
`list_moves`, it returns and takes the castling right of White away, and the undo brings the
key, the FEN string and the right back. -/
theorem C7_move_undo_restores_key_and_fen_witness :
    Rules.Pseudo (Board.castle_test Z0) ⟨4, 6, PieceType.CLEAR⟩ ∧
    (Board.move Z0 (Board.castle_test Z0) ⟨4, 6, PieceType.CLEAR⟩).isSome = true ∧
    CastleFlags.can_castle_king_side (Board.castle_test Z0).castle_flags Color.White = true ∧
    CastleFlags.can_castle_king_side
      (Board.after Z0 (Board.castle_test Z0) ⟨4, 6, PieceType.CLEAR⟩).1.castle_flags
      Color.White = false ∧
    ∃ b'', Board.undo Z0 (Board.after Z0 (Board.castle_test Z0) ⟨4, 6, PieceType.CLEAR⟩).1
        ⟨4, 6, PieceType.CLEAR⟩
        (Board.after Z0 (Board.castle_test Z0) ⟨4, 6, PieceType.CLEAR⟩).2 = some b'' ∧
      Board.hash_key b'' = Board.hash_key (Board.castle_test Z0) ∧
      Board.to_fen b'' = Board.to_fen (Board.castle_test Z0) ∧
      b''.castle_flags = (Board.castle_test Z0).castle_flags :=
  have hp : Rules.Pseudo (Board.castle_test Z0) ⟨4, 6, PieceType.CLEAR⟩ := by
    unfold Rules.Pseudo; decide!
  have hs : (Board.move Z0 (Board.castle_test Z0) ⟨4, 6, PieceType.CLEAR⟩).isSome = true := by
    decide!
  ⟨hp, hs, by decide!, by decide!,
    (C7_move_undo_restores_key_and_fen Z0 (Board.castle_test Z0) castle_test_inv.1
      castle_test_inv.2.1 castle_test_inv.2.2 (by unfold HashInv; decide!) _ hp).2 _ _
      (after_eq hs)⟩

/-- Two consistent boards with the same position, key invariant and material invariant are the
same up to the ids. -/
theorem sameUpToIds_of_position (Z : ZobristTables) {b b2 : Board} (hc : Consistent b)
    (hc2 : Consistent b2) (hp : b2.position = b.position) (hh : HashInv Z b)
    (hh2 : HashInv Z b2) (hs : ScoreInv b) (hs2 : ScoreInv b2) : Board.SameUpToIds b2 b := by
  obtain ⟨f1, f2, f3, f4, f5, f6, f7⟩ := same_position_fields hp
  obtain ⟨g1, g2⟩ := same_position_bits hc hc2 hp
  exact ⟨f1, fun c t hcn => lists_perm hc hc2 (congrArg Position.pl hp) hcn t, g1, g2, f2, f3,
    f4, same_position_key Z hp hh hh2, f5, f6, f7, same_position_score hp hs hs2⟩

/-- C1, amended: on every board reached from the initial position by legal moves (with matching
undos) and for every legal move `m`, `mi = move(m)` returns, `undo(m, mi)` returns, and the
board it leaves is the board before the move in every field but the ids of the pieces and the
order of the entries of the piece lists: the type and owner on every square, the entries of
every piece list, all bitboards, side to move, castling rights, en-passant square, Zobrist key,
history contents, last-irreversible index and both material scores are as before. -/
theorem C1_move_undo_restores_up_to_ids (Z : ZobristTables) (b : Board)
    (st : List (Move × MoveInfo))
    (h : Reach Z (Board.IsInitial Z) (Rules.Legal Z) b st)
    (m : Move) (hm : Rules.Legal Z b m) :
    ∃ (b' : Board) (mi : MoveInfo) (b'' : Board),
      Board.move Z b m = some (b', mi) ∧ Board.undo Z b' m mi = some b'' ∧
      Board.SameUpToIds b'' b := by
  obtain ⟨hc, hcap, ht, _⟩ := reach_inv Z (initial_inv Z) (legal_listed Z) h
  have hh : HashInv Z b :=
    reach_hash Z (initial_inv Z) (legal_listed Z) (HashInv Z) (Or.inl rfl)
      (fun x hx => (set_initial_inv Z hx).2.2.2.2.2) h
  have hs : ScoreInv b :=
    reach_hash Z (initial_inv Z) (legal_listed Z) ScoreInv (Or.inr rfl)
      (fun x hx => (set_initial_inv Z hx).2.2.2.1) h
  have hl := listed_of_list_moves hc ht _ hm.1
  obtain ⟨⟨b', mi⟩, hmv⟩ := legal_move_some hm.2
  obtain ⟨_, _, b'', e2, c2, _, p2, hh2, hs2⟩ := move_step Z hc hcap ht hl hmv
  exact ⟨b', mi, b'', hmv, e2, sameUpToIds_of_position Z hc c2 p2 hh (hh2 hh) hs (hs2 hs)⟩

theorem reach_after_e4_d5 : Reach Z0 (Board.IsInitial Z0) (Rules.Legal Z0) (Board.after_e4_d5 Z0)
    [(⟨51, 35, PieceType.CLEAR⟩,
      (Board.after Z0 (Board.after Z0 (Board.start Z0) ⟨12, 28, PieceType.CLEAR⟩).1
        ⟨51, 35, PieceType.CLEAR⟩).2),
     (⟨12, 28, PieceType.CLEAR⟩,
      (Board.after Z0 (Board.start Z0) ⟨12, 28, PieceType.CLEAR⟩).2)] :=
  have h1 := reach_after (Reach.init (start_initial Z0))
    (show Rules.Legal Z0 (Board.start Z0) ⟨12, 28, PieceType.CLEAR⟩ from
      ⟨by decide!, by decide!⟩) (by decide!)
  reach_after h1
    (show Rules.Legal Z0 (Board.after Z0 (Board.start Z0) ⟨12, 28, PieceType.CLEAR⟩).1
      ⟨51, 35, PieceType.CLEAR⟩ from ⟨by decide!, by decide!⟩) (by decide!)

theorem legal_exd5 : Rules.Legal Z0 (Board.after_e4_d5 Z0) ⟨28, 35, PieceType.CLEAR⟩ :=
  ⟨by decide!, by decide!⟩

/-- C1, amended, at the board after 1. e4 d5 and the capture 2. exd5: the board is reached, the
move is legal, and move and undo return the board up to the ids. -/
theorem C1_move_undo_restores_up_to_ids_witness :
    Rules.Legal Z0 (Board.after_e4_d5 Z0) ⟨28, 35, PieceType.CLEAR⟩ ∧
    ∃ (b' : Board) (mi : MoveInfo) (b'' : Board),
      Board.move Z0 (Board.after_e4_d5 Z0) ⟨28, 35, PieceType.CLEAR⟩ = some (b', mi) ∧
      Board.undo Z0 b' ⟨28, 35, PieceType.CLEAR⟩ mi = some b'' ∧
      Board.SameUpToIds b'' (Board.after_e4_d5 Z0) :=
  ⟨legal_exd5, C1_move_undo_restores_up_to_ids Z0 _ _ reach_after_e4_d5 _ legal_exd5⟩

/-- C1 as stated fails at the board after 1. e4 d5 and the legal capture 2. exd5: `move` and
`undo` return, but the list of the black pawns comes back in another order (the captured pawn of
d5 = 35, entry 3 before the move, is entry 7 after the undo, and the pawn of h7 = 55 is entry 3),
and so the id of the piece on d5 is 7 instead of 3. -/
theorem C1_counterexample :
    ∃ (st : List (Move × MoveInfo)) (b' : Board) (mi : MoveInfo) (b'' : Board),
      st.map Prod.fst = [⟨51, 35, PieceType.CLEAR⟩, ⟨12, 28, PieceType.CLEAR⟩] ∧
      Reach Z0 (Board.IsInitial Z0) (Rules.Legal Z0) (Board.after_e4_d5 Z0) st ∧
      Rules.Legal Z0 (Board.after_e4_d5 Z0) ⟨28, 35, PieceType.CLEAR⟩ ∧
      Board.move Z0 (Board.after_e4_d5 Z0) ⟨28, 35, PieceType.CLEAR⟩ = some (b', mi) ∧
      Board.undo Z0 b' ⟨28, 35, PieceType.CLEAR⟩ mi = some b'' ∧
      Board.pieces (Board.after_e4_d5 Z0) Color.Black PieceType.PAWN
        = [48, 49, 50, 35, 52, 53, 54, 55] ∧
      Board.pieces b'' Color.Black PieceType.PAWN = [48, 49, 50, 55, 52, 53, 54, 35] ∧
      ((Board.after_e4_d5 Z0)._squares 35).id = 3 ∧ (b''._squares 35).id = 7 := by
  refine ⟨_, _, _, Board.back Z0 (Board.after Z0 (Board.after_e4_d5 Z0) ⟨28, 35, PieceType.CLEAR⟩)
      ⟨28, 35, PieceType.CLEAR⟩,
    ?_, reach_after_e4_d5, legal_exd5, after_eq (by decide!),
    back_eq (by decide!), by decide!, by decide!, by decide!, by decide!⟩
  rfl

theorem agrees_of_consistent {b : Board} (hc : Consistent b) : Board.Agrees b := by
  refine ⟨fun c hcn => blockers_union hc hcn, hc.lists.1, ?_⟩
  intro c t hcn
  refine ⟨lists_nodup hc hcn t, ?_⟩
  intro q hq
  obtain ⟨i, hi⟩ := List.getElem?_of_mem hq
  obtain ⟨h0, h64, hsq⟩ := hc.lists.2 c t i q hcn hi
  rw [hsq]
  exact ⟨h0, h64, rfl, rfl⟩

theorem bare_kings_fromFen : Board.FromFen Z0 (Board.bare_kings Z0) :=
  ⟨"4k3/8/8/8/8/8/8/4K3 w - -".toList, by decide!, of_fen_spec (by decide!)⟩

theorem pawn_on_e2_fromFen : Board.FromFen Z0 (Board.pawn_on_e2 Z0) :=
  ⟨"4k3/8/8/8/8/8/4p3/4K2R w K -".toList, by decide!, of_fen_spec (by decide!)⟩

set_option maxRecDepth 100000 in
/-- C2 fails on the code: on the board `4k3/8/8/8/8/8/8/4K3 w - -`, which `set_fen` builds and
which has the Board invariants, `is_legal_move` returns true for the move of the white king from
e1 = 4 to e3 = 20, two squares up the file.  `list_moves` gives five king moves (to d1, f1, d2,
e2, f2) and none to e3: `is_valid_move` looks a king up in the rules of the queen. -/
theorem C2_is_legal_move_accepts_king_e1e3 :
    Board.set_fen Z0 "4k3/8/8/8/8/8/8/4K3 w - -".toList
      = some (Except.ok (Board.bare_kings Z0)) ∧
    Board.Agrees (Board.bare_kings Z0) ∧
    Board.hash_key (Board.bare_kings Z0) = Board.key_from_scratch Z0 (Board.bare_kings Z0) ∧
    (Board.bare_kings Z0).turn = Color.White ∧
    (Board.bare_kings Z0)._squares 4 = ⟨0, PieceType.KING, Color.White⟩ ∧
    ((Board.bare_kings Z0)._squares 20).type = PieceType.CLEAR ∧
    Rules.is_legal_move Z0 (Board.bare_kings Z0) (Rules.make_scratch (Board.bare_kings Z0))
      ⟨4, 20, PieceType.CLEAR⟩ = some true ∧
    (Rules.list_moves (Board.bare_kings Z0) (Rules.make_scratch (Board.bare_kings Z0)) []).map
      (fun m => (m.o, m.d)) = [(4, 3), (4, 5), (4, 11), (4, 12), (4, 13)] ∧
    Rules.is_king_under_attack (Board.after Z0 (Board.bare_kings Z0) ⟨4, 20, PieceType.CLEAR⟩).1
      (Rules.make_scratch (Board.after Z0 (Board.bare_kings Z0) ⟨4, 20, PieceType.CLEAR⟩).1)
      Color.White = false :=
  ⟨of_fen_spec (by decide!), agrees_of_consistent (fromFen_inv Z0 _ bare_kings_fromFen).1,
    by decide!, by decide!, by decide!, by decide!, by decide!, by decide!, by decide!⟩

set_option maxRecDepth 100000 in
/-- C4 fails on the code: on the board `4k3/8/8/8/8/8/4p3/4K2R w K -` the black pawn on e2 = 12
attacks f1 = 5, the square the white king passes over, and `list_moves` still outputs the
castling move e1g1 = (4, 6): the attack set of Black that `maybe_add_castle` reads does not
hold f1, because `PawnImpl::attacks_bb` counts a diagonal square only when a piece stands
there. -/
theorem C4_list_moves_castles_through_pawn_attack :
    Board.set_fen Z0 "4k3/8/8/8/8/8/4p3/4K2R w K -".toList
      = some (Except.ok (Board.pawn_on_e2 Z0)) ∧
    (Board.pawn_on_e2 Z0).turn = Color.White ∧
    (Board.pawn_on_e2 Z0)._squares 4 = ⟨0, PieceType.KING, Color.White⟩ ∧
    (Board.pawn_on_e2 Z0)._squares 7 = ⟨0, PieceType.ROOK, Color.White⟩ ∧
    (Board.pawn_on_e2 Z0)._squares 12 = ⟨0, PieceType.PAWN, Color.Black⟩ ∧
    ((Board.pawn_on_e2 Z0)._squares 5).type = PieceType.CLEAR ∧
    ((Board.pawn_on_e2 Z0)._squares 6).type = PieceType.CLEAR ∧
    BitBoard.is_set (Rules.attacks_bb (Board.pawn_on_e2 Z0) Color.Black) 5 = false ∧
    (⟨4, 6, PieceType.CLEAR⟩ : Move) ∈
      Rules.list_moves (Board.pawn_on_e2 Z0) (Rules.make_scratch (Board.pawn_on_e2 Z0)) [] ∧
    Rules.is_legal_move Z0 (Board.pawn_on_e2 Z0) (Rules.make_scratch (Board.pawn_on_e2 Z0))
      ⟨4, 6, PieceType.CLEAR⟩ = some true :=
  ⟨of_fen_spec (by decide!), by decide!, by decide!, by decide!, by decide!, by decide!,
    by decide!, by decide!, by decide!, by decide!⟩

/-- C9, amended: `set_fen` returns an error for every FEN string with fewer than two fields,
and, when the loop over the placement field has run through, for every FEN string whose
side-to-move field is not exactly one character long.  (It does not check the placement
field.) -/
theorem C9_set_fen_errors (Z : ZobristTables) (fen : List Char) :
    ((split_space fen).length ≤ 1 →
      Board.set_fen Z fen = some (Except.error FenError.too_few_parts)) ∧
    (∀ (placement turn_part : List Char) (rest : List (List Char)),
      split_space fen = placement :: turn_part :: rest → turn_part.length ≠ 1 →
      (Board.set_fen_placement Z placement (Board.clear, 7, 0)).isSome = true →
      Board.set_fen Z fen = some (Except.error FenError.turn_not_one_letter)) := by
  constructor
  · intro h
    unfold Board.set_fen
    match hs : split_space fen with
    | [] => rfl
    | [_] => rfl
    | _ :: _ :: _ => rw [hs] at h; simp at h
  · intro placement turn_part rest hs hl hp
    obtain ⟨s, hs2⟩ := Option.isSome_iff_exists.mp hp
    unfold Board.set_fen
    rw [hs]
    simp only [hs2, Option.some_bind]
    match turn_part, hl with
    | [], _ => rfl
    | [_], hl => exact absurd rfl hl
    | _ :: _ :: _, _ => rfl

set_option maxRecDepth 100000 in
/-- C9 as stated fails: `set_fen` returns a board for `8/8 w`, whose placement field has two
ranks, for `7/8/8/8/8/8/8/8 w`, whose first rank has seven files, for `zz6/8/8/8/8/8/8/8 w`,
whose placement field has the character `z`, and for `8/8/8/8/8/8/8/8 x`, whose side-to-move
field is `x`. -/
theorem C9_counterexample :
    (∃ b, Board.set_fen Z0 "8/8 w".toList = some (Except.ok b)) ∧
    (∃ b, Board.set_fen Z0 "7/8/8/8/8/8/8/8 w".toList = some (Except.ok b)) ∧
    (∃ b, Board.set_fen Z0 "zz6/8/8/8/8/8/8/8 w".toList = some (Except.ok b)) ∧
    (∃ b, Board.set_fen Z0 "8/8/8/8/8/8/8/8 x".toList = some (Except.ok b)) :=
  ⟨⟨_, of_fen_spec (by decide!)⟩, ⟨_, of_fen_spec (by decide!)⟩, ⟨_, of_fen_spec (by decide!)⟩,
    ⟨_, of_fen_spec (by decide!)⟩⟩

set_option maxRecDepth 100000 in
/-- C9, amended, at a string of one field and at `8/8/8/8/8/8/8/8 ww`, whose side-to-move field
has two characters: both are errors. -/
theorem C9_set_fen_errors_witness :
    Board.set_fen Z0 "rnbqkbnr/pppppppp/8/8/8/8/PPPPPPPP/RNBQKBNR".toList
      = some (Except.error FenError.too_few_parts) ∧
    Board.set_fen Z0 "8/8/8/8/8/8/8/8 ww".toList
      = some (Except.error FenError.turn_not_one_letter) :=
  ⟨(C9_set_fen_errors Z0 "rnbqkbnr/pppppppp/8/8/8/8/PPPPPPPP/RNBQKBNR".toList).1 (by decide!),
    (C9_set_fen_errors Z0 "8/8/8/8/8/8/8/8 ww".toList).2 "8/8/8/8/8/8/8/8".toList "ww".toList []
      (by decide!) (by decide!) (by decide!)⟩

/-- C10, amended: the repetition test of `is_draw_without_stalemate` is `repeated()`, which is
true exactly when the key of the current position is the key of an earlier position of
`history` at or after the last irreversible move; one earlier occurrence is enough, so the draw
is reported when the position has occurred twice, counting the current occurrence. -/
theorem C10_repetition_draw_on_second_occurrence (b : Board) :
    (Board.repeated b = true ↔
      ∃ i : Nat, b._last_irreversible_move ≤ i ∧ b.history[i]? = some (Board.hash_key b)) ∧
    (Board.repeated b = true → Rules.is_draw_without_stalemate b = true) := by
  constructor
  · unfold Board.repeated Board.hash_key
    rw [List.any_eq_true]
    constructor
    · rintro ⟨k, hk, he⟩
      have he2 : k = b._hash_key := of_decide_eq_true he
      obtain ⟨j, hj⟩ := List.getElem?_of_mem hk
      rw [List.getElem?_drop] at hj
      exact ⟨b._last_irreversible_move + j, Nat.le_add_right _ _, he2 ▸ hj⟩
    · rintro ⟨i, hi, he⟩
      refine ⟨b._hash_key, ?_, decide_eq_true rfl⟩
      apply List.getElem?_mem (n := i - b._last_irreversible_move)
      rw [List.getElem?_drop, Nat.add_sub_cancel' hi]
      exact he
  · intro h
    unfold Rules.is_draw_without_stalemate
    rw [if_pos (Or.inl h)]

set_option maxRecDepth 100000 in
/-- C10 as stated fails at the board after 1. Nf3 Nf6 2. Ng1 Ng8 from the initial position: the
four moves are legal, the position has occurred twice (its key is in `history` once, at the
start of the game), fewer than 100 half-moves were made and both sides have all their pieces,
and `is_draw_without_stalemate` reports a draw. -/
theorem C10_counterexample :
    (∃ st : List (Move × MoveInfo),
      st.map Prod.fst = [⟨45, 62, PieceType.CLEAR⟩, ⟨21, 6, PieceType.CLEAR⟩,
        ⟨62, 45, PieceType.CLEAR⟩, ⟨6, 21, PieceType.CLEAR⟩] ∧
      Reach Z0 (Board.IsInitial Z0) (Rules.Legal Z0) (Board.knights_back Z0) st) ∧
    (Board.knights_back Z0).history.length = 4 ∧
    (Board.knights_back Z0).history.count (Board.hash_key (Board.knights_back Z0)) = 1 ∧
    Board.moves_since_last_catpure_or_pawn_move (Board.knights_back Z0) = 4 ∧
    Rules.is_draw_by_insuficient_material (Board.knights_back Z0) = false ∧
    Board.repeated (Board.knights_back Z0) = true ∧
    Rules.is_draw_without_stalemate (Board.knights_back Z0) = true := by
  have h0 : Reach Z0 (Board.IsInitial Z0) (Rules.Legal Z0) (Board.start Z0) [] :=
    Reach.init (start_initial Z0)
  have h1 := reach_after h0
    (show Rules.Legal Z0 (Board.start Z0) ⟨6, 21, PieceType.CLEAR⟩ from
      ⟨by decide!, by decide!⟩) (by decide!)
  have h2 := reach_after h1
    (show Rules.Legal Z0 _ ⟨62, 45, PieceType.CLEAR⟩ from ⟨by decide!, by decide!⟩) (by decide!)
  have h3 := reach_after h2
    (show Rules.Legal Z0 _ ⟨21, 6, PieceType.CLEAR⟩ from ⟨by decide!, by decide!⟩) (by decide!)
  have h4 := reach_after h3
    (show Rules.Legal Z0 _ ⟨45, 62, PieceType.CLEAR⟩ from ⟨by decide!, by decide!⟩) (by decide!)
  exact ⟨⟨_, ⟨by rfl, h4⟩⟩, by decide!, by decide!, by decide!, by decide!, by decide!,
    by decide!⟩

/-- C8, amended: for every board `b` with the Board invariants (consistent squares, lists and
bitboards, no list over its capacity, a side to move) whose castling rights are made of the four
rights, whose en-passant square is a square of the board or none, and whose ply is not negative
(and fits an `int`), `set_fen(b.to_fen())` on a fresh board succeeds and yields a board with the
same piece (type and owner) on every square, the same side to move, the same castling rights
and the same en-passant square as `b`, and whose `to_fen()` output is `b.to_fen()`. -/
theorem C8_fen_round_trip (Z : ZobristTables) (b : Board) (hc : Consistent b)
    (hcap : CapOk b) (ht : b.turn ≠ Color.None) (hf : b.castle_flags < 16)
    (hp : Place.is_valid b.passan_place = true ∨ b.passan_place = Place.invalid)
    (h0 : 0 ≤ Board.ply b) (h1 : Board.ply b ≤ 2147483647) :
    ∃ b' : Board, Board.set_fen Z (Board.to_fen b) = some (Except.ok b') ∧
      (∀ q : Int, 0 ≤ q → q < 64 →
        (b'._squares q).type = (b._squares q).type ∧
        (b'._squares q).owner = (b._squares q).owner) ∧
      b'.turn = b.turn ∧ b'.castle_flags = b.castle_flags ∧
      b'.passan_place = b.passan_place ∧ Board.to_fen b' = Board.to_fen b := by
  obtain ⟨bk, hpl, hi, hag, hns⟩ := placement_roundtrip Z hc hcap
  obtain ⟨f1, f2, f3, f4, f5, f6⟩ := hi.fresh
  have hP : Board.to_fen_placement b ≠ [] := by
    intro h
    rw [h] at hpl
    have h7 : (7 : Int) = 0 :=
      congrArg (fun x : Board × Int × Int => x.2.1) (Option.some.inj hpl)
    exact absurd h7 (by decide)
  obtain ⟨c1, c2, c3⟩ := castle_field_spec hf
  obtain ⟨e1, e2, e3⟩ := passant_field_spec hp
  have hk0 : 0 ≤ Int.tdiv (Board.ply b) 2 := by
    rw [Int.tdiv_eq_ediv h0 (by decide)]; omega
  have hk1 : Int.tdiv (Board.ply b) 2 ≤ 1073741823 := by
    rw [Int.tdiv_eq_ediv h0 (by decide)]; omega
  obtain ⟨n1, n2, n3⟩ := stoi_format_int (n := Int.tdiv (Board.ply b) 2 + 1) (by omega)
    (by omega)
  have hT : ∀ x ∈ [if b.turn = Color.White then 'w' else 'b'], x ≠ ' ' := by
    intro x hx
    rw [List.mem_singleton.mp hx]
    split_ifs <;> decide
  have hsp := split_space_six hns hT c2 e2 (h := ['0']) (by decide) n3 hP (by simp) c1 e1
    (by simp) n2
  rw [← to_fen_fields] at hsp
  rw [← f2] at c3
  rw [← f3] at e3
  obtain ⟨b', g1, g2, g3, g4, g5, g6, g7⟩ := set_fen_six Z hsp hpl c3 e3 n1
  have hturn : (if tolower (if b.turn = Color.White then 'w' else 'b') = 'w'
      then Color.White else Color.Black) = b.turn := by
    cases hbt : b.turn
    · decide
    · decide
    · exact absurd hbt ht
  rw [hturn] at g3 g7
  have hsq : ∀ q : Int, 0 ≤ q → q < 64 →
      (b'._squares q).type = (b._squares q).type ∧
      (b'._squares q).owner = (b._squares q).owner := by
    intro q q0 q64
    rw [g2]
    exact hag q q0 q64
  refine ⟨b', g1, hsq, g3, g4, g5, ?_⟩
  have hply : Int.tdiv (Board.ply b') 2 = Int.tdiv (Board.ply b) 2 := by
    generalize Int.tdiv (Board.ply b) 2 = k at hk0 hk1 g7 ⊢
    have hb : Board.ply b' = 2 * k + (if b.turn = Color.Black then 1 else 0) := by
      show b'._base_ply + (b'.history.length : Int) = _
      rw [g6, f4, g7]
      simp only [List.length_nil, Nat.cast_zero, add_zero, add_sub_cancel_right]
      unfold toInt32
      split_ifs <;> omega
    rw [hb]
    have hnn : 0 ≤ 2 * k + (if b.turn = Color.Black then 1 else 0) := by
      split_ifs <;> omega
    rw [Int.tdiv_eq_ediv hnn (by decide)]
    split_ifs <;> omega
  rw [to_fen_fields, to_fen_fields, to_fen_placement_congr hsq, g3, g4, g5, hply]

theorem middle_game_fromFen : Board.FromFen Z0 (Board.middle_game Z0) :=
  ⟨"r3k2r/pppq1ppp/2npbn2/2b1p3/2B1P3/2NPBN2/PPPQ1PPP/R3K2R w Kq e6 3 9".toList, by decide!,
    of_fen_spec (by decide!)⟩

theorem minus_one_fromFen : Board.FromFen Z0 (Board.minus_one Z0) :=
  ⟨"rnbqkbnr/pppppppp/8/8/8/8/PPPPPPPP/RNBQKBNR b KQkq - 0 -1".toList, by decide!,
    of_fen_spec (by decide!)⟩

set_option maxRecDepth 100000 in
/-- C8, amended, at the board of
`r3k2r/pppq1ppp/2npbn2/2b1p3/2B1P3/2NPBN2/PPPQ1PPP/R3K2R w Kq e6 3 9`: its string is read back
into a board with the same pieces and scalar fields, which prints the same string. -/
theorem C8_fen_round_trip_witness :
    Board.to_fen (Board.middle_game Z0)
      = "r3k2r/pppq1ppp/2npbn2/2b1p3/2B1P3/2NPBN2/PPPQ1PPP/R3K2R w Kq e6 0 9".toList ∧
    ∃ b' : Board, Board.set_fen Z0 (Board.to_fen (Board.middle_game Z0)) = some (Except.ok b') ∧
      (∀ q : Int, 0 ≤ q → q < 64 →
        (b'._squares q).type = ((Board.middle_game Z0)._squares q).type ∧
        (b'._squares q).owner = ((Board.middle_game Z0)._squares q).owner) ∧
      b'.turn = (Board.middle_game Z0).turn ∧
      b'.castle_flags = (Board.middle_game Z0).castle_flags ∧
      b'.passan_place = (Board.middle_game Z0).passan_place ∧
      Board.to_fen b' = Board.to_fen (Board.middle_game Z0) :=
  ⟨by decide!,
    C8_fen_round_trip Z0 (Board.middle_game Z0) (fromFen_inv Z0 _ middle_game_fromFen).1
      (fromFen_inv Z0 _ middle_game_fromFen).2.1 (fromFen_inv Z0 _ middle_game_fromFen).2.2
      (by decide!) (by decide!) (by decide!) (by decide!)⟩

set_option maxRecDepth 100000 in
/-- C8 as stated fails at the board that `set_fen` builds from
`rnbqkbnr/pppppppp/8/8/8/8/PPPPPPPP/RNBQKBNR b KQkq - 0 -1` (ply -3, Black to move), which has
the Board invariants: `to_fen` prints the move number 0, `set_fen` reads that string into a
board of ply -1, and `to_fen` of that board prints the move number 1. -/
theorem C8_counterexample :
    Board.set_fen Z0 "rnbqkbnr/pppppppp/8/8/8/8/PPPPPPPP/RNBQKBNR b KQkq - 0 -1".toList
      = some (Except.ok (Board.minus_one Z0)) ∧
    Board.Agrees (Board.minus_one Z0) ∧
    Board.hash_key (Board.minus_one Z0) = Board.key_from_scratch Z0 (Board.minus_one Z0) ∧
    Board.ply (Board.minus_one Z0) = -3 ∧
    Board.to_fen (Board.minus_one Z0)
      = "rnbqkbnr/pppppppp/8/8/8/8/PPPPPPPP/RNBQKBNR b KQkq - 0 0".toList ∧
    ∃ b' : Board,
      Board.set_fen Z0 (Board.to_fen (Board.minus_one Z0)) = some (Except.ok b') ∧
      Board.ply b' = -1 ∧
      Board.to_fen b' = "rnbqkbnr/pppppppp/8/8/8/8/PPPPPPPP/RNBQKBNR b KQkq - 0 1".toList ∧
      Board.to_fen b' ≠ Board.to_fen (Board.minus_one Z0) :=
  ⟨of_fen_spec (by decide!), agrees_of_consistent (fromFen_inv Z0 _ minus_one_fromFen).1,
    by decide!, by decide!, by decide!,
    ⟨Board.of_fen Z0 "rnbqkbnr/pppppppp/8/8/8/8/PPPPPPPP/RNBQKBNR b KQkq - 0 0",
      by
        have e : Board.to_fen (Board.minus_one Z0)
            = "rnbqkbnr/pppppppp/8/8/8/8/PPPPPPPP/RNBQKBNR b KQkq - 0 0".toList := by decide!
        rw [e]
        exact of_fen_spec (by decide!),
      by decide!, by decide!, by decide!⟩⟩

/-- The boards that `play_legal` returns are reached by legal moves. -/
theorem play_legal_reach (Z : ZobristTables) {Init : Board → Prop} : ∀ (ms : List Move)
    (b b' : Board) (st : List (Move × MoveInfo)), Reach Z Init (Rules.Legal Z) b st →
    Board.play_legal Z b ms = some b' →
    ∃ st' : List (Move × MoveInfo), st'.map Prod.fst = ms.reverse ++ st.map Prod.fst ∧
      Reach Z Init (Rules.Legal Z) b' st' := by
  intro ms
  induction ms with
  | nil =>
    intro b b' st hr h
    obtain rfl : b = b' := Option.some.inj h
    exact ⟨st, by simp, hr⟩
  | cons m ms ih =>
    intro b b' st hr h
    rw [Board.play_legal] at h
    split_ifs at h with hl
    cases hm : Board.move Z b m with
    | none => rw [hm] at h; simp at h
    | some r =>
      rw [hm, Option.some_bind] at h
      obtain ⟨st', e, hr'⟩ := ih r.1 b' ((m, r.2) :: st) (Reach.move hr hl hm) h
      exact ⟨st', by rw [e]; simp, hr'⟩

set_option maxRecDepth 1000000 in
theorem rook_tour_some : (Board.play_legal Z0 (Board.start Z0) Board.rook_tour).isSome = true := by
  decide!

set_option maxRecDepth 1000000 in
set_option maxHeartbeats 4000000 in
/-- C3 fails on the code: after the legal moves 1. a4 Nf6 2. Ra3 Ng8 3. Rh3 Nf6 4. Rg3 Ng8
5. Nf3 Nf6 6. e3 Ng8 7. Be2 Nf6 from the initial position, the white king on e1 = 4 and the white
rook on h1 = 7 have never moved, f1 = 5 and g1 = 6 are empty, and Black attacks none of e1, f1,
g1, so White may castle king side under the rules of chess; but `list_moves` outputs no move
from e1 to g1, because `Board::move` took the king-side right of White away at 4. Rg3, when the
other rook left the h file. -/
theorem C3_list_moves_misses_castling :
    (∃ st : List (Move × MoveInfo), st.map Prod.fst = Board.rook_tour.reverse ∧
      Reach Z0 (Board.IsInitial Z0) (Rules.Legal Z0) (Board.after_rook_tour Z0) st) ∧
    Board.rook_tour.all (fun m => decide (m.o ≠ 4 ∧ m.o ≠ 7 ∧ m.d ≠ 7)) = true ∧
    (Board.after_rook_tour Z0).turn = Color.White ∧
    Board.to_fen (Board.after_rook_tour Z0)
      = "rnbqkb1r/pppppppp/5n2/8/P7/4PNR1/1PPPBPPP/1NBQK2R w kq - 0 8".toList ∧
    ((Board.after_rook_tour Z0)._squares 4).type = PieceType.KING ∧
    ((Board.after_rook_tour Z0)._squares 4).owner = Color.White ∧
    ((Board.after_rook_tour Z0)._squares 7).type = PieceType.ROOK ∧
    ((Board.after_rook_tour Z0)._squares 7).owner = Color.White ∧
    ((Board.after_rook_tour Z0)._squares 5).type = PieceType.CLEAR ∧
    ((Board.after_rook_tour Z0)._squares 6).type = PieceType.CLEAR ∧
    Rules.attacks_bb (Board.after_rook_tour Z0) Color.Black &&& 112 = 0 ∧
    (Board.after_rook_tour Z0).castle_flags = CastleFlags.BlackKing ||| CastleFlags.BlackQueen ∧
    ∀ m ∈ Rules.list_moves (Board.after_rook_tour Z0)
      (Rules.make_scratch (Board.after_rook_tour Z0)) [], ¬ (m.o = 4 ∧ m.d = 6) := by
  have hreach : ∃ st : List (Move × MoveInfo), st.map Prod.fst = Board.rook_tour.reverse ∧
      Reach Z0 (Board.IsInitial Z0) (Rules.Legal Z0) (Board.after_rook_tour Z0) st := by
    obtain ⟨b', hb⟩ := Option.isSome_iff_exists.mp rook_tour_some
    have e : Board.after_rook_tour Z0 = b' := by
      unfold Board.after_rook_tour
      rw [hb, Option.getD_some]
    have h0 : Reach Z0 (Board.IsInitial Z0) (Rules.Legal Z0) (Board.start Z0) [] :=
      Reach.init (start_initial Z0)
    obtain ⟨st, hst, hr⟩ := play_legal_reach Z0 _ _ _ _ h0 hb
    rw [List.map_nil, List.append_nil] at hst
    rw [e]
    exact ⟨st, hst, hr⟩
  have h1 : Board.rook_tour.all (fun m => decide (m.o ≠ 4 ∧ m.o ≠ 7 ∧ m.d ≠ 7)) = true := by
    decide
  have h2 : Board.to_fen (Board.after_rook_tour Z0)
      = "rnbqkb1r/pppppppp/5n2/8/P7/4PNR1/1PPPBPPP/1NBQK2R w kq - 0 8".toList := by decide!
  have h3 : Rules.attacks_bb (Board.after_rook_tour Z0) Color.Black &&& 112 = 0 := by decide!
  have h4 : (Board.after_rook_tour Z0).castle_flags
      = CastleFlags.BlackKing ||| CastleFlags.BlackQueen := by decide!
  have h5 : ∀ m ∈ Rules.list_moves (Board.after_rook_tour Z0)
      (Rules.make_scratch (Board.after_rook_tour Z0)) [], ¬ (m.o = 4 ∧ m.d = 6) := by decide!
  exact ⟨hreach, h1, by decide!, h2, by decide!, by decide!, by decide!, by decide!, by decide!,
    by decide!, h3, h4, h5⟩

/-- C16, amended: `Score` addition and subtraction do not saturate.  For all scores `a`, `b`
with `Score::min() <= a, b <= Score::max()`, `a + b` and `a - b` are the exact sum and
difference of the values (the `int32_t` wrap applies only when that is `2^31`), and so they lie
in `[Score::min(), Score::max()]` exactly when the exact sum or difference does. -/
theorem C16_add_sub_exact (a b : Int) (ha : Score.min ≤ a ∧ a ≤ Score.max)
    (hb : Score.min ≤ b ∧ b ≤ Score.max) :
    (a + b ≠ 2147483648 → Score.add a b = a + b) ∧
    (a - b ≠ 2147483648 → Score.sub a b = a - b) ∧
    ((Score.min ≤ Score.add a b ∧ Score.add a b ≤ Score.max) ↔
      (Score.min ≤ a + b ∧ a + b ≤ Score.max)) ∧
    ((Score.min ≤ Score.sub a b ∧ Score.sub a b ≤ Score.max) ↔
      (Score.min ≤ a - b ∧ a - b ≤ Score.max)) := by
  have a1 : (-1073741824 : Int) ≤ a := ha.1
  have a2 : a ≤ (1073741824 : Int) := ha.2
  have b1 : (-1073741824 : Int) ≤ b := hb.1
  have b2 : b ≤ (1073741824 : Int) := hb.2
  have key : (a + b ≠ 2147483648 → toInt32 (a + b) = a + b) ∧
      (a - b ≠ 2147483648 → toInt32 (a - b) = a - b) ∧
      (((-1073741824 : Int) ≤ toInt32 (a + b) ∧ toInt32 (a + b) ≤ (1073741824 : Int)) ↔
        ((-1073741824 : Int) ≤ a + b ∧ a + b ≤ (1073741824 : Int))) ∧
      (((-1073741824 : Int) ≤ toInt32 (a - b) ∧ toInt32 (a - b) ≤ (1073741824 : Int)) ↔
        ((-1073741824 : Int) ≤ a - b ∧ a - b ≤ (1073741824 : Int))) := by
    unfold toInt32
    refine ⟨?_, ?_, ?_, ?_⟩
    · intro h; omega
    · intro h; omega
    · constructor <;> intro h <;> omega
    · constructor <;> intro h <;> omega
  exact key

/-- C16, amended, at `a = Score::max()` and `b = Score::one_pawn()`: the sum is exact, and it is
not in the band. -/
theorem C16_add_sub_exact_witness :
    Score.add Score.max Score.one_pawn = Score.max + Score.one_pawn ∧
    ((Score.min ≤ Score.add Score.max Score.one_pawn ∧
        Score.add Score.max Score.one_pawn ≤ Score.max) ↔
      (Score.min ≤ Score.max + Score.one_pawn ∧ Score.max + Score.one_pawn ≤ Score.max)) :=
  ⟨(C16_add_sub_exact Score.max Score.one_pawn (by decide) (by decide)).1 (by decide),
    (C16_add_sub_exact Score.max Score.one_pawn (by decide) (by decide)).2.2.1⟩

/-- C16 as stated fails: `Score::max() + Score::one_pawn()` is `2^30 + 1000`, above
`Score::max()`; `Score::min() - Score::one_pawn()` is below `Score::min()`; and
`Score::max() + Score::max()` wraps to `-2^31`. -/
theorem C16_counterexample :
    (Score.min ≤ Score.max ∧ Score.max ≤ Score.max) ∧
    (Score.min ≤ Score.one_pawn ∧ Score.one_pawn ≤ Score.max) ∧
    (Score.min ≤ Score.min ∧ Score.min ≤ Score.max) ∧
    Score.add Score.max Score.one_pawn = 1073742824 ∧
    ¬ (Score.add Score.max Score.one_pawn ≤ Score.max) ∧
    Score.sub Score.min Score.one_pawn = -1073742824 ∧
    ¬ (Score.min ≤ Score.sub Score.min Score.one_pawn) ∧
    Score.add Score.max Score.max = -2147483648 := by
  decide

theorem Score.abs_eq {s : Int} (h1 : (-2147483648 : Int) < s) (h2 : s ≤ (2147483647 : Int)) :
    Score.abs s = (if s < 0 then -s else s) := by
  unfold Score.abs toInt32
  split_ifs <;> omega

theorem Score.is_mate_iff (s : Int) :
    Score.is_mate s = true ↔ (s ≤ (-1048576 : Int) ∨ (1048576 : Int) ≤ s) := by
  unfold Score.is_mate Score.mate_score_per_move
  simp only [decide_eq_true_eq, ge_iff_le]

/-- The distance to mate of a mate score other than the least `int32_t`. -/
theorem Score.moves_to_mate_eq {s : Int} (h1 : (-2147483648 : Int) < s)
    (h2 : s ≤ (2147483647 : Int)) (hm : Score.is_mate s = true) :
    Score.moves_to_mate s = some (1024 - (if s < 0 then -s else s) / 1048576) := by
  unfold Score.moves_to_mate
  rw [if_pos hm, Score.abs_eq h1 h2]
  have hnn : (0 : Int) ≤ (if s < 0 then -s else s) := by split_ifs <;> omega
  unfold Score.max_mate_moves Score.mate_score_per_move
  rw [Int.tdiv_eq_ediv hnn (by decide)]
  congr 1
  unfold toInt32
  split_ifs <;> omega

theorem Score.neg_neg_abs (s : Int) (h1 : (-2147483648 : Int) ≤ s)
    (h2 : s ≤ (2147483647 : Int)) : Score.abs (Score.neg s) = Score.abs s := by
  unfold Score.abs Score.neg toInt32
  split_ifs <;> omega

/-- C17: the mate band.  For every `n` with `0 <= n <= 1023`, `Score::of_moves_to_mate(n)`
returns a positive score that `is_mate()` and whose `moves_to_mate()` is `n`; for every mate
score `s`, of either sign, `s.neg()` is a mate score with the same `moves_to_mate()`; and among
mate scores of the same sign (where `std::abs` is defined, that is other than the least
`int32_t`) a smaller distance has the larger magnitude. -/
theorem C17_mate_band :
    (∀ n : Int, 0 ≤ n → n ≤ 1023 →
      ∃ s : Int, Score.of_moves_to_mate n = some s ∧ Score.is_positive s = true ∧
        Score.is_mate s = true ∧ Score.moves_to_mate s = some n) ∧
    (∀ s : Int, Score.I32 s → Score.is_mate s = true →
      Score.is_mate (Score.neg s) = true ∧
      Score.moves_to_mate (Score.neg s) = Score.moves_to_mate s) ∧
    (∀ s1 s2 n1 n2 : Int, Score.I32 s1 → Score.I32 s2 → (-2147483648 : Int) < s1 →
      (-2147483648 : Int) < s2 → Score.moves_to_mate s1 = some n1 →
      Score.moves_to_mate s2 = some n2 → n1 < n2 →
      (Score.is_positive s1 = true → Score.is_positive s2 = true → s2 < s1) ∧
      (Score.is_negative s1 = true → Score.is_negative s2 = true → s1 < s2)) := by
  refine ⟨?_, ?_, ?_⟩
  · intro n h0 h1
    have e : Score.of_moves_to_mate n = some (1048576 * (1024 - n)) := by
      unfold Score.of_moves_to_mate Score.max_mate_moves Score.mate_score_per_move
      rw [if_pos (by omega)]
      congr 1
      unfold toInt32
      omega
    have hm : Score.is_mate (1048576 * (1024 - n)) = true := by
      rw [Score.is_mate_iff]; omega
    refine ⟨_, e, ?_, hm, ?_⟩
    · unfold Score.is_positive
      simp only [decide_eq_true_eq]
      omega
    · rw [Score.moves_to_mate_eq (by omega) (by omega) hm, if_neg (by omega)]
      congr 1
      omega
  · intro s hs hm
    have hm2 : Score.is_mate (Score.neg s) = true := by
      rw [Score.is_mate_iff] at hm ⊢
      unfold Score.neg toInt32
      unfold Score.I32 at hs
      omega
    refine ⟨hm2, ?_⟩
    unfold Score.moves_to_mate
    rw [if_pos hm, if_pos hm2, Score.neg_neg_abs s hs.1 hs.2]
  · intro s1 s2 n1 n2 i1 i2 m1 m2 e1 e2 hlt
    have hm1 : Score.is_mate s1 = true := by
      by_contra h
      unfold Score.moves_to_mate at e1
      rw [if_neg h] at e1
      exact absurd e1 (by simp)
    have hm2 : Score.is_mate s2 = true := by
      by_contra h
      unfold Score.moves_to_mate at e2
      rw [if_neg h] at e2
      exact absurd e2 (by simp)
    rw [Score.moves_to_mate_eq m1 i1.2 hm1] at e1
    rw [Score.moves_to_mate_eq m2 i2.2 hm2] at e2
    have f1 := Option.some.inj e1
    have f2 := Option.some.inj e2
    unfold Score.is_positive Score.is_negative
    simp only [decide_eq_true_eq]
    constructor
    · intro p1 p2
      rw [if_neg (by omega)] at f1 f2
      omega
    · intro p1 p2
      rw [if_pos p1] at f1
      rw [if_pos p2] at f2
      omega

/-- C17 at `n = 7` (the score of `TEST(mate)`), at its negation, and at the mates in 10 and in 12
of `TEST(compare)`. -/
theorem C17_mate_band_witness :
    (∃ s : Int, Score.of_moves_to_mate 7 = some s ∧ Score.is_positive s = true ∧
      Score.is_mate s = true ∧ Score.moves_to_mate s = some 7) ∧
    (Score.is_mate (Score.neg 1066401792) = true ∧
      Score.moves_to_mate (Score.neg 1066401792) = Score.moves_to_mate 1066401792) ∧
    ((1061158912 : Int) < 1063256064) :=
  ⟨C17_mate_band.1 7 (by decide) (by decide),
    C17_mate_band.2.1 1066401792 ⟨by decide, by decide⟩ (by decide),
    (C17_mate_band.2.2 1063256064 1061158912 10 12 ⟨by decide, by decide⟩
      ⟨by decide, by decide⟩ (by decide) (by decide) (by decide) (by decide) (by decide)).1
      (by decide) (by decide)⟩

/-- C18: for every mate score `s` (other than the least `int32_t`, where `std::abs` is not
defined) with `n = s.moves_to_mate()` and every `k >= 0`: if `n + k <= 1023` then
`s.inc_mate_moves(k)` is a mate score of the same sign with `n + k` moves to mate; if `k <= n`
then `s.dec_mate_moves(k)` is a mate score of the same sign with `n - k` moves to mate; and
`s.inc_mate_moves(k).dec_mate_moves(k) = s` whenever `n + k <= 1023`.  For every score that is
not a mate score both operations return the score unchanged. -/
theorem C18_inc_dec_mate_moves (s k : Int) (hs : Score.I32 s) (hk : 0 ≤ k) :
    (Score.is_mate s = true → (-2147483648 : Int) < s →
      ∀ n : Int, Score.moves_to_mate s = some n →
        (n + k ≤ 1023 →
          Score.is_mate (Score.inc_mate_moves s k) = true ∧
          Score.is_positive (Score.inc_mate_moves s k) = Score.is_positive s ∧
          Score.moves_to_mate (Score.inc_mate_moves s k) = some (n + k) ∧
          Score.dec_mate_moves (Score.inc_mate_moves s k) k = s) ∧
        (k ≤ n →
          Score.is_mate (Score.dec_mate_moves s k) = true ∧
          Score.is_positive (Score.dec_mate_moves s k) = Score.is_positive s ∧
          Score.moves_to_mate (Score.dec_mate_moves s k) = some (n - k))) ∧
    (Score.is_mate s = false →
      Score.inc_mate_moves s k = s ∧ Score.dec_mate_moves s k = s) := by
  have hs1 : (-2147483648 : Int) ≤ s := hs.1
  have hs2 : s ≤ (2147483647 : Int) := hs.2
  constructor
  · intro hm hmin n hn
    rw [Score.moves_to_mate_eq hmin hs.2 hm] at hn
    have hn' := Option.some.inj hn
    have hm' := (Score.is_mate_iff s).mp hm
    by_cases hp : (0 : Int) < s
    · have hpos : Score.is_positive s = true := by
        unfold Score.is_positive; simp only [decide_eq_true_eq]; exact hp
      rw [if_neg (by omega)] at hn'
      constructor
      · intro hle
        have e : Score.inc_mate_moves s k = s - 1048576 * k := by
          unfold Score.inc_mate_moves Score.of_milli_pawns Score.mate_score_per_move Score.sub
          rw [if_pos hm, if_pos hpos]
          unfold toInt32
          omega
        have hm2 : Score.is_mate (s - 1048576 * k) = true := by
          rw [Score.is_mate_iff]; omega
        have hpos2 : Score.is_positive (s - 1048576 * k) = true := by
          unfold Score.is_positive; simp only [decide_eq_true_eq]; omega
        rw [e]
        refine ⟨hm2, by rw [hpos, hpos2], ?_, ?_⟩
        · rw [Score.moves_to_mate_eq (by omega) (by omega) hm2, if_neg (by omega)]
          congr 1
          omega
        · unfold Score.dec_mate_moves Score.of_milli_pawns Score.mate_score_per_move Score.add
          rw [if_pos hm2, if_pos hpos2]
          unfold toInt32
          omega
      · intro hle
        have e : Score.dec_mate_moves s k = s + 1048576 * k := by
          unfold Score.dec_mate_moves Score.of_milli_pawns Score.mate_score_per_move Score.add
          rw [if_pos hm, if_pos hpos]
          unfold toInt32
          omega
        have hm2 : Score.is_mate (s + 1048576 * k) = true := by
          rw [Score.is_mate_iff]; omega
        have hpos2 : Score.is_positive (s + 1048576 * k) = true := by
          unfold Score.is_positive; simp only [decide_eq_true_eq]; omega
        rw [e]
        refine ⟨hm2, by rw [hpos, hpos2], ?_⟩
        rw [Score.moves_to_mate_eq (by omega) (by omega) hm2, if_neg (by omega)]
        congr 1
        omega
    · have hneg : s < 0 := by omega
      have hpos : Score.is_positive s = false := by
        unfold Score.is_positive; simp only [decide_eq_false_iff_not]; omega
      rw [if_pos hneg] at hn'
      constructor
      · intro hle
        have e : Score.inc_mate_moves s k = s + 1048576 * k := by
          unfold Score.inc_mate_moves Score.of_milli_pawns Score.mate_score_per_move Score.add
          rw [if_pos hm, hpos, if_neg (by decide)]
          unfold toInt32
          omega
        have hm2 : Score.is_mate (s + 1048576 * k) = true := by
          rw [Score.is_mate_iff]; omega
        have hpos2 : Score.is_positive (s + 1048576 * k) = false := by
          unfold Score.is_positive; simp only [decide_eq_false_iff_not]; omega
        rw [e]
        refine ⟨hm2, by rw [hpos, hpos2], ?_, ?_⟩
        · rw [Score.moves_to_mate_eq (by omega) (by omega) hm2, if_pos (by omega)]
          congr 1
          omega
        · unfold Score.dec_mate_moves Score.of_milli_pawns Score.mate_score_per_move Score.sub
          rw [if_pos hm2, hpos2, if_neg (by decide)]
          unfold toInt32
          omega
      · intro hle
        have e : Score.dec_mate_moves s k = s - 1048576 * k := by
          unfold Score.dec_mate_moves Score.of_milli_pawns Score.mate_score_per_move Score.sub
          rw [if_pos hm, hpos, if_neg (by decide)]
          unfold toInt32
          omega
        have hm2 : Score.is_mate (s - 1048576 * k) = true := by
          rw [Score.is_mate_iff]; omega
        have hpos2 : Score.is_positive (s - 1048576 * k) = false := by
          unfold Score.is_positive; simp only [decide_eq_false_iff_not]; omega
        rw [e]
        refine ⟨hm2, by rw [hpos, hpos2], ?_⟩
        rw [Score.moves_to_mate_eq (by omega) (by omega) hm2, if_pos (by omega)]
        congr 1
        omega
  · intro hm
    unfold Score.inc_mate_moves Score.dec_mate_moves
    rw [hm]
    exact ⟨rfl, rfl⟩

/-- C18 at the mate in 10 of `TEST(inc_dec_mate_moves)` and `k = 2`: two more moves to mate,
and back. -/
theorem C18_inc_dec_mate_moves_witness :
    Score.moves_to_mate 1063256064 = some 10 ∧
    Score.is_mate (Score.inc_mate_moves 1063256064 2) = true ∧
    Score.is_positive (Score.inc_mate_moves 1063256064 2) = Score.is_positive 1063256064 ∧
    Score.moves_to_mate (Score.inc_mate_moves 1063256064 2) = some (10 + 2) ∧
    Score.dec_mate_moves (Score.inc_mate_moves 1063256064 2) 2 = 1063256064 :=
  ⟨by decide,
    ((C18_inc_dec_mate_moves 1063256064 2 ⟨by decide, by decide⟩ (by decide)).1 (by decide)
      (by decide) 10 (by decide)).1 (by decide)⟩

/-- C19 fails on the code at the negative mate score with 0 moves to mate,
`Score::of_moves_to_mate(0).neg()`, which is `Score::min()` = `-2^30`: `to_yasf_value` writes
the pair `("Mate", 0)`, because the sign is kept as the sign of the number of moves and `-0` is
`0`, and `of_yasf_value` reads that pair as the positive mate score `2^30`. -/
theorem C19_negative_mate_in_zero_loses_sign (of_pawns_text : YasfValue → Option Int) :
    (Score.of_moves_to_mate 0).map Score.neg = some Score.min ∧
    Score.is_mate Score.min = true ∧ Score.is_negative Score.min = true ∧
    Score.moves_to_mate Score.min = some 0 ∧
    Score.to_yasf_value Score.min = some ("Mate".toList, YasfValue.int 0) ∧
    Score.of_yasf_value of_pawns_text ("Mate".toList, YasfValue.int 0)
      = some (Except.ok Score.max) ∧
    Score.max ≠ Score.min := by
  refine ⟨by decide, by decide, by decide, by decide, by decide, ?_, by decide⟩
  rfl

set_option maxRecDepth 100000 in
theorem place_chars_aux : ∀ p : Fin 64,
    file_letter_to_idx (char_plus (Place.col (p.val : Int)) 'a')
      = Except.ok (Place.col (p.val : Int)) ∧
    row_number_to_idx (char_plus (Place.line (p.val : Int)) '1')
      = Except.ok (Place.line (p.val : Int)) ∧
    Place.of_line_of_col (Place.line (p.val : Int)) (Place.col (p.val : Int)) = (p.val : Int) ∧
    char_plus (Place.col (p.val : Int)) 'a' ≠ 'o' ∧
    char_plus (Place.col (p.val : Int)) 'a' ≠ 'O' ∧
    char_plus (Place.col (p.val : Int)) 'a' ≠ '0' := by
  decide!

/-- The two characters that `Move::to_string` prints for a square of the board are read back
by `Move::of_string` as its column and its line. -/
theorem place_chars {p : Int} (h0 : 0 ≤ p) (h64 : p < 64) :
    file_letter_to_idx (char_plus (Place.col p) 'a') = Except.ok (Place.col p) ∧
    row_number_to_idx (char_plus (Place.line p) '1') = Except.ok (Place.line p) ∧
    Place.of_line_of_col (Place.line p) (Place.col p) = p ∧
    char_plus (Place.col p) 'a' ≠ 'o' ∧ char_plus (Place.col p) 'a' ≠ 'O' ∧
    char_plus (Place.col p) 'a' ≠ '0' := by
  have := place_chars_aux ⟨p.toNat, by omega⟩
  simp only [] at this
  rwa [Int.toNat_of_nonneg h0] at this

theorem of_string_squares_ok {o d : Int} (ho : 0 ≤ o ∧ o < 64) (hd : 0 ≤ d ∧ d < 64)
    (t : PieceType) :
    Move.of_string_squares (char_plus (Place.col o) 'a') (char_plus (Place.line o) '1')
      (char_plus (Place.col d) 'a') (char_plus (Place.line d) '1') t
      = Except.ok ⟨o, d, t⟩ := by
  obtain ⟨a1, a2, a3, _⟩ := place_chars ho.1 ho.2
  obtain ⟨b1, b2, b3, _⟩ := place_chars hd.1 hd.2
  unfold Move.of_string_squares
  simp only [a1, a2, b1, b2]
  unfold Move.of_lines_cols
  rw [a3, b3]

/-- A string that starts with a file letter of `Move::to_string` is none of the castle
synonyms. -/
theorem parse_xboard_of_file (b : Board) {c : Char} (cs : List Char) (h1 : c ≠ 'o')
    (h2 : c ≠ 'O') (h3 : c ≠ '0') :
    Board.parse_xboard_move_string b (c :: cs) = Move.of_string (c :: cs) := by
  have n1 : ∀ x : Char, x = 'o' ∨ x = 'O' ∨ x = '0' → ∀ r : List Char, c :: cs ≠ x :: r := by
    intro x hx r he
    have := (List.cons.inj he).1
    rcases hx with rfl | rfl | rfl
    · exact h1 this
    · exact h2 this
    · exact h3 this
  unfold Board.parse_xboard_move_string
  rw [if_neg, if_neg]
  · rintro (h | h | h)
    · exact n1 'o' (Or.inl rfl) _ h
    · exact n1 'O' (Or.inr (Or.inl rfl)) _ h
    · exact n1 '0' (Or.inr (Or.inr rfl)) _ h
  · rintro (h | h | h)
    · exact n1 'o' (Or.inl rfl) _ h
    · exact n1 'O' (Or.inr (Or.inl rfl)) _ h
    · exact n1 '0' (Or.inr (Or.inr rfl)) _ h

theorem of_string_squares_error (s0 s1 s2 s3 : Char) (t : PieceType)
    (h : ¬ (s0 ≥ 'a' ∧ s0 ≤ 'h') ∨ ¬ (s1 ≥ '1' ∧ s1 ≤ '8') ∨ ¬ (s2 ≥ 'a' ∧ s2 ≤ 'h') ∨
      ¬ (s3 ≥ '1' ∧ s3 ≤ '8')) :
    ∃ e, Move.of_string_squares s0 s1 s2 s3 t = Except.error e := by
  unfold Move.of_string_squares file_letter_to_idx row_number_to_idx
  by_cases h0 : s0 ≥ 'a' ∧ s0 ≤ 'h'
  · rw [if_pos h0]
    by_cases h1 : s1 ≥ '1' ∧ s1 ≤ '8'
    · rw [if_pos h1]
      by_cases h2 : s2 ≥ 'a' ∧ s2 ≤ 'h'
      · rw [if_pos h2]
        by_cases h3 : s3 ≥ '1' ∧ s3 ≤ '8'
        · rcases h with h | h | h | h
          · exact absurd h0 h
          · exact absurd h1 h
          · exact absurd h2 h
          · exact absurd h3 h
        · rw [if_neg h3]
          exact ⟨_, rfl⟩
      · rw [if_neg h2]
        exact ⟨_, rfl⟩
    · rw [if_neg h1]
      exact ⟨_, rfl⟩
  · rw [if_neg h0]
    exact ⟨_, rfl⟩

/-- C15, amended: for every move `m` whose origin and destination are squares of the board and
whose promotion is absent or one of knight, bishop, rook, queen, `m.to_string()` returns a
string that `Move::of_string` and `parse_xboard_move_string` read back as `m`; `Move::of_string`
rejects with an error every string whose length is not 4 or 5, and every string of length 4 or 5
that has a file outside a-h or a rank outside 1-8; and `parse_xboard_move_string` is
`Move::of_string` on every string but the six castle synonyms `o-o`, `O-O`, `0-0`, `o-o-o`,
`O-O-O`, `0-0-0`, which it accepts. -/
theorem C15_long_algebraic (b : Board) :
    (∀ m : Move, 0 ≤ m.o → m.o < 64 → 0 ≤ m.d → m.d < 64 →
      (m._promotion = PieceType.CLEAR ∨ m._promotion = PieceType.KNIGHT ∨
        m._promotion = PieceType.BISHOP ∨ m._promotion = PieceType.ROOK ∨
        m._promotion = PieceType.QUEEN) →
      ∃ str : List Char, Move.to_string m = some str ∧ Move.of_string str = Except.ok m ∧
        Board.parse_xboard_move_string b str = Except.ok m) ∧
    (∀ str : List Char, str.length ≠ 4 → str.length ≠ 5 →
      Move.of_string str = Except.error MoveError.bad_length) ∧
    (∀ (str : List Char) (i : Nat) (c : Char), (str.length = 4 ∨ str.length = 5) →
      str[i]? = some c →
      (((i = 0 ∨ i = 2) ∧ ¬ (c ≥ 'a' ∧ c ≤ 'h')) ∨ ((i = 1 ∨ i = 3) ∧ ¬ (c ≥ '1' ∧ c ≤ '8'))) →
      ∃ e, Move.of_string str = Except.error e) ∧
    (∀ str : List Char,
      ¬ (str = "o-o-o".toList ∨ str = "O-O-O".toList ∨ str = "0-0-0".toList) →
      ¬ (str = "o-o".toList ∨ str = "O-O".toList ∨ str = "0-0".toList) →
      Board.parse_xboard_move_string b str = Move.of_string str) := by
  refine ⟨?_, ?_, ?_, ?_⟩
  · intro m o0 o64 d0 d64 hp
    obtain ⟨o, d, t⟩ := m
    simp only [] at o0 o64 d0 d64 hp
    obtain ⟨_, _, _, c1, c2, c3⟩ := place_chars o0 o64
    have hsq := fun t => of_string_squares_ok ⟨o0, o64⟩ ⟨d0, d64⟩ t
    rcases hp with rfl | rfl | rfl | rfl | rfl
    · refine ⟨_, rfl, ?_, ?_⟩
      · exact hsq _
      · exact (parse_xboard_of_file b _ c1 c2 c3).trans (hsq _)
    · refine ⟨_, rfl, ?_, ?_⟩
      · exact hsq _
      · exact (parse_xboard_of_file b _ c1 c2 c3).trans (hsq _)
    · refine ⟨_, rfl, ?_, ?_⟩
      · exact hsq _
      · exact (parse_xboard_of_file b _ c1 c2 c3).trans (hsq _)
    · refine ⟨_, rfl, ?_, ?_⟩
      · exact hsq _
      · exact (parse_xboard_of_file b _ c1 c2 c3).trans (hsq _)
    · refine ⟨_, rfl, ?_, ?_⟩
      · exact hsq _
      · exact (parse_xboard_of_file b _ c1 c2 c3).trans (hsq _)
  · intro str h4 h5
    unfold Move.of_string
    split
    · exact absurd rfl h5
    · exact absurd rfl h4
    · rfl
  · intro str i c hlen hi hbad
    have key : ∀ (s0 s1 s2 s3 : Char) (t : PieceType) (r : List Char),
        str = s0 :: s1 :: s2 :: s3 :: r →
        ∃ e, Move.of_string_squares s0 s1 s2 s3 t = Except.error e := by
      intro s0 s1 s2 s3 t r hs
      apply of_string_squares_error
      subst hs
      rcases hbad with ⟨hi2 | hi2, hc⟩ | ⟨hi2 | hi2, hc⟩
      · subst hi2
        obtain rfl : s0 = c := by simpa using hi
        exact Or.inl hc
      · subst hi2
        obtain rfl : s2 = c := by simpa using hi
        exact Or.inr (Or.inr (Or.inl hc))
      · subst hi2
        obtain rfl : s1 = c := by simpa using hi
        exact Or.inr (Or.inl hc)
      · subst hi2
        obtain rfl : s3 = c := by simpa using hi
        exact Or.inr (Or.inr (Or.inr hc))
    unfold Move.of_string
    split
    · rename_i s0 s1 s2 s3 s4
      cases hpr : piece_from_promo_letter (tolower s4) with
      | error e => exact ⟨e, rfl⟩
      | ok t => exact key s0 s1 s2 s3 t [s4] rfl
    · rename_i s0 s1 s2 s3
      exact key s0 s1 s2 s3 PieceType.CLEAR [] rfl
    · exact ⟨_, rfl⟩
  · intro str h1 h2
    unfold Board.parse_xboard_move_string
    rw [if_neg h1, if_neg h2]

/-- C15, amended, at the promotion `e7e8q` and at the strings `e2e`, `i2e4` and `e9e4`. -/
theorem C15_long_algebraic_witness :
    (∃ str : List Char, Move.to_string ⟨52, 60, PieceType.QUEEN⟩ = some str ∧
      Move.of_string str = Except.ok ⟨52, 60, PieceType.QUEEN⟩ ∧
      Board.parse_xboard_move_string Board.clear str = Except.ok ⟨52, 60, PieceType.QUEEN⟩) ∧
    Move.of_string "e2e".toList = Except.error MoveError.bad_length ∧
    (∃ e, Move.of_string "i2e4".toList = Except.error e) ∧
    (∃ e, Move.of_string "e9e4".toList = Except.error e) ∧
    Board.parse_xboard_move_string Board.clear "e2e4".toList = Move.of_string "e2e4".toList :=
  ⟨(C15_long_algebraic Board.clear).1 ⟨52, 60, PieceType.QUEEN⟩ (by decide) (by decide)
      (by decide) (by decide) (by decide),
    (C15_long_algebraic Board.clear).2.1 "e2e".toList (by decide) (by decide),
    (C15_long_algebraic Board.clear).2.2.1 "i2e4".toList 0 'i' (by decide) (by decide)
      (by decide),
    (C15_long_algebraic Board.clear).2.2.1 "e9e4".toList 1 '9' (by decide) (by decide)
      (by decide),
    (C15_long_algebraic Board.clear).2.2.2 "e2e4".toList (by decide) (by decide)⟩

/-- C15 as stated fails for `parse_xboard_move_string`: it accepts `O-O`, whose length is 3,
and `O-O-O`, whose files are outside a-h, as the castling moves of the side to move. -/
theorem C15_counterexample :
    "O-O".toList.length = 3 ∧
    Board.parse_xboard_move_string Board.clear "O-O".toList
      = Except.ok ⟨4, 6, PieceType.CLEAR⟩ ∧
    "O-O-O".toList.length = 5 ∧ ¬ ('O' ≥ 'a' ∧ 'O' ≤ 'h') ∧
    Board.parse_xboard_move_string Board.clear "O-O-O".toList
      = Except.ok ⟨4, 2, PieceType.CLEAR⟩ := by
  decide

/-- The loop of `has_legal_moves` returns when every call of `is_legal_move` does, and it finds
a move exactly when one of them passes. -/
theorem has_legal_moves_go_spec (Z : ZobristTables) (board : Board) (scratch : EvalScratch) :
    ∀ ms : List Move, (∀ m ∈ ms, (Rules.is_legal_move Z board scratch m).isSome = true) →
    ∃ r : Bool, Rules.has_legal_moves_go Z board scratch ms = some r ∧
      (r = true ↔ ∃ m ∈ ms, Rules.is_legal_move Z board scratch m = some true) := by
  intro ms
  induction ms with
  | nil =>
    intro _
    exact ⟨false, rfl, by simp⟩
  | cons m ms ih =>
    intro h
    obtain ⟨v, hv⟩ := Option.isSome_iff_exists.mp (h m (List.mem_cons_self _ _))
    obtain ⟨r, hr, hiff⟩ := ih (fun x hx => h x (List.mem_cons_of_mem _ hx))
    rw [Rules.has_legal_moves_go, hv, Option.some_bind]
    cases v with
    | true =>
      refine ⟨true, by simp, ?_⟩
      simp only [true_iff]
      exact ⟨m, List.mem_cons_self _ _, hv⟩
    | false =>
      refine ⟨r, by simpa using hr, ?_⟩
      rw [hiff]
      constructor
      · rintro ⟨x, hx, hx2⟩
        exact ⟨x, List.mem_cons_of_mem _ hx, hx2⟩
      · rintro ⟨x, hx, hx2⟩
        rcases List.mem_cons.mp hx with rfl | hx
        · rw [hv] at hx2
          exact absurd hx2 (by simp)
        · exact ⟨x, hx, hx2⟩

/-- C11: for every board, when the listed moves fit the `MoveVector` and the calls of
`is_legal_move` return, `is_mate` and `result` return, and: `is_mate(b)` holds if and only if
the king of the side to move is attacked (`is_check`) and no move of `list_moves` passes
`is_legal_move`; `result(b)` is the win of the opponent of the side to move exactly when
`is_mate(b)` holds, whatever `is_draw_without_stalemate` says; it is `Draw` when the side to
move is not in check and has no legal move, or has a legal move and
`is_draw_without_stalemate(b)` holds; and it is `NotFinished` otherwise. -/
theorem C11_is_mate_and_result (Z : ZobristTables) (b : Board) (s : EvalScratch)
    (hcap : (Rules.list_moves b s []).length ≤ MoveVector.cap)
    (hret : ∀ m ∈ Rules.list_moves b s [], (Rules.is_legal_move Z b s m).isSome = true) :
    ∃ (mate : Bool) (g : GameResult),
      Rules.is_mate Z b s = some mate ∧ Rules.result Z b s = some g ∧
      (mate = true ↔ (Rules.is_check b s = true ∧
        ∀ m ∈ Rules.list_moves b s [], Rules.is_legal_move Z b s m ≠ some true)) ∧
      (mate = true →
        g = if b.turn = Color.White then GameResult.BlackWon else GameResult.WhiteWon) ∧
      (g = GameResult.WhiteWon ∨ g = GameResult.BlackWon → mate = true) ∧
      (g = GameResult.Draw ↔
        ((Rules.is_check b s = false ∧
            ∀ m ∈ Rules.list_moves b s [], Rules.is_legal_move Z b s m ≠ some true) ∨
          ((∃ m ∈ Rules.list_moves b s [], Rules.is_legal_move Z b s m = some true) ∧
            Rules.is_draw_without_stalemate b = true))) ∧
      (g = GameResult.NotFinished ↔
        ((∃ m ∈ Rules.list_moves b s [], Rules.is_legal_move Z b s m = some true) ∧
          Rules.is_draw_without_stalemate b = false)) := by
  obtain ⟨r, hr, hiff⟩ := has_legal_moves_go_spec Z b s _ hret
  have hl : Rules.has_legal_moves Z b s = some r := by
    unfold Rules.has_legal_moves
    simp only []
    rw [if_pos hcap]
    exact hr
  have hno : (∀ m ∈ Rules.list_moves b s [], Rules.is_legal_move Z b s m ≠ some true) ↔
      r = false := by
    constructor
    · intro h
      cases hrr : r
      · rfl
      · obtain ⟨m, hm, hm2⟩ := hiff.mp hrr
        exact absurd hm2 (h m hm)
    · intro h m hm hm2
      have := hiff.mpr ⟨m, hm, hm2⟩
      rw [h] at this
      exact absurd this (by decide)
  unfold Rules.is_mate Rules.result
  rw [hl, hno, ← hiff]
  simp only [Option.map_some']
  cases hc : Rules.is_check b s <;> cases r <;>
    cases hd : Rules.is_draw_without_stalemate b <;>
    by_cases ht : b.turn = Color.White <;>
    simp [ht]

set_option maxRecDepth 1000000 in
set_option maxHeartbeats 2000000 in
/-- C11 at the board after 1. f3 e5 2. g4 Qh4: `is_mate` holds and `result` is the win of
Black. -/
theorem C11_is_mate_and_result_witness :
    Rules.is_mate Z0 (Board.fools_mate Z0) (Rules.make_scratch (Board.fools_mate Z0))
      = some true ∧
    Rules.result Z0 (Board.fools_mate Z0) (Rules.make_scratch (Board.fools_mate Z0))
      = some GameResult.BlackWon ∧
    ∃ (mate : Bool) (g : GameResult),
      Rules.is_mate Z0 (Board.fools_mate Z0) (Rules.make_scratch (Board.fools_mate Z0))
        = some mate ∧
      Rules.result Z0 (Board.fools_mate Z0) (Rules.make_scratch (Board.fools_mate Z0))
        = some g ∧
      (mate = true → g = if (Board.fools_mate Z0).turn = Color.White
        then GameResult.BlackWon else GameResult.WhiteWon) := by
  have h1 : (Rules.list_moves (Board.fools_mate Z0)
      (Rules.make_scratch (Board.fools_mate Z0)) []).length ≤ MoveVector.cap := by decide!
  have h2 : ∀ m ∈ Rules.list_moves (Board.fools_mate Z0)
      (Rules.make_scratch (Board.fools_mate Z0)) [],
      (Rules.is_legal_move Z0 (Board.fools_mate Z0)
        (Rules.make_scratch (Board.fools_mate Z0)) m).isSome = true := by decide!
  obtain ⟨mate, g, e1, e2, _, e4, _⟩ := C11_is_mate_and_result Z0 (Board.fools_mate Z0)
    (Rules.make_scratch (Board.fools_mate Z0)) h1 h2
  have h3 : Rules.is_mate Z0 (Board.fools_mate Z0)
      (Rules.make_scratch (Board.fools_mate Z0)) = some true := by decide!
  have h4 : Rules.result Z0 (Board.fools_mate Z0)
      (Rules.make_scratch (Board.fools_mate Z0)) = some GameResult.BlackWon := by decide!
  exact ⟨h3, h4, mate, g, e1, e2, e4⟩

set_option maxRecDepth 1000000 in
theorem rook_lin_table : ∀ i : Fin 8, ∀ m : Fin 256,
    BitBoard.rook_lin_moves (i.val : Int) m.val < 256 ∧
    ∀ c : Fin 8, (BitBoard.rook_lin_moves (i.val : Int) m.val).testBit c.val
      = decide (c ≠ i ∧ ∀ j : Fin 8, ((i < j ∧ j < c) ∨ (c < j ∧ j < i)) →
          m.val.testBit j.val = false) := by
  decide!

set_option maxRecDepth 1000000 in
theorem rook_col_table : ∀ i : Fin 8, ∀ m : Fin 256,
    BitBoard.rook_col_moves (i.val : Int) m.val
      = BitBoard.spread (BitBoard.rook_lin_moves (i.val : Int) m.val) := by
  decide!

set_option maxRecDepth 1000000 in
theorem spread_table : ∀ x : Fin 256, BitBoard.spread x.val < 2 ^ 64 ∧
    ∀ k : Fin 64, (BitBoard.spread x.val).testBit k.val
      = (decide (k.val % 8 = 0) && x.val.testBit (k.val / 8)) := by
  decide!

theorem get_line_testBit (b l c : Nat) :
    (BitBoard.get_line b (l : Int)).testBit c = (decide (c < 8) && b.testBit (8 * l + c)) := by
  unfold BitBoard.get_line
  have h : ((l : Int) * 8).toNat = 8 * l := by omega
  have h2 : (0xff : Nat) = 2 ^ 8 - 1 := by norm_num
  rw [h, Nat.testBit_and, Nat.testBit_shiftRight, h2, Nat.testBit_two_pow_sub_one, Bool.and_comm]

theorem get_line_lt (b : Nat) (l : Int) : BitBoard.get_line b l < 256 := by
  unfold BitBoard.get_line
  exact Nat.lt_of_le_of_lt Nat.and_le_right (by norm_num)

theorem col_mask_and (y : Nat) : y &&& BitBoard.col_mask =
    (y.testBit 0).toNat * 2 ^ 0 ||| (y.testBit 8).toNat * 2 ^ 8 |||
      (y.testBit 16).toNat * 2 ^ 16 ||| (y.testBit 24).toNat * 2 ^ 24 := by
  have h : BitBoard.col_mask = 2 ^ 0 ||| 2 ^ 8 ||| 2 ^ 16 ||| 2 ^ 24 := by decide
  rw [h, Nat.and_or_distrib_left, Nat.and_or_distrib_left, Nat.and_or_distrib_left,
    Nat.and_two_pow, Nat.and_two_pow, Nat.and_two_pow, Nat.and_two_pow]

theorem small_testBit (n r : Nat) (hn : n < 256) (hr : 8 ≤ r) : n.testBit r = false := by
  apply Nat.testBit_lt_two_pow
  calc n < 2 ^ 8 := hn
    _ ≤ 2 ^ r := Nat.pow_le_pow_right (by norm_num) hr

set_option maxRecDepth 100000 in
theorem col_extract_lower (y r : Nat) :
    ((((y &&& BitBoard.col_mask) * BitBoard.col_rotate_code) % 2 ^ 32) >>> 28).testBit r
      = (decide (r < 4) && y.testBit (8 * r)) := by
  rw [col_mask_and]
  by_cases hr : r < 8
  · interval_cases r <;> simp only [Nat.mul_zero, Nat.mul_one, Nat.reduceMul] <;>
      generalize y.testBit 0 = b0 <;> generalize y.testBit 8 = b1 <;>
      generalize y.testBit 16 = b2 <;> generalize y.testBit 24 = b3 <;>
      (try generalize y.testBit 32 = b4) <;> (try generalize y.testBit 40 = b5) <;>
      (try generalize y.testBit 48 = b6) <;> (try generalize y.testBit 56 = b7) <;>
      cases b0 <;> cases b1 <;> cases b2 <;> cases b3 <;> simp <;> decide
  · have h1 : decide (r < 4) = false := by simp; omega
    rw [h1, Bool.false_and]
    apply small_testBit _ _ _ (by omega)
    rw [Nat.shiftRight_eq_div_pow]
    have := Nat.mod_lt (((y.testBit 0).toNat * 2 ^ 0 ||| (y.testBit 8).toNat * 2 ^ 8 |||
      (y.testBit 16).toNat * 2 ^ 16 ||| (y.testBit 24).toNat * 2 ^ 24) *
        BitBoard.col_rotate_code) (show 2 ^ 32 > 0 by norm_num)
    generalize (((y.testBit 0).toNat * 2 ^ 0 ||| (y.testBit 8).toNat * 2 ^ 8 |||
      (y.testBit 16).toNat * 2 ^ 16 ||| (y.testBit 24).toNat * 2 ^ 24) *
        BitBoard.col_rotate_code) % 2 ^ 32 = n at this ⊢
    norm_num at this ⊢
    omega

set_option maxRecDepth 100000 in
theorem col_extract_upper (y r : Nat) :
    ((((y &&& BitBoard.col_mask) * BitBoard.col_rotate_code) % 2 ^ 32) >>> 24).testBit r
      = (decide (4 ≤ r ∧ r < 8) && y.testBit (8 * (r - 4))) := by
  rw [col_mask_and]
  by_cases hr : r < 8
  · interval_cases r <;> simp only [Nat.mul_zero, Nat.mul_one, Nat.reduceMul, Nat.reduceSub] <;>
      generalize y.testBit 0 = b0 <;> generalize y.testBit 8 = b1 <;>
      generalize y.testBit 16 = b2 <;> generalize y.testBit 24 = b3 <;>
      cases b0 <;> cases b1 <;> cases b2 <;> cases b3 <;> simp <;> decide
  · have h1 : decide (4 ≤ r ∧ r < 8) = false := by simp; omega
    rw [h1, Bool.false_and]
    apply small_testBit _ _ _ (by omega)
    rw [Nat.shiftRight_eq_div_pow]
    have := Nat.mod_lt (((y.testBit 0).toNat * 2 ^ 0 ||| (y.testBit 8).toNat * 2 ^ 8 |||
      (y.testBit 16).toNat * 2 ^ 16 ||| (y.testBit 24).toNat * 2 ^ 24) *
        BitBoard.col_rotate_code) (show 2 ^ 32 > 0 by norm_num)
    generalize (((y.testBit 0).toNat * 2 ^ 0 ||| (y.testBit 8).toNat * 2 ^ 8 |||
      (y.testBit 16).toNat * 2 ^ 16 ||| (y.testBit 24).toNat * 2 ^ 24) *
        BitBoard.col_rotate_code) % 2 ^ 32 = n at this ⊢
    norm_num at this ⊢
    omega

theorem get_col_testBit (b c r : Nat) (hc : c < 8) :
    (BitBoard.get_col b (c : Int)).testBit r = (decide (r < 8) && b.testBit (8 * r + c)) := by
  unfold BitBoard.get_col
  have h : ((c : Int)).toNat = c := by omega
  rw [h, Nat.testBit_or, col_extract_lower, col_extract_upper, Nat.testBit_shiftRight,
    Nat.testBit_shiftRight]
  unfold BitBoard.m_lower BitBoard.m_upper
  rw [Nat.testBit_mod_two_pow, Nat.testBit_mod_two_pow, ← Nat.shiftRight_eq_div_pow,
    Nat.testBit_shiftRight]
  by_cases h4 : r < 4
  · have e1 : decide (r < 4) = true := by simpa using h4
    have e2 : decide (4 ≤ r ∧ r < 8) = false := by simp; omega
    have e3 : decide (c + 8 * r < 32) = true := by simp; omega
    have e4 : decide (r < 8) = true := by simp; omega
    rw [e1, e2, e3, e4, Nat.add_comm c (8 * r)]
    simp
  · by_cases h8 : r < 8
    · have e1 : decide (r < 4) = false := by simpa using h4
      have e2 : decide (4 ≤ r ∧ r < 8) = true := by simp; omega
      have e3 : decide (c + 8 * (r - 4) < 32) = true := by simp; omega
      have e4 : decide (r < 8) = true := by simpa using h8
      have e5 : 32 + (c + 8 * (r - 4)) = 8 * r + c := by omega
      rw [e1, e2, e3, e4, e5]
      simp
    · have e1 : decide (r < 4) = false := by simpa using h4
      have e2 : decide (4 ≤ r ∧ r < 8) = false := by simp; omega
      have e4 : decide (r < 8) = false := by simpa using h8
      rw [e1, e2, e4]
      simp

theorem get_col_lt (b c : Nat) (hc : c < 8) : BitBoard.get_col b (c : Int) < 256 := by
  have h : BitBoard.get_col b (c : Int) < 2 ^ 8 := by
    apply Nat.lt_pow_two_of_testBit
    intro i hi
    rw [get_col_testBit b c i hc]
    have : ¬ i < 8 := by
      intro h8
      have := Nat.pow_lt_pow_right (show 1 < 2 by norm_num) h8
      omega
    simp [this]
  simpa using h

theorem shl_testBit (x n t : Nat) :
    (BitBoard.shl x (n : Int)).testBit t
      = (decide (t < 64) && (decide (n ≤ t) && x.testBit (t - n))) := by
  unfold BitBoard.shl
  have h : ((n : Int)).toNat = n := by omega
  rw [h, Nat.testBit_mod_two_pow, Nat.testBit_shiftLeft]

theorem rook_lin_lt (c m : Nat) (hc : c < 8) (hm : m < 256) :
    BitBoard.rook_lin_moves (c : Int) m < 256 :=
  (rook_lin_table ⟨c, hc⟩ ⟨m, hm⟩).1

theorem rook_lin_spec (c m k : Nat) (hc : c < 8) (hm : m < 256) (hk : k < 8) :
    (BitBoard.rook_lin_moves (c : Int) m).testBit k = true ↔
      k ≠ c ∧ ∀ j, (c < j ∧ j < k) ∨ (k < j ∧ j < c) → m.testBit j = false := by
  have h := (rook_lin_table ⟨c, hc⟩ ⟨m, hm⟩).2 ⟨k, hk⟩
  simp only [] at h
  rw [h, decide_eq_true_iff]
  constructor
  · rintro ⟨h1, h2⟩
    refine ⟨fun e => h1 (Fin.ext e), fun j hj => ?_⟩
    have hj8 : j < 8 := by omega
    exact h2 ⟨j, hj8⟩ (by simpa [Fin.lt_def] using hj)
  · rintro ⟨h1, h2⟩
    refine ⟨fun e => h1 (congrArg Fin.val e), fun j hj => ?_⟩
    exact h2 j.val (by simpa [Fin.lt_def] using hj)

theorem rook_col_spec (l m k : Nat) (hl : l < 8) (hm : m < 256) :
    (BitBoard.rook_col_moves (l : Int) m).testBit k = true ↔
      k < 64 ∧ k % 8 = 0 ∧ (BitBoard.rook_lin_moves (l : Int) m).testBit (k / 8) = true := by
  have e := rook_col_table ⟨l, hl⟩ ⟨m, hm⟩
  simp only [] at e
  have hx := rook_lin_lt l m hl hm
  have hs := spread_table ⟨_, hx⟩
  simp only [] at hs
  rw [e]
  by_cases hk : k < 64
  · rw [hs.2 ⟨k, hk⟩]
    simp [hk]
  · have : (BitBoard.spread (BitBoard.rook_lin_moves (l : Int) m)).testBit k = false := by
      apply Nat.testBit_lt_two_pow
      calc _ < 2 ^ 64 := hs.1
        _ ≤ 2 ^ k := Nat.pow_le_pow_right (by norm_num) (by omega)
    rw [this]
    simp [hk]

theorem rook_rank_part (s t B : Nat) :
    (BitBoard.shl (BitBoard.rook_lin_moves ((s % 8 : Nat) : Int)
        (BitBoard.get_line B ((s / 8 : Nat) : Int))) ((8 * (s / 8) : Nat) : Int)).testBit t = true ↔
      t < 64 ∧ t ≠ s ∧ t / 8 = s / 8 ∧
        ∀ u, (s < u ∧ u < t) ∨ (t < u ∧ u < s) → B.testBit u = false := by
  have hc : s % 8 < 8 := Nat.mod_lt _ (by norm_num)
  have hm := get_line_lt B ((s / 8 : Nat) : Int)
  rw [shl_testBit]
  simp only [Bool.and_eq_true, decide_eq_true_iff]
  constructor
  · rintro ⟨h1, h2, h3⟩
    have hk : t - 8 * (s / 8) < 8 := by
      by_contra hk
      rw [small_testBit _ _ (rook_lin_lt _ _ hc hm) (by omega)] at h3
      exact Bool.noConfusion h3
    obtain ⟨h4, h5⟩ := (rook_lin_spec _ _ _ hc hm hk).1 h3
    refine ⟨h1, by omega, by omega, fun u hu => ?_⟩
    have h6 := h5 (u - 8 * (s / 8)) (by omega)
    rw [get_line_testBit] at h6
    have e1 : 8 * (s / 8) + (u - 8 * (s / 8)) = u := by omega
    have e2 : decide (u - 8 * (s / 8) < 8) = true := by simp; omega
    rw [e1, e2] at h6
    simpa using h6
  · rintro ⟨h1, h2, h3, h4⟩
    have hk : t - 8 * (s / 8) < 8 := by omega
    refine ⟨h1, by omega, (rook_lin_spec _ _ _ hc hm hk).2 ⟨by omega, fun j hj => ?_⟩⟩
    rw [get_line_testBit]
    have := h4 (8 * (s / 8) + j) (by omega)
    simp [this]

theorem rook_file_part (s t B : Nat) (hs : s < 64) :
    (BitBoard.shl (BitBoard.rook_col_moves ((s / 8 : Nat) : Int)
        (BitBoard.get_col B ((s % 8 : Nat) : Int))) ((s % 8 : Nat) : Int)).testBit t = true ↔
      t < 64 ∧ t ≠ s ∧ t % 8 = s % 8 ∧
        ∀ u, u % 8 = s % 8 → (s < u ∧ u < t) ∨ (t < u ∧ u < s) → B.testBit u = false := by
  have hc : s % 8 < 8 := Nat.mod_lt _ (by norm_num)
  have hl : s / 8 < 8 := by omega
  have hm := get_col_lt B (s % 8) hc
  rw [shl_testBit]
  simp only [Bool.and_eq_true, decide_eq_true_iff]
  constructor
  · rintro ⟨h1, h2, h3⟩
    obtain ⟨_, h4, h5⟩ := (rook_col_spec _ _ _ hl hm).1 h3
    have hk : (t - s % 8) / 8 < 8 := by omega
    obtain ⟨h6, h7⟩ := (rook_lin_spec _ _ _ hl hm hk).1 h5
    refine ⟨h1, by omega, by omega, fun u hu hb => ?_⟩
    have h8 := h7 (u / 8) (by omega)
    rw [get_col_testBit _ _ _ hc] at h8
    have e1 : 8 * (u / 8) + s % 8 = u := by omega
    have e2 : decide (u / 8 < 8) = true := by simp; omega
    rw [e1, e2] at h8
    simpa using h8
  · rintro ⟨h1, h2, h3, h4⟩
    have hk : (t - s % 8) / 8 < 8 := by omega
    refine ⟨h1, by omega, (rook_col_spec _ _ _ hl hm).2 ⟨by omega, by omega,
      (rook_lin_spec _ _ _ hl hm hk).2 ⟨by omega, fun j hj => ?_⟩⟩⟩
    rw [get_col_testBit _ _ _ hc]
    have := h4 (8 * j + s % 8) (by omega) (by omega)
    simp [this]

/-- C20: for every square `s` (a number below 64) and every blocker word `B`, bit `t` of
`BitBoard::get_rook_moves(s, B)` is set exactly when `t` is a square other than `s` that is on
the rank of `s` with no bit of `B` strictly between the two, or on the file of `s` with no bit
of `B` on that file strictly between the two (so the first blocker of each direction is in the
set and nothing beyond it is); and bit `r` of `get_col(col(s))` is set exactly when `r < 8` and
the square on rank `r` of that file is in `B`. -/
theorem C20_rook_moves_and_file_byte (s : Nat) (hs : s < 64) (B : Nat) :
    (∀ t : Nat, (BitBoard.get_rook_moves (s : Int) B).testBit t = true ↔
      t < 64 ∧ t ≠ s ∧
        ((t / 8 = s / 8 ∧ ∀ u, (s < u ∧ u < t) ∨ (t < u ∧ u < s) → B.testBit u = false) ∨
         (t % 8 = s % 8 ∧ ∀ u, u % 8 = s % 8 →
            (s < u ∧ u < t) ∨ (t < u ∧ u < s) → B.testBit u = false))) ∧
    (∀ r : Nat, (BitBoard.get_col B (Place.col (s : Int))).testBit r = true ↔
      r < 8 ∧ B.testBit (8 * r + s % 8) = true) := by
  have el : Place.line (s : Int) = ((s / 8 : Nat) : Int) := by unfold Place.line; omega
  have ec : Place.col (s : Int) = ((s % 8 : Nat) : Int) := by unfold Place.col; omega
  have hc : s % 8 < 8 := Nat.mod_lt _ (by norm_num)
  constructor
  · intro t
    have e8 : ((s / 8 : Nat) : Int) * 8 = ((8 * (s / 8) : Nat) : Int) := by push_cast; ring
    unfold BitBoard.get_rook_moves
    simp only [el, ec, e8]
    rw [Nat.testBit_or, Bool.or_eq_true, rook_rank_part, rook_file_part s t B hs]
    constructor
    · rintro (⟨h1, h2, h3, h4⟩ | ⟨h1, h2, h3, h4⟩)
      · exact ⟨h1, h2, Or.inl ⟨h3, h4⟩⟩
      · exact ⟨h1, h2, Or.inr ⟨h3, h4⟩⟩
    · rintro ⟨h1, h2, ⟨h3, h4⟩ | ⟨h3, h4⟩⟩
      · exact Or.inl ⟨h1, h2, h3, h4⟩
      · exact Or.inr ⟨h1, h2, h3, h4⟩
  · intro r
    rw [ec, get_col_testBit _ _ _ hc]
    simp

/-- C20 at the square d4 (27) with the blockers of the initial position. -/
theorem C20_rook_moves_and_file_byte_witness :
    (27 : Nat) < 64 ∧
    ((∀ t : Nat, (BitBoard.get_rook_moves ((27 : Nat) : Int) 0xffff00000000ffff).testBit t = true ↔
      t < 64 ∧ t ≠ 27 ∧
        ((t / 8 = 27 / 8 ∧ ∀ u, (27 < u ∧ u < t) ∨ (t < u ∧ u < 27) →
            (0xffff00000000ffff : Nat).testBit u = false) ∨
         (t % 8 = 27 % 8 ∧ ∀ u, u % 8 = 27 % 8 →
            (27 < u ∧ u < t) ∨ (t < u ∧ u < 27) →
              (0xffff00000000ffff : Nat).testBit u = false))) ∧
    (∀ r : Nat, (BitBoard.get_col 0xffff00000000ffff (Place.col ((27 : Nat) : Int))).testBit r
        = true ↔ r < 8 ∧ (0xffff00000000ffff : Nat).testBit (8 * r + 27 % 8) = true)) :=
  ⟨by decide, C20_rook_moves_and_file_byte 27 (by decide) 0xffff00000000ffff⟩

theorem pretty_move_others_some (Z : ZobristTables) (b : Board) (s : EvalScratch) (m : Move) :
    ∀ (ps : List Int) (acc : Bool × Bool × Bool),
      (∀ p ∈ ps, p ≠ m.o →
        (Rules.is_legal_move Z b s ⟨p, m.d, Move.promotion m⟩).isSome = true) →
      ∃ f, Rules.pretty_move_others Z b s m ps acc = some f := by
  intro ps
  induction ps with
  | nil => intro acc _; exact ⟨acc, rfl⟩
  | cons p ps ih =>
    intro acc h
    have hps : ∀ q ∈ ps, q ≠ m.o →
        (Rules.is_legal_move Z b s ⟨q, m.d, Move.promotion m⟩).isSome = true :=
      fun q hq => h q (List.mem_cons_of_mem _ hq)
    unfold Rules.pretty_move_others
    by_cases hp : p = m.o
    · rw [if_pos hp]; exact ih acc hps
    · rw [if_neg hp]
      have h1 := h p (List.mem_cons_self _ _) hp
      cases hl : Rules.is_legal_move Z b s ⟨p, m.d, Move.promotion m⟩ with
      | none => rw [hl] at h1; exact absurd h1 (by decide)
      | some r =>
        cases r with
        | false => exact ih acc hps
        | true => exact ih _ hps

theorem pretty_move_others_spec (Z : ZobristTables) (b : Board) (s : EvalScratch) (m : Move) :
    ∀ (ps : List Int) (acc f : Bool × Bool × Bool),
      Rules.pretty_move_others Z b s m ps acc = some f →
      (acc.1 = true → f.1 = true) ∧ (acc.2.1 = true → f.2.1 = true) ∧
      (acc.2.2 = true → f.2.2 = true) ∧
      ∀ p ∈ ps, p ≠ m.o → Rules.is_legal_move Z b s ⟨p, m.d, Move.promotion m⟩ = some true →
        f.1 = true ∧ (Place.line m.o = Place.line p → f.2.1 = true) ∧
          (Place.col m.o = Place.col p → f.2.2 = true) := by
  intro ps
  induction ps with
  | nil =>
    intro acc f h
    unfold Rules.pretty_move_others at h
    cases h
    exact ⟨id, id, id, fun p hp => absurd hp (List.not_mem_nil p)⟩
  | cons p ps ih =>
    intro acc f h
    unfold Rules.pretty_move_others at h
    by_cases hp : p = m.o
    · rw [if_pos hp] at h
      obtain ⟨h1, h2, h3, h4⟩ := ih acc f h
      refine ⟨h1, h2, h3, fun q hq hne hl => ?_⟩
      rcases List.mem_cons.1 hq with e | hq
      · exact absurd (e.trans hp) hne
      · exact h4 q hq hne hl
    · rw [if_neg hp] at h
      cases hl : Rules.is_legal_move Z b s ⟨p, m.d, Move.promotion m⟩ with
      | none => rw [hl] at h; cases h
      | some r =>
        rw [hl] at h
        cases r with
        | false =>
          obtain ⟨h1, h2, h3, h4⟩ := ih acc f h
          refine ⟨h1, h2, h3, fun q hq hne hq2 => ?_⟩
          rcases List.mem_cons.1 hq with e | hq
          · rw [e, hl] at hq2; cases hq2
          · exact h4 q hq hne hq2
        | true =>
          obtain ⟨h1, h2, h3, h4⟩ := ih _ f h
          refine ⟨fun _ => h1 rfl, fun ha => h2 (by simp [ha]), fun ha => h3 (by simp [ha]),
            fun q hq hne hq2 => ?_⟩
          rcases List.mem_cons.1 hq with e | hq
          · subst e
            exact ⟨h1 rfl, fun e1 => h2 (by simp [e1]), fun e1 => h3 (by simp [e1])⟩
          · exact h4 q hq hne hq2

theorem legal_origin_not_clear {Z : ZobristTables} {b : Board} {s : EvalScratch} {m : Move}
    (h : Rules.is_legal_move Z b s m = some true) : (b._squares m.o).type ≠ PieceType.CLEAR := by
  intro hcl
  unfold Rules.is_legal_move at h
  have hv : Rules.is_valid_by_general_rule b m = false := by
    unfold Rules.is_valid_by_general_rule
    simp only [hcl]
  simp [hv] at h

theorem mem_pieces_of_square {b : Board} (hc : Consistent b) {q : Int} (h0 : 0 ≤ q) (h1 : q < 64)
    (ht : (b._squares q).type ≠ PieceType.CLEAR) :
    q ∈ Board.pieces b (b._squares q).owner (b._squares q).type := by
  have h := hc.lists.1 q h0 h1 ht
  unfold Board.pieces
  obtain ⟨hlt, he⟩ := List.getElem?_eq_some.1 h
  have hm := List.getElem_mem hlt
  rw [he] at hm
  exact hm

set_option maxRecDepth 1000000 in
set_option maxHeartbeats 4000000 in
/-- C13: on the board `4k3/8/8/8/8/8/4p3/4K3 w - - 0 1` the move e1e2 is a legal move of White
(`list_moves` gives it and `is_legal_move` accepts it), `pretty_move` writes it as `Kxe2=`
(the move leaves two bare kings, and the result `Draw` appends `=`), and `parse_pretty_move`
answers that text with the error `Extra stuff`; without the `=` the text is read back as the
move. -/
theorem C13_parse_rejects_pretty_draw_suffix :
    Rules.Legal Z0 (Board.lone_pawn Z0) ⟨4, 12, PieceType.CLEAR⟩ ∧
    Rules.pretty_move Z0 (Board.lone_pawn Z0) ⟨4, 12, PieceType.CLEAR⟩
      = some ['K', 'x', 'e', '2', '='] ∧
    Rules.parse_pretty_move Z0 (Board.lone_pawn Z0) ['K', 'x', 'e', '2', '=']
      = some (Except.error PrettyError.ExtraStuff) ∧
    Rules.parse_pretty_move Z0 (Board.lone_pawn Z0) ['K', 'x', 'e', '2']
      = some (Except.ok ⟨4, 12, PieceType.CLEAR⟩) := by
  have h1 : Rules.Legal Z0 (Board.lone_pawn Z0) ⟨4, 12, PieceType.CLEAR⟩ := by
    unfold Rules.Legal; decide!
  have h2 : Rules.pretty_move Z0 (Board.lone_pawn Z0) ⟨4, 12, PieceType.CLEAR⟩
      = some ['K', 'x', 'e', '2', '='] := by decide!
  have h3 : Rules.parse_pretty_move Z0 (Board.lone_pawn Z0) ['K', 'x', 'e', '2', '=']
      = some (Except.error PrettyError.ExtraStuff) := by decide!
  have h4 : Rules.parse_pretty_move Z0 (Board.lone_pawn Z0) ['K', 'x', 'e', '2']
      = some (Except.ok ⟨4, 12, PieceType.CLEAR⟩) := by decide!
  exact ⟨h1, h2, h3, h4⟩

theorem Rules.Impl.promos {impl : PieceImpl} (h : Rules.Impl impl) :
    (impl.set_promos = PawnImpl.set_promos ∧ impl.type = PieceType.PAWN) ∨
    (impl.set_promos = (fun _ l => l) ∧ impl.type ≠ PieceType.PAWN) := by
  rcases h with h | h | h | h | h | h <;> subst h
  · exact Or.inl ⟨rfl, rfl⟩
  all_goals exact Or.inr ⟨rfl, by decide⟩

theorem list_moves_promo (impl : PieceImpl) (hi : Rules.Impl impl) {b : Board}
    (hc : Consistent b) {c : Color} (hcn : c ≠ Color.None) (place : Int)
    (attacked rooks : Nat) (list : List Move) (m : Move)
    (h : m ∈ PieceRules.list_moves impl b c place attacked rooks list) :
    m ∈ list ∨ (m.o = place ∧ m._promotion = PieceRules.listed_promotion impl.type m) := by
  unfold PieceRules.list_moves PieceRules.pop_moves at h
  rw [pop_moves_go_append] at h
  have hnew : ∀ m0, m0 ∈ PieceRules.pop_moves_go place 64
      (PieceRules.moves_bb impl b c place attacked rooks) [] →
      m0.o = place ∧ m0._promotion = PieceType.CLEAR := by
    intro m0 h0
    rcases pop_moves_go_mem place m0 64 _ [] (moves_bb_lt impl hc hcn place attacked rooks) h0
      with h1 | h1
    · exact absurd h1 (List.not_mem_nil _)
    · exact ⟨h1.1, h1.2.1⟩
  unfold PieceRules.listed_promotion
  rcases hi.promos with ⟨hs1, hs2⟩ | ⟨hs1, hs2⟩
  · rw [hs1] at h
    unfold PawnImpl.set_promos at h
    rw [List.take_left, List.drop_left] at h
    rcases List.mem_append.mp h with h1 | h1
    · exact Or.inl h1
    · right
      obtain ⟨m0, hm0, rfl⟩ := List.mem_map.mp h1
      obtain ⟨n1, n2⟩ := hnew m0 hm0
      by_cases hpr : Move.dl m0 = 0 ∨ Move.dl m0 = 7
      · rw [if_pos hpr]
        have hd : Move.dl (Move.set_promotion m0 PieceType.QUEEN) = Move.dl m0 := rfl
        rw [hd, if_pos ⟨hs2, hpr⟩]
        exact ⟨n1, rfl⟩
      · rw [if_neg hpr, if_neg (fun hh => hpr hh.2)]
        exact ⟨n1, n2⟩
  · rw [hs1] at h
    rcases List.mem_append.mp h with h1 | h1
    · exact Or.inl h1
    · right
      obtain ⟨n1, n2⟩ := hnew m h1
      rw [if_neg (fun hh => hs2 hh.1)]
      exact ⟨n1, n2⟩

theorem list_all_moves_promo (impl : PieceImpl) (hi : Rules.Impl impl) {b : Board}
    (hc : Consistent b) {c : Color} (hcn : c ≠ Color.None) (attacked rooks : Nat)
    (list : List Move) (m : Move)
    (h : m ∈ PieceRules.list_all_moves impl b c attacked rooks list) :
    m ∈ list ∨ (m.o ∈ PieceRules.pieces impl b c ∧
      m._promotion = PieceRules.listed_promotion impl.type m) := by
  unfold PieceRules.list_all_moves at h
  generalize PieceRules.pieces impl b c = ps at h ⊢
  induction ps generalizing list with
  | nil => exact Or.inl h
  | cons p ps ih =>
    rw [List.foldl_cons] at h
    rcases ih _ h with h1 | ⟨hq, hadd⟩
    · rcases list_moves_promo impl hi hc hcn p attacked rooks list m h1 with h2 | ⟨h2, h3⟩
      · exact Or.inl h2
      · exact Or.inr ⟨by rw [h2]; exact List.mem_cons_self _ _, h3⟩
    · exact Or.inr ⟨List.mem_cons_of_mem _ hq, hadd⟩

/-- The promotion of a move of `Rules::list_moves` on a consistent board is the one that the
type of the piece on its origin and its destination give. -/
theorem listed_promotion_eq {b : Board} (hc : Consistent b) (ht : b.turn ≠ Color.None)
    (s : EvalScratch) {m : Move} (h : m ∈ Rules.list_moves b s []) :
    m._promotion = PieceRules.listed_promotion (b._squares m.o).type m := by
  have key : ∀ impl, Rules.Impl impl → m.o ∈ PieceRules.pieces impl b b.turn →
      m._promotion = PieceRules.listed_promotion impl.type m →
      m._promotion = PieceRules.listed_promotion (b._squares m.o).type m := by
    intro impl _ hmem hp
    have hmem2 : m.o ∈ b._pieces_table b.turn impl.type := hmem
    obtain ⟨⟨h0, h64⟩, _, ppl⟩ := (lists_mem hc ht impl.type m.o).mp hmem2
    rw [position_pl_valid b h0 h64] at ppl
    have hty : (b._squares m.o).type = impl.type := congrArg Prod.fst ppl
    rw [hty]
    exact hp
  unfold Rules.list_moves at h
  simp only [] at h
  rcases list_all_moves_promo KingImpl (Or.inr (Or.inr (Or.inr (Or.inr (Or.inr rfl))))) hc ht
    _ _ _ m h with h | h
  · rcases list_all_moves_promo QueenImpl (Or.inr (Or.inr (Or.inr (Or.inr (Or.inl rfl))))) hc ht
      _ _ _ m h with h | h
    · rcases list_all_moves_promo RookImpl (Or.inr (Or.inr (Or.inr (Or.inl rfl)))) hc ht
        _ _ _ m h with h | h
      · rcases list_all_moves_promo BishopImpl (Or.inr (Or.inr (Or.inl rfl))) hc ht
          _ _ _ m h with h | h
        · rcases list_all_moves_promo KnightImpl (Or.inr (Or.inl rfl)) hc ht
            _ _ _ m h with h | h
          · rcases list_all_moves_promo PawnImpl (Or.inl rfl) hc ht _ _ _ m h with h | h
            · exact absurd h (List.not_mem_nil _)
            · exact key _ (Or.inl rfl) h.1 h.2
          · exact key _ (Or.inr (Or.inl rfl)) h.1 h.2
        · exact key _ (Or.inr (Or.inr (Or.inl rfl))) h.1 h.2
      · exact key _ (Or.inr (Or.inr (Or.inr (Or.inl rfl)))) h.1 h.2
    · exact key _ (Or.inr (Or.inr (Or.inr (Or.inr (Or.inl rfl))))) h.1 h.2
  · exact key _ (Or.inr (Or.inr (Or.inr (Or.inr (Or.inr rfl))))) h.1 h.2

/-- C14: on a board whose squares, piece lists and bitboards agree, and for a move `m` such
that the calls of `is_legal_move` in the loop of `pretty_move` return, the loop ends with flags
`f`; when `pretty_move` returns a text for a move that it does not write as a castle, the text
is the piece letter (no letter for a pawn), then the file of the origin when
`include_orig_file` holds, then the rank of the origin when `include_orig_rank` holds, then the
rest; and every other square `q` with a piece of the type and colour of the moved piece whose
move to the same destination (with the same promotion) `is_legal_move` accepts differs from
the origin in an emitted qualifier: the file is emitted and the file of `q` is another one, or
the rank is emitted and the rank of `q` is another one.  So, when a side is to move and `m` is
a legal move (a move of `list_moves` that `is_legal_move` accepts), every other legal move `n`
of a piece of the same type to the same destination has an origin that differs from the one of
`m` in an emitted qualifier. -/
theorem C14_qualifiers_identify_origin (Z : ZobristTables) (b : Board) (m : Move)
    (hc : Consistent b)
    (hret : ∀ p ∈ Board.pieces b (b._squares m.o).owner (b._squares m.o).type, p ≠ m.o →
      (Rules.is_legal_move Z b (Rules.make_scratch b) ⟨p, m.d, Move.promotion m⟩).isSome
        = true) :
    ∃ f : Bool × Bool × Bool,
      Rules.pretty_move_others Z b (Rules.make_scratch b) m
        (Board.pieces b (b._squares m.o).owner (b._squares m.o).type) (false, false, false)
          = some f ∧
      (∀ out, Rules.pretty_move Z b m = some out →
        ¬((b._squares m.o).type = PieceType.KING ∧ Place.col m.o = 4 ∧
            (Place.col m.d = 6 ∨ Place.col m.d = 2)) →
        ∃ rest, out =
          (if (b._squares m.o).type ≠ PieceType.PAWN
            then [piece_to_letter (b._squares m.o).type] else [])
          ++ (if Rules.include_orig_file (b._squares m.o).type
                (decide ((b._squares m.d).type ≠ PieceType.CLEAR)) f
              then [char_plus (Move.oc m) 'a'] else [])
          ++ (if Rules.include_orig_rank f then [char_plus (Move.ol m) '1'] else [])
          ++ rest) ∧
      (∀ q : Int, 0 ≤ q → q < 64 → q ≠ m.o →
        (b._squares q).type = (b._squares m.o).type →
        (b._squares q).owner = (b._squares m.o).owner →
        Rules.is_legal_move Z b (Rules.make_scratch b) ⟨q, m.d, Move.promotion m⟩ = some true →
        (Rules.include_orig_file (b._squares m.o).type
            (decide ((b._squares m.d).type ≠ PieceType.CLEAR)) f = true ∧
          Place.col q ≠ Place.col m.o) ∨
        (Rules.include_orig_rank f = true ∧ Place.line q ≠ Place.line m.o)) ∧
      (b.turn ≠ Color.None → Rules.Legal Z b m →
        ∀ n : Move, Rules.Legal Z b n → n.o ≠ m.o → n.d = m.d →
          (b._squares n.o).type = (b._squares m.o).type →
          (Rules.include_orig_file (b._squares m.o).type
              (decide ((b._squares m.d).type ≠ PieceType.CLEAR)) f = true ∧
            Place.col n.o ≠ Place.col m.o) ∨
          (Rules.include_orig_rank f = true ∧ Place.line n.o ≠ Place.line m.o)) := by
  obtain ⟨f, hf⟩ := pretty_move_others_some Z b (Rules.make_scratch b) m
    (Board.pieces b (b._squares m.o).owner (b._squares m.o).type) (false, false, false) hret
  obtain ⟨_, _, _, h4⟩ := pretty_move_others_spec Z b (Rules.make_scratch b) m _ _ f hf
  have hq : ∀ q : Int, 0 ≤ q → q < 64 → q ≠ m.o →
      (b._squares q).type = (b._squares m.o).type →
      (b._squares q).owner = (b._squares m.o).owner →
      Rules.is_legal_move Z b (Rules.make_scratch b) ⟨q, m.d, Move.promotion m⟩ = some true →
      (Rules.include_orig_file (b._squares m.o).type
          (decide ((b._squares m.d).type ≠ PieceType.CLEAR)) f = true ∧
        Place.col q ≠ Place.col m.o) ∨
      (Rules.include_orig_rank f = true ∧ Place.line q ≠ Place.line m.o) := by
    intro q h0 h1 hne ht ho hl
    have hcl : (b._squares q).type ≠ PieceType.CLEAR := legal_origin_not_clear hl
    have hmem := mem_pieces_of_square hc h0 h1 hcl
    rw [ht, ho] at hmem
    obtain ⟨g1, g2, g3⟩ := h4 q hmem hne hl
    have el : ∀ x : Int, Place.line x = x / 8 := fun _ => rfl
    have ec : ∀ x : Int, Place.col x = x % 8 := fun _ => rfl
    unfold Rules.include_orig_file Rules.include_orig_rank
    by_cases hcq : Place.col q = Place.col m.o
    · right
      refine ⟨g3 hcq.symm, fun hlq => hne ?_⟩
      rw [el, el] at hlq
      rw [ec, ec] at hcq
      omega
    · by_cases h22 : f.2.2 = true
      · by_cases h21 : f.2.1 = true
        · left
          exact ⟨by simp [g1, h22, h21], hcq⟩
        · right
          exact ⟨h22, fun hlq => h21 (g2 hlq.symm)⟩
      · left
        exact ⟨by simp [g1, h22], hcq⟩
  refine ⟨f, hf, ?_, hq, ?_⟩
  · intro out hout hcastle
    unfold Rules.pretty_move at hout
    simp only [] at hout
    rw [if_neg (fun h => hcastle ⟨h.1, h.2.1, Or.inl h.2.2⟩),
      if_neg (fun h => hcastle ⟨h.1, h.2.1, Or.inr h.2.2⟩), hf] at hout
    simp only [] at hout
    have hbody : ∀ tail : List Char, ∃ rest, Rules.pretty_move_body b m f ++ tail =
        (if (b._squares m.o).type ≠ PieceType.PAWN
          then [piece_to_letter (b._squares m.o).type] else [])
        ++ (if Rules.include_orig_file (b._squares m.o).type
              (decide ((b._squares m.d).type ≠ PieceType.CLEAR)) f
            then [char_plus (Move.oc m) 'a'] else [])
        ++ (if Rules.include_orig_rank f then [char_plus (Move.ol m) '1'] else [])
        ++ rest := by
      intro tail
      unfold Rules.pretty_move_body
      simp only [List.append_assoc]
      exact ⟨_, rfl⟩
    cases hmv : Board.move Z b m with
    | none => rw [hmv] at hout; cases hout
    | some r =>
      rw [hmv] at hout
      simp only [] at hout
      cases hres : Rules.result Z r.1 (Rules.make_scratch r.1) with
      | none => rw [hres] at hout; cases hout
      | some g =>
        rw [hres] at hout
        cases g with
        | WhiteWon => simp only [Option.some.injEq] at hout; rw [← hout]; exact hbody _
        | BlackWon => simp only [Option.some.injEq] at hout; rw [← hout]; exact hbody _
        | Draw => simp only [Option.some.injEq] at hout; rw [← hout]; exact hbody _
        | NotFinished =>
          simp only [Option.some.injEq] at hout
          rw [← hout]
          cases Rules.is_check r.1 (Rules.make_scratch r.1) with
          | true => rw [if_pos rfl]; exact hbody _
          | false =>
            rw [if_neg (by decide)]
            obtain ⟨rest, hr⟩ := hbody []
            rw [List.append_nil] at hr
            exact ⟨rest, hr⟩
  · intro htn hm n hn hno hnd hty
    have lm := listed_of_list_moves hc htn (Rules.make_scratch b) hm.1
    have ln := listed_of_list_moves hc htn (Rules.make_scratch b) hn.1
    have pm := listed_promotion_eq hc htn (Rules.make_scratch b) hm.1
    have pn := listed_promotion_eq hc htn (Rules.make_scratch b) hn.1
    have hpe : n._promotion = m._promotion := by
      rw [pm, pn, hty]
      unfold PieceRules.listed_promotion Move.dl
      rw [hnd]
    have hn2 : n = ⟨n.o, m.d, Move.promotion m⟩ := by
      cases n
      simp only [Move.promotion] at hnd hpe ⊢
      rw [hnd, hpe]
    have hon : (b._squares n.o).owner = (b._squares m.o).owner := by
      have a1 := ln.own.2
      have a2 := lm.own.2
      rw [position_pl_valid b ln.o_valid.1 ln.o_valid.2] at a1
      rw [position_pl_valid b lm.o_valid.1 lm.o_valid.2] at a2
      exact a1.trans a2.symm
    have hl := hn.2
    rw [hn2] at hl
    exact hq n.o ln.o_valid.1 ln.o_valid.2 hno hty hon hl

theorem two_rooks_fromFen : Board.FromFen Z0 (Board.two_rooks Z0) :=
  ⟨"k7/pppppppp/8/8/R7/8/7K/R7 w".toList, by decide!, of_fen_spec (by decide!)⟩

set_option maxRecDepth 1000000 in
set_option maxHeartbeats 4000000 in
/-- C14 at the board `k7/pppppppp/8/8/R7/8/7K/R7 w` and the move a1a3: the text is `R1a3`, and
the rook on a4, the other piece that may go to a3, is on another rank than the emitted one. -/
theorem C14_qualifiers_identify_origin_witness :
    Consistent (Board.two_rooks Z0) ∧
    Rules.pretty_move Z0 (Board.two_rooks Z0) ⟨0, 16, PieceType.CLEAR⟩
      = some ['R', '1', 'a', '3'] ∧
    Rules.is_legal_move Z0 (Board.two_rooks Z0) (Rules.make_scratch (Board.two_rooks Z0))
      ⟨24, 16, PieceType.CLEAR⟩ = some true ∧
    ∃ f : Bool × Bool × Bool,
      Rules.pretty_move_others Z0 (Board.two_rooks Z0) (Rules.make_scratch (Board.two_rooks Z0))
        ⟨0, 16, PieceType.CLEAR⟩
        (Board.pieces (Board.two_rooks Z0) Color.White PieceType.ROOK) (false, false, false)
          = some f ∧
      ∀ q : Int, 0 ≤ q → q < 64 → q ≠ 0 →
        ((Board.two_rooks Z0)._squares q).type = PieceType.ROOK →
        ((Board.two_rooks Z0)._squares q).owner = Color.White →
        Rules.is_legal_move Z0 (Board.two_rooks Z0) (Rules.make_scratch (Board.two_rooks Z0))
          ⟨q, 16, PieceType.CLEAR⟩ = some true →
        (Rules.include_orig_file PieceType.ROOK false f = true ∧ Place.col q ≠ 0) ∨
        (Rules.include_orig_rank f = true ∧ Place.line q ≠ 0) := by
  have hc : Consistent (Board.two_rooks Z0) := (fromFen_inv Z0 _ two_rooks_fromFen).1
  have hret : ∀ p ∈ Board.pieces (Board.two_rooks Z0)
      (((Board.two_rooks Z0)._squares (⟨0, 16, PieceType.CLEAR⟩ : Move).o).owner)
      (((Board.two_rooks Z0)._squares (⟨0, 16, PieceType.CLEAR⟩ : Move).o).type),
      p ≠ (⟨0, 16, PieceType.CLEAR⟩ : Move).o →
      (Rules.is_legal_move Z0 (Board.two_rooks Z0) (Rules.make_scratch (Board.two_rooks Z0))
        ⟨p, (⟨0, 16, PieceType.CLEAR⟩ : Move).d,
          Move.promotion (⟨0, 16, PieceType.CLEAR⟩ : Move)⟩).isSome = true := by decide!
  have h1 : Rules.pretty_move Z0 (Board.two_rooks Z0) ⟨0, 16, PieceType.CLEAR⟩
      = some ['R', '1', 'a', '3'] := by decide!
  have h2 : Rules.is_legal_move Z0 (Board.two_rooks Z0)
      (Rules.make_scratch (Board.two_rooks Z0)) ⟨24, 16, PieceType.CLEAR⟩ = some true := by
    decide!
  have e1 : ((Board.two_rooks Z0)._squares (0 : Int)).type = PieceType.ROOK := by decide!
  have e2 : ((Board.two_rooks Z0)._squares (0 : Int)).owner = Color.White := by decide!
  have e3 : ((Board.two_rooks Z0)._squares (16 : Int)).type = PieceType.CLEAR := by decide!
  obtain ⟨f, hf, _, hq, _⟩ := C14_qualifiers_identify_origin Z0 (Board.two_rooks Z0)
    ⟨0, 16, PieceType.CLEAR⟩ hc hret
  simp only [e1, e2, e3] at hf hq
  refine ⟨hc, h1, h2, f, hf, fun q h0 h64 hne ht ho hl => ?_⟩
  have := hq q h0 h64 hne ht ho hl
  simpa using this

/-- C28 fails on the code: on a board whose `history` holds 1024 keys, so that
`is_history_full()` is true, `move()` does not refuse any move: `Board::move` never reads
`is_history_full()`, its statement `history.push_back(_hash_key)` writes at the index
`history.size()` = 1024 of the 1024 slots of `_array` (the `assert(!full())` of
`StaticVector::push_back` is commented out), and the call leaves the defined behaviour there
(the value `none` of the embedding) instead of returning with an unchanged board. -/
theorem C28_move_writes_past_full_history (Z : ZobristTables) (m : Move) :
    Board.is_history_full (Board.full_history Z) = true ∧
    (Board.full_history Z).history.length = History.cap ∧
    Board.move Z (Board.full_history Z) m = none := by
  have hl : (Board.full_history Z).history.length = 1024 := by
    show (List.replicate 1024 0).length = 1024
    exact List.length_replicate _ _
  refine ⟨?_, hl, move_none_of_full Z _ m (by rw [hl]; decide)⟩
  unfold Board.is_history_full
  rw [hl]
  decide

theorem pieces_key_congr (Z : ZobristTables) {pl pl2 : Int → PieceType × Color}
    (h : ∀ q : Int, 0 ≤ q → q < 64 → pl2 q = pl q) : pieces_key Z pl2 = pieces_key Z pl := by
  unfold pieces_key
  apply List.foldl_ext
  intro k i hi
  have h64 : i < 64 := List.mem_range.mp hi
  rw [h (i : Int) (Int.natCast_nonneg i) (by omega)]

theorem set_fen_six_key (Z : ZobristTables) {fen p c e h f : List Char} {t : Char}
    (hsp : split_space fen = [p, [t], c, e, h, f]) {s : Board × Int × Int}
    (hpl : Board.set_fen_placement Z p (Board.clear, 7, 0) = some s) {fl : CastleFlags}
    (hf : (if c = ['-'] then some s.1.castle_flags
      else Board.set_fen_castle c s.1.castle_flags) = some fl) {pp : Int}
    (hpp : (if e = ['-'] then some s.1.passan_place else Place.of_string e) = some pp)
    {n : Int} (hn : stoi f = some n) :
    ∃ b' : Board, Board.set_fen Z fen = some (Except.ok b') ∧
      b'._hash_key =
        (if (if tolower t = 'w' then Color.White else Color.Black) = Color.Black
          then s.1._hash_key ^^^ Z.hash_code_turn else s.1._hash_key)
        ^^^ CastleFlags.hash Z fl := by
  unfold Board.set_fen
  rw [hsp]
  simp only [hpl, Option.some_bind]
  split
  · rename_i heq
    exact absurd (hf.symm.trans heq) (by simp)
  · rename_i f1 heq
    obtain rfl : fl = f1 := Option.some.inj (hf.symm.trans heq)
    split
    · rename_i heq2
      exact absurd (hpp.symm.trans heq2) (by simp)
    · rename_i p1 heq2
      obtain rfl : pp = p1 := Option.some.inj (hpp.symm.trans heq2)
      rw [hn, Option.map_some']
      exact ⟨_, rfl, rfl⟩

/-- C29 fails on the code: `set_fen` stores the en-passant square and never adds its
`passant_hash` to the key, while `move()` does.  For every board `b` with the Board invariants
whose key is the key recomputed from scratch (as on every board reached from the initial
position by `move()` calls), `set_fen(b.to_fen())` on a fresh board yields a board `b2` with the
same piece on every square, the same side to move, the same castling rights and the same
en-passant square, and `b.hash_key()` is `b2.hash_key()` XOR `passant_hash` of the en-passant
square when one is set: the two keys differ whenever that table entry is not 0. -/
theorem C29_set_fen_key_omits_en_passant (Z : ZobristTables) (b : Board) (hc : Consistent b)
    (hcap : CapOk b) (ht : b.turn ≠ Color.None)
    (hh : Board.hash_key b = Board.key_from_scratch Z b) (hf : b.castle_flags < 16)
    (hp : Place.is_valid b.passan_place = true ∨ b.passan_place = Place.invalid)
    (h0 : 0 ≤ Board.ply b) (h1 : Board.ply b ≤ 2147483647) :
    ∃ b2 : Board, Board.set_fen Z (Board.to_fen b) = some (Except.ok b2) ∧
      (∀ q : Int, 0 ≤ q → q < 64 →
        (b2._squares q).type = (b._squares q).type ∧
        (b2._squares q).owner = (b._squares q).owner) ∧
      b2.turn = b.turn ∧ b2.castle_flags = b.castle_flags ∧
      b2.passan_place = b.passan_place ∧
      Board.hash_key b = Board.hash_key b2 ^^^
        (if Place.is_valid b.passan_place then Z.passant_hash b.passan_place else 0) := by
  obtain ⟨bk, hpl, hi, hag, hns⟩ := placement_roundtrip Z hc hcap
  obtain ⟨f1, f2, f3, f4, f5, f6⟩ := hi.fresh
  have hP : Board.to_fen_placement b ≠ [] := by
    intro h
    rw [h] at hpl
    have h7 : (7 : Int) = 0 :=
      congrArg (fun x : Board × Int × Int => x.2.1) (Option.some.inj hpl)
    exact absurd h7 (by decide)
  obtain ⟨c1, c2, c3⟩ := castle_field_spec hf
  obtain ⟨e1, e2, e3⟩ := passant_field_spec hp
  have hk0 : 0 ≤ Int.tdiv (Board.ply b) 2 := by
    rw [Int.tdiv_eq_ediv h0 (by decide)]; omega
  have hk1 : Int.tdiv (Board.ply b) 2 ≤ 1073741823 := by
    rw [Int.tdiv_eq_ediv h0 (by decide)]; omega
  obtain ⟨n1, n2, n3⟩ := stoi_format_int (n := Int.tdiv (Board.ply b) 2 + 1) (by omega)
    (by omega)
  have hT : ∀ x ∈ [if b.turn = Color.White then 'w' else 'b'], x ≠ ' ' := by
    intro x hx
    rw [List.mem_singleton.mp hx]
    split_ifs <;> decide
  have hsp := split_space_six hns hT c2 e2 (h := ['0']) (by decide) n3 hP (by simp) c1 e1
    (by simp) n2
  rw [← to_fen_fields] at hsp
  rw [← f2] at c3
  rw [← f3] at e3
  obtain ⟨b', g1, g2, g3, g4, g5, g6, g7⟩ := set_fen_six Z hsp hpl c3 e3 n1
  obtain ⟨b'', k1, k2⟩ := set_fen_six_key Z hsp hpl c3 e3 n1
  obtain rfl : b' = b'' := by
    have := g1.symm.trans k1
    exact Except.ok.inj (Option.some.inj this)
  have hturn : (if tolower (if b.turn = Color.White then 'w' else 'b') = 'w'
      then Color.White else Color.Black) = b.turn := by
    cases hbt : b.turn
    · decide
    · decide
    · exact absurd hbt ht
  rw [hturn] at g3 k2
  have hsq : ∀ q : Int, 0 ≤ q → q < 64 →
      (b'._squares q).type = (b._squares q).type ∧
      (b'._squares q).owner = (b._squares q).owner := by
    intro q q0 q64
    rw [g2]
    exact hag q q0 q64
  refine ⟨b', g1, hsq, g3, g4, g5, ?_⟩
  have hkey : bk._hash_key = pieces_key Z b.position.pl := by
    have hk := hi.key
    unfold KeyInv at hk
    rw [hk, Nat.xor_zero]
    apply pieces_key_congr
    intro q q0 q64
    rw [position_pl_valid bk q0 q64, position_pl_valid b q0 q64, (hag q q0 q64).1,
      (hag q q0 q64).2]
  rw [key_from_scratch_eq] at hh
  unfold Board.hash_key at hh ⊢
  rw [hh, k2, hkey]
  unfold zobrist CastleFlags.hash
  have e5 : b.position.turn = b.turn := rfl
  have e6 : b.position.castle_flags = b.castle_flags := rfl
  have e7 : b.position.passan_place = b.passan_place := rfl
  rw [e5, e6, e7]
  by_cases hb : b.turn = Color.Black
  · rw [if_pos hb, if_pos hb]
  · rw [if_neg hb, if_neg hb, Nat.xor_zero]

set_option maxRecDepth 1000000 in
set_option maxHeartbeats 4000000 in
/-- C29 at the example of the claim, with the sample tables: the board after 1. e4 from the
initial position is reached by a legal move and has the en-passant square e3; the board that
`set_fen` loads from its `to_fen()` output has the same en-passant square, and the two keys
differ by `passant_hash[e3]`. -/
theorem C29_set_fen_key_omits_en_passant_witness :
    Reach Z0 (Board.IsInitial Z0) (Rules.Legal Z0)
      (Board.after Z0 (Board.start Z0) ⟨12, 28, PieceType.CLEAR⟩).1
      [(⟨12, 28, PieceType.CLEAR⟩,
        (Board.after Z0 (Board.start Z0) ⟨12, 28, PieceType.CLEAR⟩).2)] ∧
    Board.to_fen (Board.after Z0 (Board.start Z0) ⟨12, 28, PieceType.CLEAR⟩).1
      = "rnbqkbnr/pppppppp/8/8/4P3/8/PPPP1PPP/RNBQKBNR b KQkq e3 0 1".toList ∧
    ∃ b2 : Board,
      Board.set_fen Z0
        (Board.to_fen (Board.after Z0 (Board.start Z0) ⟨12, 28, PieceType.CLEAR⟩).1)
          = some (Except.ok b2) ∧
      b2.passan_place = 20 ∧
      Board.hash_key (Board.after Z0 (Board.start Z0) ⟨12, 28, PieceType.CLEAR⟩).1
        = Board.hash_key b2 ^^^ Z0.passant_hash 20 ∧
      Board.hash_key (Board.after Z0 (Board.start Z0) ⟨12, 28, PieceType.CLEAR⟩).1
        ≠ Board.hash_key b2 := by
  have h0 : Reach Z0 (Board.IsInitial Z0) (Rules.Legal Z0) (Board.start Z0) [] :=
    Reach.init (start_initial Z0)
  have hr := reach_after h0
    (show Rules.Legal Z0 (Board.start Z0) ⟨12, 28, PieceType.CLEAR⟩ from
      ⟨by decide!, by decide!⟩) (by decide!)
  obtain ⟨hc, hcap, ht, _⟩ := reach_inv Z0 (initial_inv Z0) (legal_listed Z0) hr
  have hh : HashInv Z0 (Board.after Z0 (Board.start Z0) ⟨12, 28, PieceType.CLEAR⟩).1 :=
    reach_hash Z0 (initial_inv Z0) (legal_listed Z0) (HashInv Z0) (Or.inl rfl)
      (fun x hx => (set_initial_inv Z0 hx).2.2.2.2.2) hr
  have hfen : Board.to_fen (Board.after Z0 (Board.start Z0) ⟨12, 28, PieceType.CLEAR⟩).1
      = "rnbqkbnr/pppppppp/8/8/4P3/8/PPPP1PPP/RNBQKBNR b KQkq e3 0 1".toList := by decide!
  have hpp : (Board.after Z0 (Board.start Z0) ⟨12, 28, PieceType.CLEAR⟩).1.passan_place = 20 := by
    decide!
  obtain ⟨b2, g1, _, _, _, g5, g6⟩ := C29_set_fen_key_omits_en_passant Z0
    (Board.after Z0 (Board.start Z0) ⟨12, 28, PieceType.CLEAR⟩).1 hc hcap ht
    ((key_from_scratch_eq Z0 _).symm ▸ hh) (by decide!) (Or.inl (by decide!)) (by decide!)
    (by decide!)
  rw [hpp] at g5 g6
  have hv : Place.is_valid 20 = true := by decide
  rw [if_pos hv] at g6
  refine ⟨hr, hfen, b2, g1, g5, g6, fun he => ?_⟩
  rw [he] at g6
  have hx : Z0.passant_hash 20 = 0 := by
    have := congrArg (fun x => Board.hash_key b2 ^^^ x) g6
    simp only [Nat.xor_self] at this
    rw [← Nat.xor_assoc, Nat.xor_self, Nat.zero_xor] at this
    exact this.symm
  exact absurd hx (by decide)

set_option maxRecDepth 1000000 in
set_option maxHeartbeats 4000000 in
/-- C30 fails on the code at the board `4k3/8/8/8/8/8/4p3/K7 w - -` and the colour Black: the
black pawn on e2 attacks d1 and f1, which are empty, and not e1, the square straight ahead of
it; the attack bitboard that `make_scratch` stores for Black (`Rules::attacks_bb`) holds
neither d1 nor f1 and it holds e1, because `PawnImpl::attacks_bb` is
`get_pawn_capture_promotion_moves`: the capture squares that are occupied, and the promotion
square straight ahead when it is empty. -/
theorem C30_pawn_attack_set_misses_empty_diagonals :
    ((Board.pawn_before_promotion Z0)._squares 12).type = PieceType.PAWN ∧
    ((Board.pawn_before_promotion Z0)._squares 12).owner = Color.Black ∧
    ((Board.pawn_before_promotion Z0)._squares 3).type = PieceType.CLEAR ∧
    ((Board.pawn_before_promotion Z0)._squares 4).type = PieceType.CLEAR ∧
    ((Board.pawn_before_promotion Z0)._squares 5).type = PieceType.CLEAR ∧
    (Rules.make_scratch (Board.pawn_before_promotion Z0)).get Color.Black
      = Rules.attacks_bb (Board.pawn_before_promotion Z0) Color.Black ∧
    BitBoard.is_set (Rules.attacks_bb (Board.pawn_before_promotion Z0) Color.Black) 3 = false ∧
    BitBoard.is_set (Rules.attacks_bb (Board.pawn_before_promotion Z0) Color.Black) 5 = false ∧
    BitBoard.is_set (Rules.attacks_bb (Board.pawn_before_promotion Z0) Color.Black) 4 = true ∧
    Rules.attacks_bb (Board.pawn_before_promotion Z0) Color.Black
      = BitBoard.bit 4 ||| BitBoard.bit 51 ||| BitBoard.bit 52 ||| BitBoard.bit 53
        ||| BitBoard.bit 59 ||| BitBoard.bit 61 := by
  refine ⟨by decide!, by decide!, by decide!, by decide!, by decide!, rfl, by decide!,
    by decide!, by decide!, by decide!⟩

theorem find_key_swaps_eq (a : hash_bucket) (i : Nat) :
    TranspositionTable.find_key_swaps a i = TranspositionTable.to_front a i := by
  induction i generalizing a with
  | zero =>
    funext k
    unfold TranspositionTable.find_key_swaps TranspositionTable.to_front
    split_ifs <;> first | rfl | (exfalso; omega) | congr 1
  | succ j ih =>
    unfold TranspositionTable.find_key_swaps
    rw [ih]
    funext k
    unfold TranspositionTable.to_front TranspositionTable.swap
    split_ifs <;> first | rfl | (exfalso; omega) | (congr 1; omega)

theorem find_key_go_none (key : Nat) (a : hash_bucket) : ∀ (n i : Nat),
    TranspositionTable.find_key_go key a n i = none ↔
      ∀ j, i ≤ j → j < i + n → (a j).hash_key ≠ key := by
  intro n
  induction n with
  | zero =>
    intro i
    unfold TranspositionTable.find_key_go
    exact ⟨fun _ j h1 h2 => by omega, fun _ => rfl⟩
  | succ n ih =>
    intro i
    unfold TranspositionTable.find_key_go
    by_cases h : (a i).hash_key = key
    · rw [if_pos h]
      constructor
      · intro hs; cases hs
      · intro hh; exact absurd h (hh i (le_refl _) (by omega))
    · rw [if_neg h, ih]
      constructor
      · intro hh j h1 h2
        by_cases hj : j = i
        · rw [hj]; exact h
        · exact hh j (by omega) (by omega)
      · intro hh j h1 h2
        exact hh j (by omega) (by omega)

theorem find_key_go_some (key : Nat) (a : hash_bucket) : ∀ (n i j : Nat),
    i ≤ j → j < i + n → (a j).hash_key = key → (∀ k, i ≤ k → k < j → (a k).hash_key ≠ key) →
    TranspositionTable.find_key_go key a n i = some (TranspositionTable.to_front a j) := by
  intro n
  induction n with
  | zero => intro i j h1 h2; omega
  | succ n ih =>
    intro i j h1 h2 h3 h4
    unfold TranspositionTable.find_key_go
    by_cases h : (a i).hash_key = key
    · rw [if_pos h]
      have hij : j = i := by
        by_contra hne
        exact h4 i (le_refl _) (by omega) h
      rw [hij, find_key_swaps_eq]
    · rw [if_neg h]
      have hij : j ≠ i := fun e => h (e ▸ h3)
      exact ih (i + 1) j (by omega) (by omega) h3 (fun k k1 k2 => h4 k (by omega) k2)

/-- The two outcomes of `find_key`: the null pointer when no slot holds the key; the bucket
with the first slot that holds the key moved to the front otherwise. -/
theorem find_key_spec (key : Nat) (a : hash_bucket) :
    (TranspositionTable.find_key key a = none ∧ ∀ j, j < BUCKET_SIZE → (a j).hash_key ≠ key) ∨
    (∃ i, i < BUCKET_SIZE ∧ (a i).hash_key = key ∧ (∀ k, k < i → (a k).hash_key ≠ key) ∧
      TranspositionTable.find_key key a = some (TranspositionTable.to_front a i)) := by
  unfold TranspositionTable.find_key
  by_cases h : ∀ j, j < BUCKET_SIZE → (a j).hash_key ≠ key
  · left
    refine ⟨(find_key_go_none key a BUCKET_SIZE 0).2 (fun j _ h2 => h j (by omega)), h⟩
  · right
    simp only [not_forall] at h
    have hex : ∃ j, j < BUCKET_SIZE ∧ (a j).hash_key = key := by
      obtain ⟨j, hj, hk⟩ := h
      exact ⟨j, hj, not_not.mp hk⟩
    classical
    refine ⟨Nat.find hex, (Nat.find_spec hex).1, (Nat.find_spec hex).2, ?_, ?_⟩
    · intro k hk he
      exact Nat.find_min hex hk ⟨lt_trans hk (Nat.find_spec hex).1, he⟩
    · apply find_key_go_some key a BUCKET_SIZE 0 _ (Nat.zero_le _)
        (by have := (Nat.find_spec hex).1; omega) (Nat.find_spec hex).2
      intro k _ hk he
      exact Nat.find_min hex hk ⟨lt_trans hk (Nat.find_spec hex).1, he⟩

theorem write0_zero (x : hash_slot) (a : hash_bucket) : TranspositionTable.write0 x a 0 = x :=
  rfl

theorem write0_pos (x : hash_slot) (a : hash_bucket) {k : Nat} (hk : k ≠ 0) :
    TranspositionTable.write0 x a k = a k := by
  unfold TranspositionTable.write0
  rw [if_neg hk]

theorem insert_eq (t : TranspositionTable) (board : Board) (depth lower_bound upper_bound : Int)
    (move : Move) :
    TranspositionTable.insert t board depth lower_bound upper_bound move
      = TranspositionTable.set_bucket t board
          (TranspositionTable.inserted (TranspositionTable.get_board_hash t board) depth
            lower_bound upper_bound move (TranspositionTable.get_bucket t board)) := by
  unfold TranspositionTable.insert TranspositionTable.inserted
  simp only []
  cases TranspositionTable.find_key (TranspositionTable.get_board_hash t board)
      (TranspositionTable.get_bucket t board) with
  | none => rfl
  | some a1 =>
    simp only []
    split_ifs <;> rfl

theorem get_bucket_set_bucket (t : TranspositionTable) (board : Board) (a : hash_bucket) :
    TranspositionTable.get_bucket (TranspositionTable.set_bucket t board a) board = a := by
  unfold TranspositionTable.get_bucket TranspositionTable.set_bucket
    TranspositionTable.bucket_index TranspositionTable.get_board_hash
  simp

theorem shift_right_three (a : hash_bucket) :
    TranspositionTable.shift_right a (BUCKET_SIZE - 1) 1 = a 0 ∧
    TranspositionTable.shift_right a (BUCKET_SIZE - 1) 2 = a 1 ∧
    TranspositionTable.shift_right a (BUCKET_SIZE - 1) 3 = a 2 := by
  refine ⟨rfl, rfl, rfl⟩

/-- C22: for every table, every board and every `insert(board, depth, lower, upper, move)`,
with `a` the bucket of the board before the call, `a2` the bucket after it and `key` the
board's key XOR `mask`: when slot `i` is the first slot of `a` that holds `key` (the slot that
`find_key` finds), then with a greater depth in that slot the slot is unchanged, with an equal
depth its bounds become `[max(old lower, lower), min(old upper, upper)]` and its move `move`,
with a smaller depth it holds the new values, and in the three cases it is in slot 0, the slots
before `i` are moved one place up and the slots after `i` stay; when no slot holds `key`, the
new entry is in slot 0, the former slots 0, 1, 2 are in the slots 1, 2, 3 and the former slot
3 is dropped.  In every case slot 0 holds `key` afterwards, and nothing else of the table
changes. -/
theorem C22_insert_policy (t : TranspositionTable) (board : Board)
    (depth lower_bound upper_bound : Int) (move : Move) :
    (∀ i, i < BUCKET_SIZE →
      (TranspositionTable.get_bucket t board i).hash_key
        = TranspositionTable.get_board_hash t board →
      (∀ k, k < i → (TranspositionTable.get_bucket t board k).hash_key
        ≠ TranspositionTable.get_board_hash t board) →
      ((TranspositionTable.get_bucket t board i).depth > depth →
        TranspositionTable.get_bucket
          (TranspositionTable.insert t board depth lower_bound upper_bound move) board 0
          = TranspositionTable.get_bucket t board i) ∧
      ((TranspositionTable.get_bucket t board i).depth = depth →
        TranspositionTable.get_bucket
          (TranspositionTable.insert t board depth lower_bound upper_bound move) board 0
          = ⟨TranspositionTable.get_board_hash t board,
              max lower_bound (TranspositionTable.get_bucket t board i).lower_bound,
              min upper_bound (TranspositionTable.get_bucket t board i).upper_bound,
              depth, move⟩) ∧
      ((TranspositionTable.get_bucket t board i).depth < depth →
        TranspositionTable.get_bucket
          (TranspositionTable.insert t board depth lower_bound upper_bound move) board 0
          = ⟨TranspositionTable.get_board_hash t board, lower_bound, upper_bound, depth,
              move⟩) ∧
      (∀ k, k < i →
        TranspositionTable.get_bucket
          (TranspositionTable.insert t board depth lower_bound upper_bound move) board (k + 1)
          = TranspositionTable.get_bucket t board k) ∧
      (∀ k, i < k →
        TranspositionTable.get_bucket
          (TranspositionTable.insert t board depth lower_bound upper_bound move) board k
          = TranspositionTable.get_bucket t board k)) ∧
    ((∀ i, i < BUCKET_SIZE → (TranspositionTable.get_bucket t board i).hash_key
        ≠ TranspositionTable.get_board_hash t board) →
      TranspositionTable.get_bucket
          (TranspositionTable.insert t board depth lower_bound upper_bound move) board 0
        = ⟨TranspositionTable.get_board_hash t board, lower_bound, upper_bound, depth, move⟩ ∧
      TranspositionTable.get_bucket
          (TranspositionTable.insert t board depth lower_bound upper_bound move) board 1
        = TranspositionTable.get_bucket t board 0 ∧
      TranspositionTable.get_bucket
          (TranspositionTable.insert t board depth lower_bound upper_bound move) board 2
        = TranspositionTable.get_bucket t board 1 ∧
      TranspositionTable.get_bucket
          (TranspositionTable.insert t board depth lower_bound upper_bound move) board 3
        = TranspositionTable.get_bucket t board 2) ∧
    (TranspositionTable.get_bucket
        (TranspositionTable.insert t board depth lower_bound upper_bound move) board 0).hash_key
      = TranspositionTable.get_board_hash t board ∧
    (TranspositionTable.insert t board depth lower_bound upper_bound move).mask = t.mask ∧
    (TranspositionTable.insert t board depth lower_bound upper_bound move).hash_size
      = t.hash_size ∧
    (∀ (c : Color) (i : Nat),
      ¬ (c = board.turn ∧ i = TranspositionTable.bucket_index t board) →
      (TranspositionTable.insert t board depth lower_bound upper_bound move).hash_table c i
        = t.hash_table c i) := by
  rw [insert_eq, get_bucket_set_bucket]
  generalize TranspositionTable.get_bucket t board = a
  generalize TranspositionTable.get_board_hash t board = key
  have hfront0 : ∀ i, TranspositionTable.to_front a i 0 = a i := fun i => rfl
  refine ⟨?_, ?_, ?_, rfl, rfl, ?_⟩
  · intro i hi hk hfirst
    have hfk : TranspositionTable.find_key key a = some (TranspositionTable.to_front a i) := by
      rcases find_key_spec key a with ⟨_, hn⟩ | ⟨j, hj, hjk, hjf, hjs⟩
      · exact absurd hk (hn i hi)
      · have hij : j = i := by
          rcases Nat.lt_trichotomy j i with h | h | h
          · exact absurd hjk (hfirst j h)
          · exact h
          · exact absurd hk (hjf i h)
        rw [← hij]; exact hjs
    unfold TranspositionTable.inserted
    rw [hfk]
    simp only [hfront0]
    refine ⟨fun hd => ?_, fun hd => ?_, fun hd => ?_, fun k hk2 => ?_, fun k hk2 => ?_⟩
    · rw [if_pos hd]; exact hfront0 i
    · rw [if_neg (by omega), write0_zero, if_pos hd, if_pos hd]
    · rw [if_neg (by omega), write0_zero, if_neg (by omega), if_neg (by omega)]
    · by_cases hd : (a i).depth > depth
      · rw [if_pos hd]
        unfold TranspositionTable.to_front
        rw [if_neg (by omega), if_pos (by omega)]
        rfl
      · rw [if_neg hd, write0_pos _ _ (by omega)]
        unfold TranspositionTable.to_front
        rw [if_neg (by omega), if_pos (by omega)]
        rfl
    · by_cases hd : (a i).depth > depth
      · rw [if_pos hd]
        unfold TranspositionTable.to_front
        rw [if_neg (by omega), if_neg (by omega)]
      · rw [if_neg hd, write0_pos _ _ (by omega)]
        unfold TranspositionTable.to_front
        rw [if_neg (by omega), if_neg (by omega)]
  · intro hn
    have hfk : TranspositionTable.find_key key a = none := by
      rcases find_key_spec key a with ⟨h, _⟩ | ⟨j, hj, hjk, _, _⟩
      · exact h
      · exact absurd hjk (hn j hj)
    unfold TranspositionTable.inserted
    rw [hfk]
    obtain ⟨s1, s2, s3⟩ := shift_right_three a
    exact ⟨rfl, s1, s2, s3⟩
  · unfold TranspositionTable.inserted
    rcases find_key_spec key a with ⟨h, _⟩ | ⟨j, hj, hjk, _, hjs⟩
    · rw [h]
      rfl
    · rw [hjs]
      simp only [hfront0]
      by_cases hd : (a j).depth > depth
      · rw [if_pos hd, hfront0]; exact hjk
      · rw [if_neg hd]
        rfl
  · intro c i hci
    unfold TranspositionTable.set_bucket
    simp only []
    rw [if_neg hci]

theorem find_fst (t : TranspositionTable) (board : Board) :
    (TranspositionTable.find t board).1
      = TranspositionTable.first_slot (TranspositionTable.get_board_hash t board)
          (TranspositionTable.get_bucket t board) := by
  unfold TranspositionTable.find TranspositionTable.first_slot
  cases TranspositionTable.find_key (TranspositionTable.get_board_hash t board)
      (TranspositionTable.get_bucket t board) <;> rfl

theorem find_snd (t : TranspositionTable) (board : Board) :
    (TranspositionTable.find t board).2
      = TranspositionTable.set_bucket t board
          ((TranspositionTable.find_key (TranspositionTable.get_board_hash t board)
            (TranspositionTable.get_bucket t board)).getD
              (TranspositionTable.get_bucket t board)) := by
  unfold TranspositionTable.find
  cases h : TranspositionTable.find_key (TranspositionTable.get_board_hash t board)
      (TranspositionTable.get_bucket t board) with
  | some a => rfl
  | none =>
    simp only [Option.getD_none]
    unfold TranspositionTable.set_bucket TranspositionTable.get_bucket
    cases t
    simp only [TranspositionTable.mk.injEq, true_and]
    funext c i
    split_ifs with hci
    · rw [hci.1, hci.2]
    · rfl

theorem first_slot_intro {key : Nat} {a : hash_bucket} {i : Nat} (hi : i < BUCKET_SIZE)
    (hk : (a i).hash_key = key) (hfirst : ∀ k, k < i → (a k).hash_key ≠ key) :
    TranspositionTable.first_slot key a = some (a i) := by
  unfold TranspositionTable.first_slot
  rcases find_key_spec key a with ⟨_, hn⟩ | ⟨j, hj, hjk, hjf, hjs⟩
  · exact absurd hk (hn i hi)
  · have hij : j = i := by
      rcases Nat.lt_trichotomy j i with h | h | h
      · exact absurd hjk (hfirst j h)
      · exact h
      · exact absurd hk (hjf i h)
    rw [hjs, hij]
    rfl

theorem first_slot_some {key : Nat} {a : hash_bucket} {e : hash_slot}
    (h : TranspositionTable.first_slot key a = some e) :
    ∃ i, i < BUCKET_SIZE ∧ (a i).hash_key = key ∧ (∀ k, k < i → (a k).hash_key ≠ key) ∧
      e = a i ∧ TranspositionTable.find_key key a = some (TranspositionTable.to_front a i) := by
  unfold TranspositionTable.first_slot at h
  rcases find_key_spec key a with ⟨hn, _⟩ | ⟨j, hj, hjk, hjf, hjs⟩
  · rw [hn] at h; cases h
  · rw [hjs] at h
    exact ⟨j, hj, hjk, hjf, (Option.some.inj h).symm, hjs⟩

theorem first_slot_none {key : Nat} {a : hash_bucket}
    (h : TranspositionTable.first_slot key a = none) :
    (∀ i, i < BUCKET_SIZE → (a i).hash_key ≠ key) ∧ TranspositionTable.find_key key a = none := by
  unfold TranspositionTable.first_slot at h
  rcases find_key_spec key a with ⟨hn, hall⟩ | ⟨j, hj, hjk, hjf, hjs⟩
  · exact ⟨hall, hn⟩
  · rw [hjs] at h; cases h

/-- Moving the first slot of another key to the front leaves the first slot of `key`. -/
theorem first_slot_to_front {key : Nat} {a : hash_bucket} {e : hash_slot} {i : Nat}
    (hi : i < BUCKET_SIZE) (hne : (a i).hash_key ≠ key)
    (h : TranspositionTable.first_slot key a = some e) :
    TranspositionTable.first_slot key (TranspositionTable.to_front a i) = some e := by
  obtain ⟨j, hj, hjk, hjf, he, _⟩ := first_slot_some h
  have hji : j ≠ i := fun e1 => hne (e1 ▸ hjk)
  unfold BUCKET_SIZE at hi hj
  by_cases hlt : j < i
  · have h1 : TranspositionTable.to_front a i (j + 1) = a j := by
      unfold TranspositionTable.to_front
      rw [if_neg (by omega), if_pos (by omega)]
      rfl
    rw [he, ← h1]
    apply first_slot_intro (by unfold BUCKET_SIZE; omega) (by rw [h1]; exact hjk)
    intro k hk
    unfold TranspositionTable.to_front
    split_ifs with c1 c2
    · exact hne
    · exact hjf (k - 1) (by omega)
    · omega
  · have h1 : TranspositionTable.to_front a i j = a j := by
      unfold TranspositionTable.to_front
      rw [if_neg (by omega), if_neg (by omega)]
    rw [he, ← h1]
    apply first_slot_intro (by unfold BUCKET_SIZE; omega) (by rw [h1]; exact hjk)
    intro k hk
    unfold TranspositionTable.to_front
    split_ifs with c1 c2
    · exact hne
    · exact hjf (k - 1) (by omega)
    · exact hjf k hk

theorem first_slot_none_intro {key : Nat} {a : hash_bucket}
    (h : ∀ i, i < BUCKET_SIZE → (a i).hash_key ≠ key) :
    TranspositionTable.first_slot key a = none := by
  unfold TranspositionTable.first_slot
  rcases find_key_spec key a with ⟨hn, _⟩ | ⟨j, hj, hjk, _, _⟩
  · rw [hn]; rfl
  · exact absurd hjk (h j hj)

/-- Writing a slot of another key over a slot 0 of another key leaves the first slot of
`key`. -/
theorem first_slot_replace0 {key : Nat} {a : hash_bucket} {x : hash_slot}
    (hx : x.hash_key ≠ key) (h0 : (a 0).hash_key ≠ key) :
    TranspositionTable.first_slot key (TranspositionTable.write0 x a)
      = TranspositionTable.first_slot key a := by
  cases h : TranspositionTable.first_slot key a with
  | none =>
    apply first_slot_none_intro
    intro i hi
    by_cases hi0 : i = 0
    · rw [hi0, write0_zero]; exact hx
    · rw [write0_pos _ _ hi0]; exact (first_slot_none h).1 i hi
  | some e =>
    obtain ⟨j, hj, hjk, hjf, he, _⟩ := first_slot_some h
    have hj0 : j ≠ 0 := fun e1 => h0 (e1 ▸ hjk)
    have h1 : TranspositionTable.write0 x a j = a j := write0_pos _ _ hj0
    rw [he, ← h1]
    apply first_slot_intro hj (by rw [h1]; exact hjk)
    intro k hk
    by_cases hk0 : k = 0
    · rw [hk0, write0_zero]; exact hx
    · rw [write0_pos _ _ hk0]; exact hjf k hk

/-- What `find_key` for another board does to the bucket leaves the first slot of `key`. -/
theorem first_slot_found {key key2 : Nat} {a : hash_bucket} {e0 : hash_slot}
    (h0 : TranspositionTable.first_slot key a = some e0) :
    TranspositionTable.first_slot key ((TranspositionTable.find_key key2 a).getD a)
      = some e0 := by
  rcases find_key_spec key2 a with ⟨hn, _⟩ | ⟨i, hi, hik, hif, his⟩
  · rw [hn]; exact h0
  · rw [his]
    simp only [Option.getD_some]
    by_cases hke : (a i).hash_key = key
    · obtain ⟨j, hj, hjk, hjf, he, _⟩ := first_slot_some h0
      have hij : j = i := by
        rcases Nat.lt_trichotomy j i with h | h | h
        · exact absurd (hjk.trans (hke.symm.trans hik)) (hif j h)
        · exact h
        · exact absurd hke (hjf i h)
      have h1 : TranspositionTable.to_front a i 0 = a i := rfl
      rw [he, hij, ← h1]
      exact first_slot_intro (by unfold BUCKET_SIZE; omega) (by rw [h1]; exact hke)
        (fun k hk => by omega)
    · exact first_slot_to_front hi hke h0

/-- At the bucket: while the key stays in the bucket, the depth of its first slot does not go
down at an `insert`. -/
theorem first_slot_inserted {key key2 : Nat} {a : hash_bucket} {e0 e1 : hash_slot}
    (depth lower_bound upper_bound : Int) (move : Move)
    (h0 : TranspositionTable.first_slot key a = some e0)
    (h1 : TranspositionTable.first_slot key
      (TranspositionTable.inserted key2 depth lower_bound upper_bound move a) = some e1) :
    e0.depth ≤ e1.depth := by
  obtain ⟨j, hj, hjk, hjf, he, _⟩ := first_slot_some h0
  unfold TranspositionTable.inserted at h1
  rcases find_key_spec key2 a with ⟨hn, hall⟩ | ⟨i, hi, hik, hif, his⟩
  · rw [hn] at h1
    simp only [] at h1
    have hkk : key2 ≠ key := fun e2 => hall j hj (hjk.trans e2.symm)
    obtain ⟨s1, s2, s3⟩ := shift_right_three a
    obtain ⟨j1, hj1, hj1k, hj1f, he1, _⟩ := first_slot_some h1
    unfold BUCKET_SIZE at hj hj1
    have hj10 : j1 ≠ 0 := by
      intro e2
      rw [e2, write0_zero] at hj1k
      exact hkk hj1k
    have hval : ∀ k, 1 ≤ k → k ≤ 3 →
        TranspositionTable.write0 (⟨key2, lower_bound, upper_bound, depth, move⟩ : hash_slot)
          (TranspositionTable.shift_right a (BUCKET_SIZE - 1)) k = a (k - 1) := by
      intro k k1 k3
      rw [write0_pos _ _ (by omega)]
      interval_cases k
      · exact s1
      · exact s2
      · exact s3
    have hlt : j1 - 1 = j := by
      rcases Nat.lt_trichotomy (j1 - 1) j with h | h | h
      · rw [hval j1 (by omega) (by omega)] at hj1k
        exact absurd hj1k (hjf (j1 - 1) h)
      · exact h
      · have := hj1f (j + 1) (by omega)
        rw [hval (j + 1) (by omega) (by omega)] at this
        exact absurd hjk this
    rw [he1, hval j1 (by omega) (by omega), hlt, he]
  · rw [his] at h1
    simp only [] at h1
    have hf0 : TranspositionTable.to_front a i 0 = a i := rfl
    have hfound : TranspositionTable.first_slot key (TranspositionTable.to_front a i)
        = some e0 := by
      have := @first_slot_found key key2 a e0 h0
      rw [his] at this
      exact this
    by_cases hd : (TranspositionTable.to_front a i 0).depth > depth
    · rw [if_pos hd] at h1
      rw [hfound] at h1
      rw [Option.some.inj h1]
    · rw [if_neg hd] at h1
      by_cases hke : key2 = key
      · have hij : j = i := by
          rcases Nat.lt_trichotomy j i with h | h | h
          · exact absurd (hjk.trans hke.symm) (hif j h)
          · exact h
          · exact absurd (hik.trans hke) (hjf i h)
        obtain ⟨j1, hj1, hj1k, hj1f, he1, _⟩ := first_slot_some h1
        have hj10 : j1 = 0 := by
          by_contra hne
          have := hj1f 0 (by omega)
          rw [write0_zero] at this
          exact this hke
        rw [he1, hj10, write0_zero, he, hij]
        rw [hf0] at hd
        show (a i).depth ≤ depth
        omega
      · rw [first_slot_replace0 (by exact hke) (by rw [hf0, hik]; exact hke), hfound] at h1
        rw [Option.some.inj h1]

theorem set_bucket_hash (t : TranspositionTable) (b2 : Board) (a : hash_bucket) (b : Board) :
    TranspositionTable.get_board_hash (TranspositionTable.set_bucket t b2 a) b
      = TranspositionTable.get_board_hash t b ∧
    TranspositionTable.bucket_index (TranspositionTable.set_bucket t b2 a) b
      = TranspositionTable.bucket_index t b :=
  ⟨rfl, rfl⟩

theorem get_bucket_set_bucket_same (t : TranspositionTable) (b2 : Board) (a : hash_bucket)
    (b : Board)
    (h : b.turn = b2.turn ∧ TranspositionTable.bucket_index t b
      = TranspositionTable.bucket_index t b2) :
    TranspositionTable.get_bucket (TranspositionTable.set_bucket t b2 a) b = a ∧
    TranspositionTable.get_bucket t b = TranspositionTable.get_bucket t b2 := by
  constructor
  · unfold TranspositionTable.get_bucket
    rw [(set_bucket_hash t b2 a b).2]
    unfold TranspositionTable.set_bucket
    simp only []
    rw [if_pos h]
  · unfold TranspositionTable.get_bucket
    rw [h.1, h.2]

theorem get_bucket_set_bucket_other (t : TranspositionTable) (b2 : Board) (a : hash_bucket)
    (b : Board)
    (h : ¬ (b.turn = b2.turn ∧ TranspositionTable.bucket_index t b
      = TranspositionTable.bucket_index t b2)) :
    TranspositionTable.get_bucket (TranspositionTable.set_bucket t b2 a) b
      = TranspositionTable.get_bucket t b := by
  unfold TranspositionTable.get_bucket
  rw [(set_bucket_hash t b2 a b).2]
  unfold TranspositionTable.set_bucket
  simp only []
  rw [if_neg h]

/-- One call on the table: while the key of `b` stays in its bucket, the depth of the slot
that `find(b)` returns does not go down. -/
theorem step_depth_mono (t : TranspositionTable) (op : TTOp) (b : Board) {e0 e1 : hash_slot}
    (h0 : (TranspositionTable.find t b).1 = some e0)
    (h1 : (TranspositionTable.find (TranspositionTable.step t op) b).1 = some e1) :
    e0.depth ≤ e1.depth := by
  rw [find_fst] at h0 h1
  cases op with
  | insert b2 depth lower_bound upper_bound move =>
    simp only [TranspositionTable.step] at h1
    rw [insert_eq] at h1
    rw [(set_bucket_hash t b2 _ b).1] at h1
    by_cases hb : b.turn = b2.turn ∧ TranspositionTable.bucket_index t b
        = TranspositionTable.bucket_index t b2
    · obtain ⟨g1, g2⟩ := get_bucket_set_bucket_same t b2
        (TranspositionTable.inserted (TranspositionTable.get_board_hash t b2) depth
          lower_bound upper_bound move (TranspositionTable.get_bucket t b2)) b hb
      rw [g1] at h1
      rw [g2] at h0
      exact first_slot_inserted depth lower_bound upper_bound move h0 h1
    · rw [get_bucket_set_bucket_other t b2 _ b hb, h0] at h1
      rw [Option.some.inj h1]
  | find b2 =>
    simp only [TranspositionTable.step] at h1
    rw [find_snd] at h1
    rw [(set_bucket_hash t b2 _ b).1] at h1
    by_cases hb : b.turn = b2.turn ∧ TranspositionTable.bucket_index t b
        = TranspositionTable.bucket_index t b2
    · obtain ⟨g1, g2⟩ := get_bucket_set_bucket_same t b2
        ((TranspositionTable.find_key (TranspositionTable.get_board_hash t b2)
          (TranspositionTable.get_bucket t b2)).getD (TranspositionTable.get_bucket t b2)) b hb
      rw [g1] at h1
      rw [g2] at h0
      rw [first_slot_found h0] at h1
      rw [Option.some.inj h1]
    · rw [get_bucket_set_bucket_other t b2 _ b hb, h0] at h1
      rw [Option.some.inj h1]

/-- After `insert(b, depth, ...)` the call `find(b)` returns a slot of at least that depth. -/
theorem find_after_insert (t : TranspositionTable) (b : Board)
    (depth lower_bound upper_bound : Int) (move : Move) :
    ∃ e, (TranspositionTable.find
        (TranspositionTable.insert t b depth lower_bound upper_bound move) b).1 = some e ∧
      depth ≤ e.depth := by
  rw [find_fst, insert_eq, (set_bucket_hash t b _ b).1, get_bucket_set_bucket]
  generalize TranspositionTable.get_bucket t b = a
  generalize TranspositionTable.get_board_hash t b = key
  have h4 : 0 < BUCKET_SIZE := by unfold BUCKET_SIZE; omega
  unfold TranspositionTable.inserted
  rcases find_key_spec key a with ⟨hn, _⟩ | ⟨i, hi, hik, _, his⟩
  · rw [hn]
    simp only []
    refine ⟨_, first_slot_intro (i := 0) h4 (by rw [write0_zero]) (fun k hk => by omega), ?_⟩
    rw [write0_zero]
  · rw [his]
    simp only []
    have hf0 : TranspositionTable.to_front a i 0 = a i := rfl
    by_cases hd : (TranspositionTable.to_front a i 0).depth > depth
    · rw [if_pos hd]
      refine ⟨_, first_slot_intro (i := 0) h4 (by rw [hf0]; exact hik)
        (fun k hk => by omega), ?_⟩
      omega
    · rw [if_neg hd]
      refine ⟨_, first_slot_intro (i := 0) h4 (by rw [write0_zero])
        (fun k hk => by omega), ?_⟩
      rw [write0_zero]

theorem create_smallest (bucket_bytes : Nat) :
    TranspositionTable.create 0 bucket_bytes = some TranspositionTable.smallest := by
  unfold TranspositionTable.create TranspositionTable.set_size
  rw [Nat.zero_div, Nat.zero_div]
  rfl

theorem run_cons (t : TranspositionTable) (op : TTOp) (ops : List TTOp) :
    TranspositionTable.run t (op :: ops)
      = TranspositionTable.run (TranspositionTable.step t op) ops := rfl

theorem run_depth_mono (b : Board) (depth : Int) : ∀ (ops : List TTOp) (t : TranspositionTable),
    (∃ e, (TranspositionTable.find t b).1 = some e ∧ depth ≤ e.depth) →
    (∀ k, k ≤ ops.length →
      ((TranspositionTable.find (TranspositionTable.run t (ops.take k)) b).1).isSome = true) →
    ∃ e, (TranspositionTable.find (TranspositionTable.run t ops) b).1 = some e ∧
      depth ≤ e.depth := by
  intro ops
  induction ops with
  | nil => intro t h _; exact h
  | cons op ops ih =>
    intro t h hp
    rw [run_cons]
    apply ih
    · obtain ⟨e0, h0, hd⟩ := h
      have h1 := hp 1 (by simp)
      rw [List.take_succ_cons, List.take_zero, run_cons] at h1
      obtain ⟨e1, he1⟩ := Option.isSome_iff_exists.mp h1
      have he1' : (TranspositionTable.find (TranspositionTable.step t op) b).1 = some e1 :=
        he1
      exact ⟨e1, he1', le_trans hd (step_depth_mono t op b h0 he1')⟩
    · intro k hk
      have := hp (k + 1) (by simp; omega)
      rw [List.take_succ_cons, run_cons] at this
      exact this

/-- C23, amended: in a sequence of `insert` and `find` calls on one table with no `clear()`,
take an `insert(b, depth, ...)` and the calls `ops` after it.  When `b`'s key has stayed in its
bucket since (after every one of the calls a `find(b)` would return an entry), the entry that
`find(b)` returns after `ops` has a depth of at least `depth`. -/
theorem C23_depth_monotone_while_present (t : TranspositionTable) (b : Board)
    (depth lower_bound upper_bound : Int) (move : Move) (ops : List TTOp)
    (hpres : ∀ k, k ≤ ops.length →
      ((TranspositionTable.find (TranspositionTable.run
        (TranspositionTable.insert t b depth lower_bound upper_bound move) (ops.take k)) b).1
        ).isSome = true) :
    ∃ e, (TranspositionTable.find (TranspositionTable.run
        (TranspositionTable.insert t b depth lower_bound upper_bound move) ops) b).1 = some e ∧
      depth ≤ e.depth :=
  run_depth_mono b depth ops _ (find_after_insert t b depth lower_bound upper_bound move) hpres

set_option maxRecDepth 1000000 in
set_option maxHeartbeats 4000000 in
/-- C23, amended, on the table of `TranspositionTable(0)`: after `insert` of the initial
position at depth 5, an `insert` and a `find` of the position after 1. e4 e5 and an `insert` of
the initial position at depth 3, `find` of the initial position returns the entry of
depth 5. -/
theorem C23_depth_monotone_while_present_witness :
    (TranspositionTable.find (TranspositionTable.run
        (TranspositionTable.insert TranspositionTable.smallest (Board.start Z0) 5 (-100) 100
          ⟨12, 28, PieceType.CLEAR⟩)
        [TTOp.insert (Board.after2 Z0 ⟨12, 28, PieceType.CLEAR⟩ ⟨52, 36, PieceType.CLEAR⟩)
            1 (-7) 7 ⟨6, 21, PieceType.CLEAR⟩,
         TTOp.find (Board.after2 Z0 ⟨12, 28, PieceType.CLEAR⟩ ⟨52, 36, PieceType.CLEAR⟩),
         TTOp.insert (Board.start Z0) 3 (-50) 50 ⟨11, 27, PieceType.CLEAR⟩])
        (Board.start Z0)).1
      = some ⟨Board.hash_key (Board.start Z0) ^^^ 1, -100, 100, 5, ⟨12, 28, PieceType.CLEAR⟩⟩ ∧
    ∃ e, (TranspositionTable.find (TranspositionTable.run
        (TranspositionTable.insert TranspositionTable.smallest (Board.start Z0) 5 (-100) 100
          ⟨12, 28, PieceType.CLEAR⟩)
        [TTOp.insert (Board.after2 Z0 ⟨12, 28, PieceType.CLEAR⟩ ⟨52, 36, PieceType.CLEAR⟩)
            1 (-7) 7 ⟨6, 21, PieceType.CLEAR⟩,
         TTOp.find (Board.after2 Z0 ⟨12, 28, PieceType.CLEAR⟩ ⟨52, 36, PieceType.CLEAR⟩),
         TTOp.insert (Board.start Z0) 3 (-50) 50 ⟨11, 27, PieceType.CLEAR⟩])
        (Board.start Z0)).1 = some e ∧ (5 : Int) ≤ e.depth :=
  ⟨by decide!,
    C23_depth_monotone_while_present TranspositionTable.smallest (Board.start Z0) 5 (-100) 100
      ⟨12, 28, PieceType.CLEAR⟩ _ (by decide!)⟩

set_option maxRecDepth 1000000 in
set_option maxHeartbeats 4000000 in
/-- C23 as stated fails on the table of `TranspositionTable(0)`, whose boards with White to
move share one bucket of four slots: after `insert` of the initial position at depth 5, the
`insert` of four other positions (after 1. e4 e5, 1. d4 d5, 1. c4 c5 and 1. Nf3 Nf6) drops that
entry, `find` of the initial position returns absent, and after a new `insert` of the initial
position at depth 1 `find` returns the entry of depth 1, below the earlier depth 5. -/
theorem C23_counterexample :
    TranspositionTable.create 0 96 = some TranspositionTable.smallest ∧
    (TranspositionTable.find (TranspositionTable.run TranspositionTable.smallest
        [TTOp.insert (Board.start Z0) 5 (-100) 100 ⟨12, 28, PieceType.CLEAR⟩,
         TTOp.insert (Board.after2 Z0 ⟨12, 28, PieceType.CLEAR⟩ ⟨52, 36, PieceType.CLEAR⟩)
            1 (-7) 7 ⟨6, 21, PieceType.CLEAR⟩,
         TTOp.insert (Board.after2 Z0 ⟨11, 27, PieceType.CLEAR⟩ ⟨51, 35, PieceType.CLEAR⟩)
            1 (-7) 7 ⟨6, 21, PieceType.CLEAR⟩,
         TTOp.insert (Board.after2 Z0 ⟨10, 26, PieceType.CLEAR⟩ ⟨50, 34, PieceType.CLEAR⟩)
            1 (-7) 7 ⟨6, 21, PieceType.CLEAR⟩,
         TTOp.insert (Board.after2 Z0 ⟨6, 21, PieceType.CLEAR⟩ ⟨62, 45, PieceType.CLEAR⟩)
            1 (-7) 7 ⟨1, 18, PieceType.CLEAR⟩])
        (Board.start Z0)).1 = none ∧
    (TranspositionTable.find (TranspositionTable.run TranspositionTable.smallest
        [TTOp.insert (Board.start Z0) 5 (-100) 100 ⟨12, 28, PieceType.CLEAR⟩,
         TTOp.insert (Board.after2 Z0 ⟨12, 28, PieceType.CLEAR⟩ ⟨52, 36, PieceType.CLEAR⟩)
            1 (-7) 7 ⟨6, 21, PieceType.CLEAR⟩,
         TTOp.insert (Board.after2 Z0 ⟨11, 27, PieceType.CLEAR⟩ ⟨51, 35, PieceType.CLEAR⟩)
            1 (-7) 7 ⟨6, 21, PieceType.CLEAR⟩,
         TTOp.insert (Board.after2 Z0 ⟨10, 26, PieceType.CLEAR⟩ ⟨50, 34, PieceType.CLEAR⟩)
            1 (-7) 7 ⟨6, 21, PieceType.CLEAR⟩,
         TTOp.insert (Board.after2 Z0 ⟨6, 21, PieceType.CLEAR⟩ ⟨62, 45, PieceType.CLEAR⟩)
            1 (-7) 7 ⟨1, 18, PieceType.CLEAR⟩,
         TTOp.insert (Board.start Z0) 1 (-5) 5 ⟨11, 27, PieceType.CLEAR⟩])
        (Board.start Z0)).1
      = some ⟨Board.hash_key (Board.start Z0) ^^^ 1, -5, 5, 1, ⟨11, 27, PieceType.CLEAR⟩⟩ ∧
    ((1 : Int) < 5) := by
  refine ⟨create_smallest 96, by decide!, by decide!, by decide⟩

/-- C24, amended: for every table and every board `b`, a `find(b)` issued after `clear()` and
before any further `insert` looks for the key `hash_key(b) XOR (mask + 1)` in the bucket of that
key: it returns absent exactly when none of the four slots of that bucket holds that value,
and an entry it returns holds that value.  The key under which an `insert` before the `clear()`
stored an entry for `b`, or for any board with the hash key of `b`, is another value, so that
entry is not the one returned. -/
theorem C24_find_after_clear (t : TranspositionTable) (b : Board) :
    ((TranspositionTable.find (TranspositionTable.clear t) b).1 = none ↔
      ∀ i, i < BUCKET_SIZE →
        (TranspositionTable.get_bucket (TranspositionTable.clear t) b i).hash_key
          ≠ Board.hash_key b ^^^ ((t.mask + 1) % 2 ^ 64)) ∧
    (∀ e, (TranspositionTable.find (TranspositionTable.clear t) b).1 = some e →
      e.hash_key = Board.hash_key b ^^^ ((t.mask + 1) % 2 ^ 64)) ∧
    (∀ b0 : Board, Board.hash_key b0 = Board.hash_key b →
      TranspositionTable.get_board_hash t b0
        ≠ TranspositionTable.get_board_hash (TranspositionTable.clear t) b) := by
  have hk : TranspositionTable.get_board_hash (TranspositionTable.clear t) b
      = Board.hash_key b ^^^ ((t.mask + 1) % 2 ^ 64) := rfl
  refine ⟨?_, ?_, ?_⟩
  · rw [find_fst, hk]
    constructor
    · intro h
      exact (first_slot_none h).1
    · intro h
      exact first_slot_none_intro h
  · intro e he
    rw [find_fst, hk] at he
    obtain ⟨i, _, hik, _, hei, _⟩ := first_slot_some he
    rw [hei, hik]
  · intro b0 h0 heq
    rw [hk] at heq
    unfold TranspositionTable.get_board_hash at heq
    rw [h0] at heq
    have hm : t.mask = (t.mask + 1) % 2 ^ 64 := by
      have := congrArg (fun x => Board.hash_key b ^^^ x) heq
      simp only [← Nat.xor_assoc, Nat.xor_self, Nat.zero_xor] at this
      exact this
    have h64 : (t.mask + 1) % 2 ^ 64 < 2 ^ 64 := Nat.mod_lt _ (by norm_num)
    by_cases hlt : t.mask + 1 < 2 ^ 64
    · rw [Nat.mod_eq_of_lt hlt] at hm
      omega
    · by_cases he : t.mask + 1 = 2 ^ 64
      · rw [he, Nat.mod_self] at hm
        omega
      · omega

set_option maxRecDepth 1000000 in
set_option maxHeartbeats 4000000 in
/-- C24 as stated fails when the key of another position, stored before the `clear()`, is
the key that is looked up after it.  Under the tables `Z1` the board `8/8/8/8/8/8/8/K7 w` has
the hash key 5 and the board `8/8/8/8/8/8/8/1K6 w` the hash key 6; on a new table (`mask` 1)
`insert` stores the entry of the first board under `5 XOR 1` = 4, and after `clear()` (`mask`
2) `find` of the second board looks for `6 XOR 2` = 4 and returns that entry, whose move a1a2
starts on a square that is empty on the second board. -/
theorem C24_counterexample :
    Board.hash_key (Board.of_fen Z1 "8/8/8/8/8/8/8/K7 w") = 5 ∧
    Board.hash_key (Board.of_fen Z1 "8/8/8/8/8/8/8/1K6 w") = 6 ∧
    ((Board.of_fen Z1 "8/8/8/8/8/8/8/1K6 w")._squares 0).type = PieceType.CLEAR ∧
    (TranspositionTable.find
        (TranspositionTable.clear
          (TranspositionTable.insert TranspositionTable.smallest
            (Board.of_fen Z1 "8/8/8/8/8/8/8/K7 w") 3 (-10) 10 ⟨0, 8, PieceType.CLEAR⟩))
        (Board.of_fen Z1 "8/8/8/8/8/8/8/1K6 w")).1
      = some ⟨4, -10, 10, 3, ⟨0, 8, PieceType.CLEAR⟩⟩ := by
  refine ⟨by decide!, by decide!, by decide!, by decide!⟩

theorem toInt32_id {x : Int} (h0 : -2147483648 ≤ x) (h1 : x < 2147483648) : toInt32 x = x := by
  unfold toInt32
  omega

/-- The score of a move without the bonus, for an entry of the table in `0..511`. -/
theorem setScore_bounds (board : Board) (m : Move) {h : Int} (h0 : 0 ≤ h) (h1 : h < 512) :
    0 ≤ MoveScore.setScore board m h ∧ MoveScore.setScore board m h ≤ 9850 := by
  unfold MoveScore.setScore Score.add
  have e1 : toInt32 (h * 213) = h * 213 := toInt32_id (by omega) (by omega)
  have hq0 : 0 ≤ Int.tdiv (h * 213) 128 := by
    rw [Int.tdiv_eq_ediv (by omega) (by decide)]; omega
  have hq1 : Int.tdiv (h * 213) 128 ≤ 850 := by
    rw [Int.tdiv_eq_ediv (by omega) (by decide)]; omega
  have e2 : toInt32 (Int.tdiv (h * 213) 128) = Int.tdiv (h * 213) 128 :=
    toInt32_id (by omega) (by omega)
  rw [e1, e2]
  have hc : 0 ≤ MoveScore.cap_table (board._squares m.d).type ∧
      MoveScore.cap_table (board._squares m.d).type ≤ 9000 := by
    cases (board._squares m.d).type <;> simp [MoveScore.cap_table]
  have hc0 : (0 : Int) ≤ MoveScore.cap_table (board._squares m.d).type := hc.1
  have hc1 : MoveScore.cap_table (board._squares m.d).type ≤ (9000 : Int) := hc.2
  generalize MoveScore.cap_table (board._squares m.d).type = c at hc0 hc1 ⊢
  generalize Int.tdiv (h * 213) 128 = q at hq0 hq1 ⊢
  have key : toInt32 (c + q) = c + q := toInt32_id (by omega) (by omega)
  have goal : (0 : Int) ≤ toInt32 (c + q) ∧ toInt32 (c + q) ≤ (9850 : Int) := by
    rw [key]; omega
  exact goal

theorem stable_sort_perm {α : Type} (lt : α → α → Bool) (l : List α) :
    (stable_sort lt l).Perm l :=
  List.perm_insertionSort _ l

theorem moveScore_sorted (l : List MoveScore) :
    (stable_sort MoveScore.lt l).Pairwise (fun a b => a.score ≥ b.score) := by
  haveI : IsTotal MoveScore (fun a b => MoveScore.lt b a = false) :=
    ⟨fun a b => by
      unfold MoveScore.lt
      simp only [decide_eq_false_iff_not, not_lt]
      exact le_total _ _⟩
  haveI : IsTrans MoveScore (fun a b => MoveScore.lt b a = false) :=
    ⟨fun a b c h1 h2 => by
      unfold MoveScore.lt at h1 h2 ⊢
      simp only [decide_eq_false_iff_not, not_lt, gt_iff_lt] at h1 h2 ⊢
      exact le_trans h2 h1⟩
  have h := List.sorted_insertionSort (fun a b : MoveScore => MoveScore.lt b a = false) l
  unfold stable_sort
  refine List.Pairwise.imp ?_ h
  intro a b hab
  unfold MoveScore.lt at hab
  simp only [decide_eq_false_iff_not, not_lt, gt_iff_lt] at hab
  exact hab

theorem moveScore_stable (l : List MoveScore) {a b : MoveScore} (hab : a.score ≥ b.score)
    (h : [a, b].Sublist l) : [a, b].Sublist (stable_sort MoveScore.lt l) := by
  haveI : IsTotal MoveScore (fun a b => MoveScore.lt b a = false) :=
    ⟨fun a b => by
      unfold MoveScore.lt
      simp only [decide_eq_false_iff_not, not_lt]
      exact le_total _ _⟩
  haveI : IsTrans MoveScore (fun a b => MoveScore.lt b a = false) :=
    ⟨fun a b c h1 h2 => by
      unfold MoveScore.lt at h1 h2 ⊢
      simp only [decide_eq_false_iff_not, not_lt, gt_iff_lt] at h1 h2 ⊢
      exact le_trans h2 h1⟩
  unfold stable_sort
  apply List.pair_sublist_insertionSort _ h
  unfold MoveScore.lt
  simp only [decide_eq_false_iff_not, not_lt, gt_iff_lt]
  exact hab

/-- C25: for every board whose ply is an index of `_table` (`0..1023`), every list of moves
between squares of the board and every high-priority move, `MoveHistory::sort_moves` returns,
and the new list is a permutation of the input, ordered by non-increasing score, where the
score of `m` is the capture value of the piece on the destination of `m` plus
`_table[ply][origin][dest] * 213 / 128`, plus `high_pri_score` when `m` equals `high_pri`;
moves of equal score keep their input order; and when the entries of `_table[ply]` are in
`0..511` (as `add` keeps them) and some move of the list equals `high_pri`, the move at
index 0 equals `high_pri`. -/
theorem C25_sort_moves (_table : Int → Int → Int → Int) (board : Board) (moves : List Move)
    (high_pri_move : Move)
    (hply : 0 ≤ Board.ply board ∧ Board.ply board < 1024)
    (hv : ∀ m ∈ moves, Place.is_valid m.o = true ∧ Place.is_valid m.d = true) :
    ∃ out : List Move,
      MoveHistory.sort_moves _table board moves high_pri_move = some out ∧
      out.Perm moves ∧
      out.Pairwise (fun a b =>
        MoveHistory.move_score (_table (Board.ply board)) board high_pri_move a
          ≥ MoveHistory.move_score (_table (Board.ply board)) board high_pri_move b) ∧
      (∀ a b : Move, [a, b].Sublist moves →
        MoveHistory.move_score (_table (Board.ply board)) board high_pri_move a
          = MoveHistory.move_score (_table (Board.ply board)) board high_pri_move b →
        [a, b].Sublist out) ∧
      ((∀ o d : Int, 0 ≤ _table (Board.ply board) o d ∧ _table (Board.ply board) o d < 512) →
        (∃ m ∈ moves, Move.same m high_pri_move = true) →
        ∃ m0 rest, out = m0 :: rest ∧ Move.same m0 high_pri_move = true) := by
  have hs : MoveHistory.sort_moves _table board moves high_pri_move
      = some ((stable_sort MoveScore.lt (moves.map fun m =>
          (⟨m, MoveHistory.move_score (_table (Board.ply board)) board high_pri_move m⟩ :
            MoveScore))).map fun x => x.m) := by
    unfold MoveHistory.sort_moves
    rw [if_pos (fun m hm => ⟨hply.1, hply.2, hv m hm⟩)]
  generalize hsc : MoveHistory.move_score (_table (Board.ply board)) board high_pri_move = sc
    at hs ⊢
  have hmapm : (moves.map fun m => (⟨m, sc m⟩ : MoveScore)).map (fun x => x.m) = moves := by
    rw [List.map_map]
    exact List.map_id _
  have hperm : ((stable_sort MoveScore.lt (moves.map fun m => (⟨m, sc m⟩ : MoveScore))).map
      fun x => x.m).Perm moves := by
    have := (stable_sort_perm MoveScore.lt (moves.map fun m => (⟨m, sc m⟩ : MoveScore))).map
      (fun x => x.m)
    rw [hmapm] at this
    exact this
  have hshape : ∀ x ∈ stable_sort MoveScore.lt (moves.map fun m => (⟨m, sc m⟩ : MoveScore)),
      x.score = sc x.m := by
    intro x hx
    have hx2 := (stable_sort_perm MoveScore.lt _).mem_iff.mp hx
    obtain ⟨m, _, rfl⟩ := List.mem_map.mp hx2
    rfl
  have hsorted : ((stable_sort MoveScore.lt (moves.map fun m => (⟨m, sc m⟩ : MoveScore))).map
      fun x => x.m).Pairwise (fun a b => sc a ≥ sc b) := by
    rw [List.pairwise_map]
    have h := moveScore_sorted (moves.map fun m => (⟨m, sc m⟩ : MoveScore))
    refine List.Pairwise.imp_of_mem ?_ h
    intro a b ha hb hab
    rw [← hshape a ha, ← hshape b hb]
    exact hab
  refine ⟨_, hs, hperm, hsorted, ?_, ?_⟩
  · intro a b hab he
    have h1 : [(⟨a, sc a⟩ : MoveScore), ⟨b, sc b⟩].Sublist
        (moves.map fun m => (⟨m, sc m⟩ : MoveScore)) := by
      have := hab.map (fun m => (⟨m, sc m⟩ : MoveScore))
      exact this
    have h2 := moveScore_stable _ (a := ⟨a, sc a⟩) (b := ⟨b, sc b⟩) (le_of_eq he.symm) h1
    exact h2.map (fun x => x.m)
  · intro hT ⟨m, hm, hmh⟩
    generalize hout : (stable_sort MoveScore.lt (moves.map fun m => (⟨m, sc m⟩ : MoveScore))).map
      (fun x => x.m) = out at hperm hsorted
    have hmo : m ∈ out := hperm.mem_iff.mpr hm
    cases out with
    | nil => exact absurd hmo (List.not_mem_nil m)
    | cons m0 rest =>
      refine ⟨m0, rest, rfl, ?_⟩
      by_contra hne
      have hne2 : Move.same m0 high_pri_move = false := by
        cases hx : Move.same m0 high_pri_move
        · rfl
        · exact absurd hx hne
      have hmr : m ∈ rest := by
        rcases List.mem_cons.mp hmo with e | e
        · rw [e] at hmh; rw [hmh] at hne2; cases hne2
        · exact e
      have hge := (List.pairwise_cons.mp hsorted).1 m hmr
      have b0 := setScore_bounds board m0 (hT m0.o m0.d).1 (hT m0.o m0.d).2
      have b1 := setScore_bounds board m (hT m.o m.d).1 (hT m.o m.d).2
      rw [← hsc] at hge
      unfold MoveHistory.move_score at hge
      rw [if_pos hmh, if_neg (by rw [hne2]; decide)] at hge
      unfold Score.add MoveHistory.high_pri_score at hge
      have b10 : (0 : Int) ≤ MoveScore.setScore board m
          (_table (Board.ply board) m.o m.d) := b1.1
      have b11 : MoveScore.setScore board m (_table (Board.ply board) m.o m.d)
          ≤ (9850 : Int) := b1.2
      have b01 : MoveScore.setScore board m0 (_table (Board.ply board) m0.o m0.d)
          ≤ (9850 : Int) := b0.2
      generalize MoveScore.setScore board m (_table (Board.ply board) m.o m.d) = x
        at hge b10 b11
      generalize MoveScore.setScore board m0 (_table (Board.ply board) m0.o m0.d) = y
        at hge b01
      have key : toInt32 (x + 10000000) = x + 10000000 := toInt32_id (by omega) (by omega)
      have hge2 : y ≥ toInt32 (x + 10000000) := hge
      rw [key] at hge2
      omega

theorem half_bounds (x : Int) (h0 : 0 ≤ x) (h1 : x ≤ 512) :
    0 ≤ toInt32 (Int.tdiv x 2) ∧ toInt32 (Int.tdiv x 2) < 512 := by
  have hq0 : 0 ≤ Int.tdiv x 2 := by
    rw [Int.tdiv_eq_ediv (by omega) (by decide)]; omega
  have hq1 : Int.tdiv x 2 ≤ 256 := by
    rw [Int.tdiv_eq_ediv (by omega) (by decide)]; omega
  rw [toInt32_id (by omega) (by omega)]
  omega

theorem incr_bounds (x : Int) (h0 : 0 ≤ x) (h1 : x < 512) :
    0 ≤ Score.add x 1 ∧ Score.add x 1 ≤ (512 : Int) := by
  unfold Score.add
  have e : toInt32 (x + 1) = x + 1 := toInt32_id (by omega) (by omega)
  constructor
  · show (0 : Int) ≤ toInt32 (x + 1)
    rw [e]; omega
  · show toInt32 (x + 1) ≤ (512 : Int)
    rw [e]; omega

theorem cap_bounds (f : Int → Int → Int) (a b : Int)
    (hf : ∀ o d, 0 ≤ f o d ∧ f o d ≤ 512 ∧ (f o d < 512 ∨ f o d = f a b)) (o d : Int) :
    0 ≤ (if f a b ≥ MoveHistory.memory_cap then fun o d => toInt32 (Int.tdiv (f o d) 2) else f) o d
    ∧ (if f a b ≥ MoveHistory.memory_cap then fun o d => toInt32 (Int.tdiv (f o d) 2) else f) o d
        < 512 := by
  by_cases hc : f a b ≥ MoveHistory.memory_cap
  · rw [if_pos hc]
    exact half_bounds _ (hf o d).1 (hf o d).2.1
  · rw [if_neg hc]
    have hc2 : ¬ (f a b ≥ (512 : Int)) := hc
    have := hf o d
    omega

/-- The method `MoveHistory::add` keeps the entries of the table in `0..511`. -/
theorem add_keeps_bounds (_table : Int → Int → Int → Int) (board : Board) (move : Move)
    (t2 : Int → Int → Int → Int)
    (hT : ∀ p o d : Int, 0 ≤ _table p o d ∧ _table p o d < 512)
    (h : MoveHistory.add _table board move = some t2) :
    ∀ p o d : Int, 0 ≤ t2 p o d ∧ t2 p o d < 512 := by
  unfold MoveHistory.add at h
  split at h
  · have h := Option.some.inj h
    subst h
    intro p o d
    have hf : ∀ o d : Int,
        0 ≤ (fun o d => if o = move.o ∧ d = move.d then Score.add (_table (Board.ply board) o d) 1
              else _table (Board.ply board) o d) o d ∧
        (fun o d => if o = move.o ∧ d = move.d then Score.add (_table (Board.ply board) o d) 1
              else _table (Board.ply board) o d) o d ≤ 512 ∧
        ((fun o d => if o = move.o ∧ d = move.d then Score.add (_table (Board.ply board) o d) 1
              else _table (Board.ply board) o d) o d < 512 ∨
         (fun o d => if o = move.o ∧ d = move.d then Score.add (_table (Board.ply board) o d) 1
              else _table (Board.ply board) o d) o d =
         (fun o d => if o = move.o ∧ d = move.d then Score.add (_table (Board.ply board) o d) 1
              else _table (Board.ply board) o d) move.o move.d) := by
      intro o d
      have := hT (Board.ply board) o d
      have hi := incr_bounds _ this.1 this.2
      by_cases hod : o = move.o ∧ d = move.d
      · obtain ⟨ho, hd⟩ := hod
        subst ho; subst hd
        refine ⟨?_, ?_, Or.inr rfl⟩
        · show (0:Int) ≤ if move.o = move.o ∧ move.d = move.d then _ else _
          rw [if_pos ⟨rfl, rfl⟩]; exact hi.1
        · show (if move.o = move.o ∧ move.d = move.d then _ else _) ≤ (512 : Int)
          rw [if_pos ⟨rfl, rfl⟩]; exact hi.2
      · refine ⟨?_, ?_, Or.inl ?_⟩
        · show (0:Int) ≤ if o = move.o ∧ d = move.d then _ else _
          rw [if_neg hod]; exact this.1
        · show (if o = move.o ∧ d = move.d then _ else _) ≤ (512 : Int)
          rw [if_neg hod]; exact le_of_lt this.2
        · show (if o = move.o ∧ d = move.d then _ else _) < (512 : Int)
          rw [if_neg hod]; exact this.2
    have key := cap_bounds _ move.o move.d hf o d
    by_cases hp : p = Board.ply board
    · show 0 ≤ (if p = Board.ply board then _ else _table p) o d ∧
        (if p = Board.ply board then _ else _table p) o d < 512
      rw [if_pos hp]
      exact key
    · show 0 ≤ (if p = Board.ply board then _ else _table p) o d ∧
        (if p = Board.ply board then _ else _table p) o d < 512
      rw [if_neg hp]
      exact hT _ _ _
  · cases h

/-- C25 on a position: after `1. e4 d5`, with `Nf3` as the high-priority move and a history count
of 3 for `e4e5`, the moves `a3`, `exd5`, `Nf3`, `e5` come out as `Nf3`, `exd5`, `e5`, `a3`. -/
theorem C25_sort_moves_witness :
    (0 ≤ Board.ply (Board.after2 Z0 ⟨12, 28, PieceType.CLEAR⟩ ⟨51, 35, PieceType.CLEAR⟩) ∧
      Board.ply (Board.after2 Z0 ⟨12, 28, PieceType.CLEAR⟩ ⟨51, 35, PieceType.CLEAR⟩) < 1024) ∧
    (∀ m ∈ MoveHistory.sample_moves, Place.is_valid m.o = true ∧ Place.is_valid m.d = true) ∧
    MoveHistory.sort_moves MoveHistory.sample_table
        (Board.after2 Z0 ⟨12, 28, PieceType.CLEAR⟩ ⟨51, 35, PieceType.CLEAR⟩)
        MoveHistory.sample_moves ⟨6, 21, PieceType.CLEAR⟩
      = some [⟨6, 21, PieceType.CLEAR⟩, ⟨28, 35, PieceType.CLEAR⟩, ⟨28, 36, PieceType.CLEAR⟩,
          ⟨8, 16, PieceType.CLEAR⟩] ∧
    ∃ out : List Move,
      MoveHistory.sort_moves MoveHistory.sample_table
        (Board.after2 Z0 ⟨12, 28, PieceType.CLEAR⟩ ⟨51, 35, PieceType.CLEAR⟩)
        MoveHistory.sample_moves ⟨6, 21, PieceType.CLEAR⟩ = some out ∧
      out.Perm MoveHistory.sample_moves ∧
      ∃ m0 rest, out = m0 :: rest ∧ Move.same m0 ⟨6, 21, PieceType.CLEAR⟩ = true := by
  have hply : 0 ≤ Board.ply (Board.after2 Z0 ⟨12, 28, PieceType.CLEAR⟩ ⟨51, 35, PieceType.CLEAR⟩) ∧
      Board.ply (Board.after2 Z0 ⟨12, 28, PieceType.CLEAR⟩ ⟨51, 35, PieceType.CLEAR⟩) < 1024 := by
    decide!
  have hv : ∀ m ∈ MoveHistory.sample_moves,
      Place.is_valid m.o = true ∧ Place.is_valid m.d = true := by decide
  refine ⟨hply, hv, by decide!, ?_⟩
  obtain ⟨out, h1, h2, _, _, h5⟩ := C25_sort_moves MoveHistory.sample_table
    (Board.after2 Z0 ⟨12, 28, PieceType.CLEAR⟩ ⟨51, 35, PieceType.CLEAR⟩)
    MoveHistory.sample_moves ⟨6, 21, PieceType.CLEAR⟩ hply hv
  refine ⟨out, h1, h2, h5 ?_ ⟨⟨6, 21, PieceType.CLEAR⟩, by decide, by decide⟩⟩
  intro o d
  unfold MoveHistory.sample_table
  split_ifs <;> decide

theorem SearchResultInfo.clone_eq (r : SearchResultInfo) : SearchResultInfo.clone r = r := rfl

theorem Score.neg_neg_I32 (x : Int) (h : Score.I32 x) : Score.neg (Score.neg x) = x := by
  unfold Score.I32 at h
  unfold Score.neg toInt32
  omega

theorem MpvContext.collect_eq (_max_pvs : Int) (_player : Color) (l : List MoveSearchState) :
    ∀ acc : List SearchResultInfo, (acc.length : Int) < _max_pvs →
      MpvContext.collect _max_pvs _player l acc
        = acc ++ (l.filterMap (MpvContext.entry _player)).take (_max_pvs.toNat - acc.length) := by
  induction l with
  | nil =>
    intro acc _
    simp [MpvContext.collect]
  | cons m rest ih =>
    intro acc hacc
    unfold MpvContext.collect
    cases hr : m.last_result with
    | none =>
      have he : MpvContext.entry _player m = none := by
        unfold MpvContext.entry; rw [hr]
      rw [List.filterMap_cons_none he]
      exact ih acc hacc
    | some r =>
      cases hx : m.last_score.is_exact with
      | false =>
        have he : MpvContext.entry _player m = none := by
          unfold MpvContext.entry; rw [hr]; simp [hx]
        rw [List.filterMap_cons_none he]
        simp only [Bool.not_false, if_true]
        exact ih acc hacc
      | true =>
        have he : MpvContext.entry _player m
            = some ((SearchResultInfo.clone r).flip _player) := by
          unfold MpvContext.entry; rw [hr]; simp [hx]
        rw [List.filterMap_cons_some he]
        simp only [Bool.not_true, Bool.false_eq_true, if_false]
        by_cases hfull : ((acc ++ [(SearchResultInfo.clone r).flip _player]).length : Int)
            ≥ _max_pvs
        · rw [if_pos hfull]
          have hl : (acc ++ [(SearchResultInfo.clone r).flip _player]).length
              = acc.length + 1 := by simp
          rw [hl] at hfull
          have h1 : _max_pvs.toNat - acc.length = 1 := by omega
          rw [h1]
          simp
        · rw [if_neg hfull]
          have hl : (acc ++ [(SearchResultInfo.clone r).flip _player]).length
              = acc.length + 1 := by simp
          rw [ih _ (by omega), hl]
          have h1 : _max_pvs.toNat - acc.length = (_max_pvs.toNat - (acc.length + 1)) + 1 := by
            rw [hl] at hfull
            omega
          rw [h1, List.take_succ_cons]
          simp

/-- What the entry of a move says about the move, in a state that satisfies the invariant. -/
theorem MpvContext.entry_spec (_player : Color) (s : MoveSearchState) (e : SearchResultInfo)
    (hr : ∀ r, s.last_result = some r → r.best_move = s.m ∧ Score.I32 r.eval)
    (hx : ∀ v, s.last_score = PartialScore.Exactly v → ∃ r, s.last_result = some r ∧ r.eval = v)
    (he : MpvContext.entry _player s = some e) :
    s.last_result = some (e.flip _player) ∧
    s.last_score = PartialScore.Exactly (MpvContext.pov _player e) ∧
    e.best_move = s.m := by
  unfold MpvContext.entry at he
  cases hlr : s.last_result with
  | none => rw [hlr] at he; cases he
  | some r =>
    rw [hlr] at he
    cases hls : s.last_score with
    | AtMost v => rw [hls] at he; simp [PartialScore.is_exact] at he
    | Exactly v =>
      rw [hls] at he
      simp only [PartialScore.is_exact, if_true, Option.some.injEq] at he
      obtain ⟨hbm, hI⟩ := hr r hlr
      obtain ⟨r2, hr2, hv⟩ := hx v hls
      rw [hlr] at hr2
      cases hr2
      subst he
      rw [SearchResultInfo.clone_eq]
      unfold SearchResultInfo.flip MpvContext.pov
      by_cases hc : _player = Color.Black
      · rw [if_pos hc, if_pos hc, if_pos hc]
        show some r = some { r with eval := Score.neg (Score.neg r.eval) } ∧
          PartialScore.Exactly v = PartialScore.Exactly (Score.neg (Score.neg r.eval)) ∧
          r.best_move = s.m
        rw [Score.neg_neg_I32 _ hI]
        subst hv
        exact ⟨rfl, rfl, hbm⟩
      · rw [if_neg hc, if_neg hc, if_neg hc]
        subst hv
        exact ⟨rfl, rfl, hbm⟩

theorem SearchResultInfo.flip_depth (r : SearchResultInfo) (c : Color) :
    (r.flip c).depth = r.depth := by
  unfold SearchResultInfo.flip
  split_ifs <;> rfl

theorem MpvContext.not_better_order (_player : Color) (s1 s2 : MoveSearchState)
    (e1 e2 : SearchResultInfo)
    (h1r : s1.last_result = some (e1.flip _player))
    (h1s : s1.last_score = PartialScore.Exactly (MpvContext.pov _player e1))
    (h1m : e1.best_move = s1.m)
    (h2r : s2.last_result = some (e2.flip _player))
    (h2s : s2.last_score = PartialScore.Exactly (MpvContext.pov _player e2))
    (h2m : e2.best_move = s2.m)
    (hnb : MpvContext.is_better_than s2 s1 = false) :
    MpvContext.best_first _player e1 e2 := by
  unfold MpvContext.is_better_than at hnb
  rw [h1r, h1s, h2r, h2s] at hnb
  simp only [PartialScore.is_exact, PartialScore.exact_score, Bool.not_true, Bool.and_self,
    Bool.false_eq_true, if_false, SearchResultInfo.flip_depth] at hnb
  unfold MpvContext.best_first
  rw [h1m, h2m]
  generalize MpvContext.pov _player e1 = v1 at hnb ⊢
  generalize MpvContext.pov _player e2 = v2 at hnb ⊢
  by_cases hv : v2 ≠ v1
  · rw [if_pos hv] at hnb
    have : ¬ (v2 > v1) := by simpa using hnb
    left; omega
  · rw [if_neg hv] at hnb
    have hv2 : v2 = v1 := by omega
    right
    refine ⟨hv2.symm, ?_⟩
    by_cases hd : e2.depth ≠ e1.depth
    · rw [if_pos hd] at hnb
      have : ¬ (e2.depth > e1.depth) := by simpa using hnb
      left; omega
    · rw [if_neg hd] at hnb
      right
      exact ⟨by omega, hnb⟩

theorem Move.lt_iff (a b : Move) : Move.lt a b = true ↔ (a.o < b.o ∨ (a.o = b.o ∧ a.d < b.d)) := by
  unfold Move.lt
  split_ifs with h
  · simp only [decide_eq_true_eq]; omega
  · simp only [decide_eq_true_eq]
    have : a.o = b.o := by simpa using h
    omega

theorem Move.lt_false_iff (a b : Move) :
    Move.lt a b = false ↔ (b.o < a.o ∨ (a.o = b.o ∧ b.d ≤ a.d)) := by
  cases h : Move.lt a b
  · have := (Move.lt_iff a b).not.mp (by rw [h]; decide)
    simp only [true_iff]; omega
  · have := (Move.lt_iff a b).mp h
    simp only [Bool.true_eq_false, false_iff]; omega

theorem MpvContext.better_total (a b : MoveSearchState) :
    MpvContext.is_better_than b a = false ∨ MpvContext.is_better_than a b = false := by
  rcases a with ⟨ma, ta, na, ra, sa⟩
  rcases b with ⟨mb, tb, nb, rb, sb⟩
  unfold MpvContext.is_better_than
  cases sa <;> cases sb <;> cases ra <;> cases rb <;>
    simp only [PartialScore.is_exact, PartialScore.exact_score, Bool.not_true, Bool.not_false,
      Bool.and_self, Bool.and_true, Bool.and_false, Bool.true_and, Bool.false_and,
      Bool.false_eq_true, if_false, if_true, or_true, true_or, or_self] <;>
    (try split_ifs) <;>
    simp only [decide_eq_false_iff_not, Move.lt_false_iff, or_true, true_or, or_self,
      Bool.true_eq_false, or_false, false_or] <;>
    omega

theorem MpvContext.better_trans (a b c : MoveSearchState)
    (h1 : MpvContext.is_better_than b a = false) (h2 : MpvContext.is_better_than c b = false) :
    MpvContext.is_better_than c a = false := by
  rcases a with ⟨ma, ta, na, ra, sa⟩
  rcases b with ⟨mb, tb, nb, rb, sb⟩
  rcases c with ⟨mc, tc, nc, rc, sc⟩
  unfold MpvContext.is_better_than at h1 h2 ⊢
  cases sa <;> cases sb <;> cases sc <;> cases ra <;> cases rb <;> cases rc <;>
    simp only [PartialScore.is_exact, PartialScore.exact_score, Bool.not_true, Bool.not_false,
      Bool.and_self, Bool.and_true, Bool.and_false, Bool.true_and, Bool.false_and,
      Bool.false_eq_true, if_false, if_true, Bool.true_eq_false] at h1 h2 ⊢ <;>
    (try split_ifs at h1 h2 ⊢) <;>
    simp only [decide_eq_false_iff_not, Move.lt_false_iff, Bool.true_eq_false] at h1 h2 ⊢ <;>
    omega

/-- A sort by insertion is one implementation of `std::sort` for `is_better_than`. -/
theorem MpvContext.stable_sort_contract (l : List MoveSearchState) :
    SortContract MpvContext.is_better_than l (stable_sort MpvContext.is_better_than l) := by
  haveI : IsTotal MoveSearchState (fun a b => MpvContext.is_better_than b a = false) :=
    ⟨fun a b => MpvContext.better_total a b⟩
  haveI : IsTrans MoveSearchState (fun a b => MpvContext.is_better_than b a = false) :=
    ⟨fun a b c h1 h2 => MpvContext.better_trans a b c h1 h2⟩
  exact ⟨List.perm_insertionSort _ l,
    List.sorted_insertionSort (fun a b : MoveSearchState =>
      MpvContext.is_better_than b a = false) l⟩

/-- The invariant holds when `search_multi_pv` has filled `_legal_moves`. -/
theorem MpvContext.Inv_create (max_pvs : Int) (player : Color) (moves : List Move) :
    MpvContext.Inv (MpvContext.create max_pvs player moves) := by
  intro s hs
  unfold MpvContext.create at hs
  obtain ⟨m, _, rfl⟩ := List.mem_map.mp hs
  constructor
  · intro r hr
    cases hr
  · intro v hv
    cases hv

/-- C27: in a state of the multi-PV driver (`_max_pvs > 0` as the constructor asserts, the
invariant of the stored results), when `update_result` is called for the move at index `i`
with a 32-bit score and `std::sort` meets its contract, it returns; the list passed to
`_on_update` has at most `_max_pvs` entries; every entry is the stored result of a root move
whose latest score is exact, with the evaluation negated when Black is the root side; the
entries are ordered best first for the root side: greater score from that side's point of
view, then greater depth, then the order of `Move::operator<` (origin, then destination);
and the list kept as the final result is this list when it is not empty (and the list kept
before otherwise).  The invariant holds again in the new state. -/
theorem C27_update_result_emits_best_first
    (sort : (MoveSearchState → MoveSearchState → Bool) → List MoveSearchState →
      List MoveSearchState)
    (ctx : MpvContext) (m : Move) (i : Nat) (result : SearchResultOneDepth)
    (ellapsed depth lower_bound : Int)
    (hmax : 0 < ctx._max_pvs)
    (hinv : MpvContext.Inv ctx)
    (hm : ∃ st, ctx._legal_moves[i]? = some st ∧ st.m = m)
    (hscore : Score.I32 result._score)
    (hsort : ∀ l, SortContract MpvContext.is_better_than l (sort MpvContext.is_better_than l)) :
    ∃ ctx1 emitted,
      MpvContext.update_result sort ctx m i result ellapsed depth lower_bound
        = some (ctx1, emitted) ∧
      MpvContext.Inv ctx1 ∧
      ctx1._max_pvs = ctx._max_pvs ∧ ctx1._player = ctx._player ∧
      ctx1._legal_moves.map (fun s => s.m) = ctx._legal_moves.map (fun s => s.m) ∧
      (emitted.length : Int) ≤ ctx._max_pvs ∧
      (∀ e ∈ emitted, ∃ s ∈ ctx1._legal_moves, s.m = e.best_move ∧
        s.last_score = PartialScore.Exactly (MpvContext.pov ctx._player e) ∧
        s.last_result = some (e.flip ctx._player)) ∧
      emitted.Pairwise (MpvContext.best_first ctx._player) ∧
      ctx1._latest_search_result
        = (if emitted = [] then ctx._latest_search_result else emitted) := by
  obtain ⟨st, hst, hstm⟩ := hm
  have hi : i < ctx._legal_moves.length := by
    rcases Nat.lt_or_ge i ctx._legal_moves.length with h | h
    · exact h
    · rw [List.getElem?_eq_none h] at hst; cases hst
  generalize hst1 : ({ st with
        last_result := some (SearchResultInfo.create m result._pv result._score
          ctx._node_count depth ellapsed)
        last_score :=
          if result._score ≤ lower_bound then PartialScore.at_most lower_bound
          else PartialScore.exactly result._score } : MoveSearchState) = st1
  generalize hlegal : ctx._legal_moves.set i st1 = legal
  generalize hsorted : MpvContext.sort_moves sort legal = sorted
  generalize hres : MpvContext.collect ctx._max_pvs ctx._player sorted [] = results
  have hupd : MpvContext.update_result sort ctx m i result ellapsed depth lower_bound
      = some ({ ctx with _legal_moves := legal, _latest_search_result :=
          if results.isEmpty then ctx._latest_search_result
          else results.map SearchResultInfo.clone }, results) := by
    unfold MpvContext.update_result
    rw [hst]
    simp only
    rw [hst1, hlegal, hsorted, hres]
  have hres2 : results
      = (sorted.filterMap (MpvContext.entry ctx._player)).take ctx._max_pvs.toNat := by
    rw [← hres, MpvContext.collect_eq _ _ _ [] (by simpa using hmax)]
    simp
  have hinv1 : ∀ s ∈ legal,
      (∀ r, s.last_result = some r → r.best_move = s.m ∧ Score.I32 r.eval) ∧
      (∀ v, s.last_score = PartialScore.Exactly v →
        ∃ r, s.last_result = some r ∧ r.eval = v) := by
    intro s hs
    rw [← hlegal] at hs
    rcases List.mem_or_eq_of_mem_set hs with h | h
    · exact hinv s h
    · subst h
      subst hst1
      constructor
      · intro r hr
        simp only [Option.some.injEq] at hr
        subst hr
        exact ⟨hstm.symm, hscore⟩
      · intro v hv
        refine ⟨_, rfl, ?_⟩
        simp only at hv
        split_ifs at hv
        · cases hv
        · simp only [PartialScore.exactly, PartialScore.Exactly.injEq] at hv
          exact hv
  have hperm : sorted.Perm legal := by
    rw [← hsorted]; exact (hsort legal).1
  have hpw : sorted.Pairwise (fun a b => MpvContext.is_better_than b a = false) := by
    rw [← hsorted]; exact (hsort legal).2
  have hmoves : legal.map (fun s => s.m) = ctx._legal_moves.map (fun s => s.m) := by
    rw [← hlegal, List.map_set]
    have : st1.m = st.m := by subst hst1; rfl
    rw [this]
    apply List.ext_getElem?
    intro n
    by_cases hn : i = n
    · subst hn
      rw [List.getElem?_set_self, List.getElem?_map, hst]
      · rfl
      · simpa using hi
    · rw [List.getElem?_set_ne hn]
  refine ⟨_, results, hupd, hinv1, rfl, rfl, hmoves, ?_, ?_, ?_, ?_⟩
  · rw [hres2, List.length_take]
    have : (min ctx._max_pvs.toNat
      (sorted.filterMap (MpvContext.entry ctx._player)).length : Int) ≤ ctx._max_pvs.toNat := by
      exact_mod_cast Nat.min_le_left _ _
    omega
  · intro e he
    rw [hres2] at he
    have he2 := List.mem_of_mem_take he
    obtain ⟨s, hs, hse⟩ := List.mem_filterMap.mp he2
    have hsl : s ∈ legal := hperm.mem_iff.mp hs
    obtain ⟨h1, h2, h3⟩ := MpvContext.entry_spec ctx._player s e (hinv1 s hsl).1
      (hinv1 s hsl).2 hse
    exact ⟨s, hsl, h3.symm, h2, h1⟩
  · rw [hres2]
    refine List.Pairwise.sublist (List.take_sublist _ _) ?_
    have hpw2 := List.Pairwise.and_mem.mp hpw
    refine List.Pairwise.filterMap _ ?_ hpw2
    intro a b ⟨ha, hb, hab⟩ e1 he1 e2 he2
    have hal : a ∈ legal := hperm.mem_iff.mp ha
    have hbl : b ∈ legal := hperm.mem_iff.mp hb
    obtain ⟨a1, a2, a3⟩ := MpvContext.entry_spec ctx._player a e1 (hinv1 a hal).1
      (hinv1 a hal).2 he1
    obtain ⟨b1, b2, b3⟩ := MpvContext.entry_spec ctx._player b e2 (hinv1 b hbl).1
      (hinv1 b hbl).2 he2
    exact MpvContext.not_better_order ctx._player a b e1 e2 a1 a2 a3 b1 b2 b3 hab
  · show (if results.isEmpty then ctx._latest_search_result
          else results.map SearchResultInfo.clone) = _
    have hmap : results.map SearchResultInfo.clone = results := by
      have : (SearchResultInfo.clone : SearchResultInfo → SearchResultInfo) = id := by
        funext r; rfl
      rw [this, List.map_id]
    rw [hmap]
    cases results with
    | nil => rfl
    | cons x xs => simp

/-- C27 on a state: for Black with `_max_pvs = 2`, after the result 50 of `d7d5` at depth 2 the
emitted list is `d7d5` (evaluation -50), then `g8f6` (evaluation -30, depth 3); `e7e5`
(evaluation -30, depth 2) is third and is cut. -/
theorem C27_update_result_emits_best_first_witness :
    0 < MpvContext.sample._max_pvs ∧
    MpvContext.Inv MpvContext.sample ∧
    Score.I32 50 ∧
    (MpvContext.update_result stable_sort MpvContext.sample ⟨51, 35, PieceType.CLEAR⟩ 1
        ⟨50, some ⟨51, 35, PieceType.CLEAR⟩, [⟨51, 35, PieceType.CLEAR⟩], 7⟩ 30 2 (-100)).map
        (fun x => x.2)
      = some [⟨⟨51, 35, PieceType.CLEAR⟩, -50, [⟨51, 35, PieceType.CLEAR⟩], 2, 30, 120⟩,
          ⟨⟨62, 45, PieceType.CLEAR⟩, -30, [⟨62, 45, PieceType.CLEAR⟩], 3, 20, 90⟩] ∧
    ∃ ctx1 emitted,
      MpvContext.update_result stable_sort MpvContext.sample ⟨51, 35, PieceType.CLEAR⟩ 1
        ⟨50, some ⟨51, 35, PieceType.CLEAR⟩, [⟨51, 35, PieceType.CLEAR⟩], 7⟩ 30 2 (-100)
        = some (ctx1, emitted) ∧
      (emitted.length : Int) ≤ 2 ∧
      emitted.Pairwise (MpvContext.best_first Color.Black) ∧
      ctx1._latest_search_result = emitted := by
  have hinv : MpvContext.Inv MpvContext.sample := by
    intro s hs
    simp only [MpvContext.sample, List.mem_cons, List.mem_singleton, List.not_mem_nil,
      or_false] at hs
    rcases hs with rfl | rfl | rfl
    · refine ⟨fun r hr => ?_, fun v hv => ?_⟩
      · cases hr; exact ⟨rfl, by decide, by decide⟩
      · cases hv; exact ⟨_, rfl, rfl⟩
    · refine ⟨fun r hr => ?_, fun v hv => ?_⟩
      · cases hr
      · cases hv
    · refine ⟨fun r hr => ?_, fun v hv => ?_⟩
      · cases hr; exact ⟨rfl, by decide, by decide⟩
      · cases hv; exact ⟨_, rfl, rfl⟩
  have hI : Score.I32 50 := ⟨by decide, by decide⟩
  have hev : (MpvContext.update_result stable_sort MpvContext.sample ⟨51, 35, PieceType.CLEAR⟩ 1
        ⟨50, some ⟨51, 35, PieceType.CLEAR⟩, [⟨51, 35, PieceType.CLEAR⟩], 7⟩ 30 2 (-100)).map
        (fun x => x.2)
      = some [⟨⟨51, 35, PieceType.CLEAR⟩, -50, [⟨51, 35, PieceType.CLEAR⟩], 2, 30, 120⟩,
          ⟨⟨62, 45, PieceType.CLEAR⟩, -30, [⟨62, 45, PieceType.CLEAR⟩], 3, 20, 90⟩] := by
    decide
  refine ⟨by decide, hinv, hI, hev, ?_⟩
  obtain ⟨ctx1, emitted, h1, _, _, _, _, h6, _, h8, h9⟩ :=
    C27_update_result_emits_best_first stable_sort MpvContext.sample ⟨51, 35, PieceType.CLEAR⟩ 1
      ⟨50, some ⟨51, 35, PieceType.CLEAR⟩, [⟨51, 35, PieceType.CLEAR⟩], 7⟩ 30 2 (-100)
      (by decide) hinv ⟨_, rfl, rfl⟩ hI MpvContext.stable_sort_contract
  refine ⟨ctx1, emitted, h1, h6, h8, ?_⟩
  rw [h9]
  have hne : emitted ≠ [] := by
    intro he
    rw [h1] at hev
    simp only [Option.map_some', Option.some.injEq] at hev
    rw [he] at hev
    cases hev
  rw [if_neg hne]

theorem is_valid_place_iff (l c : Int) :
    BitBoard.is_valid_place l c = true ↔ (0 ≤ l ∧ l < 8 ∧ 0 ≤ c ∧ c < 8) := by
  unfold BitBoard.is_valid_place
  simp only [decide_eq_true_eq]

theorem set_place_testBit (bb : Nat) (l c : Int) (h : BitBoard.is_valid_place l c = true)
    (t : Nat) :
    (BitBoard.set bb (Place.of_line_of_col l c)).testBit t = true ↔
      (bb.testBit t = true ∨ (t : Int) = l * 8 + c) := by
  have hv := (is_valid_place_iff l c).1 h
  rw [of_line_of_col_eq hv.1 hv.2.1 hv.2.2.1 hv.2.2.2, testBit_set (by omega) (by omega)]
  simp only [Bool.or_eq_true, decide_eq_true_eq]
  constructor
  · rintro (h1 | h1)
    · exact Or.inl h1
    · right; omega
  · rintro (h1 | h1)
    · exact Or.inl h1
    · right; omega

/-- The squares that one direction of a bishop loop sets: the squares of the ray from `(l, c)`
up to the first one whose column is set in `m`, that one included. -/
theorem diag_scan_testBit (m : Nat) (dl dc : Int) (hdl : dl = 1 ∨ dl = -1)
    (hdc : dc = 1 ∨ dc = -1) (t : Nat) :
    ∀ (fuel : Nat) (l c : Int) (bb : Nat),
      (BitBoard.diag_scan m dl dc fuel l c bb).testBit t = true ↔
        (bb.testBit t = true ∨ ∃ k : Nat, k < fuel ∧
          (∀ j : Nat, j ≤ k → BitBoard.is_valid_place (l + j * dl) (c + j * dc) = true) ∧
          (∀ j : Nat, j < k → BitBoard.tmp m (c + j * dc) = 0) ∧
          (t : Int) = (l + k * dl) * 8 + (c + k * dc)) := by
  intro fuel
  induction fuel with
  | zero =>
    intro l c bb
    unfold BitBoard.diag_scan
    constructor
    · intro h; exact Or.inl h
    · rintro (h | ⟨k, hk, _⟩)
      · exact h
      · omega
  | succ fuel ih =>
    intro l c bb
    unfold BitBoard.diag_scan
    by_cases hv : BitBoard.is_valid_place l c = true
    · rw [if_pos hv]
      by_cases ht : BitBoard.tmp m c = 0
      · rw [if_pos ht, ih, set_place_testBit _ _ _ hv]
        constructor
        · rintro ((h | h) | ⟨k, hk, h1, h2, h3⟩)
          · exact Or.inl h
          · refine Or.inr ⟨0, by omega, ?_, ?_, ?_⟩
            · intro j hj
              have : j = 0 := by omega
              subst this
              simpa using hv
            · intro j hj; omega
            · simpa using h
          · refine Or.inr ⟨k + 1, by omega, ?_, ?_, ?_⟩
            · intro j hj
              rcases Nat.eq_zero_or_pos j with h0 | h0
              · subst h0; simpa using hv
              · have := h1 (j - 1) (by omega)
                have e1 : l + dl + ((j - 1 : Nat) : Int) * dl = l + (j : Int) * dl := by
                  rcases hdl with rfl | rfl <;> omega
                have e2 : c + dc + ((j - 1 : Nat) : Int) * dc = c + (j : Int) * dc := by
                  rcases hdc with rfl | rfl <;> omega
                rw [e1, e2] at this
                exact this
            · intro j hj
              rcases Nat.eq_zero_or_pos j with h0 | h0
              · subst h0; simpa using ht
              · have := h2 (j - 1) (by omega)
                have e2 : c + dc + ((j - 1 : Nat) : Int) * dc = c + (j : Int) * dc := by
                  rcases hdc with rfl | rfl <;> omega
                rw [e2] at this
                exact this
            · rw [h3]
              rcases hdl with rfl | rfl <;> rcases hdc with rfl | rfl <;> omega
        · rintro (h | ⟨k, hk, h1, h2, h3⟩)
          · exact Or.inl (Or.inl h)
          · rcases Nat.eq_zero_or_pos k with h0 | h0
            · subst h0
              left; right
              simpa using h3
            · right
              refine ⟨k - 1, by omega, ?_, ?_, ?_⟩
              · intro j hj
                have := h1 (j + 1) (by omega)
                have e1 : l + ((j + 1 : Nat) : Int) * dl = l + dl + (j : Int) * dl := by
                  rcases hdl with rfl | rfl <;> omega
                have e2 : c + ((j + 1 : Nat) : Int) * dc = c + dc + (j : Int) * dc := by
                  rcases hdc with rfl | rfl <;> omega
                rw [e1, e2] at this
                exact this
              · intro j hj
                have := h2 (j + 1) (by omega)
                have e2 : c + ((j + 1 : Nat) : Int) * dc = c + dc + (j : Int) * dc := by
                  rcases hdc with rfl | rfl <;> omega
                rw [e2] at this
                exact this
              · rw [h3]
                rcases hdl with rfl | rfl <;> rcases hdc with rfl | rfl <;> omega
      · rw [if_neg ht, set_place_testBit _ _ _ hv]
        constructor
        · rintro (h | h)
          · exact Or.inl h
          · refine Or.inr ⟨0, by omega, ?_, ?_, ?_⟩
            · intro j hj
              have : j = 0 := by omega
              subst this
              simpa using hv
            · intro j hj; omega
            · simpa using h
        · rintro (h | ⟨k, hk, h1, h2, h3⟩)
          · exact Or.inl h
          · rcases Nat.eq_zero_or_pos k with h0 | h0
            · subst h0
              right
              simpa using h3
            · exfalso
              have := h2 0 h0
              simp at this
              exact ht this
    · rw [if_neg hv]
      constructor
      · intro h; exact Or.inl h
      · rintro (h | ⟨k, hk, h1, h2, h3⟩)
        · exact h
        · exfalso
          have := h1 0 (by omega)
          simp at this
          exact hv this

theorem add_eq_or_of_and_eq_zero (a b : Nat) (h : a &&& b = 0) : a + b = a ||| b := by
  have hw : a + b < 2 ^ (a + b) := Nat.lt_two_pow _
  have ha : a < 2 ^ (a + b) := by omega
  have hb : b < 2 ^ (a + b) := by omega
  have hz : BitVec.ofNat (a + b) a &&& BitVec.ofNat (a + b) b = 0#(a + b) := by
    apply BitVec.eq_of_toNat_eq
    simp only [BitVec.toNat_and, BitVec.toNat_ofNat, Nat.mod_eq_of_lt ha, Nat.mod_eq_of_lt hb, h]
    rfl
  have := congrArg BitVec.toNat (BitVec.add_eq_or_of_and_eq_zero _ _ hz)
  simp only [BitVec.toNat_add, BitVec.toNat_or, BitVec.toNat_ofNat, Nat.mod_eq_of_lt ha,
    Nat.mod_eq_of_lt hb, Nat.mod_eq_of_lt hw] at this
  exact this

theorem byte_sum (x : Nat) (hx : x < 2 ^ 32)
    (hs : x % 256 + x / 256 % 256 + x / 65536 % 256 + x / 16777216 % 256 < 256) :
    ((x * BitBoard.diag_rotate_code) % 2 ^ 32) >>> 24
      = x % 256 + x / 256 % 256 + x / 65536 % 256 + x / 16777216 % 256 := by
  unfold BitBoard.diag_rotate_code
  rw [Nat.shiftRight_eq_div_pow]
  norm_num at hx ⊢
  have e1 : x / 65536 = x / 256 / 256 := by rw [Nat.div_div_eq_div_mul]
  have e2 : x / 16777216 = x / 256 / 256 / 256 := by
    rw [Nat.div_div_eq_div_mul, Nat.div_div_eq_div_mul]
  have hx2 : x = x % 256 + 256 * (x / 256 % 256) + 65536 * (x / 65536 % 256)
      + 16777216 * (x / 16777216 % 256) := by
    rw [e1, e2]; omega
  generalize x % 256 = b0 at hs hx2 ⊢
  generalize x / 256 % 256 = b1 at hs hx2 ⊢
  generalize x / 65536 % 256 = b2 at hs hx2 ⊢
  generalize x / 16777216 % 256 = b3 at hs hx2 ⊢
  subst hx2
  have hmod : (b0 + 256 * b1 + 65536 * b2 + 16777216 * b3) * 16843009 % 4294967296
      = b0 + 256 * (b0 + b1) + 65536 * (b0 + b1 + b2) + 16777216 * (b0 + b1 + b2 + b3) := by
    omega
  rw [hmod]
  omega

theorem byte_testBit (x n c : Nat) :
    (x / 2 ^ n % 256).testBit c = (decide (c < 8) && x.testBit (n + c)) := by
  have h : (256 : Nat) = 2 ^ 8 := by norm_num
  rw [h, Nat.testBit_mod_two_pow, ← Nat.shiftRight_eq_div_pow, Nat.testBit_shiftRight]

theorem byte_lt (x n : Nat) : x / 2 ^ n % 256 < 2 ^ 8 := by
  have := Nat.mod_lt (x / 2 ^ n) (show 256 > 0 by norm_num)
  norm_num
  exact this

/-- The multiply-shift by `diag_rotate_code` gathers the four bytes of a 32-bit word into one
byte when no column has two bits. -/
theorem gather_testBit (x : Nat) (hx : x < 2 ^ 32)
    (hd : ∀ i j c : Nat, i < 4 → j < 4 → c < 8 → i ≠ j →
      x.testBit (8 * i + c) = true → x.testBit (8 * j + c) = false) (c : Nat) :
    (((x * BitBoard.diag_rotate_code) % 2 ^ 32) >>> 24).testBit c
      = (decide (c < 8) && (x.testBit c || x.testBit (8 + c) || x.testBit (16 + c) ||
          x.testBit (24 + c))) := by
  have hb0 : x % 256 = x / 2 ^ 0 % 256 := by simp
  have hb1 : x / 256 % 256 = x / 2 ^ 8 % 256 := by norm_num
  have hb2 : x / 65536 % 256 = x / 2 ^ 16 % 256 := by norm_num
  have hb3 : x / 16777216 % 256 = x / 2 ^ 24 % 256 := by norm_num
  have hdis : ∀ i j c : Nat, i < 4 → j < 4 → i ≠ j →
      (decide (c < 8) && x.testBit (8 * i + c) && (decide (c < 8) && x.testBit (8 * j + c)))
        = false := by
    intro i j c hi hj hij
    by_cases hc : c < 8
    · cases h1 : x.testBit (8 * i + c)
      · simp
      · rw [hd i j c hi hj hc hij h1]; simp
    · simp [hc]
  have d01 : (x / 2 ^ 0 % 256) &&& (x / 2 ^ 8 % 256) = 0 := by
    apply Nat.eq_of_testBit_eq
    intro k
    rw [Nat.testBit_and, byte_testBit, byte_testBit, Nat.zero_testBit]
    exact hdis 0 1 k (by norm_num) (by norm_num) (by norm_num)
  have d012 : ((x / 2 ^ 0 % 256) ||| (x / 2 ^ 8 % 256)) &&& (x / 2 ^ 16 % 256) = 0 := by
    apply Nat.eq_of_testBit_eq
    intro k
    rw [Nat.testBit_and, Nat.testBit_or, byte_testBit, byte_testBit, byte_testBit,
      Nat.zero_testBit]
    have h1 := hdis 0 2 k (by norm_num) (by norm_num) (by norm_num)
    have h2 := hdis 1 2 k (by norm_num) (by norm_num) (by norm_num)
    simp only [Nat.mul_zero, Nat.mul_one, Nat.reduceMul] at h1 h2
    revert h1 h2
    generalize decide (k < 8) = a
    generalize x.testBit (0 + k) = b0
    generalize x.testBit (8 + k) = b1
    generalize x.testBit (16 + k) = b2
    cases a <;> cases b0 <;> cases b1 <;> cases b2 <;> decide
  have d0123 : ((x / 2 ^ 0 % 256) ||| (x / 2 ^ 8 % 256) ||| (x / 2 ^ 16 % 256))
      &&& (x / 2 ^ 24 % 256) = 0 := by
    apply Nat.eq_of_testBit_eq
    intro k
    rw [Nat.testBit_and, Nat.testBit_or, Nat.testBit_or, byte_testBit, byte_testBit,
      byte_testBit, byte_testBit, Nat.zero_testBit]
    have h1 := hdis 0 3 k (by norm_num) (by norm_num) (by norm_num)
    have h2 := hdis 1 3 k (by norm_num) (by norm_num) (by norm_num)
    have h3 := hdis 2 3 k (by norm_num) (by norm_num) (by norm_num)
    simp only [Nat.mul_zero, Nat.mul_one, Nat.reduceMul] at h1 h2 h3
    revert h1 h2 h3
    generalize decide (k < 8) = a
    generalize x.testBit (0 + k) = b0
    generalize x.testBit (8 + k) = b1
    generalize x.testBit (16 + k) = b2
    generalize x.testBit (24 + k) = b3
    cases a <;> cases b0 <;> cases b1 <;> cases b2 <;> cases b3 <;> decide
  have hsum : x % 256 + x / 256 % 256 + x / 65536 % 256 + x / 16777216 % 256
      = (x / 2 ^ 0 % 256) ||| (x / 2 ^ 8 % 256) ||| (x / 2 ^ 16 % 256) ||| (x / 2 ^ 24 % 256) := by
    rw [hb0, hb1, hb2, hb3, add_eq_or_of_and_eq_zero _ _ d01, add_eq_or_of_and_eq_zero _ _ d012,
      add_eq_or_of_and_eq_zero _ _ d0123]
  have hlt : (x / 2 ^ 0 % 256) ||| (x / 2 ^ 8 % 256) ||| (x / 2 ^ 16 % 256) |||
      (x / 2 ^ 24 % 256) < 2 ^ 8 :=
    Nat.or_lt_two_pow (Nat.or_lt_two_pow (Nat.or_lt_two_pow (byte_lt _ _) (byte_lt _ _))
      (byte_lt _ _)) (byte_lt _ _)
  rw [byte_sum x hx (by rw [hsum]; simpa using hlt), hsum, Nat.testBit_or, Nat.testBit_or,
    Nat.testBit_or, byte_testBit, byte_testBit, byte_testBit, byte_testBit]
  cases decide (c < 8) <;> simp

theorem m_lower_testBit (b k : Nat) :
    (BitBoard.m_lower b).testBit k = (decide (k < 32) && b.testBit k) := by
  unfold BitBoard.m_lower
  rw [Nat.testBit_mod_two_pow]

theorem m_upper_testBit (b k : Nat) :
    (BitBoard.m_upper b).testBit k = (decide (k < 32) && b.testBit (32 + k)) := by
  unfold BitBoard.m_upper
  rw [Nat.testBit_mod_two_pow, ← Nat.shiftRight_eq_div_pow, Nat.testBit_shiftRight]

theorem and_mask_lt (y M : Nat) (hy : y < 2 ^ 32) : y &&& M < 2 ^ 32 :=
  Nat.lt_of_le_of_lt Nat.and_le_left hy

/-- The byte of a diagonal: with masks that hold the squares `(l, c)` with `f l c`, at most one
per column, bit `c` of the two gathered halves says whether the square of column `c` is set. -/
theorem get_diag_generic (B Mlo Mhi : Nat) (f : Nat → Nat → Bool)
    (hlo : ∀ i c : Nat, i < 4 → c < 8 → Mlo.testBit (8 * i + c) = f i c)
    (hhi : ∀ i c : Nat, i < 4 → c < 8 → Mhi.testBit (8 * i + c) = f (i + 4) c)
    (huniq : ∀ i j c : Nat, i < 8 → j < 8 → c < 8 → f i c = true → f j c = true → i = j)
    (c : Nat) :
    ((((BitBoard.m_lower B &&& Mlo) * BitBoard.diag_rotate_code) % 2 ^ 32) >>> 24 |||
      (((BitBoard.m_upper B &&& Mhi) * BitBoard.diag_rotate_code) % 2 ^ 32) >>> 24).testBit c
        = true ↔
      c < 8 ∧ ∃ l : Nat, l < 8 ∧ f l c = true ∧ B.testBit (8 * l + c) = true := by
  have hl32 : BitBoard.m_lower B < 2 ^ 32 := by
    unfold BitBoard.m_lower; exact Nat.mod_lt _ (by norm_num)
  have hu32 : BitBoard.m_upper B < 2 ^ 32 := by
    unfold BitBoard.m_upper; exact Nat.mod_lt _ (by norm_num)
  have tlo : ∀ i c : Nat, i < 4 → c < 8 →
      (BitBoard.m_lower B &&& Mlo).testBit (8 * i + c) = (B.testBit (8 * i + c) && f i c) := by
    intro i c hi hc
    rw [Nat.testBit_and, m_lower_testBit, hlo i c hi hc]
    have : decide (8 * i + c < 32) = true := by simp; omega
    rw [this, Bool.true_and]
  have thi : ∀ i c : Nat, i < 4 → c < 8 →
      (BitBoard.m_upper B &&& Mhi).testBit (8 * i + c)
        = (B.testBit (8 * (i + 4) + c) && f (i + 4) c) := by
    intro i c hi hc
    rw [Nat.testBit_and, m_upper_testBit, hhi i c hi hc]
    have : decide (8 * i + c < 32) = true := by simp; omega
    have e : 32 + (8 * i + c) = 8 * (i + 4) + c := by omega
    rw [this, Bool.true_and, e]
  have dlo : ∀ i j c : Nat, i < 4 → j < 4 → c < 8 → i ≠ j →
      (BitBoard.m_lower B &&& Mlo).testBit (8 * i + c) = true →
      (BitBoard.m_lower B &&& Mlo).testBit (8 * j + c) = false := by
    intro i j c hi hj hc hij h1
    rw [tlo i c hi hc] at h1
    rw [tlo j c hj hc]
    cases hf : f j c
    · simp
    · exfalso
      have h2 : f i c = true := by
        cases hfi : f i c
        · rw [hfi] at h1; simp at h1
        · rfl
      exact hij (huniq i j c (by omega) (by omega) hc h2 hf)
  have dhi : ∀ i j c : Nat, i < 4 → j < 4 → c < 8 → i ≠ j →
      (BitBoard.m_upper B &&& Mhi).testBit (8 * i + c) = true →
      (BitBoard.m_upper B &&& Mhi).testBit (8 * j + c) = false := by
    intro i j c hi hj hc hij h1
    rw [thi i c hi hc] at h1
    rw [thi j c hj hc]
    cases hf : f (j + 4) c
    · simp
    · exfalso
      have h2 : f (i + 4) c = true := by
        cases hfi : f (i + 4) c
        · rw [hfi] at h1; simp at h1
        · rfl
      have := huniq (i + 4) (j + 4) c (by omega) (by omega) hc h2 hf
      omega
  rw [Nat.testBit_or, gather_testBit _ (and_mask_lt _ _ hl32) dlo,
    gather_testBit _ (and_mask_lt _ _ hu32) dhi]
  by_cases hc : c < 8
  · have e0 : c = 8 * 0 + c := by omega
    have e1 : 8 + c = 8 * 1 + c := by omega
    have e2 : 16 + c = 8 * 2 + c := by omega
    have e3 : 24 + c = 8 * 3 + c := by omega
    have hdc : decide (c < 8) = true := by simpa using hc
    rw [hdc, Bool.true_and, Bool.true_and]
    nth_rewrite 1 [e0]
    nth_rewrite 5 [e0]
    rw [e1, e2, e3, tlo 0 c (by norm_num) hc, tlo 1 c (by norm_num) hc,
      tlo 2 c (by norm_num) hc, tlo 3 c (by norm_num) hc, thi 0 c (by norm_num) hc,
      thi 1 c (by norm_num) hc, thi 2 c (by norm_num) hc, thi 3 c (by norm_num) hc]
    simp only [Bool.or_eq_true, Bool.and_eq_true]
    constructor
    · rintro ((((h | h) | h) | h) | (((h | h) | h) | h))
      · exact ⟨hc, 0, by norm_num, h.2, h.1⟩
      · exact ⟨hc, 1, by norm_num, h.2, h.1⟩
      · exact ⟨hc, 2, by norm_num, h.2, h.1⟩
      · exact ⟨hc, 3, by norm_num, h.2, h.1⟩
      · exact ⟨hc, 4, by norm_num, h.2, h.1⟩
      · exact ⟨hc, 5, by norm_num, h.2, h.1⟩
      · exact ⟨hc, 6, by norm_num, h.2, h.1⟩
      · exact ⟨hc, 7, by norm_num, h.2, h.1⟩
    · rintro ⟨_, l, hl, h1, h2⟩
      interval_cases l
      · exact Or.inl (Or.inl (Or.inl (Or.inl ⟨h2, h1⟩)))
      · exact Or.inl (Or.inl (Or.inl (Or.inr ⟨h2, h1⟩)))
      · exact Or.inl (Or.inl (Or.inr ⟨h2, h1⟩))
      · exact Or.inl (Or.inr ⟨h2, h1⟩)
      · exact Or.inr (Or.inl (Or.inl (Or.inl ⟨h2, h1⟩)))
      · exact Or.inr (Or.inl (Or.inl (Or.inr ⟨h2, h1⟩)))
      · exact Or.inr (Or.inl (Or.inr ⟨h2, h1⟩))
      · exact Or.inr (Or.inr ⟨h2, h1⟩)
  · have hdc : decide (c < 8) = false := by simpa using hc
    rw [hdc]
    simp only [Bool.false_and, Bool.or_self, Bool.false_eq_true, false_iff]
    rintro ⟨h, _⟩
    exact hc h

set_option maxRecDepth 1000000 in
theorem diag1_mask_bits : ∀ d : Fin 15, ∀ i : Fin 4, ∀ c : Fin 8,
    (BitBoard.diag1_mask.getD d.val (0, 0)).1.testBit (8 * i.val + c.val)
      = decide (i.val + c.val = d.val) ∧
    (BitBoard.diag1_mask.getD d.val (0, 0)).2.testBit (8 * i.val + c.val)
      = decide (i.val + 4 + c.val = d.val) := by
  decide!

set_option maxRecDepth 1000000 in
theorem diag2_mask_bits : ∀ d : Fin 15, ∀ i : Fin 4, ∀ c : Fin 8,
    (BitBoard.diag2_mask.getD d.val (0, 0)).1.testBit (8 * i.val + c.val)
      = decide (i.val + 7 = d.val + c.val) ∧
    (BitBoard.diag2_mask.getD d.val (0, 0)).2.testBit (8 * i.val + c.val)
      = decide (i.val + 4 + 7 = d.val + c.val) := by
  decide!

theorem diag_number_table : ∀ s : Fin 64,
    BitBoard.diag1_number.getD s.val 0 = s.val / 8 + s.val % 8 ∧
    BitBoard.diag2_number.getD s.val 0 + s.val % 8 = s.val / 8 + 7 := by
  decide

/-- Bit `c` of `get_diag1(d)`: the square of column `c` on the diagonal `line + col = d`. -/
theorem get_diag1_testBit (B d c : Nat) (hd : d < 15) :
    (BitBoard.get_diag1 B d).testBit c = true ↔
      c < 8 ∧ ∃ l : Nat, l < 8 ∧ l + c = d ∧ B.testBit (8 * l + c) = true := by
  unfold BitBoard.get_diag1
  rw [get_diag_generic B _ _ (fun l c => decide (l + c = d))
    (fun i c hi hc => (diag1_mask_bits ⟨d, hd⟩ ⟨i, hi⟩ ⟨c, hc⟩).1)
    (fun i c hi hc => (diag1_mask_bits ⟨d, hd⟩ ⟨i, hi⟩ ⟨c, hc⟩).2)
    (fun i j c _ _ _ h1 h2 => by
      simp only [decide_eq_true_eq] at h1 h2
      omega)]
  simp only [decide_eq_true_eq]

/-- Bit `c` of `get_diag2(d)`: the square of column `c` on the diagonal `line + 7 - col = d`. -/
theorem get_diag2_testBit (B d c : Nat) (hd : d < 15) :
    (BitBoard.get_diag2 B d).testBit c = true ↔
      c < 8 ∧ ∃ l : Nat, l < 8 ∧ l + 7 = d + c ∧ B.testBit (8 * l + c) = true := by
  unfold BitBoard.get_diag2
  rw [get_diag_generic B _ _ (fun l c => decide (l + 7 = d + c))
    (fun i c hi hc => (diag2_mask_bits ⟨d, hd⟩ ⟨i, hi⟩ ⟨c, hc⟩).1)
    (fun i c hi hc => (diag2_mask_bits ⟨d, hd⟩ ⟨i, hi⟩ ⟨c, hc⟩).2)
    (fun i j c _ _ _ h1 h2 => by
      simp only [decide_eq_true_eq] at h1 h2
      omega)]
  simp only [decide_eq_true_eq]

theorem tmp_eq_zero_iff (m : Nat) (c : Int) :
    BitBoard.tmp m c = 0 ↔ m.testBit c.toNat = false := by
  unfold BitBoard.tmp
  rw [Nat.testBit, Nat.and_comm]
  have h : 1 &&& m >>> c.toNat = (m >>> c.toNat) % 2 := by
    rw [Nat.and_comm]; exact Nat.and_one_is_mod _
  rw [h]
  have := Nat.mod_two_eq_zero_or_one (m >>> c.toNat)
  rcases this with h0 | h1
  · rw [h0]; simp
  · rw [h1]; simp

/-- One ray of a bishop table, read on the board: the squares `s + n * (dl, dc)` up to the
first set bit of `B`, when the bits of `code` are the bits of `B` on that ray. -/
theorem ray_iff (s : Nat) (hs : s < 64) (B code : Nat) (dl dc : Int)
    (hdl : dl = 1 ∨ dl = -1) (hdc : dc = 1 ∨ dc = -1) (t : Nat)
    (hcode : ∀ u n : Nat, u < 64 → 0 < n → ((u / 8 : Nat) : Int) = (s / 8 : Nat) + n * dl →
      ((u % 8 : Nat) : Int) = (s % 8 : Nat) + n * dc → code.testBit (u % 8) = B.testBit u) :
    (∃ k : Nat, k < 8 ∧
      (∀ j : Nat, j ≤ k → BitBoard.is_valid_place (Place.line (s : Int) + dl + j * dl)
        (Place.col (s : Int) + dc + j * dc) = true) ∧
      (∀ j : Nat, j < k → BitBoard.tmp code (Place.col (s : Int) + dc + j * dc) = 0) ∧
      (t : Int) = (Place.line (s : Int) + dl + k * dl) * 8 + (Place.col (s : Int) + dc + k * dc))
    ↔ (t < 64 ∧ ∃ n : Nat, 0 < n ∧ ((t / 8 : Nat) : Int) = (s / 8 : Nat) + n * dl ∧
        ((t % 8 : Nat) : Int) = (s % 8 : Nat) + n * dc ∧
        ∀ u j : Nat, u < 64 → 0 < j → j < n → ((u / 8 : Nat) : Int) = (s / 8 : Nat) + j * dl →
          ((u % 8 : Nat) : Int) = (s % 8 : Nat) + j * dc → B.testBit u = false) := by
  have el : Place.line (s : Int) = ((s / 8 : Nat) : Int) := by unfold Place.line; omega
  have ec : Place.col (s : Int) = ((s % 8 : Nat) : Int) := by unfold Place.col; omega
  rw [el, ec]
  constructor
  · rintro ⟨k, hk, h1, h2, h3⟩
    have hv := (is_valid_place_iff _ _).1 (h1 k (le_refl k))
    have ht64 : t < 64 := by
      rcases hdl with rfl | rfl <;> rcases hdc with rfl | rfl <;> omega
    refine ⟨ht64, k + 1, by omega, ?_, ?_, ?_⟩
    · rcases hdl with rfl | rfl <;> rcases hdc with rfl | rfl <;> omega
    · rcases hdl with rfl | rfl <;> rcases hdc with rfl | rfl <;> omega
    · intro u j hu hj0 hjn hul huc
      have h4 := (tmp_eq_zero_iff _ _).1 (h2 (j - 1) (by omega))
      have e : (((s % 8 : Nat) : Int) + dc + ((j - 1 : Nat) : Int) * dc).toNat = u % 8 := by
        rcases hdc with rfl | rfl <;> omega
      rw [e, hcode u j hu hj0 hul huc] at h4
      exact h4
  · rintro ⟨ht, n, hn0, htl, htc, hB⟩
    have hn8 : n < 8 := by
      rcases hdc with rfl | rfl <;> omega
    refine ⟨n - 1, by omega, ?_, ?_, ?_⟩
    · intro j hj
      rw [is_valid_place_iff]
      rcases hdl with rfl | rfl <;> rcases hdc with rfl | rfl <;> omega
    · intro j hj
      rw [tmp_eq_zero_iff]
      have hvl : 0 ≤ ((s / 8 : Nat) : Int) + (j + 1 : Nat) * dl ∧
          ((s / 8 : Nat) : Int) + (j + 1 : Nat) * dl < 8 := by
        rcases hdl with rfl | rfl <;> rcases hdc with rfl | rfl <;> omega
      have hvc : 0 ≤ ((s % 8 : Nat) : Int) + (j + 1 : Nat) * dc ∧
          ((s % 8 : Nat) : Int) + (j + 1 : Nat) * dc < 8 := by
        rcases hdl with rfl | rfl <;> rcases hdc with rfl | rfl <;> omega
      generalize hL : (((s / 8 : Nat) : Int) + (j + 1 : Nat) * dl).toNat = L
      generalize hC : (((s % 8 : Nat) : Int) + (j + 1 : Nat) * dc).toNat = C
      have hL8 : L < 8 := by omega
      have hC8 : C < 8 := by omega
      have hu1 : (8 * L + C) / 8 = L := by omega
      have hu2 : (8 * L + C) % 8 = C := by omega
      have hLi : ((L : Nat) : Int) = ((s / 8 : Nat) : Int) + (j + 1 : Nat) * dl := by omega
      have hCi : ((C : Nat) : Int) = ((s % 8 : Nat) : Int) + (j + 1 : Nat) * dc := by omega
      have hb := hB (8 * L + C) (j + 1) (by omega) (by omega) (by omega)
        (by rw [hu1]; exact hLi) (by rw [hu2]; exact hCi)
      have hcd := hcode (8 * L + C) (j + 1) (by omega) (by omega)
        (by rw [hu1]; exact hLi) (by rw [hu2]; exact hCi)
      rw [hu2, hb] at hcd
      have e : (((s % 8 : Nat) : Int) + dc + (j : Int) * dc).toNat = C := by
        rcases hdc with rfl | rfl <;> omega
      rw [e]
      exact hcd
    · rcases hdl with rfl | rfl <;> rcases hdc with rfl | rfl <;> omega

theorem code1_bit (s u B : Nat) (hs : s < 64) (hu : u < 64)
    (hdiag : u / 8 + u % 8 = s / 8 + s % 8) :
    (BitBoard.get_diag1 B (BitBoard.diag1_number.getD s 0)).testBit (u % 8) = B.testBit u := by
  have hn := (diag_number_table ⟨s, hs⟩).1
  simp only [] at hn
  have hd : BitBoard.diag1_number.getD s 0 < 15 := by rw [hn]; omega
  have h := get_diag1_testBit B _ (u % 8) hd
  rw [hn] at h ⊢
  cases hb : B.testBit u
  · cases hc : (BitBoard.get_diag1 B (s / 8 + s % 8)).testBit (u % 8)
    · rfl
    · obtain ⟨_, l, hl, hl2, hl3⟩ := h.1 hc
      have : 8 * l + u % 8 = u := by omega
      rw [this, hb] at hl3
      cases hl3
  · exact h.2 ⟨by omega, u / 8, by omega, by omega, by
      have : 8 * (u / 8) + u % 8 = u := by omega
      rw [this]; exact hb⟩

theorem code2_bit (s u B : Nat) (hs : s < 64) (hu : u < 64)
    (hdiag : u / 8 + s % 8 = s / 8 + u % 8) :
    (BitBoard.get_diag2 B (BitBoard.diag2_number.getD s 0)).testBit (u % 8) = B.testBit u := by
  have hn := (diag_number_table ⟨s, hs⟩).2
  simp only [] at hn
  have hd : BitBoard.diag2_number.getD s 0 < 15 := by omega
  have h := get_diag2_testBit B _ (u % 8) hd
  cases hb : B.testBit u
  · cases hc : (BitBoard.get_diag2 B (BitBoard.diag2_number.getD s 0)).testBit (u % 8)
    · rfl
    · obtain ⟨_, l, hl, hl2, hl3⟩ := h.1 hc
      have : 8 * l + u % 8 = u := by omega
      rw [this, hb] at hl3
      cases hl3
  · exact h.2 ⟨by omega, u / 8, by omega, by omega, by
      have : 8 * (u / 8) + u % 8 = u := by omega
      rw [this]; exact hb⟩

/-- The two rays of the diagonal `line + col`, read as "no blocker strictly between". -/
theorem diag1_rays (s t B : Nat) (hs : s < 64) :
    ((t < 64 ∧ ∃ n : Nat, 0 < n ∧ ((t / 8 : Nat) : Int) = (s / 8 : Nat) + n * (1 : Int) ∧
        ((t % 8 : Nat) : Int) = (s % 8 : Nat) + n * (-1 : Int) ∧
        ∀ u j : Nat, u < 64 → 0 < j → j < n →
          ((u / 8 : Nat) : Int) = (s / 8 : Nat) + j * (1 : Int) →
          ((u % 8 : Nat) : Int) = (s % 8 : Nat) + j * (-1 : Int) → B.testBit u = false) ∨
     (t < 64 ∧ ∃ n : Nat, 0 < n ∧ ((t / 8 : Nat) : Int) = (s / 8 : Nat) + n * (-1 : Int) ∧
        ((t % 8 : Nat) : Int) = (s % 8 : Nat) + n * (1 : Int) ∧
        ∀ u j : Nat, u < 64 → 0 < j → j < n →
          ((u / 8 : Nat) : Int) = (s / 8 : Nat) + j * (-1 : Int) →
          ((u % 8 : Nat) : Int) = (s % 8 : Nat) + j * (1 : Int) → B.testBit u = false)) ↔
    (t < 64 ∧ t ≠ s ∧ t / 8 + t % 8 = s / 8 + s % 8 ∧
      ∀ u, u / 8 + u % 8 = s / 8 + s % 8 → (s < u ∧ u < t) ∨ (t < u ∧ u < s) →
        B.testBit u = false) := by
  constructor
  · rintro (⟨ht, n, hn, h1, h2, h3⟩ | ⟨ht, n, hn, h1, h2, h3⟩)
    · refine ⟨ht, by omega, by omega, ?_⟩
      intro u hu hbt
      exact h3 u (u / 8 - s / 8) (by omega) (by omega) (by omega) (by omega) (by omega)
    · refine ⟨ht, by omega, by omega, ?_⟩
      intro u hu hbt
      exact h3 u (s / 8 - u / 8) (by omega) (by omega) (by omega) (by omega) (by omega)
  · rintro ⟨ht, hne, hd, hB⟩
    rcases Nat.lt_or_ge (s / 8) (t / 8) with h | h
    · left
      refine ⟨ht, t / 8 - s / 8, by omega, by omega, by omega, ?_⟩
      intro u j hu hj0 hjn hl hc
      exact hB u (by omega) (by omega)
    · right
      refine ⟨ht, s / 8 - t / 8, by omega, by omega, by omega, ?_⟩
      intro u j hu hj0 hjn hl hc
      exact hB u (by omega) (by omega)

/-- The two rays of the diagonal `line - col`, read as "no blocker strictly between". -/
theorem diag2_rays (s t B : Nat) (hs : s < 64) :
    ((t < 64 ∧ ∃ n : Nat, 0 < n ∧ ((t / 8 : Nat) : Int) = (s / 8 : Nat) + n * (1 : Int) ∧
        ((t % 8 : Nat) : Int) = (s % 8 : Nat) + n * (1 : Int) ∧
        ∀ u j : Nat, u < 64 → 0 < j → j < n →
          ((u / 8 : Nat) : Int) = (s / 8 : Nat) + j * (1 : Int) →
          ((u % 8 : Nat) : Int) = (s % 8 : Nat) + j * (1 : Int) → B.testBit u = false) ∨
     (t < 64 ∧ ∃ n : Nat, 0 < n ∧ ((t / 8 : Nat) : Int) = (s / 8 : Nat) + n * (-1 : Int) ∧
        ((t % 8 : Nat) : Int) = (s % 8 : Nat) + n * (-1 : Int) ∧
        ∀ u j : Nat, u < 64 → 0 < j → j < n →
          ((u / 8 : Nat) : Int) = (s / 8 : Nat) + j * (-1 : Int) →
          ((u % 8 : Nat) : Int) = (s % 8 : Nat) + j * (-1 : Int) → B.testBit u = false)) ↔
    (t < 64 ∧ t ≠ s ∧ t / 8 + s % 8 = s / 8 + t % 8 ∧
      ∀ u, u / 8 + s % 8 = s / 8 + u % 8 → (s < u ∧ u < t) ∨ (t < u ∧ u < s) →
        B.testBit u = false) := by
  constructor
  · rintro (⟨ht, n, hn, h1, h2, h3⟩ | ⟨ht, n, hn, h1, h2, h3⟩)
    · refine ⟨ht, by omega, by omega, ?_⟩
      intro u hu hbt
      exact h3 u (u / 8 - s / 8) (by omega) (by omega) (by omega) (by omega) (by omega)
    · refine ⟨ht, by omega, by omega, ?_⟩
      intro u hu hbt
      exact h3 u (s / 8 - u / 8) (by omega) (by omega) (by omega) (by omega) (by omega)
  · rintro ⟨ht, hne, hd, hB⟩
    rcases Nat.lt_or_ge (s / 8) (t / 8) with h | h
    · left
      refine ⟨ht, t / 8 - s / 8, by omega, by omega, by omega, ?_⟩
      intro u j hu hj0 hjn hl hc
      exact hB u (by omega) (by omega)
    · right
      refine ⟨ht, s / 8 - t / 8, by omega, by omega, by omega, ?_⟩
      intro u j hu hj0 hjn hl hc
      exact hB u (by omega) (by omega)

theorem bishop_diag1_testBit (s t B code : Nat) (hs : s < 64)
    (hcode : ∀ u : Nat, u < 64 → u / 8 + u % 8 = s / 8 + s % 8 →
      code.testBit (u % 8) = B.testBit u) :
    (BitBoard.bishop_diag1_moves (s : Int) code).testBit t = true ↔
      (t < 64 ∧ t ≠ s ∧ t / 8 + t % 8 = s / 8 + s % 8 ∧
        ∀ u, u / 8 + u % 8 = s / 8 + s % 8 → (s < u ∧ u < t) ∨ (t < u ∧ u < s) →
          B.testBit u = false) := by
  unfold BitBoard.bishop_diag1_moves
  rw [diag_scan_testBit code (-1) 1 (Or.inr rfl) (Or.inl rfl),
    diag_scan_testBit code 1 (-1) (Or.inl rfl) (Or.inr rfl), Nat.zero_testBit,
    ray_iff s hs B code (-1) 1 (Or.inr rfl) (Or.inl rfl) t
      (fun u n hu _ h1 h2 => hcode u hu (by omega)),
    ray_iff s hs B code 1 (-1) (Or.inl rfl) (Or.inr rfl) t
      (fun u n hu _ h1 h2 => hcode u hu (by omega)),
    ← diag1_rays s t B hs]
  simp only [Bool.false_eq_true, false_or]

theorem bishop_diag2_testBit (s t B code : Nat) (hs : s < 64)
    (hcode : ∀ u : Nat, u < 64 → u / 8 + s % 8 = s / 8 + u % 8 →
      code.testBit (u % 8) = B.testBit u) :
    (BitBoard.bishop_diag2_moves (s : Int) code).testBit t = true ↔
      (t < 64 ∧ t ≠ s ∧ t / 8 + s % 8 = s / 8 + t % 8 ∧
        ∀ u, u / 8 + s % 8 = s / 8 + u % 8 → (s < u ∧ u < t) ∨ (t < u ∧ u < s) →
          B.testBit u = false) := by
  unfold BitBoard.bishop_diag2_moves
  rw [diag_scan_testBit code (-1) (-1) (Or.inr rfl) (Or.inr rfl),
    diag_scan_testBit code 1 1 (Or.inl rfl) (Or.inl rfl), Nat.zero_testBit,
    ray_iff s hs B code (-1) (-1) (Or.inr rfl) (Or.inr rfl) t
      (fun u n hu _ h1 h2 => hcode u hu (by omega)),
    ray_iff s hs B code 1 1 (Or.inl rfl) (Or.inl rfl) t
      (fun u n hu _ h1 h2 => hcode u hu (by omega)),
    ← diag2_rays s t B hs]
  simp only [Bool.false_eq_true, false_or]

/-- C21: for every square `s` (a number below 64) and every blocker word `B`, bit `t` of
`BitBoard::get_bishop_moves(s, B)` is set exactly when `t` is a square other than `s` on one of
the two diagonals through `s` (`line + col` constant, or `line - col` constant) with no bit of
`B` on that diagonal strictly between the two (so the first blocker of each direction is in the
set and nothing beyond it is); and bit `c` of the byte of `get_diag1` (of `get_diag2`) for the
diagonal of `s` is set exactly when `c < 8`, the diagonal has a square on file `c`, and that
square is in `B`. -/
theorem C21_bishop_moves_and_diag_bytes (s : Nat) (hs : s < 64) (B : Nat) :
    (∀ t : Nat, (BitBoard.get_bishop_moves (s : Int) B).testBit t = true ↔
      t < 64 ∧ t ≠ s ∧
        ((t / 8 + t % 8 = s / 8 + s % 8 ∧
          ∀ u, u / 8 + u % 8 = s / 8 + s % 8 → (s < u ∧ u < t) ∨ (t < u ∧ u < s) →
            B.testBit u = false) ∨
         (t / 8 + s % 8 = s / 8 + t % 8 ∧
          ∀ u, u / 8 + s % 8 = s / 8 + u % 8 → (s < u ∧ u < t) ∨ (t < u ∧ u < s) →
            B.testBit u = false))) ∧
    (∀ c : Nat, (BitBoard.get_diag1 B (BitBoard.diag1_number.getD s 0)).testBit c = true ↔
      c < 8 ∧ ∃ l : Nat, l < 8 ∧ l + c = s / 8 + s % 8 ∧ B.testBit (8 * l + c) = true) ∧
    (∀ c : Nat, (BitBoard.get_diag2 B (BitBoard.diag2_number.getD s 0)).testBit c = true ↔
      c < 8 ∧ ∃ l : Nat, l < 8 ∧ l + s % 8 = s / 8 + c ∧ B.testBit (8 * l + c) = true) := by
  have hn := diag_number_table ⟨s, hs⟩
  simp only [] at hn
  refine ⟨?_, ?_, ?_⟩
  · intro t
    unfold BitBoard.get_bishop_moves
    have e : ((s : Nat) : Int).toNat = s := by omega
    simp only [e]
    rw [Nat.testBit_or, Bool.or_eq_true,
      bishop_diag1_testBit s t B _ hs (fun u hu hd => code1_bit s u B hs hu hd),
      bishop_diag2_testBit s t B _ hs (fun u hu hd => code2_bit s u B hs hu hd)]
    constructor
    · rintro (⟨h1, h2, h3, h4⟩ | ⟨h1, h2, h3, h4⟩)
      · exact ⟨h1, h2, Or.inl ⟨h3, h4⟩⟩
      · exact ⟨h1, h2, Or.inr ⟨h3, h4⟩⟩
    · rintro ⟨h1, h2, ⟨h3, h4⟩ | ⟨h3, h4⟩⟩
      · exact Or.inl ⟨h1, h2, h3, h4⟩
      · exact Or.inr ⟨h1, h2, h3, h4⟩
  · intro c
    rw [get_diag1_testBit B _ c (by omega), hn.1]
  · intro c
    rw [get_diag2_testBit B _ c (by omega)]
    constructor
    · rintro ⟨h1, l, h2, h3, h4⟩
      exact ⟨h1, l, h2, by omega, h4⟩
    · rintro ⟨h1, l, h2, h3, h4⟩
      exact ⟨h1, l, h2, by omega, h4⟩

/-- C21 at the square d4 (27) with the blockers of the initial position. -/
theorem C21_bishop_moves_and_diag_bytes_witness :
    (27 : Nat) < 64 ∧
    BitBoard.get_bishop_moves ((27 : Nat) : Int) 0xffff00000000ffff = 0x0041221400142200 ∧
    ((∀ t : Nat, (BitBoard.get_bishop_moves ((27 : Nat) : Int) 0xffff00000000ffff).testBit t
        = true ↔
      t < 64 ∧ t ≠ 27 ∧
        ((t / 8 + t % 8 = 27 / 8 + 27 % 8 ∧
          ∀ u, u / 8 + u % 8 = 27 / 8 + 27 % 8 → (27 < u ∧ u < t) ∨ (t < u ∧ u < 27) →
            (0xffff00000000ffff : Nat).testBit u = false) ∨
         (t / 8 + 27 % 8 = 27 / 8 + t % 8 ∧
          ∀ u, u / 8 + 27 % 8 = 27 / 8 + u % 8 → (27 < u ∧ u < t) ∨ (t < u ∧ u < 27) →
            (0xffff00000000ffff : Nat).testBit u = false))) ∧
    (∀ c : Nat, (BitBoard.get_diag1 0xffff00000000ffff
        (BitBoard.diag1_number.getD 27 0)).testBit c = true ↔
      c < 8 ∧ ∃ l : Nat, l < 8 ∧ l + c = 27 / 8 + 27 % 8 ∧
        (0xffff00000000ffff : Nat).testBit (8 * l + c) = true) ∧
    (∀ c : Nat, (BitBoard.get_diag2 0xffff00000000ffff
        (BitBoard.diag2_number.getD 27 0)).testBit c = true ↔
      c < 8 ∧ ∃ l : Nat, l < 8 ∧ l + 27 % 8 = 27 / 8 + c ∧
        (0xffff00000000ffff : Nat).testBit (8 * l + c) = true)) :=
  ⟨by decide, by decide!, C21_bishop_moves_and_diag_bytes 27 (by decide) 0xffff00000000ffff⟩

/-- The method `MoveHistory::sort_moves` reads outside `_table` when the list has a move and the
ply of the board is 1024 or more. -/
theorem sort_moves_past_table (_table : Int → Int → Int → Int) (board : Board)
    (moves : List Move) (high_pri_move : Move) (hne : moves ≠ [])
    (hply : 1024 ≤ Board.ply board) :
    MoveHistory.sort_moves _table board moves high_pri_move = none := by
  unfold MoveHistory.sort_moves
  rw [if_neg]
  intro h
  cases moves with
  | nil => exact hne rfl
  | cons m ms =>
    have := (h m (List.mem_cons_self m ms)).2.1
    omega

/-- C26 fails on the code at a late move: for every board whose ply is 1024 or more (a
position of move 513 or later) on which `list_moves` lists a move (and no more than the 256
that a `MoveVector` holds), every depth of 1 or more, every evaluation, hash table and move
history, `search_one_depth(depth, Score::min(), Score::max())` run without a stop request does
not return a result: at the root, `sort_moves` reads `_table[board.ply()]` outside the 1024
entries of the table of the move history. -/
theorem C26_search_reads_past_move_history (env : SearchEnv) (ctx : SearchContext)
    (depth : Int) (hd : 1 ≤ depth) (hstop : env._should_stop = false)
    (hply : 1024 ≤ Board.ply ctx._board)
    (hne : Rules.list_moves ctx._board (Rules.make_scratch ctx._board) [] ≠ [])
    (hcap : (Rules.list_moves ctx._board (Rules.make_scratch ctx._board) []).length
      ≤ MoveVector.cap) :
    SearchContext.search_one_depth env ctx depth Score.min Score.max
      = Except.error SearchFault.move_history_index := by
  unfold SearchContext.search_one_depth
  rw [if_neg (by omega)]
  have h514 : (514 : Nat) = 513 + 1 := rfl
  rw [h514]
  unfold SearchContext.search_rec_inner
  have hq : decide (depth ≤ 0) = false := by simp; omega
  have hm1 : Score.of_moves_to_mate 1 = some 1072693248 := by decide
  have hm0 : Score.of_moves_to_mate 0 = some 1073741824 := by decide
  have hpv : decide (Score.min = Score.next Score.max) = false := by decide
  have hb1 : decide ((1072693248 : Int) ≤ Score.min) = false := by decide
  have hb2 : decide (Score.neg 1073741824 ≥ Score.max) = false := by decide
  simp only [hstop, hq, hm1, hm0, hpv, hb1, hb2, Bool.false_and, Bool.not_true, Bool.not_false,
    Bool.and_false, Bool.and_true, Bool.true_and, Bool.false_eq_true, if_false, if_true,
    Bool.or_false]
  have hcap2 : ¬ (Rules.list_moves ctx._board (Rules.make_scratch ctx._board) []).length
      > MoveVector.cap := by omega
  cases hf : (TranspositionTable.find ctx._hash_table ctx._board).1 with
  | none =>
    simp only [hf]
    rw [if_neg (by omega), if_neg hcap2]
    rw [sort_moves_past_table _ _ _ _ hne hply]
  | some s =>
    simp only [hf]
    rw [if_neg (by omega), if_neg hcap2]
    rw [sort_moves_past_table _ _ _ _ hne hply]

set_option maxRecDepth 1000000 in
set_option maxHeartbeats 4000000 in
/-- The search on a position of move 1: in `6k1/8/6K1/8/8/8/8/Q7 w - - 0 1` the search of depth
1 visits 27 nodes and returns the move `a1b1` with the score 0 of the sample evaluation. -/
theorem search_sample_depth1 :
    (SearchContext.search_one_depth SearchEnv.sample
      (SearchContext.fresh (Board.of_fen Z0 "6k1/8/6K1/8/8/8/8/Q7 w - - 0 1")) 1
      Score.min Score.max).toOption.map (fun x => x.1)
    = some (Except.ok (some ⟨0, some ⟨0, 1, PieceType.CLEAR⟩, [⟨0, 1, PieceType.CLEAR⟩], 27⟩)) := by
  decide!

set_option maxRecDepth 1000000 in
set_option maxHeartbeats 4000000 in
/-- C26 on a position: in `4k3/8/8/8/8/8/4P3/4K3 w - - 0 513` (ply 1024) the move `e2e3` is
legal, `list_moves` lists 6 moves, and the search of depth 1 with the sample environment, the
hash table `TranspositionTable(0)` and an empty move history reads past the table of the move
history. -/
theorem C26_search_reads_past_move_history_witness :
    (1 : Int) ≤ 1 ∧
    SearchEnv.sample._should_stop = false ∧
    Board.ply (SearchContext.fresh (Board.move_513 Z0))._board = 1024 ∧
    Rules.is_legal_move Z0 (Board.move_513 Z0) (Rules.make_scratch (Board.move_513 Z0))
      ⟨12, 20, PieceType.CLEAR⟩ = some true ∧
    (Rules.list_moves (SearchContext.fresh (Board.move_513 Z0))._board
      (Rules.make_scratch (SearchContext.fresh (Board.move_513 Z0))._board) []).length = 6 ∧
    SearchContext.search_one_depth SearchEnv.sample (SearchContext.fresh (Board.move_513 Z0)) 1
      Score.min Score.max = Except.error SearchFault.move_history_index := by
  have h1 : Board.ply (SearchContext.fresh (Board.move_513 Z0))._board = 1024 := by decide!
  have h2 : (Rules.list_moves (SearchContext.fresh (Board.move_513 Z0))._board
      (Rules.make_scratch (SearchContext.fresh (Board.move_513 Z0))._board) []).length = 6 := by
    decide!
  refine ⟨by decide, rfl, h1, by decide!, h2, ?_⟩
  exact C26_search_reads_past_move_history SearchEnv.sample
    (SearchContext.fresh (Board.move_513 Z0)) 1 (by decide) rfl (by rw [h1])
    (by
      intro h
      rw [h] at h2
      cases h2)
    (by rw [h2]; decide)

set_option maxRecDepth 1000000 in
set_option maxHeartbeats 4000000 in
/-- C31, as the code has it: with White queens on a1 and h1 (in this order in the piece list)
and a Black knight on a3, the queen on a1 attacks the knight and the queen on h1 attacks
nothing; `eval_attacks` returns 0, where the sum over every queen gives 0.309 pawn.  With the
knight on h3 instead, which the last queen of the list attacks, `eval_attacks` returns 0.309
pawn: the loop over the queens keeps the count of the last queen only. -/
theorem C31_eval_attacks_keeps_last_queen_only :
    Board.pieces Board.two_queens_a3 Color.White PieceType.QUEEN = [0, 7]
    ∧ E.count_queen_attacks Board.two_queens_a3 Color.White 0 = 1
    ∧ E.count_queen_attacks Board.two_queens_a3 Color.White 7 = 0
    ∧ E.eval_attacks Board.two_queens_a3 Color.White = 0
    ∧ E.attack_feature_spec Board.two_queens_a3 Color.White = 309
    ∧ Board.pieces Board.two_queens_h3 Color.White PieceType.QUEEN = [0, 7]
    ∧ E.eval_attacks Board.two_queens_h3 Color.White = 309
    ∧ E.attack_feature_spec Board.two_queens_h3 Color.White = 309 := by
  refine ⟨?_, ?_, ?_, ?_, ?_, ?_, ?_, ?_⟩ <;> decide!

set_option maxRecDepth 1000000 in
set_option maxHeartbeats 4000000 in
/-- C38, as the code has it: with the White king on e1, White rooks on a1, h1, a3 and h3 and
both castling rights of White, the legal move of the rook from h3 to h4 takes the king-side
right of White away, and the legal move of the rook from a3 to a4 takes the queen-side right
away, although the king and the rooks on a1 and h1 have not moved: `Board::move` looks at the
file of the square the rook leaves, not at the corner. -/
theorem C38_rook_off_corner_clears_castling_right :
    Board.four_rooks.castle_flags = CastleFlags.WhiteKing ||| CastleFlags.WhiteQueen
    ∧ Board.four_rooks.turn = Color.White
    ∧ (Board.four_rooks._squares 23).type = PieceType.ROOK
    ∧ (Board.four_rooks._squares 16).type = PieceType.ROOK
    ∧ Rules.Legal Z0 Board.four_rooks ⟨23, 31, PieceType.CLEAR⟩
    ∧ Rules.Legal Z0 Board.four_rooks ⟨16, 24, PieceType.CLEAR⟩
    ∧ (Board.after Z0 Board.four_rooks ⟨23, 31, PieceType.CLEAR⟩).1.castle_flags
        = CastleFlags.WhiteQueen
    ∧ (Board.after Z0 Board.four_rooks ⟨16, 24, PieceType.CLEAR⟩).1.castle_flags
        = CastleFlags.WhiteKing
    ∧ (Board.move Z0 Board.four_rooks ⟨23, 31, PieceType.CLEAR⟩).isSome = true
    ∧ (Board.move Z0 Board.four_rooks ⟨16, 24, PieceType.CLEAR⟩).isSome = true
    ∧ ((Board.after Z0 Board.four_rooks ⟨23, 31, PieceType.CLEAR⟩).1._squares 7).type
        = PieceType.ROOK
    ∧ ((Board.after Z0 Board.four_rooks ⟨23, 31, PieceType.CLEAR⟩).1._squares 4).type
        = PieceType.KING
    ∧ ((Board.after Z0 Board.four_rooks ⟨16, 24, PieceType.CLEAR⟩).1._squares 0).type
        = PieceType.ROOK := by
  refine ⟨?_, ?_, ?_, ?_, ?_, ?_, ?_, ?_, ?_, ?_, ?_, ?_, ?_⟩
  · decide!
  · decide!
  · decide!
  · decide!
  · unfold Rules.Legal; exact ⟨by decide!, by decide!⟩
  · unfold Rules.Legal; exact ⟨by decide!, by decide!⟩
  · decide!
  · decide!
  · decide!
  · decide!
  · decide!
  · decide!
  · decide!

theorem late_start_fromFen : Board.FromFen Z0 Board.late_start :=
  ⟨"rnbqkbnr/pppppppp/8/8/8/8/PPPPPPPP/RNBQKBNR w KQkq - 0 513".toList, by decide!, of_fen_spec (by decide!)⟩

theorem move_zero_fromFen : Board.FromFen Z0 Board.move_zero :=
  ⟨"rnbqkbnr/pppppppp/8/8/8/8/PPPPPPPP/RNBQKBNR w KQkq - 0 0".toList, by decide!, of_fen_spec (by decide!)⟩

theorem late_start_ply : Board.ply Board.late_start = 1024 := by decide!

theorem move_zero_ply : Board.ply Board.move_zero = -2 := by decide!

set_option maxRecDepth 1000000 in
set_option maxHeartbeats 4000000 in
/-- C40, as the code has it: `set_fen` accepts the initial placement with the full-move number
513; the board it leaves has an empty history, so `is_history_full()` is false, and its ply is
1024.  On that board, for every state of the table, `MoveHistory::add` with the legal move
e2-e4 and `MoveHistory::sort_moves` on the moves that `list_moves` gives index `_table` past
its 1024 entries; after the legal move e2-e4 the history is still not full and the ply is 1025.
With the full-move number 0 the ply is -2, below the table. -/
theorem C40_fen_move_number_puts_ply_outside_table :
    Board.FromFen Z0 Board.late_start
    ∧ Board.is_history_full Board.late_start = false
    ∧ Board.ply Board.late_start = 1024
    ∧ Rules.Legal Z0 Board.late_start ⟨12, 28, PieceType.CLEAR⟩
    ∧ (∀ _table : Int → Int → Int → Int,
        (MoveHistory.add _table Board.late_start ⟨12, 28, PieceType.CLEAR⟩).isNone = true)
    ∧ (∀ (_table : Int → Int → Int → Int) (high_pri_move : Move),
        MoveHistory.sort_moves _table Board.late_start
          (Rules.list_moves Board.late_start (Rules.make_scratch Board.late_start) [])
          high_pri_move = none)
    ∧ Board.is_history_full (Board.after Z0 Board.late_start ⟨12, 28, PieceType.CLEAR⟩).1 = false
    ∧ Board.ply (Board.after Z0 Board.late_start ⟨12, 28, PieceType.CLEAR⟩).1 = 1025
    ∧ Board.FromFen Z0 Board.move_zero
    ∧ Board.is_history_full Board.move_zero = false
    ∧ Board.ply Board.move_zero = -2 := by
  have hlist : (⟨12, 28, PieceType.CLEAR⟩ : Move)
      ∈ Rules.list_moves Board.late_start (Rules.make_scratch Board.late_start) [] := by
    decide!
  refine ⟨late_start_fromFen, by decide!, late_start_ply, ?_, ?_, ?_, by decide!, by decide!,
    move_zero_fromFen, by decide!, move_zero_ply⟩
  · unfold Rules.Legal
    exact ⟨hlist, by decide!⟩
  · intro _table
    unfold MoveHistory.add
    rw [if_neg (by rw [late_start_ply]; omega)]
    rfl
  · intro _table high_pri_move
    unfold MoveHistory.sort_moves
    rw [if_neg]
    intro h
    have := h _ hlist
    rw [late_start_ply] at this
    omega

theorem next_next_ne (a : Int) : a ≠ Score.next (Score.next a) := by
  unfold Score.next toInt32
  omega

theorem mate_values : Score.of_moves_to_mate 1 = some 1072693248 ∧
    Score.of_moves_to_mate 0 = some 1073741824 := by
  constructor <;> rfl

/-- C33, as the code has it.  `is_pv` is `input_alpha == input_beta.next()`, the window with
`alpha = beta + 1`, not the window with `alpha + 1 = beta`.  At a node that is not stopped, not
drawn and not in the book: on every window `(alpha, alpha.next())` with `alpha` at or above the
score of a mate in one move the mate-distance pruning applies, and the node returns `alpha`
without a search; on every window `(beta.next(), beta)` the pruning is skipped, also when
`beta` is the score of being mated or less, and a quiescence node whose evaluation is `beta` or
more returns the evaluation. -/
theorem C33_is_pv_tests_alpha_equal_beta_next (env : SearchEnv) (fuel : Nat) (is_root : Bool)
    (ctx : SearchContext) (scratch : EvalScratch) (depth ply : Int) (result : SearchResult)
    (hstop : env._should_stop = false)
    (hnode : is_root = false →
      ply ≤ 512 ∧ Rules.is_draw_without_stalemate ctx._board = false ∧ env._pcp = none) :
    (∀ alpha : Int, 1072693248 ≤ alpha →
      SearchContext.search_rec_inner env (fuel + 1) is_root ctx scratch depth ply alpha
          (Score.next alpha) result
        = Except.ok (result.set_score alpha,
            { ctx with _node_count := (ctx._node_count + 1) % 2 ^ 64 }))
    ∧ (∀ beta : Int, depth ≤ 0 → 0 ≤ ply → ply < 128 →
        beta ≤ env.eval_board ctx._board scratch →
      SearchContext.search_rec_inner env (fuel + 1) is_root ctx scratch depth ply
          (Score.next beta) beta result
        = Except.ok (result.set_score (env.eval_board ctx._board scratch),
            { ctx with _node_count := (ctx._node_count + 1) % 2 ^ 64 })) := by
  constructor
  · intro alpha ha
    have hpv : decide (alpha = Score.next (Score.next alpha)) = false :=
      decide_eq_false (next_next_ne alpha)
    unfold SearchContext.search_rec_inner
    cases is_root with
    | true =>
      simp only [hstop, Bool.false_and, Bool.false_eq_true, if_false, mate_values.1,
        mate_values.2, hpv, Bool.not_false, Bool.not_true, Bool.true_and, decide_eq_true_eq]
      rw [if_pos ha]
    | false =>
      obtain ⟨h1, h2, h3⟩ := hnode rfl
      have h512 : decide (ply > 512) = false := decide_eq_false (by omega)
      simp only [hstop, Bool.false_and, Bool.false_eq_true, if_false, mate_values.1,
        mate_values.2, hpv, Bool.not_false, Bool.true_and, decide_eq_true_eq, h2, h3, h512,
        Bool.or_false, if_true]
      rw [if_pos ha]
  · intro beta hd hp0 hp1 hev
    have hq : decide (depth ≤ 0) = true := decide_eq_true hd
    have hmin : (result.set_score (env.eval_board ctx._board scratch)).min_score ≥ beta := hev
    unfold SearchContext.search_rec_inner
    cases is_root with
    | true =>
      simp only [hstop, Bool.false_and, Bool.false_eq_true, if_false, mate_values.1,
        mate_values.2, hq, Bool.not_true, Bool.false_and, Bool.and_false, if_true,
        Bool.true_and, decide_eq_true_eq, decide_True]
      rw [if_neg (not_not.mpr ⟨hp0, hp1⟩), if_pos hmin]
    | false =>
      obtain ⟨h1, h2, h3⟩ := hnode rfl
      have h512 : decide (ply > 512) = false := decide_eq_false (by omega)
      simp only [hstop, Bool.false_and, Bool.false_eq_true, if_false, mate_values.1,
        mate_values.2, hq, Bool.not_true, Bool.false_and, Bool.and_false, if_true,
        Bool.true_and, decide_eq_true_eq, decide_True, h2, h3, h512, Bool.or_false,
        Bool.not_false]
      rw [if_neg (not_not.mpr ⟨hp0, hp1⟩), if_pos hmin]

set_option maxRecDepth 1000000 in
/-- C33 at a node of ply 1 on the initial position, with no book and an evaluation of 0: the
window `(mate in 1, mate in 1 + 1)` is pruned to its `alpha`, and the window
`(-mate + 1, -mate)` is not pruned and returns the evaluation 0. -/
theorem C33_is_pv_tests_alpha_equal_beta_next_witness :
    SearchEnv.sample._should_stop = false
    ∧ (false = false → (1 : Int) ≤ 512 ∧
        Rules.is_draw_without_stalemate (SearchContext.fresh (Board.start Z0))._board = false ∧
        SearchEnv.sample._pcp = none)
    ∧ SearchContext.search_rec_inner SearchEnv.sample (0 + 1) false
          (SearchContext.fresh (Board.start Z0)) (Rules.make_scratch (Board.start Z0)) 0 1
          1072693248 (Score.next 1072693248) SearchResult.new
        = Except.ok (SearchResult.new.set_score 1072693248,
            { SearchContext.fresh (Board.start Z0) with
              _node_count := ((SearchContext.fresh (Board.start Z0))._node_count + 1) % 2 ^ 64 })
    ∧ SearchContext.search_rec_inner SearchEnv.sample (0 + 1) false
          (SearchContext.fresh (Board.start Z0)) (Rules.make_scratch (Board.start Z0)) 0 1
          (Score.next (-1073741824)) (-1073741824) SearchResult.new
        = Except.ok (SearchResult.new.set_score
              (SearchEnv.sample.eval_board (SearchContext.fresh (Board.start Z0))._board
                (Rules.make_scratch (Board.start Z0))),
            { SearchContext.fresh (Board.start Z0) with
              _node_count := ((SearchContext.fresh (Board.start Z0))._node_count + 1) % 2 ^ 64 }) :=
  have hnode : false = false → (1 : Int) ≤ 512 ∧
      Rules.is_draw_without_stalemate (SearchContext.fresh (Board.start Z0))._board = false ∧
      SearchEnv.sample._pcp = none := fun _ => ⟨by decide, by decide!, rfl⟩
  ⟨rfl, hnode,
    (C33_is_pv_tests_alpha_equal_beta_next SearchEnv.sample 0 false
      (SearchContext.fresh (Board.start Z0)) (Rules.make_scratch (Board.start Z0)) 0 1
      SearchResult.new rfl hnode).1 1072693248 (by decide),
    (C33_is_pv_tests_alpha_equal_beta_next SearchEnv.sample 0 false
      (SearchContext.fresh (Board.start Z0)) (Rules.make_scratch (Board.start Z0)) 0 1
      SearchResult.new rfl hnode).2 (-1073741824) (by decide) (by decide) (by decide)
      (by decide)⟩

/-- C34, as the code has it, for every previous score `p` between `Score::min()` and
`Score::max()`.  When `p` is not a mate score the bounds are `p - 554` and `p + 554`, and when
`p` is a mate score against the side to move they are `p - 2 * 2^20` and `p + 2 * 2^20`: in
both cases `lower < p < upper`.  When `p` is a mate score for the side to move, the lower bound
is `p.dec_mate_moves(2) = p + 2 * 2^20` and the upper bound is `p.inc_mate_moves(2) =
p - 2 * 2^20`: `upper < p < lower`, no score lies strictly between the bounds, and `do_search`
throws away whatever the first search returns and searches again with the full window. -/
theorem C34_window_is_inverted_for_a_winning_mate (p : Int)
    (hp : Score.min ≤ p ∧ p ≤ Score.max) :
    (Score.is_mate p = false →
      pv_search.bounds (some p) = (p - 554, p + 554))
    ∧ (p ≤ -Score.mate_score_per_move →
      pv_search.bounds (some p) = (p - 2097152, p + 2097152))
    ∧ (Score.mate_score_per_move ≤ p →
      pv_search.bounds (some p) = (p + 2097152, p - 2097152)
      ∧ (pv_search.bounds (some p)).2 < p ∧ p < (pv_search.bounds (some p)).1
      ∧ ∀ (ε ρ : Type) (search_once : Score → Score → Except ε (Option ρ)) (score : ρ → Score)
          (r : ρ), search_once (p + 2097152) (p - 2097152) = Except.ok (some r) →
          pv_search.do_search search_once score (some p) = search_once Score.min Score.max) := by
  obtain ⟨h0, h1⟩ := hp
  have hmin : Score.min = -1073741824 := rfl
  have hmax : Score.max = 1073741824 := rfl
  have hper : Score.mate_score_per_move = 1048576 := rfl
  rw [hmin] at h0
  rw [hmax] at h1
  have hd : Score.of_milli_pawns (toInt32 (Score.mate_score_per_move * 2)) = 2097152 := rfl
  refine ⟨?_, ?_, ?_⟩
  · intro hm
    unfold pv_search.bounds
    simp only [hm, Bool.false_eq_true, if_false]
    unfold Score.sub Score.add search_window
    rw [toInt32_id (by omega) (by omega), toInt32_id (by omega) (by omega)]
  · intro hneg
    rw [hper] at hneg
    have hm : Score.is_mate p = true := by
      unfold Score.is_mate
      rw [hper]
      exact decide_eq_true (Or.inl hneg)
    have hpos : Score.is_positive p = false := by
      unfold Score.is_positive
      exact decide_eq_false (by omega)
    unfold pv_search.bounds
    simp only [hm, if_true]
    unfold Score.dec_mate_moves Score.inc_mate_moves
    simp only [hm, if_true, hpos, Bool.false_eq_true, if_false, hd]
    unfold Score.sub Score.add
    rw [toInt32_id (by omega) (by omega), toInt32_id (by omega) (by omega)]
  · intro hposm
    rw [hper] at hposm
    have hm : Score.is_mate p = true := by
      unfold Score.is_mate
      rw [hper]
      exact decide_eq_true (Or.inr hposm)
    have hpos : Score.is_positive p = true := by
      unfold Score.is_positive
      exact decide_eq_true (by omega)
    have hb : pv_search.bounds (some p) = (p + 2097152, p - 2097152) := by
      unfold pv_search.bounds
      simp only [hm, if_true]
      unfold Score.dec_mate_moves Score.inc_mate_moves
      simp only [hm, if_true, hpos, hd]
      unfold Score.sub Score.add
      rw [toInt32_id (by omega) (by omega), toInt32_id (by omega) (by omega)]
    refine ⟨hb, ?_, ?_, ?_⟩
    · rw [hb]
      show p - 2097152 < p
      omega
    · rw [hb]
      show p < p + 2097152
      omega
    · intro ε ρ search_once score r hr
      unfold pv_search.do_search
      simp only [hb, hr]
      rw [if_neg]
      intro hh
      have h3 : p + 2097152 < p - 2097152 := lt_trans hh.1 hh.2
      omega

/-- C34 at the score of a mate in three moves for the side to move. -/
theorem C34_window_is_inverted_for_a_winning_mate_witness :
    (Score.min ≤ (1070596096 : Int) ∧ (1070596096 : Int) ≤ Score.max)
    ∧ Score.mate_score_per_move ≤ (1070596096 : Int)
    ∧ pv_search.bounds (some 1070596096) = (1070596096 + 2097152, 1070596096 - 2097152)
    ∧ (pv_search.bounds (some 1070596096)).2 < 1070596096
    ∧ 1070596096 < (pv_search.bounds (some 1070596096)).1 :=
  ⟨⟨by decide, by decide⟩, by decide,
    ((C34_window_is_inverted_for_a_winning_mate 1070596096 ⟨by decide, by decide⟩).2.2
      (by decide)).1,
    ((C34_window_is_inverted_for_a_winning_mate 1070596096 ⟨by decide, by decide⟩).2.2
      (by decide)).2.1,
    ((C34_window_is_inverted_for_a_winning_mate 1070596096 ⟨by decide, by decide⟩).2.2
      (by decide)).2.2.1⟩

theorem is_prime_go_spec (N : Nat) : ∀ (fuel i : Nat), N < (i + 2 * fuel) * (i + 2 * fuel) →
    (TranspositionTable.is_prime_go N fuel i = true ↔
      ∀ k : Nat, (i + 2 * k) * (i + 2 * k) ≤ N → N % (i + 2 * k) ≠ 0) := by
  intro fuel
  induction fuel with
  | zero =>
    intro i h
    unfold TranspositionTable.is_prime_go
    constructor
    · intro _ k hk
      have : i * i ≤ (i + 2 * k) * (i + 2 * k) := Nat.mul_le_mul (by omega) (by omega)
      simp only [Nat.mul_zero, Nat.add_zero] at h
      omega
    · intro _; rfl
  | succ fuel ih =>
    intro i h
    unfold TranspositionTable.is_prime_go
    by_cases h1 : i * i ≤ N
    · rw [if_pos h1]
      by_cases h2 : N % i = 0
      · rw [if_pos h2]
        constructor
        · intro hf; exact absurd hf (by decide)
        · intro hh
          exact absurd h2 (by simpa using hh 0 (by simpa using h1))
      · rw [if_neg h2]
        have e : i + 2 + 2 * fuel = i + 2 * (fuel + 1) := by omega
        rw [ih (i + 2) (by rw [e]; exact h)]
        constructor
        · intro hh k hk
          cases k with
          | zero => simpa using h2
          | succ k =>
            have e2 : i + 2 * (k + 1) = i + 2 + 2 * k := by omega
            rw [e2] at hk ⊢
            exact hh k hk
        · intro hh k hk
          have e2 : i + 2 + 2 * k = i + 2 * (k + 1) := by omega
          rw [e2] at hk ⊢
          exact hh (k + 1) hk
    · rw [if_neg h1]
      constructor
      · intro _ k hk
        have : i * i ≤ (i + 2 * k) * (i + 2 * k) := Nat.mul_le_mul (by omega) (by omega)
        omega
      · intro _; rfl

/-- The function `is_prime` is right from 2 on. -/
theorem is_prime_iff (N : Nat) (hN : 2 ≤ N) :
    TranspositionTable.is_prime N = true ↔ Nat.Prime N := by
  unfold TranspositionTable.is_prime
  by_cases h2 : N = 2
  · rw [if_pos h2, h2]
    exact ⟨fun _ => Nat.prime_two, fun _ => rfl⟩
  · rw [if_neg h2]
    by_cases he : N % 2 = 0
    · rw [if_pos he]
      constructor
      · intro hf; exact absurd hf (by decide)
      · intro hp
        have := (Nat.prime_dvd_prime_iff_eq Nat.prime_two hp).mp (Nat.dvd_of_mod_eq_zero he)
        omega
    · rw [if_neg he]
      have hbound : N < (3 + 2 * N) * (3 + 2 * N) := by nlinarith
      rw [is_prime_go_spec N N 3 hbound, Nat.prime_def_le_sqrt]
      constructor
      · intro hh
        refine ⟨hN, ?_⟩
        intro m hm hms hdvd
        have hmm : m * m ≤ N := Nat.le_sqrt.mp hms
        have hodd : m % 2 = 1 := by
          by_contra hc
          have h2m : 2 ∣ m := Nat.dvd_of_mod_eq_zero (by omega)
          have := Nat.mod_eq_zero_of_dvd (dvd_trans h2m hdvd)
          omega
        have hk : m = 3 + 2 * ((m - 3) / 2) := by omega
        have := hh ((m - 3) / 2) (by rw [← hk]; exact hmm)
        rw [← hk] at this
        exact this (Nat.mod_eq_zero_of_dvd hdvd)
      · intro hh k hk hmod
        exact hh.2 (3 + 2 * k) (by omega) (Nat.le_sqrt.mpr hk) (Nat.dvd_of_mod_eq_zero hmod)

theorem next_prime_go_spec (p : Nat) (hp : TranspositionTable.is_prime p = true) :
    ∀ (fuel N : Nat), N ≤ p → p - N < fuel →
      (∀ q, N ≤ q → q < p → TranspositionTable.is_prime q = false) →
      TranspositionTable.next_prime_go fuel N = some p := by
  intro fuel
  induction fuel with
  | zero => intro N _ h; omega
  | succ fuel ih =>
    intro N hle hf hq
    unfold TranspositionTable.next_prime_go
    by_cases hN : N = p
    · rw [hN, if_pos hp]
    · have hlt : N < p := by omega
      rw [if_neg (by rw [hq N (le_refl N) hlt]; decide)]
      exact ih (N + 1) (by omega) (by omega) (fun q h1 h2 => hq q (by omega) h2)

/-- From 2 on, `next_prime` returns the least prime that is not below its argument. -/
theorem next_prime_spec (N : Nat) (hN : 2 ≤ N) :
    ∃ p, TranspositionTable.next_prime N = some p ∧ Nat.Prime p ∧ N ≤ p ∧
      ∀ q, Nat.Prime q → N ≤ q → p ≤ q := by
  have hex : ∃ p, Nat.Prime p ∧ N ≤ p := by
    obtain ⟨p, hp, h1, _⟩ := Nat.exists_prime_lt_and_le_two_mul N (by omega)
    exact ⟨p, hp, by omega⟩
  classical
  have hmin := Nat.find_spec hex
  have hleast : ∀ q, Nat.Prime q → N ≤ q → Nat.find hex ≤ q :=
    fun q hq hle => Nat.find_min' hex ⟨hq, hle⟩
  obtain ⟨b, hb, hb1, hb2⟩ := Nat.exists_prime_lt_and_le_two_mul N (by omega)
  have hle2 : Nat.find hex ≤ 2 * N := le_trans (hleast b hb (by omega)) hb2
  refine ⟨Nat.find hex, ?_, hmin.1, hmin.2, hleast⟩
  unfold TranspositionTable.next_prime
  apply next_prime_go_spec (Nat.find hex)
    ((is_prime_iff _ (le_trans hN hmin.2)).mpr hmin.1) (N + 2) N hmin.2 (by omega)
  intro q h1 h2
  cases hq : TranspositionTable.is_prime q with
  | false => rfl
  | true =>
    have := hleast q ((is_prime_iff q (by omega)).mp hq) h1
    omega

/-- C36, as the code has it: `is_prime` has no case for an argument below 2, so `is_prime(1)`
is true and `next_prime(0)` and `next_prime(1)` return 1, which is not a prime; a table of
1 byte (the size of the first run of `TEST(background_cache_size)`), with buckets of any size,
gets one bucket per side, not the least prime above its quotient, which is 2. -/
theorem C36_is_prime_accepts_one :
    TranspositionTable.is_prime 1 = true
    ∧ TranspositionTable.next_prime 0 = some 1
    ∧ TranspositionTable.next_prime 1 = some 1
    ∧ ¬ Nat.Prime 1
    ∧ ∀ bucket_bytes : Nat,
        (TranspositionTable.create 1 bucket_bytes).map (fun t => t.hash_size) = some 1 := by
  refine ⟨by decide, by decide, by decide, Nat.not_prime_one, ?_⟩
  intro bucket_bytes
  unfold TranspositionTable.create TranspositionTable.set_size
  have h : 1 / bucket_bytes / 2 = 0 := by
    have : 1 / bucket_bytes ≤ 1 := Nat.div_le_self 1 bucket_bytes
    exact Nat.div_eq_of_lt (by omega)
  rw [h]
  rfl

/-- The function `next_prime` returns for every argument: from 2 on the result is the least
prime that is not below the argument, and for 0 and 1 it is 1.  The method `set_size` returns
with `hash_size = next_prime(size / sizeof(bucket) / 2)`.  (The numbers are below `2^63`, so
the `size_t` arithmetic of the loops is exact.) -/
theorem set_size_bucket_count (N : Nat) :
    (N ≤ 1 → TranspositionTable.next_prime N = some 1)
    ∧ (2 ≤ N → ∃ p, TranspositionTable.next_prime N = some p ∧ Nat.Prime p ∧ N ≤ p ∧
        ∀ q, Nat.Prime q → N ≤ q → p ≤ q)
    ∧ ∀ (t : TranspositionTable) (size bucket_bytes : Nat),
        size / bucket_bytes / 2 = N →
        ∃ t', TranspositionTable.set_size t size bucket_bytes = some t' ∧
          TranspositionTable.next_prime N = some t'.hash_size := by
  have h01 : N ≤ 1 → TranspositionTable.next_prime N = some 1 := by
    intro h
    rcases Nat.le_one_iff_eq_zero_or_eq_one.mp h with rfl | rfl <;> decide
  refine ⟨h01, next_prime_spec N, ?_⟩
  intro t size bucket_bytes hN
  have hsome : ∃ p, TranspositionTable.next_prime N = some p := by
    by_cases h : N ≤ 1
    · exact ⟨1, h01 h⟩
    · obtain ⟨p, hp, _⟩ := next_prime_spec N (by omega)
      exact ⟨p, hp⟩
  obtain ⟨p, hp⟩ := hsome
  unfold TranspositionTable.set_size
  rw [hN, hp]
  exact ⟨_, rfl, rfl⟩

theorem parse_strip_marks : ∀ l : List Char,
    (∀ c ∈ l, c = '!' ∨ c = '?' ∨ c = '+' ∨ c = '#') → Rules.parse_strip l = []
  | [], _ => rfl
  | c :: cs, h => by
    unfold Rules.parse_strip
    rw [if_pos (h c (List.mem_cons_self c cs))]
    exact parse_strip_marks cs (fun d hd => h d (List.mem_cons_of_mem c hd))

/-- C39, as the code has it: for every board and every text made only of the marks `!`, `?`,
`+` and `#`, the empty text among them, the first loop of `parse_pretty_move` leaves an empty
buffer, neither castling text matches, and `isupper(peek())` calls `peek` on the empty buffer:
the `assert(!empty())` stops, and without it `move_str.back()` reads the last character of an
empty string.  The call returns neither a move nor an error. -/
theorem C39_parse_pretty_move_peeks_empty_buffer (Z : ZobristTables) (b : Board)
    (m_in : List Char) (h : ∀ c ∈ m_in, c = '!' ∨ c = '?' ∨ c = '+' ∨ c = '#') :
    Rules.parse_strip m_in.reverse = [] ∧ Rules.parse_pretty_move Z b m_in = none := by
  have hs : Rules.parse_strip m_in.reverse = [] :=
    parse_strip_marks m_in.reverse (fun c hc => h c (List.mem_reverse.mp hc))
  refine ⟨hs, ?_⟩
  unfold Rules.parse_pretty_move
  simp only [hs]
  rw [if_neg (fun hh => absurd hh.1 (by decide)), if_neg (fun hh => absurd hh.1 (by decide)),
    if_neg (fun hh => absurd hh.1 (by decide)), if_neg (fun hh => absurd hh.1 (by decide))]

/-- C39 on the initial position, for the empty text and for the text `!?`. -/
theorem C39_parse_pretty_move_peeks_empty_buffer_witness :
    (∀ c ∈ ([] : List Char), c = '!' ∨ c = '?' ∨ c = '+' ∨ c = '#')
    ∧ (∀ c ∈ ['!', '?'], c = '!' ∨ c = '?' ∨ c = '+' ∨ c = '#')
    ∧ Rules.parse_pretty_move Z0 (Board.start Z0) [] = none
    ∧ Rules.parse_pretty_move Z0 (Board.start Z0) ['!', '?'] = none :=
  ⟨by decide, by decide,
    (C39_parse_pretty_move_peeks_empty_buffer Z0 (Board.start Z0) [] (by decide)).2,
    (C39_parse_pretty_move_peeks_empty_buffer Z0 (Board.start Z0) ['!', '?'] (by decide)).2⟩

theorem add_some (_table : Int → Int → Int → Int) (board : Board) (move : Move)
    (h : MoveHistory.InRange board move) :
    ∃ t2, MoveHistory.add _table board move = some t2 := by
  unfold MoveHistory.InRange at h
  unfold MoveHistory.add
  rw [if_pos h]
  exact ⟨_, rfl⟩

/-- One call of `MoveHistory::add` on a table with entries in `0..511`, cell by cell. -/
theorem add_step (_table : Int → Int → Int → Int) (board : Board) (move : Move)
    (hT : ∀ p o d : Int, 0 ≤ _table p o d ∧ _table p o d < 512)
    (h : MoveHistory.InRange board move) :
    ∃ t2, MoveHistory.add _table board move = some t2 ∧
      (∀ p o d : Int, p ≠ Board.ply board → t2 p o d = _table p o d) ∧
      (_table (Board.ply board) move.o move.d + 1 < 512 → ∀ o d : Int,
        t2 (Board.ply board) o d
          = if o = move.o ∧ d = move.d then _table (Board.ply board) o d + 1
            else _table (Board.ply board) o d) ∧
      (_table (Board.ply board) move.o move.d + 1 = 512 → ∀ o d : Int,
        t2 (Board.ply board) o d
          = (if o = move.o ∧ d = move.d then 512 else _table (Board.ply board) o d) / 2) := by
  unfold MoveHistory.InRange at h
  have hadd : ∀ x : Int, 0 ≤ x → x < 512 → Score.add x 1 = x + 1 := by
    intro x h0 h1
    unfold Score.add
    exact toInt32_id (by omega) (by omega)
  have hcell := hT (Board.ply board) move.o move.d
  have hc1 : Score.add (_table (Board.ply board) move.o move.d) 1
      = _table (Board.ply board) move.o move.d + 1 := hadd _ hcell.1 hcell.2
  refine ⟨_, by unfold MoveHistory.add; rw [if_pos h], ?_, ?_, ?_⟩
  · intro p o d hp
    simp only [if_neg hp]
  · intro hlt o d
    simp only [if_true, and_self, hc1]
    have hnot : ¬ (_table (Board.ply board) move.o move.d + 1 ≥ MoveHistory.memory_cap) := by
      unfold MoveHistory.memory_cap
      omega
    rw [if_neg hnot]
    by_cases hod : o = move.o ∧ d = move.d
    · simp only [if_pos hod]
      exact hadd _ (hT _ _ _).1 (hT _ _ _).2
    · simp only [if_neg hod]
  · intro heq o d
    simp only [if_true, and_self, hc1]
    have hyes : _table (Board.ply board) move.o move.d + 1 ≥ MoveHistory.memory_cap := by
      unfold MoveHistory.memory_cap
      omega
    rw [if_pos hyes]
    by_cases hod : o = move.o ∧ d = move.d
    · simp only [if_pos hod]
      obtain ⟨ho, hd⟩ := hod
      rw [ho, hd, hc1, heq]
      rfl
    · simp only [if_neg hod]
      have hb := hT (Board.ply board) o d
      rw [Int.tdiv_eq_ediv hb.1 (by decide)]
      exact toInt32_id (by omega) (by omega)

theorem add_all_bounds : ∀ (calls : List (Board × Move)) (_table : Int → Int → Int → Int),
    (∀ p o d : Int, 0 ≤ _table p o d ∧ _table p o d < 512) →
    (∀ c ∈ calls, MoveHistory.InRange c.1 c.2) →
    ∃ t, MoveHistory.add_all _table calls = some t ∧
      ∀ p o d : Int, 0 ≤ t p o d ∧ t p o d < 512
  | [], _table, hT, _ => ⟨_table, rfl, hT⟩
  | c :: cs, _table, hT, h => by
    obtain ⟨t2, h2⟩ := add_some _table c.1 c.2 (h c (List.mem_cons_self c cs))
    have hb := add_keeps_bounds _table c.1 c.2 t2 hT h2
    obtain ⟨t, ht, hbt⟩ := add_all_bounds cs t2 hb (fun d hd => h d (List.mem_cons_of_mem c hd))
    refine ⟨t, ?_, hbt⟩
    unfold MoveHistory.add_all
    rw [h2]
    exact ht

/-- C35: from the table of zeros, after any sequence of calls `add(board, move)` whose indices
are inside the table (a ply in `0..1023` and squares of the board), the calls return and every
cell of every ply holds a value `v` with `0 <= v < 512`.  A further call changes no cell of
another ply; when it brings the cell of the move to less than 512 it adds 1 to that cell and
changes nothing else, and when it brings the cell to 512 every cell of the table of that ply
becomes the half of its value, rounded down (256 for the cell of the move). -/
theorem C35_history_cells_stay_below_cap (calls : List (Board × Move))
    (h : ∀ c ∈ calls, MoveHistory.InRange c.1 c.2) :
    ∃ t, MoveHistory.add_all MoveHistory.zero_table calls = some t ∧
      (∀ p o d : Int, 0 ≤ t p o d ∧ t p o d < 512) ∧
      ∀ (board : Board) (move : Move), MoveHistory.InRange board move →
        ∃ t2, MoveHistory.add t board move = some t2 ∧
          (∀ p o d : Int, 0 ≤ t2 p o d ∧ t2 p o d < 512) ∧
          (∀ p o d : Int, p ≠ Board.ply board → t2 p o d = t p o d) ∧
          (t (Board.ply board) move.o move.d + 1 < 512 → ∀ o d : Int,
            t2 (Board.ply board) o d
              = if o = move.o ∧ d = move.d then t (Board.ply board) o d + 1
                else t (Board.ply board) o d) ∧
          (t (Board.ply board) move.o move.d + 1 = 512 → ∀ o d : Int,
            t2 (Board.ply board) o d
              = (if o = move.o ∧ d = move.d then 512 else t (Board.ply board) o d) / 2) := by
  obtain ⟨t, ht, hb⟩ := add_all_bounds calls MoveHistory.zero_table
    (fun _ _ _ => ⟨le_refl (0 : Int), show (0 : Int) < 512 by decide⟩) h
  refine ⟨t, ht, hb, ?_⟩
  intro board move hr
  obtain ⟨t2, h2, h3, h4, h5⟩ := add_step t board move hb hr
  exact ⟨t2, h2, add_keeps_bounds t board move t2 hb h2, h3, h4, h5⟩

theorem start_e4_inRange : MoveHistory.InRange (Board.start Z0) ⟨12, 28, PieceType.CLEAR⟩ := by
  unfold MoveHistory.InRange
  decide!

/-- C35 for 511 calls `add` with the move e2-e4 on the initial position. -/
theorem C35_history_cells_stay_below_cap_witness :
    (∀ c ∈ List.replicate 511 (Board.start Z0, (⟨12, 28, PieceType.CLEAR⟩ : Move)),
      MoveHistory.InRange c.1 c.2)
    ∧ ∃ t, MoveHistory.add_all MoveHistory.zero_table
          (List.replicate 511 (Board.start Z0, (⟨12, 28, PieceType.CLEAR⟩ : Move))) = some t ∧
        (∀ p o d : Int, 0 ≤ t p o d ∧ t p o d < 512) :=
  have hyp : ∀ c ∈ List.replicate 511 (Board.start Z0, (⟨12, 28, PieceType.CLEAR⟩ : Move)),
      MoveHistory.InRange c.1 c.2 := fun c hc => by
    rw [List.eq_of_mem_replicate hc]
    exact start_e4_inRange
  ⟨hyp, (C35_history_cells_stay_below_cap _ hyp).imp fun _ ht => ⟨ht.1, ht.2.1⟩⟩

theorem promo_len (L : Color → PieceType → Nat) (c0 : Color) (promo : PieceType)
    (hp : promo ≠ PieceType.PAWN) (c : Color) (t : PieceType) :
    Position.bump (Position.bump L c0 PieceType.PAWN 0 1) c0 promo 1 0 c t
      = if c = c0 ∧ t = promo then L c0 promo + 1
        else if c = c0 ∧ t = PieceType.PAWN then L c0 PieceType.PAWN - 1 else L c t := by
  rw [bump_apply]
  by_cases h1 : c = c0 ∧ t = promo
  · rw [if_pos h1, if_pos h1, bump_apply, if_neg (fun h => hp h.2)]
    omega
  · rw [if_neg h1, if_neg h1, bump_apply]
    by_cases h2 : c = c0 ∧ t = PieceType.PAWN
    · rw [if_pos h2, if_pos h2]
      omega
    · rw [if_neg h2, if_neg h2]

/-- A square that holds a piece of `c` of type `t` makes the list of `c` and `t` non-empty. -/
theorem len_pos_of_square {b : Board} (hc : Consistent b) {c : Color} (hcn : c ≠ Color.None)
    {t : PieceType} (ht : t ≠ PieceType.CLEAR) {q : Int} (hq : 0 ≤ q ∧ q < 64)
    (hpl : b.position.pl q = (t, c)) : 1 ≤ b.position.len c t := by
  have hmem : q ∈ b._pieces_table c t := (lists_mem hc hcn t q).mpr ⟨hq, ht, hpl⟩
  exact List.length_pos_of_mem hmem

/-- The method `Board::move` keeps `PromoRoom`. -/
theorem promoRoom_step (Z : ZobristTables) {b : Board} (hc : Consistent b) {m : Move}
    (hm : b.position.MoveOk m) (hP : b.position.PromoRoom) (k : Nat) :
    (b.position.move m k).1.PromoRoom := by
  have ho := hm.o_valid
  have hod := hm.o_ne_d
  intro c t hcn ht
  rw [Position.move_len _ m k ho hod, Position.len_move_eq]
  have hle1 := Position.len_step_le b.position m c t
  have hle2 := Position.len_step_le b.position m c PieceType.PAWN
  have hinv := hP c t hcn ht
  by_cases hPm : Move.promotion m ≠ PieceType.CLEAR
  · obtain ⟨q1, q2, _⟩ := hm.promo hPm
    have q2' : Move.promotion m ≠ PieceType.PAWN := q2
    rw [if_pos hPm, q1, promo_len _ _ _ q2', promo_len _ _ _ q2']
    -- the pawn that moved stands on `m.d` after the first three steps
    obtain ⟨b1, mi1, b2, mi2, b3, _, _, _, c3, p3, _, _, _⟩ := move_steps3 Z hc hm
    rw [steps3_eq] at p3
    obtain ⟨s1, _, _, _, _, _⟩ := Position.steps3_facts b.position m b._hash_key ho hod
    have hown : (b.position.pl m.o).2 ≠ Color.None := by
      rw [hm.own.2]; exact hm.turn_ok
    have hpl3 : b3.position.pl m.d = (PieceType.PAWN, (b.position.pl m.o).2) := by
      rw [p3, s1, ← q1]
    have hpos := len_pos_of_square c3 hown (by decide) hm.d_valid hpl3
    rw [p3, Position.steps3_len] at hpos
    by_cases hcc : c = (b.position.pl m.o).2
    · subst hcc
      have hle3 := Position.len_step_le b.position m (b.position.pl m.o).2 (Move.promotion m)
      by_cases htp : t = Move.promotion m
      · subst htp
        rw [if_pos ⟨rfl, rfl⟩, if_neg (fun h => q2' h.2.symm), if_pos ⟨rfl, rfl⟩]
        omega
      · rw [if_neg (fun h => htp h.2), if_neg (fun h => ht h.2), if_neg (fun h => q2' h.2.symm),
          if_pos ⟨rfl, rfl⟩]
        omega
    · rw [if_neg (fun h => hcc h.1), if_neg (fun h => hcc h.1), if_neg (fun h => hcc h.1),
        if_neg (fun h => hcc h.1)]
      omega
  · rw [if_neg hPm]
    omega

/-- The boards reached by moves that are `Listed` and by matching undos keep `PromoRoom`, when
the first board has it. -/
theorem reach_room (Z : ZobristTables) {Init : Board → Prop} {Ok : Board → Move → Prop}
    (hInit : ∀ b, Init b → Consistent b ∧ CapOk b ∧ b.turn ≠ Color.None ∧ b.position.PromoRoom)
    (hOk : ∀ b m, Ok b m → Consistent b → b.turn ≠ Color.None → b.position.Listed m)
    {b : Board} {st : List (Move × MoveInfo)} (h : Reach Z Init Ok b st) :
    Consistent b ∧ CapOk b ∧ b.turn ≠ Color.None ∧ b.position.PromoRoom ∧
      StackRoom b.position st := by
  induction h with
  | init hi =>
    obtain ⟨h1, h2, h3, h4⟩ := hInit _ hi
    exact ⟨h1, h2, h3, h4, trivial⟩
  | move hr hok hmv ih =>
    rename_i b0 b1 st0 m mi
    obtain ⟨c0, cap0, t0, r0, s0⟩ := ih
    have hl := hOk _ _ hok c0 t0
    obtain ⟨hm, ⟨c1, cap1, t1, p1, i1, _, _⟩, _⟩ := move_step Z c0 cap0 t0 hl hmv
    refine ⟨c1, cap1, t1, ?_, b0, b0._hash_key, c0, cap0, t0, hm, p1, i1, r0, s0⟩
    rw [p1]
    exact promoRoom_step Z c0 hm r0 _
  | undo hr hu ih =>
    rename_i b0 b1 st0 m mi
    obtain ⟨c1, cap1, t1, r1, bx, k, cx, capx, tx, hm, px, ix, rx, sx⟩ := ih
    obtain ⟨c0, cap0, p0, _, _⟩ := undo_position Z cx capx hm k c1 px ix hu
    refine ⟨c0, cap0, ?_, ?_, ?_⟩
    · have : b0.turn = bx.turn := congrArg Position.turn p0
      rw [this]; exact tx
    · rw [p0]; exact rx
    · rw [p0]; exact sx

/-- The piece lists that `Board::insert_piece` leaves do not depend on the hash codes. -/
theorem insert_piece_table (Z Z' : ZobristTables) (b b' : Board)
    (h : b._pieces_table = b'._pieces_table) (p : Int) (t : PieceType) (o : Color) :
    (Board.insert_piece Z b p t o).map (fun x => x._pieces_table)
      = (Board.insert_piece Z' b' p t o).map (fun x => x._pieces_table) := by
  unfold Board.insert_piece
  by_cases h1 : Place.is_valid p = true ∧ o ≠ Color.None
  · rw [if_pos h1, if_pos h1]
    unfold Board.insert_piece2
    simp only [h]
    by_cases h2 : Place.is_valid p = true ∧ o ≠ Color.None ∧
        (b'._pieces_table o t).length < PieceVector.cap
    · rw [if_pos h2, if_pos h2]
      rfl
    · rw [if_neg h2, if_neg h2]
  · rw [if_neg h1, if_neg h1]

/-- The piece lists that the placement loop of `Board::set_fen` leaves do not depend on the
hash codes. -/
theorem placement_table (Z Z' : ZobristTables) : ∀ (cs : List Char) (b b' : Board) (l c : Int),
    b._pieces_table = b'._pieces_table →
    (Board.set_fen_placement Z cs (b, l, c)).map (fun s => s.1._pieces_table)
      = (Board.set_fen_placement Z' cs (b', l, c)).map (fun s => s.1._pieces_table) := by
  intro cs
  induction cs with
  | nil =>
    intro b b' l c h
    unfold Board.set_fen_placement
    simp only [Option.map_some']
    rw [h]
  | cons ch cs ih =>
    intro b b' l c h
    unfold Board.set_fen_placement
    by_cases h1 : ch = '/'
    · rw [if_pos h1, if_pos h1]
      exact ih b b' _ _ h
    · rw [if_neg h1, if_neg h1]
      by_cases h2 : isdigit ch = true
      · rw [if_pos h2, if_pos h2]
        exact ih b b' _ _ h
      · rw [if_neg h2, if_neg h2]
        have hi := insert_piece_table Z Z' b b' h (Place.of_line_of_col l c)
          (letter_to_piece (tolower ch)) (if isupper ch = true then Color.White else Color.Black)
        simp only []
        cases e1 : Board.insert_piece Z b (Place.of_line_of_col l c)
            (letter_to_piece (tolower ch)) (if isupper ch = true then Color.White else Color.Black) with
        | none =>
          rw [e1] at hi
          cases e2 : Board.insert_piece Z' b' (Place.of_line_of_col l c)
              (letter_to_piece (tolower ch))
              (if isupper ch = true then Color.White else Color.Black) with
          | none => rfl
          | some x2 => rw [e2] at hi; exact absurd hi (by simp)
        | some x1 =>
          rw [e1] at hi
          cases e2 : Board.insert_piece Z' b' (Place.of_line_of_col l c)
              (letter_to_piece (tolower ch))
              (if isupper ch = true then Color.White else Color.Black) with
          | none => rw [e2] at hi; exact absurd hi (by simp)
          | some x2 =>
            rw [e2] at hi
            simp only [Option.map_some', Option.some.injEq] at hi
            simp only [Option.some_bind]
            exact ih x1 x2 _ _ hi

/-- The piece lists of the board of `set_initial` are those of the sample board. -/
theorem initial_table (Z : ZobristTables) (b : Board) (h : Board.IsInitial Z b) :
    b._pieces_table = (Board.start Z0)._pieces_table := by
  obtain ⟨pl, tp, rest, s, hsp, hpl, _, e2, _⟩ := set_fen_fields Z _ b (set_initial_fen Z h)
  obtain ⟨pl0, tp0, rest0, s0, hsp0, hpl0, _, e20, _⟩ :=
    set_fen_fields Z0 _ (Board.start Z0) (set_initial_fen Z0 (start_initial Z0))
  rw [hsp] at hsp0
  obtain rfl : pl = pl0 := (List.cons.inj hsp0).1
  have hp := placement_table Z Z0 pl Board.clear Board.clear 7 0 rfl
  rw [hpl, hpl0] at hp
  simp only [Option.map_some', Option.some.injEq] at hp
  rw [e2, e20, hp]

set_option maxRecDepth 1000000 in
theorem start_promoRoom : (Board.start Z0).position.PromoRoom := by
  intro c t hc ht
  show ((Board.start Z0)._pieces_table c t).length
    + ((Board.start Z0)._pieces_table c PieceType.PAWN).length ≤ 10
  cases c <;> cases t <;> first | exact absurd rfl hc | exact absurd rfl ht | decide!

theorem initial_room (Z : ZobristTables) (b : Board) (h : Board.IsInitial Z b) :
    Consistent b ∧ CapOk b ∧ b.turn ≠ Color.None ∧ b.position.PromoRoom := by
  obtain ⟨h1, h2, h3⟩ := initial_inv Z b h
  refine ⟨h1, h2, h3, ?_⟩
  intro c t hc ht
  show (b._pieces_table c t).length + (b._pieces_table c PieceType.PAWN).length ≤ 10
  rw [initial_table Z b h]
  exact start_promoRoom c t hc ht

/-- On a consistent board a piece list is as long as the number of squares with such a piece. -/
theorem count_eq_len {b : Board} (hc : Consistent b) {c : Color} (hcn : c ≠ Color.None)
    {t : PieceType} (ht : t ≠ PieceType.CLEAR) :
    Board.count b c t = (b._pieces_table c t).length := by
  unfold Board.count
  have hmemL : ∀ q ∈ b._pieces_table c t, (0 ≤ q ∧ q < 64) ∧ b.position.pl q = (t, c) :=
    fun q hq => ⟨((lists_mem hc hcn t q).mp hq).1, ((lists_mem hc hcn t q).mp hq).2.2⟩
  have hnd1 : ((b._pieces_table c t).map Int.toNat).Nodup := by
    apply List.Nodup.map_on _ (lists_nodup hc hcn t)
    intro x hx y hy hxy
    have := (hmemL x hx).1
    have := (hmemL y hy).1
    omega
  have hnd2 : ((List.range 64).filter (fun i : Nat =>
      decide ((b._squares (i : Int)).type = t ∧ (b._squares (i : Int)).owner = c))).Nodup :=
    (List.nodup_range 64).filter _
  have hperm : ((b._pieces_table c t).map Int.toNat).Perm
      ((List.range 64).filter (fun i : Nat =>
        decide ((b._squares (i : Int)).type = t ∧ (b._squares (i : Int)).owner = c))) := by
    rw [List.perm_ext_iff_of_nodup hnd1 hnd2]
    intro n
    rw [List.mem_map, List.mem_filter, List.mem_range, decide_eq_true_eq]
    constructor
    · rintro ⟨q, hq, rfl⟩
      obtain ⟨hv, hpl⟩ := hmemL q hq
      rw [position_pl_valid b hv.1 hv.2] at hpl
      have e : ((q.toNat : Nat) : Int) = q := Int.toNat_of_nonneg hv.1
      rw [e]
      exact ⟨by omega, congrArg Prod.fst hpl, congrArg Prod.snd hpl⟩
    · rintro ⟨hn, h1, h2⟩
      refine ⟨(n : Int), ?_, by simp⟩
      apply (lists_mem hc hcn t _).mpr
      refine ⟨⟨by omega, by omega⟩, ht, ?_⟩
      rw [position_pl_valid b (by omega) (by omega), h1, h2]
  rw [← hperm.length_eq, List.length_map]

theorem legalAnyPiece_of_legal {Z : ZobristTables} {b : Board} {m : Move}
    (h : Rules.Legal Z b m) : Rules.LegalAnyPiece Z b m :=
  ⟨m, h, rfl, rfl, Or.inl rfl⟩

theorem listed_same_squares {a : Position} {m0 m : Move} (hl : a.Listed m0) (ho : m0.o = m.o)
    (hd : m0.d = m.d)
    (hp : Move.promotion m ≠ PieceType.CLEAR →
      Move.promotion m0 ≠ PieceType.CLEAR ∧ Move.promotion m ≠ PieceType.PAWN) :
    a.Listed m := by
  have hdc : Move.dc m0 = Move.dc m := by unfold Move.dc; rw [hd]
  have hoc : Move.oc m0 = Move.oc m := by unfold Move.oc; rw [ho]
  exact
    { o_valid := by rw [← ho]; exact hl.o_valid
      d_valid := by rw [← hd]; exact hl.d_valid
      o_ne_d := by rw [← ho, ← hd]; exact hl.o_ne_d
      own := by rw [← ho]; exact hl.own
      dest := by rw [← hd]; exact hl.dest
      promo := fun h => by
        rw [← ho]
        exact ⟨(hl.promo (hp h).1).1, (hp h).2⟩
      king_side := by rw [← ho, ← hd]; exact hl.king_side
      queen_side := by rw [← ho, ← hd]; exact hl.queen_side }

theorem legalAnyPiece_listed (Z : ZobristTables) (b : Board) (m : Move)
    (h : Rules.LegalAnyPiece Z b m) (hc : Consistent b) (ht : b.turn ≠ Color.None) :
    b.position.Listed m := by
  obtain ⟨m0, hleg, ho, hd, hp⟩ := h
  have hl := listed_of_list_moves hc ht _ hleg.1
  apply listed_same_squares hl ho hd
  intro hne
  rcases hp with hp | ⟨hq, hp⟩
  · rw [hp] at hne
    exact ⟨hne, by rw [hp]; exact (hl.promo hne).2⟩
  · refine ⟨by rw [hq]; decide, ?_⟩
    rcases hp with hp | hp | hp <;> rw [hp] <;> decide

theorem pseudo_listed (b : Board) (m : Move) (h : Rules.Pseudo b m) (hc : Consistent b)
    (ht : b.turn ≠ Color.None) : b.position.Listed m :=
  listed_of_list_moves hc ht _ h

/-- A promotion that is `Listed` finds room in its piece list on a board with `PromoRoom`. -/
theorem promotion_has_room {b : Board} (hc : Consistent b) (ht : b.turn ≠ Color.None)
    (hroom : b.position.PromoRoom) {m : Move} (hl : b.position.Listed m)
    (hPm : Move.promotion m ≠ PieceType.CLEAR) :
    (Board.pieces b b.turn (Move.promotion m)).length < PieceVector.cap := by
  obtain ⟨q1, q2⟩ := hl.promo hPm
  have hpl : b.position.pl m.o = (PieceType.PAWN, b.turn) := Prod.ext q1 hl.own.2
  have hpos := len_pos_of_square hc ht (by decide) hl.o_valid hpl
  have hinv := hroom b.turn (Move.promotion m) ht q2
  have e1 : b.position.len b.turn (Move.promotion m)
      = (Board.pieces b b.turn (Move.promotion m)).length := rfl
  unfold PieceVector.cap
  omega

theorem reach_mono {Z : ZobristTables} {Init : Board → Prop} {Ok Ok2 : Board → Move → Prop}
    (hsub : ∀ b m, Ok b m → Ok2 b m) {b : Board} {st : List (Move × MoveInfo)}
    (h : Reach Z Init Ok b st) : Reach Z Init Ok2 b st := by
  induction h with
  | init hi => exact Reach.init hi
  | move _ hok hmv ih => exact Reach.move ih (hsub _ _ hok) hmv
  | undo _ hu ih => exact Reach.undo ih hu

/-- C37 fails on the code: no sequence of legal moves from the initial position, promotions to
a knight, a bishop or a rook among them, with matching undos interleaved, leads to a board on
which a side has more than 10 pieces of one type on the squares, or on which a promotion finds
10 pieces already in the list it appends to. -/
theorem C37_counterexample :
    ¬ ∃ (b : Board) (st : List (Move × MoveInfo)),
      Reach Z0 (Board.IsInitial Z0) (Rules.LegalAnyPiece Z0) b st ∧
      ((∃ (c : Color) (t : PieceType), c ≠ Color.None ∧ t ≠ PieceType.CLEAR ∧
          10 < Board.count b c t) ∨
       (∃ m : Move, Rules.LegalAnyPiece Z0 b m ∧ Move.promotion m ≠ PieceType.CLEAR ∧
          PieceVector.cap ≤ (Board.pieces b b.turn (Move.promotion m)).length)) := by
  rintro ⟨b, st, hr, hbad⟩
  obtain ⟨hc, hcap, ht, hroom, _⟩ := reach_room Z0 (initial_room Z0) (legalAnyPiece_listed Z0) hr
  rcases hbad with ⟨c, t, hcn, htn, hgt⟩ | ⟨m, hm, hPm, hfull⟩
  · rw [count_eq_len hc hcn htn] at hgt
    have := hcap c t
    unfold PieceVector.cap at this
    omega
  · have := promotion_has_room hc ht hroom (legalAnyPiece_listed Z0 b m hm hc ht) hPm
    omega

/-- C37, amended: on every board reached from the initial position by legal moves, promotions
to a knight, a bishop or a rook among them, with matching `undo` calls interleaved, for White
and for Black the number of pieces of one type other than the pawn plus the number of pawns is
at most 10; so every piece list has as many entries as the side has such pieces on the squares,
at most the 10 that a `PieceVector` holds, and a promotion appends to a list with at most 9
entries.  The capacity is not smaller than the number of pieces of one type that a side can
own. -/
theorem C37_piece_lists_fit_the_capacity (Z : ZobristTables) (b : Board)
    (st : List (Move × MoveInfo))
    (h : Reach Z (Board.IsInitial Z) (Rules.LegalAnyPiece Z) b st) :
    (∀ (c : Color) (t : PieceType), c ≠ Color.None → t ≠ PieceType.PAWN →
      (Board.pieces b c t).length + (Board.pieces b c PieceType.PAWN).length ≤ 10)
    ∧ (∀ (c : Color) (t : PieceType), c ≠ Color.None → t ≠ PieceType.CLEAR →
      Board.count b c t = (Board.pieces b c t).length ∧ Board.count b c t ≤ PieceVector.cap)
    ∧ (∀ m : Move, Rules.LegalAnyPiece Z b m ∨ Rules.Pseudo b m →
      Move.promotion m ≠ PieceType.CLEAR →
      (Board.pieces b b.turn (Move.promotion m)).length < PieceVector.cap) := by
  obtain ⟨hc, hcap, ht, hroom, _⟩ := reach_room Z (initial_room Z) (legalAnyPiece_listed Z) h
  refine ⟨hroom, ?_, ?_⟩
  · intro c t hcn htn
    refine ⟨count_eq_len hc hcn htn, ?_⟩
    rw [count_eq_len hc hcn htn]
    exact hcap c t
  · intro m hm hPm
    rcases hm with hm | hm
    · exact promotion_has_room hc ht hroom (legalAnyPiece_listed Z b m hm hc ht) hPm
    · exact promotion_has_room hc ht hroom (pseudo_listed b m hm hc ht) hPm

/-- C37 on the board after `1. e4 d5`. -/
theorem C37_piece_lists_fit_the_capacity_witness :
    Reach Z0 (Board.IsInitial Z0) (Rules.LegalAnyPiece Z0) (Board.after_e4_d5 Z0)
      [(⟨51, 35, PieceType.CLEAR⟩,
        (Board.after Z0 (Board.after Z0 (Board.start Z0) ⟨12, 28, PieceType.CLEAR⟩).1
          ⟨51, 35, PieceType.CLEAR⟩).2),
       (⟨12, 28, PieceType.CLEAR⟩,
        (Board.after Z0 (Board.start Z0) ⟨12, 28, PieceType.CLEAR⟩).2)]
    ∧ (∀ (c : Color) (t : PieceType), c ≠ Color.None → t ≠ PieceType.PAWN →
      (Board.pieces (Board.after_e4_d5 Z0) c t).length
        + (Board.pieces (Board.after_e4_d5 Z0) c PieceType.PAWN).length ≤ 10) :=
  ⟨reach_mono (fun _ _ h => legalAnyPiece_of_legal h) reach_after_e4_d5,
    (C37_piece_lists_fit_the_capacity Z0 _ _
      (reach_mono (fun _ _ h => legalAnyPiece_of_legal h) reach_after_e4_d5)).1⟩

end Blackbit
